import Mathlib

/-!
# A verification development for `db/btree.cpp`

The on-disk B-tree of the index engine, embedded shallowly: pages are values of
`BtreeBucket`, the data file is a map from locators to pages, and every routine
of `btree.cpp` that the properties below talk about is a function on that state.

Conventions of the embedding.

* A slot (`_KeyNode`) carries its key directly; the byte offset `keyDataOfs` into
  the key heap is a matter of memory layout and is only tracked through
  `topSize` and `emptySize`.
* `n` is the length of the slot list of a page.
* `int` quantities are `Int`; sizes stay far below `2^31`.
* A thrown exception leaves the state as it was when the throw happened, so the
  result of a mutating routine is a pair of an outcome and a state.
* Loops and recursions that follow locators are bounded by a `fuel` argument;
  `Err.outOfFuel` is not an outcome of the program.
-/

namespace mongo

/-! ## Locators -/

/-- Modelled from the spec: `DiskLoc` is declared in a header that is not part of
`btree.cpp`; a locator is a pair (file, offset), orderable by file then offset. -/
structure DiskLoc where
  a : Int
  ofs : Int
deriving DecidableEq, Repr

namespace DiskLoc

/-- Modelled from the spec: the null sentinel, `DiskLoc()`. -/
def Null : DiskLoc := ⟨-1, 0⟩

/-- Modelled from the spec: the null test of a locator. -/
def isNull (l : DiskLoc) : Bool := decide (l = Null)

/-- Modelled from the spec: `compare` orders locators by file, then by offset;
the result is negative, zero or positive. -/
def compare (l r : DiskLoc) : Int :=
  if l.a - r.a ≠ 0 then l.a - r.a else l.ofs - r.ofs

/-- Modelled from the spec: the locator with the low bit of the offset cleared
(`GETOFS() &= ~1`). -/
def clearLow (l : DiskLoc) : DiskLoc := ⟨l.a, l.ofs - l.ofs % 2⟩

/-- Modelled from the spec: the locator with the low bit of the offset set
(`GETOFS() |= 1`). -/
def setLow (l : DiskLoc) : DiskLoc := ⟨l.a, l.ofs - l.ofs % 2 + 1⟩

end DiskLoc

/-- Modelled from the spec: `minDiskLoc`, the least record locator, declared
outside `btree.cpp`. -/
def minDiskLoc : DiskLoc := ⟨0, 1⟩

/-! ## Keys and their comparator -/

/-- Modelled from the spec: a key document (`BSONObj`) is opaque to the tree. It
has a size in bytes and a sequence of field values which the comparator reads. -/
structure BSONObj where
  objsize : Int
  elems : List Int
deriving DecidableEq, Repr

/-- Modelled from the spec: `Ordering` is a bit mask over field positions, bit
`i` set meaning that field `i` is descending. -/
structure Ordering where
  bits : Nat
deriving DecidableEq, Repr

/-- Modelled from the spec: `Ordering::descending(mask)`. -/
def Ordering.descending (o : Ordering) (mask : Nat) : Bool :=
  decide (o.bits &&& mask ≠ 0)

/-- Modelled from the spec: comparison of two field values (`BSONElement::woCompare`),
with result -1, 0 or 1. -/
def elemCompare (l r : Int) : Int :=
  if l < r then -1 else if r < l then 1 else 0

/-- Modelled from the spec: the loop of `BSONObj::woCompare(r, order)`: fields
are compared in turn, a descending position negates the result, and a document
that ends first is the smaller one. `mask` is the `unsigned` walking bit. -/
def woCompareAux (o : Ordering) : Nat → List Int → List Int → Int
  | _, [], [] => 0
  | _, [], _ :: _ => -1
  | _, _ :: _, [] => 1
  | mask, l :: ls, r :: rs =>
    let x := elemCompare l r
    let x := if o.descending mask then -x else x
    if x ≠ 0 then x else woCompareAux o ((mask * 2) % 2 ^ 32) ls rs

/-- Modelled from the spec: `BSONObj::woCompare(r, order)`, the comparator of
keys under an ordering. -/
def BSONObj.woCompare (l r : BSONObj) (o : Ordering) : Int :=
  woCompareAux o 1 l.elems r.elems

/-- Modelled from the spec: `BSONObj::woEqual`; equality of keys is defined by the
comparator. -/
def BSONObj.woEqual (l r : BSONObj) : Bool := decide (l.woCompare r ⟨0⟩ = 0)

/-! ## Pages -/

/-- Modelled from the spec: the three sizes that the page layout fixes at build
time. They are declared in `btree.h`, which is not part of `btree.cpp`. -/
structure Layout where
  BucketSize : Int
  headerSize : Int
  slotSize : Int
deriving DecidableEq, Repr

/-- The largest key size the tree accepts (`KeyMax = BucketSize / 10`). -/
def KeyMax (c : Layout) : Int := c.BucketSize.tdiv 10

/-- A slot of a page: `_KeyNode` together with the key its offset designates. -/
structure _KeyNode where
  prevChildBucket : DiskLoc
  recordLoc : DiskLoc
  key : BSONObj
deriving DecidableEq, Repr

/-- Modelled from the spec: the low bit of the record locator's offset marks a
slot as unused. -/
def _KeyNode.isUnused (k : _KeyNode) : Bool := decide (k.recordLoc.ofs % 2 = 1)

/-- Modelled from the spec: a slot is used when it is not unused. -/
def _KeyNode.isUsed (k : _KeyNode) : Bool := !k.isUnused

/-- Modelled from the spec: `setUnused` sets the low bit of the record locator. -/
def _KeyNode.setUnused (k : _KeyNode) : _KeyNode :=
  { k with recordLoc := k.recordLoc.setLow }

/-- Modelled from the spec: `setUsed` clears the low bit of the record locator. -/
def _KeyNode.setUsed (k : _KeyNode) : _KeyNode :=
  { k with recordLoc := k.recordLoc.clearLow }

/-- A page: the header fields of `BucketBasics` and the slot array. `packed` is
the `Packed` bit of `flags`. -/
structure BtreeBucket where
  parent : DiskLoc
  nextChild : DiskLoc
  packed : Bool
  emptySize : Int
  topSize : Int
  keys : List _KeyNode
deriving DecidableEq, Repr

/-- Outcomes other than a normal return. -/
inductive Err where
  /-- A failed `assert`. -/
  | assertion
  /-- A failed `massert` with its code. -/
  | massert (code : Nat)
  /-- The user assertion `ASSERT_ID_DUPKEY`. -/
  | dupKey
  /-- The exception 10287 thrown by `alreadyInIndex`. -/
  | alreadyInIndex
  /-- A read through a locator that maps to no page, or a slot index out of range. -/
  | fault
  /-- The bound on iterations of the embedding was reached. -/
  | outOfFuel
deriving DecidableEq, Repr

namespace BtreeBucket

/-- The slot count `n`. -/
def n (b : BtreeBucket) : Int := b.keys.length

/-- The page's own size, `Size()`. -/
def totalDataSize (c : Layout) : Int := c.BucketSize - c.headerSize

/-- The page written by `BucketBasics::init`. -/
def init (c : Layout) : BtreeBucket :=
  { parent := DiskLoc.Null
    nextChild := DiskLoc.Null
    packed := true
    emptySize := totalDataSize c
    topSize := 0
    keys := [] }

/-- Modelled from the spec: `childForPos(p)` is the left child of slot `p`, and
`nextChild` for `p = n`. -/
def childForPos (b : BtreeBucket) (p : Nat) : Option DiskLoc :=
  if p = b.keys.length then some b.nextChild
  else (b.keys.get? p).map (·.prevChildBucket)

/-- Modelled from the spec: assignment through the reference `childForPos(p)`. -/
def setChildForPos (b : BtreeBucket) (p : Nat) (l : DiskLoc) : Option BtreeBucket :=
  if p = b.keys.length then some { b with nextChild := l }
  else match b.keys.get? p with
    | none => none
    | some k => some { b with keys := b.keys.set p { k with prevChildBucket := l } }

/-- The effect of `markUnused`. -/
def markUnused (b : BtreeBucket) (keypos : Nat) : Except Err BtreeBucket :=
  match b.keys.get? keypos with
  | none => .error .assertion
  | some k => .ok { b with keys := b.keys.set keypos k.setUnused }

/-- The effect of `_unalloc`. -/
def _unalloc (b : BtreeBucket) (bytes : Int) : BtreeBucket :=
  { b with topSize := b.topSize - bytes, emptySize := b.emptySize + bytes }

/-- The effect of `_alloc`; the offset it returns is positive or the assertion
fails. -/
def _alloc (c : Layout) (b : BtreeBucket) (bytes : Int) : Except Err BtreeBucket :=
  let b1 := { b with topSize := b.topSize + bytes, emptySize := b.emptySize - bytes }
  let ofs := totalDataSize c - b1.topSize
  if ofs > 0 then .ok b1 else .error .assertion

/-- The effect of `_delKeyAtPos(keypos, mayEmpty)`. With `n = 0` the program
would leave `n = -1`; that state has no counterpart here and is a fault. -/
def _delKeyAtPos (c : Layout) (b : BtreeBucket) (keypos : Nat) (mayEmpty : Bool) :
    Except Err BtreeBucket :=
  if ¬ (keypos ≤ b.keys.length) then .error .assertion
  else match b.childForPos keypos with
    | none => .error .fault
    | some ch =>
      if ¬ ch.isNull then .error .assertion
      else if ¬ ((mayEmpty ∧ b.n > 0) ∨ b.n > 1 ∨ b.nextChild.isNull) then .error .assertion
      else if b.keys.length = 0 then .error .fault
      else
        let N := b.keys.length - 1
        .ok { b with
              emptySize := b.emptySize + c.slotSize
              keys := b.keys.take (min keypos N) ++ (b.keys.drop (keypos + 1))
              packed := false }

/-- The effect of `popBack`, with the record locator and key it hands back. -/
def popBack (c : Layout) (b : BtreeBucket) : Except Err ((DiskLoc × BSONObj) × BtreeBucket) :=
  match b.keys.getLast? with
  | none => .error (.massert 10282)
  | some kn =>
    if ¬ kn.isUsed then .error .assertion
    else if ¬ b.nextChild.isNull then .error (.massert 10283)
    else
      let b1 := { b with nextChild := kn.prevChildBucket
                         keys := b.keys.dropLast
                         emptySize := b.emptySize + c.slotSize }
      .ok ((kn.recordLoc, kn.key), b1._unalloc kn.key.objsize)

/-- The effect of `_pushBack`, with its boolean result. -/
def _pushBack (c : Layout) (b : BtreeBucket) (recordLoc : DiskLoc) (key : BSONObj)
    (order : Ordering) (prevChild : DiskLoc) : Except Err (Bool × BtreeBucket) :=
  let bytesNeeded := key.objsize + c.slotSize
  if bytesNeeded > b.emptySize then .ok (false, b)
  else
    let ordered : Bool := match b.keys.getLast? with
      | none => true
      | some last => decide (last.key.woCompare key order ≤ 0)
    if ¬ ordered then .error .assertion
    else
      let b1 := { b with emptySize := b.emptySize - c.slotSize }
      match _alloc c b1 key.objsize with
      | .error e => .error e
      | .ok b2 => .ok (true, { b2 with keys := b.keys ++ [⟨prevChild, recordLoc, key⟩] })

/-- Modelled from the spec: `pushBack` is `_pushBack` with its result asserted. -/
def pushBack (c : Layout) (b : BtreeBucket) (recordLoc : DiskLoc) (key : BSONObj)
    (order : Ordering) (prevChild : DiskLoc) : Except Err BtreeBucket :=
  match _pushBack c b recordLoc key order prevChild with
  | .error e => .error e
  | .ok (true, b1) => .ok b1
  | .ok (false, _) => .error .assertion

/-- The test `mayDropKey(index, refPos)` on the slot `k` found at `index`. -/
def mayDropKey (index : Nat) (k : _KeyNode) (refPos : Nat) : Bool :=
  decide (index > 0) && decide (index ≠ refPos) && k.isUnused && k.prevChildBucket.isNull

/-- The value of `packedDataSize(refPos)` when the page is not packed: the loop
over the slots from index `j` on. -/
def packedDataSizeLoop (c : Layout) (refPos : Nat) : Nat → List _KeyNode → Int
  | _, [] => 0
  | j, k :: ks =>
    if mayDropKey j k refPos then packedDataSizeLoop c refPos (j + 1) ks
    else k.key.objsize + c.slotSize + packedDataSizeLoop c refPos (j + 1) ks

/-- The value of `packedDataSize(refPos)`. -/
def packedDataSize (c : Layout) (b : BtreeBucket) (refPos : Nat) : Int :=
  if b.packed then c.BucketSize - b.emptySize - c.headerSize
  else packedDataSizeLoop c refPos 0 b.keys

/-- The loop of `pack`: `j` is the index of the slot at the head of the list of
slots still to be visited, `out` the survivors so far in reverse (so `i` is its
length), and the result is the survivors, `refPos` and `topSize`. -/
def packLoop : Nat → List _KeyNode → List _KeyNode → Nat → Int → List _KeyNode × Nat × Int
  | _, [], out, refPos, topSize => (out.reverse, refPos, topSize)
  | j, k :: ks, out, refPos, topSize =>
    if mayDropKey j k refPos then packLoop (j + 1) ks out refPos topSize
    else
      let i := out.length
      let refPos := if i ≠ j ∧ refPos = j then i else refPos
      packLoop (j + 1) ks (k :: out) refPos (topSize + k.key.objsize)

/-- The effect of `pack(order, refPos)`, with the new value of `refPos`. -/
def pack (c : Layout) (b : BtreeBucket) (refPos : Nat) : Except Err (BtreeBucket × Nat) :=
  if b.packed then .ok (b, refPos)
  else
    let tdz := totalDataSize c
    let (ks, refPos1, topSize) := packLoop 0 b.keys [] refPos 0
    let refPos2 := if refPos1 = b.keys.length then ks.length else refPos1
    let dataUsed := topSize
    let emptySize := tdz - dataUsed - (ks.length : Int) * c.slotSize
    if ¬ (emptySize ≥ 0) then .error .assertion
    else .ok ({ b with topSize := topSize, keys := ks, emptySize := emptySize, packed := true },
              refPos2)

/-- The effect of `truncateTo(N, order, refPos)`, with the new value of `refPos`. -/
def truncateTo (c : Layout) (b : BtreeBucket) (N : Nat) (refPos : Nat) :
    Except Err (BtreeBucket × Nat) :=
  pack c { b with keys := b.keys.take N, packed := false } refPos

/-- The effect of `basicInsert`, with its boolean result and the new value of
`keypos`. -/
def basicInsert (c : Layout) (b : BtreeBucket) (keypos : Nat) (recordLoc : DiskLoc)
    (key : BSONObj) : Except Err (Bool × BtreeBucket × Nat) :=
  if ¬ (keypos ≤ b.keys.length) then .error .assertion
  else
    let bytesNeeded := key.objsize + c.slotSize
    let packed : Except Err (BtreeBucket × Nat) :=
      if bytesNeeded > b.emptySize then pack c b keypos else .ok (b, keypos)
    match packed with
    | .error e => .error e
    | .ok (b1, keypos1) =>
      if bytesNeeded > b1.emptySize then .ok (false, b1, keypos1)
      else
        let b2 := { b1 with emptySize := b1.emptySize - c.slotSize }
        match _alloc c b2 key.objsize with
        | .error e => .error e
        | .ok b3 =>
          .ok (true,
               { b3 with keys := b1.keys.take keypos1 ++
                                   ⟨DiskLoc.Null, recordLoc, key⟩ :: b1.keys.drop keypos1 },
               keypos1)

/-- The loop of `splitPos`: slots are visited from the right (the list is the
slot array reversed, `i` the index of its head); the result is the index at
which the accumulated size first exceeds the limit, or 0. -/
def splitPosLoop (rightSizeLimit : Int) : List _KeyNode → Nat → Int → Nat
  | [], _, _ => 0
  | k :: ks, i, rightSize =>
    let rightSize := rightSize + k.key.objsize
    if rightSize > rightSizeLimit then i else splitPosLoop rightSizeLimit ks (i - 1) rightSize

/-- The value of `splitPos(keypos)`. -/
def splitPos (b : BtreeBucket) (keypos : Nat) : Except Err Nat :=
  if ¬ (b.keys.length > 2) then .error .assertion
  else
    let rightSizeLimit := b.topSize.tdiv (if keypos = b.keys.length then 10 else 2)
    let split := splitPosLoop rightSizeLimit b.keys.reverse (b.keys.length - 1) 0
    let split := if split < 1 then 1 else if split > b.keys.length - 2 then b.keys.length - 2 else split
    .ok split

end BtreeBucket

/-! ## The data file and the index -/

/-- The mapped pages, the root locator held by the index (`idx.head`), and the
next offset the page allocator hands out. Modelled from the spec: the allocator
is an external collaborator that returns the locator of a fresh page; here it
hands out increasing offsets of file 0 and never reuses a freed page. -/
structure State where
  pages : DiskLoc → Option BtreeBucket
  head : DiskLoc
  allocNext : Int

/-- The outcome of a mutating routine and the state it leaves. -/
abbrev Res (α : Type) := Except Err α × State

namespace State

/-- The state with page `l` replaced. -/
def put (s : State) (l : DiskLoc) (b : BtreeBucket) : State :=
  { s with pages := Function.update s.pages l (some b) }

/-- The state with page `l` freed. -/
def free (s : State) (l : DiskLoc) : State :=
  { s with pages := Function.update s.pages l none }

/-- The state with the `parent` field of page `l` set, if `l` is mapped. -/
def setParent (s : State) (l : DiskLoc) (p : DiskLoc) : Option State :=
  match s.pages l with
  | none => none
  | some b => some (s.put l { b with parent := p })

end State

namespace BtreeBucket

/-- `childForPos` at a position held in an `int`. -/
def childForPosI (b : BtreeBucket) (p : Int) : Option DiskLoc :=
  if p < 0 then none else b.childForPos p.toNat

/-- The effect of `addBucket`: a fresh page is allocated and initialised. -/
def addBucket (c : Layout) (s : State) : DiskLoc × State :=
  let loc : DiskLoc := ⟨0, s.allocNext⟩
  (loc, { (s.put loc (init c)) with allocNext := s.allocNext + c.BucketSize })

/-- The effect of `deallocBucket`: the page is returned to the allocator. -/
def deallocBucket (s : State) (thisLoc : DiskLoc) : State := s.free thisLoc

/-! ### Cursor steps and searches -/

/-- The descent loop of `advance`. -/
def advanceDown (s : State) (direction adj : Int) : Nat → DiskLoc → Except Err (DiskLoc × Int)
  | 0, _ => .error .outOfFuel
  | fuel + 1, nextDown =>
    match s.pages nextDown with
    | none => .error .fault
    | some nb =>
      let keyOfs : Int := if direction > 0 then 0 else nb.n - 1
      match nb.childForPosI (keyOfs + adj) with
      | none => .error .fault
      | some loc =>
        if loc.isNull then .ok (nextDown, keyOfs)
        else advanceDown s direction adj fuel loc

/-- The scan `for i in [0, n)` of `advance` for the slot whose child link on the
side `adj` is `childLoc`. -/
def findChildLink (an : BtreeBucket) (adj : Nat) (childLoc : DiskLoc) : Option Nat :=
  (List.range an.keys.length).find? (fun i => an.childForPos (i + adj) == some childLoc)

/-- The ascent loop of `advance`; `keyOfs` is the value the output parameter
holds when the loop is entered. -/
def advanceUp (s : State) (direction : Int) (adj : Nat) (keyOfs : Int) :
    Nat → DiskLoc → DiskLoc → Except Err (DiskLoc × Int)
  | 0, _, _ => .error .outOfFuel
  | fuel + 1, childLoc, ancestor =>
    if ancestor.isNull then .ok (DiskLoc.Null, keyOfs)
    else match s.pages ancestor with
      | none => .error .fault
      | some an =>
        match findChildLink an adj childLoc with
        | some i => .ok (ancestor, (i : Int))
        | none =>
          if ¬ (direction < 0 ∨ an.nextChild = childLoc) then .error .assertion
          else advanceUp s direction adj keyOfs fuel ancestor an.parent

/-- The cursor step `advance(thisLoc, keyOfs, direction)`: the page and the
position of the next entry in the direction, or the null locator. -/
def advance (fuel : Nat) (s : State) (thisLoc : DiskLoc) (keyOfs : Int) (direction : Int) :
    Except Err (DiskLoc × Int) :=
  match s.pages thisLoc with
  | none => .error .fault
  | some b =>
    if keyOfs < 0 ∨ keyOfs ≥ b.n then .error .assertion
    else
      let adj : Nat := if direction < 0 then 1 else 0
      let ko := keyOfs + direction
      match b.childForPosI (ko + adj) with
      | none => .error .fault
      | some nextDown =>
        if ¬ nextDown.isNull then advanceDown s direction adj fuel nextDown
        else if ko < b.n ∧ ko ≥ 0 then .ok (thisLoc, ko)
        else advanceUp s direction adj keyOfs fuel thisLoc b.parent

/-- The binary search of `find` on the slots of one page. `dupProbe` stands for
the block that consults `exists` and `wouldCreateDup` from the root; it is run
when the search first meets an unused slot with an equal key. The result is
`found` and `pos`. -/
def findLoop (b : BtreeBucket) (key : BSONObj) (recordLoc : DiskLoc) (order : Ordering)
    (assertIfDup : Bool) (dupProbe : Unit → Except Err Unit) :
    Nat → Int → Int → Bool → Except Err (Bool × Nat)
  | 0, _, _, _ => .error .outOfFuel
  | fuel + 1, l, h, dupsChecked =>
    if ¬ (l ≤ h) then .ok (false, l.toNat)
    else
      let m := (l + h) / 2
      match b.keys.get? m.toNat with
      | none => .error .fault
      | some M =>
        let x := key.woCompare M.key order
        let step (x : Int) (dupsChecked : Bool) : Except Err (Bool × Nat) :=
          if x < 0 then findLoop b key recordLoc order assertIfDup dupProbe fuel l (m - 1) dupsChecked
          else if x > 0 then
            findLoop b key recordLoc order assertIfDup dupProbe fuel (m + 1) h dupsChecked
          else .ok (true, m.toNat)
        if x = 0 then
          let checked : Except Err Bool :=
            if assertIfDup then
              if M.isUnused then
                if ¬ dupsChecked then
                  match dupProbe () with
                  | .error e => .error e
                  | .ok _ => .ok true
                else .ok dupsChecked
              else if M.recordLoc = recordLoc then .error .alreadyInIndex
              else .error .dupKey
            else .ok dupsChecked
          match checked with
          | .error e => .error e
          | .ok dc => step (recordLoc.compare M.recordLoc.clearLow) dc
        else step x dupsChecked

/-- The search `find` with the duplicate probe as a parameter. -/
def findWith (b : BtreeBucket) (key : BSONObj) (recordLoc : DiskLoc) (order : Ordering)
    (assertIfDup : Bool) (dupProbe : Unit → Except Err Unit) : Except Err (Bool × Nat) :=
  findLoop b key recordLoc order assertIfDup dupProbe (b.keys.length + 1) 0 (b.n - 1) false

/-- The recursive descent `locate`: the page, `pos` and `found`. -/
def locate (s : State) (key : BSONObj) (order : Ordering) (recordLoc : DiskLoc)
    (direction : Int) : Nat → DiskLoc → Except Err (DiskLoc × Int × Bool)
  | 0, _ => .error .outOfFuel
  | fuel + 1, thisLoc =>
    match s.pages thisLoc with
    | none => .error .fault
    | some b =>
      match findWith b key recordLoc order false (fun _ => .ok ()) with
      | .error e => .error e
      | .ok (true, p) => .ok (thisLoc, (p : Int), true)
      | .ok (false, p) =>
        match b.childForPos p with
        | none => .error .fault
        | some child =>
          let fromChild : Except Err (Option (DiskLoc × Int × Bool)) :=
            if ¬ child.isNull then
              match locate s key order recordLoc direction fuel child with
              | .error e => .error e
              | .ok (l, pos, found) => if ¬ l.isNull then .ok (some (l, pos, found)) else .ok none
            else .ok none
          match fromChild with
          | .error e => .error e
          | .ok (some r) => .ok r
          | .ok none =>
            if direction < 0 then
              if (p : Int) - 1 = -1 then .ok (DiskLoc.Null, (p : Int) - 1, false)
              else .ok (thisLoc, (p : Int) - 1, false)
            else
              if (p : Int) = b.n then .ok (DiskLoc.Null, (p : Int), false)
              else .ok (thisLoc, (p : Int), false)

/-- The loop of `exists` that skips unused slots. -/
def existsLoop (s : State) (key : BSONObj) : Nat → DiskLoc → Int → Except Err Bool
  | 0, _, _ => .error .outOfFuel
  | fuel + 1, b, pos =>
    if b.isNull then .ok false
    else match s.pages b with
      | none => .error .fault
      | some bucket =>
        if pos < 0 then .error .fault
        else match bucket.keys.get? pos.toNat with
          | none => .error .fault
          | some kn =>
            if kn.isUsed then .ok (kn.key.woEqual key)
            else match advance fuel s b pos 1 with
              | .error e => .error e
              | .ok (b1, pos1) => existsLoop s key fuel b1 pos1

/-- The check `exists(idx, thisLoc, key, order)`. -/
def exists_ (fuel : Nat) (s : State) (thisLoc : DiskLoc) (key : BSONObj) (order : Ordering) :
    Except Err Bool :=
  match locate s key order minDiskLoc 1 fuel thisLoc with
  | .error e => .error e
  | .ok (b, pos, _) => existsLoop s key fuel b pos

/-- The loop of `wouldCreateDup` that skips unused slots. -/
def wouldCreateDupLoop (s : State) (key : BSONObj) (self : DiskLoc) :
    Nat → DiskLoc → Int → Except Err Bool
  | 0, _, _ => .error .outOfFuel
  | fuel + 1, b, pos =>
    if b.isNull then .ok false
    else match s.pages b with
      | none => .error .fault
      | some bucket =>
        if pos < 0 then .error .fault
        else match bucket.keys.get? pos.toNat with
          | none => .error .fault
          | some kn =>
            if kn.isUsed then
              if kn.key.woEqual key then .ok (decide (kn.recordLoc ≠ self)) else .ok false
            else match advance fuel s b pos 1 with
              | .error e => .error e
              | .ok (b1, pos1) => wouldCreateDupLoop s key self fuel b1 pos1

/-- The check `wouldCreateDup(idx, thisLoc, key, order, self)`. -/
def wouldCreateDup (fuel : Nat) (s : State) (thisLoc : DiskLoc) (key : BSONObj)
    (order : Ordering) (self : DiskLoc) : Except Err Bool :=
  match locate s key order minDiskLoc 1 fuel thisLoc with
  | .error e => .error e
  | .ok (b, pos, _) => wouldCreateDupLoop s key self fuel b pos

/-- The block of `find` that runs when the search meets an unused slot with an
equal key: it throws when `exists` from the root reports the key. -/
def dupProbe (fuel : Nat) (s : State) (key : BSONObj) (order : Ordering) (recordLoc : DiskLoc) :
    Unit → Except Err Unit := fun _ =>
  match exists_ fuel s s.head key order with
  | .error e => .error e
  | .ok false => .ok ()
  | .ok true =>
    match wouldCreateDup fuel s s.head key order recordLoc with
    | .error e => .error e
    | .ok true => .error .dupKey
    | .ok false => .error .alreadyInIndex

/-- The search `find(idx, key, recordLoc, order, pos, assertIfDup)` on page `b`:
`found` and `pos`. -/
def find (fuel : Nat) (s : State) (b : BtreeBucket) (key : BSONObj) (recordLoc : DiskLoc)
    (order : Ordering) (assertIfDup : Bool) : Except Err (Bool × Nat) :=
  findWith b key recordLoc order assertIfDup (dupProbe fuel s key order recordLoc)

/-- The value of `indexInParent(thisLoc)` for the page `b` at `thisLoc`. -/
def indexInParent (s : State) (b : BtreeBucket) (thisLoc : DiskLoc) : Except Err Nat :=
  if b.parent.isNull then .error .assertion
  else match s.pages b.parent with
    | none => .error .fault
    | some p =>
      if p.nextChild = thisLoc then .ok p.keys.length
      else match p.keys.findIdx? (fun k => k.prevChildBucket == thisLoc) with
        | some i => .ok i
        | none => .error .assertion

/-! ### Insertion -/

/-- The effect of `fix(thisLoc, child)`. -/
def fix (s : State) (thisLoc child : DiskLoc) : Except Err State :=
  if child.isNull then .ok s
  else match s.setParent child thisLoc with
    | none => .error .fault
    | some s1 => .ok s1

/-- The effect of `fix` on each locator of a list in turn. -/
def fixAll (thisLoc : DiskLoc) : List DiskLoc → State → Except Err State
  | [], s => .ok s
  | child :: rest, s =>
    match fix s thisLoc child with
    | .error e => .error e
    | .ok s1 => fixAll thisLoc rest s1

/-- The effect of `fixParentPtrs(thisLoc, startIndex)`. -/
def fixParentPtrs (s : State) (thisLoc : DiskLoc) (startIndex : Nat) : Except Err State :=
  match s.pages thisLoc with
  | none => .error .fault
  | some b =>
    fixAll thisLoc (b.nextChild :: (b.keys.drop startIndex).map (·.prevChildBucket)) s

/-- The effect of `pushBack` for each slot of a list in turn, as in the loops of
the split and of the merge. -/
def pushBackAll (c : Layout) (order : Ordering) : List _KeyNode → BtreeBucket → Except Err BtreeBucket
  | [], r => .ok r
  | kn :: rest, r =>
    match pushBack c r kn.recordLoc kn.key order kn.prevChildBucket with
    | .error e => .error e
    | .ok r1 => pushBackAll c order rest r1

/-- The part of `_insertHere` that follows a successful `basicInsert`: the child
links around the new slot are wired. `b` is the page after `basicInsert`. -/
def wireInserted (s : State) (b : BtreeBucket) (thisLoc : DiskLoc) (keypos : Nat)
    (lchild rchild : DiskLoc) : Res Unit :=
  if keypos + 1 = b.keys.length then
    if b.nextChild ≠ lchild then (.error .assertion, s.put thisLoc b)
    else
      match b.keys.get? keypos with
      | none => (.error .fault, s.put thisLoc b)
      | some kn =>
        let b1 := { b with keys := b.keys.set keypos { kn with prevChildBucket := b.nextChild }
                           nextChild := rchild }
        match fix (s.put thisLoc b1) thisLoc rchild with
        | .error e => (.error e, s.put thisLoc b1)
        | .ok s1 => (.ok (), s1)
  else
    match b.keys.get? keypos, b.keys.get? (keypos + 1) with
    | some kn, some kn1 =>
      let b1 := { b with keys := b.keys.set keypos { kn with prevChildBucket := lchild } }
      if kn1.prevChildBucket ≠ lchild then (.error .assertion, s.put thisLoc b1)
      else
        let b2 := { b1 with keys := b1.keys.set (keypos + 1) { kn1 with prevChildBucket := rchild } }
        match fix (s.put thisLoc b2) thisLoc rchild with
        | .error e => (.error e, s.put thisLoc b2)
        | .ok s1 => (.ok (), s1)
    | _, _ => (.error .fault, s.put thisLoc b)

mutual

/-- The routine `_insertHere` (reached through `insertHere`): the key is put at
`keypos` of page `thisLoc`, which is split when it has no room. -/
def insertHere (c : Layout) (order : Ordering) : Nat → State → DiskLoc → Nat → DiskLoc →
    BSONObj → DiskLoc → DiskLoc → Res Unit
  | 0, s, _, _, _, _, _, _ => (.error .outOfFuel, s)
  | fuel + 1, s, thisLoc, keypos, recordLoc, key, lchild, rchild =>
    match s.pages thisLoc with
    | none => (.error .fault, s)
    | some b =>
      match basicInsert c b keypos recordLoc key with
      | .error e => (.error e, s)
      | .ok (true, b1, keypos1) => wireInserted s b1 thisLoc keypos1 lchild rchild
      | .ok (false, b1, keypos1) =>
        -- split
        let s := s.put thisLoc b1
        match splitPos b1 keypos1 with
        | .error e => (.error e, s)
        | .ok split =>
          let (rLoc, s) := addBucket c s
          match pushBackAll c order (b1.keys.drop (split + 1)) (init c) with
          | .error e => (.error e, s)
          | .ok r =>
            let s := s.put rLoc { r with nextChild := b1.nextChild }
            match fixParentPtrs s rLoc 0 with
            | .error e => (.error e, s)
            | .ok s =>
              match s.pages thisLoc, b1.keys.get? split with
              | some b2, some splitkey =>
                let b3 := { b2 with nextChild := splitkey.prevChildBucket }
                let s := s.put thisLoc b3
                -- promote splitkey to a parent node
                let promoted : Res Unit :=
                  if b3.parent.isNull then
                    let (L, s) := addBucket c s
                    match pushBack c (init c) splitkey.recordLoc splitkey.key order thisLoc with
                    | .error e => (.error e, s)
                    | .ok p =>
                      let s := s.put L { p with nextChild := rLoc }
                      let s := { (s.put thisLoc { b3 with parent := L }) with head := L }
                      match s.setParent rLoc L with
                      | none => (.error .fault, s)
                      | some s => (.ok (), s)
                  else
                    match s.setParent rLoc b3.parent with
                    | none => (.error .fault, s)
                    | some s =>
                      match _insert c order fuel s b3.parent splitkey.recordLoc splitkey.key
                              true thisLoc rLoc with
                      | (.error e, s) => (.error e, s)
                      | (.ok _, s) => (.ok (), s)
                match promoted with
                | (.error e, s) => (.error e, s)
                | (.ok _, s) =>
                  match s.pages thisLoc with
                  | none => (.error .fault, s)
                  | some b4 =>
                    match truncateTo c b4 split keypos1 with
                    | .error e => (.error e, s)
                    | .ok (b5, newpos) =>
                      let s := s.put thisLoc b5
                      -- add our new key, there is room now
                      if keypos1 ≤ split then
                        insertHere c order fuel s thisLoc newpos recordLoc key lchild rchild
                      else
                        insertHere c order fuel s rLoc (keypos1 - split - 1) recordLoc key
                          lchild rchild
              | _, _ => (.error .fault, s)

/-- The routine `_insert` on page `thisLoc`, with its return code. -/
def _insert (c : Layout) (order : Ordering) : Nat → State → DiskLoc → DiskLoc → BSONObj →
    Bool → DiskLoc → DiskLoc → Res Int
  | fuel, s, thisLoc, recordLoc, key, dupsAllowed, lChild, rChild =>
    if key.objsize > KeyMax c then (.ok 2, s)
    else if ¬ (key.objsize > 0) then (.error .assertion, s)
    else match fuel with
      | 0 => (.error .outOfFuel, s)
      | fuel + 1 =>
        match s.pages thisLoc with
        | none => (.error .fault, s)
        | some b =>
          match find (fuel + 1) s b key recordLoc order (!dupsAllowed) with
          | .error e => (.error e, s)
          | .ok (found, pos) =>
            if found then
              match b.keys.get? pos with
              | none => (.error .fault, s)
              | some kn =>
                if kn.isUnused then
                  if ¬ lChild.isNull then (.error (.massert 10285), s)
                  else if ¬ rChild.isNull then (.error (.massert 10286), s)
                  else (.ok 0, s.put thisLoc { b with keys := b.keys.set pos kn.setUsed })
                else (.error .alreadyInIndex, s)
            else
              match b.childForPos pos with
              | none => (.error .fault, s)
              | some child =>
                if child.isNull ∨ ¬ rChild.isNull then
                  match insertHere c order fuel s thisLoc pos recordLoc key lChild rChild with
                  | (.error e, s) => (.error e, s)
                  | (.ok _, s) => (.ok 0, s)
                else bt_insert c order fuel s child recordLoc key dupsAllowed false

/-- The routine `bt_insert` on page `thisLoc`, with its return code. -/
def bt_insert (c : Layout) (order : Ordering) : Nat → State → DiskLoc → DiskLoc → BSONObj →
    Bool → Bool → Res Int
  | fuel, s, thisLoc, recordLoc, key, dupsAllowed, toplevel =>
    if toplevel ∧ key.objsize > KeyMax c then (.ok 3, s)
    else match fuel with
      | 0 => (.error .outOfFuel, s)
      | fuel + 1 => _insert c order fuel s thisLoc recordLoc key dupsAllowed DiskLoc.Null DiskLoc.Null

end

/-! ### Deletion -/

/-- The effect of `delBucket`: the parent's link to the page is cleared and the
page is freed. The notice to the cursor registry has no effect on the tree. -/
def delBucket (s : State) (thisLoc : DiskLoc) : Res Unit :=
  match s.pages thisLoc with
  | none => (.error .fault, s)
  | some b =>
    if b.parent.isNull then (.error .assertion, s)
    else match indexInParent s b thisLoc with
      | .error e => (.error e, s)
      | .ok parentIdx =>
        match s.pages b.parent with
        | none => (.error .fault, s)
        | some p =>
          match p.setChildForPos parentIdx DiskLoc.Null with
          | none => (.error .fault, s)
          | some p1 => (.ok (), deallocBucket (s.put b.parent p1) thisLoc)

/-- The effect of `replaceWithNextChild`. -/
def replaceWithNextChild (s : State) (thisLoc : DiskLoc) : Res Unit :=
  match s.pages thisLoc with
  | none => (.error .fault, s)
  | some b =>
    if ¬ (b.keys.length = 0 ∧ ¬ b.nextChild.isNull) then (.error .assertion, s)
    else
      let relinked : Res Unit :=
        if b.parent.isNull then
          if s.head ≠ thisLoc then (.error .assertion, s)
          else (.ok (), { s with head := b.nextChild })
        else match indexInParent s b thisLoc with
          | .error e => (.error e, s)
          | .ok i =>
            match s.pages b.parent with
            | none => (.error .fault, s)
            | some p =>
              match p.setChildForPos i b.nextChild with
              | none => (.error .fault, s)
              | some p1 => (.ok (), s.put b.parent p1)
      match relinked with
      | (.error e, s) => (.error e, s)
      | (.ok _, s) =>
        match s.setParent b.nextChild b.parent with
        | none => (.error .fault, s)
        | some s => (.ok (), deallocBucket s thisLoc)

mutual

/-- The routine `tryMergeNeighbors` on page `thisLoc`, with its boolean result. -/
def tryMergeNeighbors (c : Layout) (order : Ordering) : Nat → State → DiskLoc → Nat → Res Bool
  | 0, s, _, _ => (.error .outOfFuel, s)
  | fuel + 1, s, thisLoc, leftIndex =>
    match s.pages thisLoc with
    | none => (.error .fault, s)
    | some b =>
      match b.keys.get? leftIndex, b.childForPos leftIndex, b.childForPos (leftIndex + 1) with
      | some sep, some leftNodeLoc, some rightNodeLoc =>
        if leftNodeLoc.isNull ∨ rightNodeLoc.isNull then (.ok false, s)
        else match s.pages leftNodeLoc, s.pages rightNodeLoc with
          | some l, some r =>
            if c.headerSize + packedDataSize c l 0 + packedDataSize c r 0 + sep.key.objsize
                + c.slotSize > c.BucketSize then (.ok false, s)
            else match doMergeNeighbors c order fuel s thisLoc leftIndex with
              | (.error e, s) => (.error e, s)
              | (.ok _, s) => (.ok true, s)
          | _, _ => (.error .fault, s)
      | none, _, _ => (.error .assertion, s)
      | _, _, _ => (.error .fault, s)

/-- The routine `doMergeNeighbors` on page `thisLoc`. The two children are
distinct pages, distinct from `thisLoc`; a state in which they are not is a
fault of the embedding. -/
def doMergeNeighbors (c : Layout) (order : Ordering) : Nat → State → DiskLoc → Nat → Res Unit
  | 0, s, _, _ => (.error .outOfFuel, s)
  | fuel + 1, s, thisLoc, leftIndex =>
    match s.pages thisLoc with
    | none => (.error .fault, s)
    | some b =>
      match b.keys.get? leftIndex, b.childForPos leftIndex, b.childForPos (leftIndex + 1) with
      | some kn, some leftNodeLoc, some rightNodeLoc =>
        if leftNodeLoc = rightNodeLoc ∨ leftNodeLoc = thisLoc ∨ rightNodeLoc = thisLoc then
          (.error .fault, s)
        else match s.pages leftNodeLoc, s.pages rightNodeLoc with
          | some l, some r =>
            match pack c l 0 with
            | .error e => (.error e, s)
            | .ok (l1, pos) =>
              match pack c r pos with
              | .error e => (.error e, s.put leftNodeLoc l1)
              | .ok (r1, _) =>
                let s := (s.put leftNodeLoc l1).put rightNodeLoc r1
                let oldLNum := l1.keys.length
                match pushBack c l1 kn.recordLoc kn.key order l1.nextChild with
                | .error e => (.error e, s)
                | .ok l2 =>
                  match pushBackAll c order r1.keys l2 with
                  | .error e => (.error e, s)
                  | .ok l3 =>
                    let s := s.put leftNodeLoc { l3 with nextChild := r1.nextChild }
                    match fixParentPtrs s leftNodeLoc oldLNum with
                    | .error e => (.error e, s)
                    | .ok s =>
                      match delBucket s rightNodeLoc with
                      | (.error e, s) => (.error e, s)
                      | (.ok _, s) =>
                        match s.pages thisLoc with
                        | none => (.error .fault, s)
                        | some b1 =>
                          match b1.setChildForPos (leftIndex + 1) leftNodeLoc with
                          | none => (.error .fault, s)
                          | some b2 =>
                            match b2.setChildForPos leftIndex DiskLoc.Null with
                            | none => (.error .fault, s)
                            | some b3 =>
                              match _delKeyAtPos c b3 leftIndex true with
                              | .error e => (.error e, s.put thisLoc b3)
                              | .ok b4 =>
                                let s := s.put thisLoc b4
                                if b4.keys.length = 0 then replaceWithNextChild s thisLoc
                                else balanceWithNeighbors c order fuel s thisLoc
          | _, _ => (.error .fault, s)
      | _, _, _ => (.error .fault, s)

/-- The routine `balanceWithNeighbors` on page `thisLoc`. -/
def balanceWithNeighbors (c : Layout) (order : Ordering) : Nat → State → DiskLoc → Res Unit
  | 0, s, _ => (.error .outOfFuel, s)
  | fuel + 1, s, thisLoc =>
    match s.pages thisLoc with
    | none => (.error .fault, s)
    | some b =>
      if b.parent.isNull then (.ok (), s)
      else match s.pages b.parent, indexInParent s b thisLoc with
        | some p, .ok parentIdx =>
          let first : Res Bool :=
            if parentIdx < p.keys.length then
              tryMergeNeighbors c order fuel s b.parent parentIdx
            else (.ok false, s)
          match first with
          | (.error e, s) => (.error e, s)
          | (.ok true, s) => (.ok (), s)
          | (.ok false, s) =>
            if parentIdx > 0 then
              match tryMergeNeighbors c order fuel s b.parent (parentIdx - 1) with
              | (.error e, s) => (.error e, s)
              | (.ok _, s) => (.ok (), s)
            else (.ok (), s)
        | none, _ => (.error .fault, s)
        | _, .error e => (.error e, s)

end

/-- The routine `delKeyAtPos(thisLoc, id, p, order)`. -/
def delKeyAtPos (c : Layout) (order : Ordering) (fuel : Nat) (s : State) (thisLoc : DiskLoc)
    (p : Nat) : Res Unit :=
  match s.pages thisLoc with
  | none => (.error .fault, s)
  | some b =>
    if ¬ (b.n > 0) then (.error .assertion, s)
    else match b.childForPos p with
      | none => (.error .fault, s)
      | some left =>
        if b.keys.length = 1 then
          if left.isNull ∧ b.nextChild.isNull then
            if b.parent.isNull then
              match _delKeyAtPos c b p false with
              | .error e => (.error e, s)
              | .ok b1 => (.ok (), s.put thisLoc b1)
            else delBucket s thisLoc
          else match markUnused b p with
            | .error e => (.error e, s)
            | .ok b1 => (.ok (), s.put thisLoc b1)
        else if left.isNull then
          match _delKeyAtPos c b p false with
          | .error e => (.error e, s)
          | .ok b1 => balanceWithNeighbors c order fuel (s.put thisLoc b1) thisLoc
        else match markUnused b p with
          | .error e => (.error e, s)
          | .ok b1 => (.ok (), s.put thisLoc b1)

/-- The routine `unindex(thisLoc, id, key, recordLoc)`, with its boolean result;
`order` is the ordering made from the index's key pattern. -/
def unindex (c : Layout) (order : Ordering) (fuel : Nat) (s : State) (thisLoc : DiskLoc)
    (key : BSONObj) (recordLoc : DiskLoc) : Res Bool :=
  if key.objsize > KeyMax c then (.ok false, s)
  else match locate s key order recordLoc 1 fuel thisLoc with
    | .error e => (.error e, s)
    | .ok (loc, pos, found) =>
      if found then
        if pos < 0 then (.error .fault, s)
        else match delKeyAtPos c order fuel s loc pos.toNat with
          | (.error e, s) => (.error e, s)
          | (.ok _, s) => (.ok true, s)
      else (.ok false, s)

end BtreeBucket

end mongo

namespace mongo
namespace BtreeBucket

/-- Size accounting of a page: free bytes, key bytes, slots and header add up to
the page size. -/
def sizeAccounting (c : Layout) (b : BtreeBucket) : Prop :=
  b.emptySize + b.topSize + b.n * c.slotSize + c.headerSize = c.BucketSize

instance (c : Layout) (b : BtreeBucket) : Decidable (sizeAccounting c b) := by
  unfold sizeAccounting; infer_instance

/-- The slots that `pack` keeps, for the list of slots that starts at index `j`. -/
def keepFrom (refPos : Nat) : Nat → List _KeyNode → List _KeyNode
  | _, [] => []
  | j, k :: ks =>
    if mayDropKey j k refPos then keepFrom refPos (j + 1) ks
    else k :: keepFrom refPos (j + 1) ks

/-- The total size of the keys of a list of slots. -/
def keyBytes : List _KeyNode → Int
  | [] => 0
  | k :: ks => k.key.objsize + keyBytes ks

/-- The value `pack` leaves in `refPos` when the loop has reached index `j` with
`i` survivors so far and the slots `ks` ahead. -/
def packRef (r j i : Nat) (ks : List _KeyNode) : Nat :=
  if j ≤ r ∧ r < j + ks.length then i + (keepFrom r j (ks.take (r - j))).length else r

end BtreeBucket
end mongo

namespace mongo

/-- The index right after its creation: a single empty page, allocated by
`addBucket` in an empty data file, is the root. -/
def emptyTree (c : Layout) : State :=
  let (loc, s) := BtreeBucket.addBucket c ⟨fun _ => none, DiskLoc.Null, 0⟩
  { s with head := loc }

/-- A small page layout for worked examples: pages of 200 bytes with a header of
40 bytes and slots of 18 bytes, so `KeyMax` is 20. -/
def smallLayout : Layout := ⟨200, 40, 18⟩

/-- The ascending ordering on every field. -/
def ascending : Ordering := ⟨0⟩

/-- A one-field key of value `v` and of size `sz`. -/
def sampleKey (v : Int) (sz : Int) : BSONObj := ⟨sz, [v]⟩

/-- A slot without a left child, for the key of value `v` and size `sz` and the
record at offset `rl` of file 1. -/
def leafSlot (v sz rl : Int) : _KeyNode := ⟨DiskLoc.Null, ⟨1, rl⟩, sampleKey v sz⟩

/-- A page without parent and without children. -/
def leafPage (packed : Bool) (emptySize topSize : Int) (keys : List _KeyNode) : BtreeBucket :=
  { parent := DiskLoc.Null, nextChild := DiskLoc.Null, packed := packed,
    emptySize := emptySize, topSize := topSize, keys := keys }

/-- A leaf page of `smallLayout` with the keys 1, 2 and 3, the second one marked
unused, after a deletion left the page unpacked. -/
def samplePage : BtreeBucket :=
  leafPage false 66 40 [leafSlot 1 10 10, leafSlot 2 10 21, leafSlot 3 10 30]

end mongo

namespace mongo

/-! ## The order of index entries -/

/-- The field values of a key as the comparator sees them from the walking bit
`mask` on: a value at a descending position is negated. -/
def normElems (o : Ordering) : Nat → List Int → List Int
  | _, [] => []
  | mask, x :: xs =>
    (if o.descending mask then -x else x) :: normElems o ((mask * 2) % 2 ^ 32) xs

/-- The position of an entry in the index order: the key as the comparator sees
it, then the file and the offset of the record locator. -/
structure EKey where
  fields : List Int
  file : Int
  ofs : Int
deriving DecidableEq

/-- The entry position as an element of the lexicographic product. -/
def EKey.toLexProd (e : EKey) : List Int ×ₗ Int ×ₗ Int :=
  toLex (e.fields, toLex (e.file, e.ofs))

instance : LinearOrder EKey :=
  LinearOrder.lift' EKey.toLexProd (by
    intro a b h
    cases a; cases b
    simp only [EKey.toLexProd] at h
    have h1 := congrArg (fun x => (ofLex x).1) h
    have h2 := congrArg (fun x => (ofLex (ofLex x).2).1) h
    have h3 := congrArg (fun x => (ofLex (ofLex x).2).2) h
    simp at h1 h2 h3
    simp [h1, h2, h3])

/-- The position in the index order of the entry `(key, recordLoc)`. -/
def entryKey (o : Ordering) (key : BSONObj) (recordLoc : DiskLoc) : EKey :=
  ⟨normElems o 1 key.elems, recordLoc.a, recordLoc.ofs⟩

/-- The position of a slot in the index order; the record locator counts without
its low bit. -/
def _KeyNode.ekey (o : Ordering) (k : _KeyNode) : EKey :=
  entryKey o k.key k.recordLoc.clearLow

end mongo

namespace mongo
namespace BtreeBucket

/-- The slots of a page are strictly ascending in the index order. -/
def SortedSlots (o : Ordering) (ks : List _KeyNode) : Prop :=
  ks.Pairwise (fun a b => a.ekey o < b.ekey o)

/-- What `find` reports about the position `t` on a page with slots `ks`: the
slot at `pos` is at `t` when `found`, and otherwise `pos` is where `t` would go. -/
def FindSpec (o : Ordering) (ks : List _KeyNode) (t : EKey) (found : Bool) (pos : Nat) : Prop :=
  if found then ∃ k, ks.get? pos = some k ∧ k.ekey o = t
  else pos ≤ ks.length ∧ (∀ i k, i < pos → ks.get? i = some k → k.ekey o < t) ∧
    (∀ i k, pos ≤ i → ks.get? i = some k → t < k.ekey o)

end BtreeBucket
end mongo

namespace mongo
namespace BtreeBucket

/-! ## Well-formed trees -/

/-- What is known about each page of a well-formed tree beyond its bytes: a rank
that decreases from a page to its children, and the open interval of the index
order that the entries of the page and of its subtree fall in. -/
structure Ghost where
  rank : DiskLoc → Nat
  lo : DiskLoc → WithBot EKey
  hi : DiskLoc → WithTop EKey

/-- The lower end of the interval of the child at position `p`: the slot before
it, or the page's own lower end for `p = 0`. -/
def lowerAt (o : Ordering) (b : BtreeBucket) (lo : WithBot EKey) : Nat → WithBot EKey
  | 0 => lo
  | p + 1 =>
    match b.keys.get? p with
    | some k => ((k.ekey o : EKey) : WithBot EKey)
    | none => lo

/-- The upper end of the interval of the child at position `p`: the slot at `p`,
or the page's own upper end for `p = n`. -/
def upperAt (o : Ordering) (b : BtreeBucket) (hi : WithTop EKey) (p : Nat) : WithTop EKey :=
  match b.keys.get? p with
  | some k => ((k.ekey o : EKey) : WithTop EKey)
  | none => hi

/-- The size condition of a page: size accounting, a free region that is not
negative, key bytes covered by `topSize` (exactly so on a packed page), and keys
of a size between 1 and `KeyMax`. -/
structure PageSizes (c : Layout) (b : BtreeBucket) : Prop where
  accounting : sizeAccounting c b
  empty_nonneg : 0 ≤ b.emptySize
  bytes_le : keyBytes b.keys ≤ b.topSize
  bytes_eq : b.packed = true → keyBytes b.keys = b.topSize
  key_pos : ∀ k ∈ b.keys, 0 < k.key.objsize
  key_le : ∀ k ∈ b.keys, k.key.objsize ≤ KeyMax c

/-- The order condition of the page `b` at `l`: the slots ascend strictly inside
the page's interval, and each child is a mapped page that points back to `l`,
has a smaller rank and an interval between the neighbouring slots; no two child
links of the page are the same; and the record locators are locators of records
(at or above `minDiskLoc` once the low bit is cleared). -/
structure PageOK (o : Ordering) (s : State) (g : Ghost) (l : DiskLoc) (b : BtreeBucket) :
    Prop where
  sorted : SortedSlots o b.keys
  lo_lt : ∀ k ∈ b.keys, g.lo l < ((k.ekey o : EKey) : WithBot EKey)
  lt_hi : ∀ k ∈ b.keys, ((k.ekey o : EKey) : WithTop EKey) < g.hi l
  child : ∀ p ch, b.childForPos p = some ch → ch ≠ DiskLoc.Null →
    ∃ cb, s.pages ch = some cb ∧ cb.parent = l ∧ g.rank ch < g.rank l ∧
      lowerAt o b (g.lo l) p ≤ g.lo ch ∧ g.hi ch ≤ upperAt o b (g.hi l) p
  child_inj : ∀ p q ch, b.childForPos p = some ch → b.childForPos q = some ch →
    ch ≠ DiskLoc.Null → p = q
  rl_valid : ∀ k ∈ b.keys, 0 ≤ k.recordLoc.a ∧ 2 ≤ k.recordLoc.ofs

/-- The invariant of the tree of an index, relative to the ghost data `g`. -/
structure Inv (c : Layout) (o : Ordering) (s : State) (g : Ghost) : Prop where
  null_unmapped : s.pages DiskLoc.Null = none
  head : ∃ hb, s.pages s.head = some hb ∧ hb.parent = DiskLoc.Null ∧
    (hb.keys = [] → hb.nextChild = DiskLoc.Null)
  page : ∀ l b, s.pages l = some b → PageOK o s g l b
  sizes : ∀ l b, s.pages l = some b → PageSizes c b
  link : ∀ l b, s.pages l = some b → l ≠ s.head →
    b.keys ≠ [] ∧ ∃ pb p, s.pages b.parent = some pb ∧ pb.childForPos p = some l
  rank_le : ∀ l b, s.pages l = some b → g.rank l ≤ g.rank s.head
  fresh : ∀ l b, s.pages l = some b → l.a = 0 ∧ 0 ≤ l.ofs ∧ l.ofs < s.allocNext

/-- A well-formed tree: the invariant holds for some ghost data. -/
def WellFormed (c : Layout) (o : Ordering) (s : State) : Prop := ∃ g, Inv c o s g

/-- The page `q` lies in the subtree of the page `l`. -/
inductive Below (s : State) : DiskLoc → DiskLoc → Prop where
  | refl (l : DiskLoc) : Below s l l
  | step (l ch q : DiskLoc) (b : BtreeBucket) (p : Nat) : s.pages l = some b →
      b.childForPos p = some ch → ch ≠ DiskLoc.Null → Below s ch q → Below s l q

/-- The slot at a position (page, index) of the tree. -/
def slotAt (s : State) (x : DiskLoc × Nat) : Option _KeyNode :=
  match s.pages x.1 with
  | none => none
  | some b => b.keys.get? x.2

/-- The in-order list of the positions of the slots of a page, given the list
for each child: `i` is the index of the first slot of `ks`. -/
def inorderSlots (sub : DiskLoc → List (DiskLoc × Nat)) (l : DiskLoc) :
    Nat → List _KeyNode → List (DiskLoc × Nat)
  | _, [] => []
  | i, k :: ks => sub k.prevChildBucket ++ (l, i) :: inorderSlots sub l (i + 1) ks

/-- The in-order list of the positions of the subtree of `l`. -/
def inorder (s : State) : Nat → DiskLoc → List (DiskLoc × Nat)
  | 0, _ => []
  | fuel + 1, l =>
    if l.isNull then []
    else match s.pages l with
      | none => []
      | some b => inorderSlots (inorder s fuel) l 0 b.keys ++ inorder s fuel b.nextChild

end BtreeBucket
end mongo

namespace mongo
namespace BtreeBucket

/-- The position `x` comes before the position `y` in the index order. -/
def PosLt (o : Ordering) (s : State) (x y : DiskLoc × Nat) : Prop :=
  ∀ kx ky, slotAt s x = some kx → slotAt s y = some ky → kx.ekey o < ky.ekey o

/-- The position `x` holds a slot whose place in the index order is inside the
open interval from `lo` to `hi`. -/
def PosWithin (o : Ordering) (s : State) (lo : WithBot EKey) (hi : WithTop EKey)
    (x : DiskLoc × Nat) : Prop :=
  ∃ k, slotAt s x = some k ∧ lo < ((k.ekey o : EKey) : WithBot EKey) ∧
    ((k.ekey o : EKey) : WithTop EKey) < hi

end BtreeBucket
end mongo

namespace mongo
namespace BtreeBucket

/-- The part of the in-order list of a page that comes before the child at
position `p`. -/
def preList (sub : DiskLoc → List (DiskLoc × Nat)) (l : DiskLoc) (b : BtreeBucket) (p : Nat) :
    List (DiskLoc × Nat) :=
  inorderSlots sub l 0 (b.keys.take p)

/-- The part of the in-order list of a page that comes after the child at
position `p`: the slot `p` and what follows it. -/
def postList (sub : DiskLoc → List (DiskLoc × Nat)) (l : DiskLoc) (b : BtreeBucket) (p : Nat) :
    List (DiskLoc × Nat) :=
  match b.keys.drop p with
  | [] => []
  | _ :: ks => (l, p) :: (inorderSlots sub l (p + 1) ks ++ sub b.nextChild)

end BtreeBucket
end mongo

namespace mongo
namespace BtreeBucket

/-- What `locate` reports for the target `t` on a subtree with in-order list
`L`: the first position at or after `t`, with `found` telling whether it is at
`t`, or the null locator when every position is before `t`. -/
def LocateSpec (o : Ordering) (s : State) (t : EKey) (L : List (DiskLoc × Nat))
    (res : DiskLoc × Int × Bool) : Prop :=
  ∃ A B, L = A ++ B ∧ (∀ x ∈ A, ∀ k, slotAt s x = some k → k.ekey o < t) ∧
    (∀ x ∈ B, ∀ k, slotAt s x = some k → t ≤ k.ekey o) ∧
    match B with
    | [] => res.1 = DiskLoc.Null ∧ res.2.2 = false
    | z :: _ => res.1 = z.1 ∧ res.2.1 = (z.2 : Int) ∧
        ∃ k, slotAt s z = some k ∧ (res.2.2 = true ↔ k.ekey o = t)

end BtreeBucket
end mongo

namespace mongo
namespace BtreeBucket

/-- Where a forward walk continues once the subtree of `l` is exhausted: at the
slot of the nearest ancestor that has the subtree on its left, or nowhere. -/
inductive ExitFwd (s : State) : DiskLoc → Option (DiskLoc × Nat) → Prop where
  | root (l : DiskLoc) (b : BtreeBucket) : s.pages l = some b → b.parent = DiskLoc.Null →
      ExitFwd s l none
  | slot (l : DiskLoc) (b pb : BtreeBucket) (i : Nat) : s.pages l = some b →
      s.pages b.parent = some pb → pb.childForPos i = some l → i < pb.keys.length →
      ExitFwd s l (some (b.parent, i))
  | up (l : DiskLoc) (b pb : BtreeBucket) (e : Option (DiskLoc × Nat)) : s.pages l = some b →
      s.pages b.parent = some pb → pb.nextChild = l → ExitFwd s b.parent e → ExitFwd s l e

/-- Where a backward walk continues once the subtree of `l` is exhausted: at the
slot of the nearest ancestor that has the subtree on its right, or nowhere. -/
inductive ExitBwd (s : State) : DiskLoc → Option (DiskLoc × Nat) → Prop where
  | root (l : DiskLoc) (b : BtreeBucket) : s.pages l = some b → b.parent = DiskLoc.Null →
      ExitBwd s l none
  | slot (l : DiskLoc) (b pb : BtreeBucket) (i : Nat) : s.pages l = some b →
      s.pages b.parent = some pb → pb.childForPos (i + 1) = some l → i < pb.keys.length →
      ExitBwd s l (some (b.parent, i))
  | up (l : DiskLoc) (b pb : BtreeBucket) (e : Option (DiskLoc × Nat)) : s.pages l = some b →
      s.pages b.parent = some pb → pb.childForPos 0 = some l → ExitBwd s b.parent e →
      ExitBwd s l e

/-- A walk that starts at `x`, visits the positions of the list in turn and then
continues at `e`, each step being the relation `nx`. -/
def Chain (nx : DiskLoc × Nat → Option (DiskLoc × Nat) → Prop) :
    DiskLoc × Nat → List (DiskLoc × Nat) → Option (DiskLoc × Nat) → Prop
  | x, [], e => nx x e
  | x, y :: rest, e => nx x (some y) ∧ Chain nx y rest e

end BtreeBucket
end mongo

namespace mongo
namespace BtreeBucket

/-- The pair `advance` returns when the walk continues at `e`; at the end of the
walk the position parameter keeps the value `keyOfs`. -/
def exitResult (keyOfs : Int) : Option (DiskLoc × Nat) → DiskLoc × Int
  | none => (DiskLoc.Null, keyOfs)
  | some (a, i) => (a, (i : Int))

/-- The forward step of `advance` from `x` leads to `r` (the end of the walk
for `none`), for every fuel above `N`. -/
def NextIs (s : State) (N : Nat) (x : DiskLoc × Nat) (r : Option (DiskLoc × Nat)) : Prop :=
  ∀ F, N < F → advance F s x.1 (x.2 : Int) 1 = .ok (exitResult (x.2 : Int) r)

/-- The backward step of `advance` from `x` leads to `r`, for every fuel above
`N`. -/
def PrevIs (s : State) (N : Nat) (x : DiskLoc × Nat) (r : Option (DiskLoc × Nat)) : Prop :=
  ∀ F, N < F → advance F s x.1 (x.2 : Int) (-1) = .ok (exitResult (x.2 : Int) r)

end BtreeBucket
end mongo

namespace mongo
namespace BtreeBucket

/-- The first used slot among the positions of a list. -/
def firstUsed (s : State) : List (DiskLoc × Nat) → Option _KeyNode
  | [] => none
  | y :: ys =>
    match slotAt s y with
    | some k => if k.isUsed then some k else firstUsed s ys
    | none => firstUsed s ys

/-- The tree holds a used slot whose key compares equal to `key`. -/
def HasUsedKey (o : Ordering) (s : State) (key : BSONObj) : Prop :=
  ∃ l b kn, s.pages l = some b ∧ kn ∈ b.keys ∧ kn.isUsed = true ∧ key.woCompare kn.key o = 0

end BtreeBucket
end mongo

namespace mongo
namespace BtreeBucket

/-- The locator and position at which a walk over the positions `B` starts: the
first position, or the null locator for an empty walk. -/
def StartsAt (B : List (DiskLoc × Nat)) (l : DiskLoc) (pos : Int) : Prop :=
  match B with
  | [] => l = DiskLoc.Null
  | z :: _ => l = z.1 ∧ pos = (z.2 : Int)

end BtreeBucket
end mongo

namespace mongo
namespace BtreeBucket

/-! ## Trees of a single page -/

/-- The comparison of `find` between two slots, as a test: the slot `a` comes
strictly before the slot `b`. -/
def slotLt (o : Ordering) (a b : _KeyNode) : Bool :=
  let x0 := a.key.woCompare b.key o
  let x := if x0 = 0 then a.recordLoc.clearLow.compare b.recordLoc.clearLow else x0
  decide (x < 0)

/-- Each slot of the list comes strictly before the next one. -/
def ascendingSlots (o : Ordering) : List _KeyNode → Bool
  | [] => true
  | [_] => true
  | a :: b :: rest => slotLt o a b && ascendingSlots o (b :: rest)

/-- The test of a slot of a leaf: no left child, a record locator of a record,
and a key of a size between 1 and `KeyMax`. -/
def leafSlotCheck (c : Layout) (k : _KeyNode) : Bool :=
  decide (k.prevChildBucket = DiskLoc.Null) && decide (0 ≤ k.recordLoc.a) &&
    decide (2 ≤ k.recordLoc.ofs) && decide (0 < k.key.objsize) &&
    decide (k.key.objsize ≤ KeyMax c)

/-- The test of a page that is a tree by itself: no parent, no children, slots
in strictly ascending order, and sizes that add up. -/
def leafCheck (c : Layout) (o : Ordering) (b : BtreeBucket) : Bool :=
  decide (b.parent = DiskLoc.Null) && decide (b.nextChild = DiskLoc.Null) &&
    b.keys.all (leafSlotCheck c) && ascendingSlots o b.keys &&
    decide (sizeAccounting c b) && decide (0 ≤ b.emptySize) &&
    decide (keyBytes b.keys ≤ b.topSize) &&
    (!b.packed || decide (keyBytes b.keys = b.topSize))

/-- The tree whose only page is `b`, at the start of the data file. -/
def singlePage (c : Layout) (b : BtreeBucket) : State :=
  ⟨fun l => if l = ⟨0, 0⟩ then some b else none, ⟨0, 0⟩, c.BucketSize⟩

end BtreeBucket
end mongo

namespace mongo
namespace BtreeBucket

/-! ## Worked examples of duplicate detection -/

/-- The tree after a run of top-level `bt_insert` calls, one per entry of the
list, each for a key of size 10 at a record of file 1; a call that raises leaves
the tree as it was. -/
def insertAll (c : Layout) (o : Ordering) (dupsAllowed : Bool) :
    List (Int × Int) → State → State
  | [], s => s
  | (v, rl) :: rest, s =>
    insertAll c o dupsAllowed rest
      (bt_insert c o 20 s s.head ⟨1, rl⟩ (sampleKey v 10) dupsAllowed true).2

/-- The tree with the key 9 at the records `(1,10)` and `(1,20)`, built with
duplicates allowed. -/
def twoDups : State :=
  insertAll smallLayout ascending true [(9, 10), (9, 20)] (emptyTree smallLayout)

/-- The tree with the key 9 at six records, built with duplicates allowed: the
sixth insertion splits the root, and `(1,8)` becomes the only slot of the new
root. -/
def sixDups : State :=
  insertAll smallLayout ascending true [(9, 2), (9, 4), (9, 6), (9, 8), (9, 10), (9, 12)]
    (emptyTree smallLayout)

/-- The tree `sixDups` after `unindex` of the entry at `(1,8)`: the slot of the
root has children on both sides, so it is kept and marked unused. -/
def tombstoneTree : State :=
  (unindex smallLayout ascending 20 sixDups sixDups.head (sampleKey 9 10) ⟨1, 8⟩).2

/-- The page that `a_test` prepares, with `smallLayout`: four entries for the
key 9 at the records `(1,20)`, `(1,22)`, `(1,24)` and `(1,26)`, the slots 1 to 3
marked unused. -/
def aTestPage : BtreeBucket :=
  leafPage true 48 40 [leafSlot 9 10 20, leafSlot 9 10 23, leafSlot 9 10 25, leafSlot 9 10 27]

/-- A page with the key 9 at `(1,10)` only. -/
def oneEntryPage : BtreeBucket := leafPage true 132 10 [leafSlot 9 10 10]

end BtreeBucket
end mongo

namespace mongo
namespace BtreeBucket

/-! ## The invariant while an insertion or a deletion is under way -/

/-- The locator `l` is one of the child links of the page `b`. -/
def IsChild (b : BtreeBucket) (l : DiskLoc) : Prop :=
  b.nextChild = l ∨ ∃ k ∈ b.keys, k.prevChildBucket = l

/-- The order condition of the page `b` at `l` without positions: the slots
ascend strictly inside the page's interval; the left child of a slot is a
mapped page that points back to `l`, has a smaller rank, and has an interval
above every smaller slot and below the slot; the last child has an interval
above every slot. -/
structure PagePF (o : Ordering) (s : State) (g : Ghost) (l : DiskLoc) (b : BtreeBucket) :
    Prop where
  sorted : SortedSlots o b.keys
  lo_lt : ∀ k ∈ b.keys, g.lo l < ((k.ekey o : EKey) : WithBot EKey)
  lt_hi : ∀ k ∈ b.keys, ((k.ekey o : EKey) : WithTop EKey) < g.hi l
  rl_valid : ∀ k ∈ b.keys, 0 ≤ k.recordLoc.a ∧ 2 ≤ k.recordLoc.ofs
  slot_child : ∀ k ∈ b.keys, k.prevChildBucket ≠ DiskLoc.Null →
    (∃ cb, s.pages k.prevChildBucket = some cb ∧ cb.parent = l) ∧
      g.rank k.prevChildBucket < g.rank l ∧ g.lo l ≤ g.lo k.prevChildBucket ∧
      (∀ k1 ∈ b.keys, k1.ekey o < k.ekey o →
        ((k1.ekey o : EKey) : WithBot EKey) ≤ g.lo k.prevChildBucket) ∧
      g.hi k.prevChildBucket ≤ ((k.ekey o : EKey) : WithTop EKey)
  next_child : b.nextChild ≠ DiskLoc.Null →
    (∃ cb, s.pages b.nextChild = some cb ∧ cb.parent = l) ∧
      g.rank b.nextChild < g.rank l ∧ g.lo l ≤ g.lo b.nextChild ∧
      (∀ k1 ∈ b.keys, ((k1.ekey o : EKey) : WithBot EKey) ≤ g.lo b.nextChild) ∧
      g.hi b.nextChild ≤ g.hi l

/-- The invariant of a forest: the tree of the index together with the subtrees
whose roots are the locators in `fl`, which no page links to yet. -/
structure GInv (c : Layout) (o : Ordering) (s : State) (g : Ghost) (fl : Set DiskLoc) :
    Prop where
  null_unmapped : s.pages DiskLoc.Null = none
  head : ∃ hb, s.pages s.head = some hb ∧ hb.parent = DiskLoc.Null ∧
    (hb.keys = [] → hb.nextChild = DiskLoc.Null)
  page : ∀ l b, s.pages l = some b → PagePF o s g l b
  sizes : ∀ l b, s.pages l = some b → PageSizes c b
  nonempty : ∀ l b, s.pages l = some b → l ≠ s.head → b.keys ≠ []
  link : ∀ l b, s.pages l = some b → l ≠ s.head → l ∉ fl →
    ∃ pb, s.pages b.parent = some pb ∧ IsChild pb l
  float : ∀ r ∈ fl, r ≠ s.head ∧ (∃ rb, s.pages r = some rb) ∧
    ∀ l b, s.pages l = some b → ¬ IsChild b r
  rank_le : ∀ l b, s.pages l = some b → g.rank l ≤ g.rank s.head
  fresh : ∀ l b, s.pages l = some b → l.a = 0 ∧ 0 ≤ l.ofs ∧ l.ofs < s.allocNext

/-- The entries of the index: the positions in the index order of the used
slots of the mapped pages. -/
def Content (o : Ordering) (s : State) : Set EKey :=
  { e | ∃ l b k, s.pages l = some b ∧ k ∈ b.keys ∧ k.isUsed = true ∧ k.ekey o = e }

/-- The entry of a slot when the slot is used, and nothing otherwise. -/
def usedEntry (o : Ordering) (k : _KeyNode) : Set EKey :=
  { e | k.isUsed = true ∧ k.ekey o = e }

/-- The weight of a page in the count of slots that could still leave their
page: one less than its number of slots. -/
def pageWeight : Option BtreeBucket → Int
  | none => 0
  | some b => (b.keys.length : Int) - 1

/-- The number of slots in excess of one per mapped page. -/
def slack (s : State) : Int :=
  Finset.sum (Finset.range s.allocNext.toNat) (fun i => pageWeight (s.pages ⟨0, (i : Int)⟩))

/-- The list `ks1` is `ks` without some slots that have no left child; the
first slot stays. -/
def Thin (ks1 ks : List _KeyNode) : Prop :=
  ks1.Sublist ks ∧ (∀ k ∈ ks, k.prevChildBucket ≠ DiskLoc.Null → k ∈ ks1) ∧ ks1.head? = ks.head?

end BtreeBucket
end mongo

namespace mongo
namespace State

/-- The state as it will be once the pages awaiting truncation are truncated:
the page at `l` has the content `ov l`, with the parent link it has now. -/
def view (s : State) (ov : DiskLoc → Option BtreeBucket) : State :=
  { s with pages := fun l =>
      match s.pages l with
      | none => none
      | some b =>
        match ov l with
        | none => some b
        | some t => some { t with parent := b.parent } }

end State
end mongo

namespace mongo
namespace BtreeBucket

/-- The conditions on a page layout under which the assertions of the tree
routines hold: slots and pages have a positive size, and a page has room for
three keys of the largest size. -/
structure Layout.Sane (c : Layout) : Prop where
  slot_pos : 0 < c.slotSize
  bucket_pos : 0 < c.BucketSize
  room : 3 * (KeyMax c + c.slotSize) ≤ c.BucketSize - c.headerSize

/-- The page `b1` is the page `b` after `pack` with `refPos = r`, which came
back as `r1`: slots without a left child may be gone, but not the first slot and
not the slot at `r`, and the slots before and after `r` stay before and after
`r1`. -/
structure PackedAt (b b1 : BtreeBucket) (r r1 : Nat) : Prop where
  parent : b1.parent = b.parent
  nextChild : b1.nextChild = b.nextChild
  len : r1 ≤ b1.keys.length
  take_sub : (b1.keys.take r1).Sublist (b.keys.take r)
  drop_sub : (b1.keys.drop r1).Sublist (b.keys.drop r)
  drop_head : (b1.keys.drop r1).head? = (b.keys.drop r).head?
  keep : ∀ k ∈ b.keys, (k.prevChildBucket ≠ DiskLoc.Null ∨ k.isUsed = true) → k ∈ b1.keys
  head : b1.keys.head? = b.keys.head?
  sub : b1.keys.Sublist b.keys

end BtreeBucket
end mongo

namespace mongo
namespace BtreeBucket

/-- The entries of a page: the positions in the index order of its used slots. -/
def pageEntries (o : Ordering) (b : BtreeBucket) : Set EKey :=
  { e | ∃ k ∈ b.keys, k.isUsed = true ∧ k.ekey o = e }

/-- The entries of the pages other than `l`. -/
def ContentExcept (o : Ordering) (s : State) (l : DiskLoc) : Set EKey :=
  { e | ∃ l1 b, l1 ≠ l ∧ s.pages l1 = some b ∧ e ∈ pageEntries o b }

/-- The slots after the insertion point once the new slot is wired: the first
of them gets `rchild` as its left child. -/
def wireRight (rchild : DiskLoc) : List _KeyNode → List _KeyNode
  | [] => []
  | u :: rest => { u with prevChildBucket := rchild } :: rest

end BtreeBucket
end mongo

namespace mongo
namespace BtreeBucket

/-- The child link in front of a list of slots that is followed by the child
`next`. -/
def headChild (ks : List _KeyNode) (next : DiskLoc) : DiskLoc :=
  match ks with
  | [] => next
  | u :: _ => u.prevChildBucket

/-- The child link at the insertion point `kp` of a list of slots with last
child `next`. -/
def childAt (ks : List _KeyNode) (next : DiskLoc) (kp : Nat) : DiskLoc :=
  match ks.drop kp with
  | [] => next
  | u :: _ => u.prevChildBucket

/-- What `insertHere` asks of its arguments: `e`, the place of the new entry in
the index order, falls between the slots before and after the insertion point
`kp` of the page `b` at `l` and inside the page's interval; `lchild` is the
child link at the insertion point; and `rchild` is null, with `lchild`, or is a
root of `fl` whose interval lies between `e` and the next slot, `lchild` having
its interval below `e`. -/
structure InsPre (o : Ordering) (g : Ghost) (fl : Set DiskLoc) (l : DiskLoc) (b : BtreeBucket)
    (kp : Nat) (e : EKey) (lchild rchild : DiskLoc) : Prop where
  pos_le : kp ≤ b.keys.length
  before : ∀ k ∈ b.keys.take kp, k.ekey o < e
  after : ∀ k ∈ b.keys.drop kp, e < k.ekey o
  lo_lt : g.lo l < ((e : EKey) : WithBot EKey)
  lt_hi : ((e : EKey) : WithTop EKey) < g.hi l
  lchild_eq : childAt b.keys b.nextChild kp = lchild
  rnull : rchild = DiskLoc.Null → lchild = DiskLoc.Null
  rfloat : rchild ≠ DiskLoc.Null → rchild ∈ fl ∧ lchild ≠ DiskLoc.Null ∧
    g.hi lchild ≤ ((e : EKey) : WithTop EKey) ∧ ((e : EKey) : WithBot EKey) ≤ g.lo rchild ∧
    (∀ k ∈ b.keys.drop kp, g.hi rchild ≤ ((k.ekey o : EKey) : WithTop EKey)) ∧
    g.hi rchild ≤ g.hi l ∧ g.rank rchild < g.rank l

end BtreeBucket
end mongo

namespace mongo
namespace BtreeBucket

/-- The ghost data after the page at `l` gave the slots above the slot `sk` to
the new page at `r`: the interval of `l` ends at `sk`, where that of `r`
starts, and `r` has the rank of `l`. -/
def splitGhost (o : Ordering) (g : Ghost) (l r : DiskLoc) (sk : _KeyNode) : Ghost :=
  { rank := Function.update g.rank r (g.rank l)
    lo := Function.update g.lo r ((sk.ekey o : EKey) : WithBot EKey)
    hi := Function.update (Function.update g.hi l ((sk.ekey o : EKey) : WithTop EKey)) r (g.hi l) }

end BtreeBucket
end mongo

namespace mongo
namespace BtreeBucket

/-- The ghost data after the page at `nr` became the root above the old root
`l`: it has the next rank and the whole index order as its interval. -/
def rootGhost (g : Ghost) (nr l : DiskLoc) : Ghost :=
  { rank := Function.update g.rank nr (g.rank l + 1)
    lo := Function.update g.lo nr ⊥
    hi := Function.update g.hi nr ⊤ }

end BtreeBucket
end mongo

namespace mongo
namespace BtreeBucket

/-- What a call of `insertHere` on the page at `l` leaves alone: a page of lower
rank keeps all but its parent link, a page keeps its rank, a page of lower rank
keeps its interval, and a mapped page stays mapped. -/
structure Frame (s s1 : State) (g g1 : Ghost) (l : DiskLoc) : Prop where
  pages : ∀ x bx, s.pages x = some bx → g.rank x < g.rank l →
    ∃ bx1, s1.pages x = some bx1 ∧ bx1 = { bx with parent := bx1.parent }
  rank : ∀ x bx, s.pages x = some bx → g1.rank x = g.rank x
  bounds : ∀ x bx, s.pages x = some bx → g.rank x < g.rank l →
    g1.lo x = g.lo x ∧ g1.hi x = g.hi x
  mapped : ∀ x bx, s.pages x = some bx → ∃ bx1, s1.pages x = some bx1

/-- What a call of `insertHere` establishes: the invariant of the forest, in
which `rchild` is no longer a root; the entries with the new one added; a count
of slots in excess that grew by one at most; and the frame. -/
structure InsPost (c : Layout) (o : Ordering) (s s1 : State)
    (ov : DiskLoc → Option BtreeBucket) (g g1 : Ghost) (fl : Set DiskLoc) (l : DiskLoc)
    (recordLoc : DiskLoc) (key : BSONObj) (rchild : DiskLoc) : Prop where
  inv : GInv c o (s1.view ov) g1 (fl \ {rchild})
  content : Content o (s1.view ov) =
    Content o (s.view ov) ∪ usedEntry o ⟨DiskLoc.Null, recordLoc, key⟩
  slack : slack (s1.view ov) ≤ slack (s.view ov) + 1
  frame : Frame s s1 g g1 l

end BtreeBucket
end mongo
namespace mongo
namespace BtreeBucket

/-- What the first part of a split of the page `b1` at `l` leaves, up to the
promotion of the split key `sk`: the outcomes of the routines it runs, with the
new page `r` at the next free locator and the state `sD` after the children of
`r` got their new parent; the truncated page `t` that `l` will hold in the end;
and, for the state seen with `t` in place, the invariant with the new page as a
root, the entries, the count of slots in excess, and the frame. -/
structure SplitOut (c : Layout) (o : Ordering) (s : State) (ov : DiskLoc → Option BtreeBucket)
    (g : Ghost) (fl : Set DiskLoc) (l : DiskLoc) (b1 : BtreeBucket) (kp1 sp : Nat)
    (sk : _KeyNode) (r : BtreeBucket) (sD : State) (t : BtreeBucket) (np : Nat) : Prop where
  sp_ge : 1 ≤ sp
  sp_le : sp + 2 ≤ b1.keys.length
  split_eq : splitPos b1 kp1 = .ok sp
  get_sk : b1.keys.get? sp = some sk
  pushed : pushBackAll c o (b1.keys.drop (sp + 1)) (init c) = .ok r
  r_keys : r.keys = b1.keys.drop (sp + 1)
  r_sizes : PageSizes c r
  fixed : fixParentPtrs (({ ((s.put l b1).put ⟨0, s.allocNext⟩ (init c)) with
      allocNext := s.allocNext + c.BucketSize } : State).put ⟨0, s.allocNext⟩
      { r with nextChild := b1.nextChild }) ⟨0, s.allocNext⟩ 0 = .ok sD
  head : sD.head = s.head
  alloc : sD.allocNext = s.allocNext + c.BucketSize
  page_l : sD.pages l = some b1
  page_r : sD.pages ⟨0, s.allocNext⟩ = some { r with nextChild := b1.nextChild }
  page_o : ∀ x, x ≠ l → x ≠ ⟨0, s.allocNext⟩ → ∀ bx, s.pages x = some bx →
    ∃ bx1, sD.pages x = some bx1 ∧ bx1 = { bx with parent := bx1.parent }
  page_n : ∀ x, x ≠ l → x ≠ ⟨0, s.allocNext⟩ → s.pages x = none → sD.pages x = none
  trunc : truncateTo c { b1 with nextChild := sk.prevChildBucket } sp kp1 = .ok (t, np)
  t_packed : kp1 ≤ sp →
    PackedAt { ({ b1 with nextChild := sk.prevChildBucket } : BtreeBucket) with
      keys := b1.keys.take sp, packed := false } t kp1 np
  t_sizes : PageSizes c t
  t_ne : t.keys ≠ []
  fresh_r : s.pages ⟨0, s.allocNext⟩ = none
  ne_r : l ≠ ⟨0, s.allocNext⟩
  inv : GInv c o ((sD.put l { b1 with nextChild := sk.prevChildBucket }).view
    (Function.update ov l (some t))) (splitGhost o g l ⟨0, s.allocNext⟩ sk)
    (fl ∪ {⟨0, s.allocNext⟩})
  content : Content o ((sD.put l { b1 with nextChild := sk.prevChildBucket }).view
    (Function.update ov l (some t))) ∪ usedEntry o sk = Content o (s.view ov)
  slack : slack ((sD.put l { b1 with nextChild := sk.prevChildBucket }).view
    (Function.update ov l (some t))) + 2 ≤ slack (s.view ov)
  frame : Frame s (sD.put l { b1 with nextChild := sk.prevChildBucket }) g
    (splitGhost o g l ⟨0, s.allocNext⟩ sk) l
  view_l : ((sD.put l { b1 with nextChild := sk.prevChildBucket }).view
    (Function.update ov l (some t))).pages l = some { t with parent := b1.parent }
  view_r : ((sD.put l { b1 with nextChild := sk.prevChildBucket }).view
    (Function.update ov l (some t))).pages ⟨0, s.allocNext⟩
      = some { r with nextChild := b1.nextChild }
  sk_lo : g.lo l < ((sk.ekey o : EKey) : WithBot EKey)
  sk_hi : ((sk.ekey o : EKey) : WithTop EKey) < g.hi l
  sk_rl : 0 ≤ sk.recordLoc.a ∧ 2 ≤ sk.recordLoc.ofs
  sk_pos : 0 < sk.key.objsize
  sk_le : sk.key.objsize ≤ KeyMax c

/-- The contract of `insertHere` for the calls in which the count of slots in
excess is below `m - 1`: on a page of the forest that is above the roots in
`fl` and above the pages awaiting truncation, with arguments as `InsPre` asks
and a key of a size the tree accepts, the call returns, with the same state for
every fuel from `m` on, and leaves what `InsPost` says. -/
def InsertSpec (c : Layout) (o : Ordering) (m : Nat) : Prop :=
  ∀ (s : State) (ov : DiskLoc → Option BtreeBucket) (g : Ghost) (fl : Set DiskLoc)
    (l : DiskLoc) (b : BtreeBucket) (kp : Nat) (recordLoc : DiskLoc) (key : BSONObj)
    (lchild rchild : DiskLoc),
    GInv c o (s.view ov) g fl →
    (∀ x t, ov x = some t → g.rank x < g.rank l) →
    (∀ x t, ov x = some t → ∃ bx, s.pages x = some bx) →
    (∀ r ∈ fl, g.rank r < g.rank l) →
    s.pages l = some b →
    InsPre o g fl l b kp (entryKey o key recordLoc.clearLow) lchild rchild →
    (0 ≤ recordLoc.a ∧ 2 ≤ recordLoc.ofs) → 0 < key.objsize → key.objsize ≤ KeyMax c →
    slack (s.view ov) + 2 ≤ (m : Int) →
    ∃ s1 g1, (∀ fuel, m ≤ fuel →
        insertHere c o fuel s l kp recordLoc key lchild rchild = (.ok (), s1)) ∧
      InsPost c o s s1 ov g g1 fl l recordLoc key rchild

/-- What the split of the page at `l` and the promotion of the split key `sk`
leave, when the new key is still to be inserted in one of the halves `t` and
`rb`: the invariant, the entries and the frame, a count of slots in excess that
went down, and the intervals of the two halves. -/
structure PromoteOut (c : Layout) (o : Ordering) (s : State)
    (ov : DiskLoc → Option BtreeBucket) (g : Ghost) (fl : Set DiskLoc) (l : DiskLoc)
    (sk : _KeyNode) (t rb : BtreeBucket) (sQ : State) (g2 : Ghost) : Prop where
  inv : GInv c o (sQ.view ov) g2 fl
  content : Content o (sQ.view ov) = Content o (s.view ov)
  slack : slack (sQ.view ov) + 1 ≤ slack (s.view ov)
  frame : Frame s sQ g g2 l
  page_l : ∃ pp, sQ.pages l = some { t with parent := pp }
  page_r : ∃ pp, sQ.pages ⟨0, s.allocNext⟩ = some { rb with parent := pp }
  lo_l : g2.lo l = g.lo l
  hi_l : g2.hi l = ((sk.ekey o : EKey) : WithTop EKey)
  lo_r : g2.lo ⟨0, s.allocNext⟩ = ((sk.ekey o : EKey) : WithBot EKey)
  hi_r : g2.hi ⟨0, s.allocNext⟩ = g.hi l
  rank_r : g2.rank ⟨0, s.allocNext⟩ = g.rank l

/-- What a call of `bt_insert` for the entry at `e` leaves: either it returns 0,
and then the tree is well formed and holds `e` besides the entries it held; or
it does not return 0, and then the state is as it was. -/
def InsertOut (c : Layout) (o : Ordering) (s : State) (e : EKey) (res : Except Err Int)
    (s1 : State) : Prop :=
  (res = .ok 0 ∧ WellFormed c o s1 ∧ Content o s1 = Content o s ∪ {e}) ∨
    (res ≠ .ok 0 ∧ s1 = s)

end BtreeBucket
end mongo
namespace mongo
namespace BtreeBucket

/-- The value on which `find` branches at the slot `M`: the comparison of the
keys and, when the keys compare equal, of the record locators, the one of the
slot without its low bit. -/
def findCompare (o : Ordering) (key : BSONObj) (recordLoc : DiskLoc) (M : _KeyNode) : Int :=
  let x := key.woCompare M.key o
  if x = 0 then recordLoc.compare M.recordLoc.clearLow else x

end BtreeBucket
end mongo
namespace mongo

/-! ## The bulk builder -/

/-- The fields of `BtreeBuilder` that its routines read and write: the flag
`dupsAllowed`, the count `n` of calls of `addKey`, the last key seen, the first
and the current page of the chain of leaves, and the flag `committed`. The page
`b` is the page at `cur`. -/
structure BtreeBuilder where
  dupsAllowed : Bool
  n : Nat
  keyLast : BSONObj
  first : DiskLoc
  cur : DiskLoc
  committed : Bool

namespace BtreeBuilder

/-- Modelled from the spec: `tempNext`, the link to the next page of a level
while the tree is built, overlays the header field `parent`. -/
def tempNext (b : BtreeBucket) : DiskLoc := b.parent

/-- Modelled from the spec: assignment through the reference `tempNext()`. -/
def setTempNext (b : BtreeBucket) (l : DiskLoc) : BtreeBucket := { b with parent := l }

/-- The constructor of `BtreeBuilder`: the chain of leaves starts with a fresh
page. -/
def create (c : Layout) (dupsAllowed : Bool) (s : State) : BtreeBuilder × State :=
  let (loc, s1) := BtreeBucket.addBucket c s
  ({ dupsAllowed := dupsAllowed, n := 0, keyLast := ⟨0, []⟩, first := loc, cur := loc,
     committed := false }, s1)

/-- The effect of `newBucket`: a fresh page is linked after the current page and
becomes the current page. -/
def newBucket (c : Layout) (bb : BtreeBuilder) (s : State) : Except Err (BtreeBuilder × State) :=
  let (L, s1) := BtreeBucket.addBucket c s
  match s1.pages bb.cur with
  | none => .error .fault
  | some b => .ok ({ bb with cur := L }, s1.put bb.cur (setTempNext b L))

/-- The order check of `addKey`, made when duplicates are not allowed: the new
key must not compare below the last key (internal error 10288) and must not
compare equal to it (`ASSERT_ID_DUPKEY`); `keyLast` becomes the new key. -/
def checkOrder (o : Ordering) (bb : BtreeBuilder) (key : BSONObj) : Except Err BtreeBuilder :=
  if ¬ bb.dupsAllowed then
    if bb.n > 0 then
      let cmp := bb.keyLast.woCompare key o
      if ¬ (cmp ≤ 0) then .error (.massert 10288)
      else if cmp = 0 then .error .dupKey
      else .ok { bb with keyLast := key }
    else .ok { bb with keyLast := key }
  else .ok bb

/-- The routine `addKey(key, loc)`. -/
def addKey (c : Layout) (o : Ordering) (bb : BtreeBuilder) (s : State) (key : BSONObj)
    (loc : DiskLoc) : Except Err BtreeBuilder × State :=
  match checkOrder o bb key with
  | .error e => (.error e, s)
  | .ok bb1 =>
    match s.pages bb1.cur with
    | none => (.error .fault, s)
    | some b =>
      match BtreeBucket._pushBack c b loc key o DiskLoc.Null with
      | .error e => (.error e, s)
      | .ok (true, b1) => (.ok { bb1 with n := bb1.n + 1 }, s.put bb1.cur b1)
      | .ok (false, _) =>
        -- no room
        if key.objsize > KeyMax c then (.ok { bb1 with n := bb1.n + 1 }, s)
        else
          -- bucket was full
          match newBucket c bb1 s with
          | .error e => (.error e, s)
          | .ok (bb2, s1) =>
            match s1.pages bb2.cur with
            | none => (.error .fault, s1)
            | some nb =>
              match BtreeBucket.pushBack c nb loc key o DiskLoc.Null with
              | .error e => (.error e, s1)
              | .ok nb1 => (.ok { bb2 with n := bb2.n + 1 }, s1.put bb2.cur nb1)

end BtreeBuilder
end mongo
namespace mongo
namespace BtreeBucket

/-! ## Deletion: the pages and the ghost data after a step -/

/-- The page after the slot at `p` is removed by `_delKeyAtPos`. -/
def eraseSlot (c : Layout) (b : BtreeBucket) (p : Nat) : BtreeBucket :=
  { b with
    emptySize := b.emptySize + c.slotSize
    keys := b.keys.take p ++ b.keys.drop (p + 1)
    packed := false }

end BtreeBucket
end mongo
namespace mongo
namespace BtreeBucket

/-! ## What `locate` reports, in both directions -/

/-- The locator and position of a result of `locate` or `advance` are those of
the position `z`, or the locator is null when there is no such position. -/
def AtPos (res : DiskLoc × Int × Bool) : Option (DiskLoc × Nat) → Prop
  | none => res.1 = DiskLoc.Null
  | some z => res.1 = z.1 ∧ res.2.1 = (z.2 : Int)

/-- What `locate` reports with a negative direction for the target `t` on a
subtree with in-order list `L`, split into the positions `A` before `t` and the
positions `B` at or after `t`: the position of `t` with `found`, when `B` starts
with it, and otherwise the last position of `A`, or the null locator when `A`
is empty. -/
def LocateSpecBwd (o : Ordering) (s : State) (t : EKey) (L : List (DiskLoc × Nat))
    (res : DiskLoc × Int × Bool) : Prop :=
  ∃ A B, L = A ++ B ∧ (∀ x ∈ A, ∀ k, slotAt s x = some k → k.ekey o < t) ∧
    (∀ x ∈ B, ∀ k, slotAt s x = some k → t ≤ k.ekey o) ∧
    ((∃ z k, B.head? = some z ∧ slotAt s z = some k ∧ k.ekey o = t ∧
        res = (z.1, (z.2 : Int), true)) ∨
     ((∀ x ∈ B, ∀ k, slotAt s x = some k → t < k.ekey o) ∧ res.2.2 = false ∧
        AtPos res A.getLast?))

/-- What `locate` reports for the target `t`, the in-order list of the tree
being split into the positions `A` before `t` and the positions `B` at or after
`t`: the position of `t` with `found`, when `B` starts with it; otherwise, with
`found` false, the first position of `B` for a direction that is not negative
and the last position of `A` for a negative direction, or the null locator when
there is no such position. -/
def LocateOut (o : Ordering) (s : State) (t : EKey) (direction : Int)
    (A B : List (DiskLoc × Nat)) (res : DiskLoc × Int × Bool) : Prop :=
  (∃ z k, B.head? = some z ∧ slotAt s z = some k ∧ k.ekey o = t ∧
      res = (z.1, (z.2 : Int), true)) ∨
    ((∀ x ∈ B, ∀ k, slotAt s x = some k → t < k.ekey o) ∧ res.2.2 = false ∧
      AtPos res (if direction < 0 then A.getLast? else B.head?))

end BtreeBucket
end mongo
namespace mongo
namespace BtreeBucket

/-! ## Worked examples of the page primitives -/

/-- A leaf page of `smallLayout` with the keys 1 to 5, the second one marked
unused, not packed, with 20 free bytes: a further key of size 10 needs 28. -/
def fullPage : BtreeBucket :=
  leafPage false 20 50
    [leafSlot 1 10 10, leafSlot 2 10 21, leafSlot 3 10 30, leafSlot 4 10 40, leafSlot 5 10 50]

/-- A packed leaf page of `smallLayout` with five keys of size 10 for the key 9,
as the root of `sixDups` is before its sixth insertion. -/
def fiveKeys : BtreeBucket :=
  leafPage true 20 50
    [leafSlot 9 10 2, leafSlot 9 10 4, leafSlot 9 10 6, leafSlot 9 10 8, leafSlot 9 10 10]

end BtreeBucket
end mongo
namespace mongo
namespace BtreeBucket

/-! ## The comparison against a search target and the searches that use it -/

/-- The first loop of `customBSONCmp`: the first `rBeginLen` fields of `l` are
compared with those of `rBegin`; the result is the value to return, if a field
differs, and the walking bit `mask` as the loop leaves it. -/
def customPrefix (o : Ordering) : Nat → Nat → List Int → List Int →
    Except Err (Option Int × Nat)
  | mask, 0, _, _ => .ok (none, mask)
  | mask, i + 1, l :: ls, r :: rs =>
    let x := elemCompare l r
    let x := if o.descending mask then -x else x
    if x ≠ 0 then .ok (some x, mask) else customPrefix o ((mask * 2) % 2 ^ 32) i ls rs
  | _, _ + 1, _, _ => .error .fault

/-- The second loop of `customBSONCmp`: the remaining fields of `l` are compared
with the elements of `rEnd` at their positions. -/
def customRest (o : Ordering) (direction : Int) : Nat → List Int → List Int → List Bool →
    Except Err Int
  | _, [], _, _ => .ok 0
  | _, _ :: _, [], _ => .error .fault
  | mask, l :: ls, r :: rs, incs =>
    let x := elemCompare l r
    let x := if o.descending mask then -x else x
    if x ≠ 0 then .ok x
    else match incs with
      | [] => .error .fault
      | inc :: incs1 =>
        if ¬ inc then .ok (-direction)
        else customRest o direction ((mask * 2) % 2 ^ 32) ls rs incs1

/-- The routine `customBSONCmp(l, rBegin, rBeginLen, rSup, rEnd, rEndInclusive,
o, direction)`; `rEnd` is the vector of the elements pointed to. Reading a
field or a vector element that is not there is a fault. -/
def customBSONCmp (l rBegin : BSONObj) (rBeginLen : Nat) (rSup : Bool) (rEnd : List Int)
    (rEndInclusive : List Bool) (o : Ordering) (direction : Int) : Except Err Int :=
  match customPrefix o 1 rBeginLen l.elems rBegin.elems with
  | .error e => .error e
  | .ok (some x, _) => .ok x
  | .ok (none, mask) =>
    if rSup then .ok (-direction)
    else customRest o direction mask (l.elems.drop rBeginLen) (rEnd.drop rBeginLen)
      (rEndInclusive.drop rBeginLen)

/-- The comparison of the field at position `i`: the comparison of the two
values, negated when the position is descending in `o`. -/
def fieldCmp (o : Ordering) (i : Nat) (a r : Int) : Int :=
  if o.descending (2 ^ i % 2 ^ 32) then -(elemCompare a r) else elemCompare a r

end BtreeBucket
end mongo
namespace mongo
namespace BtreeBucket

/-! ## The searches `customFind`, `customLocate` and `advanceTo` -/

/-- The arguments that `advanceTo`, `customLocate` and `customFind` hand on
unchanged to `customBSONCmp`: the target of the search (`keyBegin`,
`keyBeginLen`, `afterKey`, `keyEnd`, `keyEndInclusive`), the ordering and the
direction. -/
structure Target where
  keyBegin : BSONObj
  keyBeginLen : Nat
  afterKey : Bool
  keyEnd : List Int
  keyEndInclusive : List Bool
  order : Ordering
  direction : Int

/-- The comparison of a key with the target: the call of `customBSONCmp` that
the searches make. -/
def Target.cmp (t : Target) (key : BSONObj) : Except Err Int :=
  customBSONCmp key t.keyBegin t.keyBeginLen t.afterKey t.keyEnd t.keyEndInclusive t.order
    t.direction

/-- The key of the slot `i` of a page, as `keyNode(i).key` reads it; an index
outside the slot array is a fault. -/
def keyAt (b : BtreeBucket) (i : Int) : Except Err _KeyNode :=
  if i < 0 then .error .fault
  else match b.keys.get? i.toNat with
    | none => .error .fault
    | some k => .ok k

/-- The routine `customFind(l, h, ...)`: its boolean result and the values it
leaves in `thisLoc`, `keyOfs` and `bestParent`. -/
def customFind (s : State) (t : Target)
    (thisLoc : DiskLoc) (bestParent : DiskLoc × Int) :
    Nat → Int → Int → Except Err (Bool × DiskLoc × Int × (DiskLoc × Int))
  | 0, _, _ => .error .outOfFuel
  | fuel + 1, l, h =>
    match s.pages thisLoc with
    | none => .error .fault
    | some b =>
      if l + 1 = h then
        let keyOfs := if t.direction > 0 then h else l
        match keyAt b h with
        | .error e => .error e
        | .ok kh =>
          let next := kh.prevChildBucket
          if ¬ next.isNull then .ok (true, next, keyOfs, (thisLoc, keyOfs))
          else .ok (false, thisLoc, keyOfs, bestParent)
      else
        let m := l + (h - l).tdiv 2
        match keyAt b m with
        | .error e => .error e
        | .ok km =>
          match t.cmp km.key with
          | .error e => .error e
          | .ok cmp =>
            if cmp < 0 then
              customFind s t
                thisLoc bestParent fuel m h
            else if cmp > 0 then
              customFind s t
                thisLoc bestParent fuel l m
            else if t.direction < 0 then
              customFind s t
                thisLoc bestParent fuel m h
            else
              customFind s t
                thisLoc bestParent fuel l m

/-- The descent loop of `customLocate`: the values it leaves in `thisLoc` and
`keyOfs`. -/
def customLocateLoop (s : State) (t : Target) :
    Nat → DiskLoc → Int → DiskLoc × Int → Except Err (DiskLoc × Int)
  | 0, _, _, _ => .error .outOfFuel
  | fuel + 1, thisLoc, keyOfs, bestParent =>
    match s.pages thisLoc with
    | none => .error .fault
    | some b =>
      let h : Int := b.n - 1
      -- leftmost/rightmost key may possibly be >=/<= search key
      match keyAt b (if t.direction > 0 then 0 else h) with
      | .error e => .error e
      | .ok k1 =>
        match t.cmp k1.key with
        | .error e => .error e
        | .ok c1 =>
          let firstCheck : Bool := if t.direction > 0 then decide (c1 ≥ 0) else decide (c1 ≤ 0)
          if firstCheck then
            match keyAt b 0 with
            | .error e => .error e
            | .ok k0 =>
              let next := if t.direction > 0 then k0.prevChildBucket else b.nextChild
              let keyOfs : Int := if t.direction > 0 then 0 else h
              if ¬ next.isNull then
                customLocateLoop s t fuel next keyOfs (thisLoc, keyOfs)
              else .ok (thisLoc, keyOfs)
          else
            match keyAt b (if t.direction > 0 then h else 0) with
            | .error e => .error e
            | .ok k2 =>
              match t.cmp k2.key with
              | .error e => .error e
              | .ok c2 =>
                let secondCheck : Bool :=
                  if t.direction > 0 then decide (c2 < 0) else decide (c2 > 0)
                if secondCheck then
                  match keyAt b 0 with
                  | .error e => .error e
                  | .ok k0 =>
                    let next := if t.direction > 0 then b.nextChild else k0.prevChildBucket
                    if next.isNull then .ok bestParent
                    else
                      customLocateLoop s t fuel next keyOfs bestParent
                else
                  match customFind s t thisLoc bestParent fuel 0 h with
                  | .error e => .error e
                  | .ok (false, thisLoc1, keyOfs1, _) => .ok (thisLoc1, keyOfs1)
                  | .ok (true, thisLoc1, keyOfs1, bestParent1) =>
                    customLocateLoop s t fuel thisLoc1 keyOfs1 bestParent1

/-- The routine `customLocate`: the values it leaves in `thisLoc` and `keyOfs`. -/
def customLocate (s : State) (t : Target)
    (fuel : Nat) (thisLoc : DiskLoc) (keyOfs : Int) (bestParent : DiskLoc × Int) :
    Except Err (DiskLoc × Int) :=
  match s.pages thisLoc with
  | none => .error .fault
  | some b =>
    if b.n = 0 then .ok (DiskLoc.Null, keyOfs)
    else customLocateLoop s t fuel thisLoc keyOfs bestParent

/-- The loop of `advanceTo` that goes up the parents until the rightmost
(leftmost) key of the page is at or after (before) the target, or the page has
no parent: the page it stops at. -/
def advanceToUp (s : State) (t : Target) :
    Nat → DiskLoc → Except Err DiskLoc
  | 0, _ => .error .outOfFuel
  | fuel + 1, thisLoc =>
    match s.pages thisLoc with
    | none => .error .fault
    | some b =>
      if b.parent.isNull then .ok thisLoc
      else
        match s.pages b.parent with
        | none => .error .fault
        | some p =>
          match keyAt p (if t.direction > 0 then p.n - 1 else 0) with
          | .error e => .error e
          | .ok k =>
            match t.cmp k.key with
            | .error e => .error e
            | .ok c =>
              if (if t.direction > 0 then decide (c ≥ 0) else decide (c ≤ 0)) then .ok b.parent
              else
                advanceToUp s t fuel b.parent

/-- The routine `advanceTo`: the values it leaves in `thisLoc` and `keyOfs`. -/
def advanceTo (s : State) (t : Target)
    (fuel : Nat) (thisLoc : DiskLoc) (keyOfs : Int) : Except Err (DiskLoc × Int) :=
  match s.pages thisLoc with
  | none => .error .fault
  | some b =>
    let l : Int := if t.direction > 0 then keyOfs else 0
    let h : Int := if t.direction > 0 then b.n - 1 else keyOfs
    match keyAt b (if t.direction > 0 then h else l) with
    | .error e => .error e
    | .ok k =>
      match t.cmp k.key with
      | .error e => .error e
      | .ok c =>
        let dontGoUp : Bool := if t.direction > 0 then decide (c ≥ 0) else decide (c ≤ 0)
        let bestParent : DiskLoc × Int := (DiskLoc.Null, 0)
        if dontGoUp then
          -- this comparison result assures h > l
          match customFind s t thisLoc bestParent fuel l h with
          | .error e => .error e
          | .ok (false, thisLoc1, keyOfs1, _) => .ok (thisLoc1, keyOfs1)
          | .ok (true, thisLoc1, keyOfs1, bestParent1) =>
            customLocate s t
              fuel thisLoc1 keyOfs1 bestParent1
        else
          match advanceToUp s t fuel thisLoc with
          | .error e => .error e
          | .ok top =>
            customLocate s t
              fuel top keyOfs bestParent

end BtreeBucket
end mongo
namespace mongo
namespace BtreeBucket

/-- The target has what `customBSONCmp` reads for a key of `m` fields: `keyBegin`
has `keyBeginLen` fields, which is `m` at most, and the vectors `keyEnd` and
`keyEndInclusive` have `m` elements at least. -/
structure Target.Fits (t : Target) (m : Nat) : Prop where
  len_le : t.keyBeginLen ≤ m
  begin_len : t.keyBeginLen ≤ t.keyBegin.elems.length
  end_len : m ≤ t.keyEnd.length
  inc_len : m ≤ t.keyEndInclusive.length

/-- Every key of the tree has `m` fields. -/
def UniformKeys (s : State) (m : Nat) : Prop :=
  ∀ l b k, s.pages l = some b → k ∈ b.keys → k.key.elems.length = m

/-- The sign of the comparison `c1` is at most the sign of `c2`. -/
def SignLe (c1 c2 : Int) : Prop := (0 ≤ c1 → 0 ≤ c2) ∧ (0 < c1 → 0 < c2)

/-- The value of the comparison of a slot with the target; 0 stands in when the
comparison faults, which it does not on a key that the target fits. -/
def Target.val (t : Target) (k : _KeyNode) : Int :=
  match t.cmp k.key with
  | .ok c => c
  | .error _ => 0

/-- The comparison value `c` places a slot on the far side of the target in the
direction of the search: at or after the target for a forward search, strictly
after it for a backward search. -/
def Target.high (t : Target) (c : Int) : Prop :=
  if t.direction > 0 then c ≥ 0 else c > 0

instance (t : Target) (c : Int) : Decidable (t.high c) := by
  unfold Target.high; infer_instance

/-- The position that a search with the target `t` reports when the positions
of the tree in order are `A`, on the near side of the target, followed by `B`,
on the far side: the first of `B` for a forward search and the last of `A` for
a backward search, or `bp` when there is none. -/
def Target.pick (t : Target) (A B : List (DiskLoc × Nat)) (bp : DiskLoc × Int) : DiskLoc × Int :=
  match (if t.direction > 0 then B.head? else A.getLast?) with
  | some z => (z.1, (z.2 : Int))
  | none => bp

/-- The candidate that a search with the target `t` holds in `bestParent` when
it descends into the child at position `p` of the page at `l`, which has `n`
slots: the slot after the child for a forward search, the slot before it for a
backward search, or the candidate `bp` it had when there is no such slot. -/
def Target.bestAt (t : Target) (l : DiskLoc) (n p : Nat) (bp : DiskLoc × Int) : DiskLoc × Int :=
  if t.direction > 0 then (if p < n then (l, (p : Int)) else bp)
  else (if 0 < p then (l, (p : Int) - 1) else bp)

end BtreeBucket
end mongo
namespace mongo
namespace BtreeBucket

/-! ## An index on two fields -/

/-- A layout with pages of 8192 bytes. -/
def pageLayout : Layout := ⟨8192, 40, 18⟩

/-- The key `{a: i, b: j}`, of 27 bytes. -/
def gridKey (i j : Int) : BSONObj := ⟨27, [i, j]⟩

/-- The slots of the keys `{a: i, b: j}` for `i` and `j` from 1 to 10, in
ascending order, without children; the record of the entry number `n` is at
offset `2 * n + 2` of file 1. -/
def gridSlots : List _KeyNode :=
  (List.range 100).map fun n =>
    ⟨DiskLoc.Null, ⟨1, 2 * (n : Int) + 2⟩, gridKey ((n : Int) / 10 + 1) ((n : Int) % 10 + 1)⟩

/-- The page that holds the slots of `gridSlots`. -/
def gridPage : BtreeBucket := leafPage true 3652 2700 gridSlots

/-- The target `keyBegin = {a: 5}` with `afterKey`, for a forward search in the
ascending order: the keys after every key that starts with `a: 5`. -/
def afterFive : Target :=
  { keyBegin := ⟨12, [5]⟩, keyBeginLen := 1, afterKey := true, keyEnd := [0, 0],
    keyEndInclusive := [true, true], order := ascending, direction := 1 }

/-- The target `keyBegin = {a: 2}` without `afterKey` and with an inclusive end,
on keys of one field, for a search in the direction `d`: the key 2 compares
equal to it. -/
def equalsTwo (d : Int) : Target :=
  { keyBegin := sampleKey 2 10, keyBeginLen := 1, afterKey := false, keyEnd := [0],
    keyEndInclusive := [true], order := ascending, direction := d }

/-- The tree whose only page is `samplePage`. -/
def sampleTree : State := singlePage smallLayout samplePage

/-- The number of slots of the page at offset `i` of file 0, or 0 when there is
no page there. -/
def slotsAt (s : State) (i : Nat) : Nat :=
  match s.pages ⟨0, (i : Int)⟩ with
  | some b => b.keys.length
  | none => 0

/-- A number that no page of the state has more slots than. -/
def maxSlots (s : State) : Nat := ((List.range s.allocNext.toNat).map (slotsAt s)).sum

/-- The result `res` of a search is at the position `z`, or has the null
locator when there is no position. -/
def LandsAt (res : DiskLoc × Int) : Option (DiskLoc × Nat) → Prop
  | some z => res = (z.1, (z.2 : Int))
  | none => res.1 = DiskLoc.Null

end BtreeBucket
end mongo
namespace mongo
namespace BtreeBucket

/-! ## Trees of two levels -/

/-- The state whose pages are those of the list `ps`. -/
def treeOf (ps : List (DiskLoc × BtreeBucket)) (head : DiskLoc) (allocNext : Int) : State :=
  ⟨fun l => (ps.find? (fun x => decide (x.1 = l))).map (fun x => x.2), head, allocNext⟩

/-- A leaf of `smallLayout` below the page at `parent`, packed, with keys of 10
bytes. -/
def leafOf (parent : DiskLoc) (keys : List _KeyNode) : BtreeBucket :=
  { parent := parent, nextChild := DiskLoc.Null, packed := true,
    emptySize := 160 - 28 * keys.length, topSize := 10 * keys.length, keys := keys }

/-- A tree of `smallLayout`: the root holds the key 5 between a leaf with the
keys 1 and 2 and a leaf with the keys 8 and 9. -/
def twoLevel : State :=
  treeOf
    [(⟨0, 0⟩, { parent := DiskLoc.Null, nextChild := ⟨0, 400⟩, packed := true, emptySize := 132,
                topSize := 10, keys := [⟨⟨0, 200⟩, ⟨1, 50⟩, sampleKey 5 10⟩] }),
     (⟨0, 200⟩, leafOf ⟨0, 0⟩ [leafSlot 1 10 10, leafSlot 2 10 20]),
     (⟨0, 400⟩, leafOf ⟨0, 0⟩ [leafSlot 8 10 80, leafSlot 9 10 90])]
    ⟨0, 0⟩ 600

/-- A tree of `smallLayout`: the root holds the keys 10 and 20; its children are
a leaf with the keys 1 and 2, a leaf with the key 11, and a full leaf with the
keys 21 to 25. -/
def threeLeaves : State :=
  treeOf
    [(⟨0, 0⟩, { parent := DiskLoc.Null, nextChild := ⟨0, 600⟩, packed := true, emptySize := 104,
                topSize := 20,
                keys := [⟨⟨0, 200⟩, ⟨1, 100⟩, sampleKey 10 10⟩,
                         ⟨⟨0, 400⟩, ⟨1, 200⟩, sampleKey 20 10⟩] }),
     (⟨0, 200⟩, leafOf ⟨0, 0⟩ [leafSlot 1 10 10, leafSlot 2 10 20]),
     (⟨0, 400⟩, leafOf ⟨0, 0⟩ [leafSlot 11 10 110]),
     (⟨0, 600⟩, leafOf ⟨0, 0⟩ [leafSlot 21 10 210, leafSlot 22 10 220, leafSlot 23 10 230,
        leafSlot 24 10 240, leafSlot 25 10 250])]
    ⟨0, 0⟩ 800

/-- The slot of the root of `twoLevel`. -/
def rootSlot : _KeyNode := ⟨⟨0, 200⟩, ⟨1, 50⟩, sampleKey 5 10⟩

/-- The root page of `twoLevel`. -/
def twoLevelRoot : BtreeBucket :=
  { parent := DiskLoc.Null, nextChild := ⟨0, 400⟩, packed := true, emptySize := 132,
    topSize := 10, keys := [rootSlot] }

end BtreeBucket
end mongo
namespace mongo
namespace BtreeBucket

/-! ## The merge of two neighbouring children -/

/-- What `doMergeNeighbors` leaves before it replaces or balances the page `P`,
whose slot `li` with the key `sep` separated the children `L` and `R`: the
packed pages `l1` and `r1` of the children, the page `M` that `L` holds after
the merge, the page `b4` that `P` holds without the separator, and the state
`sM`, in which `R` is gone and the children of `R` have `L` as their parent. -/
structure MergeOut (c : Layout) (o : Ordering) (s : State) (P : DiskLoc) (li : Nat)
    (p : BtreeBucket) (sep : _KeyNode) (L R : DiskLoc) (l r l1 r1 M b4 : BtreeBucket)
    (sM : State) : Prop where
  packed_l : PackedAt l l1 0 0
  packed_r : PackedAt r r1 0 0
  keys_M : M.keys = l1.keys ++ ⟨l1.nextChild, sep.recordLoc, sep.key⟩ :: r1.keys
  next_M : M.nextChild = r1.nextChild
  parent_M : M.parent = P
  sizes_M : PageSizes c M
  keys_b4 : b4.keys = p.keys.take li ++ wireRight L (p.keys.drop (li + 1))
  next_b4 : b4.nextChild = if p.keys.drop (li + 1) = [] then L else p.nextChild
  parent_b4 : b4.parent = p.parent
  sizes_b4 : PageSizes c b4
  head : sM.head = s.head
  alloc : sM.allocNext = s.allocNext
  page_P : sM.pages P = some b4
  page_L : sM.pages L = some M
  page_R : sM.pages R = none
  page_ch : ∀ x, IsChild r1 x → x ≠ DiskLoc.Null → ∀ bx, s.pages x = some bx →
    sM.pages x = some { bx with parent := L }
  page_o : ∀ x, x ≠ P → x ≠ L → x ≠ R → ¬ (IsChild r1 x ∧ x ≠ DiskLoc.Null) →
    sM.pages x = s.pages x
  run : ∀ fuel, doMergeNeighbors c o (fuel + 1) s P li =
    if b4.keys.length = 0 then replaceWithNextChild sM P
    else balanceWithNeighbors c o fuel sM P

/-- The ghost data after the page at `L` took the slots of its right neighbour
`R`: its interval ends where that of `R` ended, and its rank is above the
children of both. -/
def mergeGhost (g : Ghost) (L R : DiskLoc) : Ghost :=
  { rank := Function.update g.rank L (max (g.rank L) (g.rank R))
    lo := g.lo
    hi := Function.update g.hi L (g.hi R) }

/-- The ghost data after the page at `L` took the place of its parent `P`. -/
def collapseGhost (g : Ghost) (L P : DiskLoc) : Ghost :=
  { rank := Function.update g.rank L (g.rank P)
    lo := Function.update g.lo L (g.lo P)
    hi := Function.update g.hi L (g.hi P) }

end BtreeBucket
end mongo

namespace mongo
namespace BtreeBucket

/-- The specification of `balanceWithNeighbors` on the pages at most `d` ranks
below the root: with enough fuel it returns, and it leaves a tree that
satisfies the invariant and has the same entries. -/
def BalanceSpec (c : Layout) (o : Ordering) (d : Nat) : Prop :=
  ∀ (s : State) (g : Ghost) (x : DiskLoc) (b : BtreeBucket), GInv c o s g ∅ →
    s.pages x = some b → g.rank s.head - g.rank x ≤ d →
    ∃ s1 g1, (∀ fuel, 3 * d + 1 ≤ fuel → balanceWithNeighbors c o fuel s x = (.ok (), s1)) ∧
      GInv c o s1 g1 ∅ ∧ Content o s1 = Content o s

end BtreeBucket
end mongo
namespace mongo
namespace BtreeBucket

/-! ## Runs of calls on an index, and full walks -/

/-- A call on the index: `bt_insert` of an entry, or `unindex` of one. -/
inductive Op where
  | insert (key : BSONObj) (recordLoc : DiskLoc) (dupsAllowed : Bool)
  | remove (key : BSONObj) (recordLoc : DiskLoc)

/-- The record locators that a call of `bt_insert` may be given: locators of
records, which are at even offsets from 2 on. -/
def Op.Valid : Op → Prop
  | .insert _ recordLoc _ => 0 ≤ recordLoc.a ∧ 2 ≤ recordLoc.ofs ∧ recordLoc.ofs % 2 = 0
  | .remove _ _ => True

/-- One call on the root of the tree, together with the record of the entries:
an entry is recorded when `bt_insert` returns 0, and struck when `unindex`
returns true; a call that raises leaves the record as it is. -/
def stepOp (c : Layout) (o : Ordering) (fuel : Nat) (st : State × List EKey) :
    Op → State × List EKey
  | .insert key recordLoc dupsAllowed =>
    match bt_insert c o fuel st.1 st.1.head recordLoc key dupsAllowed true with
    | (.ok v, s1) => if v = 0 then (s1, entryKey o key recordLoc :: st.2) else (s1, st.2)
    | (.error _, s1) => (s1, st.2)
  | .remove key recordLoc =>
    match unindex c o fuel st.1 st.1.head key recordLoc with
    | (.ok r, s1) =>
      if r then (s1, st.2.filter (fun e => decide (e ≠ entryKey o key recordLoc)))
      else (s1, st.2)
    | (.error _, s1) => (s1, st.2)

/-- A run of calls, from the index right after its creation. -/
def runOps (c : Layout) (o : Ordering) (fuel : Nat) (ops : List Op) : State × List EKey :=
  ops.foldl (stepOp c o fuel) (emptyTree c, [])

/-- The walk of a cursor from the position `(l, pos)`: the keys and records of
the used slots that repeated calls of `advance` in `direction` come to, until
the null locator. -/
def walk (s : State) (direction : Int) : Nat → DiskLoc → Int →
    Except Err (List (BSONObj × DiskLoc))
  | 0, _, _ => .error .outOfFuel
  | fuel + 1, l, pos =>
    if l.isNull then .ok []
    else match s.pages l with
      | none => .error .fault
      | some b =>
        if pos < 0 then .error .assertion
        else match b.keys.get? pos.toNat with
          | none => .error .assertion
          | some k =>
            match advance fuel s l pos direction with
            | .error e => .error e
            | .ok (l1, pos1) =>
              match walk s direction fuel l1 pos1 with
              | .error e => .error e
              | .ok rest => .ok (if k.isUsed then (k.key, k.recordLoc) :: rest else rest)

/-- The full walk of the tree in `direction`: from the leftmost slot for a
positive direction and from the rightmost for a negative one, the slot that the
descent loop of `advance` reaches from the root; a tree without slots has the
empty walk. -/
def traverse (s : State) (direction : Int) (fuel : Nat) :
    Except Err (List (BSONObj × DiskLoc)) :=
  match s.pages s.head with
  | none => .error .fault
  | some b =>
    if b.keys.length = 0 then .ok []
    else match advanceDown s direction (if direction < 0 then 1 else 0) fuel s.head with
      | .error e => .error e
      | .ok (l, pos) => walk s direction fuel l pos

/-- The keys and records of the used slots among the positions of a list. -/
def usedAt (s : State) : List (DiskLoc × Nat) → List (BSONObj × DiskLoc)
  | [] => []
  | y :: ys =>
    match slotAt s y with
    | some k => if k.isUsed then (k.key, k.recordLoc) :: usedAt s ys else usedAt s ys
    | none => usedAt s ys

end BtreeBucket
end mongo

namespace mongo
namespace BtreeBucket

/-- A run of calls for worked examples: the key 1 at three records, with
duplicates allowed, then the removal of one of them and of an entry that is not
there, and another key. -/
def sampleOps : List Op :=
  [.insert (sampleKey 1 10) ⟨1, 10⟩ true, .insert (sampleKey 1 10) ⟨1, 30⟩ true,
    .insert (sampleKey 1 10) ⟨1, 20⟩ true, .remove (sampleKey 1 10) ⟨1, 30⟩,
    .remove (sampleKey 7 10) ⟨1, 30⟩, .insert (sampleKey 2 10) ⟨1, 40⟩ false]

/-- The three calls that store the key 1 at the records `(1,10)`, `(1,30)` and
`(1,20)`, in that order, with duplicates allowed. -/
def dupOps : List Op :=
  [.insert (sampleKey 1 10) ⟨1, 10⟩ true, .insert (sampleKey 1 10) ⟨1, 30⟩ true,
    .insert (sampleKey 1 10) ⟨1, 20⟩ true]

end BtreeBucket
end mongo
namespace mongo
namespace BtreeBuilder

/-! ## The upper levels of the bulk builder -/

/-- The push of a popped slot onto the level above, in the inner loop of
`buildNextLevel`: the slot goes to the page `upLoc`, or, when that page has no
room, to a fresh page linked after it. The result is the page that received the
slot. -/
def pushUp (c : Layout) (o : Ordering) (s : State) (upLoc r : DiskLoc) (k : BSONObj)
    (keepLoc : DiskLoc) : Except Err (DiskLoc × State) :=
  match s.pages upLoc with
  | none => .error .fault
  | some up =>
    match BtreeBucket._pushBack c up r k o keepLoc with
    | .error e => .error e
    | .ok (true, up1) => .ok (upLoc, s.put upLoc up1)
    | .ok (false, _) =>
      -- current bucket full
      let (n, s2) := BtreeBucket.addBucket c s
      let s3 := s2.put upLoc (setTempNext up n)
      match s3.pages n with
      | none => .error .fault
      | some nb =>
        match BtreeBucket.pushBack c nb r k o keepLoc with
        | .error e => .error e
        | .ok nb1 => .ok (n, s3.put n nb1)

/-- The end of an iteration of the inner loop of `buildNextLevel`: the next page
of the chain is read from the page `xloc`; a page that keeps slots gets the upper
page as its parent, and a page left without slots hands its last child to the
upper page and is freed. The result is the next page of the chain. -/
def relink (s : State) (xloc upLoc : DiskLoc) (keepX : Bool) : Except Err (DiskLoc × State) :=
  match s.pages xloc with
  | none => .error .fault
  | some x =>
    let nextLoc := tempNext x
    if keepX then .ok (nextLoc, s.put xloc { x with parent := upLoc })
    else if ¬ x.nextChild.isNull then
      match s.setParent x.nextChild upLoc with
      | none => .error .fault
      | some s1 => .ok (nextLoc, BtreeBucket.deallocBucket s1 xloc)
    else .ok (nextLoc, BtreeBucket.deallocBucket s xloc)

/-- The inner loop of `buildNextLevel`: the pages of one level are visited along
their chain from `xloc` on. The last slot of each page is popped and pushed onto
the level above, whose current page is `upLoc`. -/
def buildChain (c : Layout) (o : Ordering) : Nat → State → DiskLoc → DiskLoc → Res Unit
  | 0, s, _, _ => (.error .outOfFuel, s)
  | fuel + 1, s, upLoc, xloc =>
    if xloc.isNull then (.ok (), s)
    else match s.pages xloc with
      | none => (.error .fault, s)
      | some x =>
        match BtreeBucket.popBack c x with
        | .error e => (.error e, s)
        | .ok ((r, k), x1) =>
          let s1 := s.put xloc x1
          let keepX : Bool := decide (x1.keys.length ≠ 0)
          let keepLoc := if keepX then xloc else x1.nextChild
          match pushUp c o s1 upLoc r k keepLoc with
          | .error e => (.error e, s1)
          | .ok (upLoc1, s2) =>
            match relink s2 xloc upLoc1 keepX with
            | .error e => (.error e, s2)
            | .ok (nextLoc, s3) => buildChain c o fuel s3 upLoc1 nextLoc

/-- The routine `buildNextLevel(loc)`: as long as the level that starts at `loc`
has more than one page, a level is built above it; the single page of the last
level becomes the root held by the index. -/
def buildNextLevel (c : Layout) (o : Ordering) : Nat → State → DiskLoc → Res Unit
  | 0, s, _ => (.error .outOfFuel, s)
  | fuel + 1, s, loc =>
    match s.pages loc with
    | none => (.error .fault, s)
    | some b =>
      if (tempNext b).isNull then
        -- only 1 bucket at this level. we are done.
        (.ok (), { s with head := loc })
      else
        let (upLoc, s1) := BtreeBucket.addBucket c s
        match buildChain c o fuel s1 upLoc loc with
        | (.error e, s2) => (.error e, s2)
        | (.ok (), s2) => buildNextLevel c o fuel s2 upLoc

/-- The routine `commit`. -/
def commit (c : Layout) (o : Ordering) (fuel : Nat) (bb : BtreeBuilder) (s : State) :
    Except Err BtreeBuilder × State :=
  match buildNextLevel c o fuel s bb.first with
  | (.error e, s1) => (.error e, s1)
  | (.ok (), s1) => (.ok { bb with committed := true }, s1)

/-- The calls of `addKey` for the pairs of a list, in order. -/
def addKeys (c : Layout) (o : Ordering) :
    BtreeBuilder → State → List (BSONObj × DiskLoc) → Except Err BtreeBuilder × State
  | bb, s, [] => (.ok bb, s)
  | bb, s, (key, loc) :: rest =>
    match addKey c o bb s key loc with
    | (.error e, s1) => (.error e, s1)
    | (.ok bb1, s1) => addKeys c o bb1 s1 rest

/-- A data file without pages, for an index that has no root yet. -/
def noPages : State := ⟨fun _ => none, DiskLoc.Null, 0⟩

/-- A bulk build: a builder is constructed on a data file without pages, the
pairs of the list are added in order, and the builder is committed. -/
def build (c : Layout) (o : Ordering) (fuel : Nat) (dupsAllowed : Bool)
    (S : List (BSONObj × DiskLoc)) : Except Err BtreeBuilder × State :=
  let (bb, s) := create c dupsAllowed noPages
  match addKeys c o bb s S with
  | (.error e, s1) => (.error e, s1)
  | (.ok bb1, s1) => commit c o fuel bb1 s1

/-- Three pairs in ascending order whose first and last keys are larger than
`KeyMax` of `smallLayout` and still fit in a page. -/
def hugeKeys : List (BSONObj × DiskLoc) :=
  [(sampleKey 1 130, ⟨1, 10⟩), (sampleKey 2 10, ⟨1, 20⟩), (sampleKey 3 100, ⟨1, 30⟩)]

end BtreeBuilder
end mongo

namespace mongo
namespace BtreeBuilder

/-- The first page of an upper level of the build of `hugeKeys`: it holds the key
of size 130 alone and is linked to the page `next` of its level. -/
def hugeFirst (next : DiskLoc) : BtreeBucket :=
  { parent := next, nextChild := DiskLoc.Null, packed := true, emptySize := 12, topSize := 130,
    keys := [⟨DiskLoc.Null, ⟨1, 10⟩, sampleKey 1 130⟩] }

/-- The second page of an upper level of the build of `hugeKeys`: it holds the
key of size 100 alone, with the second leaf as its left child, and ends the chain
of its level. -/
def hugeSecond : BtreeBucket :=
  { parent := DiskLoc.Null, nextChild := DiskLoc.Null, packed := true, emptySize := 42,
    topSize := 100, keys := [⟨⟨0, 200⟩, ⟨1, 30⟩, sampleKey 3 100⟩] }

/-- The shape of the data file between two levels of the build of `hugeKeys`: the
level consists of the page `hugeFirst` at offset `a` and the page `hugeSecond` at
offset `b`, the second leaf is mapped, and all three lie below the next offset
of the allocator. -/
structure Stuck (a b : Int) (s : State) : Prop where
  first : s.pages ⟨0, a⟩ = some (hugeFirst ⟨0, b⟩)
  second : s.pages ⟨0, b⟩ = some hugeSecond
  leaf : ∃ P, s.pages ⟨0, 200⟩ = some P
  ne : a ≠ b
  ne_a : a ≠ 200
  ne_b : b ≠ 200
  lt_a : a < s.allocNext
  lt_b : b < s.allocNext
  lt_leaf : 200 < s.allocNext

end BtreeBuilder
end mongo
namespace mongo
namespace BtreeBucket

/-- A root leaf of `smallLayout` without room for another key of size 10: five
slots for the keys 1 to 5, the slot of the key 2 marked unused, on a page whose
`Packed` flag is set. -/
def crowdedPage : BtreeBucket :=
  leafPage true 20 50 [leafSlot 1 10 10, leafSlot 2 10 21, leafSlot 3 10 30, leafSlot 4 10 40,
    leafSlot 5 10 50]

/-- The ghost data of a tree of one page: rank 0 and the whole index order as
the interval. -/
def flatGhost : Ghost := ⟨fun _ => 0, fun _ => ⊥, fun _ => ⊤⟩

end BtreeBucket
end mongo
namespace mongo
namespace BtreeBuilder
open BtreeBucket

/-! ## The invariant of the bulk builder -/

/-- The invariant of the forest that the bulk builder works on: every page
satisfies the order condition and the size condition and has its `Packed` flag
set; every slot is used and holds a pair of `P`; a page other than the roots in
`fl` has slots and is a child of the page its `parent` names; no page links to
a root; and the mapped pages are what the allocator handed out. The `parent`
field of a root is free: the builder keeps the chain of a level in it. -/
structure BInv (c : Layout) (o : Ordering) (s : State) (g : Ghost) (fl : Set DiskLoc)
    (P : Set (BSONObj × DiskLoc)) : Prop where
  null_unmapped : s.pages DiskLoc.Null = none
  page : ∀ l b, s.pages l = some b → PagePF o s g l b
  sizes : ∀ l b, s.pages l = some b → PageSizes c b
  packed : ∀ l b, s.pages l = some b → b.packed = true
  slots : ∀ l b, s.pages l = some b → ∀ k ∈ b.keys, k.isUsed = true ∧ (k.key, k.recordLoc) ∈ P
  link : ∀ l b, s.pages l = some b → l ∉ fl →
    b.keys ≠ [] ∧ ∃ pb, s.pages b.parent = some pb ∧ IsChild pb l
  float : ∀ r ∈ fl, (∃ rb, s.pages r = some rb) ∧ ∀ l b, s.pages l = some b → ¬ IsChild b r
  fresh : ∀ l b, s.pages l = some b → l.a = 0 ∧ 0 ≤ l.ofs ∧ l.ofs < s.allocNext
  alloc_nonneg : 0 ≤ s.allocNext

/-- The state in which the page at `K`, if there is one, has `u` as its
parent. -/
def reparent (s : State) (K u : DiskLoc) : State :=
  match s.pages K with
  | none => s
  | some b => s.put K { b with parent := u }

/-- The pages of one level, in the order of their chain from `x` on: each is a
mapped page of rank `R` without a last child, whose interval is open above,
whose `tempNext` is the next page of the list, and whose slots and lower end
are at or below the lower end of the next page; the chain ends with the null
locator. -/
def LevelChain (o : Ordering) (s : State) (g : Ghost) (R : Nat) :
    DiskLoc → List DiskLoc → Prop
  | x, [] => x = DiskLoc.Null
  | x, y :: ys => x = y ∧ ∃ b, s.pages y = some b ∧ b.nextChild = DiskLoc.Null ∧
      g.hi y = ⊤ ∧ g.rank y = R ∧
      (∀ z ∈ ys.head?, g.lo y ≤ g.lo z ∧
        ∀ k ∈ b.keys, ((k.ekey o : EKey) : WithBot EKey) ≤ g.lo z) ∧
      LevelChain o s g R (tempNext b) ys

/-- The state between two levels: the forest whose roots are the pages `X` of
the chain from `loc`, all of rank `R`, the highest rank; the chain is not empty,
and when it has more than one page each of its pages has slots. -/
structure Level (c : Layout) (o : Ordering) (s : State) (g : Ghost)
    (P : Set (BSONObj × DiskLoc)) (R : Nat) (loc : DiskLoc) (X : List DiskLoc) : Prop where
  inv : BInv c o s g {l | l ∈ X} P
  chain : LevelChain o s g R loc X
  nodup : X.Nodup
  ne_nil : X ≠ []
  x_ne : 2 ≤ X.length → ∀ x ∈ X, ∀ b, s.pages x = some b → b.keys ≠ []
  rank_le : ∀ l b, s.pages l = some b → g.rank l ≤ R

/-- The state inside the loop over the chain of a level of `k` pages: `X` is
what remains of the chain, from `xloc` on, and `U` is the chain of the level
above so far, from `upStart` to `upLoc`. The pages of `U` before `upLoc` have
three slots at least; `upLoc` has slots once a page of the chain was visited;
and the slots of `upLoc` and its lower end are at or below the lower end of the
next page of the chain. -/
structure Mid (c : Layout) (o : Ordering) (s : State) (g : Ghost)
    (P : Set (BSONObj × DiskLoc)) (R : Nat) (upStart upLoc xloc : DiskLoc)
    (U X : List DiskLoc) (k : Nat) : Prop where
  inv : BInv c o s g {l | l ∈ U ∨ l ∈ X} P
  up_chain : LevelChain o s g (R + 1) upStart U
  up_last : U.getLast? = some upLoc
  x_chain : LevelChain o s g R xloc X
  nodup : (U ++ X).Nodup
  bound : ∀ up, s.pages upLoc = some up → ∀ z ∈ X.head?, g.lo upLoc ≤ g.lo z ∧
    ∀ k ∈ up.keys, ((k.ekey o : EKey) : WithBot EKey) ≤ g.lo z
  x_ne : ∀ x ∈ X, ∀ b, s.pages x = some b → b.keys ≠ []
  u_ne : ∀ u ∈ U, u ≠ upLoc → ∀ b, s.pages u = some b → 3 ≤ b.keys.length
  pot : ∀ up, s.pages upLoc = some up → 3 * (U.length - 1) + up.keys.length + X.length ≤ k
  started : X.length < k → ∀ up, s.pages upLoc = some up → up.keys ≠ []
  rank_le : ∀ l b, s.pages l = some b → l ∉ U → g.rank l ≤ R

/-- The page that `popBack` leaves of the page `b` whose last slot is `kn`,
after the slots `ks`. -/
def popped (c : Layout) (b : BtreeBucket) (ks : List _KeyNode) (kn : _KeyNode) : BtreeBucket :=
  { b with
    nextChild := kn.prevChildBucket
    keys := ks
    emptySize := b.emptySize + c.slotSize + kn.key.objsize
    topSize := b.topSize - kn.key.objsize }

/-- The page that `_pushBack` makes of the page `b` when it appends the slot of
`kn` with the left child `K`. -/
def pushed (c : Layout) (b : BtreeBucket) (K : DiskLoc) (kn : _KeyNode) : BtreeBucket :=
  { b with
    emptySize := b.emptySize - c.slotSize - kn.key.objsize
    topSize := b.topSize + kn.key.objsize
    keys := b.keys ++ [⟨K, kn.recordLoc, kn.key⟩] }

/-- The state inside the loop when the first page `x` of what remains of the
chain, with the slots `ks` and then `kn`, is about to give `kn` to the last page
`u` of the level above, which has room for it. -/
structure Ready (c : Layout) (o : Ordering) (s : State) (g : Ghost)
    (P : Set (BSONObj × DiskLoc)) (R : Nat) (upStart u xloc : DiskLoc) (U : List DiskLoc)
    (x : DiskLoc) (X : List DiskLoc) (k : Nat) (up bx : BtreeBucket) (ks : List _KeyNode)
    (kn : _KeyNode) : Prop where
  inv : BInv c o s g {l | l ∈ U ∨ l ∈ x :: X} P
  up_chain : LevelChain o s g (R + 1) upStart U
  up_last : U.getLast? = some u
  x_chain : LevelChain o s g R xloc (x :: X)
  nodup : (U ++ x :: X).Nodup
  up_page : s.pages u = some up
  x_page : s.pages x = some bx
  bound : g.lo u ≤ g.lo x ∧ ∀ k ∈ up.keys, ((k.ekey o : EKey) : WithBot EKey) ≤ g.lo x
  x_ne : ∀ y ∈ X, ∀ b, s.pages y = some b → b.keys ≠ []
  u_ne : ∀ y ∈ U, y ≠ u → ∀ b, s.pages y = some b → 3 ≤ b.keys.length
  pot : 3 * (U.length - 1) + up.keys.length + (X.length + 1) ≤ k
  rank_le : ∀ l b, s.pages l = some b → l ∉ U → g.rank l ≤ R
  keys : bx.keys = ks ++ [kn]
  room : kn.key.objsize + c.slotSize ≤ up.emptySize

/-- The ghost data with a new root at `n`: it has the rank `R` and an interval
from `v` on that is open above. -/
def rootGhostAt (g : Ghost) (n : DiskLoc) (R : Nat) (v : WithBot EKey) : Ghost :=
  { rank := Function.update g.rank n R
    lo := Function.update g.lo n v
    hi := Function.update g.hi n ⊤ }

/-- The ghost data after the last slot of the root at `x`, at `e` in the index
order, was popped: the interval of `x` ends at `e`. -/
def popGhost (g : Ghost) (x : DiskLoc) (e : EKey) : Ghost :=
  { g with hi := Function.update g.hi x ((e : EKey) : WithTop EKey) }

end BtreeBuilder

namespace BtreeBucket

/-- Every slot of every page holds a pair of `P`, the record locator taken
without the unused mark. -/
def SlotsIn (P : Set (BSONObj × DiskLoc)) (s : State) : Prop :=
  ∀ l b k, s.pages l = some b → k ∈ b.keys → (k.key, k.recordLoc.clearLow) ∈ P

end BtreeBucket
end mongo
namespace mongo
namespace BtreeBuilder
open BtreeBucket

/-- The state between two calls of `addKey`: the forest consists of the leaves
`X` of the chain from `first`, which ends with the current page `cur`; every
leaf before `cur` has slots, and so has `cur` when it is not the only leaf; and
the slots of `cur` and its lower end are at or below `B`, the position of the
entry added last. -/
structure Leaves (c : Layout) (o : Ordering) (s : State) (g : Ghost)
    (P : Set (BSONObj × DiskLoc)) (first cur : DiskLoc) (X : List DiskLoc)
    (B : WithBot EKey) : Prop where
  inv : BInv c o s g {l | l ∈ X} P
  chain : LevelChain o s g 0 first X
  last : X.getLast? = some cur
  nodup : X.Nodup
  x_ne : ∀ x ∈ X, x ≠ cur → ∀ b, s.pages x = some b → b.keys ≠ []
  cur_ne : 2 ≤ X.length → ∀ b, s.pages cur = some b → b.keys ≠ []
  bound : ∀ b, s.pages cur = some b → g.lo cur ≤ B ∧
    ∀ k ∈ b.keys, ((k.ekey o : EKey) : WithBot EKey) ≤ B
  rank_le : ∀ l b, s.pages l = some b → g.rank l ≤ 0

end BtreeBuilder
end mongo
namespace mongo
namespace BtreeBucket

/-! ## The entries that a run of calls should leave -/

/-- Modelled from the spec: whether an index that holds the pairs `M` takes the
pair `(key, recordLoc)` from a call of `bt_insert`. The key must have a size
between 1 and `KeyMax`; the pair must not be in the index already; and when
duplicates are not allowed, no pair of the index may have an equal key. Keys
are equal when the comparator says so. -/
def expectAccepts (c : Layout) (o : Ordering) (M : List (BSONObj × DiskLoc)) (key : BSONObj)
    (recordLoc : DiskLoc) (dupsAllowed : Bool) : Bool :=
  decide (0 < key.objsize) && decide (key.objsize ≤ KeyMax c) &&
    M.all (fun p => decide (¬ (p.1.woCompare key o = 0 ∧ p.2 = recordLoc))) &&
    (dupsAllowed || M.all (fun p => decide (p.1.woCompare key o ≠ 0)))

/-- Modelled from the spec: the pairs that the index should hold after a call,
when it held the pairs `M` before. A call of `bt_insert` adds its pair when the
index takes it; a call of `unindex` with a key within `KeyMax` strikes the pair
with an equal key and the same record locator. -/
def expectStep (c : Layout) (o : Ordering) (M : List (BSONObj × DiskLoc)) :
    Op → List (BSONObj × DiskLoc)
  | .insert key recordLoc dupsAllowed =>
    if expectAccepts c o M key recordLoc dupsAllowed then (key, recordLoc) :: M else M
  | .remove key recordLoc =>
    if key.objsize > KeyMax c then M
    else M.filter (fun p => decide (¬ (p.1.woCompare key o = 0 ∧ p.2 = recordLoc)))

/-- Modelled from the spec: the pairs inserted and not later unindexed by a run
of calls on an index that starts empty. It is read from the calls alone, not
from what the routines return. -/
def expectedEntries (c : Layout) (o : Ordering) (ops : List Op) : List (BSONObj × DiskLoc) :=
  ops.foldl (expectStep c o) []

/-- A run of calls for worked examples: six keys are inserted, which splits the
root; the key 3 is removed; then come three calls that the index refuses (a pair
it holds, an equal key with duplicates not allowed, a key larger than `KeyMax`)
and the removal of a pair that is not there. -/
def mixedOps : List Op :=
  [.insert (sampleKey 1 10) ⟨1, 10⟩ true, .insert (sampleKey 2 10) ⟨1, 20⟩ true,
    .insert (sampleKey 3 10) ⟨1, 30⟩ true, .insert (sampleKey 4 10) ⟨1, 40⟩ true,
    .insert (sampleKey 5 10) ⟨1, 50⟩ true, .insert (sampleKey 6 10) ⟨1, 60⟩ true,
    .remove (sampleKey 3 10) ⟨1, 30⟩, .insert (sampleKey 6 10) ⟨1, 60⟩ true,
    .insert (sampleKey 2 10) ⟨1, 70⟩ false, .insert (sampleKey 7 21) ⟨1, 80⟩ true,
    .remove (sampleKey 9 10) ⟨1, 10⟩]

end BtreeBucket
end mongo
namespace mongo
namespace BtreeBucket

/-- The five invariants of a tree, in the terms of the pages: the slots of every
page ascend strictly by (key, recordLoc); the slots in the subtree of a left
child are below the slot and those in the subtree of `nextChild` are above every
slot of the page; size accounting holds of every page; every page other than
the root is the child of its parent at the index that `indexInParent` returns;
and the root held by the index has a null parent, every page is in its subtree,
and no other page has a null parent. -/
structure TreeInvariants (c : Layout) (o : Ordering) (s : State) : Prop where
  order : ∀ l b, s.pages l = some b → SortedSlots o b.keys
  separation : ∀ l b k, s.pages l = some b → k ∈ b.keys →
    ∀ q bq kq, s.pages q = some bq → kq ∈ bq.keys →
      (Below s k.prevChildBucket q → kq.ekey o < k.ekey o) ∧
      (Below s b.nextChild q → k.ekey o < kq.ekey o)
  sizes : ∀ l b, s.pages l = some b → sizeAccounting c b
  back_pointer : ∀ l b, s.pages l = some b → l ≠ s.head →
    ∃ pb idx, s.pages b.parent = some pb ∧ indexInParent s b l = .ok idx ∧
      idx ≤ pb.keys.length ∧ pb.childForPos idx = some l
  root : (∃ hb, s.pages s.head = some hb ∧ hb.parent = DiskLoc.Null) ∧
    ∀ l b, s.pages l = some b → Below s s.head l ∧ (b.parent = DiskLoc.Null ↔ l = s.head)

end BtreeBucket

namespace BtreeBuilder

/-- The calls of `bt_insert` for the pairs of a list, in order. -/
def insertsOf (dupsAllowed : Bool) (S : List (BSONObj × DiskLoc)) : List BtreeBucket.Op :=
  S.map (fun p => BtreeBucket.Op.insert p.1 p.2 dupsAllowed)

/-- Seven pairs in strictly ascending order, with keys of 10 bytes: more than a
leaf of `smallLayout` holds. -/
def sevenKeys : List (BSONObj × DiskLoc) :=
  [(sampleKey 1 10, ⟨1, 10⟩), (sampleKey 2 10, ⟨1, 20⟩), (sampleKey 3 10, ⟨1, 30⟩),
    (sampleKey 4 10, ⟨1, 40⟩), (sampleKey 5 10, ⟨1, 50⟩), (sampleKey 6 10, ⟨1, 60⟩),
    (sampleKey 7 10, ⟨1, 70⟩)]

/-- A stream in ascending order that holds the same pair twice. -/
def repeatedPair : List (BSONObj × DiskLoc) :=
  [(sampleKey 1 10, ⟨1, 10⟩), (sampleKey 1 10, ⟨1, 10⟩)]

end BtreeBuilder
end mongo

namespace mongo
namespace BtreeBucket

theorem keyBytes_append (xs ys : List _KeyNode) :
    keyBytes (xs ++ ys) = keyBytes xs + keyBytes ys := by
  induction xs with
  | nil => simp [keyBytes]
  | cons x xs ih => simp [keyBytes, ih, add_assoc]

theorem mayDropKey_congr (j : Nat) (k : _KeyNode) (r r' : Nat) (h : r < j) (h' : r' < j) :
    mayDropKey j k r = mayDropKey j k r' := by
  have h1 : j ≠ r := by omega
  have h2 : j ≠ r' := by omega
  simp [mayDropKey, h1, h2]

theorem keepFrom_congr (r r' : Nat) (ks : List _KeyNode) :
    ∀ j, r < j → r' < j → keepFrom r j ks = keepFrom r' j ks := by
  induction ks with
  | nil => intros; rfl
  | cons k ks ih =>
    intro j h h'
    simp only [keepFrom]
    rw [mayDropKey_congr j k r r' h h', ih (j + 1) (by omega) (by omega)]

theorem packLoop_spec (ks : List _KeyNode) :
    ∀ (j : Nat) (out : List _KeyNode) (r : Nat) (t : Int), out.length ≤ j →
      packLoop j ks out r t =
        (out.reverse ++ keepFrom r j ks, packRef r j out.length ks, t + keyBytes (keepFrom r j ks)) := by
  induction ks with
  | nil =>
    intro j out r t _
    have hc : ¬ (j ≤ r ∧ r < j + ([] : List _KeyNode).length) := by simp
    simp only [packLoop, keepFrom, keyBytes, packRef, if_neg hc, List.append_nil, add_zero]
  | cons k ks ih =>
    intro j out r t hout
    by_cases hd : mayDropKey j k r = true
    · have hjr : j ≠ r := by
        intro h; subst h; simp [mayDropKey] at hd
      rw [packLoop, if_pos hd, ih (j + 1) out r t (by omega)]
      have hk : keepFrom r j (k :: ks) = keepFrom r (j + 1) ks := by
        rw [keepFrom, if_pos hd]
      rw [hk]
      refine Prod.ext rfl (Prod.ext ?_ rfl)
      simp only [packRef, List.length_cons]
      by_cases hc : j + 1 ≤ r ∧ r < j + 1 + ks.length
      · have hc' : j ≤ r ∧ r < j + (ks.length + 1) := by omega
        rw [if_pos hc, if_pos hc']
        have : r - j = (r - (j + 1)) + 1 := by omega
        rw [this, List.take_succ_cons, keepFrom, if_pos hd]
      · have hc' : ¬ (j ≤ r ∧ r < j + (ks.length + 1)) := by omega
        rw [if_neg hc, if_neg hc']
    · rw [packLoop, if_neg hd]
      simp only
      have hk : keepFrom r j (k :: ks) = k :: keepFrom r (j + 1) ks := by
        rw [keepFrom, if_neg hd]
      rw [hk]
      by_cases hrj : r = j
      · subst hrj
        have hc' : r ≤ r ∧ r < r + (k :: ks).length := by simp
        have hfin : packRef r r out.length (k :: ks) = out.length := by
          simp only [packRef, if_pos hc', Nat.sub_self, List.take_zero, keepFrom,
            List.length_nil, Nat.add_zero]
        rw [hfin]
        by_cases hi : out.length = r
        · rw [if_neg (by simp [hi])]
          rw [ih (r + 1) (k :: out) r _ (by simp; omega)]
          refine Prod.ext (by simp) (Prod.ext ?_ (by simp [keyBytes, add_assoc]))
          have hc : ¬ (r + 1 ≤ r ∧ r < r + 1 + ks.length) := by omega
          simp only [packRef, if_neg hc]
          exact hi.symm
        · rw [if_pos ⟨hi, rfl⟩]
          rw [ih (r + 1) (k :: out) out.length _ (by simp; omega)]
          rw [keepFrom_congr out.length r ks (r + 1) (by omega) (by omega)]
          refine Prod.ext (by simp) (Prod.ext ?_ (by simp [keyBytes, add_assoc]))
          have hc : ¬ (r + 1 ≤ out.length ∧ out.length < r + 1 + ks.length) := by omega
          simp only [packRef, if_neg hc]
      · rw [if_neg (by tauto)]
        rw [ih (j + 1) (k :: out) r _ (by simp; omega)]
        refine Prod.ext (by simp) (Prod.ext ?_ (by simp [keyBytes, add_assoc]))
        simp only [packRef, List.length_cons]
        by_cases hc : j + 1 ≤ r ∧ r < j + 1 + ks.length
        · have hc' : j ≤ r ∧ r < j + (ks.length + 1) := by omega
          rw [if_pos hc, if_pos hc']
          have : r - j = (r - (j + 1)) + 1 := by omega
          rw [this, List.take_succ_cons, keepFrom, if_neg hd]
          simp only [List.length_cons]; omega
        · have hc' : ¬ (j ≤ r ∧ r < j + (ks.length + 1)) := by omega
          rw [if_neg hc, if_neg hc']

theorem keepFrom_length_le (r : Nat) (ks : List _KeyNode) :
    ∀ j, (keepFrom r j ks).length ≤ ks.length := by
  induction ks with
  | nil => intro j; simp [keepFrom]
  | cons k ks ih =>
    intro j
    simp only [keepFrom]
    split
    · have := ih (j + 1); simp; omega
    · have := ih (j + 1); simp; omega

theorem keepFrom_take_length_le (r : Nat) (ks : List _KeyNode) :
    ∀ j m, (keepFrom r j (ks.take m)).length ≤ (keepFrom r j ks).length := by
  induction ks with
  | nil => intro j m; simp [keepFrom]
  | cons k ks ih =>
    intro j m
    cases m with
    | zero => simp [keepFrom]
    | succ m =>
      simp only [List.take_succ_cons, keepFrom]
      split
      · exact ih (j + 1) m
      · simp; exact ih (j + 1) m

/-- The result of `pack` on a page whose `Packed` flag is clear. -/
theorem pack_eq_of_not_packed (c : Layout) (b : BtreeBucket) (refPos : Nat)
    (hp : b.packed = false) :
    pack c b refPos =
      (let ks := keepFrom refPos 0 b.keys
       let e := totalDataSize c - keyBytes ks - (ks.length : Int) * c.slotSize
       if ¬ (e ≥ 0) then .error .assertion
       else .ok ({ b with topSize := keyBytes ks, keys := ks, emptySize := e, packed := true },
                 if packRef refPos 0 0 b.keys = b.keys.length then ks.length
                 else packRef refPos 0 0 b.keys)) := by
  unfold pack
  rw [hp]
  simp only [Bool.false_eq_true, ↓reduceIte]
  rw [packLoop_spec b.keys 0 [] refPos 0 (by simp)]
  simp

theorem pack_refPos_le (c : Layout) (b : BtreeBucket) (refPos : Nat) (b' : BtreeBucket)
    (refPos' : Nat) (hle : refPos ≤ b.keys.length) (hr : pack c b refPos = .ok (b', refPos')) :
    refPos' ≤ b'.keys.length := by
  by_cases hp : b.packed = true
  · unfold pack at hr
    rw [if_pos hp] at hr
    cases hr; exact hle
  · rw [pack_eq_of_not_packed c b refPos (by simpa using hp)] at hr
    simp only at hr
    split at hr
    · cases hr
    · cases hr
      simp only
      split
      · exact le_refl _
      · rename_i hne
        unfold packRef at hne ⊢
        split
        · have := keepFrom_take_length_le refPos b.keys 0 (refPos - 0)
          omega
        · rename_i hc
          rw [if_neg hc] at hne
          omega

end BtreeBucket
end mongo

namespace mongo
namespace BtreeBucket

theorem sizeAccounting_init (c : Layout) : sizeAccounting c (init c) := by
  simp [sizeAccounting, init, totalDataSize, n]

theorem sizeAccounting_alloc_slot (c : Layout) (b b2 : BtreeBucket) (sz : Int)
    (ks : List _KeyNode) (hlen : ks.length = b.keys.length + 1)
    (h : sizeAccounting c b)
    (ha : _alloc c { b with emptySize := b.emptySize - c.slotSize } sz = .ok b2) :
    sizeAccounting c { b2 with keys := ks } := by
  unfold _alloc at ha
  simp only at ha
  split at ha
  · cases ha
    simp only [sizeAccounting, n] at h ⊢
    rw [hlen]; push_cast; linarith
  · cases ha

theorem sizeAccounting_pushBack (c : Layout) (b : BtreeBucket) (recordLoc : DiskLoc)
    (key : BSONObj) (order : Ordering) (prevChild : DiskLoc) (r : Bool) (b' : BtreeBucket)
    (h : sizeAccounting c b)
    (hr : _pushBack c b recordLoc key order prevChild = .ok (r, b')) : sizeAccounting c b' := by
  unfold _pushBack at hr
  simp only at hr
  split at hr
  · cases hr; exact h
  · split at hr
    · cases hr
    · split at hr
      · cases hr
      · rename_i b2 ha
        cases hr
        exact sizeAccounting_alloc_slot c b b2 _ _ (by simp) h ha

theorem sizeAccounting_pack (c : Layout) (b : BtreeBucket) (refPos : Nat) (b' : BtreeBucket)
    (refPos' : Nat) (h : sizeAccounting c b) (hr : pack c b refPos = .ok (b', refPos')) :
    sizeAccounting c b' := by
  unfold pack at hr
  split at hr
  · cases hr; exact h
  · generalize packLoop 0 b.keys [] refPos 0 = res at hr
    obtain ⟨ks, r1, t⟩ := res
    simp only at hr
    split at hr
    · cases hr
    · cases hr
      simp only [sizeAccounting, n, totalDataSize]
      ring

theorem sizeAccounting_truncateTo (c : Layout) (b : BtreeBucket) (N refPos : Nat)
    (b' : BtreeBucket) (refPos' : Nat)
    (hr : truncateTo c b N refPos = .ok (b', refPos')) : sizeAccounting c b' := by
  unfold truncateTo pack at hr
  simp only [Bool.false_eq_true, ↓reduceIte] at hr
  generalize packLoop 0 (List.take N b.keys) [] refPos 0 = res at hr
  obtain ⟨ks, r1, t⟩ := res
  simp only at hr
  split at hr
  · cases hr
  · cases hr
    simp only [sizeAccounting, n, totalDataSize]
    ring

theorem sizeAccounting_basicInsert (c : Layout) (b : BtreeBucket) (keypos : Nat)
    (recordLoc : DiskLoc) (key : BSONObj) (r : Bool) (b' : BtreeBucket) (keypos' : Nat)
    (h : sizeAccounting c b)
    (hr : basicInsert c b keypos recordLoc key = .ok (r, b', keypos')) :
    sizeAccounting c b' := by
  unfold basicInsert at hr
  simp only at hr
  split at hr
  · cases hr
  · rename_i hkp
    split at hr
    · cases hr
    · rename_i b1 keypos1 hp
      have h1 : sizeAccounting c b1 := by
        split at hp
        · exact sizeAccounting_pack c b keypos b1 keypos1 h hp
        · cases hp; exact h
      have hk1 : keypos1 ≤ b1.keys.length := by
        split at hp
        · exact pack_refPos_le c b keypos b1 keypos1 (by omega) hp
        · cases hp; omega
      split at hr
      · cases hr; exact h1
      · split at hr
        · cases hr
        · rename_i b3 ha
          cases hr
          refine sizeAccounting_alloc_slot c b1 b3 _ _ ?_ h1 ha
          simp [List.length_take, List.length_drop]
          omega

theorem sizeAccounting_popBack (c : Layout) (b : BtreeBucket) (out : DiskLoc × BSONObj)
    (b' : BtreeBucket) (h : sizeAccounting c b) (hr : popBack c b = .ok (out, b')) :
    sizeAccounting c b' := by
  unfold popBack at hr
  split at hr
  · cases hr
  · rename_i kn hl
    split at hr
    · cases hr
    · split at hr
      · cases hr
      · cases hr
        have hne : b.keys ≠ [] := by
          intro h0; rw [h0] at hl; simp at hl
        have hlen : 0 < b.keys.length := List.length_pos.mpr hne
        simp only [sizeAccounting, n, _unalloc, List.length_dropLast] at h ⊢
        have : ((b.keys.length - 1 : Nat) : Int) = (b.keys.length : Int) - 1 := by omega
        rw [this]; linarith

theorem sizeAccounting_delKeyAtPos (c : Layout) (b : BtreeBucket) (keypos : Nat)
    (mayEmpty : Bool) (b' : BtreeBucket) (h : sizeAccounting c b)
    (hr : _delKeyAtPos c b keypos mayEmpty = .ok b') : sizeAccounting c b' := by
  unfold _delKeyAtPos at hr
  split at hr
  · cases hr
  · rename_i hkp
    split at hr
    · cases hr
    · split at hr
      · cases hr
      · split at hr
        · cases hr
        · split at hr
          · cases hr
          · rename_i hz
            cases hr
            simp only [sizeAccounting, n, List.length_append, List.length_take,
              List.length_drop] at h ⊢
            have : ((min (min keypos (b.keys.length - 1)) b.keys.length
                + (b.keys.length - (keypos + 1)) : Nat) : Int) = (b.keys.length : Int) - 1 := by
              omega
            rw [this]; linarith

/-- C4: `init` establishes size accounting
(`emptySize + topSize + n * sizeof(slot) + headerSize = BucketSize`), and each of
`_pushBack`, `basicInsert`, `popBack`, `_delKeyAtPos`, `pack` and `truncateTo`
preserves it whenever it returns. -/
theorem size_accounting_invariant (c : Layout) :
    sizeAccounting c (init c) ∧
    (∀ b recordLoc key order prevChild r b', sizeAccounting c b →
      _pushBack c b recordLoc key order prevChild = .ok (r, b') → sizeAccounting c b') ∧
    (∀ b keypos recordLoc key r b' keypos', sizeAccounting c b →
      basicInsert c b keypos recordLoc key = .ok (r, b', keypos') → sizeAccounting c b') ∧
    (∀ b out b', sizeAccounting c b → popBack c b = .ok (out, b') → sizeAccounting c b') ∧
    (∀ b keypos mayEmpty b', sizeAccounting c b →
      _delKeyAtPos c b keypos mayEmpty = .ok b' → sizeAccounting c b') ∧
    (∀ b refPos b' refPos', sizeAccounting c b →
      pack c b refPos = .ok (b', refPos') → sizeAccounting c b') ∧
    (∀ b N refPos b' refPos', sizeAccounting c b →
      truncateTo c b N refPos = .ok (b', refPos') → sizeAccounting c b') :=
  ⟨sizeAccounting_init c,
   fun b recordLoc key order prevChild r b' h hr =>
     sizeAccounting_pushBack c b recordLoc key order prevChild r b' h hr,
   fun b keypos recordLoc key r b' keypos' h hr =>
     sizeAccounting_basicInsert c b keypos recordLoc key r b' keypos' h hr,
   fun b out b' h hr => sizeAccounting_popBack c b out b' h hr,
   fun b keypos mayEmpty b' h hr => sizeAccounting_delKeyAtPos c b keypos mayEmpty b' h hr,
   fun b refPos b' refPos' h hr => sizeAccounting_pack c b refPos b' refPos' h hr,
   fun b N refPos b' refPos' _ hr => sizeAccounting_truncateTo c b N refPos b' refPos' hr⟩

end BtreeBucket
end mongo

namespace mongo
namespace BtreeBucket

theorem size_accounting_invariant_witness :
    sizeAccounting smallLayout
      (leafPage false 38 50 [leafSlot 1 10 10, leafSlot 2 10 21, leafSlot 3 10 30, leafSlot 4 10 40]) ∧
    sizeAccounting smallLayout
      (leafPage false 28 60 [leafSlot 0 20 4, leafSlot 1 10 10, leafSlot 2 10 21, leafSlot 3 10 30]) ∧
    sizeAccounting smallLayout (leafPage false 94 30 [leafSlot 1 10 10, leafSlot 2 10 21]) ∧
    sizeAccounting smallLayout (leafPage false 84 40 [leafSlot 1 10 10, leafSlot 3 10 30]) ∧
    sizeAccounting smallLayout (leafPage true 104 20 [leafSlot 1 10 10, leafSlot 3 10 30]) ∧
    sizeAccounting smallLayout (leafPage true 132 10 [leafSlot 1 10 10]) :=
  ⟨(size_accounting_invariant smallLayout).2.1 samplePage ⟨1, 40⟩ (sampleKey 4 10) ascending
      DiskLoc.Null true _ (by decide) (by rfl),
   (size_accounting_invariant smallLayout).2.2.1 samplePage 0 ⟨1, 4⟩ (sampleKey 0 20) true _ 0
      (by decide) (by rfl),
   (size_accounting_invariant smallLayout).2.2.2.1 samplePage (⟨1, 30⟩, sampleKey 3 10) _
      (by decide) (by rfl),
   (size_accounting_invariant smallLayout).2.2.2.2.1 samplePage 1 false _ (by decide) (by rfl),
   (size_accounting_invariant smallLayout).2.2.2.2.2.1 samplePage 2 _ 1 (by decide) (by rfl),
   (size_accounting_invariant smallLayout).2.2.2.2.2.2 samplePage 2 0 _ 0 (by decide) (by rfl)⟩

end BtreeBucket
end mongo

namespace mongo
namespace BtreeBucket

theorem insert_codes (c : Layout) (order : Ordering) : ∀ fuel : Nat,
    (∀ s thisLoc recordLoc key dupsAllowed lChild rChild x s', key.objsize ≤ KeyMax c →
      _insert c order fuel s thisLoc recordLoc key dupsAllowed lChild rChild = (.ok x, s') →
      x = 0) ∧
    (∀ s thisLoc recordLoc key dupsAllowed toplevel x s', key.objsize ≤ KeyMax c →
      bt_insert c order fuel s thisLoc recordLoc key dupsAllowed toplevel = (.ok x, s') →
      x = 0) := by
  intro fuel
  induction fuel with
  | zero =>
    constructor
    · intro s thisLoc recordLoc key dupsAllowed lChild rChild x s' hk h
      unfold _insert at h
      rw [if_neg (by omega)] at h
      split at h <;> simp at h
    · intro s thisLoc recordLoc key dupsAllowed toplevel x s' hk h
      unfold bt_insert at h
      rw [if_neg (by omega)] at h
      simp at h
  | succ fuel ih =>
    have h1 : ∀ s thisLoc recordLoc key dupsAllowed lChild rChild x s', key.objsize ≤ KeyMax c →
        _insert c order (fuel + 1) s thisLoc recordLoc key dupsAllowed lChild rChild = (.ok x, s') →
        x = 0 := by
      intro s thisLoc recordLoc key dupsAllowed lChild rChild x s' hk h
      unfold _insert at h
      rw [if_neg (by omega)] at h
      split at h
      · simp at h
      · simp only at h
        split at h
        · simp at h
        · split at h
          · simp at h
          · split at h
            · split at h
              · simp at h
              · split at h
                · split at h
                  · simp at h
                  · split at h
                    · simp at h
                    · simp only [Prod.mk.injEq, Except.ok.injEq] at h
                      exact h.1.symm
                · simp at h
            · split at h
              · simp at h
              · split at h
                · split at h
                  · simp at h
                  · simp only [Prod.mk.injEq, Except.ok.injEq] at h
                    exact h.1.symm
                · exact ih.2 _ _ _ _ _ _ _ _ hk h
    refine ⟨h1, ?_⟩
    intro s thisLoc recordLoc key dupsAllowed toplevel x s' hk h
    unfold bt_insert at h
    rw [if_neg (by omega)] at h
    exact ih.1 _ _ _ _ _ _ _ _ _ hk h

/-- C10: `bt_insert` returns 3 and changes nothing when `toplevel` is true and
the key is larger than `KeyMax = BucketSize / 10`; with `toplevel` false such a
key makes it return 2 and change nothing; a key of size exactly `KeyMax` is not
rejected (neither 2 nor 3 comes back); and every call with a key within `KeyMax`
that returns without raising returns 0. -/
theorem bt_insert_return_codes (c : Layout) (order : Ordering) :
    (∀ fuel s thisLoc recordLoc key dupsAllowed, key.objsize > KeyMax c →
      bt_insert c order fuel s thisLoc recordLoc key dupsAllowed true = (.ok 3, s)) ∧
    (∀ fuel s thisLoc recordLoc key dupsAllowed, key.objsize > KeyMax c →
      bt_insert c order (fuel + 1) s thisLoc recordLoc key dupsAllowed false = (.ok 2, s)) ∧
    (∀ fuel s thisLoc recordLoc key dupsAllowed toplevel, key.objsize = KeyMax c →
      (bt_insert c order fuel s thisLoc recordLoc key dupsAllowed toplevel).1 ≠ .ok 2 ∧
      (bt_insert c order fuel s thisLoc recordLoc key dupsAllowed toplevel).1 ≠ .ok 3) ∧
    (∀ fuel s thisLoc recordLoc key dupsAllowed toplevel x s', key.objsize ≤ KeyMax c →
      bt_insert c order fuel s thisLoc recordLoc key dupsAllowed toplevel = (.ok x, s') →
      x = 0) := by
  refine ⟨?_, ?_, ?_, ?_⟩
  · intro fuel s thisLoc recordLoc key dupsAllowed hk
    unfold bt_insert
    rw [if_pos ⟨rfl, hk⟩]
  · intro fuel s thisLoc recordLoc key dupsAllowed hk
    unfold bt_insert
    rw [if_neg (by simp)]
    simp only
    unfold _insert
    rw [if_pos hk]
  · intro fuel s thisLoc recordLoc key dupsAllowed toplevel hk
    have h := (insert_codes c order fuel).2 s thisLoc recordLoc key dupsAllowed toplevel
    generalize bt_insert c order fuel s thisLoc recordLoc key dupsAllowed toplevel = res at h
    obtain ⟨out, s'⟩ := res
    constructor
    · intro h2
      simp only at h2
      subst h2
      have := h 2 s' (by omega) rfl
      omega
    · intro h3
      simp only at h3
      subst h3
      have := h 3 s' (by omega) rfl
      omega
  · intro fuel s thisLoc recordLoc key dupsAllowed toplevel x s' hk h
    exact (insert_codes c order fuel).2 s thisLoc recordLoc key dupsAllowed toplevel x s' hk h

end BtreeBucket
end mongo

namespace mongo
namespace BtreeBucket

theorem bt_insert_return_codes_witness :
    bt_insert smallLayout ascending 0 (emptyTree smallLayout) ⟨0, 0⟩ ⟨1, 10⟩ (sampleKey 1 21)
        false true = (.ok 3, emptyTree smallLayout) ∧
    bt_insert smallLayout ascending (0 + 1) (emptyTree smallLayout) ⟨0, 0⟩ ⟨1, 10⟩
        (sampleKey 1 21) false false = (.ok 2, emptyTree smallLayout) ∧
    ((bt_insert smallLayout ascending 5 (emptyTree smallLayout) ⟨0, 0⟩ ⟨1, 10⟩ (sampleKey 1 20)
        false true).1 ≠ .ok 2 ∧
     (bt_insert smallLayout ascending 5 (emptyTree smallLayout) ⟨0, 0⟩ ⟨1, 10⟩ (sampleKey 1 20)
        false true).1 ≠ .ok 3) ∧
    (bt_insert smallLayout ascending 5 (emptyTree smallLayout) ⟨0, 0⟩ ⟨1, 10⟩ (sampleKey 1 20)
        false true).1 = .ok 0 ∧ (0 : Int) = 0 :=
  ⟨(bt_insert_return_codes smallLayout ascending).1 0 _ _ _ _ _ (by decide),
   (bt_insert_return_codes smallLayout ascending).2.1 0 _ _ _ _ _ (by decide),
   (bt_insert_return_codes smallLayout ascending).2.2.1 5 _ _ _ _ _ _ (by decide),
   by rfl,
   (bt_insert_return_codes smallLayout ascending).2.2.2 5 (emptyTree smallLayout) ⟨0, 0⟩ ⟨1, 10⟩
     (sampleKey 1 20) false true 0
     (bt_insert smallLayout ascending 5 (emptyTree smallLayout) ⟨0, 0⟩ ⟨1, 10⟩ (sampleKey 1 20)
        false true).2 (by decide) (Prod.ext (by rfl) rfl)⟩

end BtreeBucket
end mongo

namespace mongo

/-! ## The comparator and the order of entries -/

theorem EKey.lt_iff (a b : EKey) :
    a < b ↔ a.fields < b.fields ∨
      (a.fields = b.fields ∧ (a.file < b.file ∨ (a.file = b.file ∧ a.ofs < b.ofs))) := by
  show a.toLexProd < b.toLexProd ↔ _
  simp only [EKey.toLexProd, Prod.Lex.lt_iff]

theorem intList_cons_lt_cons (x y : Int) (xs ys : List Int) :
    x :: xs < y :: ys ↔ x < y ∨ (x = y ∧ xs < ys) := by
  constructor
  · intro h
    cases h with
    | cons h => right; exact ⟨rfl, h⟩
    | rel h => left; exact h
  · rintro (h | ⟨rfl, h⟩)
    · exact List.Lex.rel h
    · exact List.Lex.cons h

theorem intList_nil_lt_cons (x : Int) (xs : List Int) : ([] : List Int) < x :: xs :=
  List.Lex.nil

theorem intList_not_lt_nil (xs : List Int) : ¬ xs < ([] : List Int) := by
  intro h; cases h

theorem elemCompare_neg (l r : Int) : elemCompare (-l) (-r) = - elemCompare l r := by
  unfold elemCompare
  by_cases h1 : l < r
  · have h2 : ¬ (-l < -r) := by omega
    have h3 : -r < -l := by omega
    simp [h1, h2, h3]
  · by_cases h2 : r < l
    · have h3 : -l < -r := by omega
      simp [h1, h2, h3]
    · have h3 : ¬ (-l < -r) := by omega
      have h4 : ¬ (-r < -l) := by omega
      simp [h1, h2, h3, h4]

theorem elemCompare_sign (l r : Int) :
    (elemCompare l r < 0 ↔ l < r) ∧ (elemCompare l r = 0 ↔ l = r) ∧
      (0 < elemCompare l r ↔ r < l) := by
  unfold elemCompare
  by_cases h1 : l < r
  · simp [h1]; omega
  · by_cases h2 : r < l
    · simp [h1, h2]; omega
    · simp [h1, h2]; omega

/-- The comparator agrees with the lexicographic order of the keys as it sees
them. -/
theorem woCompareAux_sign (o : Ordering) (l : List Int) :
    ∀ (mask : Nat) (r : List Int),
      (woCompareAux o mask l r < 0 ↔ normElems o mask l < normElems o mask r) ∧
      (woCompareAux o mask l r = 0 ↔ normElems o mask l = normElems o mask r) ∧
      (0 < woCompareAux o mask l r ↔ normElems o mask r < normElems o mask l) := by
  induction l with
  | nil =>
    intro mask r
    cases r with
    | nil => simp [woCompareAux, normElems]
    | cons y ys =>
      simp only [woCompareAux, normElems]
      refine ⟨by simp [intList_nil_lt_cons], by simp, ?_⟩
      constructor
      · intro h; omega
      · intro h; exact absurd h (intList_not_lt_nil _)
  | cons x xs ih =>
    intro mask r
    cases r with
    | nil =>
      simp only [woCompareAux, normElems]
      refine ⟨?_, by simp, by simp [intList_nil_lt_cons]⟩
      constructor
      · intro h; omega
      · intro h; exact absurd h (intList_not_lt_nil _)
    | cons y ys =>
      simp only [woCompareAux, normElems, intList_cons_lt_cons]
      have hs : ∀ a b : Int, (elemCompare a b < 0 ↔ a < b) ∧ (elemCompare a b = 0 ↔ a = b) ∧
          (0 < elemCompare a b ↔ b < a) := elemCompare_sign
      have ih' := ih ((mask * 2) % 2 ^ 32) ys
      by_cases hd : o.descending mask = true
      · simp only [hd, if_true]
        have e : -elemCompare x y = elemCompare (-x) (-y) := (elemCompare_neg x y).symm
        rw [e]
        have h3 := hs (-x) (-y)
        by_cases hz : elemCompare (-x) (-y) = 0
        · have hxy : -x = -y := h3.2.1.mp hz
          simp only [hz, ne_eq, not_true_eq_false, if_false]
          rw [hxy]
          simp only [lt_self_iff_false, true_and, false_or, List.cons.injEq]
          exact ih'
        · have hxy : -x ≠ -y := fun h => hz (h3.2.1.mpr h)
          simp only [ne_eq, hz, not_false_eq_true, if_true, List.cons.injEq, hxy, false_and,
            or_false]
          have hyx : -y ≠ -x := fun h => hxy h.symm
          simp only [hyx, false_and, or_false]
          exact ⟨h3.1, by simp, h3.2.2⟩
      · simp only [hd, if_false, Bool.false_eq_true]
        have h3 := hs x y
        by_cases hz : elemCompare x y = 0
        · have hxy : x = y := h3.2.1.mp hz
          simp only [hz, ne_eq, not_true_eq_false, if_false]
          rw [hxy]
          simp only [lt_self_iff_false, true_and, false_or, List.cons.injEq]
          exact ih'
        · have hxy : x ≠ y := fun h => hz (h3.2.1.mpr h)
          simp only [ne_eq, hz, not_false_eq_true, if_true, List.cons.injEq, hxy, false_and,
            or_false]
          have hyx : y ≠ x := fun h => hxy h.symm
          simp only [hyx, false_and, or_false]
          exact ⟨h3.1, by simp, h3.2.2⟩

theorem DiskLoc.compare_sign (l r : DiskLoc) :
    (l.compare r < 0 ↔ l.a < r.a ∨ (l.a = r.a ∧ l.ofs < r.ofs)) ∧
    (l.compare r = 0 ↔ l = r) ∧
    (0 < l.compare r ↔ r.a < l.a ∨ (r.a = l.a ∧ r.ofs < l.ofs)) := by
  unfold DiskLoc.compare
  by_cases h : l.a - r.a ≠ 0
  · rw [if_pos h]
    refine ⟨by omega, ?_, by omega⟩
    constructor
    · intro h'; omega
    · intro h'; subst h'; simp at h
  · rw [if_neg h]
    have ha : l.a = r.a := by omega
    refine ⟨by omega, ?_, by omega⟩
    constructor
    · intro h'
      cases l; cases r
      simp only at ha h'
      simp only [DiskLoc.mk.injEq]
      omega
    · intro h'; subst h'; simp

/-- The value `find` branches on at a probed slot: the comparison of the keys
and, when they are equal, of the record locators. -/
theorem find_comparison_sign (o : Ordering) (key : BSONObj) (recordLoc : DiskLoc) (M : _KeyNode) :
    let x0 := key.woCompare M.key o
    let x := if x0 = 0 then recordLoc.compare M.recordLoc.clearLow else x0
    (x < 0 ↔ entryKey o key recordLoc < M.ekey o) ∧
    (x = 0 ↔ entryKey o key recordLoc = M.ekey o) ∧
    (0 < x ↔ M.ekey o < entryKey o key recordLoc) := by
  intro x0 x
  have hk := woCompareAux_sign o key.elems 1 M.key.elems
  have hr := DiskLoc.compare_sign recordLoc M.recordLoc.clearLow
  simp only [EKey.lt_iff, _KeyNode.ekey, entryKey]
  have hx : x = if x0 = 0 then recordLoc.compare M.recordLoc.clearLow else x0 := rfl
  have hx0 : x0 = woCompareAux o 1 key.elems M.key.elems := rfl
  by_cases hz : x0 = 0
  · rw [if_pos hz] at hx
    have heq : normElems o 1 key.elems = normElems o 1 M.key.elems := hk.2.1.mp (hx0 ▸ hz)
    rw [hx, heq]
    simp only [lt_self_iff_false, true_and, false_or, EKey.mk.injEq]
    refine ⟨hr.1, ?_, ?_⟩
    · rw [hr.2.1]
      constructor
      · intro h; rw [h]; exact ⟨rfl, rfl⟩
      · intro h
        cases recordLoc
        simp only [DiskLoc.clearLow] at h ⊢
        simp only [DiskLoc.mk.injEq]
        exact h
    · rw [hr.2.2]
  · rw [if_neg hz] at hx
    rw [hx]
    have hne : normElems o 1 key.elems ≠ normElems o 1 M.key.elems :=
      fun h => hz (hx0 ▸ hk.2.1.mpr h)
    have hne' : normElems o 1 M.key.elems ≠ normElems o 1 key.elems := fun h => hne h.symm
    simp only [hne, hne', false_and, or_false, EKey.mk.injEq]
    refine ⟨hx0 ▸ hk.1, ?_, hx0 ▸ hk.2.2⟩
    constructor
    · intro h; exact absurd h hz
    · intro h; exact h.elim

end mongo

namespace mongo
namespace BtreeBucket

theorem SortedSlots.get?_lt {o : Ordering} {ks : List _KeyNode} (h : SortedSlots o ks)
    {i j : Nat} {a b : _KeyNode} (hij : i < j) (ha : ks.get? i = some a)
    (hb : ks.get? j = some b) : a.ekey o < b.ekey o := by
  rw [List.get?_eq_some] at ha hb
  obtain ⟨hi, rfl⟩ := ha
  obtain ⟨hj, rfl⟩ := hb
  exact (List.pairwise_iff_get.mp h) ⟨i, hi⟩ ⟨j, hj⟩ hij

theorem get?_some_of_lt {α : Type} (ks : List α) (i : Nat) (h : i < ks.length) :
    ∃ k, ks.get? i = some k := ⟨ks.get ⟨i, h⟩, List.get?_eq_get h⟩

/-- The binary search of `find`: when it returns, it returns what `FindSpec`
says; it raises only with `assertIfDup`, at a slot whose key compares equal, and
then what it raises is `alreadyInIndex`, `dupKey` or what the probe raised. -/
theorem findLoop_spec (o : Ordering) (b : BtreeBucket) (key : BSONObj) (recordLoc : DiskLoc)
    (assertIfDup : Bool) (probe : Unit → Except Err Unit) (pr : Except Err Unit)
    (hpr : probe () = pr) (hs : SortedSlots o b.keys) :
    ∀ (fuel : Nat) (l h : Int) (dc : Bool), 0 ≤ l → h < b.n → l ≤ h + 1 → h - l + 1 < fuel →
      (∀ (i : Nat) k, (i : Int) < l → b.keys.get? i = some k → k.ekey o < entryKey o key recordLoc) →
      (∀ (i : Nat) k, h < (i : Int) → b.keys.get? i = some k → entryKey o key recordLoc < k.ekey o) →
      (∀ found pos, findLoop b key recordLoc o assertIfDup probe fuel l h dc = .ok (found, pos) →
        FindSpec o b.keys (entryKey o key recordLoc) found pos) ∧
      (∀ e, findLoop b key recordLoc o assertIfDup probe fuel l h dc = .error e →
        assertIfDup = true ∧ (e = .alreadyInIndex ∨ e = .dupKey ∨ pr = .error e) ∧
        ∃ m M, b.keys.get? m = some M ∧ key.woCompare M.key o = 0) := by
  intro fuel
  induction fuel with
  | zero => intro l h dc h0 hn hl hf; omega
  | succ fuel ih =>
    intro l h dc h0 hn hl hf hlo hhi
    unfold findLoop
    by_cases hlh : l ≤ h
    · rw [if_neg (by simpa using hlh)]
      simp only
      have hm1 : l ≤ (l + h) / 2 := by omega
      have hm2 : (l + h) / 2 ≤ h := by omega
      have hmn : ((l + h) / 2).toNat < b.keys.length := by
        simp only [n] at hn; omega
      obtain ⟨M, hM⟩ := get?_some_of_lt b.keys _ hmn
      rw [hM]
      simp only
      have hsign := find_comparison_sign o key recordLoc M
      simp only at hsign
      have hcast : (((l + h) / 2).toNat : Int) = (l + h) / 2 := by omega
      -- the two continuations of the search
      have hleft : ∀ dc', entryKey o key recordLoc < M.ekey o →
          (∀ found pos, findLoop b key recordLoc o assertIfDup probe fuel l ((l + h) / 2 - 1) dc'
              = .ok (found, pos) → FindSpec o b.keys (entryKey o key recordLoc) found pos) ∧
          (∀ e, findLoop b key recordLoc o assertIfDup probe fuel l ((l + h) / 2 - 1) dc'
              = .error e → assertIfDup = true ∧
                (e = .alreadyInIndex ∨ e = .dupKey ∨ pr = .error e) ∧
                ∃ m M, b.keys.get? m = some M ∧ key.woCompare M.key o = 0) := by
        intro dc' hlt
        apply ih l ((l + h) / 2 - 1) dc' h0 (by omega) (by omega) (by omega) hlo
        intro i k hi hk
        by_cases hie : i = ((l + h) / 2).toNat
        · subst hie; rw [hM] at hk; cases hk; exact hlt
        · have : ((l + h) / 2).toNat < i := by omega
          exact lt_trans hlt (hs.get?_lt this hM hk)
      have hright : ∀ dc', M.ekey o < entryKey o key recordLoc →
          (∀ found pos, findLoop b key recordLoc o assertIfDup probe fuel ((l + h) / 2 + 1) h dc'
              = .ok (found, pos) → FindSpec o b.keys (entryKey o key recordLoc) found pos) ∧
          (∀ e, findLoop b key recordLoc o assertIfDup probe fuel ((l + h) / 2 + 1) h dc'
              = .error e → assertIfDup = true ∧
                (e = .alreadyInIndex ∨ e = .dupKey ∨ pr = .error e) ∧
                ∃ m M, b.keys.get? m = some M ∧ key.woCompare M.key o = 0) := by
        intro dc' hlt
        apply ih ((l + h) / 2 + 1) h dc' (by omega) hn (by omega) (by omega) _ hhi
        intro i k hi hk
        by_cases hie : i = ((l + h) / 2).toNat
        · subst hie; rw [hM] at hk; cases hk; exact hlt
        · have : i < ((l + h) / 2).toNat := by omega
          exact lt_trans (hs.get?_lt this hk hM) hlt
      have hfound : entryKey o key recordLoc = M.ekey o →
          FindSpec o b.keys (entryKey o key recordLoc) true ((l + h) / 2).toNat := by
        intro he
        simp only [FindSpec, if_true]
        exact ⟨M, hM, he.symm⟩
      by_cases hx0 : key.woCompare M.key o = 0
      · rw [if_pos hx0] at hsign
        rw [if_pos hx0]
        -- the search after the duplicate checks
        have hstep : ∀ dc',
            (∀ found pos,
              (if recordLoc.compare M.recordLoc.clearLow < 0 then
                  findLoop b key recordLoc o assertIfDup probe fuel l ((l + h) / 2 - 1) dc'
                else if recordLoc.compare M.recordLoc.clearLow > 0 then
                  findLoop b key recordLoc o assertIfDup probe fuel ((l + h) / 2 + 1) h dc'
                else .ok (true, ((l + h) / 2).toNat)) = .ok (found, pos) →
              FindSpec o b.keys (entryKey o key recordLoc) found pos) ∧
            (∀ e,
              (if recordLoc.compare M.recordLoc.clearLow < 0 then
                  findLoop b key recordLoc o assertIfDup probe fuel l ((l + h) / 2 - 1) dc'
                else if recordLoc.compare M.recordLoc.clearLow > 0 then
                  findLoop b key recordLoc o assertIfDup probe fuel ((l + h) / 2 + 1) h dc'
                else .ok (true, ((l + h) / 2).toNat)) = .error e →
              assertIfDup = true ∧ (e = .alreadyInIndex ∨ e = .dupKey ∨ pr = .error e) ∧
                ∃ m M, b.keys.get? m = some M ∧ key.woCompare M.key o = 0) := by
          intro dc'
          by_cases hneg : recordLoc.compare M.recordLoc.clearLow < 0
          · rw [if_pos hneg]; exact hleft dc' (hsign.1.mp hneg)
          · rw [if_neg hneg]
            by_cases hpos : recordLoc.compare M.recordLoc.clearLow > 0
            · rw [if_pos hpos]; exact hright dc' (hsign.2.2.mp hpos)
            · rw [if_neg hpos]
              have hz : recordLoc.compare M.recordLoc.clearLow = 0 := by omega
              constructor
              · intro found pos hr
                simp only [Except.ok.injEq, Prod.mk.injEq] at hr
                obtain ⟨rfl, rfl⟩ := hr
                exact hfound (hsign.2.1.mp hz)
              · intro e hr; cases hr
        by_cases ha : assertIfDup = true
        · rw [if_pos ha]
          by_cases hu : M.isUnused = true
          · rw [if_pos hu]
            by_cases hdc : dc = true
            · rw [if_neg (by simp [hdc])]
              exact hstep dc
            · rw [if_pos (by simpa using hdc)]
              rw [hpr]
              cases pr with
              | error e' =>
                simp only
                constructor
                · intro found pos hr; cases hr
                · intro e hr
                  cases hr
                  exact ⟨ha, Or.inr (Or.inr rfl), _, M, hM, hx0⟩
              | ok u =>
                simp only
                have hih := ih
                exact hstep true
          · rw [if_neg hu]
            by_cases hrl : M.recordLoc = recordLoc
            · rw [if_pos hrl]
              constructor
              · intro found pos hr; cases hr
              · intro e hr
                cases hr
                exact ⟨ha, Or.inl rfl, _, M, hM, hx0⟩
            · rw [if_neg hrl]
              constructor
              · intro found pos hr; cases hr
              · intro e hr
                cases hr
                exact ⟨ha, Or.inr (Or.inl rfl), _, M, hM, hx0⟩
        · rw [if_neg ha]
          exact hstep dc
      · rw [if_neg hx0] at hsign
        rw [if_neg hx0]
        by_cases hneg : key.woCompare M.key o < 0
        · rw [if_pos hneg]; exact hleft dc (hsign.1.mp hneg)
        · rw [if_neg hneg]
          have hpos : key.woCompare M.key o > 0 := by omega
          rw [if_pos hpos]; exact hright dc (hsign.2.2.mp hpos)
    · rw [if_pos (by simpa using hlh)]
      constructor
      · intro found pos hr
        simp only [Except.ok.injEq, Prod.mk.injEq] at hr
        obtain ⟨rfl, rfl⟩ := hr
        simp only [FindSpec, Bool.false_eq_true, if_false]
        simp only [n] at hn
        refine ⟨by omega, ?_, ?_⟩
        · intro i k hi hk; exact hlo i k (by omega) hk
        · intro i k hi hk; exact hhi i k (by omega) hk
      · intro e hr; cases hr

theorem findWith_spec (o : Ordering) (b : BtreeBucket) (key : BSONObj) (recordLoc : DiskLoc)
    (assertIfDup : Bool) (probe : Unit → Except Err Unit) (hs : SortedSlots o b.keys) :
    (∀ found pos, findWith b key recordLoc o assertIfDup probe = .ok (found, pos) →
      FindSpec o b.keys (entryKey o key recordLoc) found pos) ∧
    (∀ e, findWith b key recordLoc o assertIfDup probe = .error e →
      assertIfDup = true ∧ (e = .alreadyInIndex ∨ e = .dupKey ∨ probe () = .error e) ∧
      ∃ m M, b.keys.get? m = some M ∧ key.woCompare M.key o = 0) := by
  unfold findWith
  apply findLoop_spec o b key recordLoc assertIfDup probe (probe ()) rfl hs
  · omega
  · simp only [n]; omega
  · simp only [n]; omega
  · simp only [n]; push_cast; omega
  · intro i k hi; omega
  · intro i k hi hk
    have := (List.get?_eq_some.mp hk).1
    simp only [n] at hi; omega

/-- Without `assertIfDup` the search of `find` always returns. -/
theorem findWith_false (o : Ordering) (b : BtreeBucket) (key : BSONObj) (recordLoc : DiskLoc)
    (probe : Unit → Except Err Unit) (hs : SortedSlots o b.keys) :
    ∃ found pos, findWith b key recordLoc o false probe = .ok (found, pos) ∧
      FindSpec o b.keys (entryKey o key recordLoc) found pos := by
  have h := findWith_spec o b key recordLoc false probe hs
  cases hr : findWith b key recordLoc o false probe with
  | error e => exact absurd (h.2 e hr).1 (by simp)
  | ok r => exact ⟨r.1, r.2, rfl, h.1 r.1 r.2 hr⟩

/-- On a page without a slot whose key compares equal, the search of `find`
always returns. -/
theorem findWith_of_no_equal_key (o : Ordering) (b : BtreeBucket) (key : BSONObj)
    (recordLoc : DiskLoc) (assertIfDup : Bool) (probe : Unit → Except Err Unit)
    (hs : SortedSlots o b.keys)
    (hne : ∀ m M, b.keys.get? m = some M → key.woCompare M.key o ≠ 0) :
    ∃ pos, findWith b key recordLoc o assertIfDup probe = .ok (false, pos) ∧
      FindSpec o b.keys (entryKey o key recordLoc) false pos := by
  have h := findWith_spec o b key recordLoc assertIfDup probe hs
  cases hr : findWith b key recordLoc o assertIfDup probe with
  | error e =>
    obtain ⟨_, _, m, M, hM, h0⟩ := h.2 e hr
    exact absurd h0 (hne m M hM)
  | ok r =>
    obtain ⟨found, pos⟩ := r
    have hsp := h.1 found pos hr
    cases found with
    | false => exact ⟨pos, rfl, hsp⟩
    | true =>
      simp only [FindSpec, if_true] at hsp
      obtain ⟨k, hk, he⟩ := hsp
      exfalso
      apply hne pos k hk
      have := congrArg EKey.fields he
      simp only [_KeyNode.ekey, entryKey] at this
      exact (woCompareAux_sign o key.elems 1 k.key.elems).2.1.mpr this.symm

theorem woCompare_lt_iff (o : Ordering) (l r : BSONObj) :
    l.woCompare r o < 0 ↔ normElems o 1 l.elems < normElems o 1 r.elems :=
  (woCompareAux_sign o l.elems 1 r.elems).1

theorem woCompare_eq_iff (o : Ordering) (l r : BSONObj) :
    l.woCompare r o = 0 ↔ normElems o 1 l.elems = normElems o 1 r.elems :=
  (woCompareAux_sign o l.elems 1 r.elems).2.1

theorem woCompare_gt_iff (o : Ordering) (l r : BSONObj) :
    0 < l.woCompare r o ↔ normElems o 1 r.elems < normElems o 1 l.elems :=
  (woCompareAux_sign o l.elems 1 r.elems).2.2

/-- With `assertIfDup`, on a page that has a slot whose key compares equal, the
search of `find` raises: what the probe raises if it meets an unused such slot
first, and otherwise the error of the used slot it meets. `E` holds of every
error that can come up this way. -/
theorem findLoop_raises (o : Ordering) (b : BtreeBucket) (key : BSONObj) (recordLoc : DiskLoc)
    (probe : Unit → Except Err Unit) (E : Err → Prop) (pe : Err) (hpr : probe () = .error pe)
    (hpe : E pe) (hs : SortedSlots o b.keys)
    (hue : ∀ m M, b.keys.get? m = some M → key.woCompare M.key o = 0 → M.isUnused = false →
      E (if M.recordLoc = recordLoc then Err.alreadyInIndex else Err.dupKey)) :
    ∀ (fuel : Nat) (l h : Int), 0 ≤ l → h < b.n → h - l + 1 < fuel →
      (∃ (m0 : Nat) (M0 : _KeyNode), l ≤ (m0 : Int) ∧ (m0 : Int) ≤ h ∧ b.keys.get? m0 = some M0 ∧
        key.woCompare M0.key o = 0) →
      ∃ e, findLoop b key recordLoc o true probe fuel l h false = .error e ∧ E e := by
  intro fuel
  induction fuel with
  | zero => intro l h h0 hn hf ⟨m0, M0, h1, h2, _, _⟩; omega
  | succ fuel ih =>
    intro l h h0 hn hf ⟨m0, M0, h1, h2, hM0, hk0⟩
    unfold findLoop
    have hlh : l ≤ h := by omega
    rw [if_neg (by simpa using hlh)]
    simp only
    have hmn : ((l + h) / 2).toNat < b.keys.length := by
      simp only [n] at hn; omega
    obtain ⟨M, hM⟩ := get?_some_of_lt b.keys _ hmn
    rw [hM]
    simp only
    by_cases hx0 : key.woCompare M.key o = 0
    · rw [if_pos hx0]
      simp only [if_true, Bool.not_eq_true, Bool.false_eq_true, not_false_eq_true]
      by_cases hu : M.isUnused = true
      · rw [if_pos hu, hpr]
        exact ⟨pe, rfl, hpe⟩
      · rw [if_neg hu]
        have hu' : M.isUnused = false := by simpa using hu
        have := hue _ M hM hx0 hu'
        by_cases hrl : M.recordLoc = recordLoc
        · rw [if_pos hrl] at this ⊢
          exact ⟨_, rfl, this⟩
        · rw [if_neg hrl] at this ⊢
          exact ⟨_, rfl, this⟩
    · rw [if_neg hx0]
      have hne : m0 ≠ ((l + h) / 2).toNat := by
        intro he; subst he; rw [hM] at hM0; cases hM0; exact hx0 hk0
      have hf0 : (M0.ekey o).fields = normElems o 1 key.elems :=
        ((woCompare_eq_iff o key M0.key).mp hk0).symm
      by_cases hneg : key.woCompare M.key o < 0
      · rw [if_pos hneg]
        apply ih l ((l + h) / 2 - 1) h0 (by omega) (by omega)
        refine ⟨m0, M0, h1, ?_, hM0, hk0⟩
        by_contra hcon
        have hlt : ((l + h) / 2).toNat < m0 := by omega
        have h3 := hs.get?_lt hlt hM hM0
        have h4 := (woCompare_lt_iff o key M.key).mp hneg
        rw [EKey.lt_iff] at h3
        rw [hf0] at h3
        have h5 : (M.ekey o).fields = normElems o 1 M.key.elems := rfl
        rw [h5] at h3
        rcases h3 with h3 | ⟨h3, _⟩
        · exact lt_asymm h3 h4
        · rw [h3] at h4; exact lt_irrefl _ h4
      · rw [if_neg hneg]
        have hpos : key.woCompare M.key o > 0 := by omega
        rw [if_pos hpos]
        apply ih ((l + h) / 2 + 1) h (by omega) hn (by omega)
        refine ⟨m0, M0, ?_, h2, hM0, hk0⟩
        by_contra hcon
        have hlt : m0 < ((l + h) / 2).toNat := by omega
        have h3 := hs.get?_lt hlt hM0 hM
        have h4 := (woCompare_gt_iff o key M.key).mp hpos
        rw [EKey.lt_iff] at h3
        rw [hf0] at h3
        have h5 : (M.ekey o).fields = normElems o 1 M.key.elems := rfl
        rw [h5] at h3
        rcases h3 with h3 | ⟨h3, _⟩
        · exact lt_asymm h3 h4
        · rw [h3] at h4; exact lt_irrefl _ h4

theorem findWith_raises (o : Ordering) (b : BtreeBucket) (key : BSONObj) (recordLoc : DiskLoc)
    (probe : Unit → Except Err Unit) (E : Err → Prop) (pe : Err) (hpr : probe () = .error pe)
    (hpe : E pe) (hs : SortedSlots o b.keys)
    (hue : ∀ m M, b.keys.get? m = some M → key.woCompare M.key o = 0 → M.isUnused = false →
      E (if M.recordLoc = recordLoc then Err.alreadyInIndex else Err.dupKey))
    (hex : ∃ (m0 : Nat) (M0 : _KeyNode), b.keys.get? m0 = some M0 ∧ key.woCompare M0.key o = 0) :
    ∃ e, findWith b key recordLoc o true probe = .error e ∧ E e := by
  obtain ⟨m0, M0, hM0, hk0⟩ := hex
  have hlt := (List.get?_eq_some.mp hM0).1
  unfold findWith
  apply findLoop_raises o b key recordLoc probe E pe hpr hpe hs hue
  · omega
  · simp only [n]; omega
  · simp only [n]; push_cast; omega
  · exact ⟨m0, M0, by omega, by simp only [n]; omega, hM0, hk0⟩

end BtreeBucket
end mongo

namespace mongo
namespace BtreeBucket

/-! ## First consequences of the invariant -/

theorem DiskLoc.isNull_iff (l : DiskLoc) : l.isNull = true ↔ l = DiskLoc.Null := by
  simp [DiskLoc.isNull]

theorem DiskLoc.isNull_false_iff (l : DiskLoc) : l.isNull = false ↔ l ≠ DiskLoc.Null := by
  simp [DiskLoc.isNull]

theorem childForPos_eq_some_le {b : BtreeBucket} {p : Nat} {ch : DiskLoc}
    (h : b.childForPos p = some ch) : p ≤ b.keys.length := by
  unfold childForPos at h
  split at h
  · omega
  · cases hk : b.keys.get? p with
    | none => rw [hk] at h; simp at h
    | some k => have := (List.get?_eq_some.mp hk).1; omega

theorem childForPos_of_get? {b : BtreeBucket} {p : Nat} {k : _KeyNode}
    (h : b.keys.get? p = some k) : b.childForPos p = some k.prevChildBucket := by
  have := (List.get?_eq_some.mp h).1
  unfold childForPos
  rw [if_neg (by omega), h]
  rfl

theorem childForPos_length (b : BtreeBucket) : b.childForPos b.keys.length = some b.nextChild := by
  unfold childForPos
  rw [if_pos rfl]

theorem childForPos_cases {b : BtreeBucket} {p : Nat} {ch : DiskLoc}
    (h : b.childForPos p = some ch) :
    (p = b.keys.length ∧ ch = b.nextChild) ∨
      (∃ k, b.keys.get? p = some k ∧ ch = k.prevChildBucket) := by
  unfold childForPos at h
  split at h
  · left; rename_i hp; cases h; exact ⟨hp, rfl⟩
  · right
    cases hk : b.keys.get? p with
    | none => rw [hk] at h; simp at h
    | some k => rw [hk] at h; simp at h; exact ⟨k, rfl, h.symm⟩

theorem lowerAt_le_of_lt (o : Ordering) (b : BtreeBucket) (lo : WithBot EKey)
    (hs : SortedSlots o b.keys) {i p : Nat} {k : _KeyNode} (hip : i < p)
    (hp : p ≤ b.keys.length) (hk : b.keys.get? i = some k) :
    ((k.ekey o : EKey) : WithBot EKey) ≤ lowerAt o b lo p := by
  cases p with
  | zero => omega
  | succ p =>
    obtain ⟨kp, hkp⟩ := get?_some_of_lt b.keys p (by omega)
    simp only [lowerAt, hkp]
    by_cases hie : i = p
    · subst hie; rw [hk] at hkp; cases hkp; exact le_refl _
    · exact le_of_lt (WithBot.coe_lt_coe.mpr (hs.get?_lt (by omega) hk hkp))

theorem upperAt_le_of_le (o : Ordering) (b : BtreeBucket) (hi : WithTop EKey)
    (hs : SortedSlots o b.keys) {i p : Nat} {k : _KeyNode} (hpi : p ≤ i)
    (hk : b.keys.get? i = some k) :
    upperAt o b hi p ≤ ((k.ekey o : EKey) : WithTop EKey) := by
  have hi' := (List.get?_eq_some.mp hk).1
  obtain ⟨kp, hkp⟩ := get?_some_of_lt b.keys p (by omega)
  simp only [upperAt, hkp]
  by_cases hie : i = p
  · subst hie; rw [hk] at hkp; cases hkp; exact le_refl _
  · exact le_of_lt (WithTop.coe_lt_coe.mpr (hs.get?_lt (by omega) hkp hk))

theorem PageOK.lo_le_lowerAt {o : Ordering} {s : State} {g : Ghost} {l : DiskLoc}
    {b : BtreeBucket} (h : PageOK o s g l b) (p : Nat) : g.lo l ≤ lowerAt o b (g.lo l) p := by
  cases p with
  | zero => exact le_refl _
  | succ p =>
    simp only [lowerAt]
    cases hk : b.keys.get? p with
    | none => exact le_refl _
    | some k => exact le_of_lt (h.lo_lt k (List.get?_mem hk))

theorem PageOK.upperAt_le_hi {o : Ordering} {s : State} {g : Ghost} {l : DiskLoc}
    {b : BtreeBucket} (h : PageOK o s g l b) (p : Nat) : upperAt o b (g.hi l) p ≤ g.hi l := by
  simp only [upperAt]
  cases hk : b.keys.get? p with
  | none => exact le_refl _
  | some k => exact le_of_lt (h.lt_hi k (List.get?_mem hk))

theorem Inv.ne_null_of_mapped {c : Layout} {o : Ordering} {s : State} {g : Ghost}
    (h : Inv c o s g) {l : DiskLoc} {b : BtreeBucket} (hl : s.pages l = some b) :
    l ≠ DiskLoc.Null := by
  intro hn; subst hn; rw [h.null_unmapped] at hl; cases hl

theorem Below.trans {s : State} {a b c : DiskLoc} (h1 : Below s a b) (h2 : Below s b c) :
    Below s a c := by
  induction h1 with
  | refl l => exact h2
  | step l ch q pb p hl hc hn _ ih => exact Below.step l ch c pb p hl hc hn (ih h2)

theorem Below.child {s : State} {l ch : DiskLoc} {b : BtreeBucket} {p : Nat}
    (hl : s.pages l = some b) (hc : b.childForPos p = some ch) (hn : ch ≠ DiskLoc.Null) :
    Below s l ch :=
  Below.step l ch ch b p hl hc hn (Below.refl ch)

/-- Inside the subtree of a page the ranks are smaller and the intervals are
nested. -/
theorem Below.bounds {c : Layout} {o : Ordering} {s : State} {g : Ghost} (h : Inv c o s g)
    {l q : DiskLoc} (hb : Below s l q) :
    g.rank q ≤ g.rank l ∧ g.lo l ≤ g.lo q ∧ g.hi q ≤ g.hi l ∧
      ((∃ b, s.pages l = some b) → ∃ bq, s.pages q = some bq) := by
  induction hb with
  | refl l => exact ⟨le_refl _, le_refl _, le_refl _, fun h => h⟩
  | step l ch q b p hl hc hn _ ih =>
    obtain ⟨cb, hcb, _, hrk, hlo, hhi⟩ := (h.page l b hl).child p ch hc hn
    obtain ⟨i1, i2, i3, i4⟩ := ih
    refine ⟨by omega, ?_, ?_, fun _ => i4 ⟨cb, hcb⟩⟩
    · exact le_trans (le_trans ((h.page l b hl).lo_le_lowerAt p) hlo) i2
    · exact le_trans i3 (le_trans hhi ((h.page l b hl).upperAt_le_hi p))

/-- Every mapped page is in the subtree of the root. -/
theorem Inv.below_head {c : Layout} {o : Ordering} {s : State} {g : Ghost} (h : Inv c o s g) :
    ∀ (d : Nat) (l : DiskLoc) (b : BtreeBucket), s.pages l = some b →
      g.rank s.head - g.rank l ≤ d → Below s s.head l := by
  intro d
  induction d with
  | zero =>
    intro l b hl hd
    by_cases hh : l = s.head
    · subst hh; exact Below.refl _
    · obtain ⟨_, pb, p, hpb, hp⟩ := h.link l b hl hh
      obtain ⟨cb, hcb, _, hrk, _⟩ := (h.page _ pb hpb).child p l hp (h.ne_null_of_mapped hl)
      have := h.rank_le _ pb hpb
      omega
  | succ d ih =>
    intro l b hl hd
    by_cases hh : l = s.head
    · subst hh; exact Below.refl _
    · obtain ⟨_, pb, p, hpb, hp⟩ := h.link l b hl hh
      obtain ⟨cb, hcb, _, hrk, _⟩ := (h.page _ pb hpb).child p l hp (h.ne_null_of_mapped hl)
      have hle := h.rank_le _ pb hpb
      have := ih b.parent pb hpb (by omega)
      exact this.trans (Below.child hpb hp (h.ne_null_of_mapped hl))

theorem Inv.reachable {c : Layout} {o : Ordering} {s : State} {g : Ghost} (h : Inv c o s g)
    {l : DiskLoc} {b : BtreeBucket} (hl : s.pages l = some b) : Below s s.head l :=
  h.below_head _ l b hl (le_refl _)

end BtreeBucket
end mongo

namespace mongo
namespace BtreeBucket

/-! ## The in-order list of a well-formed tree -/

theorem inorder_null (s : State) (fuel : Nat) : inorder s fuel DiskLoc.Null = [] := by
  cases fuel with
  | zero => rfl
  | succ f => simp [inorder, DiskLoc.isNull]

theorem inorder_succ_mapped (s : State) (fuel : Nat) (l : DiskLoc) (b : BtreeBucket)
    (hn : l ≠ DiskLoc.Null) (hl : s.pages l = some b) :
    inorder s (fuel + 1) l =
      inorderSlots (inorder s fuel) l 0 b.keys ++ inorder s fuel b.nextChild := by
  rw [inorder, if_neg (by simpa [DiskLoc.isNull] using hn), hl]

theorem PosWithin.mono {o : Ordering} {s : State} {lo lo' : WithBot EKey} {hi hi' : WithTop EKey}
    {x : DiskLoc × Nat} (h : PosWithin o s lo hi x) (h1 : lo' ≤ lo) (h2 : hi ≤ hi') :
    PosWithin o s lo' hi' x := by
  obtain ⟨k, hk, h3, h4⟩ := h
  exact ⟨k, hk, lt_of_le_of_lt h1 h3, lt_of_lt_of_le h4 h2⟩

theorem PosLt.of_within {o : Ordering} {s : State} {lo : WithBot EKey} {hi : WithTop EKey}
    {lo' : WithBot EKey} {hi' : WithTop EKey} {m : EKey} {x y : DiskLoc × Nat}
    (hx : PosWithin o s lo hi x) (hy : PosWithin o s lo' hi' y)
    (h1 : hi ≤ ((m : EKey) : WithTop EKey)) (h2 : ((m : EKey) : WithBot EKey) ≤ lo') :
    PosLt o s x y := by
  obtain ⟨kx, hkx, _, hx2⟩ := hx
  obtain ⟨ky, hky, hy1, _⟩ := hy
  intro kx' ky' h h'
  rw [hkx] at h; rw [hky] at h'
  cases h; cases h'
  have a := WithTop.coe_lt_coe.mp (lt_of_lt_of_le hx2 h1)
  have b := WithBot.coe_lt_coe.mp (lt_of_le_of_lt h2 hy1)
  exact lt_trans a b

/-- The slots of a page from index `i` on, with the subtrees between them: every
position is inside the interval that starts at the slot before `i`, and the
positions ascend. `sub` is the in-order list of each child. -/
theorem inorderSlots_sorted {o : Ordering} {s : State} {g : Ghost} {l : DiskLoc}
    {b : BtreeBucket} (hl : s.pages l = some b) (hp : PageOK o s g l b)
    (sub : DiskLoc → List (DiskLoc × Nat))
    (hsub0 : sub DiskLoc.Null = [])
    (hsub : ∀ ch cb, s.pages ch = some cb → cb.parent = l → g.rank ch < g.rank l →
      (∀ x ∈ sub ch, PosWithin o s (g.lo ch) (g.hi ch) x) ∧ (sub ch).Pairwise (PosLt o s)) :
    ∀ (ks : List _KeyNode) (i : Nat), b.keys.drop i = ks →
      (∀ x ∈ inorderSlots sub l i ks ++ sub b.nextChild,
        PosWithin o s (lowerAt o b (g.lo l) i) (g.hi l) x) ∧
      (inorderSlots sub l i ks ++ sub b.nextChild).Pairwise (PosLt o s) := by
  have hchild : ∀ p ch, b.childForPos p = some ch →
      (∀ x ∈ sub ch, PosWithin o s (lowerAt o b (g.lo l) p) (upperAt o b (g.hi l) p) x) ∧
        (sub ch).Pairwise (PosLt o s) := by
    intro p ch hc
    by_cases hn : ch = DiskLoc.Null
    · subst hn; rw [hsub0]; simp
    · obtain ⟨cb, hcb, hpar, hrk, hlo, hhi⟩ := hp.child p ch hc hn
      obtain ⟨h1, h2⟩ := hsub ch cb hcb hpar hrk
      exact ⟨fun x hx => (h1 x hx).mono hlo hhi, h2⟩
  intro ks
  induction ks with
  | nil =>
    intro i hi
    have hlen : b.keys.length ≤ i := by
      have := congrArg List.length hi
      simp at this; omega
    simp only [inorderSlots, List.nil_append]
    by_cases hie : i = b.keys.length
    · subst hie
      obtain ⟨h1, h2⟩ := hchild b.keys.length b.nextChild (childForPos_length b)
      refine ⟨fun x hx => (h1 x hx).mono (le_refl _) (hp.upperAt_le_hi _), h2⟩
    · -- beyond the last index the statement is about the same list
      obtain ⟨h1, h2⟩ := hchild b.keys.length b.nextChild (childForPos_length b)
      refine ⟨fun x hx => ?_, h2⟩
      have hx' := h1 x hx
      obtain ⟨k, hk, h3, h4⟩ := hx'
      refine ⟨k, hk, ?_, lt_of_lt_of_le h4 (hp.upperAt_le_hi _)⟩
      -- lowerAt beyond the end is bounded by lowerAt at the end
      cases i with
      | zero => omega
      | succ i' =>
        have hnone : b.keys.get? i' = none := by
          apply List.get?_eq_none.mpr; omega
        simp only [lowerAt, hnone]
        exact lt_of_le_of_lt (hp.lo_le_lowerAt _) h3
  | cons k ks ih =>
    intro i hi
    have hki : b.keys.get? i = some k := by
      have := congrArg List.head? hi
      simpa [List.head?_drop] using this
    have hilt := (List.get?_eq_some.mp hki).1
    have hdrop : b.keys.drop (i + 1) = ks := by
      have := congrArg List.tail hi
      simpa [List.tail_drop] using this
    obtain ⟨ih1, ih2⟩ := ih (i + 1) hdrop
    obtain ⟨hc1, hc2⟩ := hchild i k.prevChildBucket (childForPos_of_get? hki)
    have hup : upperAt o b (g.hi l) i = ((k.ekey o : EKey) : WithTop EKey) := by
      simp only [upperAt, hki]
    have hlow : lowerAt o b (g.lo l) (i + 1) = ((k.ekey o : EKey) : WithBot EKey) := by
      simp only [lowerAt, hki]
    have hself : PosWithin o s (lowerAt o b (g.lo l) i) (g.hi l) (l, i) := by
      refine ⟨k, by simp only [slotAt, hl]; exact hki, ?_, hp.lt_hi k (List.get?_mem hki)⟩
      cases i with
      | zero => exact hp.lo_lt k (List.get?_mem hki)
      | succ i' =>
        obtain ⟨k', hk'⟩ := get?_some_of_lt b.keys i' (by omega)
        simp only [lowerAt, hk']
        exact WithBot.coe_lt_coe.mpr (hp.sorted.get?_lt (by omega) hk' hki)
    have hlowle : lowerAt o b (g.lo l) i ≤ lowerAt o b (g.lo l) (i + 1) := by
      obtain ⟨k0, hk0, h1, _⟩ := hself
      simp only [slotAt, hl] at hk0
      rw [hki] at hk0; cases hk0
      rw [hlow]; exact le_of_lt h1
    simp only [inorderSlots, List.append_assoc, List.cons_append]
    constructor
    · intro x hx
      simp only [List.mem_append, List.mem_cons] at hx
      rcases hx with hx | hx | hx
      · exact (hc1 x hx).mono (le_refl _) (hp.upperAt_le_hi _)
      · subst hx; exact hself
      · exact (ih1 x (by simpa [List.mem_append] using hx)).mono hlowle (le_refl _)
    · rw [List.pairwise_append]
      refine ⟨hc2, ?_, ?_⟩
      · rw [List.pairwise_cons]
        refine ⟨?_, ih2⟩
        intro y hy
        have hy' := ih1 y hy
        intro kx ky hkx hky
        simp only [slotAt, hl] at hkx
        rw [hki] at hkx; cases hkx
        obtain ⟨k2, hk2, h3, _⟩ := hy'
        rw [hk2] at hky; cases hky
        rw [hlow] at h3
        exact WithBot.coe_lt_coe.mp h3
      · intro x hx y hy
        simp only [List.mem_cons] at hy
        have hxw := hc1 x hx
        rw [hup] at hxw
        rcases hy with hy | hy
        · subst hy
          intro kx ky hkx hky
          simp only [slotAt, hl] at hky
          rw [hki] at hky; cases hky
          obtain ⟨k2, hk2, _, h4⟩ := hxw
          rw [hk2] at hkx; cases hkx
          exact WithTop.coe_lt_coe.mp h4
        · have hyw := ih1 y hy
          rw [hlow] at hyw
          exact PosLt.of_within hxw hyw (le_refl _) (le_refl _)

/-- The in-order list of a subtree: every position holds a slot inside the
interval of the subtree's root, and the positions ascend strictly. -/
theorem inorder_sorted {c : Layout} {o : Ordering} {s : State} {g : Ghost} (h : Inv c o s g) :
    ∀ (r : Nat) (l : DiskLoc) (b : BtreeBucket), s.pages l = some b → g.rank l ≤ r →
      ∀ fuel, r < fuel →
        (∀ x ∈ inorder s fuel l, PosWithin o s (g.lo l) (g.hi l) x) ∧
        (inorder s fuel l).Pairwise (PosLt o s) := by
  intro r
  induction r using Nat.strong_induction_on with
  | _ r ih =>
    intro l b hl hr fuel hf
    cases fuel with
    | zero => omega
    | succ fuel =>
      rw [inorder_succ_mapped s fuel l b (h.ne_null_of_mapped hl) hl]
      have := inorderSlots_sorted hl (h.page l b hl) (inorder s fuel) (inorder_null s fuel)
        (fun ch cb hcb _ hrk => ih (g.rank ch) (by omega) ch cb hcb (le_refl _) fuel (by omega))
        b.keys 0 (by simp)
      exact this

end BtreeBucket
end mongo

namespace mongo
namespace BtreeBucket

theorem inorderSlots_append (sub : DiskLoc → List (DiskLoc × Nat)) (l : DiskLoc)
    (xs ys : List _KeyNode) :
    ∀ i, inorderSlots sub l i (xs ++ ys) =
      inorderSlots sub l i xs ++ inorderSlots sub l (i + xs.length) ys := by
  induction xs with
  | nil => intro i; simp [inorderSlots]
  | cons x xs ih =>
    intro i
    have : i + 1 + xs.length = i + (xs.length + 1) := by omega
    rw [List.cons_append, inorderSlots, inorderSlots, ih (i + 1), List.length_cons, this,
      List.append_assoc, List.cons_append]

theorem inorderSlots_congr (sub sub' : DiskLoc → List (DiskLoc × Nat)) (l : DiskLoc)
    (ks : List _KeyNode) (h : ∀ k ∈ ks, sub k.prevChildBucket = sub' k.prevChildBucket) :
    ∀ i, inorderSlots sub l i ks = inorderSlots sub' l i ks := by
  induction ks with
  | nil => intro i; rfl
  | cons k ks ih =>
    intro i
    simp only [inorderSlots]
    rw [h k (List.mem_cons_self _ _), ih (fun k' hk' => h k' (List.mem_cons_of_mem _ hk')) (i + 1)]

/-- The in-order list of a page splits around the child at any position. -/
theorem inorder_split (sub : DiskLoc → List (DiskLoc × Nat)) (l : DiskLoc) (b : BtreeBucket)
    (p : Nat) (ch : DiskLoc) (hc : b.childForPos p = some ch) :
    inorderSlots sub l 0 b.keys ++ sub b.nextChild =
      preList sub l b p ++ sub ch ++ postList sub l b p := by
  have hle := childForPos_eq_some_le hc
  have hsplit : b.keys = b.keys.take p ++ b.keys.drop p := (List.take_append_drop p b.keys).symm
  conv_lhs => rw [hsplit]
  rw [inorderSlots_append]
  simp only [preList, postList, Nat.zero_add, List.length_take, min_eq_left hle]
  rcases childForPos_cases hc with ⟨hp, hch⟩ | ⟨k, hk, hch⟩
  · have hd : b.keys.drop p = [] := by rw [hp]; simp
    rw [hd, hch]
    simp [inorderSlots]
  · have hd : b.keys.drop p = k :: b.keys.drop (p + 1) := by
      have hlt := (List.get?_eq_some.mp hk).1
      rw [List.drop_eq_getElem_cons hlt]
      have := (List.get?_eq_some.mp hk).2
      simp only [List.get_eq_getElem] at this
      rw [this]
    rw [hd, hch]
    simp [inorderSlots]

theorem preList_succ (sub : DiskLoc → List (DiskLoc × Nat)) (l : DiskLoc) (b : BtreeBucket)
    (p : Nat) (k : _KeyNode) (hk : b.keys.get? p = some k) :
    preList sub l b (p + 1) = preList sub l b p ++ sub k.prevChildBucket ++ [(l, p)] := by
  have hlt := (List.get?_eq_some.mp hk).1
  have ht : b.keys.take (p + 1) = b.keys.take p ++ [k] := by
    rw [List.take_succ, ← List.get?_eq_getElem?, hk]; rfl
  simp only [preList, ht, inorderSlots_append, Nat.zero_add, List.length_take,
    min_eq_left (le_of_lt hlt), inorderSlots, List.append_assoc]

theorem postList_of_get? (sub : DiskLoc → List (DiskLoc × Nat)) (l : DiskLoc) (b : BtreeBucket)
    (p : Nat) (k : _KeyNode) (hk : b.keys.get? p = some k) (ch : DiskLoc)
    (hc : b.childForPos (p + 1) = some ch) :
    postList sub l b p = (l, p) :: (sub ch ++ postList sub l b (p + 1)) := by
  have hlt := (List.get?_eq_some.mp hk).1
  have hd : b.keys.drop p = k :: b.keys.drop (p + 1) := by
    rw [List.drop_eq_getElem_cons hlt]
    have := (List.get?_eq_some.mp hk).2
    simp only [List.get_eq_getElem] at this
    rw [this]
  simp only [postList, hd]
  congr 1
  rcases childForPos_cases hc with ⟨hp, hch⟩ | ⟨k', hk', hch⟩
  · have hd' : b.keys.drop (p + 1) = [] := by rw [hp]; simp
    rw [hd', hch]; simp [inorderSlots]
  · have hlt' := (List.get?_eq_some.mp hk').1
    have hd' : b.keys.drop (p + 1) = k' :: b.keys.drop (p + 1 + 1) := by
      rw [List.drop_eq_getElem_cons hlt']
      have := (List.get?_eq_some.mp hk').2
      simp only [List.get_eq_getElem] at this
      rw [this]
    rw [hd', hch]; simp [inorderSlots]

theorem postList_length (sub : DiskLoc → List (DiskLoc × Nat)) (l : DiskLoc) (b : BtreeBucket) :
    postList sub l b b.keys.length = [] := by
  simp [postList]

end BtreeBucket
end mongo

namespace mongo
namespace BtreeBucket

/-- The in-order list of each child of a page lies between the neighbouring
slots. -/
theorem child_inorder_within {c : Layout} {o : Ordering} {s : State} {g : Ghost}
    (h : Inv c o s g) {l : DiskLoc} {b : BtreeBucket} (hl : s.pages l = some b)
    {F : Nat} (hF : g.rank l ≤ F) {p : Nat} {ch : DiskLoc} (hc : b.childForPos p = some ch) :
    ∀ x ∈ inorder s F ch,
      PosWithin o s (lowerAt o b (g.lo l) p) (upperAt o b (g.hi l) p) x := by
  by_cases hn : ch = DiskLoc.Null
  · subst hn; rw [inorder_null]; simp
  · obtain ⟨cb, hcb, hpar, hrk, hlo, hhi⟩ := (h.page l b hl).child p ch hc hn
    intro x hx
    exact ((inorder_sorted h (g.rank ch) ch cb hcb (le_refl _) F (by omega)).1 x hx).mono hlo hhi

/-- Every position before the child at `p` is at or before some slot before `p`. -/
theorem preList_bound {c : Layout} {o : Ordering} {s : State} {g : Ghost}
    (h : Inv c o s g) {l : DiskLoc} {b : BtreeBucket} (hl : s.pages l = some b)
    {F : Nat} (hF : g.rank l ≤ F) :
    ∀ p, p ≤ b.keys.length → ∀ x ∈ preList (inorder s F) l b p,
      ∃ i k kx, i < p ∧ b.keys.get? i = some k ∧ slotAt s x = some kx ∧ kx.ekey o ≤ k.ekey o := by
  intro p
  induction p with
  | zero => intro _ x hx; simp [preList, inorderSlots] at hx
  | succ p ih =>
    intro hp x hx
    obtain ⟨k, hk⟩ := get?_some_of_lt b.keys p (by omega)
    rw [preList_succ _ l b p k hk] at hx
    simp only [List.mem_append, List.mem_singleton] at hx
    rcases hx with (hx | hx) | hx
    · obtain ⟨i, k', kx, hi, hk', hkx, hle⟩ := ih (by omega) x hx
      exact ⟨i, k', kx, by omega, hk', hkx, hle⟩
    · obtain ⟨kx, hkx, _, h2⟩ := child_inorder_within h hl hF (childForPos_of_get? hk) x hx
      simp only [upperAt, hk] at h2
      exact ⟨p, k, kx, by omega, hk, hkx, le_of_lt (WithTop.coe_lt_coe.mp h2)⟩
    · subst hx
      exact ⟨p, k, k, by omega, hk, by simp only [slotAt, hl]; exact hk, le_refl _⟩

/-- Every position after the child at `p` is at or after some slot from `p` on. -/
theorem postList_bound {c : Layout} {o : Ordering} {s : State} {g : Ghost}
    (h : Inv c o s g) {l : DiskLoc} {b : BtreeBucket} (hl : s.pages l = some b)
    {F : Nat} (hF : g.rank l ≤ F) :
    ∀ d p, b.keys.length - p ≤ d → ∀ x ∈ postList (inorder s F) l b p,
      ∃ i k kx, p ≤ i ∧ b.keys.get? i = some k ∧ slotAt s x = some kx ∧ k.ekey o ≤ kx.ekey o := by
  intro d
  induction d with
  | zero =>
    intro p hp x hx
    have : b.keys.drop p = [] := List.drop_eq_nil_of_le (by omega)
    simp [postList, this] at hx
  | succ d ih =>
    intro p hp x hx
    by_cases hlt : p < b.keys.length
    · obtain ⟨k, hk⟩ := get?_some_of_lt b.keys p hlt
      have hc : ∃ ch, b.childForPos (p + 1) = some ch := by
        by_cases hp1 : p + 1 = b.keys.length
        · exact ⟨_, hp1 ▸ childForPos_length b⟩
        · obtain ⟨k', hk'⟩ := get?_some_of_lt b.keys (p + 1) (by omega)
          exact ⟨_, childForPos_of_get? hk'⟩
      obtain ⟨ch, hch⟩ := hc
      rw [postList_of_get? _ l b p k hk ch hch] at hx
      simp only [List.mem_cons, List.mem_append] at hx
      rcases hx with hx | hx | hx
      · subst hx
        exact ⟨p, k, k, le_refl _, hk, by simp only [slotAt, hl]; exact hk, le_refl _⟩
      · obtain ⟨kx, hkx, h1, _⟩ := child_inorder_within h hl hF hch x hx
        simp only [lowerAt, hk] at h1
        exact ⟨p, k, kx, le_refl _, hk, hkx, le_of_lt (WithBot.coe_lt_coe.mp h1)⟩
      · obtain ⟨i, k', kx, hi, hk', hkx, hle⟩ := ih (p + 1) (by omega) x hx
        exact ⟨i, k', kx, by omega, hk', hkx, hle⟩
    · have : b.keys.drop p = [] := List.drop_eq_nil_of_le (by omega)
      simp [postList, this] at hx

/-- The in-order list of a mapped page, split around the child at `p`. -/
theorem inorder_eq_split {c : Layout} {o : Ordering} {s : State} {g : Ghost}
    (h : Inv c o s g) {l : DiskLoc} {b : BtreeBucket} (hl : s.pages l = some b)
    (F : Nat) {p : Nat} {ch : DiskLoc} (hc : b.childForPos p = some ch) :
    inorder s (F + 1) l =
      preList (inorder s F) l b p ++ inorder s F ch ++ postList (inorder s F) l b p := by
  rw [inorder_succ_mapped s F l b (h.ne_null_of_mapped hl) hl]
  exact inorder_split _ l b p ch hc

/-- The in-order list of a subtree does not depend on the fuel once the fuel
exceeds the rank of its root. -/
theorem inorder_fuel {c : Layout} {o : Ordering} {s : State} {g : Ghost} (h : Inv c o s g) :
    ∀ (r : Nat) (l : DiskLoc) (b : BtreeBucket), s.pages l = some b → g.rank l ≤ r →
      ∀ F F', r < F → r < F' → inorder s F l = inorder s F' l := by
  intro r
  induction r using Nat.strong_induction_on with
  | _ r ih =>
    intro l b hl hr F F' hF hF'
    cases F with
    | zero => omega
    | succ F =>
      cases F' with
      | zero => omega
      | succ F' =>
        rw [inorder_succ_mapped s F l b (h.ne_null_of_mapped hl) hl,
          inorder_succ_mapped s F' l b (h.ne_null_of_mapped hl) hl]
        have hch : ∀ p ch, b.childForPos p = some ch → inorder s F ch = inorder s F' ch := by
          intro p ch hc
          by_cases hn : ch = DiskLoc.Null
          · subst hn; rw [inorder_null, inorder_null]
          · obtain ⟨cb, hcb, _, hrk, _⟩ := (h.page l b hl).child p ch hc hn
            exact ih (g.rank ch) (by omega) ch cb hcb (le_refl _) F F' (by omega) (by omega)
        rw [hch _ _ (childForPos_length b)]
        congr 1
        apply inorderSlots_congr
        intro k hk
        obtain ⟨i, hi⟩ := List.get?_of_mem hk
        exact hch i _ (childForPos_of_get? hi)

/-- Every slot of every page of a subtree is in the in-order list of the
subtree. -/
theorem mem_inorder_of_below {c : Layout} {o : Ordering} {s : State} {g : Ghost}
    (h : Inv c o s g) {l q : DiskLoc} (hb : Below s l q) :
    ∀ (b bq : BtreeBucket), s.pages l = some b → s.pages q = some bq →
      ∀ F, g.rank l < F → ∀ i, i < bq.keys.length → (q, i) ∈ inorder s F l := by
  induction hb with
  | refl l =>
    intro b bq hl hq F hF i hi
    rw [hl] at hq; cases hq
    cases F with
    | zero => omega
    | succ F =>
      obtain ⟨k, hk⟩ := get?_some_of_lt b.keys i hi
      have hc : ∃ ch, b.childForPos (i + 1) = some ch := by
        by_cases hp1 : i + 1 = b.keys.length
        · exact ⟨_, hp1 ▸ childForPos_length b⟩
        · obtain ⟨k', hk'⟩ := get?_some_of_lt b.keys (i + 1) (by omega)
          exact ⟨_, childForPos_of_get? hk'⟩
      obtain ⟨ch, hch⟩ := hc
      rw [inorder_eq_split h hl F (childForPos_of_get? hk), postList_of_get? _ l b i k hk ch hch]
      simp
  | step l ch q b' p hl' hc hn _ ih =>
    intro b bq hl hq F hF i hi
    rw [hl'] at hl; cases hl
    obtain ⟨cb, hcb, _, hrk, _⟩ := (h.page l b' hl').child p ch hc hn
    cases F with
    | zero => omega
    | succ F =>
      rw [inorder_eq_split h hl' F hc]
      have := ih cb bq hcb hq F (by omega) i hi
      simp [this]

end BtreeBucket
end mongo

namespace mongo
namespace BtreeBucket

theorem childForPos_some_of_le (b : BtreeBucket) (p : Nat) (hp : p ≤ b.keys.length) :
    ∃ ch, b.childForPos p = some ch := by
  by_cases h : p = b.keys.length
  · exact ⟨_, h ▸ childForPos_length b⟩
  · obtain ⟨k, hk⟩ := get?_some_of_lt b.keys p (by omega)
    exact ⟨_, childForPos_of_get? hk⟩

theorem slotAt_page_ne_null {c : Layout} {o : Ordering} {s : State} {g : Ghost}
    (h : Inv c o s g) {x : DiskLoc × Nat} {k : _KeyNode} (hk : slotAt s x = some k) :
    x.1 ≠ DiskLoc.Null := by
  unfold slotAt at hk
  cases hp : s.pages x.1 with
  | none => rw [hp] at hk; cases hk
  | some b => exact h.ne_null_of_mapped hp

/-- The descent `locate` with a direction that is not negative returns the
first position of the subtree at or after the target. -/
theorem locate_spec {c : Layout} {o : Ordering} {s : State} {g : Ghost} (h : Inv c o s g)
    (key : BSONObj) (recordLoc : DiskLoc) (direction : Int) (hd : ¬ direction < 0) :
    ∀ (r : Nat) (l : DiskLoc) (b : BtreeBucket), s.pages l = some b → g.rank l ≤ r →
      ∀ fuel F, r < fuel → r < F →
        ∃ res, locate s key o recordLoc direction fuel l = .ok res ∧
          LocateSpec o s (entryKey o key recordLoc) (inorder s F l) res := by
  intro r
  induction r using Nat.strong_induction_on with
  | _ r ih =>
    intro l b hl hr fuel F hfuel hF
    cases fuel with
    | zero => omega
    | succ fuel =>
    cases F with
    | zero => omega
    | succ F =>
    have hpage := h.page l b hl
    obtain ⟨found, p, hfind, hspec⟩ :=
      findWith_false o b key recordLoc (fun _ => .ok ()) hpage.sorted
    rw [locate, hl]
    simp only [hfind]
    have hFr : g.rank l ≤ F := by omega
    cases found with
    | true =>
      simp only [FindSpec, if_true] at hspec
      obtain ⟨k, hk, hek⟩ := hspec
      have hplt := (List.get?_eq_some.mp hk).1
      refine ⟨_, rfl, ?_⟩
      have hc := childForPos_of_get? hk
      obtain ⟨ch1, hch1⟩ := childForPos_some_of_le b (p + 1) (by omega)
      refine ⟨preList (inorder s F) l b p ++ inorder s F k.prevChildBucket,
        postList (inorder s F) l b p, inorder_eq_split h hl F hc, ?_, ?_, ?_⟩
      · intro x hx kx hkx
        simp only [List.mem_append] at hx
        rcases hx with hx | hx
        · obtain ⟨i, k', kx', hi, hk', hkx', hle⟩ := preList_bound h hl hFr p (by omega) x hx
          rw [hkx] at hkx'; cases hkx'
          rw [← hek]
          exact lt_of_le_of_lt hle (hpage.sorted.get?_lt hi hk' hk)
        · obtain ⟨kx', hkx', _, h2⟩ := child_inorder_within h hl hFr hc x hx
          rw [hkx] at hkx'; cases hkx'
          simp only [upperAt, hk] at h2
          rw [← hek]; exact WithTop.coe_lt_coe.mp h2
      · intro x hx kx hkx
        obtain ⟨i, k', kx', hi, hk', hkx', hle⟩ :=
          postList_bound h hl hFr _ p (le_refl _) x hx
        rw [hkx] at hkx'; cases hkx'
        rw [← hek]
        refine le_trans ?_ hle
        by_cases hip : i = p
        · subst hip; rw [hk] at hk'; cases hk'; exact le_refl _
        · exact le_of_lt (hpage.sorted.get?_lt (by omega) hk hk')
      · rw [postList_of_get? _ l b p k hk ch1 hch1]
        simp only
        exact ⟨trivial, trivial, k, by simp only [slotAt, hl]; exact hk, by simp [hek]⟩
    | false =>
      simp only [FindSpec, Bool.false_eq_true, if_false] at hspec
      obtain ⟨hple, hbefore, hafter⟩ := hspec
      obtain ⟨child, hchild⟩ := childForPos_some_of_le b p hple
      simp only [hchild]
      have hpre : ∀ x ∈ preList (inorder s F) l b p, ∀ k, slotAt s x = some k →
          k.ekey o < entryKey o key recordLoc := by
        intro x hx kx hkx
        obtain ⟨i, k', kx', hi, hk', hkx', hle⟩ := preList_bound h hl hFr p hple x hx
        rw [hkx] at hkx'; cases hkx'
        exact lt_of_le_of_lt hle (hbefore i k' hi hk')
      have hpost : ∀ x ∈ postList (inorder s F) l b p, ∀ k, slotAt s x = some k →
          entryKey o key recordLoc ≤ k.ekey o := by
        intro x hx kx hkx
        obtain ⟨i, k', kx', hi, hk', hkx', hle⟩ :=
          postList_bound h hl hFr _ p (le_refl _) x hx
        rw [hkx] at hkx'; cases hkx'
        exact le_trans (le_of_lt (hafter i k' hi hk')) hle
      -- what is returned when the child has nothing at or after the target
      have hhere : ∀ A', (∀ x ∈ A', ∀ k, slotAt s x = some k →
            k.ekey o < entryKey o key recordLoc) → inorder s F child = A' →
          LocateSpec o s (entryKey o key recordLoc) (inorder s (F + 1) l)
            (if direction < 0 then
              (if (p : Int) - 1 = -1 then (DiskLoc.Null, (p : Int) - 1, false)
               else (l, (p : Int) - 1, false))
             else
              (if (p : Int) = b.n then (DiskLoc.Null, (p : Int), false)
               else (l, (p : Int), false))) := by
        intro A' hA' hAeq
        rw [if_neg hd]
        refine ⟨preList (inorder s F) l b p ++ A', postList (inorder s F) l b p, ?_, ?_, hpost, ?_⟩
        · rw [← hAeq]; exact inorder_eq_split h hl F hchild
        · intro x hx kx hkx
          simp only [List.mem_append] at hx
          rcases hx with hx | hx
          · exact hpre x hx kx hkx
          · exact hA' x hx kx hkx
        · by_cases hpn : p = b.keys.length
          · rw [if_pos (by simp only [n]; omega)]
            rw [hpn, postList_length]
            exact ⟨rfl, rfl⟩
          · rw [if_neg (by simp only [n]; omega)]
            obtain ⟨k, hk⟩ := get?_some_of_lt b.keys p (by omega)
            obtain ⟨ch1, hch1⟩ := childForPos_some_of_le b (p + 1) (by omega)
            rw [postList_of_get? _ l b p k hk ch1 hch1]
            simp only
            refine ⟨trivial, trivial, k, by simp only [slotAt, hl]; exact hk, ?_⟩
            have := hafter p k (le_refl _) hk
            simp only [Bool.false_eq_true, false_iff]
            exact fun he => absurd (he ▸ this) (lt_irrefl _)
      by_cases hcn : child = DiskLoc.Null
      · have hisn : child.isNull = true := (DiskLoc.isNull_iff child).mpr hcn
        simp only [hisn, not_true_eq_false, if_false]
        refine ⟨_, ?_, hhere [] (by simp) (by rw [hcn, inorder_null])⟩
        by_cases hd' : direction < 0
        · exact absurd hd' hd
        · simp only [hd', if_false]
          split <;> rfl
      · have hisn : child.isNull = false := (DiskLoc.isNull_false_iff child).mpr hcn
        simp only [hisn, Bool.false_eq_true, not_false_eq_true, if_true]
        obtain ⟨cb, hcb, _, hrk, _⟩ := hpage.child p child hchild hcn
        obtain ⟨resc, hresc, A', B', hsplit, hA', hB', hmatch⟩ :=
          ih (g.rank child) (by omega) child cb hcb (le_refl _) fuel F (by omega) (by omega)
        rw [hresc]
        obtain ⟨rl, rpos, rfound⟩ := resc
        simp only
        cases B' with
        | nil =>
          simp only at hmatch
          have hrl : rl.isNull = true := (DiskLoc.isNull_iff rl).mpr hmatch.1
          simp only [hrl, not_true_eq_false, if_false]
          refine ⟨_, ?_, hhere A' hA' (by simpa using hsplit)⟩
          by_cases hd' : direction < 0
          · exact absurd hd' hd
          · simp only [hd', if_false]
            split <;> rfl
        | cons z B'' =>
          simp only at hmatch
          obtain ⟨h1, h2, kz, hkz, hfz⟩ := hmatch
          have hzn : rl ≠ DiskLoc.Null := h1 ▸ slotAt_page_ne_null h hkz
          have hrl : rl.isNull = false := (DiskLoc.isNull_false_iff rl).mpr hzn
          simp only [hrl, Bool.false_eq_true, not_false_eq_true, if_true]
          refine ⟨_, rfl, preList (inorder s F) l b p ++ A',
            (z :: B'') ++ postList (inorder s F) l b p, ?_, ?_, ?_, ?_⟩
          · rw [inorder_eq_split h hl F hchild, hsplit]
            simp
          · intro x hx kx hkx
            simp only [List.mem_append] at hx
            rcases hx with hx | hx
            · exact hpre x hx kx hkx
            · exact hA' x hx kx hkx
          · intro x hx kx hkx
            simp only [List.mem_append] at hx
            rcases hx with hx | hx
            · exact hB' x hx kx hkx
            · exact hpost x hx kx hkx
          · simp only [List.cons_append]
            exact ⟨h1, h2, kz, hkz, hfz⟩

end BtreeBucket
end mongo

namespace mongo
namespace BtreeBucket

/-! ## Cursor steps on a well-formed tree -/

theorem Chain.append {nx : DiskLoc × Nat → Option (DiskLoc × Nat) → Prop}
    {e : Option (DiskLoc × Nat)} {y : DiskLoc × Nat} {B : List (DiskLoc × Nat)} :
    ∀ (A : List (DiskLoc × Nat)) (x : DiskLoc × Nat), Chain nx x A (some y) → Chain nx y B e →
      Chain nx x (A ++ y :: B) e := by
  intro A
  induction A with
  | nil => intro x h1 h2; exact ⟨h1, h2⟩
  | cons a A ih => intro x h1 h2; exact ⟨h1.1, ih a h1.2 h2⟩

theorem find?_range_some (P : Nat → Bool) :
    ∀ (n i : Nat), i < n → P i = true → (∀ j, j < i → P j = false) →
      (List.range n).find? P = some i := by
  intro n
  induction n with
  | zero => intro i hi; omega
  | succ n ih =>
    intro i hi hP hlt
    rw [List.range_succ, List.find?_append]
    by_cases hin : i < n
    · rw [ih i hin hP hlt]; rfl
    · have hie : i = n := by omega
      subst hie
      have hnone : (List.range i).find? P = none := by
        rw [List.find?_eq_none]
        intro x hx
        simp only [List.mem_range] at hx
        simp [hlt x hx]
      rw [hnone]
      simp [hP]

theorem find?_range_none (P : Nat → Bool) (n : Nat) (h : ∀ j, j < n → P j = false) :
    (List.range n).find? P = none := by
  rw [List.find?_eq_none]
  intro x hx
  simp only [List.mem_range] at hx
  simp [h x hx]

theorem findChildLink_some {o : Ordering} {s : State} {g : Ghost} {a : DiskLoc}
    {an : BtreeBucket} (hp : PageOK o s g a an) (adj : Nat) (l : DiskLoc)
    (hn : l ≠ DiskLoc.Null) (i : Nat) (hi : i < an.keys.length)
    (hc : an.childForPos (i + adj) = some l) : findChildLink an adj l = some i := by
  unfold findChildLink
  apply find?_range_some _ _ i hi
  · simp [hc]
  · intro j hj
    by_contra hcon
    simp only [Bool.not_eq_false, beq_iff_eq] at hcon
    have := hp.child_inj _ _ l hcon hc hn
    omega

theorem findChildLink_none {o : Ordering} {s : State} {g : Ghost} {a : DiskLoc}
    {an : BtreeBucket} (hp : PageOK o s g a an) (adj : Nat) (l : DiskLoc)
    (hn : l ≠ DiskLoc.Null) (q : Nat) (hc : an.childForPos q = some l)
    (hq : ∀ i, i < an.keys.length → q ≠ i + adj) : findChildLink an adj l = none := by
  unfold findChildLink
  apply find?_range_none
  intro j hj
  by_contra hcon
  simp only [Bool.not_eq_false, beq_iff_eq] at hcon
  exact hq j hj (hp.child_inj _ _ l hc hcon hn)

/-- Every mapped page has an exit for the forward walk. -/
theorem exitFwd_exists {c : Layout} {o : Ordering} {s : State} {g : Ghost} (h : Inv c o s g) :
    ∀ (d : Nat) (l : DiskLoc) (b : BtreeBucket), s.pages l = some b →
      g.rank s.head - g.rank l ≤ d → ∃ e, ExitFwd s l e := by
  intro d
  induction d with
  | zero =>
    intro l b hl hd
    by_cases hh : l = s.head
    · obtain ⟨hb, hhb, hpar, _⟩ := h.head
      subst hh; rw [hl] at hhb; cases hhb
      exact ⟨none, ExitFwd.root _ b hl hpar⟩
    · obtain ⟨_, pb, p, hpb, hp⟩ := h.link l b hl hh
      obtain ⟨cb, hcb, _, hrk, _⟩ := (h.page _ pb hpb).child p l hp (h.ne_null_of_mapped hl)
      have := h.rank_le _ pb hpb
      omega
  | succ d ih =>
    intro l b hl hd
    by_cases hh : l = s.head
    · obtain ⟨hb, hhb, hpar, _⟩ := h.head
      subst hh; rw [hl] at hhb; cases hhb
      exact ⟨none, ExitFwd.root _ b hl hpar⟩
    · obtain ⟨_, pb, p, hpb, hp⟩ := h.link l b hl hh
      obtain ⟨cb, hcb, _, hrk, _⟩ := (h.page _ pb hpb).child p l hp (h.ne_null_of_mapped hl)
      by_cases hpn : p = pb.keys.length
      · obtain ⟨e, he⟩ := ih b.parent pb hpb (by omega)
        have hnc : pb.nextChild = l := by
          rw [hpn, childForPos_length] at hp; exact Option.some.inj hp
        exact ⟨e, ExitFwd.up l b pb e hl hpb hnc he⟩
      · have := childForPos_eq_some_le hp
        exact ⟨_, ExitFwd.slot l b pb p hl hpb hp (by omega)⟩

/-- The ascent loop of `advance` in the forward direction arrives at the exit
of the page it starts from. -/
theorem advanceUp_fwd {c : Layout} {o : Ordering} {s : State} {g : Ghost} (h : Inv c o s g)
    {l : DiskLoc} {e : Option (DiskLoc × Nat)} (he : ExitFwd s l e) :
    ∀ (b : BtreeBucket), s.pages l = some b → ∀ (keyOfs : Int) (F : Nat),
      g.rank s.head < F + g.rank l →
      advanceUp s 1 0 keyOfs F l b.parent = .ok (exitResult keyOfs e) := by
  induction he with
  | root l b' hl' hpar =>
    intro b hl keyOfs F hF
    rw [hl'] at hl; cases hl
    have := h.rank_le l b' hl'
    cases F with
    | zero => omega
    | succ F => rw [advanceUp, hpar]; simp [DiskLoc.isNull, exitResult]
  | slot l b' pb i hl' hpb hc hi =>
    intro b hl keyOfs F hF
    rw [hl'] at hl; cases hl
    have := h.rank_le l b' hl'
    cases F with
    | zero => omega
    | succ F =>
      have hpn : b'.parent.isNull = false :=
        (DiskLoc.isNull_false_iff _).mpr (h.ne_null_of_mapped hpb)
      rw [advanceUp, hpn]
      simp only [Bool.false_eq_true, if_false, hpb]
      rw [findChildLink_some (h.page _ pb hpb) 0 l (h.ne_null_of_mapped hl') i hi hc]
      rfl
  | up l b' pb e hl' hpb hnc _ ih =>
    intro b hl keyOfs F hF
    rw [hl'] at hl; cases hl
    have := h.rank_le l b' hl'
    cases F with
    | zero => omega
    | succ F =>
      have hpn : b'.parent.isNull = false :=
        (DiskLoc.isNull_false_iff _).mpr (h.ne_null_of_mapped hpb)
      have hcl : pb.childForPos pb.keys.length = some l := by
        rw [childForPos_length, hnc]
      obtain ⟨cb, hcb, _, hrk, _⟩ :=
        (h.page _ pb hpb).child _ l hcl (h.ne_null_of_mapped hl')
      rw [advanceUp, hpn]
      simp only [Bool.false_eq_true, if_false, hpb]
      rw [findChildLink_none (h.page _ pb hpb) 0 l (h.ne_null_of_mapped hl') _ hcl
        (fun i hi => by omega)]
      simp only [hnc, or_true, not_true_eq_false, if_false]
      exact ih pb hpb keyOfs F (by omega)

end BtreeBucket
end mongo

namespace mongo
namespace BtreeBucket

theorem ExitFwd.some_mapped {s : State} {l : DiskLoc} {e : Option (DiskLoc × Nat)}
    (he : ExitFwd s l e) : ∀ a i, e = some (a, i) → ∃ ab, s.pages a = some ab := by
  induction he with
  | root l b hl hpar => intro a i h; cases h
  | slot l b pb i hl hpb hc hi => intro a j h; cases h; exact ⟨pb, hpb⟩
  | up l b pb e hl hpb hnc _ ih => exact ih

/-- The forward step of `advance` from the slot `i` of a page, by cases on the
child to the right of the slot. -/
theorem advance_fwd_cases {s : State} {l : DiskLoc} {b : BtreeBucket} (hl : s.pages l = some b)
    {i : Nat} (hi : i < b.keys.length) {ch : DiskLoc} (hc : b.childForPos (i + 1) = some ch)
    (F : Nat) :
    advance F s l (i : Int) 1 =
      if ch.isNull then
        if i + 1 < b.keys.length then .ok (l, ((i + 1 : Nat) : Int))
        else advanceUp s 1 0 (i : Int) F l b.parent
      else advanceDown s 1 0 F ch := by
  unfold advance
  simp only [hl]
  have h1 : ¬ ((i : Int) < 0 ∨ (i : Int) ≥ b.n) := by simp only [n]; omega
  rw [if_neg h1]
  have h2 : ¬ ((1 : Int) < 0) := by omega
  simp only [h2, if_false]
  have h3 : b.childForPosI ((i : Int) + 1 + ((0 : Nat) : Int)) = some ch := by
    unfold childForPosI
    rw [if_neg (by omega)]
    have : ((i : Int) + 1 + ((0 : Nat) : Int)).toNat = i + 1 := by omega
    rw [this, hc]
  rw [h3]
  simp only
  by_cases hn : ch.isNull = true
  · simp only [hn, not_true_eq_false, if_false, if_true]
    by_cases hlt : i + 1 < b.keys.length
    · have : ((i : Int) + 1 < b.n ∧ (i : Int) + 1 ≥ 0) := by simp only [n]; omega
      rw [if_pos this, if_pos hlt]
      rfl
    · have : ¬ ((i : Int) + 1 < b.n ∧ (i : Int) + 1 ≥ 0) := by simp only [n]; omega
      rw [if_neg this, if_neg hlt]
  · have hn' : ch.isNull = false := by simpa using hn
    simp only [hn', Bool.false_eq_true, not_false_eq_true, if_true, if_false]
    rfl

/-- The forward walk through a subtree: the descent loop of `advance` arrives at
the first position of the in-order list, and from there the forward steps visit
the list in turn and leave the subtree at its exit. -/
theorem walk_fwd {c : Layout} {o : Ordering} {s : State} {g : Ghost} (h : Inv c o s g) :
    ∀ (r : Nat) (l : DiskLoc) (b : BtreeBucket), s.pages l = some b → g.rank l ≤ r →
      b.keys ≠ [] → ∀ F, r < F →
        ∃ x rest, inorder s F l = x :: rest ∧
          (∀ Fd, r < Fd → advanceDown s 1 0 Fd l = .ok (x.1, (x.2 : Int))) ∧
          (∀ e, ExitFwd s l e → Chain (NextIs s (g.rank s.head)) x rest e) := by
  intro r
  induction r using Nat.strong_induction_on with
  | _ r ih =>
    intro l b hl hr hne F hF
    cases F with
    | zero => omega
    | succ F =>
    have hpage := h.page l b hl
    have hrh := h.rank_le l b hl
    -- what is known about each child
    have hchild : ∀ p ch, b.childForPos p = some ch → ch ≠ DiskLoc.Null →
        ∃ x rest, inorder s F ch = x :: rest ∧
          (∀ Fd, g.rank ch < Fd → advanceDown s 1 0 Fd ch = .ok (x.1, (x.2 : Int))) ∧
          (∀ e, ExitFwd s ch e → Chain (NextIs s (g.rank s.head)) x rest e) ∧
          g.rank ch < g.rank l ∧ ∃ cb, s.pages ch = some cb ∧ cb.parent = l := by
      intro p ch hc hn
      obtain ⟨cb, hcb, hpar, hrk, _⟩ := hpage.child p ch hc hn
      have hch : ch ≠ s.head := by
        intro heq
        obtain ⟨hb, hhb, hhp, _⟩ := h.head
        rw [← heq, hcb] at hhb; cases hhb
        rw [hhp] at hpar
        exact h.ne_null_of_mapped hl hpar.symm
      obtain ⟨x, rest, h1, h2, h3⟩ :=
        ih (g.rank ch) (by omega) ch cb hcb (le_refl _) (h.link ch cb hcb hch).1 F (by omega)
      exact ⟨x, rest, h1, h2, h3, hrk, cb, hcb, hpar⟩
    -- the walk from slot `i` to the end of the page
    have hslots : ∀ d i, b.keys.length - 1 - i ≤ d → i < b.keys.length →
        ∃ tail, postList (inorder s F) l b i = (l, i) :: tail ∧
          ∀ e, ExitFwd s l e → Chain (NextIs s (g.rank s.head)) (l, i) tail e := by
      intro d
      induction d with
      | zero =>
        intro i hd hi
        obtain ⟨k, hk⟩ := get?_some_of_lt b.keys i hi
        have hin : i + 1 = b.keys.length := by omega
        have hc : b.childForPos (i + 1) = some b.nextChild := hin ▸ childForPos_length b
        refine ⟨_, postList_of_get? _ l b i k hk _ hc, ?_⟩
        intro e he
        rw [hin, postList_length, List.append_nil]
        by_cases hn : b.nextChild = DiskLoc.Null
        · rw [hn, inorder_null]
          show NextIs s (g.rank s.head) (l, i) e
          intro F' hF'
          show advance F' s l (i : Int) 1 = _
          rw [advance_fwd_cases hl hi hc F', hn]
          simp only [DiskLoc.isNull, decide_True, if_true]
          rw [if_neg (by omega), advanceUp_fwd h he b hl (i : Int) F' (by omega)]
        · obtain ⟨x, rest, h1, h2, h3, hrk, cb, hcb, hpar⟩ := hchild _ _ hc hn
          rw [h1]
          have hpb : s.pages cb.parent = some b := by rw [hpar]; exact hl
          have hex : ExitFwd s cb.parent e := by rw [hpar]; exact he
          refine ⟨?_, h3 e (ExitFwd.up _ cb b e hcb hpb rfl hex)⟩
          intro F' hF'
          show advance F' s l (i : Int) 1 = _
          rw [advance_fwd_cases hl hi hc F']
          have hnn : b.nextChild.isNull = false := (DiskLoc.isNull_false_iff _).mpr hn
          simp only [hnn, Bool.false_eq_true, if_false]
          rw [h2 F' (by omega)]
          rfl
      | succ d ihd =>
        intro i hd hi
        obtain ⟨k, hk⟩ := get?_some_of_lt b.keys i hi
        by_cases hin : i + 1 = b.keys.length
        · exact ihd i (by omega) hi
        · have hi1 : i + 1 < b.keys.length := by omega
          obtain ⟨k1, hk1⟩ := get?_some_of_lt b.keys (i + 1) hi1
          have hc : b.childForPos (i + 1) = some k1.prevChildBucket := childForPos_of_get? hk1
          obtain ⟨tail, htail, hchain⟩ := ihd (i + 1) (by omega) hi1
          refine ⟨_, postList_of_get? _ l b i k hk _ hc, ?_⟩
          intro e he
          rw [htail]
          by_cases hn : k1.prevChildBucket = DiskLoc.Null
          · rw [hn, inorder_null, List.nil_append]
            refine ⟨?_, hchain e he⟩
            intro F' hF'
            show advance F' s l (i : Int) 1 = _
            rw [advance_fwd_cases hl hi hc F', hn]
            simp only [DiskLoc.isNull, decide_True, if_true]
            rw [if_pos hi1]
            rfl
          · obtain ⟨x, rest, h1, h2, h3, hrk, cb, hcb, hpar⟩ := hchild _ _ hc hn
            rw [h1]
            have hstep : NextIs s (g.rank s.head) (l, i) (some x) := by
              intro F' hF'
              show advance F' s l (i : Int) 1 = _
              rw [advance_fwd_cases hl hi hc F']
              have hnn : k1.prevChildBucket.isNull = false := (DiskLoc.isNull_false_iff _).mpr hn
              simp only [hnn, Bool.false_eq_true, if_false]
              rw [h2 F' (by omega)]
              rfl
            have hpb : s.pages cb.parent = some b := by rw [hpar]; exact hl
            have hce := h3 (some (l, i + 1))
              (hpar ▸ ExitFwd.slot _ cb b (i + 1) hcb hpb hc hi1)
            exact ⟨hstep, Chain.append rest x hce (hchain e he)⟩
    -- the whole page
    have hn0 : 0 < b.keys.length := List.length_pos.mpr hne
    obtain ⟨k0, hk0⟩ := get?_some_of_lt b.keys 0 hn0
    have hc0 : b.childForPos 0 = some k0.prevChildBucket := childForPos_of_get? hk0
    obtain ⟨tail, htail, hchain⟩ := hslots _ 0 (le_refl _) hn0
    rw [inorder_eq_split h hl F hc0]
    have hpre : preList (inorder s F) l b 0 = [] := by simp [preList, inorderSlots]
    rw [hpre, htail, List.nil_append]
    have hln : l.isNull = false := (DiskLoc.isNull_false_iff l).mpr (h.ne_null_of_mapped hl)
    have hcI : b.childForPosI 0 = some k0.prevChildBucket := by
      unfold childForPosI
      simp [hc0]
    by_cases hn : k0.prevChildBucket = DiskLoc.Null
    · rw [hn, inorder_null, List.nil_append]
      refine ⟨(l, 0), tail, rfl, ?_, hchain⟩
      intro Fd hFd
      cases Fd with
      | zero => omega
      | succ Fd =>
        rw [advanceDown, hl]
        simp only [gt_iff_lt, zero_lt_one, if_true, add_zero, hcI, hn]
        simp [DiskLoc.isNull]
    · obtain ⟨x, rest, h1, h2, h3, hrk, cb, hcb, hpar⟩ := hchild _ _ hc0 hn
      rw [h1]
      refine ⟨x, rest ++ (l, 0) :: tail, by simp, ?_, ?_⟩
      · intro Fd hFd
        cases Fd with
        | zero => omega
        | succ Fd =>
          rw [advanceDown, hl]
          simp only [gt_iff_lt, zero_lt_one, if_true, add_zero, hcI]
          have hnn : k0.prevChildBucket.isNull = false := (DiskLoc.isNull_false_iff _).mpr hn
          simp only [hnn, Bool.false_eq_true, if_false]
          exact h2 Fd (by omega)
      · intro e he
        have hpb : s.pages cb.parent = some b := by rw [hpar]; exact hl
        have hce := h3 (some (l, 0)) (hpar ▸ ExitFwd.slot _ cb b 0 hcb hpb hc0 hn0)
        exact Chain.append rest x hce (hchain e he)

end BtreeBucket
end mongo

namespace mongo
namespace BtreeBucket

/-! ## `exists` and `wouldCreateDup` on a well-formed tree -/

theorem Chain.suffix {nx : DiskLoc × Nat → Option (DiskLoc × Nat) → Prop}
    {e : Option (DiskLoc × Nat)} {z : DiskLoc × Nat} {B : List (DiskLoc × Nat)} :
    ∀ (A : List (DiskLoc × Nat)) (x : DiskLoc × Nat) (rest : List (DiskLoc × Nat)),
      x :: rest = A ++ z :: B → Chain nx x rest e → Chain nx z B e := by
  intro A
  induction A with
  | nil =>
    intro x rest heq hc
    simp only [List.nil_append, List.cons.injEq] at heq
    obtain ⟨rfl, rfl⟩ := heq
    exact hc
  | cons a A ih =>
    intro x rest heq hc
    simp only [List.cons_append, List.cons.injEq] at heq
    obtain ⟨rfl, rfl⟩ := heq
    cases A with
    | nil => exact ih z B rfl hc.2
    | cons a' A' => exact ih a' (A' ++ z :: B) rfl hc.2

theorem normElems_injective (o : Ordering) (l : List Int) :
    ∀ (mask : Nat) (r : List Int), normElems o mask l = normElems o mask r → l = r := by
  induction l with
  | nil =>
    intro mask r h
    cases r with
    | nil => rfl
    | cons y ys => simp [normElems] at h
  | cons x xs ih =>
    intro mask r h
    cases r with
    | nil => simp [normElems] at h
    | cons y ys =>
      simp only [normElems, List.cons.injEq] at h
      have h2 := ih _ ys h.2
      have h1 : x = y := by
        have := h.1
        split at this <;> omega
      rw [h1, h2]

theorem woCompare_eq_zero_iff_elems (o : Ordering) (l r : BSONObj) :
    l.woCompare r o = 0 ↔ l.elems = r.elems := by
  rw [woCompare_eq_iff]
  constructor
  · exact normElems_injective o l.elems 1 r.elems
  · intro h; rw [h]

theorem woEqual_iff (o : Ordering) (l r : BSONObj) :
    l.woEqual r = true ↔ l.woCompare r o = 0 := by
  unfold BSONObj.woEqual
  rw [decide_eq_true_iff, woCompare_eq_zero_iff_elems, woCompare_eq_zero_iff_elems]

/-- The loop of `exists` on a walk to the end of the tree: it reports whether
the first used slot of the walk has a key equal to `key`. -/
theorem existsLoop_chain {s : State} {N : Nat} (key : BSONObj) :
    ∀ (B : List (DiskLoc × Nat)) (z : DiskLoc × Nat), Chain (NextIs s N) z B none →
      (∀ y ∈ z :: B, ∃ k, slotAt s y = some k) → z.1 ≠ DiskLoc.Null →
      (∀ y ∈ B, y.1 ≠ DiskLoc.Null) →
      ∀ fuel, N + B.length + 1 < fuel →
        existsLoop s key fuel z.1 (z.2 : Int) =
          .ok (match firstUsed s (z :: B) with
               | none => false
               | some u => u.key.woEqual key) := by
  intro B
  induction B with
  | nil =>
    intro z hc hv hz _ fuel hf
    obtain ⟨k, hk⟩ := hv z (List.mem_cons_self _ _)
    cases fuel with
    | zero => omega
    | succ fuel =>
      have hzn : z.1.isNull = false := (DiskLoc.isNull_false_iff _).mpr hz
      rw [existsLoop, hzn]
      simp only [Bool.false_eq_true, if_false]
      unfold slotAt at hk
      cases hp : s.pages z.1 with
      | none => rw [hp] at hk; cases hk
      | some b =>
        rw [hp] at hk
        simp only at hk
        simp only
        rw [if_neg (by omega)]
        simp only [Int.toNat_ofNat, hk]
        have hfu : firstUsed s [z] = if k.isUsed then some k else none := by
          simp only [firstUsed, slotAt, hp, hk]
        rw [hfu]
        by_cases hu : k.isUsed = true
        · simp [hu]
        · simp only [hu, if_false, Bool.false_eq_true]
          have := hc fuel (by omega)
          rw [this]
          simp only [exitResult]
          cases fuel with
          | zero => omega
          | succ fuel => simp [existsLoop, DiskLoc.isNull]
  | cons y B ih =>
    intro z hc hv hz hB fuel hf
    obtain ⟨k, hk⟩ := hv z (List.mem_cons_self _ _)
    cases fuel with
    | zero => omega
    | succ fuel =>
      have hzn : z.1.isNull = false := (DiskLoc.isNull_false_iff _).mpr hz
      rw [existsLoop, hzn]
      simp only [Bool.false_eq_true, if_false]
      have hk' := hk
      unfold slotAt at hk
      cases hp : s.pages z.1 with
      | none => rw [hp] at hk; cases hk
      | some b =>
        rw [hp] at hk
        simp only at hk
        simp only
        rw [if_neg (by omega)]
        simp only [Int.toNat_ofNat, hk]
        have hfu : firstUsed s (z :: y :: B) =
            if k.isUsed then some k else firstUsed s (y :: B) := by
          rw [firstUsed, hk']
        rw [hfu]
        by_cases hu : k.isUsed = true
        · simp [hu]
        · simp only [hu, if_false, Bool.false_eq_true]
          have := hc.1 fuel (by simp only [List.length_cons] at hf; omega)
          rw [this]
          simp only [exitResult]
          exact ih y hc.2 (fun w hw => hv w (List.mem_cons_of_mem _ hw))
            (hB y (List.mem_cons_self _ _)) (fun w hw => hB w (List.mem_cons_of_mem _ hw))
            fuel (by simp only [List.length_cons] at hf; omega)

/-- The loop of `wouldCreateDup` on a walk to the end of the tree. -/
theorem wouldCreateDupLoop_chain {s : State} {N : Nat} (key : BSONObj) (self : DiskLoc) :
    ∀ (B : List (DiskLoc × Nat)) (z : DiskLoc × Nat), Chain (NextIs s N) z B none →
      (∀ y ∈ z :: B, ∃ k, slotAt s y = some k) → z.1 ≠ DiskLoc.Null →
      (∀ y ∈ B, y.1 ≠ DiskLoc.Null) →
      ∀ fuel, N + B.length + 1 < fuel →
        wouldCreateDupLoop s key self fuel z.1 (z.2 : Int) =
          .ok (match firstUsed s (z :: B) with
               | none => false
               | some u => if u.key.woEqual key then decide (u.recordLoc ≠ self) else false) := by
  intro B
  induction B with
  | nil =>
    intro z hc hv hz _ fuel hf
    obtain ⟨k, hk⟩ := hv z (List.mem_cons_self _ _)
    cases fuel with
    | zero => omega
    | succ fuel =>
      have hzn : z.1.isNull = false := (DiskLoc.isNull_false_iff _).mpr hz
      rw [wouldCreateDupLoop, hzn]
      simp only [Bool.false_eq_true, if_false]
      unfold slotAt at hk
      cases hp : s.pages z.1 with
      | none => rw [hp] at hk; cases hk
      | some b =>
        rw [hp] at hk
        simp only at hk
        simp only
        rw [if_neg (by omega)]
        simp only [Int.toNat_ofNat, hk]
        have hfu : firstUsed s [z] = if k.isUsed then some k else none := by
          simp only [firstUsed, slotAt, hp, hk]
        rw [hfu]
        by_cases hu : k.isUsed = true
        · simp only [hu, if_true]
          split <;> rfl
        · simp only [hu, if_false, Bool.false_eq_true]
          have := hc fuel (by omega)
          rw [this]
          simp only [exitResult]
          cases fuel with
          | zero => omega
          | succ fuel => simp [wouldCreateDupLoop, DiskLoc.isNull]
  | cons y B ih =>
    intro z hc hv hz hB fuel hf
    obtain ⟨k, hk⟩ := hv z (List.mem_cons_self _ _)
    cases fuel with
    | zero => omega
    | succ fuel =>
      have hzn : z.1.isNull = false := (DiskLoc.isNull_false_iff _).mpr hz
      rw [wouldCreateDupLoop, hzn]
      simp only [Bool.false_eq_true, if_false]
      have hk' := hk
      unfold slotAt at hk
      cases hp : s.pages z.1 with
      | none => rw [hp] at hk; cases hk
      | some b =>
        rw [hp] at hk
        simp only at hk
        simp only
        rw [if_neg (by omega)]
        simp only [Int.toNat_ofNat, hk]
        have hfu : firstUsed s (z :: y :: B) =
            if k.isUsed then some k else firstUsed s (y :: B) := by
          rw [firstUsed, hk']
        rw [hfu]
        by_cases hu : k.isUsed = true
        · simp only [hu, if_true]
          split <;> rfl
        · simp only [hu, if_false, Bool.false_eq_true]
          have := hc.1 fuel (by simp only [List.length_cons] at hf; omega)
          rw [this]
          simp only [exitResult]
          exact ih y hc.2 (fun w hw => hv w (List.mem_cons_of_mem _ hw))
            (hB y (List.mem_cons_self _ _)) (fun w hw => hB w (List.mem_cons_of_mem _ hw))
            fuel (by simp only [List.length_cons] at hf; omega)

end BtreeBucket
end mongo

namespace mongo
namespace BtreeBucket

theorem EKey.fields_le {a b : EKey} (h : a ≤ b) : a.fields ≤ b.fields := by
  rcases lt_or_eq_of_le h with h | h
  · rw [EKey.lt_iff] at h
    rcases h with h | ⟨h, _⟩
    · exact le_of_lt h
    · exact le_of_eq h
  · rw [h]

/-- The whole tree as a walk: every position of the in-order list of the root
holds a slot, the positions ascend, every slot of every page is among them, and
the forward steps of `advance` visit them in turn and then end. -/
theorem tree_walk {c : Layout} {o : Ordering} {s : State} {g : Ghost} (h : Inv c o s g)
    (F : Nat) (hF : g.rank s.head < F) :
    (∀ y ∈ inorder s F s.head, ∃ k, slotAt s y = some k) ∧
    (inorder s F s.head).Pairwise (PosLt o s) ∧
    (∀ l b i, s.pages l = some b → i < b.keys.length → (l, i) ∈ inorder s F s.head) ∧
    (inorder s F s.head = [] ∨
      ∃ x rest, inorder s F s.head = x :: rest ∧ Chain (NextIs s (g.rank s.head)) x rest none) := by
  obtain ⟨hb, hhb, hpar, hemp⟩ := h.head
  have hso := inorder_sorted h (g.rank s.head) s.head hb hhb (le_refl _) F hF
  refine ⟨fun y hy => ?_, hso.2, ?_, ?_⟩
  · obtain ⟨k, hk, _⟩ := hso.1 y hy
    exact ⟨k, hk⟩
  · intro l b i hl hi
    exact mem_inorder_of_below h (h.reachable hl) hb b hhb hl F hF i hi
  · by_cases hne : hb.keys = []
    · left
      cases F with
      | zero => omega
      | succ F =>
        rw [inorder_succ_mapped s F s.head hb (h.ne_null_of_mapped hhb) hhb, hne, hemp hne,
          inorder_null]
        rfl
    · right
      obtain ⟨x, rest, h1, _, h3⟩ := walk_fwd h (g.rank s.head) s.head hb hhb (le_refl _) hne F hF
      exact ⟨x, rest, h1, h3 none (ExitFwd.root _ hb hhb hpar)⟩

theorem firstUsed_le {o : Ordering} {s : State} :
    ∀ (B : List (DiskLoc × Nat)), B.Pairwise (PosLt o s) → ∀ y0 u0, y0 ∈ B →
      slotAt s y0 = some u0 → u0.isUsed = true →
      ∃ u y, y ∈ B ∧ slotAt s y = some u ∧ firstUsed s B = some u ∧ u.isUsed = true ∧
        u.ekey o ≤ u0.ekey o := by
  intro B
  induction B with
  | nil => intro _ y0 u0 hy0; simp at hy0
  | cons y ys ih =>
    intro hp y0 u0 hy0 hs0 hu0
    rw [List.pairwise_cons] at hp
    by_cases hyy : y0 = y
    · subst hyy
      refine ⟨u0, y0, List.mem_cons_self _ _, hs0, ?_, hu0, le_refl _⟩
      simp [firstUsed, hs0, hu0]
    · have hmem : y0 ∈ ys := by
        rcases List.mem_cons.mp hy0 with h | h
        · exact absurd h hyy
        · exact h
      cases hsy : slotAt s y with
      | none =>
        obtain ⟨u, y', hy', hs', hf, hu, hle⟩ := ih hp.2 y0 u0 hmem hs0 hu0
        exact ⟨u, y', List.mem_cons_of_mem _ hy', hs', by simp [firstUsed, hsy, hf], hu, hle⟩
      | some k =>
        by_cases hk : k.isUsed = true
        · refine ⟨k, y, List.mem_cons_self _ _, hsy, by simp [firstUsed, hsy, hk], hk, ?_⟩
          exact le_of_lt (hp.1 y0 hmem k u0 hsy hs0)
        · obtain ⟨u, y', hy', hs', hf, hu, hle⟩ := ih hp.2 y0 u0 hmem hs0 hu0
          exact ⟨u, y', List.mem_cons_of_mem _ hy', hs', by simp [firstUsed, hsy, hk, hf], hu, hle⟩

theorem firstUsed_some {s : State} :
    ∀ (B : List (DiskLoc × Nat)) u, firstUsed s B = some u →
      ∃ y, y ∈ B ∧ slotAt s y = some u ∧ u.isUsed = true := by
  intro B
  induction B with
  | nil => intro u h; simp [firstUsed] at h
  | cons y ys ih =>
    intro u h
    simp only [firstUsed] at h
    cases hsy : slotAt s y with
    | none =>
      rw [hsy] at h
      obtain ⟨y', hy', hs', hu⟩ := ih u h
      exact ⟨y', List.mem_cons_of_mem _ hy', hs', hu⟩
    | some k =>
      rw [hsy] at h
      simp only at h
      by_cases hk : k.isUsed = true
      · rw [if_pos hk] at h
        cases h
        exact ⟨y, List.mem_cons_self _ _, hsy, hk⟩
      · rw [if_neg hk] at h
        obtain ⟨y', hy', hs', hu⟩ := ih u h
        exact ⟨y', List.mem_cons_of_mem _ hy', hs', hu⟩

theorem slotAt_mem {s : State} {y : DiskLoc × Nat} {k : _KeyNode} (h : slotAt s y = some k) :
    ∃ b, s.pages y.1 = some b ∧ k ∈ b.keys ∧ b.keys.get? y.2 = some k := by
  unfold slotAt at h
  cases hp : s.pages y.1 with
  | none => rw [hp] at h; cases h
  | some b =>
    rw [hp] at h
    exact ⟨b, rfl, List.get?_mem h, h⟩

theorem minDiskLoc_le_ekey (o : Ordering) (key : BSONObj) (k : _KeyNode)
    (hk : key.woCompare k.key o = 0) (hv : 0 ≤ k.recordLoc.a ∧ 2 ≤ k.recordLoc.ofs) :
    entryKey o key minDiskLoc ≤ k.ekey o := by
  apply le_of_lt
  rw [EKey.lt_iff]
  right
  refine ⟨(woCompare_eq_iff o key k.key).mp hk, ?_⟩
  simp only [_KeyNode.ekey, entryKey, minDiskLoc, DiskLoc.clearLow]
  by_cases h0 : k.recordLoc.a = 0
  · right; exact ⟨h0.symm, by omega⟩
  · left; omega

theorem append_split_unique {α : Type} (P : α → Prop) :
    ∀ (A A' B B' : List α), A ++ B = A' ++ B' → (∀ x ∈ A, P x) → (∀ x ∈ A', P x) →
      (∀ x ∈ B, ¬ P x) → (∀ x ∈ B', ¬ P x) → B = B' := by
  intro A
  induction A with
  | nil =>
    intro A' B B' heq _ hA' hB _
    cases A' with
    | nil => simpa using heq
    | cons a A' =>
      simp only [List.nil_append, List.cons_append] at heq
      exfalso
      exact hB a (by rw [heq]; exact List.mem_cons_self _ _) (hA' a (List.mem_cons_self _ _))
  | cons a A ih =>
    intro A' B B' heq hA hA' hB hB'
    cases A' with
    | nil =>
      simp only [List.nil_append, List.cons_append] at heq
      exfalso
      exact hB' a (by rw [← heq]; exact List.mem_cons_self _ _) (hA a (List.mem_cons_self _ _))
    | cons a' A' =>
      simp only [List.cons_append, List.cons.injEq] at heq
      exact ih A' B B' heq.2 (fun x hx => hA x (List.mem_cons_of_mem _ hx))
        (fun x hx => hA' x (List.mem_cons_of_mem _ hx)) hB hB'

/-- What `exists` and `wouldCreateDup` compute from the root of a well-formed
tree: there is a walk `B` of positions, holding every slot whose key compares
equal to `key`, that both loops scan for the first used slot. -/
theorem probe_core {c : Layout} {o : Ordering} {s : State} {g : Ghost} (h : Inv c o s g)
    (key : BSONObj) :
    ∃ (B : List (DiskLoc × Nat)) (F0 : Nat),
      (∀ y ∈ B, ∀ k, slotAt s y = some k → entryKey o key minDiskLoc ≤ k.ekey o) ∧
      B.Pairwise (PosLt o s) ∧
      (∀ l b i k, s.pages l = some b → b.keys.get? i = some k → key.woCompare k.key o = 0 →
        (l, i) ∈ B) ∧
      (∀ fuel, F0 ≤ fuel → exists_ fuel s s.head key o =
        .ok (match firstUsed s B with
             | none => false
             | some u => u.key.woEqual key)) ∧
      (∀ self fuel, F0 ≤ fuel → wouldCreateDup fuel s s.head key o self =
        .ok (match firstUsed s B with
             | none => false
             | some u => if u.key.woEqual key then decide (u.recordLoc ≠ self) else false)) := by
  obtain ⟨hb, hhb, hpar, hemp⟩ := h.head
  have hF : g.rank s.head < g.rank s.head + 1 := by omega
  obtain ⟨hvalid, hsorted, hall, hchain⟩ := tree_walk (o := o) h (g.rank s.head + 1) hF
  -- the list at or after the target does not depend on the fuel of `locate`
  have hloc : ∀ fuel, g.rank s.head < fuel → ∃ res,
      locate s key o minDiskLoc 1 fuel s.head = .ok res ∧
        LocateSpec o s (entryKey o key minDiskLoc) (inorder s (g.rank s.head + 1) s.head) res :=
    fun fuel hfuel => locate_spec h key minDiskLoc 1 (by omega) (g.rank s.head) s.head hb hhb
      (le_refl _) fuel (g.rank s.head + 1) hfuel hF
  obtain ⟨res0, hres0, A, B, hsplit, hA, hB, hmatch0⟩ := hloc (g.rank s.head + 1) hF
  have hBsorted : B.Pairwise (PosLt o s) := by
    rw [hsplit, List.pairwise_append] at hsorted; exact hsorted.2.1
  have hBall : ∀ l b i k, s.pages l = some b → b.keys.get? i = some k →
      key.woCompare k.key o = 0 → (l, i) ∈ B := by
    intro l b i k hl hk hkey
    have hi := (List.get?_eq_some.mp hk).1
    have hmem := hall l b i hl hi
    rw [hsplit, List.mem_append] at hmem
    rcases hmem with hmem | hmem
    · exfalso
      have h1 := hA (l, i) hmem k (by simp only [slotAt, hl]; exact hk)
      have h2 := minDiskLoc_le_ekey o key k hkey ((h.page l b hl).rl_valid k (List.get?_mem hk))
      exact absurd (lt_of_lt_of_le h1 h2) (lt_irrefl _)
    · exact hmem
  -- what `locate` hands to the two loops
  have hstart : ∀ fuel, g.rank s.head < fuel → ∃ res,
      locate s key o minDiskLoc 1 fuel s.head = .ok res ∧ StartsAt B res.1 res.2.1 := by
    intro fuel hfuel
    obtain ⟨res, hres, A', B', hsplit', hA', hB', hmatch⟩ := hloc fuel hfuel
    have hBB : B = B' := by
      apply append_split_unique
        (fun x => ∀ k, slotAt s x = some k → k.ekey o < entryKey o key minDiskLoc) A A' B B'
        (hsplit.symm.trans hsplit') hA hA'
      · intro x hx hP
        obtain ⟨k, hk⟩ := hvalid x (by rw [hsplit]; exact List.mem_append_right _ hx)
        exact absurd (lt_of_lt_of_le (hP k hk) (hB x hx k hk)) (lt_irrefl _)
      · intro x hx hP
        obtain ⟨k, hk⟩ := hvalid x (by rw [hsplit']; exact List.mem_append_right _ hx)
        exact absurd (lt_of_lt_of_le (hP k hk) (hB' x hx k hk)) (lt_irrefl _)
    refine ⟨res, hres, ?_⟩
    rw [hBB]
    cases B' with
    | nil => exact hmatch.1
    | cons z B'' => exact ⟨hmatch.1, hmatch.2.1⟩
  clear hmatch0
  have hlen : B.length ≤ (inorder s (g.rank s.head + 1) s.head).length := by
    rw [hsplit, List.length_append]; omega
  have hBvalid : ∀ y ∈ B, ∃ k, slotAt s y = some k :=
    fun y hy => hvalid y (by rw [hsplit]; exact List.mem_append_right _ hy)
  have hBnn : ∀ y ∈ B, y.1 ≠ DiskLoc.Null := by
    intro y hy
    obtain ⟨k, hk⟩ := hBvalid y hy
    exact slotAt_page_ne_null h hk
  have hBchain : ∀ z B'', B = z :: B'' → Chain (NextIs s (g.rank s.head)) z B'' none := by
    intro z B'' hBz
    rcases hchain with hnil | ⟨x, rest, hL, hc⟩
    · rw [hnil] at hsplit
      have := congrArg List.length hsplit
      rw [hBz] at this
      simp only [List.length_nil, List.length_append, List.length_cons] at this
      omega
    · exact Chain.suffix A x rest (by rw [← hL, hsplit, hBz]) hc
  refine ⟨B, g.rank s.head + (inorder s (g.rank s.head + 1) s.head).length + 2, hB, hBsorted,
    hBall, ?_, ?_⟩
  · intro fuel hfuel
    obtain ⟨res, hres, hm⟩ := hstart fuel (by omega)
    unfold exists_
    rw [hres]
    obtain ⟨rl, rpos, rfound⟩ := res
    simp only
    cases hBz : B with
    | nil =>
      rw [hBz] at hm
      simp only [StartsAt] at hm
      subst hm
      cases fuel with
      | zero => omega
      | succ fuel => simp [existsLoop, DiskLoc.isNull, firstUsed]
    | cons z B'' =>
      rw [hBz] at hm
      simp only [StartsAt] at hm
      obtain ⟨rfl, rfl⟩ := hm
      rw [hBz] at hlen hBvalid hBnn
      exact existsLoop_chain key B'' z (hBchain z B'' hBz) hBvalid
        (hBnn z (List.mem_cons_self _ _)) (fun y hy => hBnn y (List.mem_cons_of_mem _ hy))
        fuel (by simp only [List.length_cons] at hlen; omega)
  · intro self fuel hfuel
    obtain ⟨res, hres, hm⟩ := hstart fuel (by omega)
    unfold wouldCreateDup
    rw [hres]
    obtain ⟨rl, rpos, rfound⟩ := res
    simp only
    cases hBz : B with
    | nil =>
      rw [hBz] at hm
      simp only [StartsAt] at hm
      subst hm
      cases fuel with
      | zero => omega
      | succ fuel => simp [wouldCreateDupLoop, DiskLoc.isNull, firstUsed]
    | cons z B'' =>
      rw [hBz] at hm
      simp only [StartsAt] at hm
      obtain ⟨rfl, rfl⟩ := hm
      rw [hBz] at hlen hBvalid hBnn
      exact wouldCreateDupLoop_chain key self B'' z (hBchain z B'' hBz) hBvalid
        (hBnn z (List.mem_cons_self _ _)) (fun y hy => hBnn y (List.mem_cons_of_mem _ hy))
        fuel (by simp only [List.length_cons] at hlen; omega)

end BtreeBucket
end mongo

namespace mongo
namespace BtreeBucket

/-! ## Insertions that raise -/

/-- The block of `find` that consults `exists` and `wouldCreateDup`: it returns
when the tree has no used slot with an equal key, and otherwise it raises
`dupKey` or `alreadyInIndex` according to the record locator of some used slot
with an equal key. -/
theorem dupProbe_spec {c : Layout} {o : Ordering} {s : State} {g : Ghost} (h : Inv c o s g)
    (key : BSONObj) :
    ∃ F0,
      (¬ HasUsedKey o s key → ∀ fuel, F0 ≤ fuel → ∀ recordLoc,
        dupProbe fuel s key o recordLoc () = .ok ()) ∧
      (HasUsedKey o s key → ∃ l b u, s.pages l = some b ∧ u ∈ b.keys ∧ u.isUsed = true ∧
        key.woCompare u.key o = 0 ∧ ∀ fuel, F0 ≤ fuel → ∀ recordLoc,
        dupProbe fuel s key o recordLoc () =
          .error (if u.recordLoc ≠ recordLoc then Err.dupKey else Err.alreadyInIndex)) := by
  obtain ⟨B, F0, hB, hBsorted, hBall, hex, hwd⟩ := probe_core h key (o := o)
  refine ⟨F0, ?_, ?_⟩
  · intro hno fuel hfuel recordLoc
    unfold dupProbe
    rw [hex fuel hfuel]
    cases hfu : firstUsed s B with
    | none => rfl
    | some u =>
      obtain ⟨y, hy, hsy, hu⟩ := firstUsed_some B u hfu
      obtain ⟨b, hb, hmem, _⟩ := slotAt_mem hsy
      have hne : u.key.woEqual key = false := by
        by_contra hcon
        have hcon' : u.key.woEqual key = true := by simpa using hcon
        apply hno
        refine ⟨y.1, b, u, hb, hmem, hu, ?_⟩
        have := (woEqual_iff o u.key key).mp hcon'
        rw [woCompare_eq_zero_iff_elems] at this ⊢
        exact this.symm
      simp only [hne]
  · rintro ⟨l, b, u0, hl, hmem0, hu0, hk0⟩
    obtain ⟨i0, hi0⟩ := List.get?_of_mem hmem0
    have hin := hBall l b i0 u0 hl hi0 hk0
    obtain ⟨u, y, hy, hsy, hfu, hu, hle⟩ :=
      firstUsed_le B hBsorted (l, i0) u0 hin (by simp only [slotAt, hl]; exact hi0) hu0
    obtain ⟨b', hb', hmem', _⟩ := slotAt_mem hsy
    have hkey : key.woCompare u.key o = 0 := by
      rw [woCompare_eq_iff]
      have h1 := EKey.fields_le (hB y hy u hsy)
      have h2 := EKey.fields_le hle
      have h3 : (u0.ekey o).fields = normElems o 1 key.elems :=
        ((woCompare_eq_iff o key u0.key).mp hk0).symm
      rw [h3] at h2
      exact le_antisymm h1 h2
    refine ⟨y.1, b', u, hb', hmem', hu, hkey, ?_⟩
    intro fuel hfuel recordLoc
    have hwe : u.key.woEqual key = true := by
      rw [woEqual_iff o]
      rw [woCompare_eq_zero_iff_elems] at hkey ⊢
      exact hkey.symm
    unfold dupProbe
    rw [hex fuel hfuel, hfu]
    simp only [hwe]
    rw [hwd recordLoc fuel hfuel, hfu]
    simp only [hwe, if_true]
    by_cases hr : u.recordLoc = recordLoc
    · simp [hr]
    · simp [hr]

theorem Below.cases {s : State} {l q : DiskLoc} (h : Below s l q) :
    q = l ∨ ∃ b p ch, s.pages l = some b ∧ b.childForPos p = some ch ∧ ch ≠ DiskLoc.Null ∧
      Below s ch q := by
  cases h with
  | refl => left; rfl
  | step _ ch _ b p hl hc hn hb => right; exact ⟨b, p, ch, hl, hc, hn, hb⟩

/-- A slot of the subtree of a page that lies between the slots `p - 1` and `p`
of the page is in the subtree of the child at `p`. -/
theorem below_child_of_between {c : Layout} {o : Ordering} {s : State} {g : Ghost}
    (h : Inv c o s g) {l q : DiskLoc} {b bq : BtreeBucket} (hl : s.pages l = some b)
    (hq : s.pages q = some bq) (hb : Below s l q) (hne : q ≠ l) {u0 : _KeyNode}
    (hu0 : u0 ∈ bq.keys) {p : Nat} (hp : p ≤ b.keys.length)
    (hbefore : ∀ i k, i < p → b.keys.get? i = some k → k.ekey o < u0.ekey o)
    (hafter : ∀ i k, p ≤ i → b.keys.get? i = some k → u0.ekey o < k.ekey o) :
    ∃ ch cb, b.childForPos p = some ch ∧ ch ≠ DiskLoc.Null ∧ s.pages ch = some cb ∧
      g.rank ch < g.rank l ∧ Below s ch q := by
  rcases hb.cases with heq | ⟨b', p', ch, hl', hc, hn, hbelow⟩
  · exact absurd heq hne
  · rw [hl] at hl'; cases hl'
    obtain ⟨cb, hcb, _, hrk, hlo, hhi⟩ := (h.page l b hl).child p' ch hc hn
    obtain ⟨_, hblo, hbhi, _⟩ := hbelow.bounds h (o := o) (c := c)
    have hqp := h.page q bq hq
    have h1 : lowerAt o b (g.lo l) p' < ((u0.ekey o : EKey) : WithBot EKey) :=
      lt_of_le_of_lt (le_trans hlo hblo) (hqp.lo_lt u0 hu0)
    have h2 : ((u0.ekey o : EKey) : WithTop EKey) < upperAt o b (g.hi l) p' :=
      lt_of_lt_of_le (hqp.lt_hi u0 hu0) (le_trans hbhi hhi)
    have hp' := childForPos_eq_some_le hc
    have hpp : p' = p := by
      by_contra hcon
      rcases Nat.lt_or_gt_of_ne hcon with hlt | hgt
      · obtain ⟨k, hk⟩ := get?_some_of_lt b.keys p' (by omega)
        simp only [upperAt, hk] at h2
        exact absurd (lt_trans (WithTop.coe_lt_coe.mp h2) (hbefore p' k hlt hk)) (lt_irrefl _)
      · cases p' with
        | zero => omega
        | succ p'' =>
          obtain ⟨k, hk⟩ := get?_some_of_lt b.keys p'' (by omega)
          simp only [lowerAt, hk] at h1
          exact absurd (lt_trans (WithBot.coe_lt_coe.mp h1) (hafter p'' k (by omega) hk))
            (lt_irrefl _)
    subst hpp
    exact ⟨ch, cb, hc, hn, hcb, hrk, hbelow⟩

/-- Two positions of a well-formed tree that hold slots at the same place of
the index order are the same position. -/
theorem pos_unique {c : Layout} {o : Ordering} {s : State} {g : Ghost} (h : Inv c o s g)
    {x y : DiskLoc × Nat} {kx ky : _KeyNode} (hx : slotAt s x = some kx)
    (hy : slotAt s y = some ky) (he : kx.ekey o = ky.ekey o) : x = y := by
  by_contra hne
  obtain ⟨_, hsorted, hall, _⟩ := tree_walk (o := o) h (g.rank s.head + 1) (by omega)
  obtain ⟨bx, hbx, _, hgx⟩ := slotAt_mem hx
  obtain ⟨by', hby, _, hgy⟩ := slotAt_mem hy
  have hmx := hall x.1 bx x.2 hbx (List.get?_eq_some.mp hgx).1
  have hmy := hall y.1 by' y.2 hby (List.get?_eq_some.mp hgy).1
  have hsym : (inorder s (g.rank s.head + 1) s.head).Pairwise
      (fun a b => PosLt o s a b ∨ PosLt o s b a) := hsorted.imp (fun h => Or.inl h)
  have := hsym.forall (fun a b hab => hab.symm) hmx hmy hne
  rcases this with h1 | h1
  · exact absurd (he ▸ h1 kx ky hx hy) (lt_irrefl _)
  · exact absurd (he ▸ h1 ky kx hy hx) (lt_irrefl _)

end BtreeBucket
end mongo

namespace mongo
namespace BtreeBucket

/-- With duplicates allowed, inserting the entry of a used slot of the subtree
of a page raises `alreadyInIndex` and leaves the state as it was. -/
theorem bt_insert_present {c : Layout} {o : Ordering} {s : State} {g : Ghost} (h : Inv c o s g)
    {q : DiskLoc} {bq : BtreeBucket} (hq : s.pages q = some bq) {u0 : _KeyNode}
    (hu0 : u0 ∈ bq.keys) (hused : u0.isUsed = true) :
    ∀ (r : Nat) (l : DiskLoc) (b : BtreeBucket), s.pages l = some b → g.rank l ≤ r →
      Below s l q → ∀ fuel, 2 * r + 2 ≤ fuel → ∀ toplevel,
        bt_insert c o fuel s l u0.recordLoc u0.key true toplevel = (.error .alreadyInIndex, s) := by
  have hsz := h.sizes q bq hq
  have hk1 := hsz.key_pos u0 hu0
  have hk2 := hsz.key_le u0 hu0
  obtain ⟨i0, hi0⟩ := List.get?_of_mem hu0
  have hs0 : slotAt s (q, i0) = some u0 := by simp only [slotAt, hq]; exact hi0
  have hclear : u0.recordLoc.clearLow = u0.recordLoc := by
    have : u0.recordLoc.ofs % 2 ≠ 1 := by
      simpa [_KeyNode.isUsed, _KeyNode.isUnused] using hused
    have h0 : u0.recordLoc.ofs % 2 = 0 := by omega
    cases hr : u0.recordLoc with
    | mk a ofs =>
      rw [hr] at h0
      simp only at h0
      simp [DiskLoc.clearLow, h0]
  have ht : entryKey o u0.key u0.recordLoc = u0.ekey o := by
    simp only [_KeyNode.ekey, hclear]
  intro r
  induction r using Nat.strong_induction_on with
  | _ r ih =>
    intro l b hl hr hbelow fuel hfuel toplevel
    obtain ⟨f1, rfl⟩ : ∃ f1, fuel = f1 + 2 := ⟨fuel - 2, by omega⟩
    rw [bt_insert, if_neg (by omega)]
    rw [_insert, if_neg (by omega), if_neg (by omega)]
    simp only [hl]
    have hpage := h.page l b hl
    obtain ⟨found, p, hfind, hspec⟩ :=
      findWith_false o b u0.key u0.recordLoc (dupProbe (f1 + 1) s u0.key o u0.recordLoc)
        hpage.sorted
    have hfind' : find (f1 + 1) s b u0.key u0.recordLoc o (!true) = .ok (found, p) := hfind
    rw [hfind']
    simp only
    rw [ht] at hspec
    cases found with
    | true =>
      simp only [FindSpec, if_true] at hspec
      obtain ⟨k, hk, hek⟩ := hspec
      have hpos : (l, p) = (q, i0) :=
        pos_unique h (by simp only [slotAt, hl]; exact hk) hs0 hek
      have hlq : l = q := congrArg Prod.fst hpos
      have hpi : p = i0 := congrArg Prod.snd hpos
      subst hlq; subst hpi
      rw [hq] at hl; cases hl
      rw [hi0] at hk; cases hk
      have hnu : u0.isUnused = false := by
        simpa [_KeyNode.isUsed] using hused
      simp only [if_true, hi0, hnu, Bool.false_eq_true, if_false]
    | false =>
      simp only [FindSpec, Bool.false_eq_true, if_false] at hspec
      obtain ⟨hple, hbefore, hafter⟩ := hspec
      have hne : q ≠ l := by
        intro heq
        subst heq
        rw [hq] at hl; cases hl
        by_cases hip : i0 < p
        · exact absurd (hbefore i0 u0 hip hi0) (lt_irrefl _)
        · exact absurd (hafter i0 u0 (by omega) hi0) (lt_irrefl _)
      obtain ⟨ch, cb, hc, hn, hcb, hrk, hbc⟩ :=
        below_child_of_between h hl hq hbelow hne hu0 hple hbefore hafter
      have hnn : ch.isNull = false := (DiskLoc.isNull_false_iff _).mpr hn
      have hNull : DiskLoc.Null.isNull = true := by decide
      simp only [Bool.false_eq_true, if_false, hc, hnn, hNull, not_true_eq_false, or_self]
      exact ih (g.rank ch) (by omega) ch cb hcb (le_refl _) hbc f1 (by omega) false

/-- Without duplicates allowed, inserting a key for which the subtree of a page
holds a used slot with an equal key raises, and leaves the state as it was. `E`
holds of every error that can come up. -/
theorem bt_insert_dup {c : Layout} {o : Ordering} {s : State} {g : Ghost} (h : Inv c o s g)
    {q : DiskLoc} {bq : BtreeBucket} (hq : s.pages q = some bq) {u0 : _KeyNode}
    (hu0 : u0 ∈ bq.keys) (key : BSONObj) (recordLoc : DiskLoc)
    (hkey : key.woCompare u0.key o = 0) (hk1 : 0 < key.objsize) (hk2 : key.objsize ≤ KeyMax c)
    (E : Err → Prop) (F0 : Nat) (pe : Err)
    (hprobe : ∀ fuel, F0 ≤ fuel → dupProbe fuel s key o recordLoc () = .error pe) (hpe : E pe)
    (hue : ∀ l b M, s.pages l = some b → M ∈ b.keys → key.woCompare M.key o = 0 →
      M.isUnused = false →
      E (if M.recordLoc = recordLoc then Err.alreadyInIndex else Err.dupKey)) :
    ∀ (r : Nat) (l : DiskLoc) (b : BtreeBucket), s.pages l = some b → g.rank l ≤ r →
      Below s l q → ∀ fuel, F0 + 2 * r + 2 ≤ fuel → ∀ toplevel,
        ∃ e, bt_insert c o fuel s l recordLoc key false toplevel = (.error e, s) ∧ E e := by
  obtain ⟨i0, hi0⟩ := List.get?_of_mem hu0
  have hf0 : (u0.ekey o).fields = normElems o 1 key.elems :=
    ((woCompare_eq_iff o key u0.key).mp hkey).symm
  intro r
  induction r using Nat.strong_induction_on with
  | _ r ih =>
    intro l b hl hr hbelow fuel hfuel toplevel
    obtain ⟨f1, rfl⟩ : ∃ f1, fuel = f1 + 2 := ⟨fuel - 2, by omega⟩
    rw [bt_insert, if_neg (by omega)]
    rw [_insert, if_neg (by omega), if_neg (by omega)]
    simp only [hl]
    have hpage := h.page l b hl
    have hfd : find (f1 + 1) s b key recordLoc o (!false) =
        findWith b key recordLoc o true (dupProbe (f1 + 1) s key o recordLoc) := rfl
    rw [hfd]
    by_cases hex : ∃ (m0 : Nat) (M0 : _KeyNode), b.keys.get? m0 = some M0 ∧
        key.woCompare M0.key o = 0
    · obtain ⟨e, he, hE⟩ := findWith_raises o b key recordLoc
        (dupProbe (f1 + 1) s key o recordLoc) E pe (hprobe (f1 + 1) (by omega)) hpe hpage.sorted
        (fun m M hM hk hu => hue l b M hl (List.get?_mem hM) hk hu) hex
      rw [he]
      exact ⟨e, rfl, hE⟩
    · have hno : ∀ m M, b.keys.get? m = some M → key.woCompare M.key o ≠ 0 :=
        fun m M hM hk => hex ⟨m, M, hM, hk⟩
      obtain ⟨p, hfind, hspec⟩ := findWith_of_no_equal_key o b key recordLoc true
        (dupProbe (f1 + 1) s key o recordLoc) hpage.sorted hno
      rw [hfind]
      simp only [FindSpec, Bool.false_eq_true, if_false] at hspec
      obtain ⟨hple, hbefore, hafter⟩ := hspec
      -- the position of the target among the slots is decided by the keys alone
      have hfld : ∀ m M, b.keys.get? m = some M →
          (M.ekey o).fields ≠ normElems o 1 key.elems := by
        intro m M hM heq
        exact hno m M hM ((woCompare_eq_iff o key M.key).mpr heq.symm)
      have hbefore' : ∀ i k, i < p → b.keys.get? i = some k → k.ekey o < u0.ekey o := by
        intro i k hi hk
        have := hbefore i k hi hk
        rw [EKey.lt_iff] at this ⊢
        rcases this with h1 | ⟨h1, _⟩
        · left; rw [hf0]; exact h1
        · exact absurd h1 (hfld i k hk)
      have hafter' : ∀ i k, p ≤ i → b.keys.get? i = some k → u0.ekey o < k.ekey o := by
        intro i k hi hk
        have := hafter i k hi hk
        rw [EKey.lt_iff] at this ⊢
        rcases this with h1 | ⟨h1, _⟩
        · left; rw [hf0]; exact h1
        · exact absurd h1.symm (hfld i k hk)
      have hne : q ≠ l := by
        intro heq
        subst heq
        rw [hq] at hl; cases hl
        exact hno i0 u0 hi0 hkey
      obtain ⟨ch, cb, hc, hn, hcb, hrk, hbc⟩ :=
        below_child_of_between h hl hq hbelow hne hu0 hple hbefore' hafter'
      have hnn : ch.isNull = false := (DiskLoc.isNull_false_iff _).mpr hn
      have hNull : DiskLoc.Null.isNull = true := by decide
      simp only [Bool.false_eq_true, if_false, hc, hnn, hNull, not_true_eq_false, or_self]
      exact ih (g.rank ch) (by omega) ch cb hcb (le_refl _) hbc f1 (by omega) false

end BtreeBucket
end mongo

namespace mongo
namespace BtreeBucket

/-! ## Trees of a single page are well formed -/

theorem slotLt_iff (o : Ordering) (a b : _KeyNode) :
    slotLt o a b = true ↔ a.ekey o < b.ekey o := by
  have h := (find_comparison_sign o a.key a.recordLoc.clearLow b).1
  simp only [slotLt, decide_eq_true_eq]
  exact h

theorem ascendingSlots_sorted (o : Ordering) :
    ∀ ks : List _KeyNode, ascendingSlots o ks = true → SortedSlots o ks
  | [], _ => List.Pairwise.nil
  | [a], _ => List.pairwise_singleton _ a
  | a :: b :: rest, h => by
    simp only [ascendingSlots, Bool.and_eq_true] at h
    have ih := ascendingSlots_sorted o (b :: rest) h.2
    have hab := (slotLt_iff o a b).mp h.1
    unfold SortedSlots at ih ⊢
    refine List.Pairwise.cons ?_ ih
    intro x hx
    rcases List.mem_cons.mp hx with rfl | hx
    · exact hab
    · exact lt_trans hab ((List.pairwise_cons.mp ih).1 x hx)

/-- A page that passes `leafCheck` is a well-formed tree by itself. -/
theorem wellFormed_singlePage (c : Layout) (o : Ordering) (b : BtreeBucket)
    (hc : leafCheck c o b = true) (hsz : 0 < c.BucketSize) :
    WellFormed c o (singlePage c b) := by
  simp only [leafCheck, Bool.and_eq_true, decide_eq_true_eq, List.all_eq_true, Bool.or_eq_true,
    Bool.not_eq_true', leafSlotCheck] at hc
  obtain ⟨⟨⟨⟨⟨⟨⟨hpar, hnc⟩, hslots⟩, hasc⟩, hacc⟩, hemp⟩, hbytes⟩, hpk⟩ := hc
  have hpage : ∀ l b', (singlePage c b).pages l = some b' → l = ⟨0, 0⟩ ∧ b' = b := by
    intro l b' hl
    simp only [singlePage] at hl
    by_cases h0 : l = ⟨0, 0⟩
    · rw [if_pos h0] at hl
      exact ⟨h0, (Option.some.inj hl).symm⟩
    · rw [if_neg h0] at hl
      cases hl
  have hchild : ∀ p ch, b.childForPos p = some ch → ch = DiskLoc.Null := by
    intro p ch hp
    rcases childForPos_cases hp with ⟨_, rfl⟩ | ⟨k, hk, rfl⟩
    · exact hnc
    · exact (hslots k (List.get?_mem hk)).1.1.1.1
  refine ⟨⟨fun _ => 0, fun _ => ⊥, fun _ => ⊤⟩, ?_⟩
  refine
    { null_unmapped := by simp [singlePage, DiskLoc.Null]
      head := ⟨b, by simp [singlePage], hpar, fun _ => hnc⟩
      page := ?_
      sizes := ?_
      link := ?_
      rank_le := fun _ _ _ => le_refl _
      fresh := ?_ }
  · intro l b' hl
    obtain ⟨rfl, rfl⟩ := hpage l b' hl
    refine
      { sorted := ascendingSlots_sorted o _ hasc
        lo_lt := fun k _ => WithBot.bot_lt_coe _
        lt_hi := fun k _ => WithTop.coe_lt_top _
        child := fun p ch hp hne => absurd (hchild p ch hp) hne
        child_inj := fun p _ ch hp _ hne => absurd (hchild p ch hp) hne
        rl_valid := fun k hk => ⟨(hslots k hk).1.1.1.2, (hslots k hk).1.1.2⟩ }
  · intro l b' hl
    obtain ⟨rfl, rfl⟩ := hpage l b' hl
    refine
      { accounting := hacc
        empty_nonneg := hemp
        bytes_le := hbytes
        bytes_eq := ?_
        key_pos := fun k hk => (hslots k hk).1.2
        key_le := fun k hk => (hslots k hk).2 }
    intro hp
    rcases hpk with h | h
    · rw [hp] at h; cases h
    · exact h
  · intro l b' hl hne
    exact absurd (hpage l b' hl).1 hne
  · intro l b' hl
    obtain ⟨rfl, rfl⟩ := hpage l b' hl
    exact ⟨rfl, le_refl _, hsz⟩

end BtreeBucket
end mongo

namespace mongo
namespace BtreeBucket

/-! ## Re-insertion and the unique constraint -/

theorem isUnused_eq_false_of_isUsed {k : _KeyNode} (h : k.isUnused = false) : k.isUsed = true := by
  simpa [_KeyNode.isUsed, _KeyNode.isUnused] using h

/-- C7 (amended): in a well-formed tree, `bt_insert` of a `(key, recordLoc)`
held in a used slot raises `AlreadyInIndex` and changes nothing when
`dupsAllowed` is true; when `dupsAllowed` is false it changes nothing and raises
`AlreadyInIndex` or `DuplicateKey`, and it is `AlreadyInIndex` when every used
slot with an equal key has that record locator. -/
theorem bt_insert_same_entry_raises (c : Layout) (o : Ordering) (s : State)
    (hwf : WellFormed c o s) (l : DiskLoc) (b : BtreeBucket) (u : _KeyNode)
    (hl : s.pages l = some b) (hu : u ∈ b.keys) (hused : u.isUsed = true) :
    ∃ F0, ∀ fuel, F0 ≤ fuel → ∀ toplevel,
      bt_insert c o fuel s s.head u.recordLoc u.key true toplevel
        = (.error .alreadyInIndex, s) ∧
      (∃ e, bt_insert c o fuel s s.head u.recordLoc u.key false toplevel = (.error e, s) ∧
        (e = .alreadyInIndex ∨ e = .dupKey)) ∧
      ((∀ l1 b1 M, s.pages l1 = some b1 → M ∈ b1.keys → M.isUsed = true →
          u.key.woCompare M.key o = 0 → M.recordLoc = u.recordLoc) →
        bt_insert c o fuel s s.head u.recordLoc u.key false toplevel
          = (.error .alreadyInIndex, s)) := by
  obtain ⟨g, h⟩ := hwf
  obtain ⟨hb, hhead, _, _⟩ := h.head
  have hself : u.key.woCompare u.key o = 0 := (woCompare_eq_iff o u.key u.key).mpr rfl
  have hk1 := (h.sizes l b hl).key_pos u hu
  have hk2 := (h.sizes l b hl).key_le u hu
  obtain ⟨F0, _, hyes⟩ := dupProbe_spec h u.key (o := o)
  obtain ⟨l2, b2, u2, hl2, hu2, hused2, hkey2, hprobe⟩ := hyes ⟨l, b, u, hl, hu, hused, hself⟩
  refine ⟨F0 + 2 * g.rank s.head + 2, ?_⟩
  intro fuel hfuel toplevel
  refine ⟨?_, ?_, ?_⟩
  · exact bt_insert_present h hl hu hused (g.rank s.head) s.head hb hhead (le_refl _)
      (h.reachable hl) fuel (by omega) toplevel
  · exact bt_insert_dup h hl hu u.key u.recordLoc hself hk1 hk2
      (fun e => e = .alreadyInIndex ∨ e = .dupKey) F0 _
      (fun fuel hf => hprobe fuel hf u.recordLoc)
      (by by_cases hr : u2.recordLoc = u.recordLoc <;> simp [hr])
      (by intro l1 b1 M _ _ _ _
          by_cases hr : M.recordLoc = u.recordLoc <;> simp [hr])
      (g.rank s.head) s.head hb hhead (le_refl _) (h.reachable hl) fuel hfuel toplevel
  · intro hall
    obtain ⟨e, he, rfl⟩ := bt_insert_dup h hl hu u.key u.recordLoc hself hk1 hk2
      (fun e => e = .alreadyInIndex) F0 _
      (fun fuel hf => hprobe fuel hf u.recordLoc)
      (by simp [hall l2 b2 u2 hl2 hu2 hused2 hkey2])
      (by intro l1 b1 M hl1 hM hk hun
          simp [hall l1 b1 M hl1 hM (isUnused_eq_false_of_isUsed hun) hk])
      (g.rank s.head) s.head hb hhead (le_refl _) (h.reachable hl) fuel hfuel toplevel
    exact he

/-- The raising descent for a record locator that no used slot with an equal key
has: `find` on every page with an equal key, and `bt_insert` from the root,
raise `DuplicateKey`. -/
theorem dupKey_core {c : Layout} {o : Ordering} {s : State} {g : Ghost} (h : Inv c o s g)
    {l : DiskLoc} {b : BtreeBucket} {u : _KeyNode}
    (hl : s.pages l = some b) (hu : u ∈ b.keys) (hused : u.isUsed = true) (r2 : DiskLoc)
    (hno : ∀ l1 b1 M, s.pages l1 = some b1 → M ∈ b1.keys → M.isUsed = true →
      u.key.woCompare M.key o = 0 → M.recordLoc ≠ r2) :
    ∃ F0, ∀ fuel, F0 ≤ fuel →
      dupProbe fuel s u.key o r2 () = .error .dupKey ∧
      (∀ l1 b1 M, s.pages l1 = some b1 → M ∈ b1.keys → u.key.woCompare M.key o = 0 →
        find fuel s b1 u.key r2 o true = .error .dupKey) ∧
      ∀ toplevel, bt_insert c o fuel s s.head r2 u.key false toplevel = (.error .dupKey, s) := by
  obtain ⟨hb, hhead, _, _⟩ := h.head
  have hself : u.key.woCompare u.key o = 0 := (woCompare_eq_iff o u.key u.key).mpr rfl
  have hk1 := (h.sizes l b hl).key_pos u hu
  have hk2 := (h.sizes l b hl).key_le u hu
  obtain ⟨F0, _, hyes⟩ := dupProbe_spec h u.key (o := o)
  obtain ⟨l2, b2, u2, hl2, hu2, hused2, hkey2, hprobe⟩ := hyes ⟨l, b, u, hl, hu, hused, hself⟩
  have hpe : (if u2.recordLoc ≠ r2 then Err.dupKey else Err.alreadyInIndex) = Err.dupKey := by
    rw [if_pos (hno l2 b2 u2 hl2 hu2 hused2 hkey2)]
  refine ⟨F0 + 2 * g.rank s.head + 2, ?_⟩
  intro fuel hfuel
  have hp : dupProbe fuel s u.key o r2 () = .error .dupKey := by
    rw [hprobe fuel (by omega) r2, hpe]
  refine ⟨hp, ?_, ?_⟩
  · intro l1 b1 M hl1 hM hk
    obtain ⟨m, hm⟩ := List.get?_of_mem hM
    obtain ⟨e, he, rfl⟩ := findWith_raises o b1 u.key r2 (dupProbe fuel s u.key o r2)
      (fun e => e = .dupKey) _ hp rfl (h.page l1 b1 hl1).sorted
      (by intro m1 M1 hm1 hk1 hun
          rw [if_neg (hno l1 b1 M1 hl1 (List.get?_mem hm1) (isUnused_eq_false_of_isUsed hun) hk1)])
      ⟨m, M, hm, hk⟩
    exact he
  · intro toplevel
    obtain ⟨e, he, rfl⟩ := bt_insert_dup h hl hu u.key r2 hself hk1 hk2
      (fun e => e = .dupKey) F0 _
      (fun fuel hf => hprobe fuel hf r2) hpe
      (by intro l1 b1 M hl1 hM hk hun
          rw [if_neg (hno l1 b1 M hl1 hM (isUnused_eq_false_of_isUsed hun) hk)])
      (g.rank s.head) s.head hb hhead (le_refl _) (h.reachable hl) fuel hfuel toplevel
    exact he

/-- C8 (amended): with `dupsAllowed` false, in a well-formed tree that holds a
used entry `(key, r1)`, `bt_insert(key, r2)` raises `DuplicateKey` and leaves the
tree unchanged for every `r2` that no used slot with an equal key has as its
record locator. -/
theorem bt_insert_unique_raises (c : Layout) (o : Ordering) (s : State)
    (hwf : WellFormed c o s) (l : DiskLoc) (b : BtreeBucket) (u : _KeyNode)
    (hl : s.pages l = some b) (hu : u ∈ b.keys) (hused : u.isUsed = true) (r2 : DiskLoc)
    (hno : ∀ l1 b1 M, s.pages l1 = some b1 → M ∈ b1.keys → M.isUsed = true →
      u.key.woCompare M.key o = 0 → M.recordLoc ≠ r2) :
    ∃ F0, ∀ fuel, F0 ≤ fuel → ∀ toplevel,
      bt_insert c o fuel s s.head r2 u.key false toplevel = (.error .dupKey, s) := by
  obtain ⟨g, h⟩ := hwf
  obtain ⟨F0, hF⟩ := dupKey_core h hl hu hused r2 hno
  exact ⟨F0, fun fuel hf => (hF fuel hf).2.2⟩

/-- C9 (amended): with `dupsAllowed` false, in a well-formed tree that holds a
used entry with the key, and for a record locator `C` that no used slot with an
equal key has, the recheck from the root raises `DuplicateKey`, so `find` raises
it on every page that has a slot with an equal key, used or unused, whichever
slot the binary search meets first, and so does `bt_insert(key, C)`. -/
theorem find_raises_past_unused (c : Layout) (o : Ordering) (s : State)
    (hwf : WellFormed c o s) (l : DiskLoc) (b : BtreeBucket) (u : _KeyNode)
    (hl : s.pages l = some b) (hu : u ∈ b.keys) (hused : u.isUsed = true) (C : DiskLoc)
    (hno : ∀ l1 b1 M, s.pages l1 = some b1 → M ∈ b1.keys → M.isUsed = true →
      u.key.woCompare M.key o = 0 → M.recordLoc ≠ C) :
    ∃ F0, ∀ fuel, F0 ≤ fuel →
      dupProbe fuel s u.key o C () = .error .dupKey ∧
      (∀ l1 b1 M, s.pages l1 = some b1 → M ∈ b1.keys → u.key.woCompare M.key o = 0 →
        find fuel s b1 u.key C o true = .error .dupKey) ∧
      bt_insert c o fuel s s.head C u.key false true = (.error .dupKey, s) := by
  obtain ⟨g, h⟩ := hwf
  obtain ⟨F0, hF⟩ := dupKey_core h hl hu hused C hno
  exact ⟨F0, fun fuel hf => ⟨(hF fuel hf).1, (hF fuel hf).2.1, (hF fuel hf).2.2 true⟩⟩

end BtreeBucket
end mongo

namespace mongo
namespace BtreeBucket

theorem singlePage_pages {c : Layout} {b b1 : BtreeBucket} {l : DiskLoc}
    (h : (singlePage c b).pages l = some b1) : b1 = b := by
  simp only [singlePage] at h
  by_cases h0 : l = ⟨0, 0⟩
  · rw [if_pos h0] at h
    exact (Option.some.inj h).symm
  · rw [if_neg h0] at h
    cases h

theorem bt_insert_same_entry_raises_witness :
    WellFormed smallLayout ascending (singlePage smallLayout oneEntryPage) ∧
    ∃ F0, ∀ fuel, F0 ≤ fuel → ∀ toplevel,
      bt_insert smallLayout ascending fuel (singlePage smallLayout oneEntryPage) ⟨0, 0⟩ ⟨1, 10⟩
        (sampleKey 9 10) true toplevel
        = (.error .alreadyInIndex, singlePage smallLayout oneEntryPage) ∧
      (∃ e, bt_insert smallLayout ascending fuel (singlePage smallLayout oneEntryPage) ⟨0, 0⟩
        ⟨1, 10⟩ (sampleKey 9 10) false toplevel
          = (.error e, singlePage smallLayout oneEntryPage) ∧
        (e = .alreadyInIndex ∨ e = .dupKey)) ∧
      ((∀ l1 b1 M, (singlePage smallLayout oneEntryPage).pages l1 = some b1 → M ∈ b1.keys →
          M.isUsed = true → (sampleKey 9 10).woCompare M.key ascending = 0 →
          M.recordLoc = ⟨1, 10⟩) →
        bt_insert smallLayout ascending fuel (singlePage smallLayout oneEntryPage) ⟨0, 0⟩
          ⟨1, 10⟩ (sampleKey 9 10) false toplevel
          = (.error .alreadyInIndex, singlePage smallLayout oneEntryPage)) :=
  ⟨wellFormed_singlePage _ _ _ (by decide) (by decide),
   bt_insert_same_entry_raises smallLayout ascending (singlePage smallLayout oneEntryPage)
     (wellFormed_singlePage _ _ _ (by decide) (by decide)) ⟨0, 0⟩ oneEntryPage
     (leafSlot 9 10 10) (by rfl) (List.mem_singleton.mpr rfl) (by decide)⟩

/-- C7 counterexample: the tree built by inserting the key 9 at `(1,10)` and at
`(1,20)` with duplicates allowed holds `(9, (1,20))` in a used slot, and
`bt_insert` of that entry with `dupsAllowed` false raises `DuplicateKey`, not
`AlreadyInIndex`. -/
theorem bt_insert_same_entry_counterexample :
    (∃ b u, twoDups.pages twoDups.head = some b ∧ b.keys.get? 1 = some u ∧
      u.isUsed = true ∧ u.recordLoc = ⟨1, 20⟩ ∧ u.key = sampleKey 9 10) ∧
    (bt_insert smallLayout ascending 20 twoDups twoDups.head ⟨1, 20⟩ (sampleKey 9 10)
      false true).1 = .error .dupKey :=
  ⟨⟨_, _, by rfl, by rfl, by rfl, by rfl, by rfl⟩, by rfl⟩

theorem bt_insert_unique_raises_witness :
    WellFormed smallLayout ascending (singlePage smallLayout oneEntryPage) ∧
    ∃ F0, ∀ fuel, F0 ≤ fuel → ∀ toplevel,
      bt_insert smallLayout ascending fuel (singlePage smallLayout oneEntryPage) ⟨0, 0⟩ ⟨1, 20⟩
        (sampleKey 9 10) false toplevel
        = (.error .dupKey, singlePage smallLayout oneEntryPage) :=
  ⟨wellFormed_singlePage _ _ _ (by decide) (by decide),
   bt_insert_unique_raises smallLayout ascending (singlePage smallLayout oneEntryPage)
     (wellFormed_singlePage _ _ _ (by decide) (by decide)) ⟨0, 0⟩ oneEntryPage
     (leafSlot 9 10 10) (by rfl) (List.mem_singleton.mpr rfl) (by decide) ⟨1, 20⟩
     (by
       intro l1 b1 M hl1 hM _ _
       rw [singlePage_pages hl1] at hM
       rw [List.mem_singleton.mp hM]
       decide)⟩

/-- C8 counterexample: the tree built by inserting the key 9 at `(1,10)` and at
`(1,20)` with duplicates allowed holds the used entry `(9, (1,20))`, and
`bt_insert` of the key at the other record `(1,10)` with `dupsAllowed` false
raises `AlreadyInIndex`, not `DuplicateKey`. -/
theorem bt_insert_unique_counterexample :
    (∃ b u, twoDups.pages twoDups.head = some b ∧ b.keys.get? 1 = some u ∧
      u.isUsed = true ∧ u.recordLoc = ⟨1, 20⟩ ∧ u.key = sampleKey 9 10) ∧
    (⟨1, 10⟩ : DiskLoc) ≠ ⟨1, 20⟩ ∧
    (bt_insert smallLayout ascending 20 twoDups twoDups.head ⟨1, 10⟩ (sampleKey 9 10)
      false true).1 = .error .alreadyInIndex :=
  ⟨⟨_, _, by rfl, by rfl, by rfl, by rfl, by rfl⟩, by decide, by rfl⟩

theorem find_raises_past_unused_witness :
    WellFormed smallLayout ascending (singlePage smallLayout aTestPage) ∧
    ∃ F0, ∀ fuel, F0 ≤ fuel →
      dupProbe fuel (singlePage smallLayout aTestPage) (sampleKey 9 10) ascending ⟨1, 40⟩ ()
        = .error .dupKey ∧
      (∀ l1 b1 M, (singlePage smallLayout aTestPage).pages l1 = some b1 → M ∈ b1.keys →
        (sampleKey 9 10).woCompare M.key ascending = 0 →
        find fuel (singlePage smallLayout aTestPage) b1 (sampleKey 9 10) ⟨1, 40⟩ ascending true
          = .error .dupKey) ∧
      bt_insert smallLayout ascending fuel (singlePage smallLayout aTestPage) ⟨0, 0⟩ ⟨1, 40⟩
        (sampleKey 9 10) false true = (.error .dupKey, singlePage smallLayout aTestPage) :=
  ⟨wellFormed_singlePage _ _ _ (by decide) (by decide),
   find_raises_past_unused smallLayout ascending (singlePage smallLayout aTestPage)
     (wellFormed_singlePage _ _ _ (by decide) (by decide)) ⟨0, 0⟩ aTestPage
     (leafSlot 9 10 20) (by rfl) (List.mem_cons_self _ _) (by decide) ⟨1, 40⟩
     (by
       intro l1 b1 M hl1 hM _ _
       rw [singlePage_pages hl1] at hM
       simp only [aTestPage, leafPage, List.mem_cons, List.mem_singleton, List.not_mem_nil,
         or_false] at hM
       rcases hM with rfl | rfl | rfl | rfl <;> decide)⟩

/-- C9 counterexample: in the tree built by six insertions of the key 9 with
duplicates allowed and an `unindex` of `(1,8)`, the only slot of the root is an
unused slot with the key 9, and the used entries `(9, (1,2))` and `(9, (1,4))`
are in its left child; `bt_insert(9, (1,2))` with `dupsAllowed` false meets the
unused slot first and raises `AlreadyInIndex`, not `DuplicateKey`, although the
used entry at `(1,4)` has the same key and another record locator. -/
theorem find_raises_past_unused_counterexample :
    (∃ r t, tombstoneTree.pages tombstoneTree.head = some r ∧ r.keys.length = 1 ∧
      r.keys.get? 0 = some t ∧ t.isUnused = true ∧ t.key = sampleKey 9 10) ∧
    (∃ b u, tombstoneTree.pages ⟨0, 0⟩ = some b ∧ b.keys.get? 1 = some u ∧
      u.isUsed = true ∧ u.recordLoc = ⟨1, 4⟩ ∧ u.key = sampleKey 9 10) ∧
    (bt_insert smallLayout ascending 20 tombstoneTree tombstoneTree.head ⟨1, 2⟩ (sampleKey 9 10)
      false true).1 = .error .alreadyInIndex :=
  ⟨⟨_, _, by rfl, by rfl, by rfl, by rfl, by rfl⟩, ⟨_, _, by rfl, by rfl, by rfl, by rfl, by rfl⟩,
    by rfl⟩

end BtreeBucket
end mongo

namespace mongo
namespace BtreeBucket

/-! ## The invariant without positions -/

theorem isChild_iff (b : BtreeBucket) (l : DiskLoc) :
    IsChild b l ↔ ∃ p, b.childForPos p = some l := by
  constructor
  · rintro (h | ⟨k, hk, h⟩)
    · exact ⟨b.keys.length, by rw [childForPos_length, h]⟩
    · obtain ⟨p, hp⟩ := List.get?_of_mem hk
      exact ⟨p, by rw [childForPos_of_get? hp, h]⟩
  · rintro ⟨p, hp⟩
    rcases childForPos_cases hp with ⟨_, rfl⟩ | ⟨k, hk, rfl⟩
    · exact Or.inl rfl
    · exact Or.inr ⟨k, List.get?_mem hk, rfl⟩

theorem SortedSlots.index_lt {o : Ordering} {ks : List _KeyNode} (h : SortedSlots o ks)
    {i j : Nat} {a b : _KeyNode} (ha : ks.get? i = some a) (hb : ks.get? j = some b)
    (hlt : a.ekey o < b.ekey o) : i < j := by
  by_contra hcon
  rcases Nat.lt_or_ge j i with hji | hji
  · exact lt_asymm hlt (h.get?_lt hji hb ha)
  · have : i = j := by omega
    subst this
    rw [ha] at hb
    cases hb
    exact lt_irrefl _ hlt

theorem upperAt_of_get? (o : Ordering) (b : BtreeBucket) (hi : WithTop EKey) {p : Nat}
    {k : _KeyNode} (hk : b.keys.get? p = some k) :
    upperAt o b hi p = ((k.ekey o : EKey) : WithTop EKey) := by
  unfold upperAt
  rw [hk]

theorem upperAt_length (o : Ordering) (b : BtreeBucket) (hi : WithTop EKey) :
    upperAt o b hi b.keys.length = hi := by
  unfold upperAt
  rw [List.get?_eq_none.mpr (le_refl _)]

theorem PagePF.of_pageOK {o : Ordering} {s : State} {g : Ghost} {l : DiskLoc}
    {b : BtreeBucket} (h : PageOK o s g l b) : PagePF o s g l b := by
  refine
    { sorted := h.sorted
      lo_lt := h.lo_lt
      lt_hi := h.lt_hi
      rl_valid := h.rl_valid
      slot_child := ?_
      next_child := ?_ }
  · intro k hk hne
    obtain ⟨p, hp⟩ := List.get?_of_mem hk
    have hplt := (List.get?_eq_some.mp hp).1
    obtain ⟨cb, hcb, hpar, hrank, hlo, hhi⟩ := h.child p _ (childForPos_of_get? hp) hne
    refine ⟨⟨cb, hcb, hpar⟩, hrank, le_trans (h.lo_le_lowerAt p) hlo, ?_, ?_⟩
    · intro k1 hk1 hlt
      obtain ⟨i, hi⟩ := List.get?_of_mem hk1
      have hip := h.sorted.index_lt hi hp hlt
      exact le_trans (lowerAt_le_of_lt o b (g.lo l) h.sorted hip (le_of_lt hplt) hi) hlo
    · rw [upperAt_of_get? o b _ hp] at hhi
      exact hhi
  · intro hne
    obtain ⟨cb, hcb, hpar, hrank, hlo, hhi⟩ :=
      h.child b.keys.length _ (childForPos_length b) hne
    refine ⟨⟨cb, hcb, hpar⟩, hrank, le_trans (h.lo_le_lowerAt _) hlo, ?_, ?_⟩
    · intro k1 hk1
      obtain ⟨i, hi⟩ := List.get?_of_mem hk1
      have hilt := (List.get?_eq_some.mp hi).1
      exact le_trans (lowerAt_le_of_lt o b (g.lo l) h.sorted hilt (le_refl _) hi) hlo
    · exact le_trans hhi (h.upperAt_le_hi _)

/-- The bounds that a child link gets from `PagePF`, by position. -/
theorem PagePF.child_at {o : Ordering} {s : State} {g : Ghost} {l : DiskLoc}
    {b : BtreeBucket} (h : PagePF o s g l b) {p : Nat} {ch : DiskLoc}
    (hc : b.childForPos p = some ch) (hne : ch ≠ DiskLoc.Null) :
    ∃ cb, s.pages ch = some cb ∧ cb.parent = l ∧ g.rank ch < g.rank l ∧
      lowerAt o b (g.lo l) p ≤ g.lo ch ∧ g.hi ch ≤ upperAt o b (g.hi l) p := by
  rcases childForPos_cases hc with ⟨hp, rfl⟩ | ⟨k, hk, rfl⟩
  · obtain ⟨⟨cb, hcb, hpar⟩, hrank, hlo, hall, hhi⟩ := h.next_child hne
    refine ⟨cb, hcb, hpar, hrank, ?_, ?_⟩
    · subst hp
      cases hn : b.keys.length with
      | zero => simpa [lowerAt] using hlo
      | succ q =>
        obtain ⟨k1, hk1⟩ := get?_some_of_lt b.keys q (by omega)
        simp only [lowerAt, hk1]
        exact hall k1 (List.get?_mem hk1)
    · subst hp
      rw [upperAt_length]
      exact hhi
  · have hkm := List.get?_mem hk
    obtain ⟨⟨cb, hcb, hpar⟩, hrank, hlo, hall, hhi⟩ := h.slot_child k hkm hne
    refine ⟨cb, hcb, hpar, hrank, ?_, ?_⟩
    · cases p with
      | zero => simpa [lowerAt] using hlo
      | succ q =>
        have hplt := (List.get?_eq_some.mp hk).1
        obtain ⟨k1, hk1⟩ := get?_some_of_lt b.keys q (by omega)
        simp only [lowerAt, hk1]
        exact hall k1 (List.get?_mem hk1) (h.sorted.get?_lt (Nat.lt_succ_self q) hk1 hk)
    · rw [upperAt_of_get? o b _ hk]
      exact hhi

/-- Two child links of a page are apart when each child has a slot of its own. -/
theorem PagePF.child_lt {o : Ordering} {s : State} {g : Ghost} {l : DiskLoc}
    {b : BtreeBucket} (h : PagePF o s g l b)
    (hne : ∀ ch cb, s.pages ch = some cb → cb.parent = l →
      ∃ k ∈ cb.keys, g.lo ch < ((k.ekey o : EKey) : WithBot EKey) ∧
        ((k.ekey o : EKey) : WithTop EKey) < g.hi ch)
    {p q : Nat} {ch : DiskLoc} (hp : b.childForPos p = some ch) (hq : b.childForPos q = some ch)
    (hn : ch ≠ DiskLoc.Null) : ¬ p < q := by
  intro hpq
  have hqle := childForPos_eq_some_le hq
  obtain ⟨k, hk⟩ := get?_some_of_lt b.keys p (by omega)
  obtain ⟨cb, hcb, hpar, _, _, hhi⟩ := h.child_at hp hn
  obtain ⟨_, _, _, _, hlo, _⟩ := h.child_at hq hn
  obtain ⟨kk, _, h1, h2⟩ := hne ch cb hcb hpar
  have hup : upperAt o b (g.hi l) p = ((k.ekey o : EKey) : WithTop EKey) :=
    upperAt_of_get? o b _ hk
  have hlow : ((k.ekey o : EKey) : WithBot EKey) ≤ lowerAt o b (g.lo l) q :=
    lowerAt_le_of_lt o b (g.lo l) h.sorted hpq hqle hk
  have ha : kk.ekey o < k.ekey o := by
    have := lt_of_lt_of_le h2 (hup ▸ hhi)
    exact WithTop.coe_lt_coe.mp this
  have hb : k.ekey o < kk.ekey o := by
    have := lt_of_le_of_lt (le_trans hlow hlo) h1
    exact WithBot.coe_lt_coe.mp this
  exact lt_asymm ha hb

theorem PageOK.of_pagePF {o : Ordering} {s : State} {g : Ghost} {l : DiskLoc}
    {b : BtreeBucket} (h : PagePF o s g l b)
    (hne : ∀ ch cb, s.pages ch = some cb → cb.parent = l →
      ∃ k ∈ cb.keys, g.lo ch < ((k.ekey o : EKey) : WithBot EKey) ∧
        ((k.ekey o : EKey) : WithTop EKey) < g.hi ch) :
    PageOK o s g l b := by
  refine
    { sorted := h.sorted
      lo_lt := h.lo_lt
      lt_hi := h.lt_hi
      rl_valid := h.rl_valid
      child := fun p ch hc hn => h.child_at hc hn
      child_inj := ?_ }
  intro p q ch hp hq hn
  rcases lt_trichotomy p q with hlt | heq | hgt
  · exact absurd hlt (h.child_lt hne hp hq hn)
  · exact heq
  · exact absurd hgt (h.child_lt hne hq hp hn)

theorem GInv.ne_null {c : Layout} {o : Ordering} {s : State} {g : Ghost} {fl : Set DiskLoc}
    (h : GInv c o s g fl) {l : DiskLoc} {b : BtreeBucket} (hl : s.pages l = some b) :
    l ≠ DiskLoc.Null := by
  rintro rfl
  rw [h.null_unmapped] at hl
  cases hl

/-- A page whose parent link is a mapped page is not the root. -/
theorem GInv.ne_head_of_parent {c : Layout} {o : Ordering} {s : State} {g : Ghost}
    {fl : Set DiskLoc} (h : GInv c o s g fl) {l p : DiskLoc} {b pb : BtreeBucket}
    (hl : s.pages l = some b) (hpar : b.parent = p) (hp : s.pages p = some pb) :
    l ≠ s.head := by
  rintro rfl
  obtain ⟨hb, hhb, hnull, _⟩ := h.head
  rw [hl] at hhb
  cases hhb
  rw [hnull] at hpar
  exact h.ne_null hp hpar.symm

/-- A page that points back to a mapped page has a slot inside its interval. -/
theorem GInv.child_has_key {c : Layout} {o : Ordering} {s : State} {g : Ghost}
    {fl : Set DiskLoc} (h : GInv c o s g fl) {l : DiskLoc} {b : BtreeBucket}
    (hl : s.pages l = some b) :
    ∀ ch cb, s.pages ch = some cb → cb.parent = l →
      ∃ k ∈ cb.keys, g.lo ch < ((k.ekey o : EKey) : WithBot EKey) ∧
        ((k.ekey o : EKey) : WithTop EKey) < g.hi ch := by
  intro ch cb hcb hpar
  have hnh := h.ne_head_of_parent hcb hpar hl
  have hne := h.nonempty ch cb hcb hnh
  obtain ⟨k, hk⟩ := List.exists_mem_of_ne_nil _ hne
  exact ⟨k, hk, (h.page ch cb hcb).lo_lt k hk, (h.page ch cb hcb).lt_hi k hk⟩

theorem GInv.of_inv {c : Layout} {o : Ordering} {s : State} {g : Ghost} (h : Inv c o s g) :
    GInv c o s g ∅ :=
  { null_unmapped := h.null_unmapped
    head := h.head
    page := fun l b hl => PagePF.of_pageOK (h.page l b hl)
    sizes := h.sizes
    nonempty := fun l b hl hne => (h.link l b hl hne).1
    link := fun l b hl hne _ => by
      obtain ⟨_, pb, p, hpb, hp⟩ := h.link l b hl hne
      exact ⟨pb, hpb, (isChild_iff pb l).mpr ⟨p, hp⟩⟩
    float := fun r hr => absurd hr (Set.not_mem_empty r)
    rank_le := h.rank_le
    fresh := h.fresh }

theorem GInv.to_inv {c : Layout} {o : Ordering} {s : State} {g : Ghost}
    (h : GInv c o s g ∅) : Inv c o s g :=
  { null_unmapped := h.null_unmapped
    head := h.head
    page := fun l b hl => PageOK.of_pagePF (h.page l b hl) (h.child_has_key hl)
    sizes := h.sizes
    link := fun l b hl hne => by
      obtain ⟨pb, hpb, hc⟩ := h.link l b hl hne (Set.not_mem_empty l)
      obtain ⟨p, hp⟩ := (isChild_iff pb l).mp hc
      exact ⟨h.nonempty l b hl hne, pb, p, hpb, hp⟩
    rank_le := h.rank_le
    fresh := h.fresh }

end BtreeBucket
end mongo

namespace mongo

namespace State

theorem put_pages_same (s : State) (l : DiskLoc) (b : BtreeBucket) :
    (s.put l b).pages l = some b := by
  simp [put]

theorem put_pages_ne (s : State) {l l1 : DiskLoc} (b : BtreeBucket) (h : l1 ≠ l) :
    (s.put l b).pages l1 = s.pages l1 := by
  simp [put, Function.update_noteq h]

theorem put_pages (s : State) (l l1 : DiskLoc) (b : BtreeBucket) :
    (s.put l b).pages l1 = if l1 = l then some b else s.pages l1 := by
  by_cases h : l1 = l
  · rw [if_pos h, h, put_pages_same]
  · rw [if_neg h, put_pages_ne s b h]

theorem put_comm (s : State) {l l1 : DiskLoc} (b b1 : BtreeBucket) (h : l ≠ l1) :
    (s.put l b).put l1 b1 = (s.put l1 b1).put l b := by
  simp only [put]
  rw [Function.update_comm h]

theorem put_head (s : State) (l : DiskLoc) (b : BtreeBucket) : (s.put l b).head = s.head := rfl

theorem put_allocNext (s : State) (l : DiskLoc) (b : BtreeBucket) :
    (s.put l b).allocNext = s.allocNext := rfl

theorem free_pages (s : State) (l l1 : DiskLoc) :
    (s.free l).pages l1 = if l1 = l then none else s.pages l1 := by
  by_cases h : l1 = l
  · rw [if_pos h, h]; simp [free]
  · rw [if_neg h]; simp [free, Function.update_noteq h]

end State

namespace BtreeBucket

/-! ## Moving the page condition between states -/

/-- What `PagePF` says of a child link. -/
theorem PagePF.isChild {o : Ordering} {s : State} {g : Ghost} {l : DiskLoc} {b : BtreeBucket}
    (h : PagePF o s g l b) {ch : DiskLoc} (hc : IsChild b ch) (hn : ch ≠ DiskLoc.Null) :
    (∃ cb, s.pages ch = some cb ∧ cb.parent = l) ∧ g.rank ch < g.rank l ∧
      g.lo l ≤ g.lo ch ∧ g.hi ch ≤ g.hi l := by
  rcases hc with rfl | ⟨k, hk, rfl⟩
  · obtain ⟨h1, h2, h3, _, h5⟩ := h.next_child hn
    exact ⟨h1, h2, h3, h5⟩
  · obtain ⟨h1, h2, h3, _, h5⟩ := h.slot_child k hk hn
    exact ⟨h1, h2, h3, le_trans h5 (le_of_lt (h.lt_hi k hk))⟩

/-- The page condition carries over to a state and ghost data in which the page
keeps its interval and rank and each child keeps its parent link, with a rank
that is not larger and an interval that is not wider. -/
theorem PagePF.transfer {o : Ordering} {s s1 : State} {g g1 : Ghost} {l : DiskLoc}
    {b : BtreeBucket} (h : PagePF o s g l b)
    (hr : g1.rank l = g.rank l) (hlo : g1.lo l = g.lo l) (hhi : g1.hi l = g.hi l)
    (hch : ∀ ch, IsChild b ch → ch ≠ DiskLoc.Null → ∀ cb, s.pages ch = some cb → cb.parent = l →
      (∃ cb1, s1.pages ch = some cb1 ∧ cb1.parent = l) ∧ g1.rank ch ≤ g.rank ch ∧
        g.lo ch ≤ g1.lo ch ∧ g1.hi ch ≤ g.hi ch) :
    PagePF o s1 g1 l b := by
  refine
    { sorted := h.sorted
      lo_lt := fun k hk => by rw [hlo]; exact h.lo_lt k hk
      lt_hi := fun k hk => by rw [hhi]; exact h.lt_hi k hk
      rl_valid := h.rl_valid
      slot_child := ?_
      next_child := ?_ }
  · intro k hk hn
    obtain ⟨⟨cb, hcb, hpar⟩, h2, h3, h4, h5⟩ := h.slot_child k hk hn
    obtain ⟨hm, hr1, hlo1, hhi1⟩ := hch _ (Or.inr ⟨k, hk, rfl⟩) hn cb hcb hpar
    refine ⟨hm, ?_, ?_, ?_, le_trans hhi1 h5⟩
    · rw [hr]; exact lt_of_le_of_lt hr1 h2
    · rw [hlo]; exact le_trans h3 hlo1
    · intro k1 hk1 hlt
      exact le_trans (h4 k1 hk1 hlt) hlo1
  · intro hn
    obtain ⟨⟨cb, hcb, hpar⟩, h2, h3, h4, h5⟩ := h.next_child hn
    obtain ⟨hm, hr1, hlo1, hhi1⟩ := hch _ (Or.inl rfl) hn cb hcb hpar
    refine ⟨hm, ?_, ?_, ?_, ?_⟩
    · rw [hr]; exact lt_of_le_of_lt hr1 h2
    · rw [hlo]; exact le_trans h3 hlo1
    · intro k1 hk1
      exact le_trans (h4 k1 hk1) hlo1
    · rw [hhi]; exact le_trans hhi1 h5

/-- The page condition carries over to a page with the same last child whose
slots each have the place and the left child of a slot of the page. -/
theorem PagePF.of_mirror {o : Ordering} {s : State} {g : Ghost} {l : DiskLoc}
    {b b1 : BtreeBucket} (h : PagePF o s g l b) (hnext : b1.nextChild = b.nextChild)
    (hs : SortedSlots o b1.keys)
    (hm : ∀ k1 ∈ b1.keys, ∃ k ∈ b.keys, k.ekey o = k1.ekey o ∧
      k.prevChildBucket = k1.prevChildBucket)
    (hrl : ∀ k1 ∈ b1.keys, 0 ≤ k1.recordLoc.a ∧ 2 ≤ k1.recordLoc.ofs) :
    PagePF o s g l b1 := by
  refine
    { sorted := hs
      lo_lt := ?_
      lt_hi := ?_
      rl_valid := hrl
      slot_child := ?_
      next_child := ?_ }
  · intro k1 hk1
    obtain ⟨k, hk, he, _⟩ := hm k1 hk1
    rw [← he]; exact h.lo_lt k hk
  · intro k1 hk1
    obtain ⟨k, hk, he, _⟩ := hm k1 hk1
    rw [← he]; exact h.lt_hi k hk
  · intro k1 hk1 hn
    obtain ⟨k, hk, he, hp⟩ := hm k1 hk1
    rw [← hp] at hn ⊢
    obtain ⟨h1, h2, h3, h4, h5⟩ := h.slot_child k hk hn
    refine ⟨h1, h2, h3, ?_, ?_⟩
    · intro k2 hk2 hlt
      obtain ⟨k3, hk3, he3, _⟩ := hm k2 hk2
      rw [← he3]
      apply h4 k3 hk3
      rw [he3, he]; exact hlt
    · rw [← he]; exact h5
  · intro hn
    rw [hnext] at hn ⊢
    obtain ⟨h1, h2, h3, h4, h5⟩ := h.next_child hn
    refine ⟨h1, h2, h3, ?_, h5⟩
    intro k2 hk2
    obtain ⟨k3, hk3, he3, _⟩ := hm k2 hk2
    rw [← he3]
    exact h4 k3 hk3

/-- Replacing a page of a forest: the invariant is kept when the new page
satisfies the page and size conditions in the old state, keeps the parent link
and the children; the roots of `fl` that it adopts leave `fl`. -/
theorem GInv.put {c : Layout} {o : Ordering} {s : State} {g : Ghost} {fl fl1 : Set DiskLoc}
    (h : GInv c o s g fl) {l : DiskLoc} {b b1 : BtreeBucket} (hl : s.pages l = some b)
    (hpar : l ∉ fl → b1.parent = b.parent) (hpf : PagePF o s g l b1) (hsz : PageSizes c b1)
    (hne : l ≠ s.head → b1.keys ≠ [])
    (hhead : l = s.head → b1.keys = [] → b1.nextChild = DiskLoc.Null)
    (hold : ∀ ch, ch ≠ DiskLoc.Null → IsChild b ch → IsChild b1 ch)
    (hfl : ∀ r, r ∈ fl1 ↔ r ∈ fl ∧ ¬ IsChild b1 r) :
    GInv c o (s.put l b1) g fl1 := by
  have hlnn : l ≠ DiskLoc.Null := h.ne_null hl
  have hchne : ∀ ch, IsChild b1 ch → ch ≠ DiskLoc.Null → ch ≠ l := by
    intro ch hc hn heq
    have := (hpf.isChild hc hn).2.1
    rw [heq] at this
    exact lt_irrefl _ this
  refine
    { null_unmapped := by
        rw [State.put_pages_ne s b1 (Ne.symm hlnn)]; exact h.null_unmapped
      head := ?_
      page := ?_
      sizes := ?_
      nonempty := ?_
      link := ?_
      float := ?_
      rank_le := ?_
      fresh := ?_ }
  · obtain ⟨hb, hhb, hnull, hleaf⟩ := h.head
    rw [State.put_head]
    by_cases hh : s.head = l
    · rw [hh, State.put_pages_same]
      rw [hh, hl] at hhb
      cases hhb
      have hnf : l ∉ fl := fun hin => (h.float l hin).1 hh.symm
      exact ⟨b1, rfl, (hpar hnf).trans hnull, hhead hh.symm⟩
    · rw [State.put_pages_ne s b1 hh]
      exact ⟨hb, hhb, hnull, hleaf⟩
  · intro l1 b2 hl1
    rw [State.put_pages] at hl1
    by_cases h1 : l1 = l
    · rw [if_pos h1] at hl1
      cases hl1
      subst h1
      apply hpf.transfer rfl rfl rfl
      intro ch hc hn cb hcb hcpar
      refine ⟨⟨cb, ?_, hcpar⟩, le_refl _, le_refl _, le_refl _⟩
      rw [State.put_pages_ne s b1 (hchne ch hc hn)]
      exact hcb
    · rw [if_neg h1] at hl1
      apply (h.page l1 b2 hl1).transfer rfl rfl rfl
      intro ch hc _ cb hcb hcpar
      refine ⟨?_, le_refl _, le_refl _, le_refl _⟩
      by_cases h2 : ch = l
      · subst h2
        rw [hl] at hcb
        cases hcb
        have hnf : ch ∉ fl := fun hin => (h.float ch hin).2.2 l1 b2 hl1 hc
        exact ⟨b1, State.put_pages_same s _ b1, (hpar hnf).trans hcpar⟩
      · exact ⟨cb, by rw [State.put_pages_ne s b1 h2]; exact hcb, hcpar⟩
  · intro l1 b2 hl1
    rw [State.put_pages] at hl1
    by_cases h1 : l1 = l
    · rw [if_pos h1] at hl1
      cases hl1
      exact hsz
    · rw [if_neg h1] at hl1
      exact h.sizes l1 b2 hl1
  · intro l1 b2 hl1 hnh
    rw [State.put_head] at hnh
    rw [State.put_pages] at hl1
    by_cases h1 : l1 = l
    · rw [if_pos h1] at hl1
      cases hl1
      exact hne (h1 ▸ hnh)
    · rw [if_neg h1] at hl1
      exact h.nonempty l1 b2 hl1 hnh
  · intro l1 b2 hl1 hnh hnf
    rw [State.put_head] at hnh
    have hl1nn : l1 ≠ DiskLoc.Null := by
      rintro rfl
      rw [State.put_pages_ne s b1 (Ne.symm hlnn), h.null_unmapped] at hl1
      cases hl1
    by_cases hin : l1 ∈ fl
    · have hc : IsChild b1 l1 := by
        by_contra hcon
        exact hnf ((hfl l1).mpr ⟨hin, hcon⟩)
      obtain ⟨⟨cb, hcb, hcpar⟩, _⟩ := hpf.isChild hc hl1nn
      rw [State.put_pages_ne s b1 (hchne l1 hc hl1nn), hcb] at hl1
      cases hl1
      exact ⟨b1, by rw [hcpar]; exact State.put_pages_same s l b1, hc⟩
    · rw [State.put_pages] at hl1
      by_cases h1 : l1 = l
      · rw [if_pos h1] at hl1
        cases hl1
        subst h1
        obtain ⟨pb, hpb, hc⟩ := h.link l1 b hl hnh hin
        rw [hpar hin]
        by_cases h2 : b.parent = l1
        · rw [h2] at hpb ⊢
          rw [hl] at hpb
          cases hpb
          exact ⟨b1, State.put_pages_same s _ b1, hold l1 hl1nn hc⟩
        · exact ⟨pb, by rw [State.put_pages_ne s b1 h2]; exact hpb, hc⟩
      · rw [if_neg h1] at hl1
        obtain ⟨pb, hpb, hc⟩ := h.link l1 b2 hl1 hnh hin
        by_cases h2 : b2.parent = l
        · rw [h2] at hpb ⊢
          rw [hl] at hpb
          cases hpb
          exact ⟨b1, State.put_pages_same s _ b1, hold l1 hl1nn hc⟩
        · exact ⟨pb, by rw [State.put_pages_ne s b1 h2]; exact hpb, hc⟩
  · intro r hr
    obtain ⟨hin, hnc⟩ := (hfl r).mp hr
    obtain ⟨hrh, ⟨rb, hrb⟩, hno⟩ := h.float r hin
    refine ⟨hrh, ?_, ?_⟩
    · rw [State.put_pages]
      by_cases h1 : r = l
      · exact ⟨b1, by rw [if_pos h1]⟩
      · exact ⟨rb, by rw [if_neg h1]; exact hrb⟩
    · intro l1 b2 hl1
      rw [State.put_pages] at hl1
      by_cases h1 : l1 = l
      · rw [if_pos h1] at hl1
        cases hl1
        exact hnc
      · rw [if_neg h1] at hl1
        exact hno l1 b2 hl1
  · intro l1 b2 hl1
    rw [State.put_head]
    rw [State.put_pages] at hl1
    by_cases h1 : l1 = l
    · rw [h1]; exact h.rank_le l b hl
    · rw [if_neg h1] at hl1
      exact h.rank_le l1 b2 hl1
  · intro l1 b2 hl1
    rw [State.put_allocNext]
    rw [State.put_pages] at hl1
    by_cases h1 : l1 = l
    · rw [h1]; exact h.fresh l b hl
    · rw [if_neg h1] at hl1
      exact h.fresh l1 b2 hl1

end BtreeBucket
end mongo

namespace mongo
namespace BtreeBucket

/-! ## What `pack` does to a page -/

theorem keepFrom_append (r : Nat) (A B : List _KeyNode) :
    ∀ j, keepFrom r j (A ++ B) = keepFrom r j A ++ keepFrom r (j + A.length) B := by
  induction A with
  | nil => intro j; simp [keepFrom]
  | cons a A ih =>
    intro j
    have h1 : j + (A.length + 1) = j + 1 + A.length := by omega
    rw [List.cons_append, keepFrom, keepFrom, List.length_cons, h1]
    by_cases hd : mayDropKey j a r = true
    · rw [if_pos hd, if_pos hd, ih (j + 1)]
    · rw [if_neg hd, if_neg hd, ih (j + 1), List.cons_append]

theorem keepFrom_sublist (r : Nat) (ks : List _KeyNode) :
    ∀ j, (keepFrom r j ks).Sublist ks := by
  induction ks with
  | nil => intro j; simp [keepFrom]
  | cons k ks ih =>
    intro j
    simp only [keepFrom]
    split
    · exact List.Sublist.cons _ (ih (j + 1))
    · exact List.Sublist.cons₂ _ (ih (j + 1))

theorem keepFrom_keep (r : Nat) (ks : List _KeyNode) :
    ∀ j, ∀ k ∈ ks, (k.prevChildBucket ≠ DiskLoc.Null ∨ k.isUsed = true) →
      k ∈ keepFrom r j ks := by
  induction ks with
  | nil => intro j k hk; cases hk
  | cons a ks ih =>
    intro j k hk hkeep
    simp only [keepFrom]
    rcases List.mem_cons.mp hk with rfl | hk
    · have hnd : mayDropKey j k r = false := by
        rcases hkeep with h | h
        · have : k.prevChildBucket.isNull = false := (DiskLoc.isNull_false_iff _).mpr h
          simp [mayDropKey, this]
        · have : k.isUnused = false := by simpa [_KeyNode.isUsed] using h
          simp [mayDropKey, this]
      rw [hnd]
      simp
    · split
      · exact ih (j + 1) k hk hkeep
      · exact List.mem_cons_of_mem _ (ih (j + 1) k hk hkeep)

theorem keepFrom_head (r : Nat) (ks : List _KeyNode) :
    (keepFrom r 0 ks).head? = ks.head? := by
  cases ks with
  | nil => rfl
  | cons k ks => simp [keepFrom, mayDropKey]

theorem keepFrom_at_ref (r : Nat) (k : _KeyNode) (ks : List _KeyNode) :
    keepFrom r r (k :: ks) = k :: keepFrom r (r + 1) ks := by
  simp [keepFrom, mayDropKey]

theorem keyBytes_sublist {ks1 ks : List _KeyNode} (h : ks1.Sublist ks)
    (hpos : ∀ k ∈ ks, 0 < k.key.objsize) : keyBytes ks1 ≤ keyBytes ks := by
  induction h with
  | slnil => exact le_refl _
  | cons a _ ih =>
    have h1 := ih (fun k hk => hpos k (List.mem_cons_of_mem _ hk))
    have h2 := hpos a (List.mem_cons_self _ _)
    simp only [keyBytes]; omega
  | cons₂ a _ ih =>
    have h1 := ih (fun k hk => hpos k (List.mem_cons_of_mem _ hk))
    simp only [keyBytes]; omega

theorem PackedAt.refl (b : BtreeBucket) (r : Nat) (hr : r ≤ b.keys.length) :
    PackedAt b b r r :=
  { parent := rfl
    nextChild := rfl
    len := hr
    take_sub := List.Sublist.refl _
    drop_sub := List.Sublist.refl _
    drop_head := rfl
    keep := fun _ hk _ => hk
    head := rfl
    sub := List.Sublist.refl _ }

/-- The slots fit a page: their keys and the slot array are within the page's
data area. -/
theorem fits_of_pageSizes (c : Layout) (hc : Layout.Sane c) (b : BtreeBucket)
    (hsz : PageSizes c b) :
    keyBytes b.keys + (b.keys.length : Int) * c.slotSize ≤ totalDataSize c := by
  have hacc := hsz.accounting
  unfold sizeAccounting at hacc
  simp only [n] at hacc
  have h1 := hsz.empty_nonneg
  have h2 := hsz.bytes_le
  have := hc.slot_pos
  unfold totalDataSize
  omega

/-- On a page whose `Packed` flag is clear and whose slots fit a page, `pack`
returns, and its result satisfies the size condition and relates to the page as
`PackedAt` says. -/
theorem pack_spec_fits (c : Layout) (hc : Layout.Sane c) (b : BtreeBucket) (r : Nat)
    (hfit : keyBytes b.keys + (b.keys.length : Int) * c.slotSize ≤ totalDataSize c)
    (hpos : ∀ k ∈ b.keys, 0 < k.key.objsize) (hle : ∀ k ∈ b.keys, k.key.objsize ≤ KeyMax c)
    (hr : r ≤ b.keys.length) (hp : b.packed = false) :
    ∃ b1 r1, pack c b r = .ok (b1, r1) ∧ PackedAt b b1 r r1 ∧ PageSizes c b1 ∧
      b1.packed = true ∧ b1.keys = keepFrom r 0 b.keys := by
  rw [pack_eq_of_not_packed c b r hp]
  have hsub := keepFrom_sublist r b.keys 0
  have hbytes := keyBytes_sublist hsub hpos
  have hlen : (keepFrom r 0 b.keys).length ≤ b.keys.length := hsub.length_le
  have he : totalDataSize c - keyBytes (keepFrom r 0 b.keys)
      - ((keepFrom r 0 b.keys).length : Int) * c.slotSize ≥ 0 := by
    have h3 : ((keepFrom r 0 b.keys).length : Int) * c.slotSize
        ≤ (b.keys.length : Int) * c.slotSize :=
      mul_le_mul_of_nonneg_right (by exact_mod_cast hlen) (le_of_lt hc.slot_pos)
    omega
  simp only [he, not_true_eq_false, if_false]
  have hsplit : keepFrom r 0 b.keys
      = keepFrom r 0 (b.keys.take r) ++ keepFrom r r (b.keys.drop r) := by
    conv_lhs => rw [← List.take_append_drop r b.keys]
    rw [keepFrom_append]
    simp [List.length_take, Nat.min_eq_left hr]
  have hr1 : (if packRef r 0 0 b.keys = b.keys.length then (keepFrom r 0 b.keys).length
      else packRef r 0 0 b.keys) = (keepFrom r 0 (b.keys.take r)).length := by
    unfold packRef
    by_cases hlt : r < b.keys.length
    · have h1 : 0 ≤ r ∧ r < 0 + b.keys.length := ⟨Nat.zero_le _, by omega⟩
      rw [if_pos h1]
      have h2 := (keepFrom_sublist r (b.keys.take r) 0).length_le
      rw [List.length_take, Nat.min_eq_left hr] at h2
      simp only [Nat.sub_zero, Nat.zero_add]
      rw [if_neg (by omega)]
    · have h1 : ¬ (0 ≤ r ∧ r < 0 + b.keys.length) := by omega
      have h2 : r = b.keys.length := by omega
      rw [if_neg h1, if_pos h2, h2, List.take_length]
  refine ⟨_, _, rfl, ?_, ?_, rfl, rfl⟩
  · rw [hr1]
    have htake : (keepFrom r 0 b.keys).take (keepFrom r 0 (b.keys.take r)).length
        = keepFrom r 0 (b.keys.take r) := by
      rw [hsplit, List.take_left]
    have hdrop : (keepFrom r 0 b.keys).drop (keepFrom r 0 (b.keys.take r)).length
        = keepFrom r r (b.keys.drop r) := by
      rw [hsplit, List.drop_left]
    refine
      { parent := rfl
        nextChild := rfl
        len := ?_
        take_sub := ?_
        drop_sub := ?_
        drop_head := ?_
        keep := fun k hk hkeep => keepFrom_keep r b.keys 0 k hk hkeep
        head := keepFrom_head r b.keys
        sub := hsub }
    · show _ ≤ (keepFrom r 0 b.keys).length
      rw [hsplit, List.length_append]; omega
    · show ((keepFrom r 0 b.keys).take _).Sublist _
      rw [htake]; exact keepFrom_sublist _ _ _
    · show ((keepFrom r 0 b.keys).drop _).Sublist _
      rw [hdrop]; exact keepFrom_sublist _ _ _
    · show ((keepFrom r 0 b.keys).drop _).head? = _
      rw [hdrop]
      cases hd : b.keys.drop r with
      | nil => rfl
      | cons k ks => rw [keepFrom_at_ref]; rfl
  · refine
      { accounting := ?_
        empty_nonneg := he
        bytes_le := le_refl _
        bytes_eq := fun _ => rfl
        key_pos := fun k hk => hpos k (hsub.subset hk)
        key_le := fun k hk => hle k (hsub.subset hk) }
    unfold sizeAccounting totalDataSize
    simp only [n]
    omega

/-- On a page that satisfies the size condition, `pack` returns, and its result
satisfies the size condition and relates to the page as `PackedAt` says. -/
theorem pack_spec (c : Layout) (hc : Layout.Sane c) (b : BtreeBucket) (r : Nat)
    (hsz : PageSizes c b) (hr : r ≤ b.keys.length) :
    ∃ b1 r1, pack c b r = .ok (b1, r1) ∧ PackedAt b b1 r r1 ∧ PageSizes c b1 ∧
      b1.packed = true := by
  by_cases hp : b.packed = true
  · refine ⟨b, r, ?_, PackedAt.refl b r hr, hsz, hp⟩
    unfold pack
    rw [if_pos hp]
  · obtain ⟨b1, r1, h1, h2, h3, h4, _⟩ := pack_spec_fits c hc b r (fits_of_pageSizes c hc b hsz)
      hsz.key_pos hsz.key_le hr (by simpa using hp)
    exact ⟨b1, r1, h1, h2, h3, h4⟩

end BtreeBucket
end mongo

namespace mongo
namespace BtreeBucket

/-! ## What `basicInsert` does to a page -/

theorem keyBytes_insert (A B : List _KeyNode) (k : _KeyNode) :
    keyBytes (A ++ k :: B) = keyBytes (A ++ B) + k.key.objsize := by
  rw [keyBytes_append, keyBytes_append]
  simp only [keyBytes]
  omega

/-- The outcome of `basicInsert` on a page that satisfies the size condition:
the page is packed when it has to be, and then the slot is put at the insertion
point if there is room for it. -/
theorem basicInsert_spec (c : Layout) (hc : Layout.Sane c) (b : BtreeBucket) (keypos : Nat)
    (recordLoc : DiskLoc) (key : BSONObj) (hsz : PageSizes c b) (hk : keypos ≤ b.keys.length)
    (hpos : 0 < key.objsize) (hle : key.objsize ≤ KeyMax c) :
    ∃ b1 kp1, PackedAt b b1 keypos kp1 ∧ PageSizes c b1 ∧
      ((∃ b2, basicInsert c b keypos recordLoc key = .ok (true, b2, kp1) ∧
          b2.keys = b1.keys.take kp1 ++ ⟨DiskLoc.Null, recordLoc, key⟩ :: b1.keys.drop kp1 ∧
          b2.parent = b1.parent ∧ b2.nextChild = b1.nextChild ∧ PageSizes c b2 ∧
          b2.emptySize = b1.emptySize - c.slotSize - key.objsize ∧
          b2.topSize = b1.topSize + key.objsize ∧ b2.packed = b1.packed) ∨
       (basicInsert c b keypos recordLoc key = .ok (false, b1, kp1) ∧
          b1.emptySize < key.objsize + c.slotSize ∧ b1.packed = true)) := by
  have hnk : ¬ ¬ (keypos ≤ b.keys.length) := not_not.mpr hk
  -- the page after the optional pack
  have hpk : ∃ b1 kp1, (if key.objsize + c.slotSize > b.emptySize then pack c b keypos
        else .ok (b, keypos)) = .ok (b1, kp1) ∧ PackedAt b b1 keypos kp1 ∧ PageSizes c b1 ∧
        (key.objsize + c.slotSize > b1.emptySize → b1.packed = true) := by
    by_cases hroom : key.objsize + c.slotSize > b.emptySize
    · obtain ⟨b1, kp1, h1, h2, h3, h4⟩ := pack_spec c hc b keypos hsz hk
      exact ⟨b1, kp1, by rw [if_pos hroom]; exact h1, h2, h3, fun _ => h4⟩
    · exact ⟨b, keypos, by rw [if_neg hroom], PackedAt.refl b keypos hk, hsz,
        fun h => absurd h hroom⟩
  obtain ⟨b1, kp1, hpack, hpa, hsz1, hpacked⟩ := hpk
  refine ⟨b1, kp1, hpa, hsz1, ?_⟩
  unfold basicInsert
  rw [if_neg hnk]
  simp only [hpack]
  by_cases hroom : key.objsize + c.slotSize > b1.emptySize
  · right
    rw [if_pos hroom]
    exact ⟨rfl, by omega, hpacked hroom⟩
  · left
    rw [if_neg hroom]
    have hacc := hsz1.accounting
    unfold sizeAccounting at hacc
    simp only [n] at hacc
    have hofs : totalDataSize c - (b1.topSize + key.objsize) > 0 := by
      have h1 : 0 ≤ (b1.keys.length : Int) * c.slotSize :=
        mul_nonneg (by exact_mod_cast Nat.zero_le _) (le_of_lt hc.slot_pos)
      have := hc.slot_pos
      unfold totalDataSize
      omega
    simp only [_alloc, hofs, if_true]
    refine ⟨_, rfl, rfl, rfl, rfl, ?_, rfl, rfl, rfl⟩
    have hlen : (b1.keys.take kp1 ++ ⟨DiskLoc.Null, recordLoc, key⟩ :: b1.keys.drop kp1).length
        = b1.keys.length + 1 := by
      rw [List.length_append, List.length_cons, List.length_take, List.length_drop]
      have := hpa.len
      omega
    have hbytes : keyBytes (b1.keys.take kp1 ++ ⟨DiskLoc.Null, recordLoc, key⟩ :: b1.keys.drop kp1)
        = keyBytes b1.keys + key.objsize := by
      rw [keyBytes_insert, List.take_append_drop]
    refine
      { accounting := ?_
        empty_nonneg := ?_
        bytes_le := ?_
        bytes_eq := ?_
        key_pos := ?_
        key_le := ?_ }
    · unfold sizeAccounting
      simp only [n, hlen]
      push_cast
      have : ((b1.keys.length : Int) + 1) * c.slotSize
          = (b1.keys.length : Int) * c.slotSize + c.slotSize := by ring
      rw [this]
      omega
    · show 0 ≤ b1.emptySize - c.slotSize - key.objsize
      omega
    · show keyBytes _ ≤ b1.topSize + key.objsize
      rw [hbytes]
      have := hsz1.bytes_le
      omega
    · intro hp
      show keyBytes _ = b1.topSize + key.objsize
      rw [hbytes, hsz1.bytes_eq hp]
    · intro k hk1
      rcases List.mem_append.mp hk1 with h | h
      · exact hsz1.key_pos k (List.mem_of_mem_take h)
      · rcases List.mem_cons.mp h with rfl | h
        · exact hpos
        · exact hsz1.key_pos k (List.mem_of_mem_drop h)
    · intro k hk1
      rcases List.mem_append.mp hk1 with h | h
      · exact hsz1.key_le k (List.mem_of_mem_take h)
      · rcases List.mem_cons.mp h with rfl | h
        · exact hle
        · exact hsz1.key_le k (List.mem_of_mem_drop h)

end BtreeBucket
end mongo

namespace mongo
namespace BtreeBucket

/-! ## Wiring the child links of an inserted slot -/

theorem get?_append_length {α : Type} (A B : List α) (x : α) :
    (A ++ x :: B).get? A.length = some x := by
  induction A with
  | nil => rfl
  | cons a A ih => simpa using ih

theorem get?_append_length_succ {α : Type} (A B : List α) (x u : α) :
    (A ++ x :: u :: B).get? (A.length + 1) = some u := by
  induction A with
  | nil => rfl
  | cons a A ih => simpa using ih

theorem set_append_length {α : Type} (A B : List α) (x y : α) :
    (A ++ x :: B).set A.length y = A ++ y :: B := by
  simp

theorem set_append_length_succ {α : Type} (A B : List α) (x u y : α) :
    (A ++ x :: u :: B).set (A.length + 1) y = A ++ x :: y :: B := by
  simp [List.set_append]

theorem fix_null (s : State) (thisLoc : DiskLoc) : fix s thisLoc DiskLoc.Null = .ok s := by
  unfold fix
  rw [if_pos (by decide)]

theorem fix_mapped (s : State) (thisLoc child : DiskLoc) (cb : BtreeBucket)
    (hn : child ≠ DiskLoc.Null) (hc : s.pages child = some cb) :
    fix s thisLoc child = .ok (s.put child { cb with parent := thisLoc }) := by
  unfold fix
  rw [if_neg (by rw [DiskLoc.isNull_iff]; exact hn)]
  simp only [State.setParent, hc]

/-- The page that the wiring of an inserted slot leaves: the new slot has
`lchild` on its left, and what follows it has `rchild` on its left. -/
theorem wireInserted_spec (s : State) (b2 : BtreeBucket) (thisLoc : DiskLoc) (kp : Nat)
    (recordLoc : DiskLoc) (key : BSONObj) (lchild rchild : DiskLoc) (A B : List _KeyNode)
    (hkeys : b2.keys = A ++ ⟨DiskLoc.Null, recordLoc, key⟩ :: B) (hA : A.length = kp)
    (hl : headChild B b2.nextChild = lchild) :
    ∃ b3, b3.keys = A ++ ⟨lchild, recordLoc, key⟩ :: wireRight rchild B ∧
      b3.nextChild = (if B = [] then rchild else b2.nextChild) ∧
      b3.parent = b2.parent ∧ b3.packed = b2.packed ∧ b3.emptySize = b2.emptySize ∧
      b3.topSize = b2.topSize ∧
      (rchild = DiskLoc.Null →
        wireInserted s b2 thisLoc kp lchild rchild = (.ok (), s.put thisLoc b3)) ∧
      (∀ rb, rchild ≠ DiskLoc.Null → rchild ≠ thisLoc → s.pages rchild = some rb →
        wireInserted s b2 thisLoc kp lchild rchild =
          (.ok (), (s.put rchild { rb with parent := thisLoc }).put thisLoc b3)) := by
  subst hA
  cases B with
  | nil =>
    simp only [headChild] at hl
    have hlen : A.length + 1 = b2.keys.length := by rw [hkeys]; simp
    have hget : b2.keys.get? A.length = some ⟨DiskLoc.Null, recordLoc, key⟩ := by
      rw [hkeys]; exact get?_append_length A [] _
    have hset : b2.keys.set A.length
        { (⟨DiskLoc.Null, recordLoc, key⟩ : _KeyNode) with prevChildBucket := b2.nextChild }
        = A ++ [⟨lchild, recordLoc, key⟩] := by
      rw [hkeys, set_append_length, hl]
    refine ⟨{ b2 with keys := A ++ [⟨lchild, recordLoc, key⟩], nextChild := rchild },
      rfl, by simp, rfl, rfl, rfl, rfl, ?_, ?_⟩
    · intro hr
      subst hr
      unfold wireInserted
      rw [if_pos hlen, if_neg (not_not.mpr hl)]
      simp only [hget, hset, fix_null]
    · intro rb hr hne hrb
      unfold wireInserted
      rw [if_pos hlen, if_neg (not_not.mpr hl)]
      simp only [hget, hset]
      rw [fix_mapped _ thisLoc rchild rb hr (by rw [State.put_pages_ne _ _ hne]; exact hrb)]
      simp only
      rw [State.put_comm _ _ _ (Ne.symm hne)]
  | cons u B =>
    simp only [headChild] at hl
    have hlen : ¬ A.length + 1 = b2.keys.length := by rw [hkeys]; simp
    have hget : b2.keys.get? A.length = some ⟨DiskLoc.Null, recordLoc, key⟩ := by
      rw [hkeys]; exact get?_append_length A _ _
    have hget1 : b2.keys.get? (A.length + 1) = some u := by
      rw [hkeys]; exact get?_append_length_succ A _ _ _
    have hset : (b2.keys.set A.length
        { (⟨DiskLoc.Null, recordLoc, key⟩ : _KeyNode) with prevChildBucket := lchild }).set
          (A.length + 1) { u with prevChildBucket := rchild }
        = A ++ ⟨lchild, recordLoc, key⟩ :: { u with prevChildBucket := rchild } :: B := by
      rw [hkeys, set_append_length, set_append_length_succ]
    refine ⟨{ b2 with keys := A ++ ⟨lchild, recordLoc, key⟩ ::
                { u with prevChildBucket := rchild } :: B },
      rfl, by simp, rfl, rfl, rfl, rfl, ?_, ?_⟩
    · intro hr
      subst hr
      unfold wireInserted
      rw [if_neg hlen]
      simp only [hget, hget1, hset, hl, ne_eq, not_true_eq_false, if_false, fix_null]
    · intro rb hr hne hrb
      unfold wireInserted
      rw [if_neg hlen]
      simp only [hget, hget1, hset, hl, ne_eq, not_true_eq_false, if_false]
      rw [fix_mapped _ thisLoc rchild rb hr (by rw [State.put_pages_ne _ _ hne]; exact hrb)]
      simp only
      rw [State.put_comm _ _ _ (Ne.symm hne)]

end BtreeBucket
end mongo

namespace mongo
namespace BtreeBucket

/-! ## Local changes of a forest: packing a page, re-parenting a root -/

theorem PagePF.congr_page {o : Ordering} {s : State} {g : Ghost} {l : DiskLoc}
    {b b1 : BtreeBucket} (h : PagePF o s g l b) (hk : b1.keys = b.keys)
    (hn : b1.nextChild = b.nextChild) : PagePF o s g l b1 :=
  { sorted := hk ▸ h.sorted
    lo_lt := hk ▸ h.lo_lt
    lt_hi := hk ▸ h.lt_hi
    rl_valid := hk ▸ h.rl_valid
    slot_child := hk ▸ h.slot_child
    next_child := by rw [hk, hn]; exact h.next_child }

theorem IsChild.congr_keys {b b1 : BtreeBucket} {l : DiskLoc} (h : IsChild b l)
    (hk : b1.keys = b.keys) (hn : b1.nextChild = b.nextChild) : IsChild b1 l := by
  rcases h with h | ⟨k, hk1, h⟩
  · exact Or.inl (hn.trans h)
  · exact Or.inr ⟨k, hk ▸ hk1, h⟩

/-- A child link of a packed page is a child link of the page, and a child link
of the page that is not null is a child link of the packed page. -/
theorem PackedAt.isChild_same {b b1 : BtreeBucket} {r r1 : Nat} (h : PackedAt b b1 r r1)
    {ch : DiskLoc} (hn : ch ≠ DiskLoc.Null) : IsChild b1 ch ↔ IsChild b ch := by
  constructor
  · rintro (h1 | ⟨k, hk, h1⟩)
    · exact Or.inl (h.nextChild ▸ h1)
    · exact Or.inr ⟨k, h.sub.subset hk, h1⟩
  · rintro (h1 | ⟨k, hk, h1⟩)
    · exact Or.inl (h.nextChild.trans h1)
    · exact Or.inr ⟨k, h.keep k hk (Or.inl (h1 ▸ hn)), h1⟩

theorem PackedAt.ne_nil {b b1 : BtreeBucket} {r r1 : Nat} (h : PackedAt b b1 r r1)
    (hne : b.keys ≠ []) : b1.keys ≠ [] := by
  intro hcon
  have := h.head
  rw [hcon] at this
  cases hk : b.keys with
  | nil => exact hne hk
  | cons k ks => rw [hk] at this; cases this

theorem PackedAt.eq_nil {b b1 : BtreeBucket} {r r1 : Nat} (h : PackedAt b b1 r r1)
    (he : b1.keys = []) : b.keys = [] := by
  by_contra hne
  exact h.ne_nil hne he

/-- Packing a page keeps the invariant. -/
theorem GInv.put_packed {c : Layout} {o : Ordering} {s : State} {g : Ghost} {fl : Set DiskLoc}
    (h : GInv c o s g fl) {l : DiskLoc} {b b1 : BtreeBucket} (hl : s.pages l = some b)
    {r r1 : Nat} (hp : PackedAt b b1 r r1) (hsz : PageSizes c b1) :
    GInv c o (s.put l b1) g fl := by
  have hpf : PagePF o s g l b1 :=
    (h.page l b hl).of_mirror hp.nextChild ((h.page l b hl).sorted.sublist hp.sub)
      (fun k1 hk1 => ⟨k1, hp.sub.subset hk1, rfl, rfl⟩)
      (fun k1 hk1 => (h.page l b hl).rl_valid k1 (hp.sub.subset hk1))
  refine h.put hl (fun _ => hp.parent) hpf hsz ?_ ?_ ?_ ?_
  · intro hnh
    exact hp.ne_nil (h.nonempty l b hl hnh)
  · intro hh he
    obtain ⟨hb, hhb, _, hleaf⟩ := h.head
    rw [← hh, hl] at hhb
    cases hhb
    rw [hp.nextChild]
    exact hleaf (hp.eq_nil he)
  · intro ch hn hc
    exact (hp.isChild_same hn).mpr hc
  · intro r
    constructor
    · intro hr
      refine ⟨hr, ?_⟩
      intro hc
      obtain ⟨_, ⟨rb, hrb⟩, hno⟩ := h.float r hr
      have hrn : r ≠ DiskLoc.Null := h.ne_null hrb
      exact hno l b hl ((hp.isChild_same hrn).mp hc)
    · exact fun hr => hr.1

/-- The parent link of a root of `fl` is free: setting it keeps the invariant. -/
theorem GInv.put_float_parent {c : Layout} {o : Ordering} {s : State} {g : Ghost}
    {fl : Set DiskLoc} (h : GInv c o s g fl) {r : DiskLoc} {rb : BtreeBucket}
    (hr : r ∈ fl) (hrb : s.pages r = some rb) (p : DiskLoc) :
    GInv c o (s.put r { rb with parent := p }) g fl := by
  obtain ⟨hrh, _, hno⟩ := h.float r hr
  refine h.put hrb (fun hnf => absurd hr hnf) ((h.page r rb hrb).congr_page rfl rfl)
    ?_ ?_ ?_ ?_ ?_
  · have := h.sizes r rb hrb
    exact
      { accounting := this.accounting
        empty_nonneg := this.empty_nonneg
        bytes_le := this.bytes_le
        bytes_eq := this.bytes_eq
        key_pos := this.key_pos
        key_le := this.key_le }
  · intro hnh
    exact h.nonempty r rb hrb hnh
  · intro hh
    exact absurd hh hrh
  · intro ch _ hc
    exact hc.congr_keys rfl rfl
  · intro r1
    constructor
    · intro hr1
      refine ⟨hr1, ?_⟩
      intro hc
      exact (h.float r1 hr1).2.2 r rb hrb (hc.congr_keys rfl rfl)
    · exact fun hr1 => hr1.1

theorem childAt_eq_childForPos (b : BtreeBucket) (kp : Nat) (h : kp ≤ b.keys.length) :
    b.childForPos kp = some (childAt b.keys b.nextChild kp) := by
  unfold childAt
  by_cases hk : kp = b.keys.length
  · rw [hk, childForPos_length, List.drop_length]
  · have hlt : kp < b.keys.length := by omega
    have hd : b.keys.drop kp = b.keys.get ⟨kp, hlt⟩ :: b.keys.drop (kp + 1) :=
      List.drop_eq_getElem_cons hlt
    rw [hd]
    exact childForPos_of_get? (List.get?_eq_get hlt)

theorem PackedAt.childAt_eq {b b1 : BtreeBucket} {r r1 : Nat} (h : PackedAt b b1 r r1) :
    childAt b1.keys b1.nextChild r1 = childAt b.keys b.nextChild r := by
  unfold childAt
  have hh := h.drop_head
  cases h1 : b1.keys.drop r1 with
  | nil =>
    cases h2 : b.keys.drop r with
    | nil => exact h.nextChild
    | cons u rest => rw [h1, h2] at hh; cases hh
  | cons u1 rest1 =>
    cases h2 : b.keys.drop r with
    | nil => rw [h1, h2] at hh; cases hh
    | cons u rest =>
      rw [h1, h2] at hh
      simp only [List.head?_cons, Option.some.injEq] at hh
      rw [hh]

/-- The conditions of `insertHere` hold for the packed page at the insertion
point that `pack` hands back. -/
theorem InsPre.packed {o : Ordering} {g : Ghost} {fl : Set DiskLoc} {l : DiskLoc}
    {b b1 : BtreeBucket} {kp kp1 : Nat} {e : EKey} {lchild rchild : DiskLoc}
    (h : InsPre o g fl l b kp e lchild rchild) (hp : PackedAt b b1 kp kp1) :
    InsPre o g fl l b1 kp1 e lchild rchild :=
  { pos_le := hp.len
    before := fun k hk => h.before k (hp.take_sub.subset hk)
    after := fun k hk => h.after k (hp.drop_sub.subset hk)
    lo_lt := h.lo_lt
    lt_hi := h.lt_hi
    lchild_eq := hp.childAt_eq.trans h.lchild_eq
    rnull := h.rnull
    rfloat := fun hn => by
      obtain ⟨h1, h2, h3, h4, h5, h6, h7⟩ := h.rfloat hn
      exact ⟨h1, h2, h3, h4, fun k hk => h5 k (hp.drop_sub.subset hk), h6, h7⟩ }

end BtreeBucket
end mongo

namespace mongo
namespace BtreeBucket

/-! ## Putting a slot into a page of a forest -/

theorem sortedSlots_iff_map (o : Ordering) (ks : List _KeyNode) :
    SortedSlots o ks ↔ (ks.map (fun k => k.ekey o)).Pairwise (· < ·) := by
  unfold SortedSlots
  rw [List.pairwise_map]

theorem SortedSlots.insert {o : Ordering} {A B : List _KeyNode} {x : _KeyNode}
    (h : SortedSlots o (A ++ B)) (hA : ∀ k ∈ A, k.ekey o < x.ekey o)
    (hB : ∀ k ∈ B, x.ekey o < k.ekey o) : SortedSlots o (A ++ x :: B) := by
  unfold SortedSlots at h ⊢
  rw [List.pairwise_append] at h ⊢
  obtain ⟨h1, h2, h3⟩ := h
  refine ⟨h1, List.Pairwise.cons hB h2, ?_⟩
  intro a ha b1 hb1
  rcases List.mem_cons.mp hb1 with rfl | hb1
  · exact hA a ha
  · exact h3 a ha b1 hb1

theorem SortedSlots.replace {o : Ordering} {A C : List _KeyNode} {u w : _KeyNode}
    (h : SortedSlots o (A ++ u :: C)) (he : w.ekey o = u.ekey o) :
    SortedSlots o (A ++ w :: C) := by
  rw [sortedSlots_iff_map] at h ⊢
  simpa [he] using h

theorem ekey_congr (o : Ordering) {k k1 : _KeyNode} (hk : k1.key = k.key)
    (hr : k1.recordLoc = k.recordLoc) : k1.ekey o = k.ekey o := by
  unfold _KeyNode.ekey
  rw [hk, hr]

theorem PagePF.of_childAt {o : Ordering} {s : State} {g : Ghost} {l : DiskLoc}
    {b : BtreeBucket} (h : PagePF o s g l b) (kp : Nat)
    (hn : childAt b.keys b.nextChild kp ≠ DiskLoc.Null) :
    (∃ cb, s.pages (childAt b.keys b.nextChild kp) = some cb ∧ cb.parent = l) ∧
      g.rank (childAt b.keys b.nextChild kp) < g.rank l ∧
      g.lo l ≤ g.lo (childAt b.keys b.nextChild kp) ∧
      (∀ k1 ∈ b.keys.take kp,
        ((k1.ekey o : EKey) : WithBot EKey) ≤ g.lo (childAt b.keys b.nextChild kp)) := by
  unfold childAt at hn ⊢
  cases hd : b.keys.drop kp with
  | nil =>
    rw [hd] at hn
    simp only at hn ⊢
    obtain ⟨h1, h2, h3, h4, _⟩ := h.next_child hn
    exact ⟨h1, h2, h3, fun k1 hk1 => h4 k1 (List.mem_of_mem_take hk1)⟩
  | cons u rest =>
    rw [hd] at hn
    simp only at hn ⊢
    have hu : u ∈ b.keys := List.mem_of_mem_drop (hd ▸ List.mem_cons_self u rest)
    obtain ⟨h1, h2, h3, h4, _⟩ := h.slot_child u hu hn
    refine ⟨h1, h2, h3, ?_⟩
    intro k1 hk1
    apply h4 k1 (List.mem_of_mem_take hk1)
    have hs := h.sorted
    unfold SortedSlots at hs
    rw [← List.take_append_drop kp b.keys, hd, List.pairwise_append] at hs
    exact hs.2.2 k1 hk1 u (List.mem_cons_self _ _)

/-- Once the slot is in the page and the child links around it are wired, the
page satisfies the page condition. -/
theorem PagePF.inserted {o : Ordering} {s : State} {g : Ghost} {fl : Set DiskLoc} {l : DiskLoc}
    {b b3 : BtreeBucket} (h : PagePF o s g l b) {kp : Nat} {recordLoc : DiskLoc} {key : BSONObj}
    {lchild rchild : DiskLoc}
    (pre : InsPre o g fl l b kp (entryKey o key recordLoc.clearLow) lchild rchild)
    (hrl : 0 ≤ recordLoc.a ∧ 2 ≤ recordLoc.ofs)
    (hr : rchild ≠ DiskLoc.Null → ∃ rb, s.pages rchild = some rb ∧ rb.parent = l)
    (hkeys : b3.keys = b.keys.take kp ++
      ⟨lchild, recordLoc, key⟩ :: wireRight rchild (b.keys.drop kp))
    (hnext : b3.nextChild = if b.keys.drop kp = [] then rchild else b.nextChild) :
    PagePF o s g l b3 := by
  have hsplit : b.keys = b.keys.take kp ++ b.keys.drop kp := (List.take_append_drop kp _).symm
  have hnew : (⟨lchild, recordLoc, key⟩ : _KeyNode).ekey o = entryKey o key recordLoc.clearLow :=
    rfl
  have hlch := h.of_childAt kp
  rw [pre.lchild_eq] at hlch
  -- the bounds of the new slot's left child
  have hleft : lchild ≠ DiskLoc.Null →
      (∃ cb, s.pages lchild = some cb ∧ cb.parent = l) ∧ g.rank lchild < g.rank l ∧
      g.lo l ≤ g.lo lchild ∧
      (∀ k1 ∈ b.keys.take kp, ((k1.ekey o : EKey) : WithBot EKey) ≤ g.lo lchild) ∧
      g.hi lchild ≤ ((entryKey o key recordLoc.clearLow : EKey) : WithTop EKey) := by
    intro hn
    obtain ⟨h1, h2, h3, h4⟩ := hlch hn
    have hrn : rchild ≠ DiskLoc.Null := fun hc => hn (pre.rnull hc)
    exact ⟨h1, h2, h3, h4, (pre.rfloat hrn).2.2.1⟩
  -- the bounds of the right child
  have hright : rchild ≠ DiskLoc.Null →
      (∃ cb, s.pages rchild = some cb ∧ cb.parent = l) ∧ g.rank rchild < g.rank l ∧
      g.lo l ≤ g.lo rchild ∧
      (∀ k1 ∈ b.keys.take kp, ((k1.ekey o : EKey) : WithBot EKey) ≤ g.lo rchild) ∧
      ((entryKey o key recordLoc.clearLow : EKey) : WithBot EKey) ≤ g.lo rchild := by
    intro hn
    obtain ⟨_, _, _, h4, _, _, h7⟩ := pre.rfloat hn
    refine ⟨hr hn, h7, le_trans (le_of_lt pre.lo_lt) h4, ?_, h4⟩
    intro k1 hk1
    exact le_trans (WithBot.coe_le_coe.mpr (le_of_lt (pre.before k1 hk1))) h4
  cases hd : b.keys.drop kp with
  | nil =>
    rw [hd] at hkeys hnext hsplit
    simp only [wireRight, if_true, List.append_nil] at hkeys hnext hsplit
    have hmem : ∀ k1, k1 ∈ b3.keys ↔ k1 ∈ b.keys ∨ k1 = ⟨lchild, recordLoc, key⟩ := by
      intro k1
      rw [hkeys, ← hsplit]
      simp
    have hbefore : ∀ k ∈ b.keys, k.ekey o < entryKey o key recordLoc.clearLow := by
      intro k hk
      rw [hsplit] at hk
      exact pre.before k hk
    refine
      { sorted := ?_
        lo_lt := ?_
        lt_hi := ?_
        rl_valid := ?_
        slot_child := ?_
        next_child := ?_ }
    · rw [hkeys, ← hsplit]
      have := h.sorted
      rw [← List.append_nil b.keys] at this
      exact this.insert (fun k hk => hbefore k hk) (fun k hk => absurd hk (List.not_mem_nil k))
    · intro k1 hk1
      rcases (hmem k1).mp hk1 with hk | rfl
      · exact h.lo_lt k1 hk
      · exact pre.lo_lt
    · intro k1 hk1
      rcases (hmem k1).mp hk1 with hk | rfl
      · exact h.lt_hi k1 hk
      · exact pre.lt_hi
    · intro k1 hk1
      rcases (hmem k1).mp hk1 with hk | rfl
      · exact h.rl_valid k1 hk
      · exact hrl
    · intro k1 hk1 hn
      rcases (hmem k1).mp hk1 with hk | rfl
      · obtain ⟨h1, h2, h3, h4, h5⟩ := h.slot_child k1 hk hn
        refine ⟨h1, h2, h3, ?_, h5⟩
        intro k2 hk2 hlt
        rcases (hmem k2).mp hk2 with hk2 | rfl
        · exact h4 k2 hk2 hlt
        · exact absurd (lt_trans hlt (hbefore k1 hk)) (lt_irrefl _)
      · simp only at hn ⊢
        obtain ⟨h1, h2, h3, h4, h5⟩ := hleft hn
        refine ⟨h1, h2, h3, ?_, h5⟩
        intro k2 hk2 hlt
        rcases (hmem k2).mp hk2 with hk2 | rfl
        · exact h4 k2 (by rw [← hsplit]; exact hk2)
        · exact absurd hlt (lt_irrefl _)
    · rw [hnext]
      intro hn
      obtain ⟨h1, h2, h3, h4, h5⟩ := hright hn
      refine ⟨h1, h2, h3, ?_, (pre.rfloat hn).2.2.2.2.2.1⟩
      intro k2 hk2
      rcases (hmem k2).mp hk2 with hk2 | rfl
      · exact h4 k2 (by rw [← hsplit]; exact hk2)
      · exact h5
  | cons u rest =>
    rw [hd] at hkeys hnext hsplit
    simp only [wireRight, if_false] at hkeys hnext
    rw [if_neg (List.cons_ne_nil u rest)] at hnext
    have hu : u ∈ b.keys := by rw [hsplit]; simp
    have hue : ({ u with prevChildBucket := rchild } : _KeyNode).ekey o = u.ekey o :=
      ekey_congr o rfl rfl
    have hlc : u.prevChildBucket = lchild := by
      have := pre.lchild_eq
      unfold childAt at this
      rw [hd] at this
      exact this
    have hafter : ∀ k ∈ u :: rest, entryKey o key recordLoc.clearLow < k.ekey o := by
      intro k hk
      exact pre.after k (hd ▸ hk)
    have hsorted := h.sorted
    rw [hsplit] at hsorted
    have hurest : ∀ k ∈ rest, u.ekey o < k.ekey o := by
      unfold SortedSlots at hsorted
      rw [List.pairwise_append, List.pairwise_cons] at hsorted
      exact hsorted.2.1.1
    have hmem : ∀ k1, k1 ∈ b3.keys ↔ k1 ∈ b.keys.take kp ∨ k1 = ⟨lchild, recordLoc, key⟩ ∨
        k1 = { u with prevChildBucket := rchild } ∨ k1 ∈ rest := by
      intro k1
      rw [hkeys]
      simp
    have hmemb : ∀ k1, k1 ∈ b.keys ↔ k1 ∈ b.keys.take kp ∨ k1 = u ∨ k1 ∈ rest := by
      intro k1
      conv_lhs => rw [hsplit]
      simp
    -- every slot of the new page other than the new one mirrors a slot of the page
    have hmir : ∀ k1 ∈ b3.keys, k1 = ⟨lchild, recordLoc, key⟩ ∨
        ∃ k ∈ b.keys, k1.ekey o = k.ekey o ∧ k1.recordLoc = k.recordLoc ∧
          (k1 = k ∨ (k = u ∧ k1 = { u with prevChildBucket := rchild })) := by
      intro k1 hk1
      rcases (hmem k1).mp hk1 with hk | rfl | rfl | hk
      · exact Or.inr ⟨k1, (hmemb k1).mpr (Or.inl hk), rfl, rfl, Or.inl rfl⟩
      · exact Or.inl rfl
      · exact Or.inr ⟨u, hu, hue, rfl, Or.inr ⟨rfl, rfl⟩⟩
      · exact Or.inr ⟨k1, (hmemb k1).mpr (Or.inr (Or.inr hk)), rfl, rfl, Or.inl rfl⟩
    -- every slot of the page is matched by a slot of the new page at the same place
    have hle_of : ∀ (x : WithBot EKey),
        (∀ k ∈ b.keys, ((k.ekey o : EKey) : WithBot EKey) ≤ x) →
        ∀ k2 ∈ b3.keys, ((k2.ekey o : EKey) : WithBot EKey) ≤ x := by
      intro x hx k2 hk2
      rcases hmir k2 hk2 with rfl | ⟨k, hk, he, _, _⟩
      · rw [hnew]
        exact le_trans (WithBot.coe_le_coe.mpr (le_of_lt (hafter u (List.mem_cons_self _ _))))
          (hx u hu)
      · rw [he]; exact hx k hk
    refine
      { sorted := ?_
        lo_lt := ?_
        lt_hi := ?_
        rl_valid := ?_
        slot_child := ?_
        next_child := ?_ }
    · rw [hkeys]
      have h1 : SortedSlots o (b.keys.take kp ++ ⟨lchild, recordLoc, key⟩ :: u :: rest) :=
        hsorted.insert (fun k hk => pre.before k hk) (fun k hk => hafter k hk)
      have h2 := SortedSlots.replace
        (A := b.keys.take kp ++ [⟨lchild, recordLoc, key⟩]) (C := rest) (u := u)
        (w := { u with prevChildBucket := rchild }) (by simpa using h1) hue
      simpa using h2
    · intro k1 hk1
      rcases hmir k1 hk1 with rfl | ⟨k, hk, he, _, _⟩
      · exact pre.lo_lt
      · rw [he]; exact h.lo_lt k hk
    · intro k1 hk1
      rcases hmir k1 hk1 with rfl | ⟨k, hk, he, _, _⟩
      · exact pre.lt_hi
      · rw [he]; exact h.lt_hi k hk
    · intro k1 hk1
      rcases hmir k1 hk1 with rfl | ⟨k, hk, _, hr1, _⟩
      · exact hrl
      · rw [hr1]; exact h.rl_valid k hk
    · intro k1 hk1 hn
      rcases (hmem k1).mp hk1 with hk | rfl | rfl | hk
      · -- a slot before the new one
        have hkb : k1 ∈ b.keys := (hmemb k1).mpr (Or.inl hk)
        obtain ⟨h1, h2, h3, h4, h5⟩ := h.slot_child k1 hkb hn
        refine ⟨h1, h2, h3, ?_, h5⟩
        intro k2 hk2 hlt
        rcases hmir k2 hk2 with rfl | ⟨k, hk3, he, _, _⟩
        · exact absurd (lt_trans hlt (pre.before k1 hk)) (lt_irrefl _)
        · rw [he] at hlt ⊢
          exact h4 k hk3 hlt
      · -- the new slot
        simp only at hn ⊢
        obtain ⟨h1, h2, h3, h4, h5⟩ := hleft hn
        refine ⟨h1, h2, h3, ?_, h5⟩
        intro k2 hk2 hlt
        rcases (hmem k2).mp hk2 with hk2 | rfl | rfl | hk2
        · exact h4 k2 hk2
        · exact absurd hlt (lt_irrefl _)
        · rw [hue, hnew] at hlt
          exact absurd (lt_trans hlt (hafter u (List.mem_cons_self _ _))) (lt_irrefl _)
        · rw [hnew] at hlt
          exact absurd (lt_trans hlt (hafter k2 (List.mem_cons_of_mem _ hk2))) (lt_irrefl _)
      · -- the slot after the new one, which gets `rchild`
        simp only at hn ⊢
        obtain ⟨h1, h2, h3, h4, h5⟩ := hright hn
        refine ⟨h1, h2, h3, ?_, ?_⟩
        · intro k2 hk2 hlt
          rw [hue] at hlt
          rcases (hmem k2).mp hk2 with hk2 | rfl | rfl | hk2
          · exact h4 k2 hk2
          · exact h5
          · rw [hue] at hlt
            exact absurd hlt (lt_irrefl _)
          · exact absurd (lt_trans hlt (hurest k2 hk2)) (lt_irrefl _)
        · rw [hue]
          exact (pre.rfloat hn).2.2.2.2.1 u (hd ▸ List.mem_cons_self _ _)
      · -- a slot further on
        have hkb : k1 ∈ b.keys := (hmemb k1).mpr (Or.inr (Or.inr hk))
        obtain ⟨h1, h2, h3, h4, h5⟩ := h.slot_child k1 hkb hn
        refine ⟨h1, h2, h3, ?_, h5⟩
        intro k2 hk2 hlt
        rcases hmir k2 hk2 with rfl | ⟨k, hk3, he, _, _⟩
        · rw [hnew]
          exact le_trans
            (WithBot.coe_le_coe.mpr (le_of_lt (hafter u (List.mem_cons_self _ _))))
            (h4 u hu (hurest k1 hk))
        · rw [he] at hlt ⊢
          exact h4 k hk3 hlt
    · rw [hnext]
      intro hn
      obtain ⟨h1, h2, h3, h4, h5⟩ := h.next_child hn
      exact ⟨h1, h2, h3, hle_of _ h4, h5⟩

end BtreeBucket
end mongo

namespace mongo
namespace BtreeBucket

theorem isChild_childAt (b : BtreeBucket) (kp : Nat) :
    IsChild b (childAt b.keys b.nextChild kp) := by
  unfold childAt
  cases hd : b.keys.drop kp with
  | nil => exact Or.inl rfl
  | cons u rest =>
    exact Or.inr ⟨u, List.mem_of_mem_drop (hd ▸ List.mem_cons_self u rest), rfl⟩

/-- The child links of the page with the new slot wired in: those of the page,
and `rchild`. -/
theorem isChild_inserted {b b3 : BtreeBucket} {kp : Nat} {recordLoc : DiskLoc} {key : BSONObj}
    {lchild rchild : DiskLoc}
    (hlc : childAt b.keys b.nextChild kp = lchild)
    (hkeys : b3.keys = b.keys.take kp ++
      ⟨lchild, recordLoc, key⟩ :: wireRight rchild (b.keys.drop kp))
    (hnext : b3.nextChild = if b.keys.drop kp = [] then rchild else b.nextChild) :
    (∀ ch, IsChild b ch → IsChild b3 ch) ∧ (∀ ch, IsChild b3 ch → ch = rchild ∨ IsChild b ch) ∧
      IsChild b3 rchild := by
  have hsplit : b.keys = b.keys.take kp ++ b.keys.drop kp := (List.take_append_drop kp _).symm
  have hlch : IsChild b lchild := hlc ▸ isChild_childAt b kp
  unfold childAt at hlc
  cases hd : b.keys.drop kp with
  | nil =>
    rw [hd] at hkeys hnext hsplit hlc
    simp only [wireRight, if_true, List.append_nil] at hkeys hnext hsplit hlc
    refine ⟨?_, ?_, Or.inl hnext⟩
    · rintro ch (h | ⟨k, hk, h⟩)
      · exact Or.inr ⟨⟨lchild, recordLoc, key⟩, by rw [hkeys]; simp, by rw [← h, hlc]⟩
      · exact Or.inr ⟨k, by rw [hkeys, ← hsplit]; simp [hk], h⟩
    · rintro ch (h | ⟨k, hk, h⟩)
      · exact Or.inl (by rw [← h, hnext])
      · rw [hkeys, ← hsplit] at hk
        rcases List.mem_append.mp hk with hk | hk
        · exact Or.inr (Or.inr ⟨k, hk, h⟩)
        · rw [List.mem_singleton] at hk
          subst hk
          exact Or.inr (h ▸ hlch)
  | cons u rest =>
    rw [hd] at hkeys hnext hsplit hlc
    simp only [wireRight] at hkeys hnext hlc
    rw [if_neg (List.cons_ne_nil u rest)] at hnext
    have hmem : ∀ k1, k1 ∈ b3.keys ↔ k1 ∈ b.keys.take kp ∨ k1 = ⟨lchild, recordLoc, key⟩ ∨
        k1 = { u with prevChildBucket := rchild } ∨ k1 ∈ rest := by
      intro k1
      rw [hkeys]
      simp
    have hmemb : ∀ k1, k1 ∈ b.keys ↔ k1 ∈ b.keys.take kp ∨ k1 = u ∨ k1 ∈ rest := by
      intro k1
      conv_lhs => rw [hsplit]
      simp
    refine ⟨?_, ?_, Or.inr ⟨{ u with prevChildBucket := rchild },
      (hmem _).mpr (Or.inr (Or.inr (Or.inl rfl))), rfl⟩⟩
    · rintro ch (h | ⟨k, hk, h⟩)
      · exact Or.inl (hnext.trans h)
      · rcases (hmemb k).mp hk with hk | rfl | hk
        · exact Or.inr ⟨k, (hmem k).mpr (Or.inl hk), h⟩
        · exact Or.inr ⟨⟨lchild, recordLoc, key⟩, (hmem _).mpr (Or.inr (Or.inl rfl)),
            by rw [← h, hlc]⟩
        · exact Or.inr ⟨k, (hmem k).mpr (Or.inr (Or.inr (Or.inr hk))), h⟩
    · rintro ch (h | ⟨k, hk, h⟩)
      · exact Or.inr (Or.inl (hnext ▸ h))
      · rcases (hmem k).mp hk with hk | rfl | rfl | hk
        · exact Or.inr (Or.inr ⟨k, (hmemb k).mpr (Or.inl hk), h⟩)
        · exact Or.inr (h ▸ hlch)
        · exact Or.inl h.symm
        · exact Or.inr (Or.inr ⟨k, (hmemb k).mpr (Or.inr (Or.inr hk)), h⟩)

/-- Putting a slot into a page of a forest, with the child links around it
wired, keeps the invariant; the root that became the right child of the slot is
a root no longer. -/
theorem GInv.put_inserted {c : Layout} {o : Ordering} {s : State} {g : Ghost}
    {fl : Set DiskLoc} (h : GInv c o s g fl) {l : DiskLoc} {b b3 : BtreeBucket}
    (hl : s.pages l = some b) {kp : Nat} {recordLoc : DiskLoc} {key : BSONObj}
    {lchild rchild : DiskLoc}
    (pre : InsPre o g fl l b kp (entryKey o key recordLoc.clearLow) lchild rchild)
    (hrl : 0 ≤ recordLoc.a ∧ 2 ≤ recordLoc.ofs)
    (hr : rchild ≠ DiskLoc.Null → ∃ rb, s.pages rchild = some rb ∧ rb.parent = l)
    (hkeys : b3.keys = b.keys.take kp ++
      ⟨lchild, recordLoc, key⟩ :: wireRight rchild (b.keys.drop kp))
    (hnext : b3.nextChild = if b.keys.drop kp = [] then rchild else b.nextChild)
    (hpar : b3.parent = b.parent) (hsz : PageSizes c b3) :
    GInv c o (s.put l b3) g (fl \ {rchild}) := by
  obtain ⟨hc1, hc2, hc3⟩ := isChild_inserted pre.lchild_eq hkeys hnext
  have hpf := (h.page l b hl).inserted pre hrl hr hkeys hnext
  refine h.put hl (fun _ => hpar) hpf hsz ?_ ?_ (fun ch _ hc => hc1 ch hc) ?_
  · intro _ hcon
    rw [hkeys] at hcon
    simp at hcon
  · intro _ hcon
    rw [hkeys] at hcon
    simp at hcon
  · intro r
    constructor
    · rintro ⟨hr1, hr2⟩
      refine ⟨hr1, ?_⟩
      intro hc
      rcases hc2 r hc with hc | hc
      · exact hr2 hc
      · exact (h.float r hr1).2.2 l b hl hc
    · rintro ⟨hr1, hr2⟩
      refine ⟨hr1, ?_⟩
      intro hc
      rw [Set.mem_singleton_iff] at hc
      exact hr2 (hc ▸ hc3)

end BtreeBucket
end mongo

namespace mongo
namespace BtreeBucket

/-! ## The page operations of a split -/

theorem woCompare_le_of_ekey_lt (o : Ordering) {a b : _KeyNode} (h : a.ekey o < b.ekey o) :
    a.key.woCompare b.key o ≤ 0 := by
  rw [EKey.lt_iff] at h
  rcases h with h | ⟨h, _⟩
  · exact le_of_lt ((woCompare_lt_iff o a.key b.key).mpr h)
  · exact le_of_eq ((woCompare_eq_iff o a.key b.key).mpr h)

/-- The outcome of `pushBack` on a page with room for the slot. -/
theorem pushBack_spec (c : Layout) (hc : Layout.Sane c) (o : Ordering) (b : BtreeBucket)
    (recordLoc : DiskLoc) (key : BSONObj) (prev : DiskLoc) (hsz : PageSizes c b)
    (hpos : 0 < key.objsize) (hle : key.objsize ≤ KeyMax c)
    (hroom : key.objsize + c.slotSize ≤ b.emptySize)
    (hord : ∀ last, b.keys.getLast? = some last → last.key.woCompare key o ≤ 0) :
    ∃ b1, pushBack c b recordLoc key o prev = .ok b1 ∧
      b1.keys = b.keys ++ [⟨prev, recordLoc, key⟩] ∧ b1.parent = b.parent ∧
      b1.nextChild = b.nextChild ∧ PageSizes c b1 ∧
      b1.emptySize = b.emptySize - c.slotSize - key.objsize ∧ b1.packed = b.packed := by
  have hacc := hsz.accounting
  unfold sizeAccounting at hacc
  simp only [n] at hacc
  have hofs : totalDataSize c - (b.topSize + key.objsize) > 0 := by
    have h1 : 0 ≤ (b.keys.length : Int) * c.slotSize :=
      mul_nonneg (by exact_mod_cast Nat.zero_le _) (le_of_lt hc.slot_pos)
    have := hc.slot_pos
    unfold totalDataSize
    omega
  have hres : pushBack c b recordLoc key o prev = .ok
      { b with emptySize := b.emptySize - c.slotSize - key.objsize
               topSize := b.topSize + key.objsize
               keys := b.keys ++ [⟨prev, recordLoc, key⟩] } := by
    unfold pushBack _pushBack
    cases hl : b.keys.getLast? with
    | none =>
      simp only [gt_iff_lt, not_lt.mpr hroom, if_false, not_true_eq_false, _alloc, hofs,
        if_true]
    | some last =>
      have h1 : decide (last.key.woCompare key o ≤ 0) = true := by simpa using hord last hl
      simp only [gt_iff_lt, not_lt.mpr hroom, if_false, h1, not_true_eq_false, _alloc, hofs,
        if_true]
  refine ⟨_, hres, rfl, rfl, rfl, ?_, rfl, rfl⟩
  have hbytes : keyBytes (b.keys ++ [⟨prev, recordLoc, key⟩]) = keyBytes b.keys + key.objsize := by
    rw [keyBytes_append]; simp [keyBytes]
  refine
    { accounting := ?_
      empty_nonneg := ?_
      bytes_le := ?_
      bytes_eq := ?_
      key_pos := ?_
      key_le := ?_ }
  · unfold sizeAccounting
    simp only [n, List.length_append, List.length_singleton]
    push_cast
    have : ((b.keys.length : Int) + 1) * c.slotSize
        = (b.keys.length : Int) * c.slotSize + c.slotSize := by ring
    rw [this]
    omega
  · show 0 ≤ b.emptySize - c.slotSize - key.objsize
    omega
  · show keyBytes _ ≤ b.topSize + key.objsize
    rw [hbytes]
    have := hsz.bytes_le
    omega
  · intro hp
    show keyBytes _ = b.topSize + key.objsize
    rw [hbytes, hsz.bytes_eq hp]
  · intro k hk
    rcases List.mem_append.mp hk with h | h
    · exact hsz.key_pos k h
    · rw [List.mem_singleton] at h; subst h; exact hpos
  · intro k hk
    rcases List.mem_append.mp hk with h | h
    · exact hsz.key_le k h
    · rw [List.mem_singleton] at h; subst h; exact hle

/-- The outcome of a run of `pushBack` for slots that the page has room for. -/
theorem pushBackAll_spec (c : Layout) (hc : Layout.Sane c) (o : Ordering) :
    ∀ (ks : List _KeyNode) (b : BtreeBucket), PageSizes c b →
      (∀ k ∈ ks, 0 < k.key.objsize ∧ k.key.objsize ≤ KeyMax c) →
      keyBytes ks + (ks.length : Int) * c.slotSize ≤ b.emptySize →
      SortedSlots o (b.keys ++ ks) →
      ∃ b1, pushBackAll c o ks b = .ok b1 ∧ b1.keys = b.keys ++ ks ∧ b1.parent = b.parent ∧
        b1.nextChild = b.nextChild ∧ PageSizes c b1 ∧ b1.packed = b.packed := by
  intro ks
  induction ks with
  | nil =>
    intro b hsz _ _ _
    exact ⟨b, rfl, by simp, rfl, rfl, hsz, rfl⟩
  | cons k ks ih =>
    intro b hsz hks hroom hsorted
    have hk := hks k (List.mem_cons_self _ _)
    have hnn : 0 ≤ keyBytes ks + (ks.length : Int) * c.slotSize := by
      have h1 : 0 ≤ (ks.length : Int) * c.slotSize :=
        mul_nonneg (by exact_mod_cast Nat.zero_le _) (le_of_lt hc.slot_pos)
      have h2 : ∀ l : List _KeyNode, (∀ x ∈ l, 0 < x.key.objsize) → 0 ≤ keyBytes l := by
        intro l
        induction l with
        | nil => intro _; simp [keyBytes]
        | cons x l ihl =>
          intro hx
          have := ihl (fun y hy => hx y (List.mem_cons_of_mem _ hy))
          have := hx x (List.mem_cons_self _ _)
          simp only [keyBytes]; omega
      have := h2 ks (fun x hx => (hks x (List.mem_cons_of_mem _ hx)).1)
      omega
    have hroom1 : k.key.objsize + c.slotSize ≤ b.emptySize := by
      simp only [keyBytes, List.length_cons] at hroom
      push_cast at hroom
      have : ((ks.length : Int) + 1) * c.slotSize = (ks.length : Int) * c.slotSize + c.slotSize := by
        ring
      rw [this] at hroom
      omega
    have hord : ∀ last, b.keys.getLast? = some last → last.key.woCompare k.key o ≤ 0 := by
      intro last hl
      apply woCompare_le_of_ekey_lt
      unfold SortedSlots at hsorted
      rw [List.pairwise_append] at hsorted
      exact hsorted.2.2 last (List.mem_of_mem_getLast? hl) k (List.mem_cons_self _ _)
    obtain ⟨b1, h1, h2, h3, h4, h5, h6, h7⟩ :=
      pushBack_spec c hc o b k.recordLoc k.key k.prevChildBucket hsz hk.1 hk.2 hroom1 hord
    have hkeys1 : b1.keys = b.keys ++ [k] := h2
    have hroom2 : keyBytes ks + (ks.length : Int) * c.slotSize ≤ b1.emptySize := by
      rw [h6]
      simp only [keyBytes, List.length_cons] at hroom
      push_cast at hroom
      have : ((ks.length : Int) + 1) * c.slotSize = (ks.length : Int) * c.slotSize + c.slotSize := by
        ring
      rw [this] at hroom
      omega
    obtain ⟨b2, g1, g2, g3, g4, g5, g6⟩ := ih b1 h5
      (fun x hx => hks x (List.mem_cons_of_mem _ hx)) hroom2
      (by rw [hkeys1, List.append_assoc]; exact hsorted)
    refine ⟨b2, ?_, ?_, g3.trans h3, g4.trans h4, g5, g6.trans h7⟩
    · simp only [pushBackAll, h1]
      exact g1
    · rw [g2, hkeys1, List.append_assoc]
      rfl

theorem keyBytes_le_of_le (M : Int) (ks : List _KeyNode) (h : ∀ k ∈ ks, k.key.objsize ≤ M) :
    keyBytes ks ≤ (ks.length : Int) * M := by
  induction ks with
  | nil => simp [keyBytes]
  | cons k ks ih =>
    have h1 := ih (fun x hx => h x (List.mem_cons_of_mem _ hx))
    have h2 := h k (List.mem_cons_self _ _)
    simp only [keyBytes, List.length_cons]
    push_cast
    have : ((ks.length : Int) + 1) * M = (ks.length : Int) * M + M := by ring
    rw [this]
    omega

/-- A packed page without room for a key of an accepted size has more than two
slots. -/
theorem length_gt_two_of_no_room (c : Layout) (hc : Layout.Sane c) (b : BtreeBucket)
    (hsz : PageSizes c b) (hp : b.packed = true) (key : BSONObj) (hpos : 0 < key.objsize)
    (hle : key.objsize ≤ KeyMax c) (hno : b.emptySize < key.objsize + c.slotSize) :
    2 < b.keys.length := by
  by_contra hcon
  have hlen : b.keys.length ≤ 2 := by omega
  have hacc := hsz.accounting
  unfold sizeAccounting at hacc
  simp only [n] at hacc
  have hb := hsz.bytes_eq hp
  have h1 := keyBytes_le_of_le (KeyMax c) b.keys hsz.key_le
  have hroom := hc.room
  have hslot := hc.slot_pos
  have hK : 0 ≤ KeyMax c := by omega
  have h2 : (b.keys.length : Int) * KeyMax c ≤ 2 * KeyMax c :=
    mul_le_mul_of_nonneg_right (by exact_mod_cast hlen) hK
  have h3 : (b.keys.length : Int) * c.slotSize ≤ 2 * c.slotSize :=
    mul_le_mul_of_nonneg_right (by exact_mod_cast hlen) (le_of_lt hslot)
  omega

theorem splitPos_spec (b : BtreeBucket) (kp : Nat) (h : 2 < b.keys.length) :
    ∃ sp, splitPos b kp = .ok sp ∧ 1 ≤ sp ∧ sp + 2 ≤ b.keys.length := by
  unfold splitPos
  rw [if_neg (not_not.mpr h)]
  simp only
  generalize splitPosLoop _ _ _ _ = x
  by_cases h1 : x < 1
  · rw [if_pos h1]
    exact ⟨1, rfl, le_refl _, by omega⟩
  · rw [if_neg h1]
    by_cases h2 : x > b.keys.length - 2
    · rw [if_pos h2]
      exact ⟨b.keys.length - 2, rfl, by omega, by omega⟩
    · rw [if_neg h2]
      exact ⟨x, rfl, by omega, by omega⟩

/-- The outcome of `truncateTo` on a page that satisfies the size condition. -/
theorem truncateTo_spec (c : Layout) (hc : Layout.Sane c) (b : BtreeBucket) (N r : Nat)
    (hsz : PageSizes c b) (hN : N ≤ b.keys.length) :
    ∃ t np, truncateTo c b N r = .ok (t, np) ∧ t.parent = b.parent ∧
      t.nextChild = b.nextChild ∧ PageSizes c t ∧ t.keys = keepFrom r 0 (b.keys.take N) ∧
      (r ≤ N → PackedAt { b with keys := b.keys.take N, packed := false } t r np) := by
  have hsub : (b.keys.take N).Sublist b.keys := List.take_sublist N b.keys
  have hfit := fits_of_pageSizes c hc b hsz
  have hfit1 : keyBytes (b.keys.take N) + ((b.keys.take N).length : Int) * c.slotSize
      ≤ totalDataSize c := by
    have h1 := keyBytes_sublist hsub hsz.key_pos
    have h2 : ((b.keys.take N).length : Int) * c.slotSize ≤ (b.keys.length : Int) * c.slotSize :=
      mul_le_mul_of_nonneg_right (by exact_mod_cast hsub.length_le) (le_of_lt hc.slot_pos)
    omega
  by_cases hr : r ≤ N
  · obtain ⟨t, np, h1, h2, h3, h4, h5⟩ :=
      pack_spec_fits c hc { b with keys := b.keys.take N, packed := false } r hfit1
        (fun k hk => hsz.key_pos k (hsub.subset hk)) (fun k hk => hsz.key_le k (hsub.subset hk))
        (by simp only [List.length_take]; omega) rfl
    exact ⟨t, np, h1, h2.parent, h2.nextChild, h3, h5, fun _ => h2⟩
  · -- the insertion point is beyond the kept slots: `pack` is run with a position
    -- that no kept slot has
    have := pack_eq_of_not_packed c { b with keys := b.keys.take N, packed := false } r rfl
    unfold truncateTo
    rw [this]
    have hsub2 := keepFrom_sublist r (b.keys.take N) 0
    have hbytes := keyBytes_sublist hsub2 (fun k hk => hsz.key_pos k (hsub.subset hk))
    have he : totalDataSize c - keyBytes (keepFrom r 0 (b.keys.take N))
        - ((keepFrom r 0 (b.keys.take N)).length : Int) * c.slotSize ≥ 0 := by
      have h3 : ((keepFrom r 0 (b.keys.take N)).length : Int) * c.slotSize
          ≤ ((b.keys.take N).length : Int) * c.slotSize :=
        mul_le_mul_of_nonneg_right (by exact_mod_cast hsub2.length_le) (le_of_lt hc.slot_pos)
      omega
    simp only [he, not_true_eq_false, if_false]
    refine ⟨_, _, rfl, rfl, rfl, ?_, rfl, fun h => absurd h hr⟩
    refine
      { accounting := ?_
        empty_nonneg := he
        bytes_le := le_refl _
        bytes_eq := fun _ => rfl
        key_pos := fun k hk => hsz.key_pos k (hsub.subset (hsub2.subset hk))
        key_le := fun k hk => hsz.key_le k (hsub.subset (hsub2.subset hk)) }
    unfold sizeAccounting totalDataSize
    simp only [n]
    omega

/-- The outcome of `truncateTo` does not depend on the parent link, which it
keeps. -/
theorem truncateTo_parent (c : Layout) (b : BtreeBucket) (p : DiskLoc) (N r : Nat)
    (t : BtreeBucket) (np : Nat) (h : truncateTo c b N r = .ok (t, np)) :
    truncateTo c { b with parent := p } N r = .ok ({ t with parent := p }, np) := by
  unfold truncateTo at h ⊢
  rw [pack_eq_of_not_packed _ _ _ rfl] at h ⊢
  simp only at h ⊢
  split at h
  · cases h
  · rename_i he
    rw [if_neg he]
    cases h
    rfl

end BtreeBucket
end mongo

namespace mongo
namespace BtreeBucket

/-! ## Re-parenting the children of a page -/

theorem PageSizes.congr {c : Layout} {b b1 : BtreeBucket} (h : PageSizes c b)
    (hk : b1.keys = b.keys) (he : b1.emptySize = b.emptySize) (ht : b1.topSize = b.topSize)
    (hp : b1.packed = b.packed) : PageSizes c b1 :=
  { accounting := by
      have := h.accounting
      unfold sizeAccounting at this ⊢
      simp only [n] at this ⊢
      rw [hk, he, ht]; exact this
    empty_nonneg := he ▸ h.empty_nonneg
    bytes_le := by rw [hk, ht]; exact h.bytes_le
    bytes_eq := by rw [hk, ht, hp]; exact h.bytes_eq
    key_pos := hk ▸ h.key_pos
    key_le := hk ▸ h.key_le }

/-- The outcome of `fix` for each locator of a list: the pages at the locators
that are not null have the parent link `thisLoc`, and nothing else changed. -/
theorem fixAll_spec (thisLoc : DiskLoc) :
    ∀ (chs : List DiskLoc) (s : State),
      (∀ ch ∈ chs, ch ≠ DiskLoc.Null → ∃ cb, s.pages ch = some cb) →
      ∃ s1, fixAll thisLoc chs s = .ok s1 ∧ s1.head = s.head ∧ s1.allocNext = s.allocNext ∧
        (∀ l, l ∈ chs → l ≠ DiskLoc.Null → ∀ cb, s.pages l = some cb →
          s1.pages l = some { cb with parent := thisLoc }) ∧
        (∀ l, ¬ (l ∈ chs ∧ l ≠ DiskLoc.Null) → s1.pages l = s.pages l) := by
  intro chs
  induction chs with
  | nil =>
    intro s _
    exact ⟨s, rfl, rfl, rfl, fun l hl => absurd hl (List.not_mem_nil l), fun l _ => rfl⟩
  | cons ch rest ih =>
    intro s hm
    by_cases hn : ch = DiskLoc.Null
    · obtain ⟨s1, h1, h2, h3, h4, h5⟩ := ih s (fun x hx => hm x (List.mem_cons_of_mem _ hx))
      refine ⟨s1, ?_, h2, h3, ?_, ?_⟩
      · simp only [fixAll, hn, fix_null]
        exact h1
      · intro l hl hln cb hcb
        rcases List.mem_cons.mp hl with rfl | hl
        · exact absurd hn hln
        · exact h4 l hl hln cb hcb
      · intro l hl
        apply h5
        rintro ⟨h6, h7⟩
        exact hl ⟨List.mem_cons_of_mem _ h6, h7⟩
    · obtain ⟨cb0, hcb0⟩ := hm ch (List.mem_cons_self _ _) hn
      have hm1 : ∀ x ∈ rest, x ≠ DiskLoc.Null →
          ∃ cb, (s.put ch { cb0 with parent := thisLoc }).pages x = some cb := by
        intro x hx hxn
        rw [State.put_pages]
        by_cases hxc : x = ch
        · exact ⟨_, by rw [if_pos hxc]⟩
        · rw [if_neg hxc]
          exact hm x (List.mem_cons_of_mem _ hx) hxn
      obtain ⟨s1, h1, h2, h3, h4, h5⟩ := ih (s.put ch { cb0 with parent := thisLoc }) hm1
      refine ⟨s1, ?_, h2, h3, ?_, ?_⟩
      · simp only [fixAll, fix_mapped s thisLoc ch cb0 hn hcb0]
        exact h1
      · intro l hl hln cb hcb
        by_cases hlr : l ∈ rest
        · by_cases hlc : l = ch
          · subst hlc
            rw [hcb0] at hcb
            cases hcb
            exact h4 l hlr hln { cb0 with parent := thisLoc } (State.put_pages_same s l _)
          · exact h4 l hlr hln cb (by rw [State.put_pages_ne s _ hlc]; exact hcb)
        · have hlc : l = ch := by
            rcases List.mem_cons.mp hl with h | h
            · exact h
            · exact absurd h hlr
          subst hlc
          rw [hcb0] at hcb
          cases hcb
          rw [h5 l (fun hcon => hlr hcon.1)]
          exact State.put_pages_same s l _
      · intro l hl
        have hlr : ¬ (l ∈ rest ∧ l ≠ DiskLoc.Null) := by
          rintro ⟨h6, h7⟩
          exact hl ⟨List.mem_cons_of_mem _ h6, h7⟩
        rw [h5 l hlr]
        by_cases hlc : l = ch
        · subst hlc
          exact absurd ⟨List.mem_cons_self _ _, hn⟩ hl
        · exact State.put_pages_ne s _ hlc

/-- The child links that `fixParentPtrs` visits from `startIndex` 0 on are the
child links of the page. -/
theorem mem_children_iff (b : BtreeBucket) (l : DiskLoc) :
    l ∈ b.nextChild :: (b.keys.drop 0).map (fun k => k.prevChildBucket) ↔ IsChild b l := by
  simp only [List.drop_zero, List.mem_cons, List.mem_map]
  constructor
  · rintro (h | ⟨k, hk, h⟩)
    · exact Or.inl h.symm
    · exact Or.inr ⟨k, hk, h⟩
  · rintro (h | ⟨k, hk, h⟩)
    · exact Or.inl h.symm
    · exact Or.inr ⟨k, hk, h⟩

end BtreeBucket
end mongo

namespace mongo
namespace BtreeBucket

/-! ## Splitting a page of a forest -/

theorem splitGhost_rank_ne (o : Ordering) (g : Ghost) (l r : DiskLoc) (sk : _KeyNode)
    {x : DiskLoc} (h : x ≠ r) : (splitGhost o g l r sk).rank x = g.rank x := by
  simp [splitGhost, Function.update_noteq h]

theorem splitGhost_rank_new (o : Ordering) (g : Ghost) (l r : DiskLoc) (sk : _KeyNode) :
    (splitGhost o g l r sk).rank r = g.rank l := by
  simp [splitGhost]

theorem splitGhost_lo_ne (o : Ordering) (g : Ghost) (l r : DiskLoc) (sk : _KeyNode)
    {x : DiskLoc} (h : x ≠ r) : (splitGhost o g l r sk).lo x = g.lo x := by
  simp [splitGhost, Function.update_noteq h]

theorem splitGhost_lo_new (o : Ordering) (g : Ghost) (l r : DiskLoc) (sk : _KeyNode) :
    (splitGhost o g l r sk).lo r = ((sk.ekey o : EKey) : WithBot EKey) := by
  simp [splitGhost]

theorem splitGhost_hi_ne (o : Ordering) (g : Ghost) (l r : DiskLoc) (sk : _KeyNode)
    {x : DiskLoc} (h : x ≠ r) (h1 : x ≠ l) : (splitGhost o g l r sk).hi x = g.hi x := by
  simp [splitGhost, Function.update_noteq h, Function.update_noteq h1]

theorem splitGhost_hi_new (o : Ordering) (g : Ghost) (l r : DiskLoc) (sk : _KeyNode) :
    (splitGhost o g l r sk).hi r = g.hi l := by
  simp [splitGhost]

theorem splitGhost_hi_old (o : Ordering) (g : Ghost) (l r : DiskLoc) (sk : _KeyNode)
    (h : l ≠ r) : (splitGhost o g l r sk).hi l = ((sk.ekey o : EKey) : WithTop EKey) := by
  simp [splitGhost, Function.update_noteq h]

/-- A page cannot hang at both sides of a slot: below it and above it. -/
theorem GInv.no_child_across {c : Layout} {o : Ordering} {s : State} {g : Ghost}
    {fl : Set DiskLoc} (h : GInv c o s g fl) {l ch : DiskLoc} {b cb : BtreeBucket}
    (hl : s.pages l = some b) (hcb : s.pages ch = some cb) (hpar : cb.parent = l) (e : EKey)
    (h1 : g.hi ch ≤ ((e : EKey) : WithTop EKey)) (h2 : ((e : EKey) : WithBot EKey) ≤ g.lo ch) :
    False := by
  obtain ⟨k, _, h3, h4⟩ := h.child_has_key hl ch cb hcb hpar
  have ha : k.ekey o < e := WithTop.coe_lt_coe.mp (lt_of_lt_of_le h4 h1)
  have hb : e < k.ekey o := WithBot.coe_lt_coe.mp (lt_of_le_of_lt h2 h3)
  exact lt_asymm ha hb

end BtreeBucket
end mongo

namespace mongo
namespace BtreeBucket

/-- Splitting a page of a forest keeps the invariant: the page at `l` keeps the
slots `t` below the slot `sk`, the fresh page at `r` holds the slots above `sk`
and is a new root of the forest, and the children of `r` point to `r`. -/
theorem GInv.split {c : Layout} {o : Ordering} {v v6 : State} {g : Ghost} {fl : Set DiskLoc}
    (h : GInv c o v g fl) {l r : DiskLoc} {b1 t R : BtreeBucket}
    (hL : v.pages l = some b1) {A C : List _KeyNode} {sk : _KeyNode}
    (hkeys : b1.keys = A ++ sk :: C) (hC : C ≠ [])
    (ht_sub : t.keys.Sublist A)
    (ht_keep : ∀ k ∈ A, k.prevChildBucket ≠ DiskLoc.Null → k ∈ t.keys) (ht_ne : t.keys ≠ [])
    (ht_next : t.nextChild = sk.prevChildBucket) (ht_par : t.parent = b1.parent)
    (ht_sz : PageSizes c t)
    (hr_keys : R.keys = C) (hr_next : R.nextChild = b1.nextChild) (hr_sz : PageSizes c R)
    (hRfresh : v.pages r = none) (hRa : r.a = 0) (hRofs : r.ofs = v.allocNext)
    (hv6L : v6.pages l = some t) (hv6R : v6.pages r = some R)
    (hv6ch : ∀ ch, IsChild R ch → ch ≠ DiskLoc.Null → ∀ cb, v.pages ch = some cb →
      v6.pages ch = some { cb with parent := r })
    (hv6o : ∀ x, x ≠ l → x ≠ r → ¬ (IsChild R x ∧ x ≠ DiskLoc.Null) → v6.pages x = v.pages x)
    (hhead : v6.head = v.head) (halloc : v.allocNext < v6.allocNext) :
    GInv c o v6 (splitGhost o g l r sk) (fl ∪ {r}) := by
  have hpL := h.page l b1 hL
  have hLR : l ≠ r := by
    rintro rfl
    rw [hRfresh] at hL
    cases hL
  have hRnn : r ≠ DiskLoc.Null := by
    intro hc
    rw [hc] at hRa
    exact absurd hRa (by decide)
  have hmemA : ∀ k ∈ A, k ∈ b1.keys := fun k hk => by rw [hkeys]; simp [hk]
  have hmemC : ∀ k ∈ C, k ∈ b1.keys := fun k hk => by rw [hkeys]; simp [hk]
  have hmemsk : sk ∈ b1.keys := by rw [hkeys]; simp
  have hs := hpL.sorted
  unfold SortedSlots at hs
  rw [hkeys, List.pairwise_append, List.pairwise_cons] at hs
  obtain ⟨hsA, ⟨hskC, hsC⟩, hAC⟩ := hs
  have hAsk : ∀ k ∈ A, k.ekey o < sk.ekey o := fun k hk => hAC k hk sk (List.mem_cons_self _ _)
  have htA : ∀ k ∈ t.keys, k ∈ A := fun k hk => ht_sub.subset hk
  -- the children of the new page
  have hRch : ∀ ch, IsChild R ch → ch ≠ DiskLoc.Null →
      (∃ cb, v.pages ch = some cb ∧ cb.parent = l) ∧ g.rank ch < g.rank l ∧
        ((sk.ekey o : EKey) : WithBot EKey) ≤ g.lo ch := by
    rintro ch (hc | ⟨k, hk, hc⟩) hn
    · rw [hr_next] at hc
      subst hc
      obtain ⟨h1, h2, _, h4, _⟩ := hpL.next_child hn
      exact ⟨h1, h2, h4 sk hmemsk⟩
    · rw [hr_keys] at hk
      subst hc
      obtain ⟨h1, h2, _, h4, _⟩ := hpL.slot_child k (hmemC k hk) hn
      exact ⟨h1, h2, h4 sk hmemsk (hskC k hk)⟩
  -- the children of the truncated page
  have hTch : ∀ ch, IsChild t ch → ch ≠ DiskLoc.Null →
      (∃ cb, v.pages ch = some cb ∧ cb.parent = l) ∧ g.rank ch < g.rank l ∧
        g.hi ch ≤ ((sk.ekey o : EKey) : WithTop EKey) := by
    rintro ch (hc | ⟨k, hk, hc⟩) hn
    · rw [ht_next] at hc
      subst hc
      obtain ⟨h1, h2, _, _, h5⟩ := hpL.slot_child sk hmemsk hn
      exact ⟨h1, h2, h5⟩
    · subst hc
      obtain ⟨h1, h2, _, _, h5⟩ := hpL.slot_child k (hmemA k (htA k hk)) hn
      exact ⟨h1, h2, le_trans h5 (WithTop.coe_le_coe.mpr (le_of_lt (hAsk k (htA k hk))))⟩
  have hRch_ne : ∀ ch, IsChild R ch → ch ≠ DiskLoc.Null → ch ≠ l ∧ ch ≠ r := by
    intro ch hc hn
    obtain ⟨⟨cb, hcb, _⟩, h2, _⟩ := hRch ch hc hn
    refine ⟨?_, ?_⟩
    · rintro rfl; exact lt_irrefl _ h2
    · rintro rfl; rw [hRfresh] at hcb; cases hcb
  -- a page that does not point back to `l` and is not `l` is untouched
  have hsame : ∀ ch cb2, v.pages ch = some cb2 → cb2.parent ≠ l → ch ≠ l →
      v6.pages ch = some cb2 := by
    intro ch cb2 hcb hp hne
    rw [hv6o ch hne (by rintro rfl; rw [hRfresh] at hcb; cases hcb)]
    · exact hcb
    · rintro ⟨hc, hn⟩
      obtain ⟨⟨cb, hcb1, hp1⟩, _⟩ := hRch ch hc hn
      rw [hcb] at hcb1
      cases hcb1
      exact hp hp1
  have hTsame : ∀ ch, IsChild t ch → ch ≠ DiskLoc.Null → v6.pages ch = v.pages ch := by
    intro ch hc hn
    obtain ⟨⟨cb, hcb, hp⟩, h2, h3⟩ := hTch ch hc hn
    apply hv6o ch
    · rintro rfl; exact lt_irrefl _ h2
    · rintro rfl; rw [hRfresh] at hcb; cases hcb
    · rintro ⟨hc1, _⟩
      exact h.no_child_across hL hcb hp (sk.ekey o) h3 (hRch ch hc1 hn).2.2
  -- what the pages of the new state are
  have hcls : ∀ x b2, v6.pages x = some b2 →
      (x = l ∧ b2 = t) ∨ (x = r ∧ b2 = R) ∨
      (x ≠ l ∧ x ≠ r ∧ IsChild R x ∧ x ≠ DiskLoc.Null ∧
        ∃ cb, v.pages x = some cb ∧ cb.parent = l ∧ b2 = { cb with parent := r }) ∨
      (x ≠ l ∧ x ≠ r ∧ ¬ (IsChild R x ∧ x ≠ DiskLoc.Null) ∧ v.pages x = some b2) := by
    intro x b2 hx
    by_cases h1 : x = l
    · subst h1
      rw [hv6L] at hx
      exact Or.inl ⟨rfl, (Option.some.inj hx).symm⟩
    · by_cases h2 : x = r
      · subst h2
        rw [hv6R] at hx
        exact Or.inr (Or.inl ⟨rfl, (Option.some.inj hx).symm⟩)
      · by_cases h3 : IsChild R x ∧ x ≠ DiskLoc.Null
        · obtain ⟨⟨cb, hcb, hp⟩, _⟩ := hRch x h3.1 h3.2
          rw [hv6ch x h3.1 h3.2 cb hcb] at hx
          exact Or.inr (Or.inr (Or.inl ⟨h1, h2, h3.1, h3.2, cb, hcb, hp,
            (Option.some.inj hx).symm⟩))
        · rw [hv6o x h1 h2 h3] at hx
          exact Or.inr (Or.inr (Or.inr ⟨h1, h2, h3, hx⟩))
  have hmapped : ∀ x cb, v.pages x = some cb → ∃ cb1, v6.pages x = some cb1 := by
    intro x cb hx
    by_cases h1 : x = l
    · exact ⟨t, h1 ▸ hv6L⟩
    · by_cases h3 : IsChild R x ∧ x ≠ DiskLoc.Null
      · exact ⟨_, hv6ch x h3.1 h3.2 cb hx⟩
      · exact ⟨cb, by
          rw [hv6o x h1 (by rintro rfl; rw [hRfresh] at hx; cases hx) h3]; exact hx⟩
  have hgr : ∀ x, x ≠ r → (splitGhost o g l r sk).rank x = g.rank x :=
    fun x hx => splitGhost_rank_ne o g l r sk hx
  have hglo : ∀ x, x ≠ r → (splitGhost o g l r sk).lo x = g.lo x :=
    fun x hx => splitGhost_lo_ne o g l r sk hx
  have hghi : ∀ x, x ≠ r → x ≠ l → (splitGhost o g l r sk).hi x = g.hi x :=
    fun x hx hx1 => splitGhost_hi_ne o g l r sk hx hx1
  have hghiL : (splitGhost o g l r sk).hi l = ((sk.ekey o : EKey) : WithTop EKey) :=
    splitGhost_hi_old o g l r sk hLR
  have hghi_le : ∀ x, x ≠ r → (splitGhost o g l r sk).hi x ≤ g.hi x := by
    intro x hx
    by_cases hx1 : x = l
    · subst hx1
      rw [hghiL]
      exact le_of_lt (hpL.lt_hi sk hmemsk)
    · rw [hghi x hx hx1]
  -- the page condition of a page that is untouched and is not a child of `l`
  have hkeep : ∀ x b2, v.pages x = some b2 → x ≠ l → x ≠ r →
      PagePF o v6 (splitGhost o g l r sk) x b2 := by
    intro x b2 hx h1 h2
    apply (h.page x b2 hx).transfer (hgr x h2) (hglo x h2) (hghi x h2 h1)
    intro ch _ hn cb hcb hp
    have hchr : ch ≠ r := by rintro rfl; rw [hRfresh] at hcb; cases hcb
    refine ⟨?_, le_of_eq (hgr ch hchr), le_of_eq (hglo ch hchr).symm, hghi_le ch hchr⟩
    by_cases hcl : ch = l
    · subst hcl
      rw [hL] at hcb
      cases hcb
      exact ⟨t, hv6L, ht_par.trans hp⟩
    · exact ⟨cb, hsame ch cb hcb (by rw [hp]; exact h1) hcl, hp⟩
  refine
    { null_unmapped := ?_
      head := ?_
      page := ?_
      sizes := ?_
      nonempty := ?_
      link := ?_
      float := ?_
      rank_le := ?_
      fresh := ?_ }
  · -- null_unmapped
    rw [hv6o DiskLoc.Null (Ne.symm (h.ne_null hL)) (Ne.symm hRnn) (fun hc => hc.2 rfl)]
    exact h.null_unmapped
  · -- head
    obtain ⟨hb, hhb, hnull, hleaf⟩ := h.head
    rw [hhead]
    by_cases hh : v.head = l
    · rw [hh] at hhb ⊢
      rw [hL] at hhb
      cases hhb
      exact ⟨t, hv6L, ht_par.trans hnull, fun he => absurd he ht_ne⟩
    · refine ⟨hb, hsame v.head hb hhb ?_ hh, hnull, hleaf⟩
      rw [hnull]
      exact Ne.symm (h.ne_null hL)
  · -- page
    intro x b2 hx
    rcases hcls x b2 hx with ⟨rfl, rfl⟩ | ⟨rfl, rfl⟩ | ⟨h1, h2, _, _, cb, hcb, _, rfl⟩ |
      ⟨h1, h2, _, hx1⟩
    · -- the truncated page
      refine
        { sorted := hsA.sublist ht_sub
          lo_lt := fun k hk => by
            rw [hglo x hLR]; exact hpL.lo_lt k (hmemA k (htA k hk))
          lt_hi := fun k hk => by
            rw [hghiL]; exact WithTop.coe_lt_coe.mpr (hAsk k (htA k hk))
          rl_valid := fun k hk => hpL.rl_valid k (hmemA k (htA k hk))
          slot_child := ?_
          next_child := ?_ }
      · intro k hk hn
        obtain ⟨⟨cb, hcb, hp⟩, h2, h3, h4, h5⟩ := hpL.slot_child k (hmemA k (htA k hk)) hn
        have hc : IsChild b2 k.prevChildBucket := Or.inr ⟨k, hk, rfl⟩
        have hchr : k.prevChildBucket ≠ r := by
          intro hcon; rw [hcon, hRfresh] at hcb; cases hcb
        have hchl : k.prevChildBucket ≠ x := by
          intro hcon; rw [hcon] at h2; exact lt_irrefl _ h2
        refine ⟨⟨cb, by rw [hTsame _ hc hn]; exact hcb, hp⟩, ?_, ?_, ?_, ?_⟩
        · rw [hgr _ hchr, hgr x hLR]; exact h2
        · rw [hglo _ hchr, hglo x hLR]; exact h3
        · intro k1 hk1 hlt
          rw [hglo _ hchr]
          exact h4 k1 (hmemA k1 (htA k1 hk1)) hlt
        · rw [hghi _ hchr hchl]; exact h5
      · intro hn
        rw [ht_next] at hn ⊢
        obtain ⟨⟨cb, hcb, hp⟩, h2, h3, h4, h5⟩ := hpL.slot_child sk hmemsk hn
        have hc : IsChild b2 sk.prevChildBucket := Or.inl ht_next
        have hchr : sk.prevChildBucket ≠ r := by
          intro hcon; rw [hcon, hRfresh] at hcb; cases hcb
        have hchl : sk.prevChildBucket ≠ x := by
          intro hcon; rw [hcon] at h2; exact lt_irrefl _ h2
        refine ⟨⟨cb, by rw [hTsame _ hc hn]; exact hcb, hp⟩, ?_, ?_, ?_, ?_⟩
        · rw [hgr _ hchr, hgr x hLR]; exact h2
        · rw [hglo _ hchr, hglo x hLR]; exact h3
        · intro k1 hk1
          rw [hglo _ hchr]
          exact h4 k1 (hmemA k1 (htA k1 hk1)) (hAsk k1 (htA k1 hk1))
        · rw [hghi _ hchr hchl, hghiL]; exact h5
    · -- the new page
      refine
        { sorted := by rw [hr_keys]; exact hsC
          lo_lt := fun k hk => by
            rw [splitGhost_lo_new]
            exact WithBot.coe_lt_coe.mpr (hskC k (hr_keys ▸ hk))
          lt_hi := fun k hk => by
            rw [splitGhost_hi_new]
            exact hpL.lt_hi k (hmemC k (hr_keys ▸ hk))
          rl_valid := fun k hk => hpL.rl_valid k (hmemC k (hr_keys ▸ hk))
          slot_child := ?_
          next_child := ?_ }
      · intro k hk hn
        have hkC : k ∈ C := hr_keys ▸ hk
        obtain ⟨⟨cb, hcb, hp⟩, h2, h3, h4, h5⟩ := hpL.slot_child k (hmemC k hkC) hn
        have hc : IsChild b2 k.prevChildBucket := Or.inr ⟨k, hk, rfl⟩
        obtain ⟨hchl, hchr⟩ := hRch_ne _ hc hn
        refine ⟨⟨_, hv6ch _ hc hn cb hcb, rfl⟩, ?_, ?_, ?_, ?_⟩
        · rw [hgr _ hchr, splitGhost_rank_new]; exact h2
        · rw [hglo _ hchr, splitGhost_lo_new]; exact (hRch _ hc hn).2.2
        · intro k1 hk1 hlt
          rw [hglo _ hchr]
          exact h4 k1 (hmemC k1 (hr_keys ▸ hk1)) hlt
        · rw [hghi _ hchr hchl]; exact h5
      · intro hn
        have hc : IsChild b2 b2.nextChild := Or.inl rfl
        obtain ⟨hchl, hchr⟩ := hRch_ne _ hc hn
        have hn1 : b1.nextChild ≠ DiskLoc.Null := hr_next ▸ hn
        obtain ⟨⟨cb, hcb, hp⟩, h2, h3, h4, h5⟩ := hpL.next_child hn1
        refine ⟨⟨_, hv6ch _ hc hn cb (hr_next ▸ hcb), rfl⟩, ?_, ?_, ?_, ?_⟩
        · rw [hgr _ hchr, splitGhost_rank_new, hr_next]; exact h2
        · rw [hglo _ hchr, splitGhost_lo_new]; exact (hRch _ hc hn).2.2
        · intro k1 hk1
          rw [hglo _ hchr, hr_next]
          exact h4 k1 (hmemC k1 (hr_keys ▸ hk1))
        · rw [hghi _ hchr hchl, splitGhost_hi_new, hr_next]; exact h5
    · -- a child of the new page
      exact (hkeep x cb hcb h1 h2).congr_page rfl rfl
    · -- any other page
      exact hkeep x b2 hx1 h1 h2
  · -- sizes
    intro x b2 hx
    rcases hcls x b2 hx with ⟨rfl, rfl⟩ | ⟨rfl, rfl⟩ | ⟨_, _, _, _, cb, hcb, _, rfl⟩ |
      ⟨_, _, _, hx1⟩
    · exact ht_sz
    · exact hr_sz
    · exact (h.sizes x cb hcb).congr rfl rfl rfl rfl
    · exact h.sizes x b2 hx1
  · -- nonempty
    intro x b2 hx hnh
    rw [hhead] at hnh
    rcases hcls x b2 hx with ⟨rfl, rfl⟩ | ⟨rfl, rfl⟩ | ⟨_, _, _, _, cb, hcb, _, rfl⟩ |
      ⟨_, _, _, hx1⟩
    · exact ht_ne
    · rw [hr_keys]; exact hC
    · exact h.nonempty x cb hcb hnh
    · exact h.nonempty x b2 hx1 hnh
  · -- link
    intro x b2 hx hnh hnf
    rw [hhead] at hnh
    have hxf : x ∉ fl := fun hc => hnf (Or.inl hc)
    -- the parent page of an untouched parent link
    have hlink : ∀ cb, v.pages x = some cb → cb.parent ≠ l →
        ∃ pb, v6.pages cb.parent = some pb ∧ IsChild pb x := by
      intro cb hcb hpne
      obtain ⟨pb, hpb, hc⟩ := h.link x cb hcb hnh hxf
      have hpr : cb.parent ≠ r := by
        intro hcon; rw [hcon, hRfresh] at hpb; cases hpb
      by_cases h3 : IsChild R cb.parent ∧ cb.parent ≠ DiskLoc.Null
      · exact ⟨_, hv6ch _ h3.1 h3.2 pb hpb, hc.congr_keys rfl rfl⟩
      · exact ⟨pb, by rw [hv6o _ hpne hpr h3]; exact hpb, hc⟩
    rcases hcls x b2 hx with ⟨rfl, rfl⟩ | ⟨rfl, rfl⟩ | ⟨_, _, hc, _, cb, hcb, _, rfl⟩ |
      ⟨h1, _, h3, hx1⟩
    · rw [ht_par]
      apply hlink b1 hL
      intro hcon
      obtain ⟨pb, hpb, hc⟩ := h.link x b1 hL hnh hxf
      rw [hcon, hL] at hpb
      cases hpb
      have := ((h.page x b1 hL).isChild hc (h.ne_null hL)).2.1
      exact lt_irrefl _ this
    · exact absurd (Or.inr rfl) hnf
    · exact ⟨R, hv6R, hc⟩
    · by_cases hp : b2.parent = l
      · -- a child of `l` that stays with `l`
        obtain ⟨pb, hpb, hc⟩ := h.link x b2 hx1 hnh hxf
        rw [hp] at hpb ⊢
        rw [hL] at hpb
        cases hpb
        have hxn : x ≠ DiskLoc.Null := h.ne_null hx1
        refine ⟨t, hv6L, ?_⟩
        rcases hc with hc | ⟨k, hk, hc⟩
        · exact absurd ⟨Or.inl (hr_next.trans hc), hxn⟩ h3
        · rw [hkeys] at hk
          rcases List.mem_append.mp hk with hk | hk
          · exact Or.inr ⟨k, ht_keep k hk (hc ▸ hxn), hc⟩
          · rcases List.mem_cons.mp hk with rfl | hk
            · exact Or.inl (ht_next.trans hc)
            · exact absurd ⟨Or.inr ⟨k, hr_keys ▸ hk, hc⟩, hxn⟩ h3
      · exact hlink b2 hx1 hp
  · -- float
    intro f hf
    have hnochild : ∀ x b2, v6.pages x = some b2 → ∀ ch, ch ≠ DiskLoc.Null → IsChild b2 ch →
        ∃ y cb, v.pages y = some cb ∧ IsChild cb ch := by
      intro x b2 hx ch hn hc
      rcases hcls x b2 hx with ⟨rfl, rfl⟩ | ⟨rfl, rfl⟩ | ⟨_, _, _, _, cb, hcb, _, rfl⟩ |
        ⟨_, _, _, hx1⟩
      · refine ⟨x, b1, hL, ?_⟩
        rcases hc with hc | ⟨k, hk, hc⟩
        · exact Or.inr ⟨sk, hmemsk, ht_next ▸ hc⟩
        · exact Or.inr ⟨k, hmemA k (htA k hk), hc⟩
      · refine ⟨l, b1, hL, ?_⟩
        rcases hc with hc | ⟨k, hk, hc⟩
        · exact Or.inl (hr_next ▸ hc)
        · exact Or.inr ⟨k, hmemC k (hr_keys ▸ hk), hc⟩
      · exact ⟨x, cb, hcb, hc.congr_keys rfl rfl⟩
      · exact ⟨x, b2, hx1, hc⟩
    rcases hf with hf | hf
    · obtain ⟨h1, ⟨fb, hfb⟩, h3⟩ := h.float f hf
      refine ⟨hhead ▸ h1, hmapped f fb hfb, ?_⟩
      intro x b2 hx hc
      obtain ⟨y, cb, hy, hc1⟩ := hnochild x b2 hx f (h.ne_null hfb) hc
      exact h3 y cb hy hc1
    · rw [Set.mem_singleton_iff] at hf
      subst hf
      refine ⟨?_, ⟨R, hv6R⟩, ?_⟩
      · rw [hhead]
        intro hcon
        obtain ⟨hb, hhb, _⟩ := h.head
        rw [← hcon, hRfresh] at hhb
        cases hhb
      · intro x b2 hx hc
        obtain ⟨y, cb, hy, hc1⟩ := hnochild x b2 hx f hRnn hc
        obtain ⟨⟨cb1, hcb1, _⟩, _⟩ := (h.page y cb hy).isChild hc1 hRnn
        rw [hRfresh] at hcb1
        cases hcb1
  · -- rank_le
    intro x b2 hx
    have hhr : v6.head ≠ r := by
      rw [hhead]
      intro hcon
      obtain ⟨hb, hhb, _⟩ := h.head
      rw [hcon, hRfresh] at hhb
      cases hhb
    rw [hgr _ hhr, hhead]
    rcases hcls x b2 hx with ⟨rfl, rfl⟩ | ⟨rfl, rfl⟩ | ⟨_, h2, _, _, cb, hcb, _, rfl⟩ |
      ⟨_, h2, _, hx1⟩
    · rw [hgr x hLR]; exact h.rank_le x b1 hL
    · rw [splitGhost_rank_new]; exact h.rank_le l b1 hL
    · rw [hgr x h2]; exact h.rank_le x cb hcb
    · rw [hgr x h2]; exact h.rank_le x b2 hx1
  · -- fresh
    intro x b2 hx
    have hold : ∀ cb, v.pages x = some cb → x.a = 0 ∧ 0 ≤ x.ofs ∧ x.ofs < v6.allocNext := by
      intro cb hcb
      obtain ⟨h1, h2, h3⟩ := h.fresh x cb hcb
      exact ⟨h1, h2, lt_trans h3 halloc⟩
    rcases hcls x b2 hx with ⟨rfl, rfl⟩ | ⟨rfl, rfl⟩ | ⟨_, _, _, _, cb, hcb, _, rfl⟩ |
      ⟨_, _, _, hx1⟩
    · exact hold b1 hL
    · obtain ⟨_, h2, h3⟩ := h.fresh l b1 hL
      exact ⟨hRa, by rw [hRofs]; omega, by rw [hRofs]; exact halloc⟩
    · exact hold cb hcb
    · exact hold b2 hx1

end BtreeBucket
end mongo

namespace mongo
namespace BtreeBucket

/-! ## A new root above a split root -/

/-- The new root: the old root at `l` and the root `r` of the forest become the
two children of the fresh page at `nr`, whose only slot separates them. -/
theorem GInv.new_root {c : Layout} {o : Ordering} {v w : State} {g : Ghost}
    {fl : Set DiskLoc} (h : GInv c o v g fl) {l r N : DiskLoc} {t rb p : BtreeBucket}
    (hhd : v.head = l) (hL : v.pages l = some t) (ht_ne : t.keys ≠ []) (hr : r ∈ fl)
    (hR : v.pages r = some rb)
    {recordLoc : DiskLoc} {key : BSONObj}
    (hhi : g.hi l ≤ ((entryKey o key recordLoc.clearLow : EKey) : WithTop EKey))
    (hlo : ((entryKey o key recordLoc.clearLow : EKey) : WithBot EKey) ≤ g.lo r)
    (hrl : 0 ≤ recordLoc.a ∧ 2 ≤ recordLoc.ofs)
    (hNfresh : v.pages N = none) (hNa : N.a = 0) (hNofs : N.ofs = v.allocNext)
    (hp_keys : p.keys = [⟨l, recordLoc, key⟩]) (hp_next : p.nextChild = r)
    (hp_par : p.parent = DiskLoc.Null) (hp_sz : PageSizes c p)
    (hv7n : w.pages N = some p) (hv7l : w.pages l = some { t with parent := N })
    (hv7r : w.pages r = some { rb with parent := N })
    (hv7o : ∀ x, x ≠ N → x ≠ l → x ≠ r → w.pages x = v.pages x)
    (hhead : w.head = N) (halloc : v.allocNext < w.allocNext) :
    GInv c o w (rootGhost g N l) (fl \ {r}) := by
  obtain ⟨hrh, _, hrno⟩ := h.float r hr
  have hlr : l ≠ r := fun hc => hrh (hc ▸ hhd.symm)
  have hln : l ≠ N := by rintro rfl; rw [hNfresh] at hL; cases hL
  have hrn : r ≠ N := by rintro rfl; rw [hNfresh] at hR; cases hR
  have hnn : N ≠ DiskLoc.Null := by
    intro hc
    rw [hc] at hNa
    exact absurd hNa (by decide)
  have hlnn : l ≠ DiskLoc.Null := h.ne_null hL
  have hrnn : r ≠ DiskLoc.Null := h.ne_null hR
  have hgr : ∀ x, x ≠ N → (rootGhost g N l).rank x = g.rank x := by
    intro x hx; simp [rootGhost, Function.update_noteq hx]
  have hglo : ∀ x, x ≠ N → (rootGhost g N l).lo x = g.lo x := by
    intro x hx; simp [rootGhost, Function.update_noteq hx]
  have hghi : ∀ x, x ≠ N → (rootGhost g N l).hi x = g.hi x := by
    intro x hx; simp [rootGhost, Function.update_noteq hx]
  have hgrn : (rootGhost g N l).rank N = g.rank l + 1 := by simp [rootGhost]
  have hglon : (rootGhost g N l).lo N = ⊥ := by simp [rootGhost]
  have hghin : (rootGhost g N l).hi N = ⊤ := by simp [rootGhost]
  -- the old root is nobody's child
  have hlno : ∀ x b2, v.pages x = some b2 → ¬ IsChild b2 l := by
    intro x b2 hx hc
    obtain ⟨⟨cb, hcb, hp⟩, _⟩ := (h.page x b2 hx).isChild hc hlnn
    exact h.ne_head_of_parent hcb hp hx hhd.symm
  -- a child link of a page is a mapped page other than the three pages touched
  have hchild : ∀ x b2, v.pages x = some b2 → ∀ ch, IsChild b2 ch → ch ≠ DiskLoc.Null →
      ch ≠ N ∧ ch ≠ l ∧ ch ≠ r := by
    intro x b2 hx ch hc hn
    obtain ⟨⟨cb, hcb, _⟩, _⟩ := (h.page x b2 hx).isChild hc hn
    refine ⟨?_, ?_, ?_⟩
    · rintro rfl; rw [hNfresh] at hcb; cases hcb
    · rintro rfl; exact hlno x b2 hx hc
    · rintro rfl; exact hrno x b2 hx hc
  have hkeep : ∀ x b2, v.pages x = some b2 → ∀ b3, b3.keys = b2.keys →
      b3.nextChild = b2.nextChild → PagePF o w (rootGhost g N l) x b3 := by
    intro x b2 hx b3 hk hnx
    have hxn : x ≠ N := by rintro rfl; rw [hNfresh] at hx; cases hx
    apply ((h.page x b2 hx).congr_page hk hnx).transfer (hgr x hxn) (hglo x hxn) (hghi x hxn)
    intro ch hc hn cb hcb hp
    have hc2 : IsChild b2 ch := hc.congr_keys hk.symm hnx.symm
    obtain ⟨h1, h2, h3⟩ := hchild x b2 hx ch hc2 hn
    exact ⟨⟨cb, by rw [hv7o ch h1 h2 h3]; exact hcb, hp⟩, le_of_eq (hgr ch h1),
      le_of_eq (hglo ch h1).symm, le_of_eq (hghi ch h1)⟩
  have hcls : ∀ x b2, w.pages x = some b2 →
      (x = N ∧ b2 = p) ∨ (x = l ∧ b2 = { t with parent := N }) ∨
      (x = r ∧ b2 = { rb with parent := N }) ∨
      (x ≠ N ∧ x ≠ l ∧ x ≠ r ∧ v.pages x = some b2) := by
    intro x b2 hx
    by_cases h1 : x = N
    · subst h1; rw [hv7n] at hx
      exact Or.inl ⟨rfl, (Option.some.inj hx).symm⟩
    · by_cases h2 : x = l
      · subst h2; rw [hv7l] at hx
        exact Or.inr (Or.inl ⟨rfl, (Option.some.inj hx).symm⟩)
      · by_cases h3 : x = r
        · subst h3; rw [hv7r] at hx
          exact Or.inr (Or.inr (Or.inl ⟨rfl, (Option.some.inj hx).symm⟩))
        · rw [hv7o x h1 h2 h3] at hx
          exact Or.inr (Or.inr (Or.inr ⟨h1, h2, h3, hx⟩))
  have hslot : (⟨l, recordLoc, key⟩ : _KeyNode).ekey o = entryKey o key recordLoc.clearLow := rfl
  refine
    { null_unmapped := ?_
      head := ?_
      page := ?_
      sizes := ?_
      nonempty := ?_
      link := ?_
      float := ?_
      rank_le := ?_
      fresh := ?_ }
  · rw [hv7o _ (Ne.symm hnn) (Ne.symm hlnn) (Ne.symm hrnn)]
    exact h.null_unmapped
  · rw [hhead]
    exact ⟨p, hv7n, hp_par, fun he => by rw [hp_keys] at he; cases he⟩
  · intro x b2 hx
    rcases hcls x b2 hx with ⟨rfl, rfl⟩ | ⟨rfl, rfl⟩ | ⟨rfl, rfl⟩ | ⟨_, _, _, hx1⟩
    · refine
        { sorted := by rw [hp_keys]; exact List.pairwise_singleton _ _
          lo_lt := fun k _ => by rw [hglon]; exact WithBot.bot_lt_coe _
          lt_hi := fun k _ => by rw [hghin]; exact WithTop.coe_lt_top _
          rl_valid := fun k hk => by
            rw [hp_keys, List.mem_singleton] at hk
            subst hk; exact hrl
          slot_child := ?_
          next_child := ?_ }
      · intro k hk _
        rw [hp_keys, List.mem_singleton] at hk
        subst hk
        refine ⟨⟨_, hv7l, rfl⟩, ?_, ?_, ?_, ?_⟩
        · rw [hgr l hln, hgrn]; omega
        · rw [hglon]; exact bot_le
        · intro k1 hk1 hlt
          rw [hp_keys, List.mem_singleton] at hk1
          subst hk1
          exact absurd hlt (lt_irrefl _)
        · rw [hghi l hln, hslot]; exact hhi
      · intro _
        rw [hp_next]
        refine ⟨⟨_, hv7r, rfl⟩, ?_, ?_, ?_, ?_⟩
        · rw [hgr r hrn, hgrn]
          have := h.rank_le r rb hR
          rw [hhd] at this
          omega
        · rw [hglon]; exact bot_le
        · intro k1 hk1
          rw [hp_keys, List.mem_singleton] at hk1
          subst hk1
          rw [hglo r hrn, hslot]; exact hlo
        · rw [hghin]; exact le_top
    · exact hkeep x t hL _ rfl rfl
    · exact hkeep x rb hR _ rfl rfl
    · exact hkeep x b2 hx1 _ rfl rfl
  · intro x b2 hx
    rcases hcls x b2 hx with ⟨rfl, rfl⟩ | ⟨rfl, rfl⟩ | ⟨rfl, rfl⟩ | ⟨_, _, _, hx1⟩
    · exact hp_sz
    · exact (h.sizes x t hL).congr rfl rfl rfl rfl
    · exact (h.sizes x rb hR).congr rfl rfl rfl rfl
    · exact h.sizes x b2 hx1
  · intro x b2 hx hnh
    rw [hhead] at hnh
    rcases hcls x b2 hx with ⟨rfl, rfl⟩ | ⟨rfl, rfl⟩ | ⟨rfl, rfl⟩ | ⟨_, h2, _, hx1⟩
    · exact absurd rfl hnh
    · exact ht_ne
    · exact h.nonempty x rb hR hrh
    · exact h.nonempty x b2 hx1 (by rw [hhd]; exact h2)
  · intro x b2 hx hnh hnf
    rw [hhead] at hnh
    rcases hcls x b2 hx with ⟨rfl, rfl⟩ | ⟨rfl, rfl⟩ | ⟨rfl, rfl⟩ | ⟨_, h2, h3, hx1⟩
    · exact absurd rfl hnh
    · exact ⟨p, hv7n, Or.inr ⟨⟨x, recordLoc, key⟩, by rw [hp_keys]; simp, rfl⟩⟩
    · exact ⟨p, hv7n, Or.inl hp_next⟩
    · have hxf : x ∉ fl := fun hc => hnf ⟨hc, by rw [Set.mem_singleton_iff]; exact h3⟩
      obtain ⟨pb, hpb, hc⟩ := h.link x b2 hx1 (by rw [hhd]; exact h2) hxf
      have hpn : b2.parent ≠ N := by
        intro hcon; rw [hcon, hNfresh] at hpb; cases hpb
      by_cases hpl : b2.parent = l
      · rw [hpl] at hpb ⊢
        rw [hL] at hpb
        cases hpb
        exact ⟨_, hv7l, hc.congr_keys rfl rfl⟩
      · by_cases hpr : b2.parent = r
        · rw [hpr] at hpb ⊢
          rw [hR] at hpb
          cases hpb
          exact ⟨_, hv7r, hc.congr_keys rfl rfl⟩
        · exact ⟨pb, by rw [hv7o _ hpn hpl hpr]; exact hpb, hc⟩
  · rintro f ⟨hf, hfr⟩
    rw [Set.mem_singleton_iff] at hfr
    obtain ⟨h1, ⟨fb, hfb⟩, h3⟩ := h.float f hf
    have hfn : f ≠ N := by rintro rfl; rw [hNfresh] at hfb; cases hfb
    have hfl : f ≠ l := fun hc => h1 (hc ▸ hhd.symm)
    refine ⟨by rw [hhead]; exact hfn, ⟨fb, by rw [hv7o f hfn hfl hfr]; exact hfb⟩, ?_⟩
    intro x b2 hx hc
    rcases hcls x b2 hx with ⟨rfl, rfl⟩ | ⟨rfl, rfl⟩ | ⟨rfl, rfl⟩ | ⟨_, _, _, hx1⟩
    · rcases hc with hc | ⟨k, hk, hc⟩
      · exact hfr (hc.symm.trans hp_next)
      · rw [hp_keys, List.mem_singleton] at hk
        subst hk
        exact hfl hc.symm
    · exact h3 x t hL (hc.congr_keys rfl rfl)
    · exact h3 x rb hR (hc.congr_keys rfl rfl)
    · exact h3 x b2 hx1 hc
  · intro x b2 hx
    rw [hhead, hgrn]
    have hold : ∀ cb, v.pages x = some cb → x ≠ N → (rootGhost g N l).rank x ≤ g.rank l + 1 := by
      intro cb hcb hxn
      rw [hgr x hxn]
      have := h.rank_le x cb hcb
      rw [hhd] at this
      omega
    rcases hcls x b2 hx with ⟨rfl, rfl⟩ | ⟨rfl, rfl⟩ | ⟨rfl, rfl⟩ | ⟨h1, _, _, hx1⟩
    · rw [hgrn]
    · exact hold t hL hln
    · exact hold rb hR hrn
    · exact hold b2 hx1 h1
  · intro x b2 hx
    have hold : ∀ cb, v.pages x = some cb → x.a = 0 ∧ 0 ≤ x.ofs ∧ x.ofs < w.allocNext := by
      intro cb hcb
      obtain ⟨h1, h2, h3⟩ := h.fresh x cb hcb
      exact ⟨h1, h2, lt_trans h3 halloc⟩
    rcases hcls x b2 hx with ⟨rfl, rfl⟩ | ⟨rfl, rfl⟩ | ⟨rfl, rfl⟩ | ⟨_, _, _, hx1⟩
    · obtain ⟨_, h2, h3⟩ := h.fresh l t hL
      exact ⟨hNa, by rw [hNofs]; omega, by rw [hNofs]; exact halloc⟩
    · exact hold t hL
    · exact hold rb hR
    · exact hold b2 hx1

end BtreeBucket
end mongo

namespace mongo
namespace BtreeBucket

/-! ## The count of slots in excess -/

/-- The count over a longer range of offsets is the same when no page is mapped
in the extension. -/
theorem slack_extend (s : State) (N : Nat) (hN : s.allocNext.toNat ≤ N)
    (hfresh : ∀ x b, s.pages x = some b → x.ofs < s.allocNext) :
    slack s = Finset.sum (Finset.range N) (fun i => pageWeight (s.pages ⟨0, (i : Int)⟩)) := by
  unfold slack
  apply Finset.sum_subset (Finset.range_mono hN)
  intro i _ hi
  rw [Finset.mem_range, not_lt] at hi
  cases hp : s.pages ⟨0, (i : Int)⟩ with
  | none => rfl
  | some b =>
    have := hfresh _ b hp
    simp only at this
    omega

/-- The change of the count between two states, as the sum of the changes of
the page weights. -/
theorem slack_diff (s s1 : State) (hN : s.allocNext ≤ s1.allocNext)
    (hfresh : ∀ x b, s.pages x = some b → x.ofs < s.allocNext) :
    slack s1 - slack s = Finset.sum (Finset.range s1.allocNext.toNat)
      (fun i => pageWeight (s1.pages ⟨0, (i : Int)⟩) - pageWeight (s.pages ⟨0, (i : Int)⟩)) := by
  rw [slack_extend s s1.allocNext.toNat (Int.toNat_le_toNat hN) hfresh, Finset.sum_sub_distrib]
  rfl

/-- The count after the weights changed at one page. -/
theorem slack_change_one (s s1 : State) (hN : s.allocNext ≤ s1.allocNext)
    (hfresh : ∀ x b, s.pages x = some b → x.ofs < s.allocNext)
    (a : DiskLoc) (ha : a.a = 0) (ha0 : 0 ≤ a.ofs) (ha1 : a.ofs < s1.allocNext)
    (hother : ∀ x, x ≠ a → pageWeight (s1.pages x) = pageWeight (s.pages x)) :
    slack s1 = slack s + (pageWeight (s1.pages a) - pageWeight (s.pages a)) := by
  have hd := slack_diff s s1 hN hfresh
  have hloc : (⟨0, ((a.ofs.toNat : Nat) : Int)⟩ : DiskLoc) = a := by
    cases a with
    | mk aa ao =>
      simp only at ha ha0
      subst ha
      rw [Int.toNat_of_nonneg ha0]
  rw [Finset.sum_eq_single a.ofs.toNat] at hd
  · rw [hloc] at hd
    omega
  · intro i _ hi
    have hne : (⟨0, (i : Int)⟩ : DiskLoc) ≠ a := by
      intro hc
      apply hi
      rw [← hc]
      simp
    rw [hother _ hne]
    omega
  · intro hni
    exfalso
    apply hni
    rw [Finset.mem_range]
    omega

/-- The count after the weights changed at two pages. -/
theorem slack_change_two (s s1 : State) (hN : s.allocNext ≤ s1.allocNext)
    (hfresh : ∀ x b, s.pages x = some b → x.ofs < s.allocNext)
    (a b : DiskLoc) (hab : a ≠ b) (ha : a.a = 0) (ha0 : 0 ≤ a.ofs) (ha1 : a.ofs < s1.allocNext)
    (hb : b.a = 0) (hb0 : 0 ≤ b.ofs) (hb1 : b.ofs < s1.allocNext)
    (hother : ∀ x, x ≠ a → x ≠ b → pageWeight (s1.pages x) = pageWeight (s.pages x)) :
    slack s1 = slack s + (pageWeight (s1.pages a) - pageWeight (s.pages a))
      + (pageWeight (s1.pages b) - pageWeight (s.pages b)) := by
  have hd := slack_diff s s1 hN hfresh
  have hloc : ∀ x : DiskLoc, x.a = 0 → 0 ≤ x.ofs →
      (⟨0, ((x.ofs.toNat : Nat) : Int)⟩ : DiskLoc) = x := by
    intro x hx hx0
    cases x with
    | mk aa ao =>
      simp only at hx hx0
      subst hx
      rw [Int.toNat_of_nonneg hx0]
  have hidx : a.ofs.toNat ≠ b.ofs.toNat := by
    intro hc
    apply hab
    rw [← hloc a ha ha0, ← hloc b hb hb0, hc]
  rw [Finset.sum_eq_add_of_mem a.ofs.toNat b.ofs.toNat
    (by rw [Finset.mem_range]; omega) (by rw [Finset.mem_range]; omega) hidx] at hd
  · rw [hloc a ha ha0, hloc b hb hb0] at hd
    omega
  · intro i _ hi
    have hne : (⟨0, (i : Int)⟩ : DiskLoc) ≠ a := by
      intro hc
      apply hi.1
      rw [← hc]
      simp
    have hne2 : (⟨0, (i : Int)⟩ : DiskLoc) ≠ b := by
      intro hc
      apply hi.2
      rw [← hc]
      simp
    rw [hother _ hne hne2]
    omega

/-- The count when no weight changed. -/
theorem slack_change_none (s s1 : State) (hN : s.allocNext ≤ s1.allocNext)
    (hfresh : ∀ x b, s.pages x = some b → x.ofs < s.allocNext)
    (hother : ∀ x, pageWeight (s1.pages x) = pageWeight (s.pages x)) :
    slack s1 = slack s := by
  have hd := slack_diff s s1 hN hfresh
  rw [Finset.sum_eq_zero] at hd
  · omega
  · intro i _
    rw [hother]
    omega

/-- In a forest with its roots linked or listed, every page other than the root
has a slot, so the count is at least -1. -/
theorem GInv.slack_ge {c : Layout} {o : Ordering} {s : State} {g : Ghost} {fl : Set DiskLoc}
    (h : GInv c o s g fl) : -1 ≤ slack s := by
  obtain ⟨hb, hhb, _, _⟩ := h.head
  obtain ⟨ha, h0, h1⟩ := h.fresh s.head hb hhb
  have hloc : (⟨0, ((s.head.ofs.toNat : Nat) : Int)⟩ : DiskLoc) = s.head := by
    cases hh : s.head with
    | mk aa ao =>
      rw [hh] at ha h0
      simp only at ha h0
      subst ha
      rw [Int.toNat_of_nonneg h0]
  unfold slack
  rw [← Finset.add_sum_erase (Finset.range s.allocNext.toNat) _
    (a := s.head.ofs.toNat) (by rw [Finset.mem_range]; omega)]
  have hw : -1 ≤ pageWeight (s.pages ⟨0, ((s.head.ofs.toNat : Nat) : Int)⟩) := by
    rw [hloc, hhb]
    simp only [pageWeight]
    omega
  have hrest : 0 ≤ Finset.sum ((Finset.range s.allocNext.toNat).erase s.head.ofs.toNat)
      (fun i => pageWeight (s.pages ⟨0, (i : Int)⟩)) := by
    apply Finset.sum_nonneg
    intro i hi
    rw [Finset.mem_erase] at hi
    cases hp : s.pages ⟨0, (i : Int)⟩ with
    | none => simp [pageWeight]
    | some b =>
      have hne : (⟨0, (i : Int)⟩ : DiskLoc) ≠ s.head := by
        intro hc
        apply hi.1
        rw [← hc]
        simp
      have := h.nonempty _ b hp hne
      have hlen : 0 < b.keys.length := List.length_pos.mpr this
      simp only [pageWeight]
      omega
  omega

end BtreeBucket
end mongo

namespace mongo
namespace BtreeBucket

/-! ## The state with the pending truncations done -/

theorem view_pages_none (s : State) (ov : DiskLoc → Option BtreeBucket) {l : DiskLoc}
    (h : ov l = none) : (s.view ov).pages l = s.pages l := by
  simp only [State.view]
  cases s.pages l with
  | none => rfl
  | some b => simp only [h]

theorem view_pages_some (s : State) (ov : DiskLoc → Option BtreeBucket) {l : DiskLoc}
    {b t : BtreeBucket} (hl : s.pages l = some b) (h : ov l = some t) :
    (s.view ov).pages l = some { t with parent := b.parent } := by
  simp only [State.view, hl, h]

theorem view_pages_unmapped (s : State) (ov : DiskLoc → Option BtreeBucket) {l : DiskLoc}
    (hl : s.pages l = none) : (s.view ov).pages l = none := by
  simp only [State.view, hl]

theorem view_head (s : State) (ov : DiskLoc → Option BtreeBucket) : (s.view ov).head = s.head :=
  rfl

theorem view_allocNext (s : State) (ov : DiskLoc → Option BtreeBucket) :
    (s.view ov).allocNext = s.allocNext := rfl

/-- A page is mapped in the view exactly when it is mapped, with the same
parent link. -/
theorem view_mapped (s : State) (ov : DiskLoc → Option BtreeBucket) {l : DiskLoc}
    {b : BtreeBucket} (hl : s.pages l = some b) :
    ∃ vb, (s.view ov).pages l = some vb ∧ vb.parent = b.parent := by
  cases h : ov l with
  | none => exact ⟨b, by rw [view_pages_none s ov h]; exact hl, rfl⟩
  | some t => exact ⟨_, view_pages_some s ov hl h, rfl⟩

theorem view_mapped_inv (s : State) (ov : DiskLoc → Option BtreeBucket) {l : DiskLoc}
    {vb : BtreeBucket} (hl : (s.view ov).pages l = some vb) :
    ∃ b, s.pages l = some b ∧ vb.parent = b.parent := by
  cases hs : s.pages l with
  | none => rw [view_pages_unmapped s ov hs] at hl; cases hl
  | some b =>
    obtain ⟨vb1, h1, h2⟩ := view_mapped s ov hs
    rw [hl] at h1
    cases h1
    exact ⟨b, rfl, h2⟩

theorem state_ext {s s1 : State} (hp : ∀ l, s.pages l = s1.pages l) (hh : s.head = s1.head)
    (ha : s.allocNext = s1.allocNext) : s = s1 := by
  cases s with
  | mk p h a =>
    cases s1 with
    | mk p1 h1 a1 =>
      simp only at hp hh ha
      have : p = p1 := funext hp
      subst this; subst hh; subst ha
      rfl

/-- Replacing a page that awaits no truncation commutes with the view. -/
theorem view_put (s : State) (ov : DiskLoc → Option BtreeBucket) {l : DiskLoc}
    (b : BtreeBucket) (h : ov l = none) : (s.put l b).view ov = (s.view ov).put l b := by
  apply state_ext
  · intro x
    by_cases hx : x = l
    · subst hx
      rw [view_pages_none _ ov h, State.put_pages_same, State.put_pages_same]
    · rw [State.put_pages_ne _ b hx]
      simp only [State.view, State.put_pages_ne s b hx]
  · rfl
  · rfl

/-- Setting the parent link of a page commutes with the view. -/
theorem view_put_parent (s : State) (ov : DiskLoc → Option BtreeBucket) {l : DiskLoc}
    {b vb : BtreeBucket} (hl : s.pages l = some b) (hv : (s.view ov).pages l = some vb)
    (p : DiskLoc) :
    (s.put l { b with parent := p }).view ov = (s.view ov).put l { vb with parent := p } := by
  apply state_ext
  · intro x
    by_cases hx : x = l
    · subst hx
      rw [State.put_pages_same]
      cases h : ov x with
      | none =>
        rw [view_pages_none _ ov h, State.put_pages_same]
        rw [view_pages_none _ ov h, hl] at hv
        cases hv
        rfl
      | some t =>
        rw [view_pages_some _ ov (State.put_pages_same s x _) h]
        rw [view_pages_some _ ov hl h] at hv
        cases hv
        rfl
    · rw [State.put_pages_ne _ _ hx]
      simp only [State.view, State.put_pages_ne s _ hx]
  · rfl
  · rfl

/-- Once the page at `l` is truncated, the view no longer needs its override. -/
theorem view_truncate (s : State) (ov : DiskLoc → Option BtreeBucket) {l : DiskLoc}
    {b : BtreeBucket} (t : BtreeBucket) (hl : s.pages l = some b) (hov : ov l = none) :
    (s.put l { t with parent := b.parent }).view ov
      = s.view (Function.update ov l (some t)) := by
  apply state_ext
  · intro x
    by_cases hx : x = l
    · subst hx
      rw [view_pages_none _ ov hov, State.put_pages_same,
        view_pages_some s _ hl (Function.update_same x (some t) ov)]
    · simp only [State.view, State.put_pages_ne s _ hx, Function.update_noteq hx]
  · rfl
  · rfl

theorem view_pages_congr (s s1 : State) (ov ov1 : DiskLoc → Option BtreeBucket) {x : DiskLoc}
    (hp : s1.pages x = s.pages x) (ho : ov1 x = ov x) :
    (s1.view ov1).pages x = (s.view ov).pages x := by
  simp only [State.view, hp, ho]

theorem view_pages_parent (s s1 : State) (ov ov1 : DiskLoc → Option BtreeBucket) {x : DiskLoc}
    {bx vb : BtreeBucket} {p : DiskLoc} (hs : s.pages x = some bx)
    (hs1 : s1.pages x = some { bx with parent := p }) (ho : ov1 x = ov x)
    (hv : (s.view ov).pages x = some vb) :
    (s1.view ov1).pages x = some { vb with parent := p } := by
  cases h : ov x with
  | none =>
    rw [view_pages_none s ov h, hs] at hv
    cases hv
    rw [view_pages_none s1 ov1 (ho.trans h), hs1]
  | some t =>
    rw [view_pages_some s ov hs h] at hv
    cases hv
    rw [view_pages_some s1 ov1 hs1 (ho.trans h)]

end BtreeBucket
end mongo

namespace mongo
namespace BtreeBucket

/-! ## The entries of a forest across a local change -/

theorem mem_content (o : Ordering) (s : State) (e : EKey) :
    e ∈ Content o s ↔ ∃ l b, s.pages l = some b ∧ e ∈ pageEntries o b := by
  constructor
  · rintro ⟨l, b, k, hl, hk, hu, he⟩
    exact ⟨l, b, hl, k, hk, hu, he⟩
  · rintro ⟨l, b, hl, k, hk, hu, he⟩
    exact ⟨l, b, k, hl, hk, hu, he⟩

theorem pageEntries_congr (o : Ordering) {b b1 : BtreeBucket} (h : b1.keys = b.keys) :
    pageEntries o b1 = pageEntries o b := by
  unfold pageEntries
  rw [h]

theorem content_mapped (o : Ordering) (s : State) {l : DiskLoc} {b : BtreeBucket}
    (hl : s.pages l = some b) : Content o s = pageEntries o b ∪ ContentExcept o s l := by
  ext e
  rw [mem_content]
  constructor
  · rintro ⟨x, bx, hx, he⟩
    by_cases hxl : x = l
    · subst hxl
      rw [hl] at hx
      cases hx
      exact Or.inl he
    · exact Or.inr ⟨x, bx, hxl, hx, he⟩
  · rintro (he | ⟨x, bx, _, hx, he⟩)
    · exact ⟨l, b, hl, he⟩
    · exact ⟨x, bx, hx, he⟩

theorem contentExcept_congr (o : Ordering) (s s1 : State) (l : DiskLoc)
    (h : ∀ x, x ≠ l → (s1.pages x).map (fun b => b.keys) = (s.pages x).map (fun b => b.keys)) :
    ContentExcept o s1 l = ContentExcept o s l := by
  have key : ∀ (a a1 : State),
      (∀ x, x ≠ l → (a1.pages x).map (fun b => b.keys) = (a.pages x).map (fun b => b.keys)) →
      ContentExcept o a1 l ⊆ ContentExcept o a l := by
    intro a a1 ha e
    rintro ⟨x, bx, hxl, hx, he⟩
    have := ha x hxl
    rw [hx] at this
    cases hax : a.pages x with
    | none => rw [hax] at this; cases this
    | some b0 =>
      rw [hax] at this
      simp only [Option.map_some', Option.some.injEq] at this
      exact ⟨x, b0, hxl, hax, by rw [pageEntries_congr o this.symm]; exact he⟩
  exact Set.Subset.antisymm (key s s1 h) (key s1 s (fun x hx => (h x hx).symm))

/-- The entries after one page got other slots and the other pages kept
theirs. -/
theorem content_change_one (o : Ordering) (s s1 : State) {l : DiskLoc} {b b1 : BtreeBucket}
    (hl : s.pages l = some b) (hl1 : s1.pages l = some b1)
    (h : ∀ x, x ≠ l → (s1.pages x).map (fun b => b.keys) = (s.pages x).map (fun b => b.keys))
    (X : Set EKey) (hX : pageEntries o b1 = pageEntries o b ∪ X) :
    Content o s1 = Content o s ∪ X := by
  rw [content_mapped o s1 hl1, content_mapped o s hl, contentExcept_congr o s s1 l h, hX]
  ext e
  simp only [Set.mem_union]
  tauto

theorem content_change_none (o : Ordering) (s s1 : State)
    (h : ∀ x, (s1.pages x).map (fun b => b.keys) = (s.pages x).map (fun b => b.keys)) :
    Content o s1 = Content o s := by
  have key : ∀ (a a1 : State),
      (∀ x, (a1.pages x).map (fun b => b.keys) = (a.pages x).map (fun b => b.keys)) →
      Content o a1 ⊆ Content o a := by
    intro a a1 ha e he
    rw [mem_content] at he ⊢
    obtain ⟨x, bx, hx, he⟩ := he
    have := ha x
    rw [hx] at this
    cases hax : a.pages x with
    | none => rw [hax] at this; cases this
    | some b0 =>
      rw [hax] at this
      simp only [Option.map_some', Option.some.injEq] at this
      exact ⟨x, b0, hax, by rw [pageEntries_congr o this.symm]; exact he⟩
  exact Set.Subset.antisymm (key s s1 h) (key s1 s (fun x => (h x).symm))

/-- A slot that `pack` may drop is unused, so packing keeps the entries. -/
theorem PackedAt.pageEntries_eq (o : Ordering) {b b1 : BtreeBucket} {r r1 : Nat}
    (h : PackedAt b b1 r r1) : pageEntries o b1 = pageEntries o b := by
  ext e
  constructor
  · rintro ⟨k, hk, hu, he⟩
    exact ⟨k, h.sub.subset hk, hu, he⟩
  · rintro ⟨k, hk, hu, he⟩
    exact ⟨k, h.keep k hk (Or.inr hu), hu, he⟩

theorem usedEntry_congr (o : Ordering) {k k1 : _KeyNode} (hk : k1.key = k.key)
    (hr : k1.recordLoc = k.recordLoc) : usedEntry o k1 = usedEntry o k := by
  unfold usedEntry
  have h1 : k1.isUsed = k.isUsed := by
    simp only [_KeyNode.isUsed, _KeyNode.isUnused, hr]
  rw [h1, ekey_congr o hk hr]

theorem pageEntries_eq_iUnion (o : Ordering) (b : BtreeBucket) (e : EKey) :
    e ∈ pageEntries o b ↔ ∃ k ∈ b.keys, e ∈ usedEntry o k := by
  constructor
  · rintro ⟨k, hk, hu, he⟩
    exact ⟨k, hk, hu, he⟩
  · rintro ⟨k, hk, hu, he⟩
    exact ⟨k, hk, hu, he⟩

/-- The entries of the page with the new slot wired in. -/
theorem pageEntries_inserted (o : Ordering) {b b3 : BtreeBucket} {kp : Nat}
    {recordLoc : DiskLoc} {key : BSONObj} {lchild rchild : DiskLoc}
    (hkeys : b3.keys = b.keys.take kp ++
      ⟨lchild, recordLoc, key⟩ :: wireRight rchild (b.keys.drop kp)) :
    pageEntries o b3 = pageEntries o b ∪ usedEntry o ⟨lchild, recordLoc, key⟩ := by
  have hsplit : b.keys = b.keys.take kp ++ b.keys.drop kp := (List.take_append_drop kp _).symm
  ext e
  rw [Set.mem_union, pageEntries_eq_iUnion, pageEntries_eq_iUnion]
  cases hd : b.keys.drop kp with
  | nil =>
    rw [hd] at hkeys hsplit
    simp only [wireRight, List.append_nil] at hkeys hsplit
    rw [hkeys, ← hsplit]
    constructor
    · rintro ⟨k, hk, he⟩
      rcases List.mem_append.mp hk with hk | hk
      · exact Or.inl ⟨k, hk, he⟩
      · rw [List.mem_singleton] at hk
        subst hk
        exact Or.inr he
    · rintro (⟨k, hk, he⟩ | he)
      · exact ⟨k, List.mem_append_left _ hk, he⟩
      · exact ⟨_, List.mem_append_right _ (List.mem_singleton.mpr rfl), he⟩
  | cons u rest =>
    rw [hd] at hkeys hsplit
    simp only [wireRight] at hkeys
    have hu : usedEntry o ({ u with prevChildBucket := rchild } : _KeyNode) = usedEntry o u :=
      usedEntry_congr o rfl rfl
    constructor
    · rintro ⟨k, hk, he⟩
      rw [hkeys] at hk
      simp only [List.mem_append, List.mem_cons] at hk
      rcases hk with hk | rfl | rfl | hk
      · exact Or.inl ⟨k, by rw [hsplit]; simp [hk], he⟩
      · exact Or.inr he
      · rw [hu] at he
        exact Or.inl ⟨u, by rw [hsplit]; simp, he⟩
      · exact Or.inl ⟨k, by rw [hsplit]; simp [hk], he⟩
    · rintro (⟨k, hk, he⟩ | he)
      · rw [hsplit] at hk
        simp only [List.mem_append, List.mem_cons] at hk
        rcases hk with hk | rfl | hk
        · exact ⟨k, by rw [hkeys]; simp [hk], he⟩
        · exact ⟨{ k with prevChildBucket := rchild }, by rw [hkeys]; simp, by rw [hu]; exact he⟩
        · exact ⟨k, by rw [hkeys]; simp [hk], he⟩
      · exact ⟨_, by rw [hkeys]; simp, he⟩

end BtreeBucket
end mongo

namespace mongo

theorem State.put_put (s : State) (l : DiskLoc) (b b1 : BtreeBucket) :
    (s.put l b).put l b1 = s.put l b1 := by
  simp [State.put]

namespace BtreeBucket

/-! ## `insertHere` on a page with room -/

theorem keyBytes_eq_of_map :
    ∀ (ks ks1 : List _KeyNode), ks1.map (fun k => k.key) = ks.map (fun k => k.key) →
      keyBytes ks1 = keyBytes ks := by
  intro ks
  induction ks with
  | nil =>
    intro ks1 h
    cases ks1 with
    | nil => rfl
    | cons a l => simp at h
  | cons k ks ih =>
    intro ks1 h
    cases ks1 with
    | nil => simp at h
    | cons a l =>
      simp only [List.map_cons, List.cons.injEq] at h
      simp only [keyBytes, h.1, ih l h.2]

theorem PageSizes.of_map {c : Layout} {b b1 : BtreeBucket} (h : PageSizes c b)
    (hk : b1.keys.map (fun k => k.key) = b.keys.map (fun k => k.key))
    (he : b1.emptySize = b.emptySize) (ht : b1.topSize = b.topSize)
    (hp : b1.packed = b.packed) : PageSizes c b1 := by
  have hlen : b1.keys.length = b.keys.length := by
    have := congrArg List.length hk
    simpa using this
  have hbytes := keyBytes_eq_of_map b.keys b1.keys hk
  have hmem : ∀ k1 ∈ b1.keys, ∃ k ∈ b.keys, k1.key = k.key := by
    intro k1 hk1
    have : k1.key ∈ b1.keys.map (fun k => k.key) := List.mem_map.mpr ⟨k1, hk1, rfl⟩
    rw [hk] at this
    obtain ⟨k, hk2, he2⟩ := List.mem_map.mp this
    exact ⟨k, hk2, he2.symm⟩
  refine
    { accounting := ?_
      empty_nonneg := he ▸ h.empty_nonneg
      bytes_le := by rw [hbytes, ht]; exact h.bytes_le
      bytes_eq := by rw [hbytes, ht, hp]; exact h.bytes_eq
      key_pos := ?_
      key_le := ?_ }
  · have := h.accounting
    unfold sizeAccounting at this ⊢
    simp only [n] at this ⊢
    rw [hlen, he, ht]; exact this
  · intro k1 hk1
    obtain ⟨k, hk2, he2⟩ := hmem k1 hk1
    rw [he2]; exact h.key_pos k hk2
  · intro k1 hk1
    obtain ⟨k, hk2, he2⟩ := hmem k1 hk1
    rw [he2]; exact h.key_le k hk2

theorem wireRight_map_key (rchild : DiskLoc) (B : List _KeyNode) :
    (wireRight rchild B).map (fun k => k.key) = B.map (fun k => k.key) := by
  cases B with
  | nil => rfl
  | cons u rest => rfl

theorem GInv.congr_fl {c : Layout} {o : Ordering} {s : State} {g : Ghost} {fl fl1 : Set DiskLoc}
    (h : GInv c o s g fl) (hf : fl1 = fl) : GInv c o s g fl1 := hf ▸ h

theorem GInv.diff_null {c : Layout} {o : Ordering} {s : State} {g : Ghost} {fl : Set DiskLoc}
    (h : GInv c o s g fl) : fl \ {DiskLoc.Null} = fl := by
  ext r
  constructor
  · exact fun hr => hr.1
  · intro hr
    refine ⟨hr, ?_⟩
    rw [Set.mem_singleton_iff]
    rintro rfl
    obtain ⟨_, ⟨rb, hrb⟩, _⟩ := h.float _ hr
    exact h.ne_null hrb rfl

theorem Frame.refl_put (s : State) (g : Ghost) (l : DiskLoc) (b3 : BtreeBucket) :
    Frame s (s.put l b3) g g l :=
  { pages := fun x bx hx hr => by
      have hxl : x ≠ l := by rintro rfl; exact lt_irrefl _ hr
      exact ⟨bx, by rw [State.put_pages_ne s b3 hxl]; exact hx, rfl⟩
    rank := fun _ _ _ => rfl
    bounds := fun _ _ _ _ => ⟨rfl, rfl⟩
    mapped := fun x bx hx => by
      rw [State.put_pages]
      by_cases hxl : x = l
      · exact ⟨b3, by rw [if_pos hxl]⟩
      · exact ⟨bx, by rw [if_neg hxl]; exact hx⟩ }

end BtreeBucket
end mongo

namespace mongo
namespace BtreeBucket

theorem pageWeight_of_keys {p p1 : Option BtreeBucket}
    (h : p1.map (fun b => b.keys) = p.map (fun b => b.keys)) : pageWeight p1 = pageWeight p := by
  cases p with
  | none =>
    cases p1 with
    | none => rfl
    | some b1 => simp at h
  | some b =>
    cases p1 with
    | none => simp at h
    | some b1 =>
      simp only [Option.map_some', Option.some.injEq] at h
      simp only [pageWeight, h]

theorem ov_none_of_rank {g : Ghost} {ov : DiskLoc → Option BtreeBucket} {l : DiskLoc}
    (hov : ∀ x t, ov x = some t → g.rank x < g.rank l) : ov l = none := by
  cases h : ov l with
  | none => rfl
  | some t => exact absurd (hov l t h) (lt_irrefl _)

/-- The post-condition of `insertHere` from what is known of the view of the
state it leaves: the invariant, the page at `l` with the new slot, and the other
pages with the slots they had. -/
theorem InsPost.of_page {c : Layout} {o : Ordering} {s s1 : State}
    {ov : DiskLoc → Option BtreeBucket} {g g1 : Ghost} {fl : Set DiskLoc} {l : DiskLoc}
    {b b3 : BtreeBucket} {recordLoc : DiskLoc} {key : BSONObj} {rchild : DiskLoc}
    (hinv : GInv c o (s.view ov) g fl) (hvl : (s.view ov).pages l = some b)
    (h1 : GInv c o (s1.view ov) g1 (fl \ {rchild}))
    (hl1 : (s1.view ov).pages l = some b3)
    (ho : ∀ x, x ≠ l → ((s1.view ov).pages x).map (fun b => b.keys)
      = ((s.view ov).pages x).map (fun b => b.keys))
    (ha : s1.allocNext = s.allocNext)
    (he : pageEntries o b3 = pageEntries o b ∪ usedEntry o ⟨DiskLoc.Null, recordLoc, key⟩)
    (hlen : b3.keys.length ≤ b.keys.length + 1)
    (hf : Frame s s1 g g1 l) :
    InsPost c o s s1 ov g g1 fl l recordLoc key rchild := by
  refine ⟨h1, content_change_one o _ _ hvl hl1 ho _ he, ?_, hf⟩
  obtain ⟨hla, hl0, hlt⟩ := hinv.fresh l b hvl
  rw [slack_change_one (s.view ov) (s1.view ov) (le_of_eq ha.symm)
    (fun x bx hx => (hinv.fresh x bx hx).2.2) l hla hl0 (by
      show l.ofs < s1.allocNext
      rw [ha]; exact hlt)
    (fun x hx => pageWeight_of_keys (ho x hx)), hl1, hvl]
  simp only [pageWeight]
  omega

/-- `insertHere` on a page that has room for the slot, after `pack` if need be:
the slot is put at the insertion point and the child links around it are
wired. -/
theorem insertHere_room (c : Layout) (o : Ordering) {s : State}
    {ov : DiskLoc → Option BtreeBucket} {g : Ghost} {fl : Set DiskLoc} {l : DiskLoc}
    {b : BtreeBucket} {kp : Nat} {recordLoc : DiskLoc} {key : BSONObj}
    {lchild rchild : DiskLoc}
    (hinv : GInv c o (s.view ov) g fl)
    (hov : ∀ x t, ov x = some t → g.rank x < g.rank l)
    (hL : s.pages l = some b)
    (pre : InsPre o g fl l b kp (entryKey o key recordLoc.clearLow) lchild rchild)
    (hrl : 0 ≤ recordLoc.a ∧ 2 ≤ recordLoc.ofs)
    {b1 b2 : BtreeBucket} {kp1 : Nat} (hpa : PackedAt b b1 kp kp1) (hsz1 : PageSizes c b1)
    (hbi : basicInsert c b kp recordLoc key = .ok (true, b2, kp1))
    (hk2 : b2.keys = b1.keys.take kp1 ++ ⟨DiskLoc.Null, recordLoc, key⟩ :: b1.keys.drop kp1)
    (hp2 : b2.parent = b1.parent) (hn2 : b2.nextChild = b1.nextChild)
    (hsz2 : PageSizes c b2) :
    ∃ s1, (∀ fuel, 1 ≤ fuel →
        insertHere c o fuel s l kp recordLoc key lchild rchild = (.ok (), s1)) ∧
      InsPost c o s s1 ov g g fl l recordLoc key rchild := by
  have ovL : ov l = none := ov_none_of_rank hov
  have vL : (s.view ov).pages l = some b := by rw [view_pages_none s ov ovL]; exact hL
  have pre1 := pre.packed hpa
  have hlen1 : (b1.keys.take kp1).length = kp1 := by
    rw [List.length_take]; exact Nat.min_eq_left pre1.pos_le
  have hl : headChild (b1.keys.drop kp1) b2.nextChild = lchild := by
    have := pre1.lchild_eq
    unfold childAt at this
    rw [hn2]; exact this
  obtain ⟨b3, h3k, h3n, h3p, h3pk, h3e, h3t, hw0, hw1⟩ :=
    wireInserted_spec s b2 l kp1 recordLoc key lchild rchild _ _ hk2 hlen1 hl
  have hsz3 : PageSizes c b3 := by
    apply hsz2.of_map _ h3e h3t h3pk
    rw [h3k, hk2, List.map_append, List.map_append, List.map_cons, List.map_cons,
      wireRight_map_key]
  rw [hn2] at h3n
  have h3p1 : b3.parent = b1.parent := h3p.trans hp2
  have hrun : ∀ fuel, 1 ≤ fuel → insertHere c o fuel s l kp recordLoc key lchild rchild
      = wireInserted s b2 l kp1 lchild rchild := by
    intro fuel hf
    obtain ⟨f, rfl⟩ : ∃ f, fuel = f + 1 := ⟨fuel - 1, by omega⟩
    simp only [insertHere, hL, hbi]
  have hv1 : GInv c o ((s.view ov).put l b1) g fl := hinv.put_packed vL hpa hsz1
  have hent : pageEntries o b3 = pageEntries o b ∪ usedEntry o ⟨DiskLoc.Null, recordLoc, key⟩ := by
    rw [pageEntries_inserted o h3k, hpa.pageEntries_eq o,
      @usedEntry_congr o ⟨DiskLoc.Null, recordLoc, key⟩ ⟨lchild, recordLoc, key⟩ rfl rfl]
  have hlen3 : b3.keys.length ≤ b.keys.length + 1 := by
    have h1 := hpa.sub.length_le
    have h2 : (wireRight rchild (b1.keys.drop kp1)).length = (b1.keys.drop kp1).length := by
      cases b1.keys.drop kp1 with
      | nil => rfl
      | cons u rest => rfl
    rw [h3k, List.length_append, List.length_cons, h2, hlen1, List.length_drop]
    have := pre1.pos_le
    omega
  by_cases hr : rchild = DiskLoc.Null
  · refine ⟨s.put l b3, fun fuel hf => by rw [hrun fuel hf, hw0 hr], ?_⟩
    have hview : (s.put l b3).view ov = ((s.view ov).put l b1).put l b3 := by
      rw [view_put s ov b3 ovL, State.put_put]
    have ha : (s.put l b3).allocNext = s.allocNext := rfl
    apply InsPost.of_page hinv vL _ _ _ ha hent hlen3 (Frame.refl_put s g l b3)
    · rw [hview]
      exact hv1.put_inserted (State.put_pages_same _ _ _) pre1 hrl (fun hn => absurd hr hn)
        h3k h3n h3p1 hsz3
    · rw [view_put s ov b3 ovL, State.put_pages_same]
    · intro x hx
      rw [view_put s ov b3 ovL, State.put_pages_ne _ _ hx]
  · obtain ⟨hrf, _, _, _, _, _, hrank⟩ := pre.rfloat hr
    obtain ⟨_, ⟨vrb, hvrb⟩, _⟩ := hinv.float rchild hrf
    obtain ⟨rb, hrb, _⟩ := view_mapped_inv s ov hvrb
    have hrl1 : rchild ≠ l := by rintro rfl; exact lt_irrefl _ hrank
    refine ⟨(s.put rchild { rb with parent := l }).put l b3,
      fun fuel hf => by rw [hrun fuel hf, hw1 rb hr hrl1 hrb], ?_⟩
    have hview : ((s.put rchild { rb with parent := l }).put l b3).view ov
        = ((((s.view ov).put l b1).put rchild { vrb with parent := l })).put l b3 := by
      rw [view_put _ ov b3 ovL, view_put_parent s ov hrb hvrb l,
        State.put_comm _ b1 _ (Ne.symm hrl1), State.put_put]
    have hv2 : GInv c o (((s.view ov).put l b1).put rchild { vrb with parent := l }) g fl :=
      hv1.put_float_parent hrf (by rw [State.put_pages_ne _ _ hrl1]; exact hvrb) l
    have ha : ((s.put rchild { rb with parent := l }).put l b3).allocNext = s.allocNext := rfl
    apply InsPost.of_page hinv vL _ _ _ ha hent hlen3
    · exact
        { pages := fun x bx hx hr1 => by
            have hxl : x ≠ l := by rintro rfl; exact lt_irrefl _ hr1
            rw [State.put_pages_ne _ b3 hxl, State.put_pages]
            by_cases hxr : x = rchild
            · subst hxr
              rw [hrb] at hx
              cases hx
              exact ⟨_, by rw [if_pos rfl], rfl⟩
            · exact ⟨bx, by rw [if_neg hxr]; exact hx, rfl⟩
          rank := fun _ _ _ => rfl
          bounds := fun _ _ _ _ => ⟨rfl, rfl⟩
          mapped := fun x bx hx => by
            rw [State.put_pages]
            by_cases hxl : x = l
            · exact ⟨b3, by rw [if_pos hxl]⟩
            · rw [if_neg hxl, State.put_pages]
              by_cases hxr : x = rchild
              · exact ⟨_, by rw [if_pos hxr]⟩
              · exact ⟨bx, by rw [if_neg hxr]; exact hx⟩ }
    · rw [hview]
      exact hv2.put_inserted (by rw [State.put_pages_ne _ _ (Ne.symm hrl1)];
                                 exact State.put_pages_same _ _ _) pre1 hrl
        (fun _ => ⟨_, State.put_pages_same _ _ _, rfl⟩) h3k h3n h3p1 hsz3
    · rw [hview, State.put_pages_same]
    · intro x hx
      rw [hview, State.put_pages_ne _ _ hx, State.put_pages]
      by_cases hxr : x = rchild
      · subst hxr
        rw [if_pos rfl, hvrb]
        rfl
      · rw [if_neg hxr, State.put_pages_ne _ _ hx]

end BtreeBucket
end mongo
namespace mongo
namespace BtreeBucket

theorem keyMax_nonneg (c : Layout) (hc : Layout.Sane c) : 0 ≤ KeyMax c := by
  unfold KeyMax
  exact Int.tdiv_nonneg (le_of_lt hc.bucket_pos) (by norm_num)

theorem totalDataSize_pos (c : Layout) (hc : Layout.Sane c) : 0 < totalDataSize c := by
  have h1 := keyMax_nonneg c hc
  have h2 := hc.room
  have h3 := hc.slot_pos
  unfold totalDataSize
  omega

theorem pageSizes_init (c : Layout) (hc : Layout.Sane c) : PageSizes c (init c) :=
  { accounting := sizeAccounting_init c
    empty_nonneg := le_of_lt (totalDataSize_pos c hc)
    bytes_le := le_refl _
    bytes_eq := fun _ => rfl
    key_pos := fun k hk => by cases hk
    key_le := fun k hk => by cases hk }

theorem addBucket_eq (c : Layout) (s : State) :
    addBucket c s = (⟨0, s.allocNext⟩,
      { (s.put ⟨0, s.allocNext⟩ (init c)) with allocNext := s.allocNext + c.BucketSize }) := rfl

theorem keyBytes_length_sublist (c : Layout) (hc : Layout.Sane c) {ks1 ks : List _KeyNode}
    (h : ks1.Sublist ks) (hpos : ∀ k ∈ ks, 0 < k.key.objsize) :
    keyBytes ks1 + (ks1.length : Int) * c.slotSize ≤ keyBytes ks + (ks.length : Int) * c.slotSize := by
  have h1 := keyBytes_sublist h hpos
  have h2 : (ks1.length : Int) ≤ (ks.length : Int) := by exact_mod_cast h.length_le
  have h3 := mul_le_mul_of_nonneg_right h2 (le_of_lt hc.slot_pos)
  omega

/-- The first part of a split, on the pages as they are stored: the slots above
the split point are copied to a fresh page, whose children are given their new
parent. -/
theorem split_phys (c : Layout) (hc : Layout.Sane c) (o : Ordering) (s : State) (l : DiskLoc)
    (b1 : BtreeBucket) (sp : Nat) (hsz : PageSizes c b1) (hs : SortedSlots o b1.keys)
    (hR : s.pages ⟨0, s.allocNext⟩ = none) (hlR : l ≠ ⟨0, s.allocNext⟩)
    (hch : ∀ ch, (b1.nextChild = ch ∨ ∃ k ∈ b1.keys.drop (sp + 1), k.prevChildBucket = ch) →
      ch ≠ DiskLoc.Null → (∃ cb, s.pages ch = some cb) ∧ ch ≠ l) :
    ∃ r sD, pushBackAll c o (b1.keys.drop (sp + 1)) (init c) = .ok r ∧
      r.keys = b1.keys.drop (sp + 1) ∧ r.parent = DiskLoc.Null ∧ PageSizes c r ∧
      fixParentPtrs (({ ((s.put l b1).put ⟨0, s.allocNext⟩ (init c)) with
          allocNext := s.allocNext + c.BucketSize } : State).put ⟨0, s.allocNext⟩
          { r with nextChild := b1.nextChild }) ⟨0, s.allocNext⟩ 0 = .ok sD ∧
      sD.head = s.head ∧ sD.allocNext = s.allocNext + c.BucketSize ∧
      sD.pages l = some b1 ∧
      sD.pages ⟨0, s.allocNext⟩ = some { r with nextChild := b1.nextChild } ∧
      (∀ ch, IsChild { r with nextChild := b1.nextChild } ch → ch ≠ DiskLoc.Null →
        ∀ cb, s.pages ch = some cb →
          sD.pages ch = some { cb with parent := ⟨0, s.allocNext⟩ }) ∧
      (∀ x, x ≠ l → x ≠ ⟨0, s.allocNext⟩ →
        ¬ (IsChild { r with nextChild := b1.nextChild } x ∧ x ≠ DiskLoc.Null) →
        sD.pages x = s.pages x) := by
  have hsub : (b1.keys.drop (sp + 1)).Sublist b1.keys := List.drop_sublist _ _
  obtain ⟨r, hpb, hrk, hrp, _, hrsz, _⟩ := pushBackAll_spec c hc o (b1.keys.drop (sp + 1)) (init c)
    (pageSizes_init c hc)
    (fun k hk => ⟨hsz.key_pos k (hsub.subset hk), hsz.key_le k (hsub.subset hk)⟩)
    (by
      have h1 := keyBytes_length_sublist c hc hsub hsz.key_pos
      have h2 := fits_of_pageSizes c hc b1 hsz
      show _ ≤ totalDataSize c
      omega)
    (by
      show SortedSlots o ([] ++ b1.keys.drop (sp + 1))
      rw [List.nil_append]
      exact List.Pairwise.sublist hsub hs)
  have hrk1 : r.keys = b1.keys.drop (sp + 1) := by rw [hrk]; rfl
  have hrp1 : r.parent = DiskLoc.Null := by rw [hrp]; rfl
  generalize hsC : (({ ((s.put l b1).put ⟨0, s.allocNext⟩ (init c)) with
          allocNext := s.allocNext + c.BucketSize } : State).put ⟨0, s.allocNext⟩
          { r with nextChild := b1.nextChild }) = sC
  have hCp : ∀ x, sC.pages x = if x = ⟨0, s.allocNext⟩ then some { r with nextChild := b1.nextChild }
      else if x = l then some b1 else s.pages x := by
    intro x
    rw [← hsC, State.put_pages]
    by_cases hx : x = ⟨0, s.allocNext⟩
    · rw [if_pos hx, if_pos hx]
    · rw [if_neg hx, if_neg hx]
      show ((s.put l b1).put ⟨0, s.allocNext⟩ (init c)).pages x = _
      rw [State.put_pages, if_neg hx, State.put_pages]
  have hCR : sC.pages ⟨0, s.allocNext⟩ = some { r with nextChild := b1.nextChild } := by
    rw [hCp, if_pos rfl]
  have hchild : ∀ ch, IsChild { r with nextChild := b1.nextChild } ch → ch ≠ DiskLoc.Null →
      (∃ cb, s.pages ch = some cb) ∧ ch ≠ l := by
    intro ch hc1 hn
    apply hch ch _ hn
    rcases hc1 with h | ⟨k, hk, h⟩
    · exact Or.inl h
    · exact Or.inr ⟨k, by rw [← hrk1]; exact hk, h⟩
  have hchR : ∀ ch, IsChild { r with nextChild := b1.nextChild } ch → ch ≠ DiskLoc.Null →
      ch ≠ ⟨0, s.allocNext⟩ := by
    intro ch hc1 hn he
    obtain ⟨⟨cb, hcb⟩, _⟩ := hchild ch hc1 hn
    rw [he, hR] at hcb
    cases hcb
  obtain ⟨sD, hfix, hhd, hal, hD1, hD2⟩ := fixAll_spec ⟨0, s.allocNext⟩
    (b1.nextChild :: (({ r with nextChild := b1.nextChild } : BtreeBucket).keys.drop 0).map
      (fun k => k.prevChildBucket)) sC (by
      intro ch hmem hn
      have hc1 := (mem_children_iff { r with nextChild := b1.nextChild } ch).mp hmem
      obtain ⟨⟨cb, hcb⟩, hne⟩ := hchild ch hc1 hn
      rw [hCp, if_neg (hchR ch hc1 hn), if_neg hne]
      exact ⟨cb, hcb⟩)
  refine ⟨r, sD, hpb, hrk1, hrp1, hrsz, ?_, ?_, ?_, ?_, ?_, ?_, ?_⟩
  · rw [hsC]
    unfold fixParentPtrs
    rw [hCR]
    exact hfix
  · rw [hhd, ← hsC]; rfl
  · rw [hal, ← hsC]; rfl
  · rw [hD2 l, hCp, if_neg hlR, if_pos rfl]
    rintro ⟨hmem, hn⟩
    exact (hchild l ((mem_children_iff _ l).mp hmem) hn).2 rfl
  · rw [hD2 _, hCR]
    rintro ⟨hmem, hn⟩
    exact hchR _ ((mem_children_iff _ _).mp hmem) hn rfl
  · intro ch hc1 hn cb hcb
    have hmem := (mem_children_iff { r with nextChild := b1.nextChild } ch).mpr hc1
    apply hD1 ch hmem hn
    rw [hCp, if_neg (hchR ch hc1 hn), if_neg (hchild ch hc1 hn).2]
    exact hcb
  · intro x hxl hxR hnc
    rw [hD2 x, hCp, if_neg hxR, if_neg hxl]
    rintro ⟨hmem, hn⟩
    exact hnc ⟨(mem_children_iff _ x).mp hmem, hn⟩

end BtreeBucket
end mongo
namespace mongo
namespace BtreeBucket

/-- The run of `insertHere` on a root page without room: the page is split, a
new root takes the split key, and the insertion goes on in one of the halves. -/
theorem insertHere_split_root (c : Layout) (o : Ordering) (s : State) (l : DiskLoc)
    (kp : Nat) (recordLoc : DiskLoc) (key : BSONObj) (lchild rchild : DiskLoc)
    {b b1 r p t : BtreeBucket} {kp1 sp np : Nat} {sD : State} {sk : _KeyNode}
    (hL : s.pages l = some b)
    (hbi : basicInsert c b kp recordLoc key = .ok (false, b1, kp1))
    (hsp : splitPos b1 kp1 = .ok sp)
    (hpb : pushBackAll c o (b1.keys.drop (sp + 1)) (init c) = .ok r)
    (hfix : fixParentPtrs (({ ((s.put l b1).put ⟨0, s.allocNext⟩ (init c)) with
          allocNext := s.allocNext + c.BucketSize } : State).put ⟨0, s.allocNext⟩
          { r with nextChild := b1.nextChild }) ⟨0, s.allocNext⟩ 0 = .ok sD)
    (hDl : sD.pages l = some b1) (hsk : b1.keys.get? sp = some sk)
    (hDR : sD.pages ⟨0, s.allocNext⟩ = some { r with nextChild := b1.nextChild })
    (hlR : l ≠ ⟨0, s.allocNext⟩) (hlN : l ≠ ⟨0, sD.allocNext⟩)
    (hRN : (⟨0, s.allocNext⟩ : DiskLoc) ≠ ⟨0, sD.allocNext⟩)
    (hpar : b1.parent = DiskLoc.Null)
    (hp : pushBack c (init c) sk.recordLoc sk.key o l = .ok p)
    (htr : truncateTo c { b1 with nextChild := sk.prevChildBucket } sp kp1 = .ok (t, np)) :
    ∃ sQ, (∀ fuel, insertHere c o (fuel + 1) s l kp recordLoc key lchild rchild =
        insertHere c o fuel sQ (if kp1 ≤ sp then l else ⟨0, s.allocNext⟩)
          (if kp1 ≤ sp then np else kp1 - sp - 1) recordLoc key lchild rchild) ∧
      sQ.head = ⟨0, sD.allocNext⟩ ∧ sQ.allocNext = sD.allocNext + c.BucketSize ∧
      ∀ x, sQ.pages x =
        if x = l then some { t with parent := ⟨0, sD.allocNext⟩ }
        else if x = ⟨0, s.allocNext⟩ then
          some { r with nextChild := b1.nextChild, parent := ⟨0, sD.allocNext⟩ }
        else if x = ⟨0, sD.allocNext⟩ then some { p with nextChild := ⟨0, s.allocNext⟩ }
        else sD.pages x := by
  have htr1 := truncateTo_parent c _ ⟨0, sD.allocNext⟩ sp kp1 t np htr
  have hnull : b1.parent.isNull = true := by rw [hpar]; rfl
  apply Exists.intro
  constructor
  · intro fuel
    simp only [insertHere, hL, hbi, hsp, addBucket_eq, State.put_allocNext, hpb, hfix, hDl, hsk,
      hnull, if_true, hp, State.setParent, State.put_pages_same, State.put_pages_ne _ _ hlR,
      State.put_pages_ne _ _ hlR.symm, State.put_pages_ne _ _ hRN, State.put_pages_ne _ _ hlN,
      State.put_pages_ne _ _ hlN.symm, State.put_pages_ne _ _ hRN.symm, hDR, htr1]
    by_cases hk : kp1 ≤ sp
    · simp only [hk, if_true]
      rfl
    · simp only [hk, if_false]
  · refine ⟨rfl, rfl, fun x => ?_⟩
    rw [State.put_pages]
    by_cases hxl : x = l
    · rw [if_pos hxl, if_pos hxl]
    rw [if_neg hxl, if_neg hxl, State.put_pages]
    by_cases hxR : x = ⟨0, s.allocNext⟩
    · rw [if_pos hxR, if_pos hxR]
    rw [if_neg hxR, if_neg hxR]
    show (((_ : State).put ⟨0, sD.allocNext⟩ _).put l _).pages x = _
    rw [State.put_pages, if_neg hxl, State.put_pages]
    by_cases hxN : x = ⟨0, sD.allocNext⟩
    · rw [if_pos hxN, if_pos hxN]
    rw [if_neg hxN, if_neg hxN]
    show ((sD.put l _).put ⟨0, sD.allocNext⟩ _).pages x = _
    rw [State.put_pages, if_neg hxN, State.put_pages, if_neg hxl]

/-- The run of `insertHere` on a page without room that has a parent: the page
is split, the split key is inserted in the parent, and the insertion goes on in
one of the halves. -/
theorem insertHere_split_promote (c : Layout) (o : Ordering) (fuel : Nat) (s : State)
    (l : DiskLoc) (kp : Nat) (recordLoc : DiskLoc) (key : BSONObj) (lchild rchild : DiskLoc)
    {b b1 r t : BtreeBucket} {kp1 sp np : Nat} {sD sP : State} {sk : _KeyNode} {code : Int}
    {pp : DiskLoc}
    (hL : s.pages l = some b)
    (hbi : basicInsert c b kp recordLoc key = .ok (false, b1, kp1))
    (hsp : splitPos b1 kp1 = .ok sp)
    (hpb : pushBackAll c o (b1.keys.drop (sp + 1)) (init c) = .ok r)
    (hfix : fixParentPtrs (({ ((s.put l b1).put ⟨0, s.allocNext⟩ (init c)) with
          allocNext := s.allocNext + c.BucketSize } : State).put ⟨0, s.allocNext⟩
          { r with nextChild := b1.nextChild }) ⟨0, s.allocNext⟩ 0 = .ok sD)
    (hDl : sD.pages l = some b1) (hsk : b1.keys.get? sp = some sk)
    (hDR : sD.pages ⟨0, s.allocNext⟩ = some { r with nextChild := b1.nextChild })
    (hlR : l ≠ ⟨0, s.allocNext⟩)
    (hpar : b1.parent ≠ DiskLoc.Null)
    (hins : _insert c o fuel ((sD.put l { b1 with nextChild := sk.prevChildBucket }).put
        ⟨0, s.allocNext⟩ { r with nextChild := b1.nextChild, parent := b1.parent })
        b1.parent sk.recordLoc sk.key true l ⟨0, s.allocNext⟩ = (.ok code, sP))
    (hP : sP.pages l = some { b1 with nextChild := sk.prevChildBucket, parent := pp })
    (htr : truncateTo c { b1 with nextChild := sk.prevChildBucket } sp kp1 = .ok (t, np)) :
    insertHere c o (fuel + 1) s l kp recordLoc key lchild rchild =
      insertHere c o fuel (sP.put l { t with parent := pp })
        (if kp1 ≤ sp then l else ⟨0, s.allocNext⟩)
        (if kp1 ≤ sp then np else kp1 - sp - 1) recordLoc key lchild rchild := by
  have htr1 := truncateTo_parent c _ pp sp kp1 t np htr
  have hnull : b1.parent.isNull = false := by
    rw [DiskLoc.isNull_false_iff]; exact hpar
  simp only [insertHere, hL, hbi, hsp, addBucket_eq, State.put_allocNext, hpb, hfix, hDl, hsk,
    hnull, Bool.false_eq_true, if_false, State.setParent, State.put_pages_same,
    State.put_pages_ne _ _ hlR, State.put_pages_ne _ _ hlR.symm, hDR, hins, hP, htr1]
  by_cases hk : kp1 ≤ sp
  · simp only [hk, if_true]
  · simp only [hk, if_false]

end BtreeBucket
end mongo
namespace mongo
namespace BtreeBucket

/-! ## The entries and the slot count across a split -/

theorem keys_eq_of_map {p p1 : Option BtreeBucket} {b1 : BtreeBucket}
    (h : p1.map (fun b => b.keys) = p.map (fun b => b.keys)) (h1 : p1 = some b1) :
    ∃ b, p = some b ∧ b.keys = b1.keys := by
  subst h1
  cases p with
  | none => simp at h
  | some b =>
    simp only [Option.map_some', Option.some.injEq] at h
    exact ⟨b, rfl, h.symm⟩

/-- The entries of the two halves of a split page and the split key are the
entries of the page. -/
theorem pageEntries_split (o : Ordering) {b1 t rb : BtreeBucket} {A C : List _KeyNode}
    {sk : _KeyNode} (hkeys : b1.keys = A ++ sk :: C) (ht_sub : t.keys.Sublist A)
    (ht_keep : ∀ k ∈ A, k.isUsed = true → k ∈ t.keys) (hr_keys : rb.keys = C) :
    pageEntries o t ∪ pageEntries o rb ∪ usedEntry o sk = pageEntries o b1 := by
  ext e
  simp only [Set.mem_union, pageEntries_eq_iUnion, hkeys, hr_keys, List.mem_append,
    List.mem_cons]
  constructor
  · rintro ((⟨k, hk, he⟩ | ⟨k, hk, he⟩) | he)
    · exact ⟨k, Or.inl (ht_sub.subset hk), he⟩
    · exact ⟨k, Or.inr (Or.inr hk), he⟩
    · exact ⟨sk, Or.inr (Or.inl rfl), he⟩
  · rintro ⟨k, hk | hk | hk, he⟩
    · exact Or.inl (Or.inl ⟨k, ht_keep k hk he.1, he⟩)
    · subst hk
      exact Or.inr he
    · exact Or.inl (Or.inr ⟨k, hk, he⟩)

/-- The entries after a split, with the split key on its way to the parent. -/
theorem content_split (o : Ordering) (v v6 : State) {l r : DiskLoc} {b1 t rb : BtreeBucket}
    {sk : _KeyNode} (hl : v.pages l = some b1) (hr : v.pages r = none)
    (hl6 : v6.pages l = some t) (hr6 : v6.pages r = some rb)
    (ho : ∀ x, x ≠ l → x ≠ r →
      (v6.pages x).map (fun b => b.keys) = (v.pages x).map (fun b => b.keys))
    (hE : pageEntries o t ∪ pageEntries o rb ∪ usedEntry o sk = pageEntries o b1) :
    Content o v6 ∪ usedEntry o sk = Content o v := by
  ext e
  simp only [Set.mem_union, mem_content]
  constructor
  · rintro (⟨x, bx, hx, he⟩ | he)
    · by_cases hxl : x = l
      · subst hxl
        rw [hl6] at hx
        cases hx
        exact ⟨x, b1, hl, by rw [← hE]; exact Or.inl (Or.inl he)⟩
      by_cases hxr : x = r
      · subst hxr
        rw [hr6] at hx
        cases hx
        exact ⟨l, b1, hl, by rw [← hE]; exact Or.inl (Or.inr he)⟩
      obtain ⟨b0, h0, hk0⟩ := keys_eq_of_map (ho x hxl hxr) hx
      exact ⟨x, b0, h0, by rw [pageEntries_congr o hk0]; exact he⟩
    · exact ⟨l, b1, hl, by rw [← hE]; exact Or.inr he⟩
  · rintro ⟨x, bx, hx, he⟩
    by_cases hxl : x = l
    · subst hxl
      rw [hl] at hx
      cases hx
      rw [← hE] at he
      rcases he with (he | he) | he
      · exact Or.inl ⟨x, t, hl6, he⟩
      · exact Or.inl ⟨r, rb, hr6, he⟩
      · exact Or.inr he
    have hxr : x ≠ r := by
      rintro rfl
      rw [hr] at hx
      cases hx
    obtain ⟨b0, h0, hk0⟩ := keys_eq_of_map (ho x hxl hxr).symm hx
    exact Or.inl ⟨x, b0, h0, by rw [pageEntries_congr o hk0]; exact he⟩

/-- The entries after a page with one slot was added. -/
theorem content_add_page (o : Ordering) (v v7 : State) {nr : DiskLoc} {p : BtreeBucket}
    {x : _KeyNode} (hn : v.pages nr = none) (hn7 : v7.pages nr = some p) (hp : p.keys = [x])
    (ho : ∀ y, y ≠ nr →
      (v7.pages y).map (fun b => b.keys) = (v.pages y).map (fun b => b.keys)) :
    Content o v7 = Content o v ∪ usedEntry o x := by
  ext e
  simp only [Set.mem_union, mem_content]
  constructor
  · rintro ⟨y, bx, hy, he⟩
    by_cases hyn : y = nr
    · subst hyn
      rw [hn7] at hy
      cases hy
      rw [pageEntries_eq_iUnion, hp] at he
      obtain ⟨k, hk, he⟩ := he
      rw [List.mem_singleton] at hk
      subst hk
      exact Or.inr he
    obtain ⟨b0, h0, hk0⟩ := keys_eq_of_map (ho y hyn) hy
    exact Or.inl ⟨y, b0, h0, by rw [pageEntries_congr o hk0]; exact he⟩
  · rintro (⟨y, bx, hy, he⟩ | he)
    · have hyn : y ≠ nr := by
        rintro rfl
        rw [hn] at hy
        cases hy
      obtain ⟨b0, h0, hk0⟩ := keys_eq_of_map (ho y hyn).symm hy
      exact ⟨y, b0, h0, by rw [pageEntries_congr o hk0]; exact he⟩
    · exact ⟨nr, p, hn7, by
        rw [pageEntries_eq_iUnion, hp]
        exact ⟨x, List.mem_singleton.mpr rfl, he⟩⟩

/-- The frame of two calls in a row on pages of the same rank. -/
theorem Frame.comp {s s1 s2 : State} {g g1 g2 : Ghost} {l l1 : DiskLoc}
    (h : Frame s s1 g g1 l) (h1 : Frame s1 s2 g1 g2 l1)
    (hr : ∀ x bx, s.pages x = some bx → g.rank x < g.rank l → g1.rank x < g1.rank l1) :
    Frame s s2 g g2 l :=
  { pages := fun x bx hx hlt => by
      obtain ⟨bx1, hx1, he1⟩ := h.pages x bx hx hlt
      obtain ⟨bx2, hx2, he2⟩ := h1.pages x bx1 hx1 (hr x bx hx hlt)
      refine ⟨bx2, hx2, ?_⟩
      rw [he2, he1]
    rank := fun x bx hx => by
      obtain ⟨bx1, hx1⟩ := h.mapped x bx hx
      rw [h1.rank x bx1 hx1, h.rank x bx hx]
    bounds := fun x bx hx hlt => by
      obtain ⟨bx1, hx1, _⟩ := h.pages x bx hx hlt
      obtain ⟨e1, e2⟩ := h1.bounds x bx1 hx1 (hr x bx hx hlt)
      obtain ⟨e3, e4⟩ := h.bounds x bx hx hlt
      exact ⟨e1.trans e3, e2.trans e4⟩
    mapped := fun x bx hx => by
      obtain ⟨bx1, hx1⟩ := h.mapped x bx hx
      exact h1.mapped x bx1 hx1 }

end BtreeBucket
end mongo
namespace mongo
namespace BtreeBucket

theorem eq_take_cons_drop {α : Type} :
    ∀ (ks : List α) (i : Nat) (k : α), ks.get? i = some k →
      ks = ks.take i ++ k :: ks.drop (i + 1)
  | [], i, k, h => by cases i <;> cases h
  | x :: xs, 0, k, h => by
    simp only [List.get?_cons_zero, Option.some.injEq] at h
    subst h
    rfl
  | x :: xs, i + 1, k, h => by
    simp only [List.get?_cons_succ] at h
    have := eq_take_cons_drop xs i k h
    simp only [List.take_succ_cons, List.drop_succ_cons, List.cons_append]
    rw [← this]

theorem page_eq_with_parent (b : BtreeBucket) : b = { b with parent := b.parent } := by
  cases b; rfl

theorem map_keys_with_parent (b : BtreeBucket) (p : DiskLoc) :
    (some ({ b with parent := p } : BtreeBucket)).map (fun b => b.keys)
      = (some b).map (fun b => b.keys) := rfl

/-- A page that `pack` leaves after truncation to at least one slot has a slot. -/
theorem keepFrom_take_ne_nil (r : Nat) (ks : List _KeyNode) (sp : Nat) (h1 : 1 ≤ sp)
    (h2 : sp ≤ ks.length) : keepFrom r 0 (ks.take sp) ≠ [] := by
  intro hnil
  have h := keepFrom_head r (ks.take sp)
  rw [hnil] at h
  cases hk : ks.take sp with
  | nil =>
    have := congrArg List.length hk
    rw [List.length_take] at this
    simp only [List.length_nil] at this
    omega
  | cons x xs =>
    rw [hk] at h
    cases h

/-- The first part of a split: the routines it runs succeed, and the state seen
with the truncated page in place satisfies the invariant with the new page as a
root. -/
theorem split_stage (c : Layout) (hc : Layout.Sane c) (o : Ordering) {s : State}
    {ov : DiskLoc → Option BtreeBucket} {g : Ghost} {fl : Set DiskLoc} {l : DiskLoc}
    {b b1 : BtreeBucket} {kp kp1 : Nat}
    (hinv : GInv c o (s.view ov) g fl)
    (hov : ∀ x t, ov x = some t → g.rank x < g.rank l)
    (hovm : ∀ x t, ov x = some t → ∃ bx, s.pages x = some bx)
    (hL : s.pages l = some b)
    (hpa : PackedAt b b1 kp kp1) (hsz1 : PageSizes c b1) (hlen : 2 < b1.keys.length) :
    ∃ sp sk r sD t np, SplitOut c o s ov g fl l b1 kp1 sp sk r sD t np := by
  have ovL : ov l = none := ov_none_of_rank hov
  have vL : (s.view ov).pages l = some b := by rw [view_pages_none s ov ovL]; exact hL
  have hRf : s.pages ⟨0, s.allocNext⟩ = none := by
    cases h : s.pages ⟨0, s.allocNext⟩ with
    | none => rfl
    | some rb0 =>
      obtain ⟨vb, hvb, _⟩ := view_mapped s ov h
      have := (hinv.fresh _ _ hvb).2.2
      exact absurd this (lt_irrefl _)
  have hlR : l ≠ ⟨0, s.allocNext⟩ := by
    rintro rfl
    rw [hRf] at hL
    cases hL
  have ovR : ov ⟨0, s.allocNext⟩ = none := by
    cases h : ov ⟨0, s.allocNext⟩ with
    | none => rfl
    | some t0 =>
      obtain ⟨bx, hbx⟩ := hovm _ _ h
      rw [hRf] at hbx
      cases hbx
  have hv1 : GInv c o ((s.view ov).put l b1) g fl := hinv.put_packed vL hpa hsz1
  have hvl : ((s.view ov).put l b1).pages l = some b1 := State.put_pages_same _ _ _
  have hvo : ∀ x, x ≠ l → ((s.view ov).put l b1).pages x = (s.view ov).pages x :=
    fun x hx => State.put_pages_ne _ _ hx
  have hpf := hv1.page l b1 hvl
  obtain ⟨sp, hsp, hsp1, hsp2⟩ := splitPos_spec b1 kp1 hlen
  obtain ⟨sk, hsk⟩ := get?_some_of_lt b1.keys sp (by omega)
  have hkeys := eq_take_cons_drop b1.keys sp sk hsk
  have hskm : sk ∈ b1.keys := List.get?_mem hsk
  -- the children of the page
  have hchild : ∀ ch, IsChild b1 ch → ch ≠ DiskLoc.Null →
      ∃ cb bx, (s.view ov).pages ch = some cb ∧ s.pages ch = some bx ∧ ch ≠ l ∧
        g.rank ch < g.rank l := by
    intro ch hc1 hn
    obtain ⟨⟨cb, hcb, _⟩, hrk, _⟩ := hpf.isChild hc1 hn
    have hne : ch ≠ l := by
      rintro rfl
      exact lt_irrefl _ hrk
    rw [hvo ch hne] at hcb
    obtain ⟨bx, hbx, _⟩ := view_mapped_inv s ov hcb
    exact ⟨cb, bx, hcb, hbx, hne, hrk⟩
  have hdropsub : (b1.keys.drop (sp + 1)).Sublist b1.keys := List.drop_sublist _ _
  obtain ⟨r, sD, hpb, hrk, hrp, hrsz, hfix, hhd, hal, hDl, hDR, hDch, hDo⟩ :=
    split_phys c hc o s l b1 sp hsz1 hpf.sorted hRf hlR (by
      intro ch hc1 hn
      have hc2 : IsChild b1 ch := by
        rcases hc1 with h | ⟨k, hk, h⟩
        · exact Or.inl h
        · exact Or.inr ⟨k, hdropsub.subset hk, h⟩
      obtain ⟨_, bx, _, hbx, hne, _⟩ := hchild ch hc2 hn
      exact ⟨⟨bx, hbx⟩, hne⟩)
  have hrbchild : ∀ ch, IsChild { r with nextChild := b1.nextChild } ch → IsChild b1 ch := by
    intro ch hc1
    rcases hc1 with h | ⟨k, hk, h⟩
    · exact Or.inl h
    · exact Or.inr ⟨k, hdropsub.subset (by rw [← hrk]; exact hk), h⟩
  have hsz3 : PageSizes c { b1 with nextChild := sk.prevChildBucket } :=
    hsz1.congr rfl rfl rfl rfl
  obtain ⟨t, np, htr, htp, htn, htsz, htk, htpa⟩ :=
    truncateTo_spec c hc { b1 with nextChild := sk.prevChildBucket } sp kp1 hsz3
      (by show sp ≤ b1.keys.length; omega)
  have htk1 : t.keys = keepFrom kp1 0 (b1.keys.take sp) := htk
  -- the pages of the state seen with the truncated page in place
  have hov1 : ∀ x, x ≠ l → Function.update ov l (some t) x = ov x :=
    fun x hx => Function.update_noteq hx _ _
  have hEl : ((sD.put l { b1 with nextChild := sk.prevChildBucket }).view
      (Function.update ov l (some t))).pages l = some { t with parent := b1.parent } :=
    view_pages_some _ _ (b := { b1 with nextChild := sk.prevChildBucket })
      (State.put_pages_same _ _ _) (Function.update_same _ _ _)
  have hEr : ((sD.put l { b1 with nextChild := sk.prevChildBucket }).view
      (Function.update ov l (some t))).pages ⟨0, s.allocNext⟩
        = some { r with nextChild := b1.nextChild } := by
    rw [view_pages_none _ _ (by rw [hov1 _ hlR.symm]; exact ovR),
      State.put_pages_ne _ _ hlR.symm]
    exact hDR
  have hEch : ∀ ch, IsChild { r with nextChild := b1.nextChild } ch → ch ≠ DiskLoc.Null →
      ∀ cb, ((s.view ov).put l b1).pages ch = some cb →
        ((sD.put l { b1 with nextChild := sk.prevChildBucket }).view
          (Function.update ov l (some t))).pages ch
            = some { cb with parent := ⟨0, s.allocNext⟩ } := by
    intro ch hc1 hn cb hcb
    obtain ⟨_, bx, _, hbx, hne, _⟩ := hchild ch (hrbchild ch hc1) hn
    rw [hvo ch hne] at hcb
    exact view_pages_parent s _ ov _ hbx
      (by rw [State.put_pages_ne _ _ hne]; exact hDch ch hc1 hn bx hbx) (hov1 ch hne) hcb
  have hEo : ∀ x, x ≠ l → x ≠ ⟨0, s.allocNext⟩ →
      ¬ (IsChild { r with nextChild := b1.nextChild } x ∧ x ≠ DiskLoc.Null) →
      ((sD.put l { b1 with nextChild := sk.prevChildBucket }).view
        (Function.update ov l (some t))).pages x = ((s.view ov).put l b1).pages x := by
    intro x hxl hxR hnc
    rw [hvo x hxl]
    exact view_pages_congr s _ ov _
      (by rw [State.put_pages_ne _ _ hxl]; exact hDo x hxl hxR hnc) (hov1 x hxl)
  have hEkeys : ∀ x, x ≠ l → x ≠ ⟨0, s.allocNext⟩ →
      (((sD.put l { b1 with nextChild := sk.prevChildBucket }).view
        (Function.update ov l (some t))).pages x).map (fun b => b.keys)
        = (((s.view ov).put l b1).pages x).map (fun b => b.keys) := by
    intro x hxl hxR
    by_cases hnc : IsChild { r with nextChild := b1.nextChild } x ∧ x ≠ DiskLoc.Null
    · obtain ⟨cb, _, hcb, _, _, _⟩ := hchild x (hrbchild x hnc.1) hnc.2
      rw [← hvo x hxl] at hcb
      rw [hEch x hnc.1 hnc.2 cb hcb, hcb]
      rfl
    · rw [hEo x hxl hxR hnc]
  have hvR : ((s.view ov).put l b1).pages ⟨0, s.allocNext⟩ = none := by
    rw [hvo _ hlR.symm]
    exact view_pages_unmapped s ov hRf
  have htsub : t.keys.Sublist (b1.keys.take sp) := by
    rw [htk1]
    exact keepFrom_sublist _ _ _
  have htne : t.keys ≠ [] := by
    rw [htk1]
    exact keepFrom_take_ne_nil kp1 b1.keys sp hsp1 (by omega)
  have hinvE := hv1.split (t := { t with parent := b1.parent })
    (R := { r with nextChild := b1.nextChild }) hvl hkeys
    (by
      intro h
      have := congrArg List.length h
      rw [List.length_drop] at this
      simp only [List.length_nil] at this
      omega)
    htsub
    (by
      intro k hk hn
      show k ∈ t.keys
      rw [htk1]
      exact keepFrom_keep _ _ _ k hk (Or.inl hn))
    htne htn rfl (htsz.congr rfl rfl rfl rfl) hrk rfl (hrsz.congr rfl rfl rfl rfl)
    hvR rfl rfl hEl hEr hEch hEo hhd
    (by
      show s.allocNext < sD.allocNext
      rw [hal]
      have := hc.bucket_pos
      omega)
  -- the entries
  have hcont1 : Content o ((s.view ov).put l b1) = Content o (s.view ov) := by
    have := content_change_one o (s.view ov) ((s.view ov).put l b1) vL hvl
      (fun x hx => by rw [hvo x hx]) ∅ (by rw [hpa.pageEntries_eq o, Set.union_empty])
    rw [this, Set.union_empty]
  have hcont : Content o ((sD.put l { b1 with nextChild := sk.prevChildBucket }).view
      (Function.update ov l (some t))) ∪ usedEntry o sk = Content o (s.view ov) := by
    rw [← hcont1]
    exact content_split o _ _ hvl hvR hEl hEr hEkeys
      (pageEntries_split o hkeys htsub
        (by
          intro k hk hu
          show k ∈ t.keys
          rw [htk1]
          exact keepFrom_keep _ _ _ k hk (Or.inr hu)) hrk)
  -- the count of slots in excess
  have hfr : ∀ x bx, (s.view ov).pages x = some bx → x.ofs < (s.view ov).allocNext :=
    fun x bx hx => (hinv.fresh x bx hx).2.2
  obtain ⟨hla, hl0, hlt⟩ := hinv.fresh l b vL
  have hslack1 : slack ((s.view ov).put l b1) ≤ slack (s.view ov) := by
    rw [slack_change_one (s.view ov) ((s.view ov).put l b1) (le_refl _) hfr l hla hl0 hlt
      (fun x hx => by rw [hvo x hx]), hvl, vL]
    simp only [pageWeight]
    have := hpa.sub.length_le
    omega
  have hslack : slack ((sD.put l { b1 with nextChild := sk.prevChildBucket }).view
      (Function.update ov l (some t))) + 2 ≤ slack (s.view ov) := by
    have hbp := hc.bucket_pos
    have hal1 : ((sD.put l { b1 with nextChild := sk.prevChildBucket }).view
      (Function.update ov l (some t))).allocNext = s.allocNext + c.BucketSize := hal
    have hal0 : ((s.view ov).put l b1).allocNext = s.allocNext := rfl
    have hlt0 : l.ofs < s.allocNext := hlt
    have h2 := slack_change_two ((s.view ov).put l b1)
      ((sD.put l { b1 with nextChild := sk.prevChildBucket }).view
        (Function.update ov l (some t)))
      (by rw [hal1, hal0]; omega)
      (fun x bx hx => (hv1.fresh x bx hx).2.2) l ⟨0, s.allocNext⟩ hlR hla hl0
      (by rw [hal1]; omega) rfl
      (by
        show (0 : Int) ≤ s.allocNext
        omega)
      (by
        rw [hal1]
        show s.allocNext < s.allocNext + c.BucketSize
        omega)
      (fun x hxl hxR => pageWeight_of_keys (hEkeys x hxl hxR))
    rw [hEl, hEr, hvl, hvR] at h2
    simp only [pageWeight] at h2
    have h3 := htsub.length_le
    have h4 : (r.keys).length = b1.keys.length - (sp + 1) := by rw [hrk, List.length_drop]
    have h5 : (b1.keys.take sp).length = sp := by
      rw [List.length_take]
      omega
    have h6 : (({ t with parent := b1.parent } : BtreeBucket).keys.length : Int) ≤ sp := by
      show ((t.keys.length : Nat) : Int) ≤ sp
      rw [h5] at h3
      exact_mod_cast h3
    have h7 : (({ r with nextChild := b1.nextChild } : BtreeBucket).keys.length : Int)
        = (b1.keys.length : Int) - sp - 1 := by
      show ((r.keys.length : Nat) : Int) = _
      rw [h4]
      omega
    omega
  -- the frame
  have hpo : ∀ x, x ≠ l → x ≠ ⟨0, s.allocNext⟩ → ∀ bx, s.pages x = some bx →
      ∃ bx1, sD.pages x = some bx1 ∧ bx1 = { bx with parent := bx1.parent } := by
    intro x hxl hxR bx hbx
    by_cases hnc : IsChild { r with nextChild := b1.nextChild } x ∧ x ≠ DiskLoc.Null
    · exact ⟨_, hDch x hnc.1 hnc.2 bx hbx, rfl⟩
    · exact ⟨bx, by rw [hDo x hxl hxR hnc]; exact hbx, page_eq_with_parent bx⟩
  have hpn : ∀ x, x ≠ l → x ≠ ⟨0, s.allocNext⟩ → s.pages x = none → sD.pages x = none := by
    intro x hxl hxR hx
    by_cases hnc : IsChild { r with nextChild := b1.nextChild } x ∧ x ≠ DiskLoc.Null
    · obtain ⟨_, bx, _, hbx, _, _⟩ := hchild x (hrbchild x hnc.1) hnc.2
      rw [hx] at hbx
      cases hbx
    · rw [hDo x hxl hxR hnc]
      exact hx
  have hxR_of : ∀ x bx, s.pages x = some bx → x ≠ ⟨0, s.allocNext⟩ := by
    rintro x bx hx rfl
    rw [hRf] at hx
    cases hx
  have hframe : Frame s (sD.put l { b1 with nextChild := sk.prevChildBucket }) g
      (splitGhost o g l ⟨0, s.allocNext⟩ sk) l :=
    { pages := fun x bx hx hlt => by
        have hxl : x ≠ l := by
          rintro rfl
          exact lt_irrefl _ hlt
        rw [State.put_pages_ne _ _ hxl]
        exact hpo x hxl (hxR_of x bx hx) bx hx
      rank := fun x bx hx => splitGhost_rank_ne o g l _ sk (hxR_of x bx hx)
      bounds := fun x bx hx hlt => by
        have hxl : x ≠ l := by
          rintro rfl
          exact lt_irrefl _ hlt
        exact ⟨splitGhost_lo_ne o g l _ sk (hxR_of x bx hx),
          splitGhost_hi_ne o g l _ sk (hxR_of x bx hx) hxl⟩
      mapped := fun x bx hx => by
        by_cases hxl : x = l
        · subst hxl
          exact ⟨_, State.put_pages_same _ _ _⟩
        · rw [State.put_pages_ne _ _ hxl]
          obtain ⟨bx1, h1, _⟩ := hpo x hxl (hxR_of x bx hx) bx hx
          exact ⟨bx1, h1⟩ }
  exact ⟨sp, sk, r, sD, t, np,
    { sp_ge := hsp1
      sp_le := hsp2
      split_eq := hsp
      get_sk := hsk
      pushed := hpb
      r_keys := hrk
      r_sizes := hrsz
      fixed := hfix
      head := hhd
      alloc := hal
      page_l := hDl
      page_r := hDR
      page_o := hpo
      page_n := hpn
      trunc := htr
      t_packed := htpa
      t_sizes := htsz
      t_ne := htne
      fresh_r := hRf
      ne_r := hlR
      inv := hinvE
      content := hcont
      slack := hslack
      frame := hframe
      view_l := hEl
      view_r := hEr
      sk_lo := hpf.lo_lt sk hskm
      sk_hi := hpf.lt_hi sk hskm
      sk_rl := hpf.rl_valid sk hskm
      sk_pos := hsz1.key_pos sk hskm
      sk_le := hsz1.key_le sk hskm }⟩

end BtreeBucket
end mongo
namespace mongo
namespace BtreeBucket

/-! ## Where the split key goes in the parent -/

theorem entryKey_clearLow_le (o : Ordering) (key : BSONObj) (rl : DiskLoc) :
    entryKey o key rl.clearLow ≤ entryKey o key rl := by
  rw [le_iff_lt_or_eq]
  by_cases h : rl.ofs % 2 = 0
  · right
    simp only [entryKey, DiskLoc.clearLow, h, sub_zero]
  · left
    rw [EKey.lt_iff]
    right
    refine ⟨rfl, Or.inr ⟨rfl, ?_⟩⟩
    show rl.ofs - rl.ofs % 2 < rl.ofs
    omega

theorem entryKey_no_between (o : Ordering) (key : BSONObj) (rl : DiskLoc) (x : EKey)
    (h1 : entryKey o key rl.clearLow < x) (h2 : x < entryKey o key rl) : False := by
  rw [EKey.lt_iff] at h1 h2
  simp only [entryKey, DiskLoc.clearLow] at h1 h2
  rcases h1 with h1 | ⟨e1, h1⟩
  · rcases h2 with h2 | ⟨e2, _⟩
    · exact lt_asymm h1 h2
    · rw [e2] at h1
      exact lt_irrefl _ h1
  · rcases h2 with h2 | ⟨_, h2⟩
    · rw [e1] at h2
      exact lt_irrefl _ h2
    · rcases h1 with h1 | ⟨f1, h1⟩
      · rcases h2 with h2 | ⟨f2, _⟩
        · omega
        · omega
      · rcases h2 with h2 | ⟨_, h2⟩
        · omega
        · omega

theorem ekey_eq_raw (o : Ordering) (key : BSONObj) (rl : DiskLoc) (k : _KeyNode)
    (h : k.ekey o = entryKey o key rl) : k.ekey o = entryKey o key rl.clearLow := by
  rw [h]
  have h3 := congrArg EKey.ofs h
  simp only [_KeyNode.ekey, entryKey, DiskLoc.clearLow] at h3
  have h4 : rl.ofs % 2 = 0 := by omega
  simp only [entryKey, DiskLoc.clearLow, h4, sub_zero]

theorem mem_take_get? {α : Type} :
    ∀ (ks : List α) (n : Nat) (k : α), k ∈ ks.take n → ∃ i, i < n ∧ ks.get? i = some k
  | [], n, k, h => by simp at h
  | x :: xs, 0, k, h => by simp at h
  | x :: xs, n + 1, k, h => by
    rw [List.take_succ_cons, List.mem_cons] at h
    rcases h with h | h
    · exact ⟨0, Nat.succ_pos _, by rw [h]; rfl⟩
    · obtain ⟨i, hi, hk⟩ := mem_take_get? xs n k h
      exact ⟨i + 1, Nat.succ_lt_succ hi, hk⟩

theorem mem_drop_get? {α : Type} :
    ∀ (ks : List α) (n : Nat) (k : α), k ∈ ks.drop n → ∃ i, n ≤ i ∧ ks.get? i = some k
  | ks, 0, k, h => by
    rw [List.drop_zero] at h
    obtain ⟨i, hi⟩ := List.mem_iff_get?.mp h
    exact ⟨i, Nat.zero_le _, hi⟩
  | [], n + 1, k, h => by simp at h
  | x :: xs, n + 1, k, h => by
    rw [List.drop_succ_cons] at h
    obtain ⟨i, hi, hk⟩ := mem_drop_get? xs n k h
    exact ⟨i + 1, Nat.succ_le_succ hi, hk⟩

theorem childAt_of_get? {ks : List _KeyNode} {next : DiskLoc} {p : Nat} {k : _KeyNode}
    (h : ks.get? p = some k) : childAt ks next p = k.prevChildBucket := by
  have h1 := eq_take_cons_drop ks p k h
  have h2 : ks.drop p = k :: ks.drop (p + 1) := by
    have h3 : (ks.take p).length = p := by
      rw [List.length_take]
      have := List.get?_eq_some.mp h
      obtain ⟨hlt, _⟩ := this
      omega
    conv_lhs => rw [h1]
    rw [List.drop_append_eq_append_drop, h3, Nat.sub_self, List.drop_zero,
      List.drop_of_length_le (le_of_eq h3), List.nil_append]
  unfold childAt
  rw [h2]

theorem childAt_length (ks : List _KeyNode) (next : DiskLoc) :
    childAt ks next ks.length = next := by
  unfold childAt
  rw [List.drop_length]

theorem findLoop_false_probe (b : BtreeBucket) (key : BSONObj) (recordLoc : DiskLoc)
    (o : Ordering) (probe probe1 : Unit → Except Err Unit) :
    ∀ (fuel : Nat) (l h : Int) (dc : Bool),
      findLoop b key recordLoc o false probe fuel l h dc
        = findLoop b key recordLoc o false probe1 fuel l h dc := by
  intro fuel
  induction fuel with
  | zero => intro l h dc; rfl
  | succ n ih =>
    intro l h dc
    simp only [findLoop, Bool.false_eq_true, if_false, ih]

theorem findWith_false_probe (b : BtreeBucket) (key : BSONObj) (recordLoc : DiskLoc)
    (o : Ordering) (probe probe1 : Unit → Except Err Unit) :
    findWith b key recordLoc o false probe = findWith b key recordLoc o false probe1 :=
  findLoop_false_probe b key recordLoc o probe probe1 _ _ _ _

/-- The search for the split key of the page at `l` in the parent of `l` ends
at the child link to `l`: the slots before it are below the key and the slots
from it on are above the key and above the interval of `l`. -/
theorem promote_pos {c : Layout} {o : Ordering} {v : State} {g : Ghost} {fl : Set DiskLoc}
    (hinv : GInv c o v g fl) {l : DiskLoc} {b1 : BtreeBucket}
    (hl : v.pages l = some b1) (hlf : l ∉ fl) (hpar : b1.parent ≠ DiskLoc.Null)
    {pb pb1 : BtreeBucket} (hpb : v.pages b1.parent = some pb) (hk1 : pb1.keys = pb.keys)
    (hn1 : pb1.nextChild = pb.nextChild)
    (key : BSONObj) (recordLoc : DiskLoc)
    (hlo : g.lo l < ((entryKey o key recordLoc.clearLow : EKey) : WithBot EKey))
    (hhi : ((entryKey o key recordLoc.clearLow : EKey) : WithTop EKey) < g.hi l) :
    ∃ pos, g.rank l < g.rank b1.parent ∧
      (∀ probe, findWith pb1 key recordLoc o false probe = .ok (false, pos)) ∧
      pos ≤ pb1.keys.length ∧ childAt pb1.keys pb1.nextChild pos = l ∧
      (∀ k ∈ pb1.keys.take pos, k.ekey o < entryKey o key recordLoc.clearLow) ∧
      (∀ k ∈ pb1.keys.drop pos, entryKey o key recordLoc.clearLow < k.ekey o) ∧
      (∀ k ∈ pb1.keys.drop pos, g.hi l ≤ ((k.ekey o : EKey) : WithTop EKey)) ∧
      g.lo b1.parent < ((entryKey o key recordLoc.clearLow : EKey) : WithBot EKey) ∧
      ((entryKey o key recordLoc.clearLow : EKey) : WithTop EKey) < g.hi b1.parent ∧
      g.hi l ≤ g.hi b1.parent := by
  have hlnull : l ≠ DiskLoc.Null := hinv.ne_null hl
  have hlh : l ≠ v.head := by
    rintro rfl
    obtain ⟨hb, h1, h2, _⟩ := hinv.head
    rw [hl] at h1
    cases h1
    exact hpar h2
  obtain ⟨pb0, hpb0, hch⟩ := hinv.link l b1 hl hlh hlf
  rw [hpb] at hpb0
  cases hpb0
  have hch : IsChild pb1 l := hch.congr_keys hk1 hn1
  have hpf := (hinv.page _ pb hpb).congr_page hk1 hn1
  obtain ⟨_, hrank, hlolo, hhihi⟩ := hpf.isChild hch hlnull
  -- every slot of the parent is below or above the interval of the child
  have hside : ∀ k ∈ pb1.keys, ((k.ekey o : EKey) : WithBot EKey) ≤ g.lo l ∨
      g.hi l ≤ ((k.ekey o : EKey) : WithTop EKey) := by
    intro k hk
    rcases hch with hn | ⟨k0, hk0, hp0⟩
    · have := hpf.next_child (by rw [hn]; exact hlnull)
      rw [hn] at this
      exact Or.inl (this.2.2.2.1 k hk)
    · have := hpf.slot_child k0 hk0 (by rw [hp0]; exact hlnull)
      rw [hp0] at this
      by_cases hlt : k.ekey o < k0.ekey o
      · exact Or.inl (this.2.2.2.1 k hk hlt)
      · right
        exact le_trans this.2.2.2.2 (WithTop.coe_le_coe.mpr (not_lt.mp hlt))
  have hlt_of : ∀ k ∈ pb1.keys, ((k.ekey o : EKey) : WithBot EKey) ≤ g.lo l →
      k.ekey o < entryKey o key recordLoc.clearLow :=
    fun k _ h => WithBot.coe_lt_coe.mp (lt_of_le_of_lt h hlo)
  have hgt_of : ∀ k ∈ pb1.keys, g.hi l ≤ ((k.ekey o : EKey) : WithTop EKey) →
      entryKey o key recordLoc.clearLow < k.ekey o :=
    fun k _ h => WithTop.coe_lt_coe.mp (lt_of_lt_of_le hhi h)
  obtain ⟨found, pos, hfind, hspec⟩ :=
    findWith_false o pb1 key recordLoc (fun _ => .ok ()) hpf.sorted
  have hle := entryKey_clearLow_le o key recordLoc
  cases found with
  | true =>
    exfalso
    simp only [FindSpec, if_true] at hspec
    obtain ⟨k, hk, he⟩ := hspec
    have hkm : k ∈ pb1.keys := List.get?_mem hk
    have he1 := ekey_eq_raw o key recordLoc k he
    rcases hside k hkm with h | h
    · exact absurd (hlt_of k hkm h) (by rw [he1]; exact lt_irrefl _)
    · exact absurd (hgt_of k hkm h) (by rw [he1]; exact lt_irrefl _)
  | false =>
    simp only [FindSpec, Bool.false_eq_true, if_false] at hspec
    obtain ⟨hpos, hbef, haft⟩ := hspec
    have hbefore : ∀ i k, i < pos → pb1.keys.get? i = some k →
        k.ekey o < entryKey o key recordLoc.clearLow := by
      intro i k hi hk
      have hkm : k ∈ pb1.keys := List.get?_mem hk
      rcases hside k hkm with h | h
      · exact hlt_of k hkm h
      · exact absurd (hbef i k hi hk) (fun h2 =>
          entryKey_no_between o key recordLoc _ (hgt_of k hkm h) h2)
    have hafter : ∀ i k, pos ≤ i → pb1.keys.get? i = some k →
        entryKey o key recordLoc.clearLow < k.ekey o :=
      fun i k hi hk => lt_of_le_of_lt hle (haft i k hi hk)
    have hafter_hi : ∀ i k, pos ≤ i → pb1.keys.get? i = some k →
        g.hi l ≤ ((k.ekey o : EKey) : WithTop EKey) := by
      intro i k hi hk
      have hkm : k ∈ pb1.keys := List.get?_mem hk
      rcases hside k hkm with h | h
      · exact absurd (hlt_of k hkm h) (not_lt.mpr (le_of_lt (hafter i k hi hk)))
      · exact h
    refine ⟨pos, hrank, fun probe => by rw [findWith_false_probe _ _ _ _ probe]; exact hfind,
      hpos, ?_, ?_, ?_, ?_, lt_of_le_of_lt hlolo hlo,
      lt_of_lt_of_le hhi hhihi, hhihi⟩
    · -- the child link at the position
      rcases hch with hn | ⟨k0, hk0, hp0⟩
      · have hall := (hpf.next_child (by rw [hn]; exact hlnull)).2.2.2.1
        rw [hn] at hall
        have hpe : pos = pb1.keys.length := by
          by_contra hne
          obtain ⟨k, hk⟩ := get?_some_of_lt pb1.keys pos (by omega)
          have hkm : k ∈ pb1.keys := List.get?_mem hk
          exact absurd (hlt_of k hkm (hall k hkm))
            (not_lt.mpr (le_of_lt (hafter pos k (le_refl _) hk)))
        rw [hpe, childAt_length]
        exact hn
      · obtain ⟨j, hj⟩ := List.mem_iff_get?.mp hk0
        have h0 := hpf.slot_child k0 hk0 (by rw [hp0]; exact hlnull)
        rw [hp0] at h0
        have hgt0 := hgt_of k0 hk0 h0.2.2.2.2
        have hjp : pos ≤ j := by
          by_contra hlt
          exact absurd (hbefore j k0 (by omega) hj) (not_lt.mpr (le_of_lt hgt0))
        have hjp2 : j = pos := by
          by_contra hne
          have hlt : pos < j := by omega
          have hjl : j < pb1.keys.length := (List.get?_eq_some.mp hj).1
          obtain ⟨k, hk⟩ := get?_some_of_lt pb1.keys pos (by omega)
          have hkm : k ∈ pb1.keys := List.get?_mem hk
          have hk_lt := hpf.sorted.get?_lt hlt hk hj
          exact absurd (hlt_of k hkm (h0.2.2.2.1 k hkm hk_lt))
            (not_lt.mpr (le_of_lt (hafter pos k (le_refl _) hk)))
        rw [← hjp2, childAt_of_get? hj]
        exact hp0
    · intro k hk
      obtain ⟨i, hi, hki⟩ := mem_take_get? _ _ _ hk
      exact hbefore i k hi hki
    · intro k hk
      obtain ⟨i, hi, hki⟩ := mem_drop_get? _ _ _ hk
      exact hafter i k hi hki
    · intro k hk
      obtain ⟨i, hi, hki⟩ := mem_drop_get? _ _ _ hk
      exact hafter_hi i k hi hki

end BtreeBucket
end mongo
namespace mongo
namespace BtreeBucket

theorem rootGhost_rank_ne (g : Ghost) (nr l : DiskLoc) {x : DiskLoc} (h : x ≠ nr) :
    (rootGhost g nr l).rank x = g.rank x := by
  simp only [rootGhost, Function.update_noteq h]

theorem rootGhost_lo_ne (g : Ghost) (nr l : DiskLoc) {x : DiskLoc} (h : x ≠ nr) :
    (rootGhost g nr l).lo x = g.lo x := by
  simp only [rootGhost, Function.update_noteq h]

theorem rootGhost_hi_ne (g : Ghost) (nr l : DiskLoc) {x : DiskLoc} (h : x ≠ nr) :
    (rootGhost g nr l).hi x = g.hi x := by
  simp only [rootGhost, Function.update_noteq h]

theorem diskLoc_ne_of_ofs {x y : DiskLoc} (h : x.ofs ≠ y.ofs) : x ≠ y := by
  rintro rfl
  exact h rfl

theorem union_diff_self_of_not_mem {fl : Set DiskLoc} {r : DiskLoc} (h : r ∉ fl) :
    (fl ∪ {r}) \ {r} = fl := by
  ext x
  simp only [Set.mem_diff, Set.mem_union, Set.mem_singleton_iff]
  constructor
  · rintro ⟨h1 | h1, h2⟩
    · exact h1
    · exact absurd h1 h2
  · intro h1
    exact ⟨Or.inl h1, fun h2 => h (h2 ▸ h1)⟩

/-- A root page without room: after the split, a new root takes the split key,
with the two halves as its children; the pages of the new root and of the two
halves are given. -/
theorem promote_root_run (c : Layout) (hc : Layout.Sane c) (o : Ordering) {s : State}
    {ov : DiskLoc → Option BtreeBucket} {g : Ghost} {fl : Set DiskLoc} {l : DiskLoc}
    {b b1 : BtreeBucket} {kp kp1 : Nat} (recordLoc : DiskLoc) (key : BSONObj)
    (lchild rchild : DiskLoc) {sp : Nat} {sk : _KeyNode} {r : BtreeBucket} {sD : State}
    {t : BtreeBucket} {np : Nat}
    (hinv : GInv c o (s.view ov) g fl)
    (hov : ∀ x t, ov x = some t → g.rank x < g.rank l)
    (hovm : ∀ x t, ov x = some t → ∃ bx, s.pages x = some bx)
    (hL : s.pages l = some b)
    (hbi : basicInsert c b kp recordLoc key = .ok (false, b1, kp1))
    (so : SplitOut c o s ov g fl l b1 kp1 sp sk r sD t np)
    (hhd : s.head = l) (hpar : b1.parent = DiskLoc.Null) :
    ∃ sQ g2, (∀ fuel, insertHere c o (fuel + 1) s l kp recordLoc key lchild rchild =
        insertHere c o fuel sQ (if kp1 ≤ sp then l else ⟨0, s.allocNext⟩)
          (if kp1 ≤ sp then np else kp1 - sp - 1) recordLoc key lchild rchild) ∧
      PromoteOut c o s ov g fl l sk t { r with nextChild := b1.nextChild } sQ g2 ∧
      sQ.head = ⟨0, sD.allocNext⟩ ∧
      (∃ p, sQ.pages ⟨0, sD.allocNext⟩ = some p ∧ p.keys = [⟨l, sk.recordLoc, sk.key⟩] ∧
        p.nextChild = ⟨0, s.allocNext⟩ ∧ p.parent = DiskLoc.Null) ∧
      sQ.pages l = some { t with parent := ⟨0, sD.allocNext⟩ } ∧
      sQ.pages ⟨0, s.allocNext⟩
        = some { r with nextChild := b1.nextChild, parent := ⟨0, sD.allocNext⟩ } ∧
      s.pages ⟨0, sD.allocNext⟩ = none := by
  have hbp := hc.bucket_pos
  have ovL : ov l = none := ov_none_of_rank hov
  have hfresh : ∀ x bx, s.pages x = some bx → x.a = 0 ∧ 0 ≤ x.ofs ∧ x.ofs < s.allocNext := by
    intro x bx hx
    obtain ⟨vb, hvb, _⟩ := view_mapped s ov hx
    exact hinv.fresh x vb hvb
  have ov_unmapped : ∀ x, s.pages x = none → ov x = none := by
    intro x hx
    cases h : ov x with
    | none => rfl
    | some t0 =>
      obtain ⟨bx, hbx⟩ := hovm _ _ h
      rw [hx] at hbx
      cases hbx
  have hRN : (⟨0, s.allocNext⟩ : DiskLoc) ≠ ⟨0, sD.allocNext⟩ := by
    apply diskLoc_ne_of_ofs
    show s.allocNext ≠ sD.allocNext
    rw [so.alloc]
    omega
  have hlN : l ≠ ⟨0, sD.allocNext⟩ := by
    apply diskLoc_ne_of_ofs
    have := (hfresh l b hL).2.2
    show l.ofs ≠ sD.allocNext
    rw [so.alloc]
    omega
  have hNf : s.pages ⟨0, sD.allocNext⟩ = none := by
    cases h : s.pages ⟨0, sD.allocNext⟩ with
    | none => rfl
    | some bx =>
      have := (hfresh _ bx h).2.2
      have h2 : (⟨0, sD.allocNext⟩ : DiskLoc).ofs = s.allocNext + c.BucketSize := so.alloc
      omega
  have hND : sD.pages ⟨0, sD.allocNext⟩ = none := so.page_n _ hlN.symm hRN.symm hNf
  obtain ⟨p, hp, hpk, hpp, hpn, hpsz, _, _⟩ := pushBack_spec c hc o (init c) sk.recordLoc sk.key l
    (pageSizes_init c hc) so.sk_pos so.sk_le
    (by
      show _ ≤ totalDataSize c
      have h1 := hc.room
      have h2 := so.sk_le
      have h3 := keyMax_nonneg c hc
      have h4 := hc.slot_pos
      unfold totalDataSize
      omega)
    (by
      intro last hlast
      cases hlast)
  obtain ⟨sQ, hrun, hQh, hQa, hQp⟩ := insertHere_split_root c o s l kp recordLoc key lchild rchild
    hL hbi so.split_eq so.pushed so.fixed so.page_l so.get_sk so.page_r so.ne_r hlN hRN hpar hp
    so.trunc
  have hov1 : ∀ x, x ≠ l → Function.update ov l (some t) x = ov x :=
    fun x hx => Function.update_noteq hx _ _
  -- the pages of the state seen without pending truncation
  have hQl : (sQ.view ov).pages l = some { t with parent := ⟨0, sD.allocNext⟩ } := by
    rw [view_pages_none _ _ ovL, hQp, if_pos rfl]
  have hQr : (sQ.view ov).pages ⟨0, s.allocNext⟩
      = some { r with nextChild := b1.nextChild, parent := ⟨0, sD.allocNext⟩ } := by
    rw [view_pages_none _ _ (ov_unmapped _ so.fresh_r), hQp, if_neg so.ne_r.symm, if_pos rfl]
  have hQn : (sQ.view ov).pages ⟨0, sD.allocNext⟩
      = some { p with nextChild := ⟨0, s.allocNext⟩ } := by
    rw [view_pages_none _ _ (ov_unmapped _ hNf), hQp, if_neg hlN.symm, if_neg hRN.symm,
      if_pos rfl]
  have hQo : ∀ x, x ≠ ⟨0, sD.allocNext⟩ → x ≠ l → x ≠ ⟨0, s.allocNext⟩ →
      (sQ.view ov).pages x = ((sD.put l { b1 with nextChild := sk.prevChildBucket }).view
        (Function.update ov l (some t))).pages x := by
    intro x hxN hxl hxR
    apply view_pages_congr
    · rw [hQp, if_neg hxl, if_neg hxR, if_neg hxN, State.put_pages_ne _ _ hxl]
    · exact (hov1 x hxl).symm
  have hEN : ((sD.put l { b1 with nextChild := sk.prevChildBucket }).view
      (Function.update ov l (some t))).pages ⟨0, sD.allocNext⟩ = none := by
    apply view_pages_unmapped
    rw [State.put_pages_ne _ _ hlN.symm]
    exact hND
  have hRfl : (⟨0, s.allocNext⟩ : DiskLoc) ∉ fl := by
    intro h
    obtain ⟨_, ⟨rb0, hrb0⟩, _⟩ := hinv.float _ h
    rw [view_pages_unmapped s ov so.fresh_r] at hrb0
    cases hrb0
  have hpk1 : p.keys = [⟨l, sk.recordLoc, sk.key⟩] := by rw [hpk]; rfl
  have hg2 := so.inv.new_root (N := ⟨0, sD.allocNext⟩) (w := sQ.view ov)
    (p := { p with nextChild := ⟨0, s.allocNext⟩ })
    (by show sD.head = l; rw [so.head]; exact hhd)
    so.view_l so.t_ne (Or.inr rfl) so.view_r
    (by rw [splitGhost_hi_old o g l _ sk so.ne_r]; exact le_refl _)
    (by rw [splitGhost_lo_new]; exact le_refl _)
    so.sk_rl hEN rfl rfl hpk1 rfl (by rw [hpp]; rfl) (hpsz.congr rfl rfl rfl rfl)
    hQn hQl hQr hQo hQh
    (by
      show sD.allocNext < sQ.allocNext
      rw [hQa]
      omega)
  rw [union_diff_self_of_not_mem hRfl] at hg2
  -- the keys of the pages
  have hkeys : ∀ y, y ≠ ⟨0, sD.allocNext⟩ →
      ((sQ.view ov).pages y).map (fun b => b.keys)
        = (((sD.put l { b1 with nextChild := sk.prevChildBucket }).view
          (Function.update ov l (some t))).pages y).map (fun b => b.keys) := by
    intro y hyN
    by_cases hyl : y = l
    · subst hyl
      rw [hQl, so.view_l]
      rfl
    by_cases hyR : y = ⟨0, s.allocNext⟩
    · subst hyR
      rw [hQr, so.view_r]
      rfl
    rw [hQo y hyN hyl hyR]
  have hcont : Content o (sQ.view ov) = Content o (s.view ov) := by
    rw [content_add_page o _ (sQ.view ov) hEN hQn hpk1 hkeys,
      @usedEntry_congr o sk ⟨l, sk.recordLoc, sk.key⟩ rfl rfl]
    exact so.content
  have hslack : slack (sQ.view ov) + 1 ≤ slack (s.view ov) := by
    have h1 := slack_change_one ((sD.put l { b1 with nextChild := sk.prevChildBucket }).view
      (Function.update ov l (some t))) (sQ.view ov)
      (by
        show sD.allocNext ≤ sQ.allocNext
        rw [hQa]
        omega)
      (fun x bx hx => (so.inv.fresh x bx hx).2.2) ⟨0, sD.allocNext⟩ rfl
      (by
        show (0 : Int) ≤ sD.allocNext
        rw [so.alloc]
        have := (hfresh l b hL).2.1
        have := (hfresh l b hL).2.2
        omega)
      (by
        show sD.allocNext < sQ.allocNext
        rw [hQa]
        omega)
      (fun x hx => pageWeight_of_keys (hkeys x hx))
    rw [hQn, hEN] at h1
    have h2 : pageWeight (some ({ p with nextChild := ⟨0, s.allocNext⟩ } : BtreeBucket)) = 0 := by
      show ((p.keys.length : Nat) : Int) - 1 = 0
      rw [hpk1]
      rfl
    rw [h2] at h1
    have h3 := so.slack
    simp only [pageWeight] at h1
    omega
  have hxR_of : ∀ x bx, s.pages x = some bx → x ≠ ⟨0, s.allocNext⟩ := by
    rintro x bx hx rfl
    rw [so.fresh_r] at hx
    cases hx
  have hxN_of : ∀ x bx, s.pages x = some bx → x ≠ ⟨0, sD.allocNext⟩ := by
    rintro x bx hx rfl
    rw [hNf] at hx
    cases hx
  have hframe : Frame s sQ g
      (rootGhost (splitGhost o g l ⟨0, s.allocNext⟩ sk) ⟨0, sD.allocNext⟩ l) l :=
    { pages := fun x bx hx hlt => by
        have hxl : x ≠ l := by
          rintro rfl
          exact lt_irrefl _ hlt
        rw [hQp, if_neg hxl, if_neg (hxR_of x bx hx), if_neg (hxN_of x bx hx)]
        exact so.page_o x hxl (hxR_of x bx hx) bx hx
      rank := fun x bx hx => by
        rw [rootGhost_rank_ne _ _ _ (hxN_of x bx hx),
          splitGhost_rank_ne o g l _ sk (hxR_of x bx hx)]
      bounds := fun x bx hx hlt => by
        have hxl : x ≠ l := by
          rintro rfl
          exact lt_irrefl _ hlt
        rw [rootGhost_lo_ne _ _ _ (hxN_of x bx hx), rootGhost_hi_ne _ _ _ (hxN_of x bx hx)]
        exact ⟨splitGhost_lo_ne o g l _ sk (hxR_of x bx hx),
          splitGhost_hi_ne o g l _ sk (hxR_of x bx hx) hxl⟩
      mapped := fun x bx hx => by
        rw [hQp]
        by_cases hxl : x = l
        · exact ⟨_, by rw [if_pos hxl]⟩
        · rw [if_neg hxl, if_neg (hxR_of x bx hx), if_neg (hxN_of x bx hx)]
          obtain ⟨bx1, h1, _⟩ := so.page_o x hxl (hxR_of x bx hx) bx hx
          exact ⟨bx1, h1⟩ }
  refine ⟨sQ, _, hrun,
    { inv := hg2
      content := hcont
      slack := hslack
      frame := hframe
      page_l := ⟨_, by rw [hQp, if_pos rfl]⟩
      page_r := ⟨_, by rw [hQp, if_neg so.ne_r.symm, if_pos rfl]⟩
      lo_l := by
        rw [rootGhost_lo_ne _ _ _ hlN, splitGhost_lo_ne o g l _ sk so.ne_r]
      hi_l := by
        rw [rootGhost_hi_ne _ _ _ hlN, splitGhost_hi_old o g l _ sk so.ne_r]
      lo_r := by
        rw [rootGhost_lo_ne _ _ _ hRN, splitGhost_lo_new]
      hi_r := by
        rw [rootGhost_hi_ne _ _ _ hRN, splitGhost_hi_new]
      rank_r := by
        rw [rootGhost_rank_ne _ _ _ hRN, splitGhost_rank_new] }, hQh,
    ⟨{ p with nextChild := ⟨0, s.allocNext⟩ }, by
      rw [hQp, if_neg hlN.symm, if_neg hRN.symm, if_pos rfl], hpk1, rfl, by rw [hpp]; rfl⟩,
    by rw [hQp, if_pos rfl], by rw [hQp, if_neg so.ne_r.symm, if_pos rfl], hNf⟩

/-- A root page without room: after the split, a new root takes the split key,
with the two halves as its children. -/
theorem promote_root (c : Layout) (hc : Layout.Sane c) (o : Ordering) {s : State}
    {ov : DiskLoc → Option BtreeBucket} {g : Ghost} {fl : Set DiskLoc} {l : DiskLoc}
    {b b1 : BtreeBucket} {kp kp1 : Nat} (recordLoc : DiskLoc) (key : BSONObj)
    (lchild rchild : DiskLoc) {sp : Nat} {sk : _KeyNode} {r : BtreeBucket} {sD : State}
    {t : BtreeBucket} {np : Nat}
    (hinv : GInv c o (s.view ov) g fl)
    (hov : ∀ x t, ov x = some t → g.rank x < g.rank l)
    (hovm : ∀ x t, ov x = some t → ∃ bx, s.pages x = some bx)
    (hL : s.pages l = some b)
    (hbi : basicInsert c b kp recordLoc key = .ok (false, b1, kp1))
    (so : SplitOut c o s ov g fl l b1 kp1 sp sk r sD t np)
    (hhd : s.head = l) (hpar : b1.parent = DiskLoc.Null) :
    ∃ sQ g2, (∀ fuel, insertHere c o (fuel + 1) s l kp recordLoc key lchild rchild =
        insertHere c o fuel sQ (if kp1 ≤ sp then l else ⟨0, s.allocNext⟩)
          (if kp1 ≤ sp then np else kp1 - sp - 1) recordLoc key lchild rchild) ∧
      PromoteOut c o s ov g fl l sk t { r with nextChild := b1.nextChild } sQ g2 := by
  obtain ⟨sQ, g2, h1, h2, _⟩ := promote_root_run c hc o recordLoc key lchild rchild hinv hov hovm
    hL hbi so hhd hpar
  exact ⟨sQ, g2, h1, h2⟩

end BtreeBucket
end mongo
namespace mongo
namespace BtreeBucket

/-- The frame of a change to a page that is not below the page of the call. -/
theorem Frame.put_ge (s : State) (g : Ghost) (l x0 : DiskLoc) (b0 : BtreeBucket)
    (h : ¬ g.rank x0 < g.rank l) : Frame s (s.put x0 b0) g g l :=
  { pages := fun x bx hx hr => by
      have hxl : x ≠ x0 := by
        rintro rfl
        exact h hr
      exact ⟨bx, by rw [State.put_pages_ne s b0 hxl]; exact hx, page_eq_with_parent bx⟩
    rank := fun _ _ _ => rfl
    bounds := fun _ _ _ _ => ⟨rfl, rfl⟩
    mapped := fun x bx hx => by
      rw [State.put_pages]
      by_cases hxl : x = x0
      · exact ⟨b0, by rw [if_pos hxl]⟩
      · exact ⟨bx, by rw [if_neg hxl]; exact hx⟩ }

/-- The frame of a call on a page is a frame for the pages below it. -/
theorem Frame.weaken {s s1 : State} {g g1 : Ghost} {l P : DiskLoc} (h : Frame s s1 g g1 P)
    (hr : g.rank l ≤ g.rank P) : Frame s s1 g g1 l :=
  { pages := fun x bx hx hlt => h.pages x bx hx (lt_of_lt_of_le hlt hr)
    rank := h.rank
    bounds := fun x bx hx hlt => h.bounds x bx hx (lt_of_lt_of_le hlt hr)
    mapped := h.mapped }

/-- The run of `_insert` for a split key: the search ends at the child link to
the left half, and the key is put there with the right half as its right
child. -/
theorem _insert_promote (c : Layout) (o : Ordering) (f : Nat) (s : State) (P : DiskLoc)
    (pb : BtreeBucket) (rl : DiskLoc) (key : BSONObj) (l R : DiskLoc) (pos : Nat) (s1 : State)
    (hpos : 0 < key.objsize) (hle : key.objsize ≤ KeyMax c)
    (hP : s.pages P = some pb)
    (hfind : ∀ probe, findWith pb key rl o false probe = .ok (false, pos))
    (hch : pb.childForPos pos = some l) (hR : R ≠ DiskLoc.Null)
    (hrun : insertHere c o f s P pos rl key l R = (.ok (), s1)) :
    _insert c o (f + 1) s P rl key true l R = (.ok 0, s1) := by
  have h1 : ¬ key.objsize > KeyMax c := not_lt.mpr hle
  have hRn : R.isNull = false := (DiskLoc.isNull_false_iff R).mpr hR
  simp only [_insert, h1, if_false, hpos, gt_iff_lt, not_true_eq_false, hP, find,
    Bool.not_true, hfind, Bool.false_eq_true, hch, hRn, not_false_eq_true, or_true, if_true,
    hrun]

/-- A page without room that has a parent: after the split, the split key is
inserted in the parent, with the two halves as the children around it; the call
of `insertHere` on the parent that does so is given. -/
theorem promote_parent_run (c : Layout) (hc : Layout.Sane c) (o : Ordering) {m : Nat}
    (IH : InsertSpec c o (m - 2)) {s : State}
    {ov : DiskLoc → Option BtreeBucket} {g : Ghost} {fl : Set DiskLoc} {l : DiskLoc}
    {b b1 : BtreeBucket} {kp kp1 : Nat} (recordLoc : DiskLoc) (key : BSONObj)
    (lchild rchild : DiskLoc) {sp : Nat} {sk : _KeyNode} {r : BtreeBucket} {sD : State}
    {t : BtreeBucket} {np : Nat}
    (hinv : GInv c o (s.view ov) g fl)
    (hov : ∀ x t, ov x = some t → g.rank x < g.rank l)
    (hovm : ∀ x t, ov x = some t → ∃ bx, s.pages x = some bx)
    (hfr : ∀ r ∈ fl, g.rank r < g.rank l)
    (hL : s.pages l = some b)
    (hpa : PackedAt b b1 kp kp1) (hsz1 : PageSizes c b1)
    (hbi : basicInsert c b kp recordLoc key = .ok (false, b1, kp1))
    (so : SplitOut c o s ov g fl l b1 kp1 sp sk r sD t np)
    (hpar : b1.parent ≠ DiskLoc.Null) (hm : slack (s.view ov) + 2 ≤ (m : Int)) :
    ∃ sQ g2, (∀ fuel, m ≤ fuel + 1 →
        insertHere c o (fuel + 1) s l kp recordLoc key lchild rchild =
        insertHere c o fuel sQ (if kp1 ≤ sp then l else ⟨0, s.allocNext⟩)
          (if kp1 ≤ sp then np else kp1 - sp - 1) recordLoc key lchild rchild) ∧
      PromoteOut c o s ov g fl l sk t { r with nextChild := b1.nextChild } sQ g2 ∧
      ∃ pos pb1 sP pp,
        ((sD.put l { b1 with nextChild := sk.prevChildBucket }).put ⟨0, s.allocNext⟩
          { r with nextChild := b1.nextChild, parent := b1.parent }).pages b1.parent
          = some pb1 ∧
        (∀ probe, findWith pb1 sk.key sk.recordLoc o false probe = .ok (false, pos)) ∧
        pb1.childForPos pos = some l ∧
        (∀ fuel, m - 2 ≤ fuel →
          insertHere c o fuel ((sD.put l { b1 with nextChild := sk.prevChildBucket }).put
            ⟨0, s.allocNext⟩ { r with nextChild := b1.nextChild, parent := b1.parent })
            b1.parent pos sk.recordLoc sk.key l ⟨0, s.allocNext⟩ = (.ok (), sP)) ∧
        sP.pages l = some { b1 with nextChild := sk.prevChildBucket, parent := pp } ∧
        sQ = sP.put l { t with parent := pp } := by
  have ovL : ov l = none := ov_none_of_rank hov
  have vL : (s.view ov).pages l = some b := by rw [view_pages_none s ov ovL]; exact hL
  have hlf : l ∉ fl := fun h => lt_irrefl _ (hfr l h)
  have hv1 : GInv c o ((s.view ov).put l b1) g fl := hinv.put_packed vL hpa hsz1
  have hvl : ((s.view ov).put l b1).pages l = some b1 := State.put_pages_same _ _ _
  have hlnull : l ≠ DiskLoc.Null := hv1.ne_null hvl
  have hRnull : (⟨0, s.allocNext⟩ : DiskLoc) ≠ DiskLoc.Null := by
    intro h
    have := congrArg DiskLoc.a h
    simp [DiskLoc.Null] at this
  have hRfl : (⟨0, s.allocNext⟩ : DiskLoc) ∉ fl := by
    intro h
    obtain ⟨_, ⟨rb0, hrb0⟩, _⟩ := hinv.float _ h
    rw [view_pages_unmapped s ov so.fresh_r] at hrb0
    cases hrb0
  have hxR_of : ∀ x bx, s.pages x = some bx → x ≠ ⟨0, s.allocNext⟩ := by
    rintro x bx hx rfl
    rw [so.fresh_r] at hx
    cases hx
  -- the parent
  have hlh : l ≠ ((s.view ov).put l b1).head := by
    intro h
    obtain ⟨hb, h1, h2, _⟩ := hv1.head
    rw [← h, hvl] at h1
    cases h1
    exact hpar h2
  obtain ⟨pb, hpb, hchP⟩ := hv1.link l b1 hvl hlh hlf
  obtain ⟨_, hrankP, _, _⟩ := (hv1.page _ pb hpb).isChild hchP hlnull
  have hPl : b1.parent ≠ l := by
    intro h
    rw [h] at hrankP
    exact lt_irrefl _ hrankP
  have ovP : ov b1.parent = none := by
    cases h : ov b1.parent with
    | none => rfl
    | some t0 => exact absurd (hov _ _ h) (not_lt.mpr (le_of_lt hrankP))
  have hsP : s.pages b1.parent = some pb := by
    have := hpb
    rw [State.put_pages_ne _ _ hPl, view_pages_none s ov ovP] at this
    exact this
  have hPR : b1.parent ≠ ⟨0, s.allocNext⟩ := hxR_of _ pb hsP
  obtain ⟨pb1, hDP, hpb1⟩ := so.page_o _ hPl hPR pb hsP
  have hk1 : pb1.keys = pb.keys := by rw [hpb1]
  have hn1 : pb1.nextChild = pb.nextChild := by rw [hpb1]
  obtain ⟨pos, _, hfind, hposle, hcat, hbef, haft, hafthi, hloP, hhiP, hhihi⟩ :=
    promote_pos hv1 hvl hlf hpar hpb hk1 hn1 sk.key sk.recordLoc so.sk_lo so.sk_hi
  -- the state in which the split key is inserted
  have hov1 : ∀ x, x ≠ l → Function.update ov l (some t) x = ov x :=
    fun x hx => Function.update_noteq hx _ _
  have ovR1 : Function.update ov l (some t) ⟨0, s.allocNext⟩ = none := by
    rw [hov1 _ so.ne_r.symm]
    cases h : ov ⟨0, s.allocNext⟩ with
    | none => rfl
    | some t0 =>
      obtain ⟨bx, hbx⟩ := hovm _ _ h
      rw [so.fresh_r] at hbx
      cases hbx
  have hviewF : ((sD.put l { b1 with nextChild := sk.prevChildBucket }).put ⟨0, s.allocNext⟩
      { r with nextChild := b1.nextChild, parent := b1.parent }).view
        (Function.update ov l (some t))
      = ((sD.put l { b1 with nextChild := sk.prevChildBucket }).view
        (Function.update ov l (some t))).put ⟨0, s.allocNext⟩
        { r with nextChild := b1.nextChild, parent := b1.parent } :=
    view_put _ _ _ ovR1
  have hF : GInv c o (((sD.put l { b1 with nextChild := sk.prevChildBucket }).put
      ⟨0, s.allocNext⟩ { r with nextChild := b1.nextChild, parent := b1.parent }).view
        (Function.update ov l (some t)))
      (splitGhost o g l ⟨0, s.allocNext⟩ sk) (fl ∪ {⟨0, s.allocNext⟩}) := by
    rw [hviewF]
    exact so.inv.put_float_parent (Or.inr rfl) so.view_r b1.parent
  have hFP : ((sD.put l { b1 with nextChild := sk.prevChildBucket }).put
      ⟨0, s.allocNext⟩ { r with nextChild := b1.nextChild, parent := b1.parent }).pages b1.parent
      = some pb1 := by
    rw [State.put_pages_ne _ _ hPR, State.put_pages_ne _ _ hPl]
    exact hDP
  have hFl : ((sD.put l { b1 with nextChild := sk.prevChildBucket }).put
      ⟨0, s.allocNext⟩ { r with nextChild := b1.nextChild, parent := b1.parent }).pages l
      = some { b1 with nextChild := sk.prevChildBucket } := by
    rw [State.put_pages_ne _ _ so.ne_r, State.put_pages_same]
  have hFR : ((sD.put l { b1 with nextChild := sk.prevChildBucket }).put
      ⟨0, s.allocNext⟩ { r with nextChild := b1.nextChild, parent := b1.parent }).pages
        ⟨0, s.allocNext⟩
      = some { r with nextChild := b1.nextChild, parent := b1.parent } :=
    State.put_pages_same _ _ _
  have hkeysF : ∀ x, ((((sD.put l { b1 with nextChild := sk.prevChildBucket }).put
      ⟨0, s.allocNext⟩ { r with nextChild := b1.nextChild, parent := b1.parent }).view
        (Function.update ov l (some t))).pages x).map (fun b => b.keys)
      = (((sD.put l { b1 with nextChild := sk.prevChildBucket }).view
        (Function.update ov l (some t))).pages x).map (fun b => b.keys) := by
    intro x
    rw [hviewF, State.put_pages]
    by_cases hx : x = ⟨0, s.allocNext⟩
    · rw [if_pos hx, hx, so.view_r]
      rfl
    · rw [if_neg hx]
  have hslackE := so.slack
  have hslackF : slack (((sD.put l { b1 with nextChild := sk.prevChildBucket }).put
      ⟨0, s.allocNext⟩ { r with nextChild := b1.nextChild, parent := b1.parent }).view
        (Function.update ov l (some t)))
      = slack ((sD.put l { b1 with nextChild := sk.prevChildBucket }).view
        (Function.update ov l (some t))) :=
    slack_change_none _ _ (le_refl _) (fun x bx hx => (so.inv.fresh x bx hx).2.2)
      (fun x => pageWeight_of_keys (hkeysF x))
  have hge := so.inv.slack_ge
  have hm3 : 3 ≤ m := by omega
  have hrkR : (splitGhost o g l ⟨0, s.allocNext⟩ sk).rank ⟨0, s.allocNext⟩ = g.rank l :=
    splitGhost_rank_new o g l _ sk
  have hrkl : (splitGhost o g l ⟨0, s.allocNext⟩ sk).rank l = g.rank l :=
    splitGhost_rank_ne o g l _ sk so.ne_r
  have hrkP : (splitGhost o g l ⟨0, s.allocNext⟩ sk).rank b1.parent = g.rank b1.parent :=
    splitGhost_rank_ne o g l _ sk hPR
  obtain ⟨sP, g2, hrunP, post⟩ := IH _ (Function.update ov l (some t))
    (splitGhost o g l ⟨0, s.allocNext⟩ sk) (fl ∪ {⟨0, s.allocNext⟩}) b1.parent pb1 pos
    sk.recordLoc sk.key l ⟨0, s.allocNext⟩ hF
    (by
      intro x t0 hx
      rw [hrkP]
      by_cases hxl : x = l
      · rw [hxl, hrkl]
        exact hrankP
      · rw [hov1 x hxl] at hx
        obtain ⟨bx, hbx⟩ := hovm x t0 hx
        rw [splitGhost_rank_ne o g l _ sk (hxR_of x bx hbx)]
        exact lt_trans (hov x t0 hx) hrankP)
    (by
      intro x t0 hx
      by_cases hxl : x = l
      · rw [hxl]
        exact ⟨_, hFl⟩
      · rw [hov1 x hxl] at hx
        obtain ⟨bx, hbx⟩ := hovm x t0 hx
        obtain ⟨bx1, h1⟩ := so.frame.mapped x bx hbx
        exact ⟨bx1, by rw [State.put_pages_ne _ _ (hxR_of x bx hbx)]; exact h1⟩)
    (by
      intro x hx
      rw [hrkP]
      rcases hx with hx | hx
      · obtain ⟨_, ⟨rb0, hrb0⟩, _⟩ := hinv.float x hx
        obtain ⟨bx, hbx, _⟩ := view_mapped_inv s ov hrb0
        rw [splitGhost_rank_ne o g l _ sk (hxR_of x bx hbx)]
        exact lt_trans (hfr x hx) hrankP
      · rw [Set.mem_singleton_iff.mp hx, hrkR]
        exact hrankP)
    hFP
    { pos_le := hposle
      before := hbef
      after := haft
      lo_lt := by rw [splitGhost_lo_ne o g l _ sk hPR]; exact hloP
      lt_hi := by rw [splitGhost_hi_ne o g l _ sk hPR hPl]; exact hhiP
      lchild_eq := hcat
      rnull := fun h => absurd h hRnull
      rfloat := fun _ => ⟨Or.inr rfl, hlnull,
        by rw [splitGhost_hi_old o g l _ sk so.ne_r]; exact le_refl _,
        by rw [splitGhost_lo_new]; exact le_refl _,
        fun k hk => by rw [splitGhost_hi_new]; exact hafthi k hk,
        by rw [splitGhost_hi_new, splitGhost_hi_ne o g l _ sk hPR hPl]; exact hhihi,
        by rw [hrkR, hrkP]; exact hrankP⟩ }
    so.sk_rl so.sk_pos so.sk_le
    (by
      rw [hslackF]
      have : ((m - 2 : Nat) : Int) = (m : Int) - 2 := by omega
      rw [this]
      omega)
  -- the page at `l` after the insertion in the parent
  obtain ⟨b4, hb4, hb4e⟩ := post.frame.pages l _ hFl (by rw [hrkl, hrkP]; exact hrankP)
  have hPl4 : sP.pages l = some { b1 with nextChild := sk.prevChildBucket, parent := b4.parent } := by
    rw [hb4]
    exact congrArg some hb4e
  obtain ⟨rb4, hrb4, hrb4e⟩ := post.frame.pages ⟨0, s.allocNext⟩ _ hFR
    (by rw [hrkR, hrkP]; exact hrankP)
  have hviewQ : (sP.put l { t with parent := b4.parent }).view ov
      = sP.view (Function.update ov l (some t)) := view_truncate sP ov t hb4 ovL
  have hrun : ∀ fuel, m ≤ fuel + 1 →
      insertHere c o (fuel + 1) s l kp recordLoc key lchild rchild =
      insertHere c o fuel (sP.put l { t with parent := b4.parent })
        (if kp1 ≤ sp then l else ⟨0, s.allocNext⟩)
        (if kp1 ≤ sp then np else kp1 - sp - 1) recordLoc key lchild rchild := by
    intro fuel hfuel
    obtain ⟨f, rfl⟩ : ∃ f, fuel = f + 1 := ⟨fuel - 1, by omega⟩
    have hins := _insert_promote c o f _ b1.parent pb1 sk.recordLoc sk.key l ⟨0, s.allocNext⟩
      pos sP so.sk_pos so.sk_le hFP hfind
      (by rw [childAt_eq_childForPos pb1 pos hposle, hcat]) hRnull (hrunP f (by omega))
    exact insertHere_split_promote c o (f + 1) s l kp recordLoc key lchild rchild hL hbi
      so.split_eq so.pushed so.fixed so.page_l so.get_sk so.page_r so.ne_r hpar hins hPl4
      so.trunc
  have hrank2 : ∀ x bx, s.pages x = some bx → g2.rank x = g.rank x := by
    intro x bx hx
    obtain ⟨bx1, h1⟩ := so.frame.mapped x bx hx
    rw [post.frame.rank x bx1 (by rw [State.put_pages_ne _ _ (hxR_of x bx hx)]; exact h1),
      splitGhost_rank_ne o g l _ sk (hxR_of x bx hx)]
  have hnotlt : ¬ (splitGhost o g l ⟨0, s.allocNext⟩ sk).rank ⟨0, s.allocNext⟩
      < (splitGhost o g l ⟨0, s.allocNext⟩ sk).rank l := by
    rw [hrkR, hrkl]
    exact lt_irrefl _
  have hr1 : ∀ x bx, s.pages x = some bx → g.rank x < g.rank l →
      (splitGhost o g l ⟨0, s.allocNext⟩ sk).rank x
        < (splitGhost o g l ⟨0, s.allocNext⟩ sk).rank l := by
    intro x bx hx hlt
    rw [hrkl, splitGhost_rank_ne o g l _ sk (hxR_of x bx hx)]
    exact hlt
  have hframe : Frame s (sP.put l { t with parent := b4.parent }) g g2 l := by
    have f1 := so.frame.comp (Frame.put_ge _ _ l ⟨0, s.allocNext⟩
      { r with nextChild := b1.nextChild, parent := b1.parent } hnotlt) hr1
    have f2 := f1.comp (post.frame.weaken (by rw [hrkl, hrkP]; exact le_of_lt hrankP)) hr1
    exact f2.comp (Frame.refl_put sP g2 l _) (by
      intro x bx hx hlt
      rw [hrank2 x bx hx, hrank2 l b hL]
      exact hlt)
  have hbl := post.frame.bounds l _ hFl (by rw [hrkl, hrkP]; exact hrankP)
  have hbr := post.frame.bounds ⟨0, s.allocNext⟩ _ hFR (by rw [hrkR, hrkP]; exact hrankP)
  refine ⟨sP.put l { t with parent := b4.parent }, g2, hrun,
    { inv := by
        rw [hviewQ]
        exact post.inv.congr_fl (union_diff_self_of_not_mem hRfl).symm
      content := by
        rw [hviewQ, post.content, content_change_none o _ _ hkeysF,
          @usedEntry_congr o sk ⟨DiskLoc.Null, sk.recordLoc, sk.key⟩ rfl rfl]
        exact so.content
      slack := by
        rw [hviewQ]
        have := post.slack
        rw [hslackF] at this
        omega
      frame := hframe
      page_l := ⟨_, State.put_pages_same _ _ _⟩
      page_r := ⟨rb4.parent, by
        rw [State.put_pages_ne _ _ so.ne_r.symm, hrb4]
        exact congrArg some hrb4e⟩
      lo_l := by rw [hbl.1, splitGhost_lo_ne o g l _ sk so.ne_r]
      hi_l := by rw [hbl.2, splitGhost_hi_old o g l _ sk so.ne_r]
      lo_r := by rw [hbr.1, splitGhost_lo_new]
      hi_r := by rw [hbr.2, splitGhost_hi_new]
      rank_r := by
        rw [post.frame.rank ⟨0, s.allocNext⟩ _ hFR, hrkR] },
    pos, pb1, sP, b4.parent, hFP, hfind,
    by rw [childAt_eq_childForPos pb1 pos hposle, hcat], hrunP, hPl4, rfl⟩

/-- A page without room that has a parent: after the split, the split key is
inserted in the parent, with the two halves as the children around it. -/
theorem promote_parent (c : Layout) (hc : Layout.Sane c) (o : Ordering) {m : Nat}
    (IH : InsertSpec c o (m - 2)) {s : State}
    {ov : DiskLoc → Option BtreeBucket} {g : Ghost} {fl : Set DiskLoc} {l : DiskLoc}
    {b b1 : BtreeBucket} {kp kp1 : Nat} (recordLoc : DiskLoc) (key : BSONObj)
    (lchild rchild : DiskLoc) {sp : Nat} {sk : _KeyNode} {r : BtreeBucket} {sD : State}
    {t : BtreeBucket} {np : Nat}
    (hinv : GInv c o (s.view ov) g fl)
    (hov : ∀ x t, ov x = some t → g.rank x < g.rank l)
    (hovm : ∀ x t, ov x = some t → ∃ bx, s.pages x = some bx)
    (hfr : ∀ r ∈ fl, g.rank r < g.rank l)
    (hL : s.pages l = some b)
    (hpa : PackedAt b b1 kp kp1) (hsz1 : PageSizes c b1)
    (hbi : basicInsert c b kp recordLoc key = .ok (false, b1, kp1))
    (so : SplitOut c o s ov g fl l b1 kp1 sp sk r sD t np)
    (hpar : b1.parent ≠ DiskLoc.Null) (hm : slack (s.view ov) + 2 ≤ (m : Int)) :
    ∃ sQ g2, (∀ fuel, m ≤ fuel + 1 →
        insertHere c o (fuel + 1) s l kp recordLoc key lchild rchild =
        insertHere c o fuel sQ (if kp1 ≤ sp then l else ⟨0, s.allocNext⟩)
          (if kp1 ≤ sp then np else kp1 - sp - 1) recordLoc key lchild rchild) ∧
      PromoteOut c o s ov g fl l sk t { r with nextChild := b1.nextChild } sQ g2 := by
  obtain ⟨sQ, g2, h1, h2, _⟩ := promote_parent_run c hc o IH recordLoc key lchild rchild hinv
    hov hovm hfr hL hpa hsz1 hbi so hpar hm
  exact ⟨sQ, g2, h1, h2⟩

end BtreeBucket
end mongo
namespace mongo
namespace BtreeBucket

/-! ## The insertion point in the halves of a split page -/

theorem InsPre.congr_bucket {o : Ordering} {g : Ghost} {fl : Set DiskLoc} {l : DiskLoc}
    {b d : BtreeBucket} {kp : Nat} {e : EKey} {lchild rchild : DiskLoc}
    (h : InsPre o g fl l b kp e lchild rchild) (hk : d.keys = b.keys)
    (hn : d.nextChild = b.nextChild) : InsPre o g fl l d kp e lchild rchild :=
  { pos_le := by rw [hk]; exact h.pos_le
    before := by rw [hk]; exact h.before
    after := by rw [hk]; exact h.after
    lo_lt := h.lo_lt
    lt_hi := h.lt_hi
    lchild_eq := by rw [hk, hn]; exact h.lchild_eq
    rnull := h.rnull
    rfloat := fun hr => by
      have := h.rfloat hr
      rw [hk]
      exact this }

theorem mem_drop_of_get? {α : Type} {ks : List α} {i n : Nat} {k : α}
    (h : ks.get? i = some k) (hn : n ≤ i) : k ∈ ks.drop n := by
  rw [List.mem_iff_get?]
  refine ⟨i - n, ?_⟩
  rw [List.get?_drop]
  have : n + (i - n) = i := by omega
  rw [this]
  exact h

theorem mem_take_of_get? {α : Type} {ks : List α} {i n : Nat} {k : α}
    (h : ks.get? i = some k) (hn : i < n) : k ∈ ks.take n := by
  rw [List.mem_iff_get?]
  refine ⟨i, ?_⟩
  rw [List.get?_take hn]
  exact h

theorem childAt_take {ks : List _KeyNode} {next : DiskLoc} {sp kp : Nat} {sk : _KeyNode}
    (hsk : ks.get? sp = some sk) (h : kp ≤ sp) :
    childAt (ks.take sp) sk.prevChildBucket kp = childAt ks next kp := by
  have hlt : sp < ks.length := (List.get?_eq_some.mp hsk).1
  by_cases he : kp = sp
  · subst he
    have hlen : (ks.take kp).length = kp := by
      rw [List.length_take]
      omega
    rw [childAt_of_get? hsk]
    unfold childAt
    rw [List.drop_of_length_le (le_of_eq hlen)]
  · have hkl : kp < sp := by omega
    obtain ⟨k, hk⟩ := get?_some_of_lt ks kp (by omega)
    rw [childAt_of_get? hk, childAt_of_get? (by rw [List.get?_take hkl]; exact hk)]

theorem childAt_drop (ks : List _KeyNode) (next : DiskLoc) (n kp : Nat) (h : n ≤ kp) :
    childAt (ks.drop n) next (kp - n) = childAt ks next kp := by
  unfold childAt
  rw [List.drop_drop]
  have : n + (kp - n) = kp := by omega
  rw [this]

/-- The insertion point in the left half of a split page. -/
theorem InsPre.left_half {o : Ordering} {g g2 : Ghost} {fl : Set DiskLoc} {l : DiskLoc}
    {b1 : BtreeBucket} {kp1 : Nat} {e : EKey} {lchild rchild : DiskLoc}
    (pre : InsPre o g fl l b1 kp1 e lchild rchild) {sp : Nat} {sk : _KeyNode}
    (hsk : b1.keys.get? sp = some sk) (hk : kp1 ≤ sp)
    (hlo : g2.lo l = g.lo l) (hhi : g2.hi l = ((sk.ekey o : EKey) : WithTop EKey))
    (hrkl : g2.rank l = g.rank l)
    (hlc : rchild ≠ DiskLoc.Null → g2.hi lchild = g.hi lchild)
    (hrc : rchild ≠ DiskLoc.Null → g2.lo rchild = g.lo rchild ∧ g2.hi rchild = g.hi rchild ∧
      g2.rank rchild = g.rank rchild) :
    InsPre o g2 fl l { ({ b1 with nextChild := sk.prevChildBucket } : BtreeBucket) with
      keys := b1.keys.take sp, packed := false } kp1 e lchild rchild := by
  have hlt : sp < b1.keys.length := (List.get?_eq_some.mp hsk).1
  have hskd : sk ∈ b1.keys.drop kp1 := mem_drop_of_get? hsk hk
  have hsub : ∀ k ∈ (b1.keys.take sp).drop kp1, k ∈ b1.keys.drop kp1 := by
    intro k hk1
    rw [List.drop_take] at hk1
    exact List.mem_of_mem_take hk1
  exact
    { pos_le := by
        show kp1 ≤ (b1.keys.take sp).length
        rw [List.length_take]
        omega
      before := by
        intro k hk1
        apply pre.before k
        have h1 : k ∈ (b1.keys.take sp).take kp1 := hk1
        rw [List.take_take, min_eq_left hk] at h1
        exact h1
      after := fun k hk1 => pre.after k (hsub k hk1)
      lo_lt := by rw [hlo]; exact pre.lo_lt
      lt_hi := by
        rw [hhi]
        exact WithTop.coe_lt_coe.mpr (pre.after sk hskd)
      lchild_eq := by
        show childAt (b1.keys.take sp) sk.prevChildBucket kp1 = lchild
        rw [childAt_take hsk hk]
        exact pre.lchild_eq
      rnull := pre.rnull
      rfloat := fun hr => by
        obtain ⟨h1, h2, h3, h4, h5, h6, h7⟩ := pre.rfloat hr
        obtain ⟨e1, e2, e3⟩ := hrc hr
        refine ⟨h1, h2, ?_, ?_, ?_, ?_, ?_⟩
        · rw [hlc hr]; exact h3
        · rw [e1]; exact h4
        · intro k hk1
          rw [e2]
          exact h5 k (hsub k hk1)
        · rw [e2, hhi]
          exact h5 sk hskd
        · rw [e3, hrkl]; exact h7 }

/-- The insertion point in the right half of a split page. -/
theorem InsPre.right_half {o : Ordering} {g g2 : Ghost} {fl : Set DiskLoc} {l R : DiskLoc}
    {b1 d : BtreeBucket} {kp1 : Nat} {e : EKey} {lchild rchild : DiskLoc}
    (pre : InsPre o g fl l b1 kp1 e lchild rchild) {sp : Nat} {sk : _KeyNode}
    (hsk : b1.keys.get? sp = some sk) (hk : sp < kp1)
    (hrk : d.keys = b1.keys.drop (sp + 1)) (hrn : d.nextChild = b1.nextChild)
    (hlo : g2.lo R = ((sk.ekey o : EKey) : WithBot EKey)) (hhi : g2.hi R = g.hi l)
    (hrkl : g2.rank R = g.rank l)
    (hlc : rchild ≠ DiskLoc.Null → g2.hi lchild = g.hi lchild)
    (hrc : rchild ≠ DiskLoc.Null → g2.lo rchild = g.lo rchild ∧ g2.hi rchild = g.hi rchild ∧
      g2.rank rchild = g.rank rchild) :
    InsPre o g2 fl R d (kp1 - sp - 1) e lchild rchild := by
  have hskt : sk ∈ b1.keys.take kp1 := mem_take_of_get? hsk hk
  have hple := pre.pos_le
  have hsub : ∀ k ∈ (b1.keys.drop (sp + 1)).drop (kp1 - sp - 1), k ∈ b1.keys.drop kp1 := by
    intro k hk1
    rw [List.drop_drop] at hk1
    have : sp + 1 + (kp1 - sp - 1) = kp1 := by omega
    rw [this] at hk1
    exact hk1
  exact
    { pos_le := by
        rw [hrk, List.length_drop]
        omega
      before := by
        intro k hk1
        apply pre.before k
        rw [hrk] at hk1
        have h2 : kp1 - sp - 1 = kp1 - (sp + 1) := by omega
        rw [h2, ← List.drop_take] at hk1
        exact List.mem_of_mem_drop hk1
      after := by
        intro k hk1
        rw [hrk] at hk1
        exact pre.after k (hsub k hk1)
      lo_lt := by
        rw [hlo]
        exact WithBot.coe_lt_coe.mpr (pre.before sk hskt)
      lt_hi := by rw [hhi]; exact pre.lt_hi
      lchild_eq := by
        rw [hrk, hrn]
        have h2 : kp1 - sp - 1 = kp1 - (sp + 1) := by omega
        rw [h2, childAt_drop b1.keys b1.nextChild (sp + 1) kp1 (by omega)]
        exact pre.lchild_eq
      rnull := pre.rnull
      rfloat := fun hr => by
        obtain ⟨h1, h2, h3, h4, h5, h6, h7⟩ := pre.rfloat hr
        obtain ⟨e1, e2, e3⟩ := hrc hr
        refine ⟨h1, h2, ?_, ?_, ?_, ?_, ?_⟩
        · rw [hlc hr]; exact h3
        · rw [e1]; exact h4
        · intro k hk1
          rw [e2]
          rw [hrk] at hk1
          exact h5 k (hsub k hk1)
        · rw [e2, hhi]
          exact h6
        · rw [e3, hrkl]; exact h7 }

end BtreeBucket
end mongo
namespace mongo
namespace BtreeBucket

/-- The last part of `insertHere` on a page that was split: the key is inserted
in one of the halves, for which the contract holds with a smaller bound. -/
theorem insertHere_final (c : Layout) (o : Ordering) {m : Nat}
    (IH : InsertSpec c o (m - 1)) {s : State}
    {ov : DiskLoc → Option BtreeBucket} {g : Ghost} {fl : Set DiskLoc} {l : DiskLoc}
    {b b1 : BtreeBucket} {kp kp1 : Nat} {recordLoc : DiskLoc} {key : BSONObj}
    {lchild rchild : DiskLoc} {sp : Nat} {sk : _KeyNode} {r : BtreeBucket} {sD : State}
    {t : BtreeBucket} {np : Nat} {sQ : State} {g2 : Ghost}
    (hinv : GInv c o (s.view ov) g fl)
    (hov : ∀ x t, ov x = some t → g.rank x < g.rank l)
    (hovm : ∀ x t, ov x = some t → ∃ bx, s.pages x = some bx)
    (hfr : ∀ r ∈ fl, g.rank r < g.rank l)
    (hL : s.pages l = some b)
    (pre : InsPre o g fl l b kp (entryKey o key recordLoc.clearLow) lchild rchild)
    (hrl : 0 ≤ recordLoc.a ∧ 2 ≤ recordLoc.ofs) (hpos : 0 < key.objsize)
    (hle : key.objsize ≤ KeyMax c) (hm : slack (s.view ov) + 2 ≤ (m : Int))
    (hpa : PackedAt b b1 kp kp1) (hsz1 : PageSizes c b1)
    (so : SplitOut c o s ov g fl l b1 kp1 sp sk r sD t np)
    (po : PromoteOut c o s ov g fl l sk t { r with nextChild := b1.nextChild } sQ g2)
    (hrunQ : ∀ fuel, m ≤ fuel + 1 →
      insertHere c o (fuel + 1) s l kp recordLoc key lchild rchild =
      insertHere c o fuel sQ (if kp1 ≤ sp then l else ⟨0, s.allocNext⟩)
        (if kp1 ≤ sp then np else kp1 - sp - 1) recordLoc key lchild rchild) :
    ∃ s1 g1, (∀ fuel, m ≤ fuel →
        insertHere c o fuel s l kp recordLoc key lchild rchild = (.ok (), s1)) ∧
      InsPost c o s s1 ov g g1 fl l recordLoc key rchild := by
  have ovL : ov l = none := ov_none_of_rank hov
  have vL : (s.view ov).pages l = some b := by rw [view_pages_none s ov ovL]; exact hL
  have hv1 : GInv c o ((s.view ov).put l b1) g fl := hinv.put_packed vL hpa hsz1
  have hvl : ((s.view ov).put l b1).pages l = some b1 := State.put_pages_same _ _ _
  have pre1 := pre.packed hpa
  have hge := po.inv.slack_ge
  have hpsl := po.slack
  have hm1 : 1 ≤ m := by omega
  have hrank2 : ∀ x bx, s.pages x = some bx → g2.rank x = g.rank x := po.frame.rank
  have hrkl : g2.rank l = g.rank l := hrank2 l b hL
  -- the children around the insertion point keep their intervals
  have hrc : rchild ≠ DiskLoc.Null → g2.lo rchild = g.lo rchild ∧ g2.hi rchild = g.hi rchild ∧
      g2.rank rchild = g.rank rchild := by
    intro hr
    obtain ⟨h1, _, _, _, _, _, h7⟩ := pre.rfloat hr
    obtain ⟨_, ⟨rb0, hrb0⟩, _⟩ := hinv.float rchild h1
    obtain ⟨bx, hbx, _⟩ := view_mapped_inv s ov hrb0
    obtain ⟨e1, e2⟩ := po.frame.bounds rchild bx hbx h7
    exact ⟨e1, e2, hrank2 rchild bx hbx⟩
  have hlc : rchild ≠ DiskLoc.Null → g2.hi lchild = g.hi lchild := by
    intro hr
    obtain ⟨_, h2, _⟩ := pre.rfloat hr
    have hic : IsChild b1 lchild := by
      rw [← pre1.lchild_eq]
      exact isChild_childAt b1 kp1
    obtain ⟨⟨cb, hcb, _⟩, hrk, _⟩ := (hv1.page l b1 hvl).isChild hic h2
    have hne : lchild ≠ l := by
      rintro rfl
      exact lt_irrefl _ hrk
    rw [State.put_pages_ne _ _ hne] at hcb
    obtain ⟨bx, hbx, _⟩ := view_mapped_inv s ov hcb
    exact (po.frame.bounds lchild bx hbx hrk).2
  have hovm2 : ∀ x t, ov x = some t → ∃ bx, sQ.pages x = some bx := by
    intro x t0 hx
    obtain ⟨bx, hbx⟩ := hovm x t0 hx
    exact po.frame.mapped x bx hbx
  have hslack : slack (sQ.view ov) + 2 ≤ ((m - 1 : Nat) : Int) := by
    have : ((m - 1 : Nat) : Int) = (m : Int) - 1 := by omega
    rw [this]
    omega
  have hfinish : ∀ (tgt : DiskLoc) (pos : Nat) (s1 : State) (g3 : Ghost),
      tgt = (if kp1 ≤ sp then l else ⟨0, s.allocNext⟩) →
      pos = (if kp1 ≤ sp then np else kp1 - sp - 1) →
      g2.rank tgt = g.rank l →
      (∀ fuel, m - 1 ≤ fuel →
        insertHere c o fuel sQ tgt pos recordLoc key lchild rchild = (.ok (), s1)) →
      InsPost c o sQ s1 ov g2 g3 fl tgt recordLoc key rchild →
      ∃ s1 g1, (∀ fuel, m ≤ fuel →
          insertHere c o fuel s l kp recordLoc key lchild rchild = (.ok (), s1)) ∧
        InsPost c o s s1 ov g g1 fl l recordLoc key rchild := by
    intro tgt pos s1 g3 htgt hposq hrkt hrun1 post1
    refine ⟨s1, g3, ?_, ?_⟩
    · intro fuel hf
      obtain ⟨f, rfl⟩ : ∃ f, fuel = f + 1 := ⟨fuel - 1, by omega⟩
      rw [hrunQ f hf, ← htgt, ← hposq]
      exact hrun1 f (by omega)
    · exact
        { inv := post1.inv
          content := by rw [post1.content, po.content]
          slack := by
            have := post1.slack
            omega
          frame := po.frame.comp post1.frame (by
            intro x bx hx hlt
            rw [hrank2 x bx hx, hrkt]
            exact hlt) }
  by_cases hk : kp1 ≤ sp
  · obtain ⟨pp, hQl⟩ := po.page_l
    have preT := ((pre1.left_half so.get_sk hk po.lo_l po.hi_l hrkl hlc hrc).packed
      (so.t_packed hk)).congr_bucket (d := { t with parent := pp }) rfl rfl
    obtain ⟨s1, g3, hrun1, post1⟩ := IH sQ ov g2 fl l _ np recordLoc key lchild rchild po.inv
      (by
        intro x t0 hx
        obtain ⟨bx, hbx⟩ := hovm x t0 hx
        rw [hrank2 x bx hbx, hrkl]
        exact hov x t0 hx)
      hovm2
      (by
        intro x hx
        obtain ⟨_, ⟨rb0, hrb0⟩, _⟩ := hinv.float x hx
        obtain ⟨bx, hbx, _⟩ := view_mapped_inv s ov hrb0
        rw [hrank2 x bx hbx, hrkl]
        exact hfr x hx)
      hQl preT hrl hpos hle hslack
    exact hfinish l np s1 g3 (by rw [if_pos hk]) (by rw [if_pos hk]) hrkl hrun1 post1
  · obtain ⟨pp, hQr⟩ := po.page_r
    have preR := pre1.right_half (R := ⟨0, s.allocNext⟩)
      (d := { r with nextChild := b1.nextChild, parent := pp }) so.get_sk (not_le.mp hk)
      so.r_keys rfl po.lo_r po.hi_r po.rank_r hlc hrc
    obtain ⟨s1, g3, hrun1, post1⟩ := IH sQ ov g2 fl ⟨0, s.allocNext⟩ _ (kp1 - sp - 1)
      recordLoc key lchild rchild po.inv
      (by
        intro x t0 hx
        obtain ⟨bx, hbx⟩ := hovm x t0 hx
        rw [hrank2 x bx hbx, po.rank_r]
        exact hov x t0 hx)
      hovm2
      (by
        intro x hx
        obtain ⟨_, ⟨rb0, hrb0⟩, _⟩ := hinv.float x hx
        obtain ⟨bx, hbx, _⟩ := view_mapped_inv s ov hrb0
        rw [hrank2 x bx hbx, po.rank_r]
        exact hfr x hx)
      hQr preR hrl hpos hle hslack
    exact hfinish ⟨0, s.allocNext⟩ (kp1 - sp - 1) s1 g3 (by rw [if_neg hk]) (by rw [if_neg hk])
      po.rank_r hrun1 post1

/-- The contract of `insertHere` holds for every bound: the call returns and
leaves a forest that satisfies the invariant and holds the new entry. -/
theorem insertHere_spec (c : Layout) (hc : Layout.Sane c) (o : Ordering) :
    ∀ m, InsertSpec c o m := by
  intro m
  induction m using Nat.strong_induction_on with
  | _ m ih =>
    intro s ov g fl l b kp recordLoc key lchild rchild hinv hov hovm hfr hL pre hrl hpos hle hm
    have ovL : ov l = none := ov_none_of_rank hov
    have vL : (s.view ov).pages l = some b := by rw [view_pages_none s ov ovL]; exact hL
    have hge := hinv.slack_ge
    have hm1 : 1 ≤ m := by omega
    obtain ⟨b1, kp1, hpa, hsz1, hcase⟩ := basicInsert_spec c hc b kp recordLoc key
      (hinv.sizes l b vL) pre.pos_le hpos hle
    rcases hcase with ⟨b2, hbi, hk2, hp2, hn2, hsz2, _, _, _⟩ | ⟨hbi, hno, hpk⟩
    · obtain ⟨s1, hrun, post⟩ :=
        insertHere_room c o hinv hov hL pre hrl hpa hsz1 hbi hk2 hp2 hn2 hsz2
      exact ⟨s1, g, fun fuel hf => hrun fuel (by omega), post⟩
    · have hlen := length_gt_two_of_no_room c hc b1 hsz1 hpk key hpos hle hno
      obtain ⟨sp, sk, r, sD, t, np, so⟩ := split_stage c hc o hinv hov hovm hL hpa hsz1 hlen
      have hprom : ∃ sQ g2, (∀ fuel, m ≤ fuel + 1 →
          insertHere c o (fuel + 1) s l kp recordLoc key lchild rchild =
          insertHere c o fuel sQ (if kp1 ≤ sp then l else ⟨0, s.allocNext⟩)
            (if kp1 ≤ sp then np else kp1 - sp - 1) recordLoc key lchild rchild) ∧
          PromoteOut c o s ov g fl l sk t { r with nextChild := b1.nextChild } sQ g2 := by
        by_cases hpar : b1.parent = DiskLoc.Null
        · have hhd : s.head = l := by
            by_contra hne
            have hlf : l ∉ fl := fun h => lt_irrefl _ (hfr l h)
            obtain ⟨pb, hpb, _⟩ := hinv.link l b vL (fun h => hne h.symm) hlf
            rw [← hpa.parent, hpar, hinv.null_unmapped] at hpb
            cases hpb
          obtain ⟨sQ, g2, hrun, po⟩ := promote_root c hc o recordLoc key lchild rchild hinv hov
            hovm hL hbi so hhd hpar
          exact ⟨sQ, g2, fun fuel _ => hrun fuel, po⟩
        · exact promote_parent c hc o (ih (m - 2) (by omega)) recordLoc key lchild rchild hinv
            hov hovm hfr hL hpa hsz1 hbi so hpar hm
      obtain ⟨sQ, g2, hrunQ, po⟩ := hprom
      exact insertHere_final c o (ih (m - 1) (by omega)) hinv hov hovm hfr hL pre hrl hpos hle hm
        hpa hsz1 so po hrunQ

end BtreeBucket
end mongo
namespace mongo
namespace BtreeBucket

/-! ## Intervals as wide as the slots of the parent allow -/

theorem lowerAt_mono (o : Ordering) (b : BtreeBucket) {lo lo1 : WithBot EKey} (h : lo1 ≤ lo)
    (p : Nat) : lowerAt o b lo1 p ≤ lowerAt o b lo p := by
  cases p with
  | zero => exact h
  | succ q =>
    simp only [lowerAt]
    cases b.keys.get? q with
    | none => exact h
    | some k => exact le_refl _

theorem upperAt_mono (o : Ordering) (b : BtreeBucket) {hi hi1 : WithTop EKey} (h : hi ≤ hi1)
    (p : Nat) : upperAt o b hi p ≤ upperAt o b hi1 p := by
  unfold upperAt
  cases b.keys.get? p with
  | none => exact h
  | some k => exact le_refl _

/-- The invariant holds with a wider interval for one page, as long as the
interval stays between the slots around the link to the page. -/
theorem Inv.widen_at {c : Layout} {o : Ordering} {s : State} {g : Ghost} (h : Inv c o s g)
    (x : DiskLoc) (lo1 : WithBot EKey) (hi1 : WithTop EKey)
    (hlo : lo1 ≤ g.lo x) (hhi : g.hi x ≤ hi1)
    (hpar : ∀ l b p, s.pages l = some b → b.childForPos p = some x → x ≠ DiskLoc.Null →
      lowerAt o b (g.lo l) p ≤ lo1 ∧ hi1 ≤ upperAt o b (g.hi l) p) :
    Inv c o s { g with lo := Function.update g.lo x lo1, hi := Function.update g.hi x hi1 } := by
  have hlo_ne : ∀ y, y ≠ x → (Function.update g.lo x lo1) y = g.lo y :=
    fun y hy => Function.update_noteq hy _ _
  have hhi_ne : ∀ y, y ≠ x → (Function.update g.hi x hi1) y = g.hi y :=
    fun y hy => Function.update_noteq hy _ _
  have hlo_le : ∀ y, (Function.update g.lo x lo1) y ≤ g.lo y := by
    intro y
    by_cases hy : y = x
    · subst hy
      rw [Function.update_same]
      exact hlo
    · rw [hlo_ne y hy]
  have hhi_le : ∀ y, g.hi y ≤ (Function.update g.hi x hi1) y := by
    intro y
    by_cases hy : y = x
    · subst hy
      rw [Function.update_same]
      exact hhi
    · rw [hhi_ne y hy]
  exact
    { null_unmapped := h.null_unmapped
      head := h.head
      sizes := h.sizes
      link := h.link
      rank_le := h.rank_le
      fresh := h.fresh
      page := fun l b hl =>
        { sorted := (h.page l b hl).sorted
          lo_lt := fun k hk => lt_of_le_of_lt (hlo_le l) ((h.page l b hl).lo_lt k hk)
          lt_hi := fun k hk => lt_of_lt_of_le ((h.page l b hl).lt_hi k hk) (hhi_le l)
          child_inj := (h.page l b hl).child_inj
          rl_valid := (h.page l b hl).rl_valid
          child := fun p ch hch hn => by
            obtain ⟨cb, hcb, hcp, hrk, h1, h2⟩ := (h.page l b hl).child p ch hch hn
            refine ⟨cb, hcb, hcp, hrk, ?_, ?_⟩
            · show lowerAt o b (Function.update g.lo x lo1 l) p ≤ Function.update g.lo x lo1 ch
              by_cases hcx : ch = x
              · subst hcx
                rw [Function.update_same]
                have hlx : l ≠ ch := by
                  rintro rfl
                  exact lt_irrefl _ hrk
                rw [hlo_ne l hlx]
                exact (hpar l b p hl hch hn).1
              · rw [hlo_ne ch hcx]
                exact le_trans (lowerAt_mono o b (hlo_le l) p) h1
            · show Function.update g.hi x hi1 ch ≤ upperAt o b (Function.update g.hi x hi1 l) p
              by_cases hcx : ch = x
              · subst hcx
                rw [Function.update_same]
                have hlx : l ≠ ch := by
                  rintro rfl
                  exact lt_irrefl _ hrk
                rw [hhi_ne l hlx]
                exact (hpar l b p hl hch hn).2
              · rw [hhi_ne ch hcx]
                exact le_trans h2 (upperAt_mono o b (hhi_le l) p) } }

/-- The invariant holds with the whole index order as the interval of the
root. -/
theorem Inv.widen_root {c : Layout} {o : Ordering} {s : State} {g : Ghost} (h : Inv c o s g) :
    Inv c o s { g with lo := Function.update g.lo s.head ⊥,
                       hi := Function.update g.hi s.head ⊤ } := by
  apply h.widen_at s.head ⊥ ⊤ bot_le le_top
  intro l b p hl hch hn
  exfalso
  obtain ⟨cb, hcb, hcp, _⟩ := (h.page l b hl).child p s.head hch hn
  obtain ⟨hb, hhb, hhp, _⟩ := h.head
  rw [hcb] at hhb
  cases hhb
  rw [hcp] at hhp
  rw [hhp, h.null_unmapped] at hl
  cases hl

/-- The invariant holds with, as the interval of a child, the whole gap between
the slots around the link to it. -/
theorem Inv.widen_child {c : Layout} {o : Ordering} {s : State} {g : Ghost} (h : Inv c o s g)
    {l ch : DiskLoc} {b : BtreeBucket} {p : Nat} (hl : s.pages l = some b)
    (hch : b.childForPos p = some ch) (hn : ch ≠ DiskLoc.Null) :
    Inv c o s { g with lo := Function.update g.lo ch (lowerAt o b (g.lo l) p),
                       hi := Function.update g.hi ch (upperAt o b (g.hi l) p) } := by
  obtain ⟨cb, hcb, hcp, hrk, h1, h2⟩ := (h.page l b hl).child p ch hch hn
  apply h.widen_at ch _ _ h1 h2
  intro l1 b1 p1 hl1 hch1 _
  obtain ⟨cb1, hcb1, hcp1, _⟩ := (h.page l1 b1 hl1).child p1 ch hch1 hn
  rw [hcb] at hcb1
  cases hcb1
  rw [hcp] at hcp1
  subst hcp1
  rw [hl] at hl1
  cases hl1
  have := (h.page l b hl).child_inj p p1 ch hch hch1 hn
  subst this
  exact ⟨le_refl _, le_refl _⟩

end BtreeBucket
end mongo
namespace mongo
namespace BtreeBucket

/-- On a page whose slots with an equal key are all unused, and with a probe
that reports no duplicate, the search with `assertIfDup` goes as the search
without it. -/
theorem findLoop_no_used_dup (o : Ordering) (b : BtreeBucket) (key : BSONObj)
    (recordLoc : DiskLoc) (probe : Unit → Except Err Unit) (hpr : probe () = .ok ())
    (hun : ∀ m M, b.keys.get? m = some M → key.woCompare M.key o = 0 → M.isUnused = true) :
    ∀ (fuel : Nat) (l h : Int) (dc dc1 : Bool),
      findLoop b key recordLoc o true probe fuel l h dc
        = findLoop b key recordLoc o false probe fuel l h dc1 := by
  intro fuel
  induction fuel with
  | zero => intro l h dc dc1; rfl
  | succ fuel ih =>
    intro l h dc dc1
    unfold findLoop
    by_cases hlh : l ≤ h
    · simp only [hlh, not_true_eq_false, if_false]
      cases hM : b.keys.get? ((l + h) / 2).toNat with
      | none => rfl
      | some M =>
        simp only
        by_cases hx0 : key.woCompare M.key o = 0
        · have hu := hun _ M hM hx0
          simp only [hx0, if_true, hu, Bool.false_eq_true, if_false]
          cases dc with
          | true =>
            simp only [not_true_eq_false, if_false]
            split_ifs
            · exact ih _ _ _ _
            · exact ih _ _ _ _
            · rfl
          | false =>
            simp only [Bool.false_eq_true, not_false_eq_true, if_true, hpr]
            split_ifs
            · exact ih _ _ _ _
            · exact ih _ _ _ _
            · rfl
        · simp only [hx0, if_false]
          split_ifs
          · exact ih _ _ _ _
          · exact ih _ _ _ _
          · rfl
    · simp only [hlh, not_false_eq_true, if_true]

theorem findWith_no_used_dup (o : Ordering) (b : BtreeBucket) (key : BSONObj)
    (recordLoc : DiskLoc) (probe : Unit → Except Err Unit) (hpr : probe () = .ok ())
    (hun : ∀ m M, b.keys.get? m = some M → key.woCompare M.key o = 0 → M.isUnused = true) :
    findWith b key recordLoc o true probe = findWith b key recordLoc o false probe :=
  findLoop_no_used_dup o b key recordLoc probe hpr hun _ _ _ _ _

end BtreeBucket
end mongo
namespace mongo
namespace BtreeBucket

/-! ## An unused slot that is put to use again -/

theorem clearLow_clearLow (l : DiskLoc) : l.clearLow.clearLow = l.clearLow := by
  simp only [DiskLoc.clearLow]
  congr 1
  omega

theorem clearLow_of_even {l : DiskLoc} (h : l.ofs % 2 = 0) : l.clearLow = l := by
  cases l with
  | mk a ofs =>
    simp only [DiskLoc.clearLow] at h ⊢
    congr 1
    omega

theorem setUsed_ekey (o : Ordering) (k : _KeyNode) : k.setUsed.ekey o = k.ekey o := by
  simp only [_KeyNode.ekey, _KeyNode.setUsed, clearLow_clearLow]

theorem setUsed_isUsed (k : _KeyNode) : k.setUsed.isUsed = true := by
  simp only [_KeyNode.isUsed, _KeyNode.isUnused, _KeyNode.setUsed, DiskLoc.clearLow,
    Bool.not_eq_true', decide_eq_false_iff_not]
  omega

theorem view_none (s : State) : s.view (fun _ => none) = s := by
  apply state_ext
  · intro l
    show (match s.pages l with
      | none => none
      | some b => some b) = s.pages l
    cases s.pages l <;> rfl
  · rfl
  · rfl

/-- The tree after an unused slot is marked used: the invariant holds and the
entry of the slot is added. -/
theorem Inv.resurrect {c : Layout} {o : Ordering} {s : State} {g : Ghost} (h : Inv c o s g)
    {l : DiskLoc} {b : BtreeBucket} {pos : Nat} {kn : _KeyNode} (hl : s.pages l = some b)
    (hk : b.keys.get? pos = some kn) (hu : kn.isUnused = true) :
    Inv c o (s.put l { b with keys := b.keys.set pos kn.setUsed }) g ∧
      Content o (s.put l { b with keys := b.keys.set pos kn.setUsed })
        = Content o s ∪ {kn.ekey o} := by
  have hdec := eq_take_cons_drop b.keys pos kn hk
  have hlen : (b.keys.take pos).length = pos := by
    rw [List.length_take]
    have := (List.get?_eq_some.mp hk).1
    omega
  have hset : b.keys.set pos kn.setUsed = b.keys.take pos ++ kn.setUsed :: b.keys.drop (pos + 1) := by
    conv_lhs => rw [hdec]
    conv_lhs => rw [← hlen]
    rw [hlen]
    conv_lhs => arg 2; rw [← hlen]
    exact set_append_length _ _ _ _
  have hg := GInv.of_inv h
  have hpf0 := hg.page l b hl
  have hmem : ∀ k1 ∈ b.keys.take pos ++ kn.setUsed :: b.keys.drop (pos + 1),
      k1 = kn.setUsed ∨ k1 ∈ b.keys := by
    intro k1 hk1
    rw [List.mem_append, List.mem_cons] at hk1
    rcases hk1 with h1 | h1 | h1
    · exact Or.inr (List.mem_of_mem_take h1)
    · exact Or.inl h1
    · exact Or.inr (List.mem_of_mem_drop h1)
  have hknm : kn ∈ b.keys := List.get?_mem hk
  have hpf : PagePF o s g l { b with keys := b.keys.set pos kn.setUsed } := by
    refine hpf0.of_mirror ?_ ?_ ?_ ?_
    · rfl
    · show SortedSlots o (b.keys.set pos kn.setUsed)
      rw [hset]
      apply SortedSlots.replace _ (setUsed_ekey o kn)
      rw [← hdec]
      exact hpf0.sorted
    · intro k1 hk1
      have hk1' : k1 ∈ b.keys.take pos ++ kn.setUsed :: b.keys.drop (pos + 1) := by
        rw [← hset]; exact hk1
      rcases hmem k1 hk1' with h1 | h1
      · exact ⟨kn, hknm, by rw [h1, setUsed_ekey], by rw [h1]; rfl⟩
      · exact ⟨k1, h1, rfl, rfl⟩
    · intro k1 hk1
      have hk1' : k1 ∈ b.keys.take pos ++ kn.setUsed :: b.keys.drop (pos + 1) := by
        rw [← hset]; exact hk1
      rcases hmem k1 hk1' with h1 | h1
      · have := hpf0.rl_valid kn hknm
        rw [h1]
        simp only [_KeyNode.setUsed, DiskLoc.clearLow]
        constructor
        · exact this.1
        · have h2 := this.2
          omega
      · exact hpf0.rl_valid k1 h1
  have hsz : PageSizes c { b with keys := b.keys.set pos kn.setUsed } := by
    refine (hg.sizes l b hl).of_map ?_ ?_ ?_ ?_
    rotate_left
    · rfl
    · rfl
    · rfl
    show (b.keys.set pos kn.setUsed).map (fun k => k.key) = b.keys.map (fun k => k.key)
    rw [hset]
    conv_rhs => rw [hdec]
    simp only [List.map_append, List.map_cons, _KeyNode.setUsed]
  have hne : (b.keys.set pos kn.setUsed) ≠ [] := by
    rw [hset]
    exact List.append_ne_nil_of_right_ne_nil _ (List.cons_ne_nil _ _)
  have hg1 : GInv c o (s.put l { b with keys := b.keys.set pos kn.setUsed }) g ∅ := by
    refine hg.put hl ?_ hpf hsz (fun _ => hne) (fun _ he => absurd he hne) ?_ ?_
    · intro _
      rfl
    · intro ch _ hc
      rcases hc with hc | ⟨k, hkm, hc⟩
      · exact Or.inl hc
      · right
        have hkm' : k ∈ b.keys.take pos ++ kn :: b.keys.drop (pos + 1) := by
          rw [← hdec]; exact hkm
        rw [List.mem_append, List.mem_cons] at hkm'
        show ∃ k1 ∈ b.keys.set pos kn.setUsed, k1.prevChildBucket = ch
        rw [hset]
        rcases hkm' with h1 | h1 | h1
        · exact ⟨k, List.mem_append_left _ h1, hc⟩
        · exact ⟨kn.setUsed, List.mem_append_right _ (List.mem_cons_self _ _), by
            rw [← hc, h1]; rfl⟩
        · exact ⟨k, List.mem_append_right _ (List.mem_cons_of_mem _ h1), hc⟩
    · intro r
      simp only [Set.mem_empty_iff_false, false_and]
  refine ⟨hg1.to_inv, ?_⟩
  apply content_change_one o s _ hl (State.put_pages_same _ _ _)
    (fun x hx => by rw [State.put_pages_ne _ _ hx])
  ext e
  simp only [Set.mem_union, Set.mem_singleton_iff, pageEntries_eq_iUnion]
  show (∃ k ∈ b.keys.set pos kn.setUsed, e ∈ usedEntry o k) ↔ _
  rw [hset]
  constructor
  · rintro ⟨k, hkm, he⟩
    rcases hmem k hkm with h1 | h1
    · right
      rw [h1] at he
      rw [← he.2, setUsed_ekey]
    · exact Or.inl ⟨k, h1, he⟩
  · rintro (⟨k, hkm, he⟩ | he)
    · have hkm' : k ∈ b.keys.take pos ++ kn :: b.keys.drop (pos + 1) := by
        rw [← hdec]; exact hkm
      rw [List.mem_append, List.mem_cons] at hkm'
      rcases hkm' with h1 | h1 | h1
      · exact ⟨k, List.mem_append_left _ h1, he⟩
      · exfalso
        rw [h1] at he
        have := he.1
        simp only [_KeyNode.isUsed, hu, Bool.not_true, Bool.false_eq_true] at this
      · exact ⟨k, List.mem_append_right _ (List.mem_cons_of_mem _ h1), he⟩
    · exact ⟨kn.setUsed, List.mem_append_right _ (List.mem_cons_self _ _),
        setUsed_isUsed kn, by rw [he, setUsed_ekey]⟩

end BtreeBucket
end mongo
namespace mongo
namespace BtreeBucket

/-! ## The descent of `bt_insert` -/

theorem dupProbe_fun {s : State} {key : BSONObj} {o : Ordering} {rl : DiskLoc} {fuel : Nat}
    {pr : Except Err Unit} (h : dupProbe fuel s key o rl () = pr) :
    dupProbe fuel s key o rl = fun _ => pr := by
  funext u
  cases u
  exact h

/-- One level of `bt_insert` for a key of a size the tree accepts, with no
children to wire. -/
theorem bt_insert_unfold (c : Layout) (o : Ordering) (f : Nat) (s : State) (l : DiskLoc)
    (rl : DiskLoc) (key : BSONObj) (dups toplevel : Bool) {b : BtreeBucket}
    (hpos : 0 < key.objsize) (hle : key.objsize ≤ KeyMax c) (hl : s.pages l = some b) :
    bt_insert c o (f + 2) s l rl key dups toplevel =
      match find (f + 1) s b key rl o (!dups) with
      | .error e => (.error e, s)
      | .ok (found, pos) =>
        if found then
          match b.keys.get? pos with
          | none => (.error .fault, s)
          | some kn =>
            if kn.isUnused then (.ok 0, s.put l { b with keys := b.keys.set pos kn.setUsed })
            else (.error .alreadyInIndex, s)
        else
          match b.childForPos pos with
          | none => (.error .fault, s)
          | some child =>
            if child.isNull then
              match insertHere c o f s l pos rl key DiskLoc.Null DiskLoc.Null with
              | (.error e, s) => (.error e, s)
              | (.ok _, s) => (.ok 0, s)
            else bt_insert c o f s child rl key dups false := by
  have h1 : ¬ key.objsize > KeyMax c := not_lt.mpr hle
  have hn : DiskLoc.Null.isNull = true := rfl
  rw [bt_insert]
  simp only [h1, and_false, if_false]
  rw [_insert]
  simp only [h1, if_false, hpos, gt_iff_lt, not_true_eq_false, hl, hn, not_true_eq_false,
    if_false, or_false]
  all_goals
    cases find (f + 1) s b key rl o (!dups) with
    | error e => rfl
    | ok fp =>
      obtain ⟨found, pos⟩ := fp
      cases found with
      | true =>
        simp only [if_true]
        rfl
      | false =>
        simp only [Bool.false_eq_true, if_false]
        cases b.childForPos pos with
        | none => rfl
        | some child =>
          simp only
          cases child.isNull with
          | true =>
            simp only [if_true]
            rfl
          | false => simp only [Bool.false_eq_true, if_false]

end BtreeBucket
end mongo
namespace mongo
namespace BtreeBucket

theorem usedEntry_of_used (o : Ordering) {k : _KeyNode} (h : k.isUsed = true) :
    usedEntry o k = {k.ekey o} := by
  ext e
  simp only [usedEntry, Set.mem_setOf_eq, h, true_and, Set.mem_singleton_iff]
  exact eq_comm

theorem isUsed_of_even {k : _KeyNode} (h : k.recordLoc.ofs % 2 = 0) : k.isUsed = true := by
  simp only [_KeyNode.isUsed, _KeyNode.isUnused, Bool.not_eq_true', decide_eq_false_iff_not]
  omega

theorem mem_content_of_used {o : Ordering} {s : State} {l : DiskLoc} {b : BtreeBucket}
    {k : _KeyNode} (hl : s.pages l = some b) (hk : k ∈ b.keys) (hu : k.isUsed = true) :
    k.ekey o ∈ Content o s := ⟨l, b, k, hl, hk, hu, rfl⟩

/-- The search of `find` on a page of a tree in which no used slot has a key
equal to `key`, or with duplicates allowed: it returns what the search without
`assertIfDup` returns. -/
theorem findWith_good (o : Ordering) {s : State} {l : DiskLoc} {b : BtreeBucket}
    (hl : s.pages l = some b) (key : BSONObj) (recordLoc : DiskLoc) (dups : Bool)
    (pr : Except Err Unit) (hgood : dups = true ∨ ¬ HasUsedKey o s key)
    (hpr : dups = false → ¬ HasUsedKey o s key → pr = .ok ()) :
    findWith b key recordLoc o (!dups) (fun _ => pr)
      = findWith b key recordLoc o false (fun _ => pr) := by
  cases dups with
  | true => rfl
  | false =>
    have hno : ¬ HasUsedKey o s key := by
      rcases hgood with h | h
      · cases h
      · exact h
    apply findWith_no_used_dup o b key recordLoc _ (hpr rfl hno)
    intro m M hM hx
    by_contra hu
    apply hno
    refine ⟨l, b, M, hl, List.get?_mem hM, ?_, hx⟩
    simp only [_KeyNode.isUsed]
    cases h : M.isUnused with
    | true => exact absurd h hu
    | false => rfl

/-- The descent of `bt_insert` from a page whose interval holds the new entry:
the call returns, with the same outcome for every fuel from a bound on; when it
returns 0 the tree is well formed and holds the new entry, and otherwise the
state is as it was; and it returns 0 when the entry is new and no duplicate
key stands in the way. -/
theorem bt_insert_descent (c : Layout) (hc : Layout.Sane c) (o : Ordering) (s : State)
    (key : BSONObj) (recordLoc : DiskLoc) (dups : Bool)
    (hrl : 0 ≤ recordLoc.a ∧ 2 ≤ recordLoc.ofs) (heven : recordLoc.ofs % 2 = 0)
    (hpos : 0 < key.objsize) (hle : key.objsize ≤ KeyMax c)
    (F0 : Nat) (pr : Except Err Unit)
    (hprobe : ∀ fuel, F0 ≤ fuel → dupProbe fuel s key o recordLoc () = pr)
    (hpr : dups = false → ¬ HasUsedKey o s key → pr = .ok ())
    (m : Nat) (hm : slack s + 2 ≤ (m : Int)) :
    ∀ (n : Nat) (g : Ghost) (l : DiskLoc) (b : BtreeBucket), Inv c o s g → s.pages l = some b →
      g.rank l ≤ n → g.lo l < ((entryKey o key recordLoc : EKey) : WithBot EKey) →
      ((entryKey o key recordLoc : EKey) : WithTop EKey) < g.hi l →
      ∃ res s1, (∀ fuel, F0 + m + 2 * n + 2 ≤ fuel → ∀ toplevel,
          bt_insert c o fuel s l recordLoc key dups toplevel = (res, s1)) ∧
        InsertOut c o s (entryKey o key recordLoc) res s1 ∧
        (entryKey o key recordLoc ∉ Content o s → (dups = true ∨ ¬ HasUsedKey o s key) →
          res = .ok 0) := by
  intro n
  induction n using Nat.strong_induction_on with
  | _ n ih =>
    intro g l b hinv hl hrank hlo hhi
    have hclr : recordLoc.clearLow = recordLoc := clearLow_of_even heven
    have hpage := hinv.page l b hl
    have hunf : ∀ fuel, F0 + m + 2 * n + 2 ≤ fuel → ∀ toplevel,
        bt_insert c o fuel s l recordLoc key dups toplevel =
        match findWith b key recordLoc o (!dups) (fun _ => pr) with
        | .error e => (.error e, s)
        | .ok (found, pos) =>
          if found then
            match b.keys.get? pos with
            | none => (.error .fault, s)
            | some kn =>
              if kn.isUnused then (.ok 0, s.put l { b with keys := b.keys.set pos kn.setUsed })
              else (.error .alreadyInIndex, s)
          else
            match b.childForPos pos with
            | none => (.error .fault, s)
            | some child =>
              if child.isNull then
                match insertHere c o (fuel - 2) s l pos recordLoc key DiskLoc.Null
                    DiskLoc.Null with
                | (.error e, s) => (.error e, s)
                | (.ok _, s) => (.ok 0, s)
              else bt_insert c o (fuel - 2) s child recordLoc key dups false := by
      intro fuel hf toplevel
      obtain ⟨f, rfl⟩ : ∃ f, fuel = f + 2 := ⟨fuel - 2, by omega⟩
      rw [bt_insert_unfold c o f s l recordLoc key dups toplevel hpos hle hl]
      simp only [find, dupProbe_fun (hprobe (f + 1) (by omega)), Nat.add_sub_cancel]
      try rfl
    have hgoodfind : (dups = true ∨ ¬ HasUsedKey o s key) →
        ∃ found pos, findWith b key recordLoc o (!dups) (fun _ => pr) = .ok (found, pos) := by
      intro hgood
      rw [findWith_good o hl key recordLoc dups pr hgood hpr]
      obtain ⟨found, pos, h1, _⟩ := findWith_false o b key recordLoc (fun _ => pr) hpage.sorted
      exact ⟨found, pos, h1⟩
    cases hR : findWith b key recordLoc o (!dups) (fun _ => pr) with
    | error err =>
      refine ⟨.error err, s, ?_, Or.inr ⟨by simp, rfl⟩, ?_⟩
      · intro fuel hf toplevel
        rw [hunf fuel hf toplevel, hR]
      · intro _ hgood
        obtain ⟨found, pos, h1⟩ := hgoodfind hgood
        rw [hR] at h1
        cases h1
    | ok fp =>
      obtain ⟨found, pos⟩ := fp
      have hspec := (findWith_spec o b key recordLoc (!dups) (fun _ => pr) hpage.sorted).1
        found pos hR
      cases found with
      | true =>
        simp only [FindSpec, if_true] at hspec
        obtain ⟨kn, hkn, hke⟩ := hspec
        cases hu : kn.isUnused with
        | true =>
          obtain ⟨hinv1, hcont⟩ := hinv.resurrect hl hkn hu
          refine ⟨.ok 0, s.put l { b with keys := b.keys.set pos kn.setUsed }, ?_,
            Or.inl ⟨rfl, ⟨g, hinv1⟩, by rw [hcont, hke]⟩, fun _ _ => rfl⟩
          intro fuel hf toplevel
          rw [hunf fuel hf toplevel, hR]
          simp only [if_true, hkn, hu]
        | false =>
          refine ⟨.error .alreadyInIndex, s, ?_, Or.inr ⟨by simp, rfl⟩, ?_⟩
          · intro fuel hf toplevel
            rw [hunf fuel hf toplevel, hR]
            simp only [if_true, hkn, hu, Bool.false_eq_true, if_false]
          · intro hnot _
            exfalso
            apply hnot
            rw [← hke]
            exact mem_content_of_used hl (List.get?_mem hkn) (by
              simp only [_KeyNode.isUsed, hu, Bool.not_false])
      | false =>
        simp only [FindSpec, Bool.false_eq_true, if_false] at hspec
        obtain ⟨hposle, hbef, haft⟩ := hspec
        have hcfp := childAt_eq_childForPos b pos hposle
        by_cases hnull : childAt b.keys b.nextChild pos = DiskLoc.Null
        · -- the entry goes to this page
          have hg0 : GInv c o (s.view (fun _ => none)) g ∅ := by
            rw [view_none]
            exact GInv.of_inv hinv
          obtain ⟨s1, g1, hrun, post⟩ := insertHere_spec c hc o m s (fun _ => none) g ∅ l b pos
            recordLoc key DiskLoc.Null DiskLoc.Null hg0
            (fun x t hx => by cases hx) (fun x t hx => by cases hx)
            (fun r hr => absurd hr (Set.not_mem_empty r)) hl
            { pos_le := hposle
              before := by
                intro k hk
                obtain ⟨i, hi, hki⟩ := mem_take_get? _ _ _ hk
                rw [hclr]
                exact hbef i k hi hki
              after := by
                intro k hk
                obtain ⟨i, hi, hki⟩ := mem_drop_get? _ _ _ hk
                rw [hclr]
                exact haft i k hi hki
              lo_lt := by rw [hclr]; exact hlo
              lt_hi := by rw [hclr]; exact hhi
              lchild_eq := hnull
              rnull := fun _ => rfl
              rfloat := fun h => absurd rfl h }
            hrl hpos hle (by rw [view_none]; exact hm)
          have hinv1 : Inv c o s1 g1 := by
            have := post.inv
            rw [view_none, Set.empty_diff] at this
            exact this.to_inv
          have hcont : Content o s1 = Content o s ∪ {entryKey o key recordLoc} := by
            have := post.content
            rw [view_none, view_none, usedEntry_of_used o (isUsed_of_even heven)] at this
            rw [this]
            show _ = Content o s ∪ {entryKey o key recordLoc}
            simp only [_KeyNode.ekey, hclr]
          refine ⟨.ok 0, s1, ?_, Or.inl ⟨rfl, ⟨g1, hinv1⟩, hcont⟩, fun _ _ => rfl⟩
          intro fuel hf toplevel
          rw [hunf fuel hf toplevel, hR]
          simp only [Bool.false_eq_true, if_false, hcfp, hnull]
          rw [hrun (fuel - 2) (by omega)]
          rfl
        · -- the descent goes on in the child
          obtain ⟨cb, hcb, _, hrk, _, _⟩ := hpage.child pos _ hcfp hnull
          have hinv1 := hinv.widen_child hl hcfp hnull
          have hn1 : 1 ≤ n := by omega
          obtain ⟨res, s1, hrun, hout, hsucc⟩ := ih (n - 1) (by omega)
            { g with lo := Function.update g.lo (childAt b.keys b.nextChild pos)
                       (lowerAt o b (g.lo l) pos),
                     hi := Function.update g.hi (childAt b.keys b.nextChild pos)
                       (upperAt o b (g.hi l) pos) }
            (childAt b.keys b.nextChild pos) cb hinv1 hcb
            (by
              show g.rank (childAt b.keys b.nextChild pos) ≤ n - 1
              omega)
            (by
              show Function.update g.lo _ _ _ < _
              rw [Function.update_same]
              cases pos with
              | zero => exact hlo
              | succ q =>
                obtain ⟨k, hk⟩ := get?_some_of_lt b.keys q (by omega)
                simp only [lowerAt, hk]
                exact WithBot.coe_lt_coe.mpr (hbef q k (Nat.lt_succ_self q) hk))
            (by
              show _ < Function.update g.hi _ _ _
              rw [Function.update_same]
              cases hk : b.keys.get? pos with
              | none =>
                simp only [upperAt, hk]
                exact hhi
              | some k =>
                simp only [upperAt, hk]
                exact WithTop.coe_lt_coe.mpr (haft pos k (le_refl _) hk))
          refine ⟨res, s1, ?_, hout, hsucc⟩
          intro fuel hf toplevel
          rw [hunf fuel hf toplevel, hR]
          have hnn : (childAt b.keys b.nextChild pos).isNull = false :=
            (DiskLoc.isNull_false_iff _).mpr hnull
          simp only [Bool.false_eq_true, if_false, hcfp, hnn]
          exact hrun (fuel - 2) (by omega) false

end BtreeBucket
end mongo
namespace mongo
namespace BtreeBucket

/-- The insertion `bt_insert` at the root of a well-formed tree, for a record
locator of a record: the call returns, with the same outcome for every fuel from
a bound on, and leaves a well-formed tree; when it returns 0 the tree holds the
new entry besides the entries it held, and otherwise the state is as it was;
and it returns 0 when the key has a size the tree accepts, the entry is new and
no duplicate key stands in the way. -/
theorem bt_insert_total (c : Layout) (hc : Layout.Sane c) (o : Ordering) (s : State)
    (hwf : WellFormed c o s) (key : BSONObj) (recordLoc : DiskLoc) (dups : Bool)
    (hrl : 0 ≤ recordLoc.a ∧ 2 ≤ recordLoc.ofs) (heven : recordLoc.ofs % 2 = 0) :
    ∃ F0 res s1, (∀ fuel, F0 ≤ fuel →
        bt_insert c o fuel s s.head recordLoc key dups true = (res, s1)) ∧
      WellFormed c o s1 ∧ InsertOut c o s (entryKey o key recordLoc) res s1 ∧
      (0 < key.objsize → key.objsize ≤ KeyMax c → entryKey o key recordLoc ∉ Content o s →
        (dups = true ∨ ¬ HasUsedKey o s key) → res = .ok 0) := by
  obtain ⟨g, hinv⟩ := hwf
  by_cases hbig : key.objsize > KeyMax c
  · refine ⟨0, .ok 3, s, ?_, ⟨g, hinv⟩, Or.inr ⟨by simp, rfl⟩, ?_⟩
    · intro fuel _
      unfold bt_insert
      simp only [hbig, and_self, if_true]
    · intro _ hle
      exact absurd hbig (not_lt.mpr hle)
  by_cases hpos : 0 < key.objsize
  swap
  · refine ⟨1, .error .assertion, s, ?_, ⟨g, hinv⟩, Or.inr ⟨by simp, rfl⟩, ?_⟩
    · intro fuel hf
      obtain ⟨f, rfl⟩ : ∃ f, fuel = f + 1 := ⟨fuel - 1, by omega⟩
      unfold bt_insert
      simp only [hbig, and_false, if_false]
      unfold _insert
      simp only [hbig, if_false, gt_iff_lt, hpos, not_false_eq_true, if_true]
    · intro h
      exact absurd h hpos
  have hle : key.objsize ≤ KeyMax c := not_lt.mp hbig
  -- the probe for a duplicate
  obtain ⟨F0, hno, hyes⟩ := dupProbe_spec hinv key
  have hpr : ∃ pr, (∀ fuel, F0 ≤ fuel → dupProbe fuel s key o recordLoc () = pr) ∧
      (¬ HasUsedKey o s key → pr = .ok ()) := by
    by_cases hh : HasUsedKey o s key
    · obtain ⟨l, b, u, _, _, _, _, hp⟩ := hyes hh
      exact ⟨_, fun fuel hf => hp fuel hf recordLoc, fun h => absurd hh h⟩
    · exact ⟨.ok (), fun fuel hf => hno hh fuel hf recordLoc, fun _ => rfl⟩
  obtain ⟨pr, hprobe, hprok⟩ := hpr
  obtain ⟨hb, hhb, _, _⟩ := hinv.head
  have hge := (GInv.of_inv hinv).slack_ge
  obtain ⟨m, hm⟩ : ∃ m : Nat, slack s + 2 ≤ (m : Int) := ⟨(slack s + 2).toNat, by omega⟩
  have hinv1 := hinv.widen_root
  obtain ⟨res, s1, hrun, hout, hsucc⟩ := bt_insert_descent c hc o s key recordLoc dups hrl heven
    hpos hle F0 pr hprobe (fun _ h => hprok h) m hm (g.rank s.head)
    { g with lo := Function.update g.lo s.head ⊥, hi := Function.update g.hi s.head ⊤ }
    s.head hb hinv1 hhb (le_refl _)
    (by
      show Function.update g.lo s.head ⊥ s.head < _
      rw [Function.update_same]
      exact WithBot.bot_lt_coe _)
    (by
      show _ < Function.update g.hi s.head ⊤ s.head
      rw [Function.update_same]
      exact WithTop.coe_lt_top _)
  refine ⟨F0 + m + 2 * g.rank s.head + 2, res, s1, fun fuel hf => hrun fuel hf true, ?_, hout,
    fun _ _ h1 h2 => hsucc h1 h2⟩
  rcases hout with ⟨_, hw, _⟩ | ⟨_, he⟩
  · exact hw
  · rw [he]
    exact ⟨g, hinv⟩

end BtreeBucket
end mongo
namespace mongo
namespace BtreeBucket

theorem findCompare_sign (o : Ordering) (key : BSONObj) (recordLoc : DiskLoc) (M : _KeyNode) :
    (findCompare o key recordLoc M < 0 ↔ entryKey o key recordLoc < M.ekey o) ∧
    (findCompare o key recordLoc M = 0 ↔ entryKey o key recordLoc = M.ekey o) ∧
    (0 < findCompare o key recordLoc M ↔ M.ekey o < entryKey o key recordLoc) :=
  find_comparison_sign o key recordLoc M

theorem ekey_eq_iff (o : Ordering) (key : BSONObj) (recordLoc : DiskLoc) (M : _KeyNode) :
    M.ekey o = entryKey o key recordLoc ↔
      key.woCompare M.key o = 0 ∧ M.recordLoc.clearLow = recordLoc := by
  have h := (findCompare_sign o key recordLoc M).2.1
  rw [eq_comm, ← h]
  unfold findCompare
  simp only
  by_cases hx : key.woCompare M.key o = 0
  · rw [if_pos hx, (DiskLoc.compare_sign _ _).2.1]
    constructor
    · intro h1; exact ⟨hx, h1.symm⟩
    · intro h1; exact h1.2.symm
  · rw [if_neg hx]
    constructor
    · intro h1; exact absurd h1 hx
    · intro h1; exact absurd h1.1 hx

theorem filter_length_of_split {α : Type} (P : α → Bool) :
    ∀ (ks : List α) (pos : Nat), pos ≤ ks.length →
      (∀ i k, i < pos → ks.get? i = some k → P k = true) →
      (∀ i k, pos ≤ i → ks.get? i = some k → P k = false) →
      (ks.filter P).length = pos
  | [], pos, hp, _, _ => by
    simp only [List.length_nil, Nat.le_zero] at hp
    subst hp
    rfl
  | x :: xs, 0, _, _, h2 => by
    have hx : P x = false := h2 0 x (le_refl _) rfl
    have := filter_length_of_split P xs 0 (Nat.zero_le _) (fun i k hi _ => absurd hi (Nat.not_lt_zero i))
      (fun i k _ hk => h2 (i + 1) k (Nat.zero_le _) hk)
    rw [List.filter_cons_of_neg (by simp [hx])]
    exact this
  | x :: xs, pos + 1, hp, h1, h2 => by
    have hx : P x = true := h1 0 x (Nat.succ_pos _) rfl
    have := filter_length_of_split P xs pos (Nat.le_of_succ_le_succ hp)
      (fun i k hi hk => h1 (i + 1) k (Nat.succ_lt_succ hi) hk)
      (fun i k hi hk => h2 (i + 1) k (Nat.succ_le_succ hi) hk)
    rw [List.filter_cons_of_pos hx, List.length_cons, this]

/-- C13: on a page whose slots ascend strictly, `find` without `assertIfDup`
returns, for every fuel and state; it reports `found` exactly when some slot has
a key that compares equal and a record locator that is `recordLoc` once the low
bit is masked out, and then `pos` is such a slot; otherwise `pos` is the number
of slots below `(key, recordLoc)`: the slots before `pos` are below it, the
slots from `pos` on are above it, and `pos` is at most `n`. -/
theorem find_spec_no_assert (o : Ordering) (b : BtreeBucket) (hs : SortedSlots o b.keys)
    (fuel : Nat) (s : State) (key : BSONObj) (recordLoc : DiskLoc) :
    ∃ found pos, find fuel s b key recordLoc o false = .ok (found, pos) ∧
      (found = true ↔ ∃ m M, b.keys.get? m = some M ∧ key.woCompare M.key o = 0 ∧
        M.recordLoc.clearLow = recordLoc) ∧
      (found = true → ∃ M, b.keys.get? pos = some M ∧ key.woCompare M.key o = 0 ∧
        M.recordLoc.clearLow = recordLoc) ∧
      (found = false → pos ≤ b.keys.length ∧
        (∀ i M, i < pos → b.keys.get? i = some M → 0 < findCompare o key recordLoc M) ∧
        (∀ i M, pos ≤ i → b.keys.get? i = some M → findCompare o key recordLoc M < 0) ∧
        (b.keys.filter (fun M => decide (0 < findCompare o key recordLoc M))).length = pos) := by
  obtain ⟨found, pos, hfind, hspec⟩ :=
    findWith_false o b key recordLoc (dupProbe fuel s key o recordLoc) hs
  refine ⟨found, pos, hfind, ?_⟩
  cases found with
  | true =>
    simp only [FindSpec, if_true] at hspec
    obtain ⟨M, hM, he⟩ := hspec
    have h1 := (ekey_eq_iff o key recordLoc M).mp he
    exact ⟨⟨fun _ => ⟨pos, M, hM, h1⟩, fun _ => rfl⟩, fun _ => ⟨M, hM, h1⟩,
      fun h => by cases h⟩
  | false =>
    simp only [FindSpec, Bool.false_eq_true, if_false] at hspec
    obtain ⟨hpos, hbef, haft⟩ := hspec
    have hb : ∀ i M, i < pos → b.keys.get? i = some M → 0 < findCompare o key recordLoc M :=
      fun i M hi hM => (findCompare_sign o key recordLoc M).2.2.mpr (hbef i M hi hM)
    have ha : ∀ i M, pos ≤ i → b.keys.get? i = some M → findCompare o key recordLoc M < 0 :=
      fun i M hi hM => (findCompare_sign o key recordLoc M).1.mpr (haft i M hi hM)
    refine ⟨⟨fun h => (by cases h), ?_⟩, fun h => (by cases h), fun _ => ⟨hpos, hb, ha, ?_⟩⟩
    · rintro ⟨m, M, hM, h1, h2⟩
      exfalso
      have he := (ekey_eq_iff o key recordLoc M).mpr ⟨h1, h2⟩
      by_cases hm : m < pos
      · exact absurd (hbef m M hm hM) (by rw [he]; exact lt_irrefl _)
      · exact absurd (haft m M (not_lt.mp hm) hM) (by rw [he]; exact lt_irrefl _)
    · apply filter_length_of_split _ b.keys pos hpos
      · intro i M hi hM
        exact decide_eq_true (hb i M hi hM)
      · intro i M hi hM
        exact decide_eq_false (not_lt.mpr (le_of_lt (ha i M hi hM)))

/-- A run of C13 on the page of `a_test`, whose slots 1 to 3 are unused: the
search for the key 9 at `(1,24)` finds the unused slot 2. -/
theorem find_spec_no_assert_witness :
    SortedSlots ascending aTestPage.keys ∧
    ∃ found pos, find 0 (emptyTree smallLayout) aTestPage (sampleKey 9 10) ⟨1, 24⟩ ascending
        false = .ok (found, pos) ∧
      (found = true ↔ ∃ m M, aTestPage.keys.get? m = some M ∧
        (sampleKey 9 10).woCompare M.key ascending = 0 ∧ M.recordLoc.clearLow = ⟨1, 24⟩) ∧
      (found = true → ∃ M, aTestPage.keys.get? pos = some M ∧
        (sampleKey 9 10).woCompare M.key ascending = 0 ∧ M.recordLoc.clearLow = ⟨1, 24⟩) ∧
      (found = false → pos ≤ aTestPage.keys.length ∧
        (∀ i M, i < pos → aTestPage.keys.get? i = some M →
          0 < findCompare ascending (sampleKey 9 10) ⟨1, 24⟩ M) ∧
        (∀ i M, pos ≤ i → aTestPage.keys.get? i = some M →
          findCompare ascending (sampleKey 9 10) ⟨1, 24⟩ M < 0) ∧
        (aTestPage.keys.filter (fun M =>
          decide (0 < findCompare ascending (sampleKey 9 10) ⟨1, 24⟩ M))).length = pos) :=
  ⟨ascendingSlots_sorted ascending aTestPage.keys (by decide),
    find_spec_no_assert ascending aTestPage
      (ascendingSlots_sorted ascending aTestPage.keys (by decide)) 0 (emptyTree smallLayout)
      (sampleKey 9 10) ⟨1, 24⟩⟩

end BtreeBucket
end mongo
namespace mongo
namespace BtreeBucket

/-! ## `exists` and `wouldCreateDup` -/

theorem recordLoc_eq_of_ekey {o : Ordering} {u v : _KeyNode} (h : u.ekey o = v.ekey o)
    (hu : u.isUsed = true) (hv : v.isUsed = true) : u.recordLoc = v.recordLoc := by
  have h1 := congrArg EKey.file h
  have h2 := congrArg EKey.ofs h
  simp only [_KeyNode.ekey, entryKey, DiskLoc.clearLow] at h1 h2
  simp only [_KeyNode.isUsed, _KeyNode.isUnused, Bool.not_eq_true', decide_eq_false_iff_not] at hu hv
  cases hur : u.recordLoc with
  | mk a1 o1 =>
    cases hvr : v.recordLoc with
    | mk a2 o2 =>
      rw [hur] at h1 h2 hu
      rw [hvr] at h1 h2 hv
      simp only at h1 h2 hu hv
      congr 1
      omega

/-- The two searches from the root that `find` consults stop at the same slot:
the least used slot at or after `(key, minDiskLoc)`, if there is one. A used
slot with an equal key has that least slot at or before it, with an equal
key. -/
theorem probe_first {c : Layout} {o : Ordering} {s : State} {g : Ghost} (h : Inv c o s g)
    (key : BSONObj) :
    ∃ (F0 : Nat) (fu : Option _KeyNode),
      (∀ fuel, F0 ≤ fuel → exists_ fuel s s.head key o =
        .ok (match fu with
             | none => false
             | some u => u.key.woEqual key)) ∧
      (∀ self fuel, F0 ≤ fuel → wouldCreateDup fuel s s.head key o self =
        .ok (match fu with
             | none => false
             | some u => if u.key.woEqual key then decide (u.recordLoc ≠ self) else false)) ∧
      (∀ u, fu = some u → u.isUsed = true ∧ ∃ l b, s.pages l = some b ∧ u ∈ b.keys) ∧
      (∀ l b M, s.pages l = some b → M ∈ b.keys → M.isUsed = true →
        key.woCompare M.key o = 0 →
        ∃ u, fu = some u ∧ u.ekey o ≤ M.ekey o ∧ key.woCompare u.key o = 0) := by
  obtain ⟨B, F0, hB, hBsorted, hBall, hex, hwd⟩ := probe_core h key (o := o)
  refine ⟨F0, firstUsed s B, hex, hwd, ?_, ?_⟩
  · intro u hfu
    obtain ⟨y, hy, hsy, hu⟩ := firstUsed_some B u hfu
    obtain ⟨b, hb, hmem, _⟩ := slotAt_mem hsy
    exact ⟨hu, y.1, b, hb, hmem⟩
  · intro l b u0 hl hmem0 hu0 hk0
    obtain ⟨i0, hi0⟩ := List.get?_of_mem hmem0
    have hin := hBall l b i0 u0 hl hi0 hk0
    obtain ⟨u, y, hy, hsy, hfu, hu, hle⟩ :=
      firstUsed_le B hBsorted (l, i0) u0 hin (by simp only [slotAt, hl]; exact hi0) hu0
    refine ⟨u, hfu, hle, ?_⟩
    rw [woCompare_eq_iff]
    have h1 := EKey.fields_le (hB y hy u hsy)
    have h2 := EKey.fields_le hle
    have h3 : (u0.ekey o).fields = normElems o 1 key.elems :=
      ((woCompare_eq_iff o key u0.key).mp hk0).symm
    rw [h3] at h2
    exact le_antisymm h1 h2

theorem woEqual_of_woCompare (o : Ordering) {key : BSONObj} {u : _KeyNode}
    (h : key.woCompare u.key o = 0) : u.key.woEqual key = true := by
  rw [woEqual_iff o]
  rw [woCompare_eq_zero_iff_elems] at h ⊢
  exact h.symm

theorem woCompare_of_woEqual (o : Ordering) {key : BSONObj} {u : _KeyNode}
    (h : u.key.woEqual key = true) : key.woCompare u.key o = 0 := by
  have := (woEqual_iff o u.key key).mp h
  rw [woCompare_eq_zero_iff_elems] at this ⊢
  exact this.symm

/-- C16: on a well-formed tree, `exists` called at the root returns, with the
same result for every fuel from a bound on, and the result is true exactly when
the tree has a used slot whose key compares equal to `key`. -/
theorem exists_iff_used_key (c : Layout) (o : Ordering) (s : State) (hwf : WellFormed c o s)
    (key : BSONObj) :
    ∃ F0 r, (∀ fuel, F0 ≤ fuel → exists_ fuel s s.head key o = .ok r) ∧
      (r = true ↔ ∃ l b u, s.pages l = some b ∧ u ∈ b.keys ∧ u.isUsed = true ∧
        key.woCompare u.key o = 0) := by
  obtain ⟨g, h⟩ := hwf
  obtain ⟨F0, fu, hex, _, hfu, hleast⟩ := probe_first h key (o := o)
  cases fu with
  | none =>
    refine ⟨F0, false, hex, ?_⟩
    constructor
    · intro hr
      cases hr
    · rintro ⟨l, b, M, hl, hm, hu, hk⟩
      obtain ⟨u, hf, _, _⟩ := hleast l b M hl hm hu hk
      cases hf
  | some u0 =>
    obtain ⟨hu0, l0, b0, hl0, hm0⟩ := hfu u0 rfl
    refine ⟨F0, u0.key.woEqual key, hex, ?_⟩
    constructor
    · intro hr
      exact ⟨l0, b0, u0, hl0, hm0, hu0, woCompare_of_woEqual o hr⟩
    · rintro ⟨l, b, M, hl, hm, hu, hk⟩
      obtain ⟨u, hf, _, hku⟩ := hleast l b M hl hm hu hk
      cases hf
      exact woEqual_of_woCompare o hku

/-- A run of C16 on the page of `a_test`, whose only used slot is slot 0. -/
theorem exists_iff_used_key_witness :
    WellFormed smallLayout ascending (singlePage smallLayout aTestPage) ∧
    ∃ F0 r, (∀ fuel, F0 ≤ fuel →
        exists_ fuel (singlePage smallLayout aTestPage) (singlePage smallLayout aTestPage).head
          (sampleKey 9 10) ascending = .ok r) ∧
      (r = true ↔ ∃ l b u, (singlePage smallLayout aTestPage).pages l = some b ∧ u ∈ b.keys ∧
        u.isUsed = true ∧ (sampleKey 9 10).woCompare u.key ascending = 0) :=
  ⟨wellFormed_singlePage _ _ _ (by decide) (by decide),
    exists_iff_used_key smallLayout ascending (singlePage smallLayout aTestPage)
      (wellFormed_singlePage _ _ _ (by decide) (by decide)) (sampleKey 9 10)⟩

/-- C17 (amended): on a well-formed tree, `wouldCreateDup` called at the root
returns, with the same result for every fuel from a bound on; the result is
true exactly when the least used entry with a key equal to `key` has a record
locator other than `self`; so, on a tree in which the used entries with a key
equal to `key` all have the same record locator, it is true exactly when the
tree has a used entry with an equal key and a record locator other than `self`.
The entry `(key, self)` itself is not complained about in such a tree. -/
theorem wouldCreateDup_first_used (c : Layout) (o : Ordering) (s : State)
    (hwf : WellFormed c o s) (key : BSONObj) (self : DiskLoc) :
    ∃ F0 r, (∀ fuel, F0 ≤ fuel → wouldCreateDup fuel s s.head key o self = .ok r) ∧
      (r = true ↔ ∃ l b u, s.pages l = some b ∧ u ∈ b.keys ∧ u.isUsed = true ∧
        key.woCompare u.key o = 0 ∧ u.recordLoc ≠ self ∧
        ∀ l1 b1 M, s.pages l1 = some b1 → M ∈ b1.keys → M.isUsed = true →
          key.woCompare M.key o = 0 → u.ekey o ≤ M.ekey o) ∧
      ((∀ l1 b1 M l2 b2 N, s.pages l1 = some b1 → M ∈ b1.keys → M.isUsed = true →
          key.woCompare M.key o = 0 → s.pages l2 = some b2 → N ∈ b2.keys → N.isUsed = true →
          key.woCompare N.key o = 0 → M.recordLoc = N.recordLoc) →
        (r = true ↔ ∃ l b u, s.pages l = some b ∧ u ∈ b.keys ∧ u.isUsed = true ∧
          key.woCompare u.key o = 0 ∧ u.recordLoc ≠ self)) := by
  obtain ⟨g, h⟩ := hwf
  obtain ⟨F0, fu, _, hwd, hfu, hleast⟩ := probe_first h key (o := o)
  have hweak : ∀ r : Bool, (r = true ↔ ∃ l b u, s.pages l = some b ∧ u ∈ b.keys ∧
        u.isUsed = true ∧ key.woCompare u.key o = 0 ∧ u.recordLoc ≠ self ∧
        ∀ l1 b1 M, s.pages l1 = some b1 → M ∈ b1.keys → M.isUsed = true →
          key.woCompare M.key o = 0 → u.ekey o ≤ M.ekey o) →
      (∀ l1 b1 M l2 b2 N, s.pages l1 = some b1 → M ∈ b1.keys → M.isUsed = true →
          key.woCompare M.key o = 0 → s.pages l2 = some b2 → N ∈ b2.keys → N.isUsed = true →
          key.woCompare N.key o = 0 → M.recordLoc = N.recordLoc) →
      (r = true ↔ ∃ l b u, s.pages l = some b ∧ u ∈ b.keys ∧ u.isUsed = true ∧
          key.woCompare u.key o = 0 ∧ u.recordLoc ≠ self) := by
    intro r hmain huniq
    rw [hmain]
    constructor
    · rintro ⟨l, b, u, hl, hm, hu, hk, hne, _⟩
      exact ⟨l, b, u, hl, hm, hu, hk, hne⟩
    · rintro ⟨l, b, u, hl, hm, hu, hk, hne⟩
      refine ⟨l, b, u, hl, hm, hu, hk, hne, ?_⟩
      intro l1 b1 M hl1 hm1 hu1 hk1
      have hrl := huniq l b u l1 b1 M hl hm hu hk hl1 hm1 hu1 hk1
      have hkk : normElems o 1 u.key.elems = normElems o 1 M.key.elems := by
        rw [← (woCompare_eq_iff o key u.key).mp hk, (woCompare_eq_iff o key M.key).mp hk1]
      apply le_of_eq
      simp only [_KeyNode.ekey, entryKey, hrl, hkk]
  cases fu with
  | none =>
    have hmain : ((false : Bool) = true ↔ ∃ l b u, s.pages l = some b ∧ u ∈ b.keys ∧
        u.isUsed = true ∧ key.woCompare u.key o = 0 ∧ u.recordLoc ≠ self ∧
        ∀ l1 b1 M, s.pages l1 = some b1 → M ∈ b1.keys → M.isUsed = true →
          key.woCompare M.key o = 0 → u.ekey o ≤ M.ekey o) := by
      constructor
      · intro hr
        cases hr
      · rintro ⟨l, b, u, hl, hm, hu, hk, _, _⟩
        obtain ⟨u1, hf1, _, _⟩ := hleast l b u hl hm hu hk
        cases hf1
    exact ⟨F0, false, hwd self, hmain, hweak false hmain⟩
  | some u0 =>
    obtain ⟨hu0, l0, b0, hl0, hm0⟩ := hfu u0 rfl
    have hmain : ((if u0.key.woEqual key then decide (u0.recordLoc ≠ self) else false) = true ↔
        ∃ l b u, s.pages l = some b ∧ u ∈ b.keys ∧
        u.isUsed = true ∧ key.woCompare u.key o = 0 ∧ u.recordLoc ≠ self ∧
        ∀ l1 b1 M, s.pages l1 = some b1 → M ∈ b1.keys → M.isUsed = true →
          key.woCompare M.key o = 0 → u.ekey o ≤ M.ekey o) := by
      constructor
      · intro hr
        by_cases hwe : u0.key.woEqual key = true
        · rw [if_pos hwe] at hr
          refine ⟨l0, b0, u0, hl0, hm0, hu0, woCompare_of_woEqual o hwe, of_decide_eq_true hr, ?_⟩
          intro l1 b1 M hl1 hm1 hu1 hk1
          obtain ⟨u1, hf1, hle, _⟩ := hleast l1 b1 M hl1 hm1 hu1 hk1
          cases hf1
          exact hle
        · rw [if_neg hwe] at hr
          cases hr
      · rintro ⟨l, b, u, hl, hm, hu, hk, hne, hmin⟩
        obtain ⟨u1, hf1, hle, hk1⟩ := hleast l b u hl hm hu hk
        cases hf1
        have heq : u0.ekey o = u.ekey o := le_antisymm hle (hmin l0 b0 u0 hl0 hm0 hu0 hk1)
        have hrl := recordLoc_eq_of_ekey heq hu0 hu
        rw [if_pos (woEqual_of_woCompare o hk1), hrl]
        exact decide_eq_true hne
    exact ⟨F0, _, hwd self, hmain, hweak _ hmain⟩

/-- A run of C17 (amended) on the page of `a_test`. -/
theorem wouldCreateDup_first_used_witness :
    WellFormed smallLayout ascending (singlePage smallLayout aTestPage) ∧
    ∃ F0 r, (∀ fuel, F0 ≤ fuel →
        wouldCreateDup fuel (singlePage smallLayout aTestPage)
          (singlePage smallLayout aTestPage).head (sampleKey 9 10) ascending ⟨1, 40⟩ = .ok r) ∧
      (r = true ↔ ∃ l b u, (singlePage smallLayout aTestPage).pages l = some b ∧ u ∈ b.keys ∧
        u.isUsed = true ∧ (sampleKey 9 10).woCompare u.key ascending = 0 ∧
        u.recordLoc ≠ ⟨1, 40⟩ ∧
        ∀ l1 b1 M, (singlePage smallLayout aTestPage).pages l1 = some b1 → M ∈ b1.keys →
          M.isUsed = true → (sampleKey 9 10).woCompare M.key ascending = 0 →
          u.ekey ascending ≤ M.ekey ascending) ∧
      ((∀ l1 b1 M l2 b2 N, (singlePage smallLayout aTestPage).pages l1 = some b1 →
          M ∈ b1.keys → M.isUsed = true → (sampleKey 9 10).woCompare M.key ascending = 0 →
          (singlePage smallLayout aTestPage).pages l2 = some b2 → N ∈ b2.keys →
          N.isUsed = true → (sampleKey 9 10).woCompare N.key ascending = 0 →
          M.recordLoc = N.recordLoc) →
        (r = true ↔ ∃ l b u, (singlePage smallLayout aTestPage).pages l = some b ∧
          u ∈ b.keys ∧ u.isUsed = true ∧ (sampleKey 9 10).woCompare u.key ascending = 0 ∧
          u.recordLoc ≠ ⟨1, 40⟩)) :=
  ⟨wellFormed_singlePage _ _ _ (by decide) (by decide),
    wouldCreateDup_first_used smallLayout ascending (singlePage smallLayout aTestPage)
      (wellFormed_singlePage _ _ _ (by decide) (by decide)) (sampleKey 9 10) ⟨1, 40⟩⟩

/-- C17 counterexample: the tree built by inserting the key 9 at `(1,10)` and
at `(1,20)` with duplicates allowed holds the used entry `(9, (1,20))`, whose
record locator differs from `self = (1,10)`, and `wouldCreateDup` returns
false. -/
theorem wouldCreateDup_counterexample :
    (∃ b u, twoDups.pages twoDups.head = some b ∧ b.keys.get? 1 = some u ∧
      u.isUsed = true ∧ u.key = sampleKey 9 10 ∧ u.recordLoc = ⟨1, 20⟩) ∧
    (⟨1, 20⟩ : DiskLoc) ≠ ⟨1, 10⟩ ∧
    wouldCreateDup 20 twoDups twoDups.head (sampleKey 9 10) ascending ⟨1, 10⟩ = .ok false :=
  ⟨⟨_, _, by rfl, by rfl, by rfl, by rfl, by rfl⟩, by decide, by rfl⟩

end BtreeBucket
end mongo
namespace mongo
namespace BtreeBuilder

/-- C20: with `dupsAllowed` false and at least one call of `addKey` made before,
`addKey` raises `DuplicateKey` when the last key compares equal to the new key
and raises the internal error 10288 when the new key compares below the last
key, and in both cases the pages are as they were; and after a call of `addKey`
that returned, the last key is the key of that call, so that the next call
raises in this way against it. -/
theorem addKey_order_errors (c : Layout) (o : Ordering) (bb : BtreeBuilder) (s : State)
    (key : BSONObj) (loc : DiskLoc) (hd : bb.dupsAllowed = false) :
    (0 < bb.n →
      (bb.keyLast.woCompare key o = 0 → addKey c o bb s key loc = (.error .dupKey, s)) ∧
      (0 < bb.keyLast.woCompare key o →
        addKey c o bb s key loc = (.error (.massert 10288), s))) ∧
    (∀ bb1 s1, addKey c o bb s key loc = (.ok bb1, s1) →
      bb1.dupsAllowed = false ∧ 0 < bb1.n ∧ bb1.keyLast = key ∧
      ∀ key2 loc2,
        (key.woCompare key2 o = 0 → addKey c o bb1 s1 key2 loc2 = (.error .dupKey, s1)) ∧
        (0 < key.woCompare key2 o →
          addKey c o bb1 s1 key2 loc2 = (.error (.massert 10288), s1))) := by
  have hgen : ∀ (bb : BtreeBuilder) (s : State) (key : BSONObj) (loc : DiskLoc),
      bb.dupsAllowed = false → 0 < bb.n →
      (bb.keyLast.woCompare key o = 0 → addKey c o bb s key loc = (.error .dupKey, s)) ∧
      (0 < bb.keyLast.woCompare key o →
        addKey c o bb s key loc = (.error (.massert 10288), s)) := by
    intro bb s key loc hd hn
    constructor
    · intro h0
      simp only [addKey, checkOrder, hd, Bool.false_eq_true, not_false_eq_true, if_true, hn,
        gt_iff_lt, h0, le_refl, not_true_eq_false, if_false]
    · intro hlt
      have : ¬ bb.keyLast.woCompare key o ≤ 0 := not_le.mpr hlt
      simp only [addKey, checkOrder, hd, Bool.false_eq_true, not_false_eq_true, if_true, hn,
        gt_iff_lt, this]
  refine ⟨fun hn => hgen bb s key loc hd hn, ?_⟩
  intro bb1 s1 hrun
  have hck : ∃ bb0, checkOrder o bb key = .ok bb0 ∧ bb0.dupsAllowed = false ∧
      bb0.keyLast = key ∧ addKey c o bb s key loc = (.ok bb1, s1) := by
    cases hc : checkOrder o bb key with
    | error e =>
      simp only [addKey, hc] at hrun
      cases hrun
    | ok bb0 =>
      refine ⟨bb0, rfl, ?_, ?_, hrun⟩
      · simp only [checkOrder, hd, Bool.false_eq_true, not_false_eq_true, if_true] at hc
        split at hc
        · split at hc
          · cases hc
          · split at hc
            · cases hc
            · cases hc
              rfl
        · cases hc
          rfl
      · simp only [checkOrder, hd, Bool.false_eq_true, not_false_eq_true, if_true] at hc
        split at hc
        · split at hc
          · cases hc
          · split at hc
            · cases hc
            · cases hc
              rfl
        · cases hc
          rfl
  obtain ⟨bb0, hc, hd0, hk0, _⟩ := hck
  have hres : bb1.dupsAllowed = false ∧ 0 < bb1.n ∧ bb1.keyLast = key := by
    simp only [addKey, hc] at hrun
    split at hrun
    · cases hrun
    · split at hrun
      · cases hrun
      · simp only [Prod.mk.injEq, Except.ok.injEq] at hrun
        rw [← hrun.1]
        exact ⟨hd0, Nat.succ_pos _, hk0⟩
      · split at hrun
        · simp only [Prod.mk.injEq, Except.ok.injEq] at hrun
          rw [← hrun.1]
          exact ⟨hd0, Nat.succ_pos _, hk0⟩
        · split at hrun
          · cases hrun
          · rename_i bb2 s2 hnb
            have hbb2 : bb2.dupsAllowed = false ∧ bb2.keyLast = key := by
              simp only [newBucket] at hnb
              split at hnb
              · cases hnb
              · simp only [Except.ok.injEq, Prod.mk.injEq] at hnb
                rw [← hnb.1]
                exact ⟨hd0, hk0⟩
            split at hrun
            · cases hrun
            · split at hrun
              · cases hrun
              · simp only [Prod.mk.injEq, Except.ok.injEq] at hrun
                rw [← hrun.1]
                exact ⟨hbb2.1, Nat.succ_pos _, hbb2.2⟩
  obtain ⟨h1, h2, h3⟩ := hres
  refine ⟨h1, h2, h3, fun key2 loc2 => ?_⟩
  have := hgen bb1 s1 key2 loc2 h1 h2
  rw [h3] at this
  exact this

/-- A run of C20: after the key 9 was added, a second `addKey` of the key 9
raises `DuplicateKey`. -/
theorem addKey_order_errors_witness :
    (create smallLayout false (emptyTree smallLayout)).1.dupsAllowed = false ∧
    ∃ bb1 s1, addKey smallLayout ascending (create smallLayout false (emptyTree smallLayout)).1
        (create smallLayout false (emptyTree smallLayout)).2 (sampleKey 9 10) ⟨1, 10⟩
        = (.ok bb1, s1) ∧
      addKey smallLayout ascending bb1 s1 (sampleKey 9 10) ⟨1, 20⟩ = (.error .dupKey, s1) ∧
      addKey smallLayout ascending bb1 s1 (sampleKey 8 10) ⟨1, 20⟩
        = (.error (.massert 10288), s1) :=
  ⟨rfl, _, _, rfl,
    (((addKey_order_errors smallLayout ascending
      (create smallLayout false (emptyTree smallLayout)).1
      (create smallLayout false (emptyTree smallLayout)).2 (sampleKey 9 10) ⟨1, 10⟩ rfl).2
        _ _ rfl).2.2.2 (sampleKey 9 10) ⟨1, 20⟩).1 (by decide),
    (((addKey_order_errors smallLayout ascending
      (create smallLayout false (emptyTree smallLayout)).1
      (create smallLayout false (emptyTree smallLayout)).2 (sampleKey 9 10) ⟨1, 10⟩ rfl).2
        _ _ rfl).2.2.2 (sampleKey 8 10) ⟨1, 20⟩).2 (by decide)⟩

/-- C19 (the code at the failing input): on a fresh builder with pages of 200
bytes, where `KeyMax` is 20, `addKey` of a key of 21 bytes does not skip the
key: `_pushBack` finds room for it, and the page of the builder then holds a
key larger than `KeyMax`. The size test of `addKey` is reached only when
`_pushBack` reports that there is no room. -/
theorem addKey_stores_oversized :
    KeyMax smallLayout = 20 ∧
    ∃ bb1 s1 b, addKey smallLayout ascending (create smallLayout true (emptyTree smallLayout)).1
        (create smallLayout true (emptyTree smallLayout)).2 (sampleKey 9 21) ⟨1, 10⟩
        = (.ok bb1, s1) ∧
      s1.pages bb1.cur = some b ∧ b.keys = [⟨DiskLoc.Null, ⟨1, 10⟩, sampleKey 9 21⟩] ∧
      (sampleKey 9 21).objsize > KeyMax smallLayout :=
  ⟨by decide, _, _, _, rfl, rfl, rfl, by decide⟩

end BtreeBuilder
end mongo
namespace mongo
namespace BtreeBucket

/-! ## Removing a slot from a page -/

theorem isNull_null : DiskLoc.Null.isNull = true := rfl

theorem take_drop_succ_sublist {α : Type} (ks : List α) (p : Nat) :
    (ks.take p ++ ks.drop (p + 1)).Sublist ks := by
  have h1 : (ks.drop (p + 1)).Sublist (ks.drop p) :=
    List.drop_sublist_drop_left ks (Nat.le_succ p)
  have h2 := List.Sublist.append_left h1 (ks.take p)
  rw [List.take_append_drop] at h2
  exact h2

theorem length_take_drop_succ {α : Type} (ks : List α) (p : Nat) (hp : p < ks.length) :
    (ks.take p ++ ks.drop (p + 1)).length + 1 = ks.length := by
  rw [List.length_append, List.length_take, List.length_drop]
  omega

theorem _delKeyAtPos_eq (c : Layout) (b : BtreeBucket) (p : Nat) (m : Bool) (k : _KeyNode)
    (hk : b.keys.get? p = some k) (hch : k.prevChildBucket = DiskLoc.Null)
    (hok : m = true ∨ 1 < b.keys.length ∨ b.nextChild = DiskLoc.Null) :
    _delKeyAtPos c b p m = .ok (eraseSlot c b p) := by
  have hp : p < b.keys.length := by
    rw [List.get?_eq_some] at hk
    exact hk.1
  have hcp : b.childForPos p = some DiskLoc.Null := by
    unfold childForPos
    rw [if_neg (Nat.ne_of_lt hp), hk]
    simp [hch]
  have hcond : (m = true ∧ b.n > 0) ∨ b.n > 1 ∨ b.nextChild.isNull = true := by
    rcases hok with h | h | h
    · left
      refine ⟨h, ?_⟩
      unfold n
      exact_mod_cast Nat.lt_of_le_of_lt (Nat.zero_le _) hp
    · right; left
      unfold n
      exact_mod_cast h
    · right; right
      rw [h]
      rfl
  have hmin : min p (b.keys.length - 1) = p := by
    apply Nat.min_eq_left
    omega
  unfold _delKeyAtPos
  rw [if_neg (not_not.mpr (Nat.le_of_lt hp)), hcp]
  simp only [isNull_null, not_true_eq_false, if_false]
  rw [if_neg (not_not.mpr hcond), if_neg (by omega), hmin]
  rfl

theorem PageSizes.eraseSlot {c : Layout} {b : BtreeBucket} (h : PageSizes c b) (p : Nat)
    (hp : p < b.keys.length) (hs : 0 ≤ c.slotSize) : PageSizes c (eraseSlot c b p) := by
  have hsub := take_drop_succ_sublist b.keys p
  have hlen := length_take_drop_succ b.keys p hp
  refine
    { accounting := ?_
      empty_nonneg := ?_
      bytes_le := ?_
      bytes_eq := ?_
      key_pos := fun k hk => h.key_pos k (hsub.subset hk)
      key_le := fun k hk => h.key_le k (hsub.subset hk) }
  · have ha := h.accounting
    unfold sizeAccounting n at ha ⊢
    show b.emptySize + c.slotSize + b.topSize +
      ((b.keys.take p ++ b.keys.drop (p + 1)).length : Int) * c.slotSize + c.headerSize
        = c.BucketSize
    have hl : (b.keys.length : Int) = ((b.keys.take p ++ b.keys.drop (p + 1)).length : Int) + 1 := by
      exact_mod_cast hlen.symm
    rw [hl] at ha
    linarith
  · show 0 ≤ b.emptySize + c.slotSize
    have := h.empty_nonneg
    linarith
  · show keyBytes (b.keys.take p ++ b.keys.drop (p + 1)) ≤ b.topSize
    exact le_trans (keyBytes_sublist hsub h.key_pos) h.bytes_le
  · intro hpk
    cases hpk

end BtreeBucket
end mongo
namespace mongo
namespace BtreeBucket

/-! ## Deleting the only key of a root without children -/

theorem findWith_nil (b : BtreeBucket) (key : BSONObj) (recordLoc : DiskLoc) (o : Ordering)
    (a : Bool) (probe : Unit → Except Err Unit) (hk : b.keys = []) :
    findWith b key recordLoc o a probe = .ok (false, 0) := by
  unfold findWith n
  rw [hk]
  rfl

/-- The insertion of a key into a root page that has no slot and no child: the
key becomes the only slot of that page. -/
theorem bt_insert_empty_root (c : Layout) (hc : Layout.Sane c) (o : Ordering) (s : State)
    (b : BtreeBucket) (hb : s.pages s.head = some b) (hk : b.keys = [])
    (hn : b.nextChild = DiskLoc.Null) (hsz : PageSizes c b)
    (key : BSONObj) (recordLoc : DiskLoc) (dups : Bool)
    (hpos : 0 < key.objsize) (hle : key.objsize ≤ KeyMax c) :
    ∃ b2, (∀ fuel, 3 ≤ fuel →
        bt_insert c o fuel s s.head recordLoc key dups true = (.ok 0, s.put s.head b2)) ∧
      b2.keys = [⟨DiskLoc.Null, recordLoc, key⟩] ∧ b2.nextChild = DiskLoc.Null ∧
      b2.parent = b.parent := by
  obtain ⟨b1, kp1, hpa, hsz1, hbi⟩ :=
    basicInsert_spec c hc b 0 recordLoc key hsz (Nat.zero_le _) hpos hle
  have hk1 : b1.keys = [] := by
    have := hpa.sub
    rw [hk] at this
    exact List.sublist_nil.mp this
  rcases hbi with ⟨b2, hrun, hk2, hp2, hn2, _, _, _, _⟩ | ⟨_, hlt, hpk⟩
  · rw [hk1] at hk2
    simp only [List.take_nil, List.drop_nil, List.nil_append] at hk2
    have hkp1 : kp1 = 0 := by
      have := hpa.len
      rw [hk1] at this
      exact Nat.le_zero.mp this
    have hn2b : b2.nextChild = DiskLoc.Null := by rw [hn2, hpa.nextChild, hn]
    obtain ⟨b3, hk3, hn3, hp3, _, _, _, hw, _⟩ := wireInserted_spec s b2 s.head 0 recordLoc key
      DiskLoc.Null DiskLoc.Null [] [] hk2 rfl (by rw [hn2b]; rfl)
    refine ⟨b3, ?_, by simpa [wireRight] using hk3, by simpa using hn3, ?_⟩
    · intro fuel hf
      obtain ⟨f, rfl⟩ : ∃ f, fuel = f + 3 := ⟨fuel - 3, by omega⟩
      rw [bt_insert_unfold c o (f + 1) s s.head recordLoc key dups true hpos hle hb]
      unfold find
      rw [findWith_nil b key recordLoc o _ _ hk]
      have hcp : b.childForPos 0 = some DiskLoc.Null := by
        unfold childForPos
        rw [hk, hn]
        rfl
      simp only [Bool.false_eq_true, if_false, hcp, isNull_null, if_true]
      rw [insertHere]
      simp only [hb, hrun, hkp1]
      rw [hw rfl]
    · rw [hp3, hp2, hpa.parent]
  · exfalso
    have ha := hsz1.accounting
    have ht := hsz1.bytes_eq hpk
    unfold sizeAccounting n at ha
    rw [hk1] at ha ht
    simp only [keyBytes, List.length_nil, Nat.cast_zero, zero_mul, add_zero] at ha ht
    have hroom := hc.room
    have hkm := keyMax_nonneg c hc
    have hsl := hc.slot_pos
    linarith

theorem smallLayout_sane : Layout.Sane smallLayout :=
  { slot_pos := by decide
    bucket_pos := by decide
    room := by decide }

/-- C12: in a well-formed tree whose root page holds exactly one key and has no
children, `delKeyAtPos` on that slot returns, leaves the head locator as it
was, keeps the root page mapped, now without a slot, and leaves every other
page as it was; and a following `bt_insert` of a key of an accepted size
returns 0 and puts the key into that same page, the head locator still being
the same. -/
theorem delete_only_key_keeps_root (c : Layout) (hc : Layout.Sane c) (o : Ordering) (s : State)
    (hwf : WellFormed c o s) (b : BtreeBucket) (k : _KeyNode)
    (hb : s.pages s.head = some b) (hk : b.keys = [k])
    (hl : k.prevChildBucket = DiskLoc.Null) (hn : b.nextChild = DiskLoc.Null) :
    ∃ s1 b1, (∀ fuel, delKeyAtPos c o fuel s s.head 0 = (.ok (), s1)) ∧
      s1.head = s.head ∧ s1.pages s.head = some b1 ∧ b1.keys = [] ∧
      (∀ x, x ≠ s.head → s1.pages x = s.pages x) ∧
      ∀ (key : BSONObj) (recordLoc : DiskLoc) (dups : Bool), 0 < key.objsize →
        key.objsize ≤ KeyMax c →
        ∃ s2 b2, (∀ fuel, 3 ≤ fuel →
            bt_insert c o fuel s1 s1.head recordLoc key dups true = (.ok 0, s2)) ∧
          s2.head = s.head ∧ s2.pages s.head = some b2 ∧
          b2.keys = [⟨DiskLoc.Null, recordLoc, key⟩] ∧
          (∀ x, x ≠ s.head → s2.pages x = s.pages x) := by
  obtain ⟨g, hinv⟩ := hwf
  obtain ⟨hb0, hhb, hpar, _⟩ := hinv.head
  rw [hb] at hhb
  cases hhb
  have hsz := hinv.sizes _ _ hb
  have hget : b.keys.get? 0 = some k := by rw [hk]; rfl
  have hdel := _delKeyAtPos_eq c b 0 false k hget hl (Or.inr (Or.inr hn))
  have hsz1 : PageSizes c (eraseSlot c b 0) :=
    hsz.eraseSlot 0 (by rw [hk]; exact Nat.zero_lt_one) (le_of_lt hc.slot_pos)
  have hk1 : (eraseSlot c b 0).keys = [] := by
    show b.keys.take 0 ++ b.keys.drop 1 = []
    rw [hk]
    rfl
  have hrun : ∀ fuel, delKeyAtPos c o fuel s s.head 0
      = (.ok (), s.put s.head (eraseSlot c b 0)) := by
    intro fuel
    have hcp : b.childForPos 0 = some DiskLoc.Null := by
      unfold childForPos
      rw [hk]
      simp [hl]
    have hn0 : b.n > 0 := by
      unfold n
      rw [hk]
      simp
    have hlen : b.keys.length = 1 := by rw [hk]; rfl
    unfold delKeyAtPos
    simp only [hb, hn0, not_true_eq_false, if_false, hcp, hlen, if_true, isNull_null, hn,
      and_self, hpar, hdel]
  refine ⟨s.put s.head (eraseSlot c b 0), eraseSlot c b 0, hrun, rfl,
    State.put_pages_same _ _ _, hk1, fun x hx => State.put_pages_ne _ _ hx, ?_⟩
  intro key recordLoc dups hpos hle
  obtain ⟨b2, hins, hk2, _, _⟩ := bt_insert_empty_root c hc o (s.put s.head (eraseSlot c b 0))
    (eraseSlot c b 0) (State.put_pages_same _ _ _) hk1 hn hsz1 key recordLoc dups hpos hle
  refine ⟨_, b2, hins, rfl, State.put_pages_same _ _ _, hk2, fun x hx => ?_⟩
  rw [State.put_head, State.put_pages_ne _ _ hx, State.put_pages_ne _ _ hx]

/-- A run of C12 on the tree with the key 9 at `(1,10)` as its only entry. -/
theorem delete_only_key_keeps_root_witness :
    ∃ s1 b1, (∀ fuel, delKeyAtPos smallLayout ascending fuel
        (singlePage smallLayout oneEntryPage) (singlePage smallLayout oneEntryPage).head 0
          = (.ok (), s1)) ∧
      s1.head = (singlePage smallLayout oneEntryPage).head ∧
      s1.pages (singlePage smallLayout oneEntryPage).head = some b1 ∧ b1.keys = [] ∧
      (∀ x, x ≠ (singlePage smallLayout oneEntryPage).head →
        s1.pages x = (singlePage smallLayout oneEntryPage).pages x) ∧
      ∀ (key : BSONObj) (recordLoc : DiskLoc) (dups : Bool), 0 < key.objsize →
        key.objsize ≤ KeyMax smallLayout →
        ∃ s2 b2, (∀ fuel, 3 ≤ fuel →
            bt_insert smallLayout ascending fuel s1 s1.head recordLoc key dups true
              = (.ok 0, s2)) ∧
          s2.head = (singlePage smallLayout oneEntryPage).head ∧
          s2.pages (singlePage smallLayout oneEntryPage).head = some b2 ∧
          b2.keys = [⟨DiskLoc.Null, recordLoc, key⟩] ∧
          (∀ x, x ≠ (singlePage smallLayout oneEntryPage).head →
            s2.pages x = (singlePage smallLayout oneEntryPage).pages x) :=
  delete_only_key_keeps_root smallLayout smallLayout_sane ascending
    (singlePage smallLayout oneEntryPage)
    (wellFormed_singlePage smallLayout ascending oneEntryPage (by decide) (by decide))
    oneEntryPage (leafSlot 9 10 10) (by simp [singlePage, State.put, emptyTree, addBucket])
    rfl rfl rfl

end BtreeBucket
end mongo
namespace mongo
namespace BtreeBucket

/-! ## The descent `locate` with a negative direction -/

theorem preList_zero (sub : DiskLoc → List (DiskLoc × Nat)) (l : DiskLoc) (b : BtreeBucket) :
    preList sub l b 0 = [] := rfl

theorem preList_getLast (sub : DiskLoc → List (DiskLoc × Nat)) (l : DiskLoc) (b : BtreeBucket)
    (p : Nat) (hp : p < b.keys.length) :
    (preList sub l b (p + 1)).getLast? = some (l, p) := by
  obtain ⟨k, hk⟩ := get?_some_of_lt b.keys p hp
  rw [preList_succ sub l b p k hk]
  simp

theorem getLast?_append_of_some {α : Type} (A B : List α) (z : α) (h : B.getLast? = some z) :
    (A ++ B).getLast? = some z := by
  cases B with
  | nil => cases h
  | cons x xs =>
    rw [List.getLast?_append]
    rw [h]
    rfl

theorem inorder_slot {c : Layout} {o : Ordering} {s : State} {g : Ghost} (h : Inv c o s g)
    {l : DiskLoc} {b : BtreeBucket} (hl : s.pages l = some b) {F : Nat} (hF : g.rank l < F)
    {x : DiskLoc × Nat} (hx : x ∈ inorder s F l) : ∃ k, slotAt s x = some k := by
  obtain ⟨k, hk, _⟩ := (inorder_sorted h (g.rank l) l b hl (le_refl _) F hF).1 x hx
  exact ⟨k, hk⟩

/-- The descent `locate` with a negative direction returns the position of the
target, or else the last position of the subtree before the target. -/
theorem locate_spec_bwd {c : Layout} {o : Ordering} {s : State} {g : Ghost} (h : Inv c o s g)
    (key : BSONObj) (recordLoc : DiskLoc) (direction : Int) (hd : direction < 0) :
    ∀ (r : Nat) (l : DiskLoc) (b : BtreeBucket), s.pages l = some b → g.rank l ≤ r →
      ∀ fuel F, r < fuel → r < F →
        ∃ res, locate s key o recordLoc direction fuel l = .ok res ∧
          LocateSpecBwd o s (entryKey o key recordLoc) (inorder s F l) res := by
  intro r
  induction r using Nat.strong_induction_on with
  | _ r ih =>
    intro l b hl hr fuel F hfuel hF
    cases fuel with
    | zero => omega
    | succ fuel =>
    cases F with
    | zero => omega
    | succ F =>
    have hpage := h.page l b hl
    obtain ⟨found, p, hfind, hspec⟩ :=
      findWith_false o b key recordLoc (fun _ => .ok ()) hpage.sorted
    rw [locate, hl]
    simp only [hfind]
    have hFr : g.rank l ≤ F := by omega
    cases found with
    | true =>
      simp only [FindSpec, if_true] at hspec
      obtain ⟨k, hk, hek⟩ := hspec
      have hplt := (List.get?_eq_some.mp hk).1
      refine ⟨_, rfl, ?_⟩
      have hc := childForPos_of_get? hk
      obtain ⟨ch1, hch1⟩ := childForPos_some_of_le b (p + 1) (by omega)
      refine ⟨preList (inorder s F) l b p ++ inorder s F k.prevChildBucket,
        postList (inorder s F) l b p, inorder_eq_split h hl F hc, ?_, ?_, ?_⟩
      · intro x hx kx hkx
        simp only [List.mem_append] at hx
        rcases hx with hx | hx
        · obtain ⟨i, k', kx', hi, hk', hkx', hle⟩ := preList_bound h hl hFr p (by omega) x hx
          rw [hkx] at hkx'; cases hkx'
          rw [← hek]
          exact lt_of_le_of_lt hle (hpage.sorted.get?_lt hi hk' hk)
        · obtain ⟨kx', hkx', _, h2⟩ := child_inorder_within h hl hFr hc x hx
          rw [hkx] at hkx'; cases hkx'
          simp only [upperAt, hk] at h2
          rw [← hek]; exact WithTop.coe_lt_coe.mp h2
      · intro x hx kx hkx
        obtain ⟨i, k', kx', hi, hk', hkx', hle⟩ :=
          postList_bound h hl hFr _ p (le_refl _) x hx
        rw [hkx] at hkx'; cases hkx'
        rw [← hek]
        refine le_trans ?_ hle
        by_cases hip : i = p
        · subst hip; rw [hk] at hk'; cases hk'; exact le_refl _
        · exact le_of_lt (hpage.sorted.get?_lt (by omega) hk hk')
      · left
        rw [postList_of_get? _ l b p k hk ch1 hch1]
        exact ⟨(l, p), k, rfl, by simp only [slotAt, hl]; exact hk, hek, rfl⟩
    | false =>
      simp only [FindSpec, Bool.false_eq_true, if_false] at hspec
      obtain ⟨hple, hbefore, hafter⟩ := hspec
      obtain ⟨child, hchild⟩ := childForPos_some_of_le b p hple
      simp only [hchild]
      have hpre : ∀ x ∈ preList (inorder s F) l b p, ∀ k, slotAt s x = some k →
          k.ekey o < entryKey o key recordLoc := by
        intro x hx kx hkx
        obtain ⟨i, k', kx', hi, hk', hkx', hle⟩ := preList_bound h hl hFr p hple x hx
        rw [hkx] at hkx'; cases hkx'
        exact lt_of_le_of_lt hle (hbefore i k' hi hk')
      have hpost : ∀ x ∈ postList (inorder s F) l b p, ∀ k, slotAt s x = some k →
          entryKey o key recordLoc < k.ekey o := by
        intro x hx kx hkx
        obtain ⟨i, k', kx', hi, hk', hkx', hle⟩ :=
          postList_bound h hl hFr _ p (le_refl _) x hx
        rw [hkx] at hkx'; cases hkx'
        exact lt_of_lt_of_le (hafter i k' hi hk') hle
      -- what is returned when the child has nothing before the target
      have hhere : ∀ B', (∀ x ∈ B', ∀ k, slotAt s x = some k →
            entryKey o key recordLoc < k.ekey o) → inorder s F child = B' →
          LocateSpecBwd o s (entryKey o key recordLoc) (inorder s (F + 1) l)
            (if (p : Int) - 1 = -1 then (DiskLoc.Null, (p : Int) - 1, false)
               else (l, (p : Int) - 1, false)) := by
        intro B' hB' hBeq
        refine ⟨preList (inorder s F) l b p, B' ++ postList (inorder s F) l b p, ?_, hpre, ?_,
          Or.inr ⟨?_, ?_, ?_⟩⟩
        · rw [← hBeq, ← List.append_assoc]; exact inorder_eq_split h hl F hchild
        · intro x hx kx hkx
          simp only [List.mem_append] at hx
          rcases hx with hx | hx
          · exact le_of_lt (hB' x hx kx hkx)
          · exact le_of_lt (hpost x hx kx hkx)
        · intro x hx kx hkx
          simp only [List.mem_append] at hx
          rcases hx with hx | hx
          · exact hB' x hx kx hkx
          · exact hpost x hx kx hkx
        · split <;> rfl
        · cases p with
          | zero =>
            rw [if_pos (by simp), preList_zero]
            exact rfl
          | succ q =>
            rw [if_neg (by push_cast; omega), preList_getLast _ l b q (by omega)]
            exact ⟨rfl, by push_cast; ring⟩
      by_cases hcn : child = DiskLoc.Null
      · have hisn : child.isNull = true := (DiskLoc.isNull_iff child).mpr hcn
        simp only [hisn, not_true_eq_false, if_false, hd, if_true]
        refine ⟨_, ?_, hhere [] (by simp) (by rw [hcn, inorder_null])⟩
        split <;> rfl
      · have hisn : child.isNull = false := (DiskLoc.isNull_false_iff child).mpr hcn
        simp only [hisn, Bool.false_eq_true, not_false_eq_true, if_true]
        obtain ⟨cb, hcb, _, hrk, _⟩ := hpage.child p child hchild hcn
        obtain ⟨resc, hresc, A', B', hsplit, hA', hB', hmatch⟩ :=
          ih (g.rank child) (by omega) child cb hcb (le_refl _) fuel F (by omega) (by omega)
        rw [hresc]
        obtain ⟨rl, rpos, rfound⟩ := resc
        simp only
        have hslot : ∀ x ∈ inorder s F child, ∃ k, slotAt s x = some k :=
          fun x hx => inorder_slot h hcb (by omega) hx
        rcases hmatch with ⟨z, kz, hz, hkz, hez, hres⟩ | ⟨hBlt, hnf, hat⟩
        · -- found in the child
          have hzn : z.1 ≠ DiskLoc.Null := slotAt_page_ne_null h hkz
          have hrl1 : rl = z.1 := (Prod.mk.inj hres).1
          have hrl : rl.isNull = false := (DiskLoc.isNull_false_iff rl).mpr (hrl1 ▸ hzn)
          simp only [hrl, Bool.false_eq_true, not_false_eq_true, if_true]
          refine ⟨_, rfl, preList (inorder s F) l b p ++ A',
            B' ++ postList (inorder s F) l b p, ?_, ?_, ?_, Or.inl ⟨z, kz, ?_, hkz, hez, hres⟩⟩
          · rw [inorder_eq_split h hl F hchild, hsplit]
            simp
          · intro x hx kx hkx
            simp only [List.mem_append] at hx
            rcases hx with hx | hx
            · exact hpre x hx kx hkx
            · exact hA' x hx kx hkx
          · intro x hx kx hkx
            simp only [List.mem_append] at hx
            rcases hx with hx | hx
            · exact hB' x hx kx hkx
            · exact le_of_lt (hpost x hx kx hkx)
          · cases B' with
            | nil => cases hz
            | cons y ys => exact hz
        · cases hgl : A'.getLast? with
          | none =>
            rw [hgl] at hat
            have hA0 : A' = [] := List.getLast?_eq_none_iff.mp hgl
            have hrl : rl.isNull = true := (DiskLoc.isNull_iff rl).mpr hat
            simp only [hrl, not_true_eq_false, if_false, hd, if_true]
            refine ⟨_, ?_, hhere B' hBlt (by rw [hsplit, hA0]; rfl)⟩
            split <;> rfl
          | some z =>
            rw [hgl] at hat
            have hzA : z ∈ A' := List.mem_of_mem_getLast? hgl
            obtain ⟨kz, hkz⟩ := hslot z (by rw [hsplit]; exact List.mem_append_left _ hzA)
            have hzn : z.1 ≠ DiskLoc.Null := slotAt_page_ne_null h hkz
            have hrl1 : rl = z.1 := hat.1
            have hrl : rl.isNull = false := (DiskLoc.isNull_false_iff rl).mpr (hrl1 ▸ hzn)
            simp only [hrl, Bool.false_eq_true, not_false_eq_true, if_true]
            refine ⟨_, rfl, preList (inorder s F) l b p ++ A',
              B' ++ postList (inorder s F) l b p, ?_, ?_, ?_, Or.inr ⟨?_, hnf, ?_⟩⟩
            · rw [inorder_eq_split h hl F hchild, hsplit]
              simp
            · intro x hx kx hkx
              simp only [List.mem_append] at hx
              rcases hx with hx | hx
              · exact hpre x hx kx hkx
              · exact hA' x hx kx hkx
            · intro x hx kx hkx
              simp only [List.mem_append] at hx
              rcases hx with hx | hx
              · exact hB' x hx kx hkx
              · exact le_of_lt (hpost x hx kx hkx)
            · intro x hx kx hkx
              simp only [List.mem_append] at hx
              rcases hx with hx | hx
              · exact hBlt x hx kx hkx
              · exact hpost x hx kx hkx
            · rw [getLast?_append_of_some _ _ z hgl]
              exact hat

end BtreeBucket
end mongo
namespace mongo
namespace BtreeBucket

/-! ## The descent `locate` from the root -/

theorem locate_fuel_succ (s : State) (key : BSONObj) (o : Ordering) (recordLoc : DiskLoc)
    (direction : Int) :
    ∀ (fuel : Nat) (l : DiskLoc) (res : DiskLoc × Int × Bool),
      locate s key o recordLoc direction fuel l = .ok res →
      locate s key o recordLoc direction (fuel + 1) l = .ok res := by
  intro fuel
  induction fuel with
  | zero =>
    intro l res h
    rw [locate] at h
    cases h
  | succ fuel ih =>
    intro l res h
    rw [locate] at h ⊢
    cases hp : s.pages l with
    | none => rw [hp] at h; exact h
    | some b =>
      rw [hp] at h
      simp only at h ⊢
      cases hf : findWith b key recordLoc o false (fun _ => .ok ()) with
      | error e => rw [hf] at h; exact h
      | ok fp =>
        obtain ⟨found, p⟩ := fp
        rw [hf] at h
        cases found with
        | true => exact h
        | false =>
          simp only at h ⊢
          cases hc : b.childForPos p with
          | none => rw [hc] at h; exact h
          | some child =>
            rw [hc] at h
            simp only at h ⊢
            cases hn : child.isNull with
            | true =>
              rw [hn] at h
              exact h
            | false =>
              rw [hn] at h
              simp only [Bool.false_eq_true, not_false_eq_true, if_true] at h ⊢
              cases hr : locate s key o recordLoc direction fuel child with
              | error e =>
                rw [hr] at h
                cases h
              | ok r =>
                rw [ih child r hr]
                rw [hr] at h
                exact h

theorem locate_fuel_le (s : State) (key : BSONObj) (o : Ordering) (recordLoc : DiskLoc)
    (direction : Int) (fuel fuel1 : Nat) (hle : fuel ≤ fuel1) (l : DiskLoc)
    (res : DiskLoc × Int × Bool) (h : locate s key o recordLoc direction fuel l = .ok res) :
    locate s key o recordLoc direction fuel1 l = .ok res := by
  induction hle with
  | refl => exact h
  | step _ ih => exact locate_fuel_succ s key o recordLoc direction _ l res ih


theorem slotAt_mem_inorder {c : Layout} {o : Ordering} {s : State} {g : Ghost}
    (h : Inv c o s g) {x : DiskLoc × Nat} {k : _KeyNode} (hk : slotAt s x = some k)
    {F : Nat} (hF : g.rank s.head < F) : x ∈ inorder s F s.head := by
  obtain ⟨l, i⟩ := x
  unfold slotAt at hk
  simp only at hk
  cases hp : s.pages l with
  | none => rw [hp] at hk; cases hk
  | some b =>
    rw [hp] at hk
    simp only at hk
    obtain ⟨hb, hhb, _⟩ := h.head
    exact mem_inorder_of_below h (h.reachable hp) hb b hhb hp F hF i
      (List.get?_eq_some.mp hk).1

/-- C14: on a well-formed tree, `locate` called on the root returns, for every
fuel above the rank of the root, a result `res` that is described by the
in-order list `L` of the slots of the tree (`L` holds every slot, in strictly
ascending order) and its split into the positions `A` before the target and the
positions `B` at or after it: `found` is true exactly when the tree has a slot
at the target `(key, recordLoc)`, and then `res` is the page and position of
that slot; otherwise `res` is, for a direction that is not negative, the page
and position of the first slot after the target, and for a negative direction
those of the last slot before the target, or the null locator when there is no
such slot. -/
theorem locate_root (c : Layout) (o : Ordering) (s : State) (hwf : WellFormed c o s)
    (key : BSONObj) (recordLoc : DiskLoc) (direction : Int) :
    ∃ N L A B res,
      (∀ fuel, N < fuel → locate s key o recordLoc direction fuel s.head = .ok res) ∧
      (∀ F, N < F → inorder s F s.head = L) ∧
      L.Pairwise (PosLt o s) ∧
      (∀ l b i, s.pages l = some b → i < b.keys.length → (l, i) ∈ L) ∧
      L = A ++ B ∧
      (∀ x ∈ A, ∃ k, slotAt s x = some k ∧ k.ekey o < entryKey o key recordLoc) ∧
      (∀ x ∈ B, ∃ k, slotAt s x = some k ∧ entryKey o key recordLoc ≤ k.ekey o) ∧
      ((∃ x k, slotAt s x = some k ∧ k.ekey o = entryKey o key recordLoc) ↔ res.2.2 = true) ∧
      LocateOut o s (entryKey o key recordLoc) direction A B res := by
  obtain ⟨g, h⟩ := hwf
  obtain ⟨hb, hhb, _⟩ := h.head
  have hfuelL : ∀ F, g.rank s.head < F → inorder s F s.head = inorder s (g.rank s.head + 1) s.head :=
    fun F hF => inorder_fuel h (g.rank s.head) s.head hb hhb (le_refl _) F _ hF (Nat.lt_succ_self _)
  obtain ⟨hwithin, hsorted⟩ :=
    inorder_sorted h (g.rank s.head) s.head hb hhb (le_refl _) (g.rank s.head + 1)
      (Nat.lt_succ_self _)
  have hslot : ∀ x ∈ inorder s (g.rank s.head + 1) s.head, ∃ k, slotAt s x = some k :=
    fun x hx => (hwithin x hx).imp fun k hk => hk.1
  have hall : ∀ l b i, s.pages l = some b → i < b.keys.length →
      (l, i) ∈ inorder s (g.rank s.head + 1) s.head := fun l b i hl hi =>
    mem_inorder_of_below h (h.reachable hl) hb b hhb hl _ (Nat.lt_succ_self _) i hi
  -- the common part, from a split of the list and the description of the result
  have hfinish : ∀ (A B : List (DiskLoc × Nat)) (res : DiskLoc × Int × Bool),
      inorder s (g.rank s.head + 1) s.head = A ++ B →
      (∀ x ∈ A, ∀ k, slotAt s x = some k → k.ekey o < entryKey o key recordLoc) →
      (∀ x ∈ B, ∀ k, slotAt s x = some k → entryKey o key recordLoc ≤ k.ekey o) →
      (∀ fuel, g.rank s.head < fuel →
        locate s key o recordLoc direction fuel s.head = .ok res) →
      LocateOut o s (entryKey o key recordLoc) direction A B res →
      ∃ N L A B res,
        (∀ fuel, N < fuel → locate s key o recordLoc direction fuel s.head = .ok res) ∧
        (∀ F, N < F → inorder s F s.head = L) ∧
        L.Pairwise (PosLt o s) ∧
        (∀ l b i, s.pages l = some b → i < b.keys.length → (l, i) ∈ L) ∧
        L = A ++ B ∧
        (∀ x ∈ A, ∃ k, slotAt s x = some k ∧ k.ekey o < entryKey o key recordLoc) ∧
        (∀ x ∈ B, ∃ k, slotAt s x = some k ∧ entryKey o key recordLoc ≤ k.ekey o) ∧
        ((∃ x k, slotAt s x = some k ∧ k.ekey o = entryKey o key recordLoc) ↔
          res.2.2 = true) ∧
        LocateOut o s (entryKey o key recordLoc) direction A B res := by
    intro A B res hsplit hA hB hrun hout
    refine ⟨g.rank s.head, _, A, B, res, hrun, hfuelL, hsorted, hall, hsplit, ?_, ?_, ?_, hout⟩
    · intro x hx
      obtain ⟨k, hk⟩ := hslot x (by rw [hsplit]; exact List.mem_append_left _ hx)
      exact ⟨k, hk, hA x hx k hk⟩
    · intro x hx
      obtain ⟨k, hk⟩ := hslot x (by rw [hsplit]; exact List.mem_append_right _ hx)
      exact ⟨k, hk, hB x hx k hk⟩
    · constructor
      · rintro ⟨x, k, hk, he⟩
        have hx : x ∈ A ++ B := by
          rw [← hsplit]
          exact slotAt_mem_inorder h hk (Nat.lt_succ_self _)
        rcases hout with ⟨z, kz, _, _, _, hres⟩ | ⟨hlt, _, _⟩
        · rw [hres]
        · exfalso
          rcases List.mem_append.mp hx with hx | hx
          · exact absurd (he ▸ hA x hx k hk) (lt_irrefl _)
          · exact absurd (he ▸ hlt x hx k hk) (lt_irrefl _)
      · intro hf
        rcases hout with ⟨z, kz, _, hkz, hez, _⟩ | ⟨_, hnf, _⟩
        · exact ⟨z, kz, hkz, hez⟩
        · rw [hnf] at hf
          cases hf
  by_cases hd : direction < 0
  · obtain ⟨res, hres, A, B, hsplit, hA, hB, hm⟩ :=
      locate_spec_bwd h key recordLoc direction hd (g.rank s.head) s.head hb hhb (le_refl _)
        (g.rank s.head + 1) (g.rank s.head + 1) (Nat.lt_succ_self _) (Nat.lt_succ_self _)
    refine hfinish A B res hsplit hA hB
      (fun fuel hf => locate_fuel_le s key o recordLoc direction _ fuel hf _ _ hres) ?_
    unfold LocateOut
    rw [if_pos hd]
    exact hm
  · obtain ⟨res, hres, A, B, hsplit, hA, hB, hm⟩ :=
      locate_spec h key recordLoc direction hd (g.rank s.head) s.head hb hhb (le_refl _)
        (g.rank s.head + 1) (g.rank s.head + 1) (Nat.lt_succ_self _) (Nat.lt_succ_self _)
    refine hfinish A B res hsplit hA hB
      (fun fuel hf => locate_fuel_le s key o recordLoc direction _ fuel hf _ _ hres) ?_
    unfold LocateOut
    rw [if_neg hd]
    cases B with
    | nil =>
      simp only at hm
      exact Or.inr ⟨fun x hx => absurd hx (List.not_mem_nil x), hm.2, hm.1⟩
    | cons z B1 =>
      simp only at hm
      obtain ⟨h1, h2, kz, hkz, hfz⟩ := hm
      by_cases he : kz.ekey o = entryKey o key recordLoc
      · left
        refine ⟨z, kz, rfl, hkz, he, ?_⟩
        have h3 : res.2.2 = true := hfz.mpr he
        obtain ⟨r1, r2, r3⟩ := res
        simp only at h1 h2 h3
        rw [h1, h2, h3]
      · right
        have hs2 : (z :: B1).Pairwise (PosLt o s) := by
          rw [hsplit] at hsorted
          exact (List.pairwise_append.mp hsorted).2.1
        have hzlt : entryKey o key recordLoc < kz.ekey o :=
          lt_of_le_of_ne (hB z (List.mem_cons_self _ _) kz hkz) (Ne.symm he)
        refine ⟨?_, ?_, ⟨h1, h2⟩⟩
        · intro x hx k hk
          rcases List.mem_cons.mp hx with rfl | hx
          · rw [hkz] at hk
            cases hk
            exact hzlt
          · exact lt_trans hzlt ((List.pairwise_cons.mp hs2).1 x hx kz k hkz hk)
        · cases hr : res.2.2 with
          | false => rfl
          | true => exact absurd (hfz.mp hr) he

/-- A run of C14 on the tree with the key 9 at `(1,10)` as its only entry, for
the target key 9 at `(1,20)` and the direction -1. -/
theorem locate_root_witness :
    ∃ N L A B res,
      (∀ fuel, N < fuel → locate (singlePage smallLayout oneEntryPage) (sampleKey 9 10)
        ascending ⟨1, 20⟩ (-1) fuel (singlePage smallLayout oneEntryPage).head = .ok res) ∧
      (∀ F, N < F → inorder (singlePage smallLayout oneEntryPage) F
        (singlePage smallLayout oneEntryPage).head = L) ∧
      L.Pairwise (PosLt ascending (singlePage smallLayout oneEntryPage)) ∧
      (∀ l b i, (singlePage smallLayout oneEntryPage).pages l = some b → i < b.keys.length →
        (l, i) ∈ L) ∧
      L = A ++ B ∧
      (∀ x ∈ A, ∃ k, slotAt (singlePage smallLayout oneEntryPage) x = some k ∧
        k.ekey ascending < entryKey ascending (sampleKey 9 10) ⟨1, 20⟩) ∧
      (∀ x ∈ B, ∃ k, slotAt (singlePage smallLayout oneEntryPage) x = some k ∧
        entryKey ascending (sampleKey 9 10) ⟨1, 20⟩ ≤ k.ekey ascending) ∧
      ((∃ x k, slotAt (singlePage smallLayout oneEntryPage) x = some k ∧
          k.ekey ascending = entryKey ascending (sampleKey 9 10) ⟨1, 20⟩) ↔ res.2.2 = true) ∧
      LocateOut ascending (singlePage smallLayout oneEntryPage)
        (entryKey ascending (sampleKey 9 10) ⟨1, 20⟩) (-1) A B res :=
  locate_root smallLayout ascending (singlePage smallLayout oneEntryPage)
    (wellFormed_singlePage smallLayout ascending oneEntryPage (by decide) (by decide))
    (sampleKey 9 10) ⟨1, 20⟩ (-1)

end BtreeBucket
end mongo
namespace mongo
namespace BtreeBucket

/-! ## The backward walk -/

/-- Every mapped page has an exit for the backward walk. -/
theorem exitBwd_exists {c : Layout} {o : Ordering} {s : State} {g : Ghost} (h : Inv c o s g) :
    ∀ (d : Nat) (l : DiskLoc) (b : BtreeBucket), s.pages l = some b →
      g.rank s.head - g.rank l ≤ d → ∃ e, ExitBwd s l e := by
  intro d
  induction d with
  | zero =>
    intro l b hl hd
    by_cases hh : l = s.head
    · obtain ⟨hb, hhb, hpar, _⟩ := h.head
      subst hh; rw [hl] at hhb; cases hhb
      exact ⟨none, ExitBwd.root _ b hl hpar⟩
    · obtain ⟨_, pb, p, hpb, hp⟩ := h.link l b hl hh
      obtain ⟨cb, hcb, _, hrk, _⟩ := (h.page _ pb hpb).child p l hp (h.ne_null_of_mapped hl)
      have := h.rank_le _ pb hpb
      omega
  | succ d ih =>
    intro l b hl hd
    by_cases hh : l = s.head
    · obtain ⟨hb, hhb, hpar, _⟩ := h.head
      subst hh; rw [hl] at hhb; cases hhb
      exact ⟨none, ExitBwd.root _ b hl hpar⟩
    · obtain ⟨_, pb, p, hpb, hp⟩ := h.link l b hl hh
      obtain ⟨cb, hcb, _, hrk, _⟩ := (h.page _ pb hpb).child p l hp (h.ne_null_of_mapped hl)
      cases p with
      | zero =>
        obtain ⟨e, he⟩ := ih b.parent pb hpb (by omega)
        exact ⟨e, ExitBwd.up l b pb e hl hpb hp he⟩
      | succ q =>
        have := childForPos_eq_some_le hp
        exact ⟨_, ExitBwd.slot l b pb q hl hpb hp (by omega)⟩

/-- The ascent loop of `advance` in the backward direction arrives at the exit
of the page it starts from. -/
theorem advanceUp_bwd {c : Layout} {o : Ordering} {s : State} {g : Ghost} (h : Inv c o s g)
    {l : DiskLoc} {e : Option (DiskLoc × Nat)} (he : ExitBwd s l e) :
    ∀ (b : BtreeBucket), s.pages l = some b → ∀ (keyOfs : Int) (F : Nat),
      g.rank s.head < F + g.rank l →
      advanceUp s (-1) 1 keyOfs F l b.parent = .ok (exitResult keyOfs e) := by
  induction he with
  | root l b' hl' hpar =>
    intro b hl keyOfs F hF
    rw [hl'] at hl; cases hl
    have := h.rank_le l b' hl'
    cases F with
    | zero => omega
    | succ F => rw [advanceUp, hpar]; simp [DiskLoc.isNull, exitResult]
  | slot l b' pb i hl' hpb hc hi =>
    intro b hl keyOfs F hF
    rw [hl'] at hl; cases hl
    have := h.rank_le l b' hl'
    cases F with
    | zero => omega
    | succ F =>
      have hpn : b'.parent.isNull = false :=
        (DiskLoc.isNull_false_iff _).mpr (h.ne_null_of_mapped hpb)
      rw [advanceUp, hpn]
      simp only [Bool.false_eq_true, if_false, hpb]
      rw [findChildLink_some (h.page _ pb hpb) 1 l (h.ne_null_of_mapped hl') i hi hc]
      rfl
  | up l b' pb e hl' hpb hc0 _ ih =>
    intro b hl keyOfs F hF
    rw [hl'] at hl; cases hl
    have := h.rank_le l b' hl'
    cases F with
    | zero => omega
    | succ F =>
      have hpn : b'.parent.isNull = false :=
        (DiskLoc.isNull_false_iff _).mpr (h.ne_null_of_mapped hpb)
      obtain ⟨cb, hcb, _, hrk, _⟩ :=
        (h.page _ pb hpb).child _ l hc0 (h.ne_null_of_mapped hl')
      rw [advanceUp, hpn]
      simp only [Bool.false_eq_true, if_false, hpb]
      rw [findChildLink_none (h.page _ pb hpb) 1 l (h.ne_null_of_mapped hl') _ hc0
        (fun i hi => by omega)]
      have hneg : ((-1 : Int) < 0) := by omega
      simp only [hneg, true_or, not_true_eq_false, if_false]
      exact ih pb hpb keyOfs F (by omega)

/-- The backward step of `advance` from the slot `i` of a page, by cases on the
child to the left of the slot. -/
theorem advance_bwd_cases {s : State} {l : DiskLoc} {b : BtreeBucket} (hl : s.pages l = some b)
    {i : Nat} (hi : i < b.keys.length) {ch : DiskLoc} (hc : b.childForPos i = some ch)
    (F : Nat) :
    advance F s l (i : Int) (-1) =
      if ch.isNull then
        if 0 < i then .ok (l, ((i - 1 : Nat) : Int))
        else advanceUp s (-1) 1 (i : Int) F l b.parent
      else advanceDown s (-1) 1 F ch := by
  unfold advance
  simp only [hl]
  have h1 : ¬ ((i : Int) < 0 ∨ (i : Int) ≥ b.n) := by simp only [n]; omega
  rw [if_neg h1]
  have h2 : ((-1 : Int) < 0) := by omega
  simp only [h2, if_true]
  have h3 : b.childForPosI ((i : Int) + -1 + ((1 : Nat) : Int)) = some ch := by
    unfold childForPosI
    rw [if_neg (by omega)]
    have : ((i : Int) + -1 + ((1 : Nat) : Int)).toNat = i := by omega
    rw [this, hc]
  rw [h3]
  simp only
  by_cases hn : ch.isNull = true
  · simp only [hn, not_true_eq_false, if_false, if_true]
    by_cases hlt : 0 < i
    · have : ((i : Int) + -1 < b.n ∧ (i : Int) + -1 ≥ 0) := by simp only [n]; omega
      rw [if_pos this, if_pos hlt]
      have : (i : Int) + -1 = ((i - 1 : Nat) : Int) := by omega
      rw [this]
    · have : ¬ ((i : Int) + -1 < b.n ∧ (i : Int) + -1 ≥ 0) := by simp only [n]; omega
      rw [if_neg this, if_neg hlt]
  · have hn' : ch.isNull = false := by simpa using hn
    simp only [hn', Bool.false_eq_true, not_false_eq_true, if_true, if_false]
    rfl

theorem advanceDown_bwd_step {s : State} {l : DiskLoc} {b : BtreeBucket}
    (hl : s.pages l = some b) (hne : 0 < b.keys.length) (Fd : Nat) :
    advanceDown s (-1) 1 (Fd + 1) l =
      if b.nextChild.isNull then .ok (l, ((b.keys.length - 1 : Nat) : Int))
      else advanceDown s (-1) 1 Fd b.nextChild := by
  rw [advanceDown, hl]
  have h2 : ¬ ((-1 : Int) > 0) := by omega
  simp only [h2, if_false]
  have h3 : b.childForPosI (b.n - 1 + 1) = some b.nextChild := by
    unfold childForPosI n
    rw [if_neg (by omega)]
    have : ((b.keys.length : Int) - 1 + 1).toNat = b.keys.length := by omega
    rw [this, childForPos_length]
  rw [h3]
  simp only
  have h4 : b.n - 1 = ((b.keys.length - 1 : Nat) : Int) := by
    unfold n
    omega
  rw [h4]

/-- The backward walk through a subtree: the descent loop of `advance` arrives
at the last position of the in-order list, and from there the backward steps
visit the list in reverse and leave the subtree at its exit. -/
theorem walk_bwd {c : Layout} {o : Ordering} {s : State} {g : Ghost} (h : Inv c o s g) :
    ∀ (r : Nat) (l : DiskLoc) (b : BtreeBucket), s.pages l = some b → g.rank l ≤ r →
      b.keys ≠ [] → ∀ F, r < F →
        ∃ x rest, (inorder s F l).reverse = x :: rest ∧
          (∀ Fd, r < Fd → advanceDown s (-1) 1 Fd l = .ok (x.1, (x.2 : Int))) ∧
          (∀ e, ExitBwd s l e → Chain (PrevIs s (g.rank s.head)) x rest e) := by
  intro r
  induction r using Nat.strong_induction_on with
  | _ r ih =>
    intro l b hl hr hne F hF
    cases F with
    | zero => omega
    | succ F =>
    have hpage := h.page l b hl
    have hrh := h.rank_le l b hl
    -- what is known about each child
    have hchild : ∀ p ch, b.childForPos p = some ch → ch ≠ DiskLoc.Null →
        ∃ x rest, (inorder s F ch).reverse = x :: rest ∧
          (∀ Fd, g.rank ch < Fd → advanceDown s (-1) 1 Fd ch = .ok (x.1, (x.2 : Int))) ∧
          (∀ e, ExitBwd s ch e → Chain (PrevIs s (g.rank s.head)) x rest e) ∧
          g.rank ch < g.rank l ∧ ∃ cb, s.pages ch = some cb ∧ cb.parent = l := by
      intro p ch hc hn
      obtain ⟨cb, hcb, hpar, hrk, _⟩ := hpage.child p ch hc hn
      have hch : ch ≠ s.head := by
        intro heq
        obtain ⟨hb, hhb, hhp, _⟩ := h.head
        rw [← heq, hcb] at hhb; cases hhb
        rw [hhp] at hpar
        exact h.ne_null_of_mapped hl hpar.symm
      obtain ⟨x, rest, h1, h2, h3⟩ :=
        ih (g.rank ch) (by omega) ch cb hcb (le_refl _) (h.link ch cb hcb hch).1 F (by omega)
      exact ⟨x, rest, h1, h2, h3, hrk, cb, hcb, hpar⟩
    -- the walk from slot `i` back to the start of the page
    have hslots : ∀ i, i < b.keys.length →
        ∃ tail, (preList (inorder s F) l b (i + 1)).reverse = (l, i) :: tail ∧
          ∀ e, ExitBwd s l e → Chain (PrevIs s (g.rank s.head)) (l, i) tail e := by
      intro i
      induction i with
      | zero =>
        intro hi
        obtain ⟨k, hk⟩ := get?_some_of_lt b.keys 0 hi
        have hc : b.childForPos 0 = some k.prevChildBucket := childForPos_of_get? hk
        refine ⟨(inorder s F k.prevChildBucket).reverse, ?_, ?_⟩
        · rw [preList_succ _ l b 0 k hk, preList_zero]
          simp
        · intro e he
          by_cases hn : k.prevChildBucket = DiskLoc.Null
          · rw [hn, inorder_null]
            show PrevIs s (g.rank s.head) (l, 0) e
            intro F' hF'
            show advance F' s l ((0 : Nat) : Int) (-1) = _
            rw [advance_bwd_cases hl hi hc F', hn]
            simp only [DiskLoc.isNull, decide_True, if_true]
            rw [if_neg (by omega), advanceUp_bwd h he b hl _ F' (by omega)]
          · obtain ⟨x, rest, h1, h2, h3, hrk, cb, hcb, hpar⟩ := hchild _ _ hc hn
            rw [h1]
            have hpb : s.pages cb.parent = some b := by rw [hpar]; exact hl
            have hex : ExitBwd s cb.parent e := by rw [hpar]; exact he
            refine ⟨?_, h3 e (ExitBwd.up _ cb b e hcb hpb hc hex)⟩
            intro F' hF'
            show advance F' s l ((0 : Nat) : Int) (-1) = _
            rw [advance_bwd_cases hl hi hc F']
            have hnn : k.prevChildBucket.isNull = false := (DiskLoc.isNull_false_iff _).mpr hn
            simp only [hnn, Bool.false_eq_true, if_false]
            rw [h2 F' (by omega)]
            rfl
      | succ i ihi =>
        intro hi
        obtain ⟨k, hk⟩ := get?_some_of_lt b.keys (i + 1) hi
        have hc : b.childForPos (i + 1) = some k.prevChildBucket := childForPos_of_get? hk
        obtain ⟨tail, htail, hchain⟩ := ihi (by omega)
        refine ⟨(inorder s F k.prevChildBucket).reverse ++ (l, i) :: tail, ?_, ?_⟩
        · rw [preList_succ _ l b (i + 1) k hk]
          simp [htail]
        · intro e he
          by_cases hn : k.prevChildBucket = DiskLoc.Null
          · rw [hn, inorder_null]
            refine ⟨?_, hchain e he⟩
            intro F' hF'
            show advance F' s l ((i + 1 : Nat) : Int) (-1) = _
            rw [advance_bwd_cases hl hi hc F', hn]
            simp only [DiskLoc.isNull, decide_True, if_true]
            rw [if_pos (by omega)]
            rfl
          · obtain ⟨x, rest, h1, h2, h3, hrk, cb, hcb, hpar⟩ := hchild _ _ hc hn
            rw [h1]
            have hstep : PrevIs s (g.rank s.head) (l, i + 1) (some x) := by
              intro F' hF'
              show advance F' s l ((i + 1 : Nat) : Int) (-1) = _
              rw [advance_bwd_cases hl hi hc F']
              have hnn : k.prevChildBucket.isNull = false := (DiskLoc.isNull_false_iff _).mpr hn
              simp only [hnn, Bool.false_eq_true, if_false]
              rw [h2 F' (by omega)]
              rfl
            have hpb : s.pages cb.parent = some b := by rw [hpar]; exact hl
            have hce := h3 (some (l, i))
              (hpar ▸ ExitBwd.slot _ cb b i hcb hpb hc (by omega))
            exact ⟨hstep, Chain.append rest x hce (hchain e he)⟩
    -- the whole page
    have hn0 : 0 < b.keys.length := List.length_pos.mpr hne
    obtain ⟨tail, htail, hchain⟩ := hslots (b.keys.length - 1) (by omega)
    have hlen1 : b.keys.length - 1 + 1 = b.keys.length := by omega
    rw [hlen1] at htail
    have hcn : b.childForPos b.keys.length = some b.nextChild := childForPos_length b
    rw [inorder_eq_split h hl F hcn, postList_length, List.append_nil, List.reverse_append, htail]
    by_cases hn : b.nextChild = DiskLoc.Null
    · rw [hn, inorder_null]
      refine ⟨(l, b.keys.length - 1), tail, rfl, ?_, hchain⟩
      intro Fd hFd
      cases Fd with
      | zero => omega
      | succ Fd =>
        rw [advanceDown_bwd_step hl hn0, hn]
        rfl
    · obtain ⟨x, rest, h1, h2, h3, hrk, cb, hcb, hpar⟩ := hchild _ _ hcn hn
      rw [h1]
      refine ⟨x, rest ++ (l, b.keys.length - 1) :: tail, by simp, ?_, ?_⟩
      · intro Fd hFd
        cases Fd with
        | zero => omega
        | succ Fd =>
          rw [advanceDown_bwd_step hl hn0]
          have hnn : b.nextChild.isNull = false := (DiskLoc.isNull_false_iff _).mpr hn
          simp only [hnn, Bool.false_eq_true, if_false]
          exact h2 Fd (by omega)
      · intro e he
        have hpb : s.pages cb.parent = some b := by rw [hpar]; exact hl
        have hcn1 : b.childForPos (b.keys.length - 1 + 1) = some b.nextChild := by
          rw [hlen1]; exact hcn
        have hce := h3 (some (l, b.keys.length - 1))
          (hpar ▸ ExitBwd.slot _ cb b (b.keys.length - 1) hcb hpb hcn1 (by omega))
        exact Chain.append rest x hce (hchain e he)

end BtreeBucket
end mongo
namespace mongo
namespace BtreeBucket

/-! ## The steps of `advance` along the in-order list -/

theorem Chain.step_at {nx : DiskLoc × Nat → Option (DiskLoc × Nat) → Prop}
    {x0 : DiskLoc × Nat} {rest : List (DiskLoc × Nat)} (hch : Chain nx x0 rest none)
    (A : List (DiskLoc × Nat)) (x : DiskLoc × Nat) (B : List (DiskLoc × Nat))
    (hsplit : x0 :: rest = A ++ x :: B) : nx x B.head? := by
  have h := Chain.suffix A x0 rest hsplit hch
  cases B with
  | nil => exact h
  | cons y B1 => exact h.1

/-- The backward walk over the whole tree. -/
theorem tree_walk_bwd {c : Layout} {o : Ordering} {s : State} {g : Ghost} (h : Inv c o s g)
    (F : Nat) (hF : g.rank s.head < F) :
    inorder s F s.head = [] ∨
      ∃ x rest, (inorder s F s.head).reverse = x :: rest ∧
        Chain (PrevIs s (g.rank s.head)) x rest none := by
  obtain ⟨hb, hhb, hpar, hempty⟩ := h.head
  by_cases hk : hb.keys = []
  · left
    cases F with
    | zero => omega
    | succ F =>
      rw [inorder_succ_mapped s F s.head hb (h.ne_null_of_mapped hhb) hhb, hk, hempty hk,
        inorder_null]
      rfl
  · right
    obtain ⟨x, rest, h1, _, h3⟩ := walk_bwd h (g.rank s.head) s.head hb hhb (le_refl _) hk F hF
    exact ⟨x, rest, h1, h3 none (ExitBwd.root _ hb hhb hpar)⟩

/-- C15: on a well-formed tree, with `L` the in-order list of the slots of the
tree (it holds every slot, in strictly ascending order), `advance` from a valid
position, the slot `i` of a mapped page `l`, returns for every fuel above the
rank of the root: with direction 1 the page and position that follow `(l, i)` in
`L`, and with direction -1 those that come before it; the locator is null
exactly when `(l, i)` is the last, respectively the first, position of `L`; and
a backward step from the position reached by a forward step returns to
`(l, i)`. -/
theorem advance_steps (c : Layout) (o : Ordering) (s : State) (hwf : WellFormed c o s) :
    ∃ N L, (∀ F, N < F → inorder s F s.head = L) ∧ L.Pairwise (PosLt o s) ∧
      (∀ y ∈ L, y.1 ≠ DiskLoc.Null ∧ ∃ k, slotAt s y = some k) ∧
      ∀ l b i, s.pages l = some b → i < b.keys.length →
        ∃ A B, L = A ++ (l, i) :: B ∧
          (∀ F, N < F → advance F s l (i : Int) 1 = .ok (exitResult (i : Int) B.head?)) ∧
          (∀ F, N < F → advance F s l (i : Int) (-1) = .ok (exitResult (i : Int) A.getLast?)) ∧
          (∀ y, B.head? = some y → ∀ F, N < F →
            advance F s y.1 (y.2 : Int) (-1) = .ok (l, (i : Int))) := by
  obtain ⟨g, h⟩ := hwf
  obtain ⟨hslot, hsorted, hall, hfwd⟩ := tree_walk h (g.rank s.head + 1) (Nat.lt_succ_self _)
  have hbwd := tree_walk_bwd h (g.rank s.head + 1) (Nat.lt_succ_self _)
  obtain ⟨hb, hhb, _⟩ := h.head
  refine ⟨g.rank s.head, inorder s (g.rank s.head + 1) s.head, ?_, hsorted, ?_, ?_⟩
  · intro F hF
    exact inorder_fuel h (g.rank s.head) s.head hb hhb (le_refl _) F _ hF (Nat.lt_succ_self _)
  · intro y hy
    obtain ⟨k, hk⟩ := hslot y hy
    exact ⟨slotAt_page_ne_null h hk, k, hk⟩
  · intro l b i hl hi
    have hmem := hall l b i hl hi
    obtain ⟨A, B, hsplit⟩ := List.append_of_mem hmem
    -- every step inside the list
    have hnext : ∀ (A1 : List (DiskLoc × Nat)) (x : DiskLoc × Nat) (B1 : List (DiskLoc × Nat)),
        inorder s (g.rank s.head + 1) s.head = A1 ++ x :: B1 →
        NextIs s (g.rank s.head) x B1.head? ∧ PrevIs s (g.rank s.head) x A1.getLast? := by
      intro A1 x B1 hsp
      constructor
      · rcases hfwd with h0 | ⟨x0, rest, hL, hch⟩
        · rw [h0] at hsp
          exact absurd (congrArg List.length hsp) (by simp; omega)
        · exact hch.step_at A1 x B1 (hL ▸ hsp)
      · rcases hbwd with h0 | ⟨x0, rest, hL, hch⟩
        · rw [h0] at hsp
          exact absurd (congrArg List.length hsp) (by simp; omega)
        · have hrev : x0 :: rest = B1.reverse ++ x :: A1.reverse := by
            rw [← hL, hsp]
            simp
          have := hch.step_at B1.reverse x A1.reverse hrev
          rw [List.head?_reverse] at this
          exact this
    obtain ⟨hn, hp⟩ := hnext A (l, i) B hsplit
    refine ⟨A, B, hsplit, hn, hp, ?_⟩
    intro y hy
    cases B with
    | nil => cases hy
    | cons y1 B1 =>
      simp only [List.head?_cons, Option.some.injEq] at hy
      subst hy
      have hsp2 : inorder s (g.rank s.head + 1) s.head = (A ++ [(l, i)]) ++ y1 :: B1 := by
        rw [hsplit]
        simp
      have := (hnext (A ++ [(l, i)]) y1 B1 hsp2).2
      rw [List.getLast?_append, List.getLast?_singleton] at this
      exact this

/-- A run of C15 on the tree with the key 9 at `(1,10)` as its only entry. -/
theorem advance_steps_witness :
    ∃ N L, (∀ F, N < F → inorder (singlePage smallLayout oneEntryPage) F
        (singlePage smallLayout oneEntryPage).head = L) ∧
      L.Pairwise (PosLt ascending (singlePage smallLayout oneEntryPage)) ∧
      (∀ y ∈ L, y.1 ≠ DiskLoc.Null ∧ ∃ k, slotAt (singlePage smallLayout oneEntryPage) y = some k) ∧
      ∀ l b i, (singlePage smallLayout oneEntryPage).pages l = some b → i < b.keys.length →
        ∃ A B, L = A ++ (l, i) :: B ∧
          (∀ F, N < F → advance F (singlePage smallLayout oneEntryPage) l (i : Int) 1
            = .ok (exitResult (i : Int) B.head?)) ∧
          (∀ F, N < F → advance F (singlePage smallLayout oneEntryPage) l (i : Int) (-1)
            = .ok (exitResult (i : Int) A.getLast?)) ∧
          (∀ y, B.head? = some y → ∀ F, N < F →
            advance F (singlePage smallLayout oneEntryPage) y.1 (y.2 : Int) (-1)
              = .ok (l, (i : Int))) :=
  advance_steps smallLayout ascending (singlePage smallLayout oneEntryPage)
    (wellFormed_singlePage smallLayout ascending oneEntryPage (by decide) (by decide))

end BtreeBucket
end mongo
namespace mongo
namespace BtreeBucket

/-! ## The page primitives `_pushBack`, `popBack` and `_delKeyAtPos` -/

theorem _alloc_ok (c : Layout) (b : BtreeBucket) (bytes : Int)
    (h : 0 < totalDataSize c - (b.topSize + bytes)) :
    _alloc c b bytes
      = .ok { b with topSize := b.topSize + bytes, emptySize := b.emptySize - bytes } := by
  unfold _alloc
  simp only [gt_iff_lt]
  rw [if_pos h]

/-- The run of `_pushBack` on a page with room whose last key is not above the
new key, by cases on the assertion of `_alloc`. -/
theorem _pushBack_cases (c : Layout) (b : BtreeBucket) (recordLoc : DiskLoc) (key : BSONObj)
    (o : Ordering) (prevChild : DiskLoc)
    (hroom : ¬ key.objsize + c.slotSize > b.emptySize)
    (hord : ∀ last, b.keys.getLast? = some last → last.key.woCompare key o ≤ 0) :
    (0 < totalDataSize c - (b.topSize + key.objsize) →
      _pushBack c b recordLoc key o prevChild =
        .ok (true, { b with
          emptySize := b.emptySize - c.slotSize - key.objsize
          topSize := b.topSize + key.objsize
          keys := b.keys ++ [⟨prevChild, recordLoc, key⟩] })) ∧
    (¬ 0 < totalDataSize c - (b.topSize + key.objsize) →
      _pushBack c b recordLoc key o prevChild = .error .assertion) := by
  have hbad : ¬ 0 < totalDataSize c - (b.topSize + key.objsize) →
      _alloc c { b with emptySize := b.emptySize - c.slotSize } key.objsize
        = .error .assertion := by
    intro h
    unfold _alloc
    simp only [gt_iff_lt]
    rw [if_neg h]
  constructor
  · intro hofs
    unfold _pushBack
    simp only [hroom, if_false]
    cases hl : b.keys.getLast? with
    | none =>
      simp only [not_true_eq_false, if_false]
      rw [_alloc_ok c { b with emptySize := b.emptySize - c.slotSize } key.objsize hofs]
    | some last =>
      have hle := hord last hl
      simp only [hle, decide_True, not_true_eq_false, if_false]
      rw [_alloc_ok c { b with emptySize := b.emptySize - c.slotSize } key.objsize hofs]
  · intro hofs
    unfold _pushBack
    simp only [hroom, if_false]
    cases hl : b.keys.getLast? with
    | none =>
      simp only [not_true_eq_false, if_false]
      rw [hbad hofs]
    | some last =>
      have hle := hord last hl
      simp only [hle, decide_True, not_true_eq_false, if_false]
      rw [hbad hofs]

theorem _pushBack_no_room (c : Layout) (b : BtreeBucket) (recordLoc : DiskLoc) (key : BSONObj)
    (o : Ordering) (prevChild : DiskLoc) (h : key.objsize + c.slotSize > b.emptySize) :
    _pushBack c b recordLoc key o prevChild = .ok (false, b) := by
  unfold _pushBack
  simp only [h, if_true]

theorem _pushBack_bad_order (c : Layout) (b : BtreeBucket) (recordLoc : DiskLoc) (key : BSONObj)
    (o : Ordering) (prevChild : DiskLoc) (h : ¬ key.objsize + c.slotSize > b.emptySize)
    (hord : ∃ last, b.keys.getLast? = some last ∧ 0 < last.key.woCompare key o) :
    _pushBack c b recordLoc key o prevChild = .error .assertion := by
  obtain ⟨last, hl, hlt⟩ := hord
  unfold _pushBack
  have : ¬ last.key.woCompare key o ≤ 0 := not_le.mpr hlt
  simp only [h, if_false, hl, this, decide_False, Bool.false_eq_true, not_false_eq_true,
    if_true]

/-- A `_pushBack` that returned true appended the slot. -/
theorem _pushBack_true_eq (c : Layout) (b : BtreeBucket) (recordLoc : DiskLoc) (key : BSONObj)
    (o : Ordering) (prevChild : DiskLoc) (b1 : BtreeBucket)
    (h : _pushBack c b recordLoc key o prevChild = .ok (true, b1)) :
    b1 = { b with
      emptySize := b.emptySize - c.slotSize - key.objsize
      topSize := b.topSize + key.objsize
      keys := b.keys ++ [⟨prevChild, recordLoc, key⟩] } := by
  by_cases hroom : key.objsize + c.slotSize > b.emptySize
  · rw [_pushBack_no_room c b recordLoc key o prevChild hroom] at h
    simp at h
  · by_cases hord : ∀ last, b.keys.getLast? = some last → last.key.woCompare key o ≤ 0
    · by_cases hofs : 0 < totalDataSize c - (b.topSize + key.objsize)
      · rw [(_pushBack_cases c b recordLoc key o prevChild hroom hord).1 hofs] at h
        simp only [Except.ok.injEq, Prod.mk.injEq, true_and] at h
        exact h.symm
      · rw [(_pushBack_cases c b recordLoc key o prevChild hroom hord).2 hofs] at h
        cases h
    · push_neg at hord
      rw [_pushBack_bad_order c b recordLoc key o prevChild hroom hord] at h
      cases h

/-- The run of `_pushBack` on a page with room whose last key is not above the
new key. -/
theorem _pushBack_ok (c : Layout) (b : BtreeBucket) (recordLoc : DiskLoc) (key : BSONObj)
    (o : Ordering) (prevChild : DiskLoc) (hacc : sizeAccounting c b) (hslot : 0 < c.slotSize)
    (hroom : ¬ key.objsize + c.slotSize > b.emptySize)
    (hord : ∀ last, b.keys.getLast? = some last → last.key.woCompare key o ≤ 0) :
    _pushBack c b recordLoc key o prevChild =
      .ok (true, { b with
        emptySize := b.emptySize - c.slotSize - key.objsize
        topSize := b.topSize + key.objsize
        keys := b.keys ++ [⟨prevChild, recordLoc, key⟩] }) := by
  have hofs : 0 < totalDataSize c - (b.topSize + key.objsize) := by
    unfold sizeAccounting n at hacc
    unfold totalDataSize
    have hn : (0 : Int) ≤ (b.keys.length : Int) * c.slotSize :=
      mul_nonneg (Int.natCast_nonneg _) (le_of_lt hslot)
    linarith
  exact (_pushBack_cases c b recordLoc key o prevChild hroom hord).1 hofs

/-- C28: on a page that satisfies size accounting, with slots of a positive
size, and for a key that the page may take at its end (the page is empty or its
last key does not compare above the new key, which is what `_pushBack` asserts
of its caller): `_pushBack` returns false, and the page as it was, exactly when
the size of the key plus the size of a slot exceeds `emptySize`; otherwise it
returns true and a page with one slot more, whose last slot holds
`(recordLoc, key, prevChild)`, the earlier slots, `nextChild`, `parent` and the
`Packed` flag being as before. -/
theorem _pushBack_spec (c : Layout) (b : BtreeBucket) (recordLoc : DiskLoc) (key : BSONObj)
    (o : Ordering) (prevChild : DiskLoc) (hacc : sizeAccounting c b) (hslot : 0 < c.slotSize)
    (hord : ∀ last, b.keys.getLast? = some last → last.key.woCompare key o ≤ 0) :
    ((∃ b1, _pushBack c b recordLoc key o prevChild = .ok (false, b1)) ↔
      key.objsize + c.slotSize > b.emptySize) ∧
    (key.objsize + c.slotSize > b.emptySize →
      _pushBack c b recordLoc key o prevChild = .ok (false, b)) ∧
    (¬ key.objsize + c.slotSize > b.emptySize →
      ∃ b1, _pushBack c b recordLoc key o prevChild = .ok (true, b1) ∧
        b1.keys = b.keys ++ [⟨prevChild, recordLoc, key⟩] ∧
        b1.keys.length = b.keys.length + 1 ∧
        (∀ i k, b.keys.get? i = some k → b1.keys.get? i = some k) ∧
        b1.keys.getLast? = some ⟨prevChild, recordLoc, key⟩ ∧
        b1.nextChild = b.nextChild ∧ b1.parent = b.parent ∧ b1.packed = b.packed ∧
        b1.emptySize = b.emptySize - c.slotSize - key.objsize ∧
        b1.topSize = b.topSize + key.objsize) := by
  have hfalse := _pushBack_no_room c b recordLoc key o prevChild
  refine ⟨⟨?_, fun h => ⟨b, hfalse h⟩⟩, hfalse, ?_⟩
  · rintro ⟨b1, h1⟩
    by_contra hroom
    rw [_pushBack_ok c b recordLoc key o prevChild hacc hslot hroom hord] at h1
    cases h1
  · intro hroom
    refine ⟨_, _pushBack_ok c b recordLoc key o prevChild hacc hslot hroom hord, rfl, ?_, ?_, ?_,
      rfl, rfl, rfl, rfl, rfl⟩
    · simp
    · intro i k hi
      have hlt := (List.get?_eq_some.mp hi).1
      show (b.keys ++ [_]).get? i = some k
      rw [List.get?_append hlt]
      exact hi
    · show (b.keys ++ [_]).getLast? = _
      simp

/-- A run of C28 on the page with the key 9 at `(1,10)`, which satisfies size
accounting: the key 9 at `(1,20)` does not compare below the last key and there
is room for it, so it is appended. -/
theorem _pushBack_spec_witness :
    sizeAccounting smallLayout oneEntryPage ∧
    ¬ ((sampleKey 9 10).objsize + smallLayout.slotSize > oneEntryPage.emptySize) ∧
    ∃ b1, _pushBack smallLayout oneEntryPage ⟨1, 20⟩ (sampleKey 9 10) ascending DiskLoc.Null
        = .ok (true, b1) ∧
      b1.keys = oneEntryPage.keys ++ [⟨DiskLoc.Null, ⟨1, 20⟩, sampleKey 9 10⟩] ∧
      b1.keys.length = oneEntryPage.keys.length + 1 ∧
      (∀ i k, oneEntryPage.keys.get? i = some k → b1.keys.get? i = some k) ∧
      b1.keys.getLast? = some ⟨DiskLoc.Null, ⟨1, 20⟩, sampleKey 9 10⟩ ∧
      b1.nextChild = oneEntryPage.nextChild ∧ b1.parent = oneEntryPage.parent ∧
      b1.packed = oneEntryPage.packed ∧
      b1.emptySize = oneEntryPage.emptySize - smallLayout.slotSize - (sampleKey 9 10).objsize ∧
      b1.topSize = oneEntryPage.topSize + (sampleKey 9 10).objsize :=
  ⟨by decide, by decide,
    (_pushBack_spec smallLayout oneEntryPage ⟨1, 20⟩ (sampleKey 9 10) ascending DiskLoc.Null
      (by decide) (by decide) (by decide)).2.2 (by decide)⟩

end BtreeBucket
end mongo
namespace mongo
namespace BtreeBucket

/-! ## The page primitive `popBack` -/

theorem isNull_of_ne {l : DiskLoc} (h : l ≠ DiskLoc.Null) : l.isNull = false :=
  (DiskLoc.isNull_false_iff l).mpr h

/-- C29 (amended): `popBack` raises 10282 on a page without slots; on a page
whose last slot is marked unused its assertion fails; on a page whose last slot
is used it raises 10283 when `nextChild` is not null, and otherwise it returns
the record locator and the key of the last slot, removes that slot, gives its
key bytes and its slot back to the free space, and sets `nextChild` to the left
child of the removed slot; and `popBack` right after a `_pushBack(r, k, c)` that
returned true on a page with a null `nextChild`, for a record locator `r`
without the unused mark, returns `(r, k)` and leaves the page as it was before
the `_pushBack`, with `nextChild = c`. -/
theorem popBack_spec (c : Layout) (b : BtreeBucket) :
    (b.keys = [] → popBack c b = .error (.massert 10282)) ∧
    (∀ ks kn, b.keys = ks ++ [kn] →
      (kn.isUsed = false → popBack c b = .error .assertion) ∧
      (kn.isUsed = true → b.nextChild ≠ DiskLoc.Null → popBack c b = .error (.massert 10283)) ∧
      (kn.isUsed = true → b.nextChild = DiskLoc.Null →
        popBack c b = .ok ((kn.recordLoc, kn.key),
          { b with
            nextChild := kn.prevChildBucket
            keys := ks
            emptySize := b.emptySize + c.slotSize + kn.key.objsize
            topSize := b.topSize - kn.key.objsize }))) ∧
    (∀ (r : DiskLoc) (k : BSONObj) (o : Ordering) (ch : DiskLoc) (b1 : BtreeBucket),
      b.nextChild = DiskLoc.Null → r.ofs % 2 = 0 →
      _pushBack c b r k o ch = .ok (true, b1) →
      popBack c b1 = .ok ((r, k), { b with nextChild := ch })) := by
  have hlast : ∀ (b : BtreeBucket) ks kn, b.keys = ks ++ [kn] →
      (kn.isUsed = false → popBack c b = .error .assertion) ∧
      (kn.isUsed = true → b.nextChild ≠ DiskLoc.Null → popBack c b = .error (.massert 10283)) ∧
      (kn.isUsed = true → b.nextChild = DiskLoc.Null →
        popBack c b = .ok ((kn.recordLoc, kn.key),
          { b with
            nextChild := kn.prevChildBucket
            keys := ks
            emptySize := b.emptySize + c.slotSize + kn.key.objsize
            topSize := b.topSize - kn.key.objsize })) := by
    intro b ks kn hk
    have hgl : b.keys.getLast? = some kn := by rw [hk]; simp
    have hdl : b.keys.dropLast = ks := by rw [hk]; simp
    refine ⟨?_, ?_, ?_⟩
    · intro hu
      unfold popBack
      simp only [hgl, hu, Bool.false_eq_true, not_false_eq_true, if_true]
    · intro hu hn
      unfold popBack
      simp only [hgl, hu, not_true_eq_false, if_false, isNull_of_ne hn, Bool.false_eq_true,
        not_false_eq_true, if_true]
    · intro hu hn
      unfold popBack
      simp only [hgl, hu, not_true_eq_false, if_false, hn, isNull_null, hdl, _unalloc]
  refine ⟨?_, hlast b, ?_⟩
  · intro hk
    unfold popBack
    rw [hk]
    rfl
  · intro r k o ch b1 hn hr hpush
    have hused : (⟨ch, r, k⟩ : _KeyNode).isUsed = true := by
      simp [_KeyNode.isUsed, _KeyNode.isUnused, hr]
    have hb1 := _pushBack_true_eq c b r k o ch b1 hpush
    have h3 := (hlast b1 b.keys ⟨ch, r, k⟩ (by rw [hb1])).2.2 hused (by rw [hb1]; exact hn)
    rw [h3, hb1]
    simp only [Except.ok.injEq, Prod.mk.injEq, true_and]
    have e1 : b.emptySize - c.slotSize - k.objsize + c.slotSize + k.objsize = b.emptySize := by
      ring
    have e2 : b.topSize + k.objsize - k.objsize = b.topSize := by ring
    rw [e1, e2]

/-- C29 (the claim fails): a page with one slot, marked unused, and a null
`nextChild` has `n > 0`, yet `popBack` does not return the slot: its assertion
that the last slot is used fails. -/
theorem popBack_counterexample :
    (leafPage true 132 10 [leafSlot 9 10 11]).keys.length > 0 ∧
    (leafPage true 132 10 [leafSlot 9 10 11]).nextChild = DiskLoc.Null ∧
    popBack smallLayout (leafPage true 132 10 [leafSlot 9 10 11]) = .error .assertion :=
  ⟨by decide, rfl, rfl⟩

end BtreeBucket
end mongo
namespace mongo
namespace BtreeBucket

/-! ## The page primitive `_delKeyAtPos` -/

theorem get?_take_drop_succ {α : Type} (ks : List α) (p j : Nat) :
    (ks.take p ++ ks.drop (p + 1)).get? j = if j < p then ks.get? j else ks.get? (j + 1) := by
  by_cases hj : j < p
  · rw [if_pos hj]
    by_cases hl : j < ks.length
    · rw [List.get?_append (by rw [List.length_take]; omega), List.get?_take hj]
    · have h1 : ks.get? j = none := List.get?_eq_none.mpr (by omega)
      rw [h1, List.get?_eq_none]
      rw [List.length_append, List.length_take, List.length_drop]
      omega
  · rw [if_neg hj]
    by_cases hl : p ≤ ks.length
    · rw [List.get?_append_right (by rw [List.length_take]; omega), List.length_take,
        Nat.min_eq_left hl, List.get?_drop]
      congr 1
      omega
    · have h1 : ks.get? (j + 1) = none := List.get?_eq_none.mpr (by omega)
      rw [h1, List.get?_eq_none]
      rw [List.length_append, List.length_take, List.length_drop]
      omega

/-- C30: for a slot `pos` of a page (`pos < n`), the assertions of
`_delKeyAtPos(pos, mayEmpty)` fail when the left child of the slot is not null,
and when `mayEmpty` is false while the page has a single slot and a `nextChild`
that is not null; otherwise `_delKeyAtPos` returns a page in which the slots
before `pos` are as they were, the slots after `pos` sit one position to the
left with their content unchanged, `n` is one less, `emptySize` is larger by
the size of a slot, `topSize`, `nextChild` and `parent` are unchanged, and the
`Packed` flag is cleared. -/
theorem _delKeyAtPos_spec (c : Layout) (b : BtreeBucket) (pos : Nat) (mayEmpty : Bool)
    (k : _KeyNode) (hk : b.keys.get? pos = some k) :
    (k.prevChildBucket ≠ DiskLoc.Null → _delKeyAtPos c b pos mayEmpty = .error .assertion) ∧
    (mayEmpty = false → b.keys.length = 1 → b.nextChild ≠ DiskLoc.Null →
      _delKeyAtPos c b pos mayEmpty = .error .assertion) ∧
    (k.prevChildBucket = DiskLoc.Null →
      (mayEmpty = true ∨ 1 < b.keys.length ∨ b.nextChild = DiskLoc.Null) →
      ∃ b1, _delKeyAtPos c b pos mayEmpty = .ok b1 ∧
        (∀ j, j < pos → b1.keys.get? j = b.keys.get? j) ∧
        (∀ j, pos ≤ j → b1.keys.get? j = b.keys.get? (j + 1)) ∧
        b1.keys.length + 1 = b.keys.length ∧
        b1.emptySize = b.emptySize + c.slotSize ∧ b1.topSize = b.topSize ∧
        b1.nextChild = b.nextChild ∧ b1.parent = b.parent ∧ b1.packed = false) := by
  have hp : pos < b.keys.length := (List.get?_eq_some.mp hk).1
  have hcp : b.childForPos pos = some k.prevChildBucket := childForPos_of_get? hk
  refine ⟨?_, ?_, ?_⟩
  · intro hn
    unfold _delKeyAtPos
    rw [if_neg (not_not.mpr (Nat.le_of_lt hp)), hcp]
    simp only [isNull_of_ne hn, Bool.false_eq_true, not_false_eq_true, if_true]
  · intro hm hlen hn
    unfold _delKeyAtPos
    rw [if_neg (not_not.mpr (Nat.le_of_lt hp)), hcp]
    by_cases hch : k.prevChildBucket = DiskLoc.Null
    · have hcond : ¬ ((mayEmpty = true ∧ b.n > 0) ∨ b.n > 1 ∨ b.nextChild.isNull = true) := by
        rw [hm, isNull_of_ne hn]
        unfold n
        rw [hlen]
        simp
      simp only [hch, isNull_null, not_true_eq_false, if_false]
      rw [if_pos hcond]
    · simp only [isNull_of_ne hch, Bool.false_eq_true, not_false_eq_true, if_true]
  · intro hch hok
    refine ⟨eraseSlot c b pos, _delKeyAtPos_eq c b pos mayEmpty k hk hch hok, ?_, ?_,
      length_take_drop_succ b.keys pos hp, rfl, rfl, rfl, rfl, rfl⟩
    · intro j hj
      show (b.keys.take pos ++ b.keys.drop (pos + 1)).get? j = _
      rw [get?_take_drop_succ, if_pos hj]
    · intro j hj
      show (b.keys.take pos ++ b.keys.drop (pos + 1)).get? j = _
      rw [get?_take_drop_succ, if_neg (by omega)]

/-- A run of C30 on the sample page: the slot 1 of three is removed. -/
theorem _delKeyAtPos_spec_witness :
    ∃ b1, _delKeyAtPos smallLayout samplePage 1 false = .ok b1 ∧
      (∀ j, j < 1 → b1.keys.get? j = samplePage.keys.get? j) ∧
      (∀ j, 1 ≤ j → b1.keys.get? j = samplePage.keys.get? (j + 1)) ∧
      b1.keys.length + 1 = samplePage.keys.length ∧
      b1.emptySize = samplePage.emptySize + smallLayout.slotSize ∧
      b1.topSize = samplePage.topSize ∧
      b1.nextChild = samplePage.nextChild ∧ b1.parent = samplePage.parent ∧
      b1.packed = false :=
  (_delKeyAtPos_spec smallLayout samplePage 1 false (leafSlot 2 10 21) rfl).2.2 rfl
    (Or.inr (Or.inl (by decide)))

end BtreeBucket
end mongo
namespace mongo
namespace BtreeBucket

/-! ## The page primitive `basicInsert` -/

theorem get?_insert_at {α : Type} (ks : List α) (p : Nat) (x : α) (hp : p ≤ ks.length) :
    (ks.take p ++ x :: ks.drop p).get? p = some x ∧
    (∀ j, j < p → (ks.take p ++ x :: ks.drop p).get? j = ks.get? j) ∧
    (∀ j, p ≤ j → (ks.take p ++ x :: ks.drop p).get? (j + 1) = ks.get? j) := by
  have hlen : (ks.take p).length = p := by rw [List.length_take]; omega
  refine ⟨?_, ?_, ?_⟩
  · rw [List.get?_append_right (by omega), hlen, Nat.sub_self]
    rfl
  · intro j hj
    rw [List.get?_append (by omega), List.get?_take hj]
  · intro j hj
    rw [List.get?_append_right (by omega), hlen]
    have : j + 1 - p = (j - p) + 1 := by omega
    rw [this, List.get?_cons_succ, List.get?_drop]
    congr 1
    omega

theorem pageSizes_of_leafCheck (c : Layout) (o : Ordering) (b : BtreeBucket)
    (h : leafCheck c o b = true) (hsz : 0 < c.BucketSize) : PageSizes c b := by
  obtain ⟨g, hinv⟩ := wellFormed_singlePage c o b h hsz
  exact hinv.sizes ⟨0, 0⟩ b (by simp [singlePage])

/-- C27 (amended): on a page that satisfies the size condition, with
`0 <= pos <= n`, `basicInsert(pos, recordLoc, key)` first packs the page when
the size of the key plus the size of a slot exceeds `emptySize`, which moves
`pos` with the slots that `pack` keeps; with `b1` the page and `p1` the
position after that step (the page and `pos` themselves when `pack` did not
run), it returns false, leaving `b1`, exactly when the size of the key plus the
size of a slot exceeds the `emptySize` of `b1`; otherwise it returns true and a
page with one slot more than `b1`, in which the slot at `p1` holds `recordLoc`,
the key and a null left child, the slots of `b1` before `p1` are as they were,
and the slots of `b1` from `p1` on sit one position to the right with their
content unchanged. -/
theorem basicInsert_claim (c : Layout) (hc : Layout.Sane c) (b : BtreeBucket) (pos : Nat)
    (recordLoc : DiskLoc) (key : BSONObj) (hsz : PageSizes c b) (hpos : pos ≤ b.keys.length) :
    ∃ b1 p1,
      (key.objsize + c.slotSize > b.emptySize → pack c b pos = .ok (b1, p1)) ∧
      (¬ key.objsize + c.slotSize > b.emptySize → b1 = b ∧ p1 = pos) ∧
      p1 ≤ b1.keys.length ∧
      ((∃ b2 p2, basicInsert c b pos recordLoc key = .ok (false, b2, p2)) ↔
        key.objsize + c.slotSize > b1.emptySize) ∧
      (key.objsize + c.slotSize > b1.emptySize →
        basicInsert c b pos recordLoc key = .ok (false, b1, p1)) ∧
      (¬ key.objsize + c.slotSize > b1.emptySize →
        ∃ b2, basicInsert c b pos recordLoc key = .ok (true, b2, p1) ∧
          b2.keys.length = b1.keys.length + 1 ∧
          b2.keys.get? p1 = some ⟨DiskLoc.Null, recordLoc, key⟩ ∧
          (∀ j, j < p1 → b2.keys.get? j = b1.keys.get? j) ∧
          (∀ j, p1 ≤ j → b2.keys.get? (j + 1) = b1.keys.get? j) ∧
          b2.nextChild = b1.nextChild ∧ b2.parent = b1.parent ∧
          b2.emptySize = b1.emptySize - c.slotSize - key.objsize ∧
          b2.topSize = b1.topSize + key.objsize) := by
  have hnk : ¬ ¬ (pos ≤ b.keys.length) := not_not.mpr hpos
  -- the page after the optional pack
  have hpk : ∃ b1 p1, (if key.objsize + c.slotSize > b.emptySize then pack c b pos
        else .ok (b, pos)) = .ok (b1, p1) ∧ PackedAt b b1 pos p1 ∧ PageSizes c b1 := by
    by_cases hroom : key.objsize + c.slotSize > b.emptySize
    · obtain ⟨b1, p1, h1, h2, h3, _⟩ := pack_spec c hc b pos hsz hpos
      exact ⟨b1, p1, by rw [if_pos hroom]; exact h1, h2, h3⟩
    · exact ⟨b, pos, by rw [if_neg hroom], PackedAt.refl b pos hpos, hsz⟩
  obtain ⟨b1, p1, hpack, hpa, hsz1⟩ := hpk
  have hfalse : key.objsize + c.slotSize > b1.emptySize →
      basicInsert c b pos recordLoc key = .ok (false, b1, p1) := by
    intro hroom
    unfold basicInsert
    rw [if_neg hnk]
    simp only [hpack]
    rw [if_pos hroom]
  have htrue : ¬ key.objsize + c.slotSize > b1.emptySize →
      basicInsert c b pos recordLoc key = .ok (true,
        { b1 with
          emptySize := b1.emptySize - c.slotSize - key.objsize
          topSize := b1.topSize + key.objsize
          keys := b1.keys.take p1 ++ ⟨DiskLoc.Null, recordLoc, key⟩ :: b1.keys.drop p1 },
        p1) := by
    intro hroom
    unfold basicInsert
    rw [if_neg hnk]
    simp only [hpack]
    rw [if_neg hroom]
    have hacc := hsz1.accounting
    unfold sizeAccounting at hacc
    simp only [n] at hacc
    have hofs : 0 < totalDataSize c - (b1.topSize + key.objsize) := by
      have h1 : 0 ≤ (b1.keys.length : Int) * c.slotSize :=
        mul_nonneg (by exact_mod_cast Nat.zero_le _) (le_of_lt hc.slot_pos)
      have := hc.slot_pos
      unfold totalDataSize
      omega
    rw [_alloc_ok c { b1 with emptySize := b1.emptySize - c.slotSize } key.objsize hofs]
  refine ⟨b1, p1, ?_, ?_, hpa.len, ⟨?_, fun h => ⟨b1, p1, hfalse h⟩⟩, hfalse, ?_⟩
  · intro hroom
    rw [if_pos hroom] at hpack
    exact hpack
  · intro hroom
    rw [if_neg hroom] at hpack
    simp only [Except.ok.injEq, Prod.mk.injEq] at hpack
    exact ⟨hpack.1.symm, hpack.2.symm⟩
  · rintro ⟨b2, p2, h2⟩
    by_contra hroom
    rw [htrue hroom] at h2
    simp at h2
  · intro hroom
    obtain ⟨g1, g2, g3⟩ := get?_insert_at b1.keys p1 ⟨DiskLoc.Null, recordLoc, key⟩ hpa.len
    refine ⟨_, htrue hroom, ?_, g1, g2, g3, rfl, rfl, rfl, rfl⟩
    show (b1.keys.take p1 ++ ⟨DiskLoc.Null, recordLoc, key⟩ :: b1.keys.drop p1).length = _
    rw [List.length_append, List.length_cons, List.length_take, List.length_drop]
    have := hpa.len
    omega

/-- A run of C27 (amended) on a page that `pack` relieves of an unused slot. -/
theorem basicInsert_claim_witness :
    ∃ b1 p1,
      ((sampleKey 6 10).objsize + smallLayout.slotSize > fullPage.emptySize →
        pack smallLayout fullPage 5 = .ok (b1, p1)) ∧
      (¬ (sampleKey 6 10).objsize + smallLayout.slotSize > fullPage.emptySize →
        b1 = fullPage ∧ p1 = 5) ∧
      p1 ≤ b1.keys.length ∧
      ((∃ b2 p2, basicInsert smallLayout fullPage 5 ⟨1, 60⟩ (sampleKey 6 10)
          = .ok (false, b2, p2)) ↔
        (sampleKey 6 10).objsize + smallLayout.slotSize > b1.emptySize) ∧
      ((sampleKey 6 10).objsize + smallLayout.slotSize > b1.emptySize →
        basicInsert smallLayout fullPage 5 ⟨1, 60⟩ (sampleKey 6 10) = .ok (false, b1, p1)) ∧
      (¬ (sampleKey 6 10).objsize + smallLayout.slotSize > b1.emptySize →
        ∃ b2, basicInsert smallLayout fullPage 5 ⟨1, 60⟩ (sampleKey 6 10) = .ok (true, b2, p1) ∧
          b2.keys.length = b1.keys.length + 1 ∧
          b2.keys.get? p1 = some ⟨DiskLoc.Null, ⟨1, 60⟩, sampleKey 6 10⟩ ∧
          (∀ j, j < p1 → b2.keys.get? j = b1.keys.get? j) ∧
          (∀ j, p1 ≤ j → b2.keys.get? (j + 1) = b1.keys.get? j) ∧
          b2.nextChild = b1.nextChild ∧ b2.parent = b1.parent ∧
          b2.emptySize = b1.emptySize - smallLayout.slotSize - (sampleKey 6 10).objsize ∧
          b2.topSize = b1.topSize + (sampleKey 6 10).objsize) :=
  basicInsert_claim smallLayout smallLayout_sane fullPage 5 ⟨1, 60⟩ (sampleKey 6 10)
    (pageSizes_of_leafCheck smallLayout ascending fullPage (by decide) (by decide)) (by decide)

/-- C27 (the claim fails): `basicInsert` of a sixth key at the end of a page of
five slots returns true, yet `n` is five as before and the slot that was at
index 2 is at index 1: `pack` dropped the unused slot at index 1. -/
theorem basicInsert_counterexample :
    ∃ b2, basicInsert smallLayout fullPage 5 ⟨1, 60⟩ (sampleKey 6 10) = .ok (true, b2, 4) ∧
      b2.keys.length = fullPage.keys.length ∧
      b2.keys.get? 1 = fullPage.keys.get? 2 ∧ b2.keys.get? 1 ≠ fullPage.keys.get? 1 :=
  ⟨_, rfl, rfl, rfl, by decide⟩

end BtreeBucket
end mongo
namespace mongo
namespace BtreeBucket

/-! ## The page primitive `pack` -/

theorem mayDropKey_iff (j : Nat) (k : _KeyNode) (r : Nat) :
    mayDropKey j k r = true ↔
      (k.isUnused = true ∧ k.prevChildBucket = DiskLoc.Null ∧ 0 < j ∧ j ≠ r) := by
  unfold mayDropKey
  simp only [Bool.and_eq_true, decide_eq_true_eq, DiskLoc.isNull_iff, gt_iff_lt, ne_eq]
  tauto

/-- The slots that `pack` keeps are the slots for which `mayDropKey` is false,
in their order. -/
theorem keepFrom_eq_filter (r : Nat) (ks : List _KeyNode) :
    ∀ j, keepFrom r j ks =
      ((ks.enumFrom j).filter (fun p => !mayDropKey p.1 p.2 r)).map Prod.snd := by
  induction ks with
  | nil => intro j; rfl
  | cons k ks ih =>
    intro j
    simp only [keepFrom, List.enumFrom_cons]
    by_cases hd : mayDropKey j k r = true
    · rw [if_pos hd, List.filter_cons_of_neg (by simp [hd]), ih (j + 1)]
    · rw [if_neg hd, List.filter_cons_of_pos (by simpa using hd), List.map_cons, ih (j + 1)]

/-- C25: on a page that satisfies the size condition, `pack(refPos)` changes
nothing when the `Packed` flag is set; otherwise it keeps exactly the slots `j`
for which `mayDropKey(j, refPos)` is false, in their original order and with
their content unchanged, where `mayDropKey(j, refPos)` is true exactly when the
slot `j` is unused and has a null left child, `j > 0` and `j != refPos`;
afterwards `topSize` is the sum of the key sizes of the slots kept, `emptySize`
is what they leave of the page, and the `Packed` flag is set. -/
theorem pack_keeps (c : Layout) (hc : Layout.Sane c) (b : BtreeBucket) (refPos : Nat)
    (hsz : PageSizes c b) :
    (∀ j k, mayDropKey j k refPos = true ↔
      (k.isUnused = true ∧ k.prevChildBucket = DiskLoc.Null ∧ 0 < j ∧ j ≠ refPos)) ∧
    (b.packed = true → pack c b refPos = .ok (b, refPos)) ∧
    (b.packed = false → ∃ b1 r1, pack c b refPos = .ok (b1, r1) ∧
      b1.keys = ((b.keys.enum.filter (fun p => !mayDropKey p.1 p.2 refPos)).map Prod.snd) ∧
      b1.topSize = keyBytes b1.keys ∧
      b1.emptySize = totalDataSize c - b1.topSize - (b1.keys.length : Int) * c.slotSize ∧
      b1.packed = true ∧ b1.nextChild = b.nextChild ∧ b1.parent = b.parent) := by
  refine ⟨fun j k => mayDropKey_iff j k refPos, ?_, ?_⟩
  · intro hp
    unfold pack
    rw [if_pos hp]
  · intro hp
    have hfit := fits_of_pageSizes c hc b hsz
    have hsub : (keepFrom refPos 0 b.keys).Sublist b.keys := keepFrom_sublist _ _ _
    have hle := keyBytes_length_sublist c hc hsub hsz.key_pos
    have he : totalDataSize c - keyBytes (keepFrom refPos 0 b.keys)
        - ((keepFrom refPos 0 b.keys).length : Int) * c.slotSize ≥ 0 := by linarith
    rw [pack_eq_of_not_packed c b refPos hp]
    simp only
    rw [if_neg (not_not.mpr he)]
    refine ⟨_, _, rfl, ?_, rfl, rfl, rfl, rfl, rfl⟩
    exact keepFrom_eq_filter refPos b.keys 0

/-- A run of C25 on the sample page, whose second slot is unused. -/
theorem pack_keeps_witness :
    ∃ b1 r1, pack smallLayout samplePage 3 = .ok (b1, r1) ∧
      b1.keys = ((samplePage.keys.enum.filter (fun p => !mayDropKey p.1 p.2 3)).map Prod.snd) ∧
      b1.topSize = keyBytes b1.keys ∧
      b1.emptySize = totalDataSize smallLayout - b1.topSize
        - (b1.keys.length : Int) * smallLayout.slotSize ∧
      b1.packed = true ∧ b1.nextChild = samplePage.nextChild ∧ b1.parent = samplePage.parent :=
  (pack_keeps smallLayout smallLayout_sane samplePage 3
    (pageSizes_of_leafCheck smallLayout ascending samplePage (by decide) (by decide))).2.2 rfl

/-- The position that a `pack` that returned leaves in `refPos`. -/
theorem pack_refPos_of_ok (c : Layout) (b : BtreeBucket) (refPos : Nat) (b1 : BtreeBucket)
    (r1 : Nat) (hr : refPos ≤ b.keys.length) (h : pack c b refPos = .ok (b1, r1)) :
    (b.packed = true → b1 = b ∧ r1 = refPos) ∧
    (b.packed = false →
      r1 = (((b.keys.take refPos).enum.filter (fun p => !mayDropKey p.1 p.2 refPos))).length) ∧
    (refPos < b.keys.length → b1.keys.get? r1 = b.keys.get? refPos) ∧
    (refPos = b.keys.length → r1 = b1.keys.length) := by
  by_cases hp : b.packed = true
  · have h0 : pack c b refPos = .ok (b, refPos) := by
      unfold pack
      rw [if_pos hp]
    rw [h0] at h
    simp only [Except.ok.injEq, Prod.mk.injEq] at h
    obtain ⟨rfl, rfl⟩ := h
    refine ⟨fun _ => ⟨rfl, rfl⟩, fun hf => ?_, fun _ => rfl, fun h => h⟩
    rw [hp] at hf
    cases hf
  · have hpf : b.packed = false := by simpa using hp
    rw [pack_eq_of_not_packed c b refPos hpf] at h
    simp only at h
    split at h
    · cases h
    · simp only [Except.ok.injEq, Prod.mk.injEq] at h
      obtain ⟨hb1, hr1⟩ := h
      have hcount : (((b.keys.take refPos).enum.filter
          (fun p => !mayDropKey p.1 p.2 refPos))).length
          = (keepFrom refPos 0 (b.keys.take refPos)).length := by
        rw [keepFrom_eq_filter, List.length_map]
        rfl
      have hk1 : b1.keys = keepFrom refPos 0 b.keys := by rw [← hb1]
      by_cases hlt : refPos < b.keys.length
      · have hpr : packRef refPos 0 0 b.keys
            = (keepFrom refPos 0 (b.keys.take refPos)).length := by
          unfold packRef
          rw [if_pos ⟨Nat.zero_le _, by omega⟩]
          simp
        have hm := keepFrom_take_length_le refPos b.keys 0 refPos
        have hm2 := keepFrom_length_le refPos (b.keys.take refPos) 0
        rw [List.length_take] at hm2
        have hne : packRef refPos 0 0 b.keys ≠ b.keys.length := by
          rw [hpr]
          omega
        rw [if_neg hne, hpr] at hr1
        refine ⟨fun hf => absurd hf hp, fun _ => by rw [hcount]; exact hr1.symm, ?_,
          fun he => by omega⟩
        intro _
        obtain ⟨k, hk⟩ := get?_some_of_lt b.keys refPos hlt
        have hsplit : b.keys = b.keys.take refPos ++ k :: b.keys.drop (refPos + 1) :=
          eq_take_cons_drop _ _ _ hk
        have hlen : (b.keys.take refPos).length = refPos := by
          rw [List.length_take]
          omega
        have hkeep : keepFrom refPos 0 b.keys
            = keepFrom refPos 0 (b.keys.take refPos) ++
                k :: keepFrom refPos (refPos + 1) (b.keys.drop (refPos + 1)) := by
          conv_lhs => rw [hsplit]
          rw [keepFrom_append, hlen, Nat.zero_add, keepFrom_at_ref]
        rw [hk1, hkeep, ← hr1, hk]
        exact get?_append_length _ _ _
      · have hrn : refPos = b.keys.length := by omega
        have hpr : packRef refPos 0 0 b.keys = b.keys.length := by
          unfold packRef
          rw [if_neg (by omega)]
          exact hrn
        rw [if_pos hpr] at hr1
        refine ⟨fun hf => absurd hf hp, fun _ => ?_, fun h => absurd h hlt, fun _ => ?_⟩
        · rw [hcount, ← hr1, hrn, List.take_length]
        · rw [hk1]
          exact hr1.symm

/-- C26: for a page that satisfies the size condition and a position `refPos`
with `0 <= refPos <= n`, `pack(refPos)` returns and leaves in `refPos` the
number of the slots kept whose index was below the original `refPos` (every
slot is kept when the `Packed` flag is set); so the new `refPos` designates the
slot that the original `refPos` designated, which is kept, or the new end of
the slot array when the original `refPos` was `n`. -/
theorem pack_refPos (c : Layout) (hc : Layout.Sane c) (b : BtreeBucket) (refPos : Nat)
    (hsz : PageSizes c b) (hr : refPos ≤ b.keys.length) :
    ∃ b1 r1, pack c b refPos = .ok (b1, r1) ∧
      (b.packed = true → b1 = b ∧ r1 = refPos) ∧
      (b.packed = false →
        r1 = (((b.keys.take refPos).enum.filter
          (fun p => !mayDropKey p.1 p.2 refPos))).length) ∧
      (refPos < b.keys.length → b1.keys.get? r1 = b.keys.get? refPos) ∧
      (refPos = b.keys.length → r1 = b1.keys.length) := by
  obtain ⟨b1, r1, h, _⟩ := pack_spec c hc b refPos hsz hr
  exact ⟨b1, r1, h, pack_refPos_of_ok c b refPos b1 r1 hr h⟩

/-- A run of C26 on the sample page, whose second slot is unused: the position 2
becomes the position 1. -/
theorem pack_refPos_witness :
    ∃ b1 r1, pack smallLayout samplePage 2 = .ok (b1, r1) ∧
      (samplePage.packed = true → b1 = samplePage ∧ r1 = 2) ∧
      (samplePage.packed = false →
        r1 = (((samplePage.keys.take 2).enum.filter
          (fun p => !mayDropKey p.1 p.2 2))).length) ∧
      (2 < samplePage.keys.length → b1.keys.get? r1 = samplePage.keys.get? 2) ∧
      (2 = samplePage.keys.length → r1 = b1.keys.length) :=
  pack_refPos smallLayout smallLayout_sane samplePage 2
    (pageSizes_of_leafCheck smallLayout ascending samplePage (by decide) (by decide))
    (by decide)

end BtreeBucket
end mongo
namespace mongo
namespace BtreeBucket

/-! ## The split position -/

theorem keyBytes_singleton (k : _KeyNode) : keyBytes [k] = k.key.objsize := by
  simp [keyBytes]

/-- The loop of `splitPos` stops at the greatest index from which the key
sizes, added to what was accumulated, exceed the limit. -/
theorem splitPosLoop_spec (lim : Int) :
    ∀ (R : List _KeyNode) (acc : Int),
      (splitPosLoop lim R (R.length - 1) acc < R.length ∧
        acc + keyBytes (R.reverse.drop (splitPosLoop lim R (R.length - 1) acc)) > lim ∧
        ∀ i, splitPosLoop lim R (R.length - 1) acc < i → i < R.length →
          acc + keyBytes (R.reverse.drop i) ≤ lim) ∨
      (splitPosLoop lim R (R.length - 1) acc = 0 ∧
        ∀ i, i < R.length → acc + keyBytes (R.reverse.drop i) ≤ lim) := by
  intro R
  induction R with
  | nil =>
    intro acc
    right
    exact ⟨rfl, fun i hi => absurd hi (Nat.not_lt_zero i)⟩
  | cons k R ih =>
    intro acc
    have hdrop : ∀ i, i ≤ R.length →
        keyBytes ((k :: R).reverse.drop i) = keyBytes (R.reverse.drop i) + k.key.objsize := by
      intro i hi
      rw [List.reverse_cons, List.drop_append_of_le_length (by rw [List.length_reverse]; exact hi),
        keyBytes_append, keyBytes_singleton]
    have hlen : (k :: R).length - 1 = R.length := by simp
    rw [hlen]
    unfold splitPosLoop
    simp only
    by_cases hgt : acc + k.key.objsize > lim
    · rw [if_pos hgt]
      left
      refine ⟨by simp, ?_, ?_⟩
      · rw [hdrop R.length (le_refl _)]
        have : R.reverse.drop R.length = [] := by
          rw [List.drop_eq_nil_iff, List.length_reverse]
        rw [this]
        simp only [keyBytes]
        linarith
      · intro i h1 h2
        simp only [List.length_cons] at h2
        omega
    · rw [if_neg hgt]
      rcases ih (acc + k.key.objsize) with ⟨h1, h2, h3⟩ | ⟨h1, h2⟩
      · left
        refine ⟨by simp only [List.length_cons]; omega, ?_, ?_⟩
        · rw [hdrop _ (by omega)]
          linarith
        · intro i hi1 hi2
          simp only [List.length_cons] at hi2
          by_cases hiR : i < R.length
          · rw [hdrop i (by omega)]
            have := h3 i hi1 hiR
            linarith
          · have hiR2 : i = R.length := by omega
            rw [hiR2, hdrop R.length (le_refl _)]
            have : R.reverse.drop R.length = [] := by
              rw [List.drop_eq_nil_iff, List.length_reverse]
            rw [this]
            simp only [keyBytes]
            linarith
      · right
        refine ⟨h1, ?_⟩
        intro i hi
        simp only [List.length_cons] at hi
        by_cases hiR : i < R.length
        · rw [hdrop i (by omega)]
          have := h2 i hiR
          linarith
        · have hiR2 : i = R.length := by omega
          rw [hiR2, hdrop R.length (le_refl _)]
          have : R.reverse.drop R.length = [] := by
            rw [List.drop_eq_nil_iff, List.length_reverse]
          rw [this]
          simp only [keyBytes]
          linarith

/-- C23: for a page with `n > 2` and every `keypos`, `splitPos(keypos)` returns
the value `s0` clamped into `[1, n-2]`, where `s0` is the greatest index `i`
such that the key sizes of the slots `i..n-1` add up to more than `topSize / d`
(`d = 10` when `keypos == n` and `2` otherwise, the division truncating), or 0
when there is no such index; in particular `1 <= splitPos(keypos) <= n-2`. -/
theorem splitPos_value (b : BtreeBucket) (keypos : Nat) (hn : 2 < b.keys.length) :
    ∃ s0 sp,
      ((s0 < b.keys.length ∧
          keyBytes (b.keys.drop s0)
            > b.topSize.tdiv (if keypos = b.keys.length then 10 else 2) ∧
          ∀ i, s0 < i → i < b.keys.length →
            keyBytes (b.keys.drop i)
              ≤ b.topSize.tdiv (if keypos = b.keys.length then 10 else 2)) ∨
        (s0 = 0 ∧ ∀ i, i < b.keys.length →
          keyBytes (b.keys.drop i)
            ≤ b.topSize.tdiv (if keypos = b.keys.length then 10 else 2))) ∧
      sp = (if s0 < 1 then 1 else if s0 > b.keys.length - 2 then b.keys.length - 2 else s0) ∧
      splitPos b keypos = .ok sp ∧ 1 ≤ sp ∧ sp ≤ b.keys.length - 2 := by
  have hspec := splitPosLoop_spec (b.topSize.tdiv (if keypos = b.keys.length then 10 else 2))
    b.keys.reverse 0
  rw [List.length_reverse, List.reverse_reverse] at hspec
  simp only [zero_add] at hspec
  have hrun : splitPos b keypos = .ok
      (if splitPosLoop (b.topSize.tdiv (if keypos = b.keys.length then 10 else 2))
          b.keys.reverse (b.keys.length - 1) 0 < 1 then 1
        else if splitPosLoop (b.topSize.tdiv (if keypos = b.keys.length then 10 else 2))
          b.keys.reverse (b.keys.length - 1) 0 > b.keys.length - 2 then b.keys.length - 2
        else splitPosLoop (b.topSize.tdiv (if keypos = b.keys.length then 10 else 2))
          b.keys.reverse (b.keys.length - 1) 0) := by
    unfold splitPos
    rw [if_neg (not_not.mpr hn)]
  generalize splitPosLoop (b.topSize.tdiv (if keypos = b.keys.length then 10 else 2))
    b.keys.reverse (b.keys.length - 1) 0 = x at hspec hrun
  refine ⟨x, _, hspec, rfl, hrun, ?_, ?_⟩
  · by_cases h1 : x < 1
    · rw [if_pos h1]
    · rw [if_neg h1]
      by_cases h2 : x > b.keys.length - 2
      · rw [if_pos h2]
        omega
      · rw [if_neg h2]
        omega
  · by_cases h1 : x < 1
    · rw [if_pos h1]
      omega
    · rw [if_neg h1]
      by_cases h2 : x > b.keys.length - 2
      · rw [if_pos h2]
      · rw [if_neg h2]
        omega

/-- A run of C23 on the page of five keys of size 10, for an insertion at the
end. -/
theorem splitPos_value_witness :
    ∃ s0 sp,
      ((s0 < fiveKeys.keys.length ∧
          keyBytes (fiveKeys.keys.drop s0)
            > fiveKeys.topSize.tdiv (if 5 = fiveKeys.keys.length then 10 else 2) ∧
          ∀ i, s0 < i → i < fiveKeys.keys.length →
            keyBytes (fiveKeys.keys.drop i)
              ≤ fiveKeys.topSize.tdiv (if 5 = fiveKeys.keys.length then 10 else 2)) ∨
        (s0 = 0 ∧ ∀ i, i < fiveKeys.keys.length →
          keyBytes (fiveKeys.keys.drop i)
            ≤ fiveKeys.topSize.tdiv (if 5 = fiveKeys.keys.length then 10 else 2))) ∧
      sp = (if s0 < 1 then 1
        else if s0 > fiveKeys.keys.length - 2 then fiveKeys.keys.length - 2 else s0) ∧
      splitPos fiveKeys 5 = .ok sp ∧ 1 ≤ sp ∧ sp ≤ fiveKeys.keys.length - 2 :=
  splitPos_value fiveKeys 5 (by decide)

/-- C24 (amended): for a page with `n > 2` that is split for a key appended at
its end, with `split = splitPos(n)`, the key sizes of the slots
`split+1..n-1`, which move to the right sibling, add up to `topSize/10` at
most, unless `split = n-2`: then the last slot alone moves, whatever its
size. -/
theorem splitPos_append_share (b : BtreeBucket) (hn : 2 < b.keys.length) :
    ∃ sp, splitPos b b.keys.length = .ok sp ∧
      (keyBytes (b.keys.drop (sp + 1)) ≤ b.topSize.tdiv 10 ∨
        (sp = b.keys.length - 2 ∧ ∃ kn, b.keys.drop (sp + 1) = [kn])) := by
  obtain ⟨s0, sp, hs0, hsp, hrun, h1, h2⟩ := splitPos_value b b.keys.length hn
  rw [if_pos rfl] at hs0
  refine ⟨sp, hrun, ?_⟩
  by_cases hlast : sp = b.keys.length - 2
  · by_cases hle : keyBytes (b.keys.drop (sp + 1)) ≤ b.topSize.tdiv 10
    · exact Or.inl hle
    · right
      refine ⟨hlast, ?_⟩
      obtain ⟨kn, hkn⟩ := get?_some_of_lt b.keys (sp + 1) (by omega)
      refine ⟨kn, ?_⟩
      rw [eq_take_cons_drop _ _ _ hkn]
      have hd : b.keys.drop (sp + 1 + 1) = [] := by
        rw [List.drop_eq_nil_iff]
        omega
      rw [List.drop_append_of_le_length (by rw [List.length_take]; omega)]
      rw [List.drop_eq_nil_of_le (by rw [List.length_take]; omega), hd]
      rfl
  · left
    have hs0lt : s0 < sp + 1 := by
      rw [hsp] at hlast ⊢
      by_cases g1 : s0 < 1
      · rw [if_pos g1]
        omega
      · rw [if_neg g1] at hlast ⊢
        by_cases g2 : s0 > b.keys.length - 2
        · rw [if_pos g2] at hlast
          exact absurd rfl hlast
        · rw [if_neg g2]
          omega
    rcases hs0 with ⟨_, _, h3⟩ | ⟨_, h3⟩
    · exact h3 (sp + 1) hs0lt (by omega)
    · exact h3 (sp + 1) (by omega)

/-- A run of C24 (amended) on the page of five keys of size 10. -/
theorem splitPos_append_share_witness :
    ∃ sp, splitPos fiveKeys fiveKeys.keys.length = .ok sp ∧
      (keyBytes (fiveKeys.keys.drop (sp + 1)) ≤ fiveKeys.topSize.tdiv 10 ∨
        (sp = fiveKeys.keys.length - 2 ∧ ∃ kn, fiveKeys.keys.drop (sp + 1) = [kn])) :=
  splitPos_append_share fiveKeys (by decide)

/-- C24 (the claim fails): the packed page with five keys of size 10 has no room
for a sixth key, so an insertion at its end splits it; `splitPos(5)` is 3, and
the slot 4 that moves to the right sibling has 10 key bytes, more than
`topSize/10 = 5`. -/
theorem splitPos_append_counterexample :
    basicInsert smallLayout fiveKeys 5 ⟨1, 12⟩ (sampleKey 9 10) = .ok (false, fiveKeys, 5) ∧
    splitPos fiveKeys 5 = .ok 3 ∧
    keyBytes (fiveKeys.keys.drop (3 + 1)) = 10 ∧ fiveKeys.topSize.tdiv 10 = 5 ∧
    ¬ keyBytes (fiveKeys.keys.drop (3 + 1)) ≤ fiveKeys.topSize.tdiv 10 :=
  ⟨rfl, rfl, rfl, rfl, by decide⟩

end BtreeBucket
end mongo
namespace mongo
namespace BtreeBucket

/-! ## The comparison `customBSONCmp` -/

theorem mask_step (i : Nat) : (2 ^ i % 2 ^ 32 * 2) % 2 ^ 32 = 2 ^ (i + 1) % 2 ^ 32 := by
  rw [Nat.mod_mul_mod]
  rfl

/-- The first loop of `customBSONCmp` on lists that are long enough, the mask
being the one of position `i0`. -/
theorem customPrefix_spec (o : Ordering) :
    ∀ (k i0 : Nat) (ls rs : List Int), k ≤ ls.length → k ≤ rs.length →
      (∀ i a r, i < k →
        (∀ j, j < i → ∀ a1 r1, ls.get? j = some a1 → rs.get? j = some r1 →
          elemCompare a1 r1 = 0) →
        ls.get? i = some a → rs.get? i = some r → elemCompare a r ≠ 0 →
        customPrefix o (2 ^ i0 % 2 ^ 32) k ls rs
          = .ok (some (fieldCmp o (i0 + i) a r), 2 ^ (i0 + i) % 2 ^ 32)) ∧
      ((∀ j, j < k → ∀ a1 r1, ls.get? j = some a1 → rs.get? j = some r1 →
          elemCompare a1 r1 = 0) →
        customPrefix o (2 ^ i0 % 2 ^ 32) k ls rs = .ok (none, 2 ^ (i0 + k) % 2 ^ 32)) := by
  intro k
  induction k with
  | zero =>
    intro i0 ls rs _ _
    refine ⟨fun i a r hi => absurd hi (Nat.not_lt_zero i), fun _ => ?_⟩
    cases ls <;> cases rs <;> rfl
  | succ k ih =>
    intro i0 ls rs hl hr
    cases ls with
    | nil => simp at hl
    | cons a0 ls =>
    cases rs with
    | nil => simp at hr
    | cons r0 rs =>
    simp only [List.length_cons, Nat.add_le_add_iff_right] at hl hr
    obtain ⟨ih1, ih2⟩ := ih (i0 + 1) ls rs hl hr
    have hneg : ∀ x : Int, -x = 0 ↔ x = 0 := fun x => neg_eq_zero
    constructor
    · intro i a r hi hbefore ha hrr hne
      cases i with
      | zero =>
        simp only [List.get?_cons_zero, Option.some.injEq] at ha hrr
        subst ha
        subst hrr
        unfold customPrefix
        simp only [Nat.add_zero]
        have hx : (if o.descending (2 ^ i0 % 2 ^ 32) then -elemCompare a0 r0
            else elemCompare a0 r0) ≠ 0 := by
          split
          · exact fun h => hne ((hneg _).mp h)
          · exact hne
        rw [if_pos hx]
        rfl
      | succ i =>
        have h0 : elemCompare a0 r0 = 0 := hbefore 0 (Nat.succ_pos i) a0 r0 rfl rfl
        unfold customPrefix
        simp only [h0, neg_zero, ite_self, ne_eq, not_true_eq_false, if_false]
        rw [mask_step, ih1 i a r (by omega)
          (fun j hj a1 r1 h1 h2 => hbefore (j + 1) (by omega) a1 r1 h1 h2) ha hrr hne]
        have : i0 + 1 + i = i0 + (i + 1) := by omega
        rw [this]
    · intro hall
      have h0 : elemCompare a0 r0 = 0 := hall 0 (Nat.succ_pos k) a0 r0 rfl rfl
      unfold customPrefix
      simp only [h0, neg_zero, ite_self, ne_eq, not_true_eq_false, if_false]
      rw [mask_step, ih2 (fun j hj a1 r1 h1 h2 => hall (j + 1) (by omega) a1 r1 h1 h2)]
      have : i0 + 1 + k = i0 + (k + 1) := by omega
      rw [this]

/-- The second loop of `customBSONCmp` on vectors that are long enough, the mask
being the one of position `i0`. -/
theorem customRest_spec (o : Ordering) (direction : Int) :
    ∀ (ls : List Int) (i0 : Nat) (rs : List Int) (incs : List Bool),
      ls.length ≤ rs.length → ls.length ≤ incs.length →
      (∀ i a r,
        (∀ j, j < i → ∀ a1 r1, ls.get? j = some a1 → rs.get? j = some r1 →
          elemCompare a1 r1 = 0 ∧ incs.get? j = some true) →
        ls.get? i = some a → rs.get? i = some r → elemCompare a r ≠ 0 →
        customRest o direction (2 ^ i0 % 2 ^ 32) ls rs incs
          = .ok (fieldCmp o (i0 + i) a r)) ∧
      (∀ i a r,
        (∀ j, j < i → ∀ a1 r1, ls.get? j = some a1 → rs.get? j = some r1 →
          elemCompare a1 r1 = 0 ∧ incs.get? j = some true) →
        ls.get? i = some a → rs.get? i = some r → elemCompare a r = 0 →
        incs.get? i = some false →
        customRest o direction (2 ^ i0 % 2 ^ 32) ls rs incs = .ok (-direction)) ∧
      ((∀ j, j < ls.length → ∀ a1 r1, ls.get? j = some a1 → rs.get? j = some r1 →
          elemCompare a1 r1 = 0 ∧ incs.get? j = some true) →
        customRest o direction (2 ^ i0 % 2 ^ 32) ls rs incs = .ok 0) := by
  intro ls
  induction ls with
  | nil =>
    intro i0 rs incs _ _
    refine ⟨?_, ?_, fun _ => ?_⟩
    · intro i a r _ ha
      cases ha
    · intro i a r _ ha
      cases ha
    · unfold customRest
      rfl
  | cons a0 ls ih =>
    intro i0 rs incs hr hi
    cases rs with
    | nil => simp at hr
    | cons r0 rs =>
    cases incs with
    | nil => simp at hi
    | cons inc0 incs =>
    simp only [List.length_cons, Nat.add_le_add_iff_right] at hr hi
    obtain ⟨ih1, ih2, ih3⟩ := ih (i0 + 1) rs incs hr hi
    have hneg : ∀ x : Int, -x = 0 ↔ x = 0 := fun x => neg_eq_zero
    have hstep : elemCompare a0 r0 = 0 → inc0 = true →
        customRest o direction (2 ^ i0 % 2 ^ 32) (a0 :: ls) (r0 :: rs) (inc0 :: incs)
          = customRest o direction (2 ^ (i0 + 1) % 2 ^ 32) ls rs incs := by
      intro h0 hinc
      rw [customRest]
      simp only [h0, neg_zero, ite_self, ne_eq, not_true_eq_false, if_false, hinc]
      rw [mask_step]
    refine ⟨?_, ?_, ?_⟩
    · intro i a r hbefore ha hrr hne
      cases i with
      | zero =>
        simp only [List.get?_cons_zero, Option.some.injEq] at ha hrr
        subst ha
        subst hrr
        rw [customRest]
        simp only [Nat.add_zero]
        have hx : (if o.descending (2 ^ i0 % 2 ^ 32) then -elemCompare a0 r0
            else elemCompare a0 r0) ≠ 0 := by
          split
          · exact fun h => hne ((hneg _).mp h)
          · exact hne
        rw [if_pos hx]
        rfl
      | succ i =>
        obtain ⟨h0, hinc⟩ := hbefore 0 (Nat.succ_pos i) a0 r0 rfl rfl
        simp only [List.get?_cons_zero, Option.some.injEq] at hinc
        rw [hstep h0 hinc, ih1 i a r
          (fun j hj a1 r1 h1 h2 => hbefore (j + 1) (by omega) a1 r1 h1 h2) ha hrr hne]
        have : i0 + 1 + i = i0 + (i + 1) := by omega
        rw [this]
    · intro i a r hbefore ha hrr heq hni
      cases i with
      | zero =>
        simp only [List.get?_cons_zero, Option.some.injEq] at ha hrr hni
        subst ha
        subst hrr
        subst hni
        rw [customRest]
        simp only [heq, neg_zero, ite_self, ne_eq, not_true_eq_false, if_false,
          Bool.false_eq_true, not_false_eq_true, if_true]
      | succ i =>
        obtain ⟨h0, hinc⟩ := hbefore 0 (Nat.succ_pos i) a0 r0 rfl rfl
        simp only [List.get?_cons_zero, Option.some.injEq] at hinc
        rw [hstep h0 hinc]
        exact ih2 i a r
          (fun j hj a1 r1 h1 h2 => hbefore (j + 1) (by omega) a1 r1 h1 h2) ha hrr heq hni
    · intro hall
      obtain ⟨h0, hinc⟩ := hall 0 (Nat.succ_pos _) a0 r0 rfl rfl
      simp only [List.get?_cons_zero, Option.some.injEq] at hinc
      rw [hstep h0 hinc]
      exact ih3 (fun j hj a1 r1 h1 h2 =>
        hall (j + 1) (by simp only [List.length_cons]; omega) a1 r1 h1 h2)

end BtreeBucket
end mongo
namespace mongo
namespace BtreeBucket

/-- C22: with `l` and `rBegin` having at least `rBeginLen` fields and the vectors
`rEnd` and `rEndInclusive` at least as many elements as `l` has fields,
`customBSONCmp` returns: the comparison of the first field among the first
`rBeginLen` in which `l` differs from `rBegin`, negated when the position of
that field is descending in `o`, if there is one; otherwise `-direction` when
`rSup` is true; otherwise, going through the remaining fields of `l` against the
elements of `rEnd` at the same positions, the comparison (negated when the
position is descending) of the first field that differs, or `-direction` at the
first position that compares equal but is not inclusive, whichever comes first,
and 0 when all the remaining fields compare equal at inclusive positions. -/
theorem customBSONCmp_spec (l rBegin : BSONObj) (rBeginLen : Nat) (rSup : Bool)
    (rEnd : List Int) (rEndInclusive : List Bool) (o : Ordering) (direction : Int)
    (hl : rBeginLen ≤ l.elems.length) (hb : rBeginLen ≤ rBegin.elems.length)
    (he : l.elems.length ≤ rEnd.length) (hi : l.elems.length ≤ rEndInclusive.length) :
    (∀ i a r, i < rBeginLen →
      (∀ j, j < i → ∀ a1 r1, l.elems.get? j = some a1 → rBegin.elems.get? j = some r1 →
        elemCompare a1 r1 = 0) →
      l.elems.get? i = some a → rBegin.elems.get? i = some r → elemCompare a r ≠ 0 →
      customBSONCmp l rBegin rBeginLen rSup rEnd rEndInclusive o direction
        = .ok (fieldCmp o i a r)) ∧
    ((∀ j, j < rBeginLen → ∀ a1 r1, l.elems.get? j = some a1 →
        rBegin.elems.get? j = some r1 → elemCompare a1 r1 = 0) →
      (rSup = true →
        customBSONCmp l rBegin rBeginLen rSup rEnd rEndInclusive o direction
          = .ok (-direction)) ∧
      (rSup = false →
        (∀ i a r, rBeginLen ≤ i →
          (∀ j, rBeginLen ≤ j → j < i → ∀ a1 r1, l.elems.get? j = some a1 →
            rEnd.get? j = some r1 →
            elemCompare a1 r1 = 0 ∧ rEndInclusive.get? j = some true) →
          l.elems.get? i = some a → rEnd.get? i = some r → elemCompare a r ≠ 0 →
          customBSONCmp l rBegin rBeginLen rSup rEnd rEndInclusive o direction
            = .ok (fieldCmp o i a r)) ∧
        (∀ i a r, rBeginLen ≤ i →
          (∀ j, rBeginLen ≤ j → j < i → ∀ a1 r1, l.elems.get? j = some a1 →
            rEnd.get? j = some r1 →
            elemCompare a1 r1 = 0 ∧ rEndInclusive.get? j = some true) →
          l.elems.get? i = some a → rEnd.get? i = some r → elemCompare a r = 0 →
          rEndInclusive.get? i = some false →
          customBSONCmp l rBegin rBeginLen rSup rEnd rEndInclusive o direction
            = .ok (-direction)) ∧
        ((∀ j, rBeginLen ≤ j → j < l.elems.length → ∀ a1 r1, l.elems.get? j = some a1 →
            rEnd.get? j = some r1 →
            elemCompare a1 r1 = 0 ∧ rEndInclusive.get? j = some true) →
          customBSONCmp l rBegin rBeginLen rSup rEnd rEndInclusive o direction = .ok 0))) := by
  obtain ⟨p1, p2⟩ := customPrefix_spec o rBeginLen 0 l.elems rBegin.elems hl hb
  have hm0 : (2 : Nat) ^ 0 % 2 ^ 32 = 1 := rfl
  rw [hm0] at p1 p2
  simp only [Nat.zero_add] at p1 p2
  have hr1 : (l.elems.drop rBeginLen).length ≤ (rEnd.drop rBeginLen).length := by
    rw [List.length_drop, List.length_drop]
    omega
  have hr2 : (l.elems.drop rBeginLen).length ≤ (rEndInclusive.drop rBeginLen).length := by
    rw [List.length_drop, List.length_drop]
    omega
  obtain ⟨q1, q2, q3⟩ := customRest_spec o direction (l.elems.drop rBeginLen) rBeginLen
    (rEnd.drop rBeginLen) (rEndInclusive.drop rBeginLen) hr1 hr2
  constructor
  · intro i a r hi1 hbefore ha hrr hne
    unfold customBSONCmp
    rw [p1 i a r hi1 hbefore ha hrr hne]
  · intro hall
    have hpre := p2 hall
    constructor
    · intro hs
      unfold customBSONCmp
      rw [hpre]
      simp only [hs, if_true]
    · intro hs
      have hunf : customBSONCmp l rBegin rBeginLen rSup rEnd rEndInclusive o direction
          = customRest o direction (2 ^ rBeginLen % 2 ^ 32) (l.elems.drop rBeginLen)
            (rEnd.drop rBeginLen) (rEndInclusive.drop rBeginLen) := by
        unfold customBSONCmp
        rw [hpre]
        simp only [hs, Bool.false_eq_true, if_false]
      rw [hunf]
      -- positions of the remaining fields
      have hshift : ∀ i, (∀ j, rBeginLen ≤ j → j < i → ∀ a1 r1, l.elems.get? j = some a1 →
            rEnd.get? j = some r1 →
            elemCompare a1 r1 = 0 ∧ rEndInclusive.get? j = some true) →
          ∀ j, j < i - rBeginLen → ∀ a1 r1, (l.elems.drop rBeginLen).get? j = some a1 →
            (rEnd.drop rBeginLen).get? j = some r1 →
            elemCompare a1 r1 = 0 ∧ (rEndInclusive.drop rBeginLen).get? j = some true := by
        intro i h j hj a1 r1 h1 h2
        rw [List.get?_drop] at h1 h2 ⊢
        exact h (rBeginLen + j) (by omega) (by omega) a1 r1 h1 h2
      refine ⟨?_, ?_, ?_⟩
      · intro i a r hi1 hbefore ha hrr hne
        have := q1 (i - rBeginLen) a r (hshift i hbefore)
          (by rw [List.get?_drop]; rw [show rBeginLen + (i - rBeginLen) = i by omega]; exact ha)
          (by rw [List.get?_drop]; rw [show rBeginLen + (i - rBeginLen) = i by omega]; exact hrr)
          hne
        rw [this, show rBeginLen + (i - rBeginLen) = i by omega]
      · intro i a r hi1 hbefore ha hrr heq hni
        exact q2 (i - rBeginLen) a r (hshift i hbefore)
          (by rw [List.get?_drop]; rw [show rBeginLen + (i - rBeginLen) = i by omega]; exact ha)
          (by rw [List.get?_drop]; rw [show rBeginLen + (i - rBeginLen) = i by omega]; exact hrr)
          heq
          (by rw [List.get?_drop]; rw [show rBeginLen + (i - rBeginLen) = i by omega]; exact hni)
      · intro hall2
        apply q3
        intro j hj a1 r1 h1 h2
        rw [List.length_drop] at hj
        rw [List.get?_drop] at h1 h2 ⊢
        exact hall2 (rBeginLen + j) (by omega) (by omega) a1 r1 h1 h2

/-- A run of C22: the key `{a:6, b:1}` against the target with `keyBegin = {a:5}`,
`keyBeginLen = 1` and `afterKey` set compares by its first field. -/
theorem customBSONCmp_spec_witness :
    customBSONCmp ⟨10, [6, 1]⟩ ⟨5, [5]⟩ 1 true [0, 0] [true, true] ascending 1
      = .ok (fieldCmp ascending 0 6 5) :=
  (customBSONCmp_spec ⟨10, [6, 1]⟩ ⟨5, [5]⟩ 1 true [0, 0] [true, true] ascending 1
    (by decide) (by decide) (by decide) (by decide)).1 0 6 5 (by decide)
    (fun j hj => absurd hj (Nat.not_lt_zero j)) rfl rfl (by decide)

end BtreeBucket
end mongo
namespace mongo
namespace BtreeBucket

/-! ## `customBSONCmp` follows the order of the keys -/

theorem SignLe.self (c : Int) : SignLe c c := ⟨fun h => h, fun h => h⟩

theorem SignLe.of_neg {c1 : Int} (c2 : Int) (h : c1 < 0) : SignLe c1 c2 :=
  ⟨fun h0 => absurd h (not_lt.mpr h0), fun h0 => absurd h (not_lt.mpr (le_of_lt h0))⟩

theorem SignLe.of_pos (c1 : Int) {c2 : Int} (h : 0 < c2) : SignLe c1 c2 :=
  ⟨fun _ => le_of_lt h, fun _ => h⟩

/-- The value of a field as the comparator sees it at the walking bit `mask`. -/
theorem signed_elemCompare (o : Ordering) (mask : Nat) (a r : Int) :
    (if o.descending mask then -elemCompare a r else elemCompare a r)
      = elemCompare (if o.descending mask then -a else a)
          (if o.descending mask then -r else r) := by
  split
  · rw [elemCompare_neg]
  · rfl

theorem customPrefix_total (o : Ordering) :
    ∀ (k mask : Nat) (ls rs : List Int), k ≤ ls.length → k ≤ rs.length →
      ∃ r m, customPrefix o mask k ls rs = .ok (r, m) := by
  intro k
  induction k with
  | zero =>
    intro mask ls rs _ _
    exact ⟨none, mask, by cases ls <;> cases rs <;> rfl⟩
  | succ k ih =>
    intro mask ls rs hl hr
    cases ls with
    | nil => simp at hl
    | cons a ls =>
    cases rs with
    | nil => simp at hr
    | cons r rs =>
    simp only [List.length_cons, Nat.add_le_add_iff_right] at hl hr
    rw [customPrefix]
    generalize (if o.descending mask then -elemCompare a r else elemCompare a r) = x
    by_cases hx : x ≠ 0
    · rw [if_pos hx]
      exact ⟨_, _, rfl⟩
    · rw [if_neg hx]
      exact ih _ ls rs hl hr

theorem customRest_total (o : Ordering) (direction : Int) :
    ∀ (ls : List Int) (mask : Nat) (rs : List Int) (incs : List Bool),
      ls.length ≤ rs.length → ls.length ≤ incs.length →
      ∃ c, customRest o direction mask ls rs incs = .ok c := by
  intro ls
  induction ls with
  | nil =>
    intro mask rs incs _ _
    exact ⟨0, by unfold customRest; rfl⟩
  | cons a ls ih =>
    intro mask rs incs hr hi
    cases rs with
    | nil => simp at hr
    | cons r rs =>
    cases incs with
    | nil => simp at hi
    | cons inc incs =>
    simp only [List.length_cons, Nat.add_le_add_iff_right] at hr hi
    rw [customRest]
    generalize (if o.descending mask then -elemCompare a r else elemCompare a r) = x
    by_cases hx : x ≠ 0
    · rw [if_pos hx]
      exact ⟨_, rfl⟩
    · rw [if_neg hx]
      cases inc with
      | false =>
        simp only [Bool.false_eq_true, not_false_eq_true, if_true]
        exact ⟨_, rfl⟩
      | true =>
        simp only [not_true_eq_false, if_false]
        exact ih _ rs incs hr hi

/-- The first loop of `customBSONCmp` on two keys, the first of which is not
above the second. -/
theorem customPrefix_mono (o : Ordering) :
    ∀ (k mask : Nat) (ls1 ls2 rs : List Int), ls1.length = ls2.length →
      k ≤ ls1.length → k ≤ rs.length → normElems o mask ls1 ≤ normElems o mask ls2 →
      ∃ r1 m1 r2 m2, customPrefix o mask k ls1 rs = .ok (r1, m1) ∧
        customPrefix o mask k ls2 rs = .ok (r2, m2) ∧
        match r1, r2 with
        | some x1, some x2 => SignLe x1 x2
        | some x1, none => x1 < 0
        | none, some x2 => 0 < x2
        | none, none => m1 = m2 ∧
            normElems o m1 (ls1.drop k) ≤ normElems o m1 (ls2.drop k) := by
  intro k
  induction k with
  | zero =>
    intro mask ls1 ls2 rs _ _ _ hle
    refine ⟨none, mask, none, mask, by cases ls1 <;> cases rs <;> rfl,
      by cases ls2 <;> cases rs <;> rfl, rfl, hle⟩
  | succ k ih =>
    intro mask ls1 ls2 rs hlen hl hr hle
    cases ls1 with
    | nil => simp at hl
    | cons a1 t1 =>
    cases ls2 with
    | nil => simp at hlen
    | cons a2 t2 =>
    cases rs with
    | nil => simp at hr
    | cons r rt =>
    simp only [List.length_cons, Nat.add_le_add_iff_right, Nat.add_right_cancel_iff]
      at hlen hl hr
    have hl2 : k ≤ t2.length := hlen ▸ hl
    simp only [normElems] at hle
    rw [le_iff_lt_or_eq, intList_cons_lt_cons] at hle
    have hs1 := signed_elemCompare o mask a1 r
    have hs2 := signed_elemCompare o mask a2 r
    obtain ⟨q1, _, q3⟩ := elemCompare_sign (if o.descending mask then -a1 else a1)
      (if o.descending mask then -r else r)
    obtain ⟨p1, _, p3⟩ := elemCompare_sign (if o.descending mask then -a2 else a2)
      (if o.descending mask then -r else r)
    have hun1 : customPrefix o mask (k + 1) (a1 :: t1) (r :: rt) =
        if (if o.descending mask then -elemCompare a1 r else elemCompare a1 r) ≠ 0 then
          .ok (some (if o.descending mask then -elemCompare a1 r else elemCompare a1 r), mask)
        else customPrefix o ((mask * 2) % 2 ^ 32) k t1 rt := by
      rw [customPrefix]
    have hun2 : customPrefix o mask (k + 1) (a2 :: t2) (r :: rt) =
        if (if o.descending mask then -elemCompare a2 r else elemCompare a2 r) ≠ 0 then
          .ok (some (if o.descending mask then -elemCompare a2 r else elemCompare a2 r), mask)
        else customPrefix o ((mask * 2) % 2 ^ 32) k t2 rt := by
      rw [customPrefix]
    rw [hun1, hun2, hs1, hs2]
    generalize (if o.descending mask then -a1 else a1) = n1 at hle q1 q3
    generalize (if o.descending mask then -a2 else a2) = n2 at hle p1 p3
    generalize (if o.descending mask then -r else r) = nr at q1 q3 p1 p3
    obtain ⟨d1, e1, hd1⟩ := customPrefix_total o k ((mask * 2) % 2 ^ 32) t1 rt hl hr
    obtain ⟨d2, e2, hd2⟩ := customPrefix_total o k ((mask * 2) % 2 ^ 32) t2 rt hl2 hr
    have hdrop1 : (a1 :: t1).drop (k + 1) = t1.drop k := rfl
    have hdrop2 : (a2 :: t2).drop (k + 1) = t2.drop k := rfl
    rcases hle with (hlt | ⟨heq, htl⟩) | heq
    · -- the heads differ
      by_cases hx1 : elemCompare n1 nr = 0
      · have hx2 : 0 < elemCompare n2 nr := by
          apply p3.mpr
          have := (elemCompare_sign n1 nr).2.1.mp hx1
          omega
        rw [if_neg (not_not.mpr hx1), if_pos (ne_of_gt hx2), hd1]
        refine ⟨d1, e1, _, _, rfl, rfl, ?_⟩
        cases d1 with
        | none => exact hx2
        | some x => exact SignLe.of_pos x hx2
      · rw [if_pos hx1]
        by_cases hx2 : elemCompare n2 nr = 0
        · have hneg : elemCompare n1 nr < 0 := by
            apply q1.mpr
            have := (elemCompare_sign n2 nr).2.1.mp hx2
            omega
          rw [if_neg (not_not.mpr hx2), hd2]
          refine ⟨_, _, d2, e2, rfl, rfl, ?_⟩
          cases d2 with
          | none => exact hneg
          | some x => exact SignLe.of_neg x hneg
        · rw [if_pos hx2]
          refine ⟨_, _, _, _, rfl, rfl, ?_⟩
          show SignLe _ _
          by_cases hpos : 0 < elemCompare n1 nr
          · exact SignLe.of_pos _ (p3.mpr (by have := q3.mp hpos; omega))
          · have hneg : elemCompare n1 nr < 0 := by omega
            exact SignLe.of_neg _ hneg
    · -- equal heads, the tails in order
      subst heq
      by_cases hx : elemCompare n1 nr = 0
      · rw [if_neg (not_not.mpr hx), if_neg (not_not.mpr hx)]
        obtain ⟨r1, m1, r2, m2, h1, h2, h3⟩ := ih ((mask * 2) % 2 ^ 32) t1 t2 rt hlen hl hr
          (le_of_lt htl)
        exact ⟨r1, m1, r2, m2, h1, h2, by rw [hdrop1, hdrop2]; exact h3⟩
      · rw [if_pos hx, if_pos hx]
        exact ⟨_, _, _, _, rfl, rfl, SignLe.self _⟩
    · -- equal lists
      simp only [List.cons.injEq] at heq
      obtain ⟨heq1, heq2⟩ := heq
      subst heq1
      by_cases hx : elemCompare n1 nr = 0
      · rw [if_neg (not_not.mpr hx), if_neg (not_not.mpr hx)]
        obtain ⟨r1, m1, r2, m2, h1, h2, h3⟩ := ih ((mask * 2) % 2 ^ 32) t1 t2 rt hlen hl hr
          (le_of_eq heq2)
        exact ⟨r1, m1, r2, m2, h1, h2, by rw [hdrop1, hdrop2]; exact h3⟩
      · rw [if_pos hx, if_pos hx]
        exact ⟨_, _, _, _, rfl, rfl, SignLe.self _⟩

end BtreeBucket
end mongo
namespace mongo
namespace BtreeBucket

/-- The second loop of `customBSONCmp` on two keys, the first of which is not
above the second. -/
theorem customRest_mono (o : Ordering) (direction : Int) :
    ∀ (ls1 ls2 : List Int) (mask : Nat) (rs : List Int) (incs : List Bool),
      ls1.length = ls2.length → ls1.length ≤ rs.length → ls1.length ≤ incs.length →
      normElems o mask ls1 ≤ normElems o mask ls2 →
      ∃ c1 c2, customRest o direction mask ls1 rs incs = .ok c1 ∧
        customRest o direction mask ls2 rs incs = .ok c2 ∧ SignLe c1 c2 := by
  intro ls1
  induction ls1 with
  | nil =>
    intro ls2 mask rs incs hlen _ _ _
    have h2 : ls2 = [] := List.length_eq_zero.mp hlen.symm
    subst h2
    exact ⟨0, 0, by unfold customRest; rfl, by unfold customRest; rfl, SignLe.self 0⟩
  | cons a1 t1 ih =>
    intro ls2 mask rs incs hlen hr hi hle
    cases ls2 with
    | nil => simp at hlen
    | cons a2 t2 =>
    cases rs with
    | nil => simp at hr
    | cons r rt =>
    cases incs with
    | nil => simp at hi
    | cons inc incs =>
    simp only [List.length_cons, Nat.add_le_add_iff_right, Nat.add_right_cancel_iff]
      at hlen hr hi
    simp only [normElems] at hle
    rw [le_iff_lt_or_eq, intList_cons_lt_cons] at hle
    have hs1 := signed_elemCompare o mask a1 r
    have hs2 := signed_elemCompare o mask a2 r
    obtain ⟨q1, _, q3⟩ := elemCompare_sign (if o.descending mask then -a1 else a1)
      (if o.descending mask then -r else r)
    obtain ⟨p1, _, p3⟩ := elemCompare_sign (if o.descending mask then -a2 else a2)
      (if o.descending mask then -r else r)
    have hun : ∀ (a : Int) (tl : List Int),
        customRest o direction mask (a :: tl) (r :: rt) (inc :: incs) =
        if (if o.descending mask then -elemCompare a r else elemCompare a r) ≠ 0 then
          .ok (if o.descending mask then -elemCompare a r else elemCompare a r)
        else if ¬ inc then .ok (-direction)
        else customRest o direction ((mask * 2) % 2 ^ 32) tl rt incs := by
      intro a tl
      rw [customRest]
    rw [hun a1 t1, hun a2 t2, hs1, hs2]
    generalize (if o.descending mask then -a1 else a1) = n1 at hle q1 q3
    generalize (if o.descending mask then -a2 else a2) = n2 at hle p1 p3
    generalize (if o.descending mask then -r else r) = nr at q1 q3 p1 p3
    have hr2 : t2.length ≤ rt.length := hlen ▸ hr
    have hi2 : t2.length ≤ incs.length := hlen ▸ hi
    have htot1 : ∃ c, (if ¬ inc then (.ok (-direction) : Except Err Int)
        else customRest o direction ((mask * 2) % 2 ^ 32) t1 rt incs) = .ok c := by
      by_cases hinc : ¬ inc
      · rw [if_pos hinc]
        exact ⟨_, rfl⟩
      · rw [if_neg hinc]
        exact customRest_total o direction t1 _ rt incs hr hi
    have htot2 : ∃ c, (if ¬ inc then (.ok (-direction) : Except Err Int)
        else customRest o direction ((mask * 2) % 2 ^ 32) t2 rt incs) = .ok c := by
      by_cases hinc : ¬ inc
      · rw [if_pos hinc]
        exact ⟨_, rfl⟩
      · rw [if_neg hinc]
        exact customRest_total o direction t2 _ rt incs hr2 hi2
    have hsame : normElems o ((mask * 2) % 2 ^ 32) t1 ≤ normElems o ((mask * 2) % 2 ^ 32) t2 →
        ∃ c1 c2, (if ¬ inc then (.ok (-direction) : Except Err Int)
          else customRest o direction ((mask * 2) % 2 ^ 32) t1 rt incs) = .ok c1 ∧
          (if ¬ inc then (.ok (-direction) : Except Err Int)
            else customRest o direction ((mask * 2) % 2 ^ 32) t2 rt incs) = .ok c2 ∧
          SignLe c1 c2 := by
      intro htl
      by_cases hinc : ¬ inc
      · rw [if_pos hinc, if_pos hinc]
        exact ⟨_, _, rfl, rfl, SignLe.self _⟩
      · rw [if_neg hinc, if_neg hinc]
        exact ih t2 _ rt incs hlen hr hi htl
    rcases hle with (hlt | ⟨heq, htl⟩) | heq
    · by_cases hx1 : elemCompare n1 nr = 0
      · have hx2 : 0 < elemCompare n2 nr := by
          apply p3.mpr
          have := (elemCompare_sign n1 nr).2.1.mp hx1
          omega
        rw [if_neg (not_not.mpr hx1), if_pos (ne_of_gt hx2)]
        obtain ⟨c1, hc1⟩ := htot1
        exact ⟨c1, _, hc1, rfl, SignLe.of_pos c1 hx2⟩
      · rw [if_pos hx1]
        by_cases hx2 : elemCompare n2 nr = 0
        · have hneg : elemCompare n1 nr < 0 := by
            apply q1.mpr
            have := (elemCompare_sign n2 nr).2.1.mp hx2
            omega
          rw [if_neg (not_not.mpr hx2)]
          obtain ⟨c2, hc2⟩ := htot2
          exact ⟨_, c2, rfl, hc2, SignLe.of_neg c2 hneg⟩
        · rw [if_pos hx2]
          refine ⟨_, _, rfl, rfl, ?_⟩
          by_cases hpos : 0 < elemCompare n1 nr
          · exact SignLe.of_pos _ (p3.mpr (by have := q3.mp hpos; omega))
          · have hneg : elemCompare n1 nr < 0 := by omega
            exact SignLe.of_neg _ hneg
    · subst heq
      by_cases hx : elemCompare n1 nr = 0
      · rw [if_neg (not_not.mpr hx), if_neg (not_not.mpr hx)]
        exact hsame (le_of_lt htl)
      · rw [if_pos hx, if_pos hx]
        exact ⟨_, _, rfl, rfl, SignLe.self _⟩
    · simp only [List.cons.injEq] at heq
      obtain ⟨heq1, heq2⟩ := heq
      subst heq1
      by_cases hx : elemCompare n1 nr = 0
      · rw [if_neg (not_not.mpr hx), if_neg (not_not.mpr hx)]
        exact hsame (le_of_eq heq2)
      · rw [if_pos hx, if_pos hx]
        exact ⟨_, _, rfl, rfl, SignLe.self _⟩

/-- The comparison with the target returns for a key of `m` fields. -/
theorem Target.cmp_total (t : Target) {m : Nat} (hf : t.Fits m) (key : BSONObj)
    (hk : key.elems.length = m) : ∃ c, t.cmp key = .ok c := by
  obtain ⟨r, mk, hp⟩ := customPrefix_total t.order t.keyBeginLen 1 key.elems t.keyBegin.elems
    (by rw [hk]; exact hf.len_le) hf.begin_len
  unfold Target.cmp customBSONCmp
  rw [hp]
  cases r with
  | some x => exact ⟨x, rfl⟩
  | none =>
    simp only
    by_cases hs : t.afterKey = true
    · rw [if_pos hs]
      exact ⟨_, rfl⟩
    · rw [if_neg hs]
      apply customRest_total
      · rw [List.length_drop, List.length_drop, hk]
        have := hf.end_len
        omega
      · rw [List.length_drop, List.length_drop, hk]
        have := hf.inc_len
        omega

/-- The comparison with the target follows the order of the keys: for two keys
of `m` fields, the first not above the second, the sign of the comparison of
the first is at most the sign of the comparison of the second. -/
theorem Target.cmp_mono (t : Target) {m : Nat} (hf : t.Fits m) (key1 key2 : BSONObj)
    (hk1 : key1.elems.length = m) (hk2 : key2.elems.length = m)
    (hle : normElems t.order 1 key1.elems ≤ normElems t.order 1 key2.elems) :
    ∃ c1 c2, t.cmp key1 = .ok c1 ∧ t.cmp key2 = .ok c2 ∧ SignLe c1 c2 := by
  obtain ⟨r1, m1, r2, m2, h1, h2, h3⟩ := customPrefix_mono t.order t.keyBeginLen 1 key1.elems
    key2.elems t.keyBegin.elems (by rw [hk1, hk2]) (by rw [hk1]; exact hf.len_le)
    hf.begin_len hle
  obtain ⟨c1, hc1⟩ := t.cmp_total hf key1 hk1
  obtain ⟨c2, hc2⟩ := t.cmp_total hf key2 hk2
  refine ⟨c1, c2, hc1, hc2, ?_⟩
  unfold Target.cmp customBSONCmp at hc1 hc2
  rw [h1] at hc1
  rw [h2] at hc2
  cases r1 with
  | some x1 =>
    simp only [Except.ok.injEq] at hc1
    subst hc1
    cases r2 with
    | some x2 =>
      simp only [Except.ok.injEq] at hc2
      subst hc2
      exact h3
    | none => exact SignLe.of_neg c2 h3
  | none =>
    cases r2 with
    | some x2 =>
      simp only [Except.ok.injEq] at hc2
      subst hc2
      exact SignLe.of_pos c1 h3
    | none =>
      simp only at h3 hc1 hc2
      obtain ⟨hm, htl⟩ := h3
      subst hm
      by_cases hs : t.afterKey = true
      · rw [if_pos hs] at hc1 hc2
        rw [hc1] at hc2
        simp only [Except.ok.injEq] at hc2
        subst hc2
        exact SignLe.self _
      · rw [if_neg hs] at hc1 hc2
        obtain ⟨d1, d2, hd1, hd2, hd3⟩ := customRest_mono t.order t.direction
          (key1.elems.drop t.keyBeginLen) (key2.elems.drop t.keyBeginLen) m1
          (t.keyEnd.drop t.keyBeginLen) (t.keyEndInclusive.drop t.keyBeginLen)
          (by rw [List.length_drop, List.length_drop, hk1, hk2])
          (by
            rw [List.length_drop, List.length_drop, hk1]
            have := hf.end_len
            omega)
          (by
            rw [List.length_drop, List.length_drop, hk1]
            have := hf.inc_len
            omega)
          htl
        rw [hd1] at hc1
        rw [hd2] at hc2
        simp only [Except.ok.injEq] at hc1 hc2
        subst hc1
        subst hc2
        exact hd3

end BtreeBucket
end mongo
namespace mongo
namespace BtreeBucket

/-! ## The binary search `customFind` -/

theorem Target.cmp_val (t : Target) {m : Nat} (hf : t.Fits m) (k : _KeyNode)
    (hk : k.key.elems.length = m) : t.cmp k.key = .ok (t.val k) := by
  obtain ⟨c, hc⟩ := t.cmp_total hf k.key hk
  unfold Target.val
  rw [hc]

theorem Target.high_mono (t : Target) {c1 c2 : Int} (h : SignLe c1 c2) (h1 : t.high c1) :
    t.high c2 := by
  unfold Target.high at h1 ⊢
  by_cases hd : t.direction > 0
  · rw [if_pos hd] at h1 ⊢
    exact h.1 h1
  · rw [if_neg hd] at h1 ⊢
    exact h.2 h1

/-- The comparison with the target follows the order of the slots. -/
theorem Target.val_mono (t : Target) {m : Nat} (hf : t.Fits m) (k1 k2 : _KeyNode)
    (hk1 : k1.key.elems.length = m) (hk2 : k2.key.elems.length = m)
    (hle : k1.ekey t.order ≤ k2.ekey t.order) : SignLe (t.val k1) (t.val k2) := by
  obtain ⟨c1, c2, h1, h2, h3⟩ := t.cmp_mono hf k1.key k2.key hk1 hk2 (EKey.fields_le hle)
  rw [t.cmp_val hf k1 hk1] at h1
  rw [t.cmp_val hf k2 hk2] at h2
  simp only [Except.ok.injEq] at h1 h2
  rw [h1, h2]
  exact h3

theorem keyAt_of_get? {b : BtreeBucket} {i : Nat} {k : _KeyNode} (h : b.keys.get? i = some k) :
    keyAt b (i : Int) = .ok k := by
  unfold keyAt
  rw [if_neg (by omega)]
  simp only [Int.toNat_ofNat, h]

theorem tdiv_half (l h : Nat) (hlh : l ≤ h) :
    (l : Int) + ((h : Int) - (l : Int)).tdiv 2 = ((l + (h - l) / 2 : Nat) : Int) := by
  have h1 : (0 : Int) ≤ (h : Int) - (l : Int) := by omega
  rw [Int.tdiv_eq_ediv h1 (by norm_num)]
  omega

/-- The branch that `customFind` takes on the comparison value `c`: the upper
end moves when `c` is on the far side of the target, the lower end otherwise. -/
theorem customFind_branch {α : Type} (t : Target) (hd : t.direction ≠ 0) (c : Int) (lo hi : α) :
    (if c < 0 then lo else if c > 0 then hi else if t.direction < 0 then lo else hi)
      = if t.high c then hi else lo := by
  have key : t.high c ↔ (0 < c ∨ (c = 0 ∧ ¬ t.direction < 0)) := by
    unfold Target.high
    by_cases h2 : t.direction > 0
    · rw [if_pos h2]
      omega
    · rw [if_neg h2]
      omega
  by_cases hh : t.high c
  · rw [if_pos hh]
    rcases key.mp hh with h1 | ⟨h1, h2⟩
    · rw [if_neg (by omega), if_pos h1]
    · rw [if_neg (by omega), if_neg (by omega), if_neg h2]
  · rw [if_neg hh]
    have hn := fun h => hh (key.mpr h)
    by_cases h1 : c < 0
    · rw [if_pos h1]
    · rw [if_neg h1, if_neg (fun h => hn (Or.inl h))]
      have hc : c = 0 := by
        by_contra hc
        exact hn (Or.inl (by omega))
      rw [if_pos (by
        by_contra h3
        exact hn (Or.inr ⟨hc, h3⟩))]

/-- The binary search `customFind` between a slot `l` on the near side of the
target and a slot `h` on the far side: it stops at two neighbouring slots
`p - 1` and `p` on the two sides, and hands on the child between them. -/
theorem customFind_spec (s : State) (t : Target) (hd : t.direction ≠ 0) {m : Nat}
    (hf : t.Fits m) (thisLoc : DiskLoc) (b : BtreeBucket) (hb : s.pages thisLoc = some b)
    (hu : ∀ k ∈ b.keys, k.key.elems.length = m) (bp : DiskLoc × Int) :
    ∀ (d l h : Nat) (kl kh : _KeyNode), h - l ≤ d → l < h → b.keys.get? l = some kl →
      b.keys.get? h = some kh → ¬ t.high (t.val kl) → t.high (t.val kh) →
      ∀ fuel, d < fuel →
      ∃ p kq kp, l < p ∧ p ≤ h ∧ b.keys.get? (p - 1) = some kq ∧ b.keys.get? p = some kp ∧
        ¬ t.high (t.val kq) ∧ t.high (t.val kp) ∧
        customFind s t thisLoc bp fuel (l : Int) (h : Int) =
          .ok (if kp.prevChildBucket.isNull then
              (false, thisLoc, (if t.direction > 0 then (p : Int) else (p : Int) - 1), bp)
            else (true, kp.prevChildBucket,
              (if t.direction > 0 then (p : Int) else (p : Int) - 1),
              (thisLoc, (if t.direction > 0 then (p : Int) else (p : Int) - 1)))) := by
  intro d
  induction d with
  | zero =>
    intro l h kl kh hd0 hlh
    omega
  | succ d ih =>
    intro l h kl kh hdl hlh hkl hkh hlow hhigh fuel hfuel
    cases fuel with
    | zero => omega
    | succ fuel =>
    rw [customFind]
    simp only [hb]
    by_cases hadj : (l : Int) + 1 = (h : Int)
    · rw [if_pos hadj]
      have hl1 : h - 1 = l := by omega
      refine ⟨h, kl, kh, hlh, le_refl _, by rw [hl1]; exact hkl, hkh, hlow, hhigh, ?_⟩
      rw [keyAt_of_get? hkh]
      simp only
      have hko : (if t.direction > 0 then (h : Int) else (l : Int))
          = (if t.direction > 0 then (h : Int) else (h : Int) - 1) := by
        split
        · rfl
        · omega
      rw [hko]
      cases kh.prevChildBucket.isNull with
      | true => simp
      | false => simp
    · rw [if_neg hadj]
      have hmid := tdiv_half l h (le_of_lt hlh)
      simp only [hmid]
      have hm1 : l < l + (h - l) / 2 := by omega
      have hm2 : l + (h - l) / 2 < h := by omega
      obtain ⟨km, hkm⟩ := get?_some_of_lt b.keys (l + (h - l) / 2)
        (lt_trans hm2 (List.get?_eq_some.mp hkh).1)
      rw [keyAt_of_get? hkm]
      simp only
      rw [t.cmp_val hf km (hu km (List.get?_mem hkm))]
      simp only
      rw [customFind_branch t hd]
      by_cases hhm : t.high (t.val km)
      · rw [if_pos hhm]
        obtain ⟨p, kq, kp, h1, h2, h3, h4, h5, h6, h7⟩ :=
          ih l (l + (h - l) / 2) kl km (by omega) hm1 hkl hkm hlow hhm fuel (by omega)
        exact ⟨p, kq, kp, h1, by omega, h3, h4, h5, h6, h7⟩
      · rw [if_neg hhm]
        obtain ⟨p, kq, kp, h1, h2, h3, h4, h5, h6, h7⟩ :=
          ih (l + (h - l) / 2) h km kh (by omega) hm2 hkm hkh hhm hhigh fuel (by omega)
        exact ⟨p, kq, kp, by omega, h2, h3, h4, h5, h6, h7⟩

end BtreeBucket
end mongo
namespace mongo
namespace BtreeBucket

/-! ## The two sides of the target in the in-order list of a page -/

theorem slotAt_fields {s : State} {m : Nat} (hu : UniformKeys s m) {x : DiskLoc × Nat}
    {k : _KeyNode} (hk : slotAt s x = some k) : k.key.elems.length = m := by
  obtain ⟨b, hb, hmem, _⟩ := slotAt_mem hk
  exact hu x.1 b k hb hmem

/-- The in-order list of a page splits at the child `p` when the slots before
`p` are on the near side of the target and the slots from `p` on are on the far
side; what the search reports is what it reports in the child, with the
candidate of the page. -/
theorem page_pick {c : Layout} {s : State} {g : Ghost} (t : Target)
    (h : Inv c t.order s g) {m : Nat} (hf : t.Fits m) (hu : UniformKeys s m)
    {l : DiskLoc} {b : BtreeBucket} (hl : s.pages l = some b) {F : Nat} (hF : g.rank l ≤ F)
    {p : Nat} {ch : DiskLoc} (hc : b.childForPos p = some ch)
    (hlow : ∀ i k, i < p → b.keys.get? i = some k → ¬ t.high (t.val k))
    (hhigh : ∀ i k, p ≤ i → b.keys.get? i = some k → t.high (t.val k))
    (bp : DiskLoc × Int) (A1 B1 : List (DiskLoc × Nat)) (hsplit : inorder s F ch = A1 ++ B1)
    (hA1 : ∀ x ∈ A1, ∀ k, slotAt s x = some k → ¬ t.high (t.val k))
    (hB1 : ∀ x ∈ B1, ∀ k, slotAt s x = some k → t.high (t.val k)) :
    ∃ A B, inorder s (F + 1) l = A ++ B ∧
      (∀ x ∈ A, ∀ k, slotAt s x = some k → ¬ t.high (t.val k)) ∧
      (∀ x ∈ B, ∀ k, slotAt s x = some k → t.high (t.val k)) ∧
      t.pick A B bp = t.pick A1 B1 (t.bestAt l b.keys.length p bp) := by
  have hple := childForPos_eq_some_le hc
  refine ⟨preList (inorder s F) l b p ++ A1, B1 ++ postList (inorder s F) l b p, ?_, ?_, ?_, ?_⟩
  · rw [inorder_eq_split h hl F hc, hsplit]
    simp
  · intro x hx kx hkx
    rcases List.mem_append.mp hx with hx | hx
    · obtain ⟨i, k, kx1, hi, hk, hkx1, hle⟩ := preList_bound h hl hF p hple x hx
      rw [hkx] at hkx1
      cases hkx1
      intro hh
      exact hlow i k hi hk (t.high_mono (t.val_mono hf kx k (slotAt_fields hu hkx)
        (hu l b k hl (List.get?_mem hk)) hle) hh)
    · exact hA1 x hx kx hkx
  · intro x hx kx hkx
    rcases List.mem_append.mp hx with hx | hx
    · exact hB1 x hx kx hkx
    · obtain ⟨i, k, kx1, hi, hk, hkx1, hle⟩ := postList_bound h hl hF _ p (le_refl _) x hx
      rw [hkx] at hkx1
      cases hkx1
      exact t.high_mono (t.val_mono hf k kx (hu l b k hl (List.get?_mem hk))
        (slotAt_fields hu hkx) hle) (hhigh i k hi hk)
  · unfold Target.pick Target.bestAt
    by_cases hd : t.direction > 0
    · simp only [hd, if_true]
      cases B1 with
      | cons z B2 => rfl
      | nil =>
        simp only [List.nil_append, List.head?_nil]
        by_cases hpn : p < b.keys.length
        · obtain ⟨k, hk⟩ := get?_some_of_lt b.keys p hpn
          obtain ⟨ch1, hch1⟩ := childForPos_some_of_le b (p + 1) (by omega)
          rw [postList_of_get? _ l b p k hk ch1 hch1, if_pos hpn]
          rfl
        · have hpe : p = b.keys.length := by omega
          rw [hpe, postList_length, if_neg (lt_irrefl _)]
          rfl
    · simp only [hd, if_false]
      cases hgl : A1.getLast? with
      | some z =>
        rw [getLast?_append_of_some _ _ z hgl]
      | none =>
        have hA0 : A1 = [] := List.getLast?_eq_none_iff.mp hgl
        rw [hA0, List.append_nil]
        cases p with
        | zero =>
          rw [preList_zero, if_neg (lt_irrefl _)]
          rfl
        | succ q =>
          rw [preList_getLast _ l b q (by omega), if_pos (Nat.succ_pos q)]
          simp only [Nat.cast_add, Nat.cast_one, add_sub_cancel_right]

theorem page_val_mono (t : Target) {m : Nat} (hf : t.Fits m) {b : BtreeBucket}
    (hs : SortedSlots t.order b.keys) (hu : ∀ k ∈ b.keys, k.key.elems.length = m)
    {i j : Nat} {ki kj : _KeyNode} (hij : i ≤ j) (hi : b.keys.get? i = some ki)
    (hj : b.keys.get? j = some kj) : SignLe (t.val ki) (t.val kj) := by
  apply t.val_mono hf ki kj (hu ki (List.get?_mem hi)) (hu kj (List.get?_mem hj))
  by_cases he : i = j
  · subst he
    rw [hi] at hj
    cases hj
    exact le_refl _
  · exact le_of_lt (hs.get?_lt (by omega) hi hj)

end BtreeBucket
end mongo
namespace mongo
namespace BtreeBucket

/-! ## One round of the descent loop of `customLocate` -/

theorem Target.high_pos (t : Target) (hd : t.direction > 0) (c : Int) : t.high c ↔ c ≥ 0 := by
  unfold Target.high
  rw [if_pos hd]

theorem Target.high_neg (t : Target) (hd : ¬ t.direction > 0) (c : Int) : t.high c ↔ c > 0 := by
  unfold Target.high
  rw [if_neg hd]

theorem lows_before (t : Target) {m : Nat} (hf : t.Fits m) {b : BtreeBucket}
    (hs : SortedSlots t.order b.keys) (hu : ∀ k ∈ b.keys, k.key.elems.length = m)
    {q : Nat} {kq : _KeyNode} (hq : b.keys.get? q = some kq) (hl : ¬ t.high (t.val kq)) :
    ∀ i k, i < q + 1 → b.keys.get? i = some k → ¬ t.high (t.val k) := by
  intro i k hi hk hh
  exact hl (t.high_mono (page_val_mono t hf hs hu (by omega) hk hq) hh)

theorem highs_after (t : Target) {m : Nat} (hf : t.Fits m) {b : BtreeBucket}
    (hs : SortedSlots t.order b.keys) (hu : ∀ k ∈ b.keys, k.key.elems.length = m)
    {p : Nat} {kp : _KeyNode} (hp : b.keys.get? p = some kp) (hh : t.high (t.val kp)) :
    ∀ i k, p ≤ i → b.keys.get? i = some k → t.high (t.val k) := by
  intro i k hi hk
  exact t.high_mono (page_val_mono t hf hs hu hi hp hk) hh

/-- One round of the loop of `customLocate` on a page with slots: it finds the
child `p` of the page at which the slots change sides, and either returns the
candidate of that child or goes on in the child with that candidate. -/
theorem customLocateLoop_step (s : State) (t : Target) (hd : t.direction ≠ 0) {m : Nat}
    (hf : t.Fits m) (l : DiskLoc) (b : BtreeBucket) (hb : s.pages l = some b)
    (hs : SortedSlots t.order b.keys) (hu : ∀ k ∈ b.keys, k.key.elems.length = m)
    (hne : 0 < b.keys.length) (fuel : Nat) (hfuel : b.keys.length < fuel) (keyOfs : Int)
    (bp : DiskLoc × Int) :
    ∃ p ch ko, b.childForPos p = some ch ∧
      (∀ i k, i < p → b.keys.get? i = some k → ¬ t.high (t.val k)) ∧
      (∀ i k, p ≤ i → b.keys.get? i = some k → t.high (t.val k)) ∧
      customLocateLoop s t (fuel + 1) l keyOfs bp =
        if ch.isNull then .ok (t.bestAt l b.keys.length p bp)
        else customLocateLoop s t fuel ch ko (t.bestAt l b.keys.length p bp) := by
  obtain ⟨k0, h0⟩ := get?_some_of_lt b.keys 0 hne
  obtain ⟨kh, hh⟩ := get?_some_of_lt b.keys (b.keys.length - 1) (by omega)
  have hn1 : b.n - 1 = ((b.keys.length - 1 : Nat) : Int) := by
    unfold n
    omega
  have hk0 : keyAt b 0 = .ok k0 := keyAt_of_get? h0
  have hkh : keyAt b (b.n - 1) = .ok kh := by
    rw [hn1]
    exact keyAt_of_get? hh
  have hc0 := t.cmp_val hf k0 (hu k0 (List.get?_mem h0))
  have hch := t.cmp_val hf kh (hu kh (List.get?_mem hh))
  have hnolow : ∀ i k, i < 0 → b.keys.get? i = some k → ¬ t.high (t.val k) :=
    fun i k hi => absurd hi (Nat.not_lt_zero i)
  have hnohigh : ∀ i k, b.keys.length ≤ i → b.keys.get? i = some k → t.high (t.val k) := by
    intro i k hi hk
    have := (List.get?_eq_some.mp hk).1
    omega
  have hlast : b.keys.length - 1 + 1 = b.keys.length := by omega
  generalize hR : customLocateLoop s t fuel = R
  unfold customLocateLoop
  simp only [hb, hR]
  by_cases hdir : t.direction > 0
  · simp only [hdir, if_true, hk0, hkh, hc0, hch]
    by_cases h1 : t.high (t.val k0)
    · have h1c : t.val k0 ≥ 0 := (t.high_pos hdir _).mp h1
      refine ⟨0, k0.prevChildBucket, 0, childForPos_of_get? h0, hnolow,
        highs_after t hf hs hu h0 h1, ?_⟩
      simp only [h1c, decide_True, if_true, Target.bestAt, hdir, hne, Nat.cast_zero]
      cases hnull : k0.prevChildBucket.isNull <;> simp
    · have h1c : ¬ t.val k0 ≥ 0 := fun hx => h1 ((t.high_pos hdir _).mpr hx)
      simp only [h1c, decide_False, Bool.false_eq_true, if_false]
      by_cases h2 : t.high (t.val kh)
      · have h2c : ¬ t.val kh < 0 := not_lt.mpr ((t.high_pos hdir _).mp h2)
        simp only [h2c, decide_False, Bool.false_eq_true, if_false]
        have hpos : 0 < b.keys.length - 1 := by
          rcases Nat.eq_zero_or_pos (b.keys.length - 1) with hz | hz
          · rw [hz, h0] at hh
            cases hh
            exact absurd h2 h1
          · exact hz
        obtain ⟨p, kq, kp, hp0, hpn, hq, hp, hlq, hhp, hcf⟩ :=
          customFind_spec s t hd hf l b hb hu bp (b.keys.length - 1) 0 (b.keys.length - 1)
            k0 kh (by omega) hpos h0 hh h1 h2 fuel (by omega)
        rw [Nat.cast_zero, ← hn1] at hcf
        refine ⟨p, kp.prevChildBucket, (p : Int), childForPos_of_get? hp, ?_,
          highs_after t hf hs hu hp hhp, ?_⟩
        · have := lows_before t hf hs hu hq hlq
          rwa [Nat.sub_add_cancel hp0] at this
        · rw [hcf]
          have hpl : p < b.keys.length := by omega
          simp only [Target.bestAt, hdir, if_true, hpl]
          cases hnull : kp.prevChildBucket.isNull <;> simp
      · have h2c : t.val kh < 0 := by
          by_contra hx
          exact h2 ((t.high_pos hdir _).mpr (not_lt.mp hx))
        refine ⟨b.keys.length, b.nextChild, keyOfs, childForPos_length b, ?_, hnohigh, ?_⟩
        · have := lows_before t hf hs hu hh h2
          rwa [hlast] at this
        · simp only [h2c, decide_True, if_true, Target.bestAt, hdir, lt_irrefl, if_false]
  · have hdn : t.direction < 0 := by omega
    simp only [hdir, if_false, hk0, hkh, hc0, hch]
    by_cases h1 : t.high (t.val kh)
    · have h1c : ¬ t.val kh ≤ 0 := not_le.mpr ((t.high_neg hdir _).mp h1)
      simp only [h1c, decide_False, Bool.false_eq_true, if_false]
      by_cases h2 : t.high (t.val k0)
      · have h2c : t.val k0 > 0 := (t.high_neg hdir _).mp h2
        refine ⟨0, k0.prevChildBucket, keyOfs, childForPos_of_get? h0, hnolow,
          highs_after t hf hs hu h0 h2, ?_⟩
        simp only [h2c, decide_True, if_true, Target.bestAt, hdir, lt_irrefl, if_false]
      · have h2c : ¬ t.val k0 > 0 := fun hx => h2 ((t.high_neg hdir _).mpr hx)
        simp only [h2c, decide_False, Bool.false_eq_true, if_false]
        have hpos : 0 < b.keys.length - 1 := by
          rcases Nat.eq_zero_or_pos (b.keys.length - 1) with hz | hz
          · rw [hz, h0] at hh
            cases hh
            exact absurd h1 h2
          · exact hz
        obtain ⟨p, kq, kp, hp0, hpn, hq, hp, hlq, hhp, hcf⟩ :=
          customFind_spec s t hd hf l b hb hu bp (b.keys.length - 1) 0 (b.keys.length - 1)
            k0 kh (by omega) hpos h0 hh h2 h1 fuel (by omega)
        rw [Nat.cast_zero, ← hn1] at hcf
        refine ⟨p, kp.prevChildBucket, (p : Int) - 1, childForPos_of_get? hp, ?_,
          highs_after t hf hs hu hp hhp, ?_⟩
        · have := lows_before t hf hs hu hq hlq
          rwa [Nat.sub_add_cancel hp0] at this
        · rw [hcf]
          simp only [Target.bestAt, hdir, if_false, hp0, if_true]
          cases hnull : kp.prevChildBucket.isNull <;> simp
    · have h1c : t.val kh ≤ 0 := by
        by_contra hx
        exact h1 ((t.high_neg hdir _).mpr (not_le.mp hx))
      refine ⟨b.keys.length, b.nextChild, b.n - 1, childForPos_length b, ?_, hnohigh, ?_⟩
      · have := lows_before t hf hs hu hh h1
        rwa [hlast] at this
      · simp only [h1c, decide_True, if_true, Target.bestAt, hdir, if_false, hne]
        unfold n
        cases hnull : b.nextChild.isNull <;> simp

end BtreeBucket
end mongo
namespace mongo
namespace BtreeBucket

/-! ## The descent of `customLocate` -/

theorem Inv.child_has_keys {c : Layout} {o : Ordering} {s : State} {g : Ghost} (h : Inv c o s g)
    {l : DiskLoc} {b : BtreeBucket} (hl : s.pages l = some b) {p : Nat} {ch : DiskLoc}
    (hc : b.childForPos p = some ch) (hn : ch ≠ DiskLoc.Null) :
    ∃ cb, s.pages ch = some cb ∧ cb.parent = l ∧ g.rank ch < g.rank l ∧ cb.keys ≠ [] := by
  obtain ⟨cb, hcb, hpar, hrk, _, _⟩ := (h.page l b hl).child p ch hc hn
  have hne : ch ≠ s.head := by
    intro he
    obtain ⟨hb, hhb, hhp, _⟩ := h.head
    rw [he, hhb] at hcb
    cases hcb
    exact h.ne_null_of_mapped hl (hpar ▸ hhp)
  exact ⟨cb, hcb, hpar, hrk, (h.link ch cb hcb hne).1⟩

theorem Target.pick_nil (t : Target) (bp : DiskLoc × Int) : t.pick [] [] bp = bp := by
  unfold Target.pick
  by_cases hd : t.direction > 0
  · rw [if_pos hd]
    rfl
  · rw [if_neg hd]
    rfl

/-- The descent of `customLocate` from a page with slots returns, and what it
returns is the position that the target picks in the in-order list of the
subtree of the page: the list splits into the positions on the near side of the
target and the positions on the far side, and the result is the first far
position for a forward search, the last near position for a backward search, or
the candidate the descent was given when there is none. -/
theorem customLocateLoop_spec {c : Layout} {s : State} {g : Ghost} (t : Target)
    (h : Inv c t.order s g) (hd : t.direction ≠ 0) {m : Nat} (hf : t.Fits m)
    (hu : UniformKeys s m) (K : Nat) (hK : ∀ l b, s.pages l = some b → b.keys.length ≤ K) :
    ∀ (r : Nat) (l : DiskLoc) (b : BtreeBucket), s.pages l = some b → g.rank l ≤ r →
      b.keys ≠ [] → ∀ fuel F, r + K + 1 < fuel → r < F → ∀ (keyOfs : Int) (bp : DiskLoc × Int),
        ∃ A B, inorder s F l = A ++ B ∧
          (∀ x ∈ A, ∀ k, slotAt s x = some k → ¬ t.high (t.val k)) ∧
          (∀ x ∈ B, ∀ k, slotAt s x = some k → t.high (t.val k)) ∧
          customLocateLoop s t fuel l keyOfs bp = .ok (t.pick A B bp) := by
  intro r
  induction r using Nat.strong_induction_on with
  | _ r ih =>
    intro l b hl hr hne fuel F hfuel hF keyOfs bp
    cases fuel with
    | zero => omega
    | succ fuel =>
    cases F with
    | zero => omega
    | succ F =>
      have hlen : 0 < b.keys.length := List.length_pos.mpr hne
      have hKb := hK l b hl
      obtain ⟨p, ch, ko, hc, hlow, hhigh, hrun⟩ :=
        customLocateLoop_step s t hd hf l b hl (h.page l b hl).sorted (hu l b · hl) hlen fuel
          (by omega) keyOfs bp
      by_cases hn : ch = DiskLoc.Null
      · subst hn
        obtain ⟨A, B, hsp, hA, hB, hpk⟩ :=
          page_pick t h hf hu hl (by omega : g.rank l ≤ F) hc hlow hhigh bp [] []
            (by rw [inorder_null]; rfl) (fun x hx => absurd hx (List.not_mem_nil x))
            (fun x hx => absurd hx (List.not_mem_nil x))
        refine ⟨A, B, hsp, hA, hB, ?_⟩
        rw [hrun, hpk, t.pick_nil, isNull_null, if_pos rfl]
      · obtain ⟨cb, hcb, _, hrk, hcne⟩ := h.child_has_keys hl hc hn
        obtain ⟨A1, B1, hsp1, hA1, hB1, hrun1⟩ :=
          ih (g.rank ch) (by omega) ch cb hcb (le_refl _) hcne fuel F (by omega) (by omega) ko
            (t.bestAt l b.keys.length p bp)
        obtain ⟨A, B, hsp, hA, hB, hpk⟩ :=
          page_pick t h hf hu hl (by omega : g.rank l ≤ F) hc hlow hhigh bp A1 B1 hsp1 hA1 hB1
        refine ⟨A, B, hsp, hA, hB, ?_⟩
        rw [hrun, hpk, isNull_of_ne hn, if_neg (by simp), hrun1]

end BtreeBucket
end mongo
namespace mongo
namespace BtreeBucket

/-! ## From a subtree to the tree -/

/-- The in-order list of a subtree lies inside the in-order list of every
subtree that contains it. -/
theorem inorder_infix {c : Layout} {o : Ordering} {s : State} {g : Ghost} (h : Inv c o s g)
    {l q : DiskLoc} (hb : Below s l q) :
    ∀ b, s.pages l = some b → ∀ F, g.rank l < F →
      ∃ P S, inorder s F l = P ++ inorder s F q ++ S := by
  induction hb with
  | refl l =>
    intro b hl F hF
    exact ⟨[], [], by simp⟩
  | step l ch q b p hl hc hn hbelow ih =>
    intro b1 hl1 F hF
    cases F with
    | zero => omega
    | succ F =>
      obtain ⟨cb, hcb, _, hrk, _, _⟩ := (h.page l b hl).child p ch hc hn
      obtain ⟨P1, S1, hps⟩ := ih cb hcb F (by omega)
      obtain ⟨hrq, _, _, hqm⟩ := hbelow.bounds h
      obtain ⟨bq, hbq⟩ := hqm ⟨cb, hcb⟩
      rw [inorder_fuel h (g.rank q) q bq hbq (le_refl _) F (F + 1) (by omega) (by omega)] at hps
      refine ⟨preList (inorder s F) l b p ++ P1, S1 ++ postList (inorder s F) l b p, ?_⟩
      rw [inorder_eq_split h hl F hc, hps]
      simp

theorem far_ne_nil (t : Target) {s : State} {A B L : List (DiskLoc × Nat)} (hsp : L = A ++ B)
    (hA : ∀ x ∈ A, ∀ k, slotAt s x = some k → ¬ t.high (t.val k)) {z : DiskLoc × Nat}
    {kz : _KeyNode} (hz : z ∈ L) (hkz : slotAt s z = some kz) (hh : t.high (t.val kz)) :
    B ≠ [] := by
  intro hB
  rw [hB, List.append_nil] at hsp
  exact hA z (hsp ▸ hz) kz hkz hh

theorem near_ne_nil (t : Target) {s : State} {A B L : List (DiskLoc × Nat)} (hsp : L = A ++ B)
    (hB : ∀ x ∈ B, ∀ k, slotAt s x = some k → t.high (t.val k)) {z : DiskLoc × Nat}
    {kz : _KeyNode} (hz : z ∈ L) (hkz : slotAt s z = some kz) (hl : ¬ t.high (t.val kz)) :
    A ≠ [] := by
  intro hA
  rw [hA, List.nil_append] at hsp
  exact hl (hB z (hsp ▸ hz) kz hkz)

/-- What the target picks in the in-order list of a subtree that holds the
position the search started from is what it picks in the in-order list of the
tree, when the subtree has a position on the side of the target towards which
the search goes, or is the tree. -/
theorem pick_lift {c : Layout} {s : State} {g : Ghost} (t : Target)
    (h : Inv c t.order s g) {m : Nat} (hf : t.Fits m) (hu : UniformKeys s m)
    {q : DiskLoc} {bq : BtreeBucket} (hq : s.pages q = some bq) {F : Nat}
    (hF : g.rank s.head < F) {A B : List (DiskLoc × Nat)} (hsp : inorder s F q = A ++ B)
    (hA : ∀ x ∈ A, ∀ k, slotAt s x = some k → ¬ t.high (t.val k))
    (hB : ∀ x ∈ B, ∀ k, slotAt s x = some k → t.high (t.val k)) (bp : DiskLoc × Int)
    (hfar : t.direction > 0 → B ≠ [] ∨ q = s.head)
    (hnear : ¬ t.direction > 0 → A ≠ [] ∨ q = s.head)
    {x0 : DiskLoc × Nat} {k0 : _KeyNode} (hx0 : x0 ∈ inorder s F q)
    (hk0 : slotAt s x0 = some k0)
    (hx : if t.direction > 0 then ¬ t.high (t.val k0) else t.high (t.val k0)) :
    ∃ A1 B1, inorder s F s.head = A1 ++ B1 ∧
      (∀ x ∈ A1, ∀ k, slotAt s x = some k → ¬ t.high (t.val k)) ∧
      (∀ x ∈ B1, ∀ k, slotAt s x = some k → t.high (t.val k)) ∧
      t.pick A1 B1 bp = t.pick A B bp := by
  by_cases hqh : q = s.head
  · subst hqh
    exact ⟨A, B, hsp, hA, hB, rfl⟩
  obtain ⟨hb, hhb, _⟩ := h.head
  obtain ⟨P, S, hps⟩ := inorder_infix h (h.reachable hq) hb hhb F hF
  obtain ⟨hslot, hsorted, _, _⟩ := tree_walk h F hF
  rw [hps, hsp] at hsorted
  have hmemL : ∀ y ∈ P ++ (A ++ B) ++ S, ∃ k, slotAt s y = some k := by
    intro y hy
    apply hslot y
    rw [hps, hsp]
    exact hy
  rw [List.pairwise_append] at hsorted
  obtain ⟨hPM, _, hMS⟩ := hsorted
  rw [List.pairwise_append] at hPM
  obtain ⟨_, _, hPM⟩ := hPM
  have hlt : ∀ {x y : DiskLoc × Nat} {kx ky : _KeyNode}, PosLt t.order s x y →
      slotAt s x = some kx → slotAt s y = some ky → SignLe (t.val kx) (t.val ky) := by
    intro x y kx ky hxy hkx hky
    exact t.val_mono hf kx ky (slotAt_fields hu hkx) (slotAt_fields hu hky)
      (le_of_lt (hxy kx ky hkx hky))
  rw [hsp] at hx0
  by_cases hdir : t.direction > 0
  · rw [if_pos hdir] at hx
    rcases hfar hdir with hBne | hqe
    swap
    · exact absurd hqe hqh
    obtain ⟨z, B2, hBz⟩ := List.exists_cons_of_ne_nil hBne
    have hzB : z ∈ B := by rw [hBz]; exact List.mem_cons_self _ _
    have hzM : z ∈ A ++ B := List.mem_append_right _ hzB
    obtain ⟨kz, hkz⟩ := hmemL z (List.mem_append_left _ (List.mem_append_right _ hzM))
    refine ⟨P ++ A, B ++ S, ?_, ?_, ?_, ?_⟩
    · rw [hps, hsp]
      simp
    · intro y hy ky hky
      rcases List.mem_append.mp hy with hy | hy
      · intro hh
        exact hx (t.high_mono (hlt (hPM y hy x0 hx0) hky hk0) hh)
      · exact hA y hy ky hky
    · intro y hy ky hky
      rcases List.mem_append.mp hy with hy | hy
      · exact hB y hy ky hky
      · exact t.high_mono (hlt (hMS z (List.mem_append_right _ hzM) y hy) hkz hky)
          (hB z hzB kz hkz)
    · unfold Target.pick
      rw [if_pos hdir, if_pos hdir, hBz]
      rfl
  · rw [if_neg hdir] at hx
    rcases hnear hdir with hAne | hqe
    swap
    · exact absurd hqe hqh
    cases hgl : A.getLast? with
    | none => exact absurd (List.getLast?_eq_none_iff.mp hgl) hAne
    | some z =>
      have hzA : z ∈ A := List.mem_of_mem_getLast? hgl
      have hzM : z ∈ A ++ B := List.mem_append_left _ hzA
      obtain ⟨kz, hkz⟩ := hmemL z (List.mem_append_left _ (List.mem_append_right _ hzM))
      refine ⟨P ++ A, B ++ S, ?_, ?_, ?_, ?_⟩
      · rw [hps, hsp]
        simp
      · intro y hy ky hky
        rcases List.mem_append.mp hy with hy | hy
        · intro hh
          exact hA z hzA kz hkz (t.high_mono (hlt (hPM y hy z hzM) hky hkz) hh)
        · exact hA y hy ky hky
      · intro y hy ky hky
        rcases List.mem_append.mp hy with hy | hy
        · exact hB y hy ky hky
        · exact t.high_mono (hlt (hMS x0 (List.mem_append_right _ hx0) y hy) hk0 hky) hx
      · unfold Target.pick
        rw [if_neg hdir, if_neg hdir, getLast?_append_of_some _ _ z hgl, hgl]

end BtreeBucket
end mongo
namespace mongo
namespace BtreeBucket

/-! ## The way up of `advanceTo` -/

theorem Inv.parent_has_keys {c : Layout} {o : Ordering} {s : State} {g : Ghost} (h : Inv c o s g)
    {l : DiskLoc} {b : BtreeBucket} (hl : s.pages l = some b) {p : Nat} {ch : DiskLoc}
    (hc : b.childForPos p = some ch) (hn : ch ≠ DiskLoc.Null) : b.keys ≠ [] := by
  by_cases hh : l = s.head
  · intro he
    obtain ⟨hb, hhb, _, hemp⟩ := h.head
    rw [← hh, hl] at hhb
    cases hhb
    have hp := childForPos_eq_some_le hc
    rw [he] at hp
    have hp0 : p = b.keys.length := by rw [he]; exact Nat.le_zero.mp hp
    rw [hp0, childForPos_length] at hc
    cases hc
    exact hn (hemp he)
  · exact (h.link l b hl hh).1

theorem Inv.head_of_parent_null {c : Layout} {o : Ordering} {s : State} {g : Ghost}
    (h : Inv c o s g) {l : DiskLoc} {b : BtreeBucket} (hl : s.pages l = some b)
    (hp : b.parent = DiskLoc.Null) : l = s.head := by
  by_contra hne
  obtain ⟨_, pb, p, hpb, _⟩ := h.link l b hl hne
  rw [hp, h.null_unmapped] at hpb
  cases hpb

/-- The loop of `advanceTo` that goes up the parents returns, at a page above
the one it started from: the root, or a page whose last slot is on the far side
of the target (forward) or whose first slot is on the near side (backward). -/
theorem advanceToUp_spec {c : Layout} {s : State} {g : Ghost} (t : Target)
    (h : Inv c t.order s g) {m : Nat} (hf : t.Fits m) (hu : UniformKeys s m) :
    ∀ (d : Nat) (l : DiskLoc) (b : BtreeBucket), s.pages l = some b → b.keys ≠ [] →
      g.rank s.head - g.rank l ≤ d → ∀ fuel, d < fuel →
      ∃ top tb, advanceToUp s t fuel l = .ok top ∧ s.pages top = some tb ∧ tb.keys ≠ [] ∧
        Below s top l ∧
        (top = s.head ∨
          ((t.direction > 0 → ∃ k, tb.keys.get? (tb.keys.length - 1) = some k ∧
              t.high (t.val k)) ∧
           (¬ t.direction > 0 → ∃ k, tb.keys.get? 0 = some k ∧ ¬ t.high (t.val k)))) := by
  intro d
  induction d with
  | zero =>
    intro l b hl hne hd fuel hfuel
    cases fuel with
    | zero => omega
    | succ fuel =>
      have hrl := h.rank_le l b hl
      have hlh : l = s.head := by
        by_contra hnh
        obtain ⟨_, pb, p, hpb, hcp⟩ := h.link l b hl hnh
        obtain ⟨_, _, _, hrk, _, _⟩ := (h.page _ pb hpb).child p l hcp (h.ne_null_of_mapped hl)
        have := h.rank_le _ pb hpb
        omega
      obtain ⟨hb, hhb, hpar, _⟩ := h.head
      rw [← hlh, hl] at hhb
      cases hhb
      refine ⟨l, b, ?_, hl, hne, Below.refl l, Or.inl hlh⟩
      unfold advanceToUp
      simp only [hl, hpar, isNull_null, if_true]
  | succ d ih =>
    intro l b hl hne hd fuel hfuel
    cases fuel with
    | zero => omega
    | succ fuel =>
      by_cases hp : b.parent = DiskLoc.Null
      · refine ⟨l, b, ?_, hl, hne, Below.refl l, Or.inl (h.head_of_parent_null hl hp)⟩
        unfold advanceToUp
        simp only [hl, hp, isNull_null, if_true]
      · have hnh : l ≠ s.head := by
          intro he
          obtain ⟨hb, hhb, hpar, _⟩ := h.head
          rw [← he, hl] at hhb
          cases hhb
          exact hp hpar
        obtain ⟨_, pb, p, hpb, hcp⟩ := h.link l b hl hnh
        have hln := h.ne_null_of_mapped hl
        obtain ⟨_, _, _, hrk, _, _⟩ := (h.page _ pb hpb).child p l hcp hln
        have hpne := h.parent_has_keys hpb hcp hln
        have hplen : 0 < pb.keys.length := List.length_pos.mpr hpne
        obtain ⟨k0, h0⟩ := get?_some_of_lt pb.keys 0 hplen
        obtain ⟨kh, hh⟩ := get?_some_of_lt pb.keys (pb.keys.length - 1) (by omega)
        have hn1 : pb.n - 1 = ((pb.keys.length - 1 : Nat) : Int) := by
          unfold n
          omega
        have hk0 : keyAt pb 0 = .ok k0 := keyAt_of_get? h0
        have hkh : keyAt pb (pb.n - 1) = .ok kh := by
          rw [hn1]
          exact keyAt_of_get? hh
        have hc0 := t.cmp_val hf k0 (hu _ pb k0 hpb (List.get?_mem h0))
        have hch := t.cmp_val hf kh (hu _ pb kh hpb (List.get?_mem hh))
        have hrp := h.rank_le _ pb hpb
        obtain ⟨top, tb, hrun, htb, htne, hbel, hend⟩ :=
          ih b.parent pb hpb hpne (by omega) fuel (by omega)
        have hstep : Below s b.parent l := Below.child hpb hcp hln
        have hnp := isNull_of_ne hp
        by_cases hdir : t.direction > 0
        · by_cases hs : t.high (t.val kh)
          · refine ⟨b.parent, pb, ?_, hpb, hpne, hstep,
              Or.inr ⟨fun _ => ⟨kh, hh, hs⟩, fun hx => absurd hdir hx⟩⟩
            have hsc : t.val kh ≥ 0 := (t.high_pos hdir _).mp hs
            unfold advanceToUp
            simp only [hl, hnp, Bool.false_eq_true, if_false, hpb, hdir, if_true, hkh, hch, hsc,
              decide_True]
          · refine ⟨top, tb, ?_, htb, htne, hbel.trans hstep, hend⟩
            have hsc : ¬ t.val kh ≥ 0 := fun hx => hs ((t.high_pos hdir _).mpr hx)
            rw [← hrun]
            conv_lhs => unfold advanceToUp
            simp only [hl, hnp, Bool.false_eq_true, if_false, hpb, hdir, if_true, hkh, hch, hsc,
              decide_False]
        · by_cases hs : t.high (t.val k0)
          · refine ⟨top, tb, ?_, htb, htne, hbel.trans hstep, hend⟩
            have hsc : ¬ t.val k0 ≤ 0 := not_le.mpr ((t.high_neg hdir _).mp hs)
            rw [← hrun]
            conv_lhs => unfold advanceToUp
            simp only [hl, hnp, Bool.false_eq_true, if_false, hpb, hdir, hk0, hc0, hsc,
              decide_False]
          · refine ⟨b.parent, pb, ?_, hpb, hpne, hstep,
              Or.inr ⟨fun hx => absurd hx hdir, fun _ => ⟨k0, h0, hs⟩⟩⟩
            have hsc : t.val k0 ≤ 0 := by
              by_contra hx
              exact hs ((t.high_neg hdir _).mpr (not_le.mp hx))
            unfold advanceToUp
            simp only [hl, hnp, Bool.false_eq_true, if_false, hpb, hdir, hk0, hc0, hsc,
              decide_True, if_true]

end BtreeBucket
end mongo
namespace mongo
namespace BtreeBucket

/-! ## The routine `advanceTo` -/

theorem customLocate_of_keys (s : State) (t : Target) (fuel : Nat) {l : DiskLoc}
    {b : BtreeBucket} (hl : s.pages l = some b) (hne : b.keys ≠ []) (ko : Int)
    (bp : DiskLoc × Int) :
    customLocate s t fuel l ko bp = customLocateLoop s t fuel l ko bp := by
  have hlen : 0 < b.keys.length := List.length_pos.mpr hne
  have hn : ¬ b.n = 0 := by
    unfold n
    omega
  unfold customLocate
  simp only [hl]
  rw [if_neg hn]

/-- The descent into the child `p` of a page, at which the slots of the page
change sides: the search returns, and what it returns is what the target picks
in the in-order list of the subtree of the page. -/
theorem descend_pick {c : Layout} {s : State} {g : Ghost} (t : Target)
    (h : Inv c t.order s g) (hd : t.direction ≠ 0) {m : Nat} (hf : t.Fits m)
    (hu : UniformKeys s m) (K : Nat) (hK : ∀ l b, s.pages l = some b → b.keys.length ≤ K)
    {l : DiskLoc} {b : BtreeBucket} (hl : s.pages l = some b) {F fuel : Nat}
    (hF : g.rank l ≤ F) (hfuel : g.rank l + K < fuel)
    {p : Nat} {ch : DiskLoc} (hc : b.childForPos p = some ch)
    (hlow : ∀ i k, i < p → b.keys.get? i = some k → ¬ t.high (t.val k))
    (hhigh : ∀ i k, p ≤ i → b.keys.get? i = some k → t.high (t.val k))
    (bp : DiskLoc × Int) (ko : Int) :
    ∃ A B, inorder s (F + 1) l = A ++ B ∧
      (∀ x ∈ A, ∀ k, slotAt s x = some k → ¬ t.high (t.val k)) ∧
      (∀ x ∈ B, ∀ k, slotAt s x = some k → t.high (t.val k)) ∧
      (if ch.isNull then .ok (t.bestAt l b.keys.length p bp)
        else customLocate s t fuel ch ko (t.bestAt l b.keys.length p bp)) =
        .ok (t.pick A B bp) := by
  by_cases hn : ch = DiskLoc.Null
  · subst hn
    obtain ⟨A, B, hsp, hA, hB, hpk⟩ :=
      page_pick t h hf hu hl hF hc hlow hhigh bp [] []
        (by rw [inorder_null]; rfl) (fun x hx => absurd hx (List.not_mem_nil x))
        (fun x hx => absurd hx (List.not_mem_nil x))
    refine ⟨A, B, hsp, hA, hB, ?_⟩
    rw [hpk, t.pick_nil, isNull_null, if_pos rfl]
  · obtain ⟨cb, hcb, _, hrk, hcne⟩ := h.child_has_keys hl hc hn
    obtain ⟨A1, B1, hsp1, hA1, hB1, hrun1⟩ :=
      customLocateLoop_spec t h hd hf hu K hK (g.rank ch) ch cb hcb (le_refl _) hcne fuel F
        (by omega) (by omega) ko (t.bestAt l b.keys.length p bp)
    obtain ⟨A, B, hsp, hA, hB, hpk⟩ :=
      page_pick t h hf hu hl hF hc hlow hhigh bp A1 B1 hsp1 hA1 hB1
    refine ⟨A, B, hsp, hA, hB, ?_⟩
    rw [hpk, isNull_of_ne hn, if_neg (by simp), customLocate_of_keys s t fuel hcb hcne, hrun1]

/-- The routine `advanceTo`, started at a slot on the near side of the target
(forward) or on the far side of it (backward): it returns, and what it returns
is what the target picks in the in-order list of the tree, with the null
locator when there is no position to pick. -/
theorem advanceTo_spec {c : Layout} {s : State} {g : Ghost} (t : Target)
    (h : Inv c t.order s g) (hd : t.direction ≠ 0) {m : Nat} (hf : t.Fits m)
    (hu : UniformKeys s m) (K : Nat) (hK : ∀ l b, s.pages l = some b → b.keys.length ≤ K)
    (thisLoc : DiskLoc) (i : Nat) (k0 : _KeyNode) (hk0 : slotAt s (thisLoc, i) = some k0)
    (hx : if t.direction > 0 then ¬ t.high (t.val k0) else t.high (t.val k0)) :
    ∀ fuel F, g.rank s.head + K + 1 < fuel → g.rank s.head < F →
      ∃ A B, inorder s F s.head = A ++ B ∧
        (∀ x ∈ A, ∀ k, slotAt s x = some k → ¬ t.high (t.val k)) ∧
        (∀ x ∈ B, ∀ k, slotAt s x = some k → t.high (t.val k)) ∧
        advanceTo s t fuel thisLoc (i : Int) = .ok (t.pick A B (DiskLoc.Null, 0)) := by
  intro fuel F hfuel hF
  obtain ⟨b, hb, hmem, hget⟩ := slotAt_mem hk0
  simp only at hb hget
  have hrl := h.rank_le thisLoc b hb
  have hKb := hK thisLoc b hb
  have hi : i < b.keys.length := (List.get?_eq_some.mp hget).1
  have hne : b.keys ≠ [] := List.ne_nil_of_mem hmem
  obtain ⟨kf, hfst⟩ := get?_some_of_lt b.keys 0 (by omega)
  obtain ⟨kh, hlst⟩ := get?_some_of_lt b.keys (b.keys.length - 1) (by omega)
  have hn1 : b.n - 1 = ((b.keys.length - 1 : Nat) : Int) := by
    unfold n
    omega
  have hkf : keyAt b 0 = .ok kf := keyAt_of_get? hfst
  have hkh : keyAt b (b.n - 1) = .ok kh := by
    rw [hn1]
    exact keyAt_of_get? hlst
  have hcf := t.cmp_val hf kf (hu _ b kf hb (List.get?_mem hfst))
  have hch := t.cmp_val hf kh (hu _ b kh hb (List.get?_mem hlst))
  have hsorted := (h.page thisLoc b hb).sorted
  have hub : ∀ k ∈ b.keys, k.key.elems.length = m := fun k hk => hu thisLoc b k hb hk
  have hx0mem : ∀ q bq, s.pages q = some bq → Below s q thisLoc → (thisLoc, i) ∈ inorder s F q :=
    fun q bq hq hbel => mem_inorder_of_below h hbel bq b hq hb F
      (by have := h.rank_le q bq hq; omega) i hi
  cases F with
  | zero => omega
  | succ F =>
  by_cases hdir : t.direction > 0
  · rw [if_pos hdir] at hx
    by_cases hs : t.high (t.val kh)
    · have hsc : t.val kh ≥ 0 := (t.high_pos hdir _).mp hs
      have hlt : i < b.keys.length - 1 := by
        rcases Nat.lt_or_ge i (b.keys.length - 1) with hlt | hge
        · exact hlt
        · have hie : i = b.keys.length - 1 := by omega
          rw [hie, hlst] at hget
          cases hget
          exact absurd hs hx
      obtain ⟨p, kq, kp, hp0, hpn, hq, hp, hlq, hhp, hfind⟩ :=
        customFind_spec s t hd hf thisLoc b hb hub (DiskLoc.Null, 0) (b.keys.length - 1) i
          (b.keys.length - 1) k0 kh (by omega) hlt hget hlst hx hs fuel (by omega)
      rw [← hn1] at hfind
      have hlow := lows_before t hf hsorted hub hq hlq
      rw [Nat.sub_add_cancel (by omega : 1 ≤ p)] at hlow
      have hhigh := highs_after t hf hsorted hub hp hhp
      obtain ⟨A, B, hsp, hA, hB, hrun⟩ :=
        descend_pick t h hd hf hu K hK hb (by omega : g.rank thisLoc ≤ F)
          (by omega : g.rank thisLoc + K < fuel) (childForPos_of_get? hp) hlow hhigh
          (DiskLoc.Null, 0) (p : Int)
      have hzmem : (thisLoc, p) ∈ inorder s (F + 1) thisLoc :=
        mem_inorder_of_below h (Below.refl _) b b hb hb (F + 1) (by omega) p (by omega)
      have hkz : slotAt s (thisLoc, p) = some kp := by
        unfold slotAt
        simp only [hb, hp]
      obtain ⟨A1, B1, hsp1, hA1, hB1, hpk⟩ :=
        pick_lift t h hf hu hb hF hsp hA hB (DiskLoc.Null, 0)
          (fun _ => Or.inl (far_ne_nil t hsp hA hzmem hkz hhp)) (fun hx => absurd hdir hx)
          (hx0mem thisLoc b hb (Below.refl _)) hk0 (by rw [if_pos hdir]; exact hx)
      refine ⟨A1, B1, hsp1, hA1, hB1, ?_⟩
      rw [hpk, ← hrun]
      have hpl : p < b.keys.length := by omega
      unfold advanceTo
      simp only [hb, hdir, if_true, hkh, hch, hsc, decide_True, hfind, Target.bestAt, hpl]
      cases hnull : kp.prevChildBucket.isNull <;> simp
    · have hsc : ¬ t.val kh ≥ 0 := fun hx => hs ((t.high_pos hdir _).mpr hx)
      obtain ⟨top, tb, hup, htb, htne, hbel, hend⟩ :=
        advanceToUp_spec t h hf hu (g.rank s.head - g.rank thisLoc) thisLoc b hb hne (le_refl _)
          fuel (by omega)
      have hrt := h.rank_le top tb htb
      obtain ⟨A, B, hsp, hA, hB, hrun⟩ :=
        customLocateLoop_spec t h hd hf hu K hK (g.rank top) top tb htb (le_refl _) htne fuel
          (F + 1) (by omega) (by omega) (i : Int) (DiskLoc.Null, 0)
      obtain ⟨A1, B1, hsp1, hA1, hB1, hpk⟩ :=
        pick_lift t h hf hu htb hF hsp hA hB (DiskLoc.Null, 0)
          (fun _ => by
            rcases hend with hth | ⟨hfar, _⟩
            · exact Or.inr hth
            · obtain ⟨k, hk, hkh1⟩ := hfar hdir
              have hlen := (List.get?_eq_some.mp hk).1
              refine Or.inl (far_ne_nil t hsp hA
                (mem_inorder_of_below h (Below.refl _) tb tb htb htb (F + 1) (by omega)
                  (tb.keys.length - 1) hlen) ?_ hkh1)
              unfold slotAt
              simp only [htb, hk])
          (fun hx => absurd hdir hx)
          (hx0mem top tb htb hbel) hk0 (by rw [if_pos hdir]; exact hx)
      refine ⟨A1, B1, hsp1, hA1, hB1, ?_⟩
      rw [hpk, ← hrun, ← customLocate_of_keys s t fuel htb htne]
      unfold advanceTo
      simp only [hb, hdir, if_true, hkh, hch, hsc, decide_False, Bool.false_eq_true, if_false,
        hup]
  · rw [if_neg hdir] at hx
    by_cases hs : t.high (t.val kf)
    · have hsc : ¬ t.val kf ≤ 0 := not_le.mpr ((t.high_neg hdir _).mp hs)
      obtain ⟨top, tb, hup, htb, htne, hbel, hend⟩ :=
        advanceToUp_spec t h hf hu (g.rank s.head - g.rank thisLoc) thisLoc b hb hne (le_refl _)
          fuel (by omega)
      have hrt := h.rank_le top tb htb
      obtain ⟨A, B, hsp, hA, hB, hrun⟩ :=
        customLocateLoop_spec t h hd hf hu K hK (g.rank top) top tb htb (le_refl _) htne fuel
          (F + 1) (by omega) (by omega) (i : Int) (DiskLoc.Null, 0)
      obtain ⟨A1, B1, hsp1, hA1, hB1, hpk⟩ :=
        pick_lift t h hf hu htb hF hsp hA hB (DiskLoc.Null, 0)
          (fun hx => absurd hx hdir)
          (fun _ => by
            rcases hend with hth | ⟨_, hnear⟩
            · exact Or.inr hth
            · obtain ⟨k, hk, hkl⟩ := hnear hdir
              have hlen := (List.get?_eq_some.mp hk).1
              refine Or.inl (near_ne_nil t hsp hB
                (mem_inorder_of_below h (Below.refl _) tb tb htb htb (F + 1) (by omega)
                  0 hlen) ?_ hkl)
              unfold slotAt
              simp only [htb, hk])
          (hx0mem top tb htb hbel) hk0 (by rw [if_neg hdir]; exact hx)
      refine ⟨A1, B1, hsp1, hA1, hB1, ?_⟩
      rw [hpk, ← hrun, ← customLocate_of_keys s t fuel htb htne]
      unfold advanceTo
      simp only [hb, hdir, if_false, hkf, hcf, hsc, decide_False, Bool.false_eq_true, hup]
    · have hsc : t.val kf ≤ 0 := by
        by_contra hx1
        exact hs ((t.high_neg hdir _).mpr (not_le.mp hx1))
      have hlt : 0 < i := by
        rcases Nat.eq_zero_or_pos i with hz | hz
        · rw [hz, hfst] at hget
          cases hget
          exact absurd hx hs
        · exact hz
      obtain ⟨p, kq, kp, hp0, hpn, hq, hp, hlq, hhp, hfind⟩ :=
        customFind_spec s t hd hf thisLoc b hb hub (DiskLoc.Null, 0) i 0 i kf k0 (by omega) hlt
          hfst hget hs hx fuel (by omega)
      rw [Nat.cast_zero] at hfind
      have hlow := lows_before t hf hsorted hub hq hlq
      rw [Nat.sub_add_cancel (by omega : 1 ≤ p)] at hlow
      have hhigh := highs_after t hf hsorted hub hp hhp
      obtain ⟨A, B, hsp, hA, hB, hrun⟩ :=
        descend_pick t h hd hf hu K hK hb (by omega : g.rank thisLoc ≤ F)
          (by omega : g.rank thisLoc + K < fuel) (childForPos_of_get? hp) hlow hhigh
          (DiskLoc.Null, 0) ((p : Int) - 1)
      have hzmem : (thisLoc, p - 1) ∈ inorder s (F + 1) thisLoc :=
        mem_inorder_of_below h (Below.refl _) b b hb hb (F + 1) (by omega) (p - 1) (by omega)
      have hkz : slotAt s (thisLoc, p - 1) = some kq := by
        unfold slotAt
        simp only [hb, hq]
      obtain ⟨A1, B1, hsp1, hA1, hB1, hpk⟩ :=
        pick_lift t h hf hu hb hF hsp hA hB (DiskLoc.Null, 0)
          (fun hx => absurd hx hdir) (fun _ => Or.inl (near_ne_nil t hsp hB hzmem hkz hlq))
          (hx0mem thisLoc b hb (Below.refl _)) hk0 (by rw [if_neg hdir]; exact hx)
      refine ⟨A1, B1, hsp1, hA1, hB1, ?_⟩
      rw [hpk, ← hrun]
      unfold advanceTo
      simp only [hb, hdir, if_false, hkf, hcf, hsc, decide_True, if_true, hfind, Target.bestAt,
        hp0]
      cases hnull : kp.prevChildBucket.isNull <;> simp

end BtreeBucket
end mongo
namespace mongo
namespace BtreeBucket

/-! ## `advanceTo` lands on the least (greatest) key at or after (before) the target -/

theorem keys_le_maxSlots {c : Layout} {o : Ordering} {s : State} {g : Ghost} (h : Inv c o s g)
    (l : DiskLoc) (b : BtreeBucket) (hl : s.pages l = some b) : b.keys.length ≤ maxSlots s := by
  obtain ⟨ha, h0, hlt⟩ := h.fresh l b hl
  have hle : l = ⟨0, ((l.ofs.toNat : Nat) : Int)⟩ := by
    cases l with
    | mk a ofs =>
      simp only at ha h0
      simp only [DiskLoc.mk.injEq]
      exact ⟨ha, (Int.toNat_of_nonneg h0).symm⟩
  have hval : slotsAt s l.ofs.toNat = b.keys.length := by
    unfold slotsAt
    rw [← hle, hl]
  have hmem : slotsAt s l.ofs.toNat ∈ (List.range s.allocNext.toNat).map (slotsAt s) := by
    apply List.mem_map_of_mem
    rw [List.mem_range]
    omega
  rw [← hval]
  exact List.single_le_sum (fun _ _ => Nat.zero_le _) _ hmem

theorem split_unique (t : Target) {s : State} {A1 B1 A B : List (DiskLoc × Nat)}
    (heq : A1 ++ B1 = A ++ B)
    (hA1 : ∀ x ∈ A1, ∀ k, slotAt s x = some k → ¬ t.high (t.val k))
    (hB1 : ∀ x ∈ B1, ∀ k, slotAt s x = some k → t.high (t.val k))
    (hA : ∀ x ∈ A, ∀ k, slotAt s x = some k → ¬ t.high (t.val k))
    (hB : ∀ x ∈ B, ∀ k, slotAt s x = some k → t.high (t.val k))
    (hslot : ∀ y ∈ A ++ B, ∃ k, slotAt s y = some k) : A1 = A ∧ B1 = B := by
  have hBe : B1 = B := by
    refine append_split_unique (fun x => ∀ k, slotAt s x = some k → ¬ t.high (t.val k))
      A1 A B1 B heq hA1 hA ?_ ?_
    · intro x hx hP
      obtain ⟨k, hk⟩ := hslot x (heq ▸ List.mem_append_right _ hx)
      exact hP k hk (hB1 x hx k hk)
    · intro x hx hP
      obtain ⟨k, hk⟩ := hslot x (List.mem_append_right _ hx)
      exact hP k hk (hB x hx k hk)
  rw [hBe] at heq
  exact ⟨List.append_cancel_right heq, hBe⟩

theorem Target.pick_landsAt (t : Target) (A B : List (DiskLoc × Nat)) :
    LandsAt (t.pick A B (DiskLoc.Null, 0)) (if t.direction > 0 then B.head? else A.getLast?) := by
  unfold Target.pick
  cases hz : (if t.direction > 0 then B.head? else A.getLast?) with
  | none => rfl
  | some z => rfl

/-- C21: on a well-formed tree whose keys all have `m` fields, searched with a
target that has what `customBSONCmp` reads for a key of `m` fields and with the
ordering of the tree, `advanceTo` returns when it is started at a slot that
compares strictly before the target for a direction above 0, and strictly after
it for a direction below 0. The in-order list of the slots of the tree, which
ascends and has every slot, is then a list `A` followed by a list `B`: for a
direction above 0 the slots of `A` compare below 0 and those of `B` at or
above 0, and the result is the first position of `B`, the least key of the tree
that compares at or above 0; for a direction below 0 the slots of `A` compare
at or below 0 and those of `B` above 0, and the result is the last position of
`A`, the greatest key that compares at or below 0. The result has the null
locator when there is no such position. -/
theorem advanceTo_lands (c : Layout) (s : State) (t : Target) (hwf : WellFormed c t.order s)
    (hd : t.direction ≠ 0) (m : Nat) (hf : t.Fits m) (hu : UniformKeys s m)
    (thisLoc : DiskLoc) (i : Nat) (k0 : _KeyNode) (c0 : Int)
    (hk0 : slotAt s (thisLoc, i) = some k0) (hc0 : t.cmp k0.key = .ok c0)
    (hcur : if t.direction > 0 then c0 < 0 else c0 > 0) :
    ∃ N L A B res,
      (∀ fuel, N < fuel → advanceTo s t fuel thisLoc (i : Int) = .ok res) ∧
      (∀ F, N < F → inorder s F s.head = L) ∧
      L.Pairwise (PosLt t.order s) ∧
      (∀ l b j, s.pages l = some b → j < b.keys.length → (l, j) ∈ L) ∧
      L = A ++ B ∧
      (if t.direction > 0 then
        (∀ x ∈ A, ∃ k cx, slotAt s x = some k ∧ t.cmp k.key = .ok cx ∧ cx < 0) ∧
        (∀ x ∈ B, ∃ k cx, slotAt s x = some k ∧ t.cmp k.key = .ok cx ∧ cx ≥ 0) ∧
        LandsAt res B.head?
      else
        (∀ x ∈ A, ∃ k cx, slotAt s x = some k ∧ t.cmp k.key = .ok cx ∧ cx ≤ 0) ∧
        (∀ x ∈ B, ∃ k cx, slotAt s x = some k ∧ t.cmp k.key = .ok cx ∧ cx > 0) ∧
        LandsAt res A.getLast?) := by
  obtain ⟨g, h⟩ := hwf
  obtain ⟨hb, hhb, _⟩ := h.head
  have hval0 : c0 = t.val k0 := by
    have := t.cmp_val hf k0 (slotAt_fields hu hk0)
    rw [hc0] at this
    exact Except.ok.inj this
  have hx : if t.direction > 0 then ¬ t.high (t.val k0) else t.high (t.val k0) := by
    by_cases hdir : t.direction > 0
    · rw [if_pos hdir] at hcur ⊢
      rw [t.high_pos hdir, ← hval0]
      omega
    · rw [if_neg hdir] at hcur ⊢
      rw [t.high_neg hdir, ← hval0]
      exact hcur
  have hfuelL : ∀ F, g.rank s.head < F →
      inorder s F s.head = inorder s (g.rank s.head + 1) s.head :=
    fun F hF => inorder_fuel h (g.rank s.head) s.head hb hhb (le_refl _) F _ hF (by omega)
  obtain ⟨A, B, hsp, hA, hB, hrun⟩ :=
    advanceTo_spec t h hd hf hu (maxSlots s) (keys_le_maxSlots h) thisLoc i k0 hk0 hx
      (g.rank s.head + maxSlots s + 2) (g.rank s.head + 1) (by omega) (by omega)
  obtain ⟨hslot, hsorted, hall, _⟩ := tree_walk h (g.rank s.head + 1) (by omega)
  have hcmp : ∀ x ∈ A ++ B, ∃ k, slotAt s x = some k ∧ t.cmp k.key = .ok (t.val k) := by
    intro x hx1
    obtain ⟨k, hk⟩ := hslot x (hsp ▸ hx1)
    exact ⟨k, hk, t.cmp_val hf k (slotAt_fields hu hk)⟩
  refine ⟨g.rank s.head + maxSlots s + 1, inorder s (g.rank s.head + 1) s.head, A, B,
    t.pick A B (DiskLoc.Null, 0), ?_, ?_, hsorted, hall, hsp, ?_⟩
  · intro fuel hfuel
    obtain ⟨A1, B1, hsp1, hA1, hB1, hrun1⟩ :=
      advanceTo_spec t h hd hf hu (maxSlots s) (keys_le_maxSlots h) thisLoc i k0 hk0 hx
        fuel (g.rank s.head + 1) (by omega) (by omega)
    have hsame : A1 = A ∧ B1 = B := by
      have hsp2 : A1 ++ B1 = A ++ B := by rw [← hsp1, ← hsp]
      rw [hsp] at hslot
      exact split_unique t hsp2 hA1 hB1 hA hB hslot
    rw [hrun1, hsame.1, hsame.2]
  · intro F hF
    exact hfuelL F (by omega)
  · have hpk := t.pick_landsAt A B
    by_cases hdir : t.direction > 0
    · rw [if_pos hdir] at hpk ⊢
      refine ⟨fun x hx1 => ?_, fun x hx1 => ?_, hpk⟩
      · obtain ⟨k, hk, hck⟩ := hcmp x (List.mem_append_left _ hx1)
        have := hA x hx1 k hk
        rw [t.high_pos hdir] at this
        exact ⟨k, _, hk, hck, by omega⟩
      · obtain ⟨k, hk, hck⟩ := hcmp x (List.mem_append_right _ hx1)
        have := hB x hx1 k hk
        rw [t.high_pos hdir] at this
        exact ⟨k, _, hk, hck, this⟩
    · rw [if_neg hdir] at hpk ⊢
      refine ⟨fun x hx1 => ?_, fun x hx1 => ?_, hpk⟩
      · obtain ⟨k, hk, hck⟩ := hcmp x (List.mem_append_left _ hx1)
        have := hA x hx1 k hk
        rw [t.high_neg hdir] at this
        exact ⟨k, _, hk, hck, by omega⟩
      · obtain ⟨k, hk, hck⟩ := hcmp x (List.mem_append_right _ hx1)
        have := hB x hx1 k hk
        rw [t.high_neg hdir] at this
        exact ⟨k, _, hk, hck, this⟩

end BtreeBucket
end mongo
namespace mongo
namespace BtreeBucket

/-! ## The search on the index of the keys `{a: i, b: j}` -/

set_option maxRecDepth 100000 in
theorem gridPage_check : leafCheck pageLayout ascending gridPage = true := by rfl

theorem gridPage_uniform : UniformKeys (singlePage pageLayout gridPage) 2 := by
  intro l b k hl hk
  rw [singlePage_pages hl] at hk
  simp only [gridPage, leafPage, gridSlots, List.mem_map] at hk
  obtain ⟨n, _, rfl⟩ := hk
  rfl

theorem afterFive_fits : afterFive.Fits 2 :=
  ⟨by decide, by decide, by decide, by decide⟩

/-- On the page of the keys `{a: i, b: j}`, `i` and `j` from 1 to 10, a forward
`advanceTo` from the first slot with `keyBegin = {a: 5}` and `afterKey` lands on
the slot 50, which holds the key `{a: 6, b: 1}`. -/
theorem advanceTo_grid :
    advanceTo (singlePage pageLayout gridPage) afterFive 10 ⟨0, 0⟩ 0 = .ok (⟨0, 0⟩, 50) ∧
    (gridSlots.get? 50).map (fun k => k.key) = some (gridKey 6 1) := by
  constructor
  · rfl
  · rfl

theorem advanceTo_lands_witness :
    WellFormed pageLayout afterFive.order (singlePage pageLayout gridPage) ∧
    afterFive.direction ≠ 0 ∧ afterFive.Fits 2 ∧
    UniformKeys (singlePage pageLayout gridPage) 2 ∧
    slotAt (singlePage pageLayout gridPage) (⟨0, 0⟩, 0) =
      some ⟨DiskLoc.Null, ⟨1, 2⟩, gridKey 1 1⟩ ∧
    afterFive.cmp (gridKey 1 1) = .ok (-1) ∧
    (if afterFive.direction > 0 then (-1 : Int) < 0 else (-1 : Int) > 0) ∧
    ∃ N L A B res,
      (∀ fuel, N < fuel →
        advanceTo (singlePage pageLayout gridPage) afterFive fuel ⟨0, 0⟩ ((0 : Nat) : Int)
          = .ok res) ∧
      (∀ F, N < F → inorder (singlePage pageLayout gridPage) F
        (singlePage pageLayout gridPage).head = L) ∧
      L.Pairwise (PosLt afterFive.order (singlePage pageLayout gridPage)) ∧
      (∀ l b j, (singlePage pageLayout gridPage).pages l = some b → j < b.keys.length →
        (l, j) ∈ L) ∧
      L = A ++ B ∧
      (if afterFive.direction > 0 then
        (∀ x ∈ A, ∃ k cx, slotAt (singlePage pageLayout gridPage) x = some k ∧
          afterFive.cmp k.key = .ok cx ∧ cx < 0) ∧
        (∀ x ∈ B, ∃ k cx, slotAt (singlePage pageLayout gridPage) x = some k ∧
          afterFive.cmp k.key = .ok cx ∧ cx ≥ 0) ∧
        LandsAt res B.head?
      else
        (∀ x ∈ A, ∃ k cx, slotAt (singlePage pageLayout gridPage) x = some k ∧
          afterFive.cmp k.key = .ok cx ∧ cx ≤ 0) ∧
        (∀ x ∈ B, ∃ k cx, slotAt (singlePage pageLayout gridPage) x = some k ∧
          afterFive.cmp k.key = .ok cx ∧ cx > 0) ∧
        LandsAt res A.getLast?) :=
  ⟨wellFormed_singlePage _ _ _ gridPage_check (by decide), by decide, afterFive_fits,
    gridPage_uniform, rfl, rfl, by decide,
    advanceTo_lands pageLayout (singlePage pageLayout gridPage) afterFive
      (wellFormed_singlePage _ _ _ gridPage_check (by decide)) (by decide) 2 afterFive_fits
      gridPage_uniform ⟨0, 0⟩ 0 ⟨DiskLoc.Null, ⟨1, 2⟩, gridKey 1 1⟩ (-1) rfl rfl (by decide)⟩

end BtreeBucket
end mongo
namespace mongo
namespace BtreeBucket

/-! ## The binary search `customFind` -/

/-- C36 (amended): in `customFind`, when the interval is not down to two
neighbours and the key in the middle compares equal to the target, a search
with a direction below 0 goes on in the right half, from the middle to `h`, and
a search with any other direction, a forward search among them, goes on in the
left half, from `l` to the middle. -/
theorem customFind_equal_middle (s : State) (t : Target) (thisLoc : DiskLoc)
    (bp : DiskLoc × Int) (fuel : Nat) (l h : Int) (b : BtreeBucket) (km : _KeyNode)
    (hb : s.pages thisLoc = some b) (hne : l + 1 ≠ h)
    (hk : keyAt b (l + (h - l).tdiv 2) = .ok km) (hc : t.cmp km.key = .ok 0) :
    customFind s t thisLoc bp (fuel + 1) l h =
      if t.direction < 0 then customFind s t thisLoc bp fuel (l + (h - l).tdiv 2) h
      else customFind s t thisLoc bp fuel l (l + (h - l).tdiv 2) := by
  rw [customFind]
  simp only [hb, if_neg hne, hk, hc, lt_irrefl, if_false, gt_iff_lt]

theorem customFind_equal_middle_witness :
    (singlePage smallLayout samplePage).pages ⟨0, 0⟩ = some samplePage ∧
    (0 : Int) + 1 ≠ 2 ∧
    keyAt samplePage (0 + ((2 : Int) - 0).tdiv 2) = .ok (leafSlot 2 10 21) ∧
    (equalsTwo 1).cmp (leafSlot 2 10 21).key = .ok 0 ∧
    customFind (singlePage smallLayout samplePage) (equalsTwo 1) ⟨0, 0⟩ (DiskLoc.Null, 0)
        (1 + 1) 0 2 =
      if (equalsTwo 1).direction < 0 then
        customFind (singlePage smallLayout samplePage) (equalsTwo 1) ⟨0, 0⟩ (DiskLoc.Null, 0) 1
          (0 + ((2 : Int) - 0).tdiv 2) 2
      else
        customFind (singlePage smallLayout samplePage) (equalsTwo 1) ⟨0, 0⟩ (DiskLoc.Null, 0) 1
          0 (0 + ((2 : Int) - 0).tdiv 2) :=
  ⟨rfl, by decide, rfl, rfl,
    customFind_equal_middle (singlePage smallLayout samplePage) (equalsTwo 1) ⟨0, 0⟩
      (DiskLoc.Null, 0) 1 0 2 samplePage (leafSlot 2 10 21) rfl (by decide) rfl rfl⟩

/-- On the page of the keys 1, 2 and 3, a forward search for the key 2 from the
interval of the slots 0 to 2 finds the middle key equal to the target; it does
not go on in the right half, the slots 1 to 2, which ends at the slot 2, but in
the left half, the slots 0 to 1, and ends at the slot 1. -/
theorem customFind_forward_counterexample :
    (equalsTwo 1).direction > 0 ∧
    (equalsTwo 1).cmp (leafSlot 2 10 21).key = .ok 0 ∧
    keyAt samplePage (0 + ((2 : Int) - 0).tdiv 2) = .ok (leafSlot 2 10 21) ∧
    ¬ (customFind (singlePage smallLayout samplePage) (equalsTwo 1) ⟨0, 0⟩ (DiskLoc.Null, 0) 2
        0 2 =
      customFind (singlePage smallLayout samplePage) (equalsTwo 1) ⟨0, 0⟩ (DiskLoc.Null, 0) 1
        1 2) ∧
    customFind (singlePage smallLayout samplePage) (equalsTwo 1) ⟨0, 0⟩ (DiskLoc.Null, 0) 2
        0 2 =
      customFind (singlePage smallLayout samplePage) (equalsTwo 1) ⟨0, 0⟩ (DiskLoc.Null, 0) 1
        0 1 := by
  refine ⟨by decide, rfl, rfl, ?_, rfl⟩
  intro h
  have h1 : customFind (singlePage smallLayout samplePage) (equalsTwo 1) ⟨0, 0⟩
      (DiskLoc.Null, 0) 2 0 2 = .ok (false, ⟨0, 0⟩, 1, (DiskLoc.Null, 0)) := rfl
  have h2 : customFind (singlePage smallLayout samplePage) (equalsTwo 1) ⟨0, 0⟩
      (DiskLoc.Null, 0) 1 1 2 = .ok (false, ⟨0, 0⟩, 2, (DiskLoc.Null, 0)) := rfl
  rw [h1, h2] at h
  have h3 := Except.ok.inj h
  simp at h3

end BtreeBucket
end mongo
namespace mongo
namespace BtreeBucket

/-! ## Termination of `customFind` -/

theorem customFind_total (s : State) (t : Target) {m : Nat} (hf : t.Fits m)
    (thisLoc : DiskLoc) (b : BtreeBucket) (hb : s.pages thisLoc = some b)
    (hu : ∀ k ∈ b.keys, k.key.elems.length = m) (bp : DiskLoc × Int) :
    ∀ (d l h : Nat), h - l ≤ d → l < h → h < b.keys.length → ∀ fuel, d < fuel →
      ∃ r, customFind s t thisLoc bp fuel (l : Int) (h : Int) = .ok r := by
  intro d
  induction d with
  | zero =>
    intro l h hd0 hlh
    omega
  | succ d ih =>
    intro l h hdl hlh hhn fuel hfuel
    cases fuel with
    | zero => omega
    | succ fuel =>
    rw [customFind]
    simp only [hb]
    by_cases hadj : (l : Int) + 1 = (h : Int)
    · rw [if_pos hadj]
      obtain ⟨kh, hkh⟩ := get?_some_of_lt b.keys h hhn
      rw [keyAt_of_get? hkh]
      simp only
      split
      · exact ⟨_, rfl⟩
      · exact ⟨_, rfl⟩
    · rw [if_neg hadj]
      have hmid := tdiv_half l h (le_of_lt hlh)
      simp only [hmid]
      have hm1 : l < l + (h - l) / 2 := by omega
      have hm2 : l + (h - l) / 2 < h := by omega
      obtain ⟨km, hkm⟩ := get?_some_of_lt b.keys (l + (h - l) / 2) (by omega)
      rw [keyAt_of_get? hkm]
      simp only
      rw [t.cmp_val hf km (hu km (List.get?_mem hkm))]
      simp only
      have hA := ih l (l + (h - l) / 2) (by omega) hm1 (by omega) fuel (by omega)
      have hB := ih (l + (h - l) / 2) h (by omega) hm2 hhn fuel (by omega)
      split
      · exact hB
      · split
        · exact hA
        · split
          · exact hB
          · exact hA

theorem customFind_stuck (s : State) (t : Target) {m : Nat} (hf : t.Fits m)
    (thisLoc : DiskLoc) (b : BtreeBucket) (hb : s.pages thisLoc = some b)
    (hu : ∀ k ∈ b.keys, k.key.elems.length = m) (bp : DiskLoc × Int) (l : Nat)
    (hl : l < b.keys.length) :
    ∀ fuel, customFind s t thisLoc bp fuel (l : Int) (l : Int) = .error .outOfFuel := by
  intro fuel
  induction fuel with
  | zero => rfl
  | succ fuel ih =>
    rw [customFind]
    simp only [hb]
    rw [if_neg (by omega)]
    have hmid : (l : Int) + ((l : Int) - (l : Int)).tdiv 2 = (l : Int) := by simp
    simp only [hmid]
    obtain ⟨km, hkm⟩ := get?_some_of_lt b.keys l hl
    rw [keyAt_of_get? hkm]
    simp only
    rw [t.cmp_val hf km (hu km (List.get?_mem hkm))]
    simp only [ih, ite_self]

/-- C38: on a page whose keys have the `m` fields the target is made for,
`customFind` returns for every `l < h` inside the page once the fuel exceeds
`h - l`, which is the number of rounds it may need, while with `l = h` it never
returns, however much fuel it gets. One round of the loop of `customLocate` on a
page with slots calls `customFind` with `l = 0` and `h = n - 1` exactly when
both checks fail: the first slot compares before the target and the last one
does not, for a forward search, or the last slot compares after the target and
the first one does not, for a backward search; the page then has more than one
slot, so that `l < h`. When a check holds the round goes on without a call of
`customFind`. -/
theorem customFind_terminates (s : State) (t : Target) (m : Nat) (hf : t.Fits m)
    (thisLoc : DiskLoc) (b : BtreeBucket) (hb : s.pages thisLoc = some b)
    (hu : ∀ k ∈ b.keys, k.key.elems.length = m) (bp : DiskLoc × Int) :
    (∀ (l h : Nat), l < h → h < b.keys.length → ∀ fuel, h - l < fuel →
      ∃ r, customFind s t thisLoc bp fuel (l : Int) (h : Int) = .ok r) ∧
    (∀ (l : Nat), l < b.keys.length → ∀ fuel,
      customFind s t thisLoc bp fuel (l : Int) (l : Int) = .error .outOfFuel) ∧
    (∀ (k0 kh : _KeyNode) (c0 ch : Int) (fuel : Nat) (keyOfs : Int),
      b.keys.get? 0 = some k0 → b.keys.get? (b.keys.length - 1) = some kh →
      t.cmp k0.key = .ok c0 → t.cmp kh.key = .ok ch →
      (((if t.direction > 0 then decide (c0 ≥ 0) else decide (ch ≤ 0)) = false ∧
        (if t.direction > 0 then decide (ch < 0) else decide (c0 > 0)) = false) →
        0 < b.keys.length - 1 ∧
        customLocateLoop s t (fuel + 1) thisLoc keyOfs bp =
          match customFind s t thisLoc bp fuel 0 ((b.keys.length - 1 : Nat) : Int) with
          | .error e => .error e
          | .ok r =>
            if r.1 then customLocateLoop s t fuel r.2.1 r.2.2.1 r.2.2.2
            else .ok (r.2.1, r.2.2.1)) ∧
      ((if t.direction > 0 then decide (c0 ≥ 0) else decide (ch ≤ 0)) = true →
        customLocateLoop s t (fuel + 1) thisLoc keyOfs bp =
          if (if t.direction > 0 then k0.prevChildBucket else b.nextChild).isNull then
            .ok (thisLoc, if t.direction > 0 then 0 else b.n - 1)
          else customLocateLoop s t fuel
            (if t.direction > 0 then k0.prevChildBucket else b.nextChild)
            (if t.direction > 0 then 0 else b.n - 1)
            (thisLoc, if t.direction > 0 then 0 else b.n - 1)) ∧
      (((if t.direction > 0 then decide (c0 ≥ 0) else decide (ch ≤ 0)) = false ∧
        (if t.direction > 0 then decide (ch < 0) else decide (c0 > 0)) = true) →
        customLocateLoop s t (fuel + 1) thisLoc keyOfs bp =
          if (if t.direction > 0 then b.nextChild else k0.prevChildBucket).isNull then .ok bp
          else customLocateLoop s t fuel
            (if t.direction > 0 then b.nextChild else k0.prevChildBucket) keyOfs bp)) := by
  refine ⟨fun l h hlh hh fuel hfuel =>
      customFind_total s t hf thisLoc b hb hu bp (h - l) l h (le_refl _) hlh hh fuel hfuel,
    fun l hl fuel => customFind_stuck s t hf thisLoc b hb hu bp l hl fuel, ?_⟩
  intro k0 kh c0 ch fuel keyOfs h0 hlast hc0 hch
  have hlen : 0 < b.keys.length := (List.get?_eq_some.mp h0).1
  have hn1 : b.n - 1 = ((b.keys.length - 1 : Nat) : Int) := by
    unfold n
    omega
  have hk0 : keyAt b 0 = .ok k0 := keyAt_of_get? h0
  have hkh : keyAt b (b.n - 1) = .ok kh := by
    rw [hn1]
    exact keyAt_of_get? hlast
  generalize hR : customLocateLoop s t fuel = R
  refine ⟨?_, ?_, ?_⟩
  · rintro ⟨hfc, hsc⟩
    have hpos : 0 < b.keys.length - 1 := by
      rcases Nat.eq_zero_or_pos (b.keys.length - 1) with hz | hz
      · rw [hz, h0] at hlast
        cases hlast
        rw [hc0] at hch
        cases hch
        by_cases hdir : t.direction > 0
        · simp only [hdir, if_true, decide_eq_false_iff_not] at hfc hsc
          omega
        · simp only [hdir, if_false, decide_eq_false_iff_not] at hfc hsc
          omega
      · exact hz
    refine ⟨hpos, ?_⟩
    rw [← hn1]
    unfold customLocateLoop
    by_cases hdir : t.direction > 0
    · simp only [hdir, if_true] at hfc hsc
      simp only [hb, hR, hdir, if_true, hk0, hkh, hc0, hch, hfc, hsc, Bool.false_eq_true,
        if_false]
      cases customFind s t thisLoc bp fuel 0 (b.n - 1) with
      | error e => rfl
      | ok r =>
        obtain ⟨r1, r2, r3, r4⟩ := r
        cases r1 <;> simp
    · simp only [hdir, if_false] at hfc hsc
      simp only [hb, hR, hdir, if_false, hk0, hkh, hc0, hch, hfc, hsc, Bool.false_eq_true]
      cases customFind s t thisLoc bp fuel 0 (b.n - 1) with
      | error e => rfl
      | ok r =>
        obtain ⟨r1, r2, r3, r4⟩ := r
        cases r1 <;> simp
  · intro hfc
    unfold customLocateLoop
    by_cases hdir : t.direction > 0
    · simp only [hdir, if_true] at hfc
      simp only [hb, hR, hdir, if_true, hk0, hkh, hc0, hch, hfc]
      cases k0.prevChildBucket.isNull <;> simp
    · simp only [hdir, if_false] at hfc
      simp only [hb, hR, hdir, if_false, hk0, hkh, hc0, hch, hfc, if_true]
      cases b.nextChild.isNull <;> simp
  · rintro ⟨hfc, hsc⟩
    unfold customLocateLoop
    by_cases hdir : t.direction > 0
    · simp only [hdir, if_true] at hfc hsc
      simp only [hb, hR, hdir, if_true, hk0, hkh, hc0, hch, hfc, hsc, Bool.false_eq_true,
        if_false]
    · simp only [hdir, if_false] at hfc hsc
      simp only [hb, hR, hdir, if_false, hk0, hkh, hc0, hch, hfc, hsc, Bool.false_eq_true,
        if_true]

theorem samplePage_fields : ∀ k ∈ samplePage.keys, k.key.elems.length = 1 := by
  intro k hk
  simp only [samplePage, leafPage, List.mem_cons, List.mem_singleton, List.not_mem_nil,
    or_false] at hk
  rcases hk with rfl | rfl | rfl <;> rfl

theorem customFind_terminates_witness :
    (equalsTwo 1).Fits 1 ∧
    sampleTree.pages ⟨0, 0⟩ = some samplePage ∧
    (∀ k ∈ samplePage.keys, k.key.elems.length = 1) ∧
    (
(∀ (l h : Nat), l < h → h < samplePage.keys.length → ∀ fuel, h - l < fuel →
      ∃ r, customFind sampleTree (equalsTwo 1) ⟨0, 0⟩ (DiskLoc.Null, 0) fuel (l : Int) (h : Int)
        = .ok r) ∧
    (∀ (l : Nat), l < samplePage.keys.length → ∀ fuel,
      customFind sampleTree (equalsTwo 1) ⟨0, 0⟩ (DiskLoc.Null, 0) fuel (l : Int) (l : Int)
        = .error .outOfFuel) ∧
    (∀ (k0 kh : _KeyNode) (c0 ch : Int) (fuel : Nat) (keyOfs : Int),
      samplePage.keys.get? 0 = some k0 →
      samplePage.keys.get? (samplePage.keys.length - 1) = some kh →
      (equalsTwo 1).cmp k0.key = .ok c0 → (equalsTwo 1).cmp kh.key = .ok ch →
      (((if (equalsTwo 1).direction > 0 then decide (c0 ≥ 0) else decide (ch ≤ 0)) = false ∧
        (if (equalsTwo 1).direction > 0 then decide (ch < 0) else decide (c0 > 0)) = false) →
        0 < samplePage.keys.length - 1 ∧
        customLocateLoop sampleTree (equalsTwo 1) (fuel + 1) ⟨0, 0⟩ keyOfs
            (DiskLoc.Null, 0) =
          match customFind sampleTree (equalsTwo 1) ⟨0, 0⟩ (DiskLoc.Null, 0) fuel 0
              ((samplePage.keys.length - 1 : Nat) : Int) with
          | .error e => .error e
          | .ok r =>
            if r.1 then customLocateLoop sampleTree (equalsTwo 1) fuel r.2.1 r.2.2.1 r.2.2.2
            else .ok (r.2.1, r.2.2.1)) ∧
      ((if (equalsTwo 1).direction > 0 then decide (c0 ≥ 0) else decide (ch ≤ 0)) = true →
        customLocateLoop sampleTree (equalsTwo 1) (fuel + 1) ⟨0, 0⟩ keyOfs
            (DiskLoc.Null, 0) =
          if (if (equalsTwo 1).direction > 0 then k0.prevChildBucket
              else samplePage.nextChild).isNull then
            .ok ((⟨0, 0⟩ : DiskLoc), if (equalsTwo 1).direction > 0 then 0 else samplePage.n - 1)
          else customLocateLoop sampleTree (equalsTwo 1) fuel
            (if (equalsTwo 1).direction > 0 then k0.prevChildBucket else samplePage.nextChild)
            (if (equalsTwo 1).direction > 0 then 0 else samplePage.n - 1)
            ((⟨0, 0⟩ : DiskLoc), if (equalsTwo 1).direction > 0 then 0 else samplePage.n - 1)) ∧
      (((if (equalsTwo 1).direction > 0 then decide (c0 ≥ 0) else decide (ch ≤ 0)) = false ∧
        (if (equalsTwo 1).direction > 0 then decide (ch < 0) else decide (c0 > 0)) = true) →
        customLocateLoop sampleTree (equalsTwo 1) (fuel + 1) ⟨0, 0⟩ keyOfs
            (DiskLoc.Null, 0) =
          if (if (equalsTwo 1).direction > 0 then samplePage.nextChild
              else k0.prevChildBucket).isNull then .ok (DiskLoc.Null, 0)
          else customLocateLoop sampleTree (equalsTwo 1) fuel
            (if (equalsTwo 1).direction > 0 then samplePage.nextChild else k0.prevChildBucket) keyOfs (DiskLoc.Null, 0)))) :=
  ⟨⟨by decide, by decide, by decide, by decide⟩, rfl, samplePage_fields,
    customFind_terminates sampleTree (equalsTwo 1) 1
      ⟨by decide, by decide, by decide, by decide⟩ ⟨0, 0⟩ samplePage rfl samplePage_fields
      (DiskLoc.Null, 0)⟩

end BtreeBucket
end mongo
namespace mongo
namespace BtreeBucket

/-! ## `_insert` on an entry whose slot is marked unused -/

/-- C35: when `find` reports the entry at the slot `pos` of the page, the slot
is marked unused, and `_insert` was given no children, `_insert` returns 0 and
leaves a state in which only that page differs, and in the page only that slot:
the slot is marked used and keeps its key, its left child and its record; the
number of slots, `emptySize`, `topSize`, the other header fields and the other
slots are as before. -/
theorem _insert_resurrects (c : Layout) (order : Ordering) (fuel : Nat) (s : State)
    (thisLoc recordLoc : DiskLoc) (key : BSONObj) (dupsAllowed : Bool) (lChild rChild : DiskLoc)
    (b : BtreeBucket) (pos : Nat) (kn : _KeyNode)
    (hmax : ¬ key.objsize > KeyMax c) (hsz : key.objsize > 0) (hb : s.pages thisLoc = some b)
    (hfind : find (fuel + 1) s b key recordLoc order (!dupsAllowed) = .ok (true, pos))
    (hk : b.keys.get? pos = some kn) (hun : kn.isUnused = true)
    (hl : lChild.isNull = true) (hr : rChild.isNull = true) :
    ∃ b1 kn1,
      _insert c order (fuel + 1) s thisLoc recordLoc key dupsAllowed lChild rChild
        = (.ok 0, s.put thisLoc b1) ∧
      (∀ l, l ≠ thisLoc → (s.put thisLoc b1).pages l = s.pages l) ∧
      (s.put thisLoc b1).pages thisLoc = some b1 ∧
      (s.put thisLoc b1).head = s.head ∧
      b1.n = b.n ∧ b1.emptySize = b.emptySize ∧ b1.topSize = b.topSize ∧
      b1.parent = b.parent ∧ b1.nextChild = b.nextChild ∧ b1.packed = b.packed ∧
      b1.keys.get? pos = some kn1 ∧ kn1.isUsed = true ∧ kn1.key = kn.key ∧
      kn1.prevChildBucket = kn.prevChildBucket ∧ kn1.recordLoc = kn.recordLoc.clearLow ∧
      (∀ j, j ≠ pos → b1.keys.get? j = b.keys.get? j) := by
  have hlt := (List.get?_eq_some.mp hk).1
  refine ⟨{ b with keys := b.keys.set pos kn.setUsed }, kn.setUsed, ?_,
    fun l hne => State.put_pages_ne s _ hne, State.put_pages_same s _ _, rfl, ?_, rfl, rfl, rfl,
    rfl, rfl, ?_, setUsed_isUsed kn, rfl, rfl, rfl, ?_⟩
  · unfold _insert
    simp only [hmax, if_false, hsz, not_true_eq_false, hb, hfind, if_true, hk, hun, hl, hr]
  · simp only [n, List.length_set]
  · simp only [List.get?_eq_getElem?, List.getElem?_set_self hlt]
  · intro j hj
    simp only [List.get?_eq_getElem?]
    exact List.getElem?_set_ne (Ne.symm hj)

theorem _insert_resurrects_witness :
    ¬ (sampleKey 2 10).objsize > KeyMax smallLayout ∧ (sampleKey 2 10).objsize > 0 ∧
    sampleTree.pages ⟨0, 0⟩ = some samplePage ∧
    find (0 + 1) sampleTree samplePage (sampleKey 2 10) ⟨1, 20⟩ ascending (!true)
      = .ok (true, 1) ∧
    samplePage.keys.get? 1 = some (leafSlot 2 10 21) ∧
    (leafSlot 2 10 21).isUnused = true ∧
    DiskLoc.Null.isNull = true ∧
    ∃ b1 kn1,
      _insert smallLayout ascending (0 + 1) sampleTree ⟨0, 0⟩ ⟨1, 20⟩ (sampleKey 2 10) true
          DiskLoc.Null DiskLoc.Null
        = (.ok 0, sampleTree.put ⟨0, 0⟩ b1) ∧
      (∀ l, l ≠ (⟨0, 0⟩ : DiskLoc) → (sampleTree.put ⟨0, 0⟩ b1).pages l = sampleTree.pages l) ∧
      (sampleTree.put ⟨0, 0⟩ b1).pages ⟨0, 0⟩ = some b1 ∧
      (sampleTree.put ⟨0, 0⟩ b1).head = sampleTree.head ∧
      b1.n = samplePage.n ∧ b1.emptySize = samplePage.emptySize ∧
      b1.topSize = samplePage.topSize ∧
      b1.parent = samplePage.parent ∧ b1.nextChild = samplePage.nextChild ∧
      b1.packed = samplePage.packed ∧
      b1.keys.get? 1 = some kn1 ∧ kn1.isUsed = true ∧ kn1.key = (leafSlot 2 10 21).key ∧
      kn1.prevChildBucket = (leafSlot 2 10 21).prevChildBucket ∧
      kn1.recordLoc = (leafSlot 2 10 21).recordLoc.clearLow ∧
      (∀ j, j ≠ 1 → b1.keys.get? j = samplePage.keys.get? j) :=
  ⟨by decide, by decide, rfl, rfl, rfl, rfl, rfl,
    _insert_resurrects smallLayout ascending 0 sampleTree ⟨0, 0⟩ ⟨1, 20⟩ (sampleKey 2 10) true
      DiskLoc.Null DiskLoc.Null samplePage 1 (leafSlot 2 10 21) (by decide) (by decide) rfl rfl
      rfl rfl rfl rfl⟩

end BtreeBucket
end mongo
namespace mongo
namespace BtreeBucket

/-! ## `delKeyAtPos` on a slot that separates subtrees -/

theorem clearLow_setLow (l : DiskLoc) : l.setLow.clearLow = l.clearLow := by
  simp only [DiskLoc.clearLow, DiskLoc.setLow, DiskLoc.mk.injEq, true_and]
  omega

theorem setUnused_ekey (o : Ordering) (k : _KeyNode) : k.setUnused.ekey o = k.ekey o := by
  simp only [_KeyNode.ekey, _KeyNode.setUnused, clearLow_setLow]

theorem setUnused_isUnused (k : _KeyNode) : k.setUnused.isUnused = true := by
  simp only [_KeyNode.isUnused, _KeyNode.setUnused, DiskLoc.setLow, decide_eq_true_eq]
  omega

theorem map_set_same {α β : Type} (f : α → β) (ks : List α) (p : Nat) (k k1 : α)
    (hk : ks.get? p = some k) (hf : f k1 = f k) : (ks.set p k1).map f = ks.map f := by
  rw [List.map_set, hf]
  apply List.ext_get?
  intro j
  simp only [List.get?_eq_getElem?] at hk ⊢
  by_cases hj : p = j
  · subst hj
    have hlt : p < (ks.map f).length := by
      rw [List.length_map]
      exact (List.getElem?_eq_some_iff.mp hk).1
    rw [List.getElem?_set_self hlt, List.getElem?_map, hk]
    rfl
  · rw [List.getElem?_set_ne hj]

theorem delKeyAtPos_mark_eq (c : Layout) (order : Ordering) (fuel : Nat) (s : State)
    (thisLoc : DiskLoc) (p : Nat) (b : BtreeBucket) (k : _KeyNode)
    (hb : s.pages thisLoc = some b) (hk : b.keys.get? p = some k)
    (hcond : k.prevChildBucket.isNull = false ∨
      (b.keys.length = 1 ∧ b.nextChild.isNull = false)) :
    delKeyAtPos c order fuel s thisLoc p =
      (.ok (), s.put thisLoc { b with keys := b.keys.set p k.setUnused }) := by
  have hlt := (List.get?_eq_some.mp hk).1
  have hn : b.n > 0 := by
    unfold n
    omega
  unfold delKeyAtPos
  simp only [hb, hn, not_true_eq_false, if_false, childForPos_of_get? hk, markUnused, hk]
  by_cases h1 : b.keys.length = 1
  · rw [if_pos h1]
    rcases hcond with hl | ⟨_, hr⟩
    · simp only [hl, Bool.false_eq_true, false_and, if_false]
    · simp only [hr, Bool.false_eq_true, and_false, if_false]
  · rw [if_neg h1]
    rcases hcond with hl | ⟨h1', _⟩
    · simp only [hl, Bool.false_eq_true, if_false]
    · exact absurd h1' h1

/-- C31: when the left child of the slot `p` is not null, or the page has one
slot and its last child is not null, `delKeyAtPos` only marks the slot unused:
it returns with a state in which only that page differs and no page is gone,
and in the page only that slot, which is marked unused and keeps its key, its
left child and its place in the order; the number of slots, `emptySize`,
`topSize`, the other header fields and the other slots are as before. And
whenever `delKeyAtPos` leaves the page without the slot, be it with fewer slots
or deallocated, the left child of the slot was null. -/
theorem delKeyAtPos_marks (c : Layout) (order : Ordering) (fuel : Nat) (s : State)
    (thisLoc : DiskLoc) (p : Nat) (b : BtreeBucket) (k : _KeyNode)
    (hb : s.pages thisLoc = some b) (hk : b.keys.get? p = some k) :
    ((k.prevChildBucket.isNull = false ∨ (b.keys.length = 1 ∧ b.nextChild.isNull = false)) →
      ∃ b1 k1,
        delKeyAtPos c order fuel s thisLoc p = (.ok (), s.put thisLoc b1) ∧
        (∀ l, l ≠ thisLoc → (s.put thisLoc b1).pages l = s.pages l) ∧
        (s.put thisLoc b1).pages thisLoc = some b1 ∧
        (∀ l, (s.pages l).isSome = true → ((s.put thisLoc b1).pages l).isSome = true) ∧
        (s.put thisLoc b1).head = s.head ∧
        b1.n = b.n ∧ b1.emptySize = b.emptySize ∧ b1.topSize = b.topSize ∧
        b1.parent = b.parent ∧ b1.nextChild = b.nextChild ∧ b1.packed = b.packed ∧
        b1.keys.get? p = some k1 ∧ k1.isUnused = true ∧ k1.key = k.key ∧
        k1.prevChildBucket = k.prevChildBucket ∧ k1.recordLoc = k.recordLoc.setLow ∧
        (∀ j, j ≠ p → b1.keys.get? j = b.keys.get? j) ∧
        b1.keys.map (fun x => x.ekey order) = b.keys.map (fun x => x.ekey order) ∧
        b1.keys.map (fun x => x.prevChildBucket) = b.keys.map (fun x => x.prevChildBucket)) ∧
    (∀ r s1, delKeyAtPos c order fuel s thisLoc p = (r, s1) →
      (∀ b1, s1.pages thisLoc = some b1 → b1.keys.length < b.keys.length) →
      k.prevChildBucket.isNull = true) := by
  have hlt := (List.get?_eq_some.mp hk).1
  constructor
  · intro hcond
    refine ⟨{ b with keys := b.keys.set p k.setUnused }, k.setUnused,
      delKeyAtPos_mark_eq c order fuel s thisLoc p b k hb hk hcond,
      fun l hne => State.put_pages_ne s _ hne, State.put_pages_same s _ _, ?_, rfl, ?_, rfl, rfl,
      rfl, rfl, rfl, ?_, setUnused_isUnused k, rfl, rfl, rfl, ?_, ?_, ?_⟩
    · intro l hl
      rw [State.put_pages]
      split
      · rfl
      · exact hl
    · simp only [n, List.length_set]
    · simp only [List.get?_eq_getElem?, List.getElem?_set_self hlt]
    · intro j hj
      simp only [List.get?_eq_getElem?]
      exact List.getElem?_set_ne (Ne.symm hj)
    · exact map_set_same _ b.keys p k k.setUnused hk (setUnused_ekey order k)
    · exact map_set_same _ b.keys p k k.setUnused hk rfl
  · intro r s1 hrun hless
    cases hl : k.prevChildBucket.isNull with
    | true => rfl
    | false =>
      rw [delKeyAtPos_mark_eq c order fuel s thisLoc p b k hb hk (Or.inl hl)] at hrun
      have hs1 : s1 = s.put thisLoc { b with keys := b.keys.set p k.setUnused } :=
        (Prod.mk.inj hrun).2.symm
      have := hless _ (by rw [hs1]; exact State.put_pages_same s _ _)
      simp only [List.length_set, lt_irrefl] at this

theorem delKeyAtPos_marks_witness :
    twoLevel.pages ⟨0, 0⟩ =
      some { parent := DiskLoc.Null, nextChild := ⟨0, 400⟩, packed := true, emptySize := 132,
             topSize := 10, keys := [⟨⟨0, 200⟩, ⟨1, 50⟩, sampleKey 5 10⟩] } ∧
    ∃ b k, twoLevel.pages ⟨0, 0⟩ = some b ∧ b.keys.get? 0 = some k ∧
    ((k.prevChildBucket.isNull = false ∨ (b.keys.length = 1 ∧ b.nextChild.isNull = false)) →
      ∃ b1 k1,
        delKeyAtPos smallLayout ascending 3 twoLevel ⟨0, 0⟩ 0
          = (.ok (), twoLevel.put ⟨0, 0⟩ b1) ∧
        (∀ l, l ≠ (⟨0, 0⟩ : DiskLoc) → (twoLevel.put ⟨0, 0⟩ b1).pages l = twoLevel.pages l) ∧
        (twoLevel.put ⟨0, 0⟩ b1).pages ⟨0, 0⟩ = some b1 ∧
        (∀ l, (twoLevel.pages l).isSome = true →
          ((twoLevel.put ⟨0, 0⟩ b1).pages l).isSome = true) ∧
        (twoLevel.put ⟨0, 0⟩ b1).head = twoLevel.head ∧
        b1.n = b.n ∧ b1.emptySize = b.emptySize ∧ b1.topSize = b.topSize ∧
        b1.parent = b.parent ∧ b1.nextChild = b.nextChild ∧ b1.packed = b.packed ∧
        b1.keys.get? 0 = some k1 ∧ k1.isUnused = true ∧ k1.key = k.key ∧
        k1.prevChildBucket = k.prevChildBucket ∧ k1.recordLoc = k.recordLoc.setLow ∧
        (∀ j, j ≠ 0 → b1.keys.get? j = b.keys.get? j) ∧
        b1.keys.map (fun x => x.ekey ascending) = b.keys.map (fun x => x.ekey ascending) ∧
        b1.keys.map (fun x => x.prevChildBucket) = b.keys.map (fun x => x.prevChildBucket)) ∧
    (∀ r s1, delKeyAtPos smallLayout ascending 3 twoLevel ⟨0, 0⟩ 0 = (r, s1) →
      (∀ b1, s1.pages ⟨0, 0⟩ = some b1 → b1.keys.length < b.keys.length) →
      k.prevChildBucket.isNull = true) :=
  ⟨rfl, _, _, rfl, rfl,
    delKeyAtPos_marks smallLayout ascending 3 twoLevel ⟨0, 0⟩ 0 _ _ rfl rfl⟩

end BtreeBucket
end mongo
namespace mongo
namespace BtreeBucket

/-! ## The merge attempts of `balanceWithNeighbors` -/

/-- C32 (amended): `balanceWithNeighbors` does nothing on a page without
parent. On a page with the parent `p` and the index `idx` in it, it attempts the
merge with the right sibling, `tryMergeNeighbors(p, idx)`, if `idx < p.n`, and
returns when that attempt merged; when `idx` is not below `p.n`, and also when
the attempt with the right sibling returned false, it attempts the merge with
the left sibling, `tryMergeNeighbors(p, idx - 1)`, if `idx > 0`. It makes two
attempts at most, the second only after the first returned false. -/
theorem balanceWithNeighbors_attempts (c : Layout) (order : Ordering) (fuel : Nat) (s : State)
    (thisLoc : DiskLoc) (b : BtreeBucket) (hb : s.pages thisLoc = some b) :
    (b.parent.isNull = true →
      balanceWithNeighbors c order (fuel + 1) s thisLoc = (.ok (), s)) ∧
    (∀ p idx, b.parent.isNull = false → s.pages b.parent = some p →
      indexInParent s b thisLoc = .ok idx →
      (idx < p.keys.length →
        (∀ s1, tryMergeNeighbors c order fuel s b.parent idx = (.ok true, s1) →
          balanceWithNeighbors c order (fuel + 1) s thisLoc = (.ok (), s1)) ∧
        (∀ e s1, tryMergeNeighbors c order fuel s b.parent idx = (.error e, s1) →
          balanceWithNeighbors c order (fuel + 1) s thisLoc = (.error e, s1)) ∧
        (∀ s1, tryMergeNeighbors c order fuel s b.parent idx = (.ok false, s1) →
          (idx > 0 →
            (∀ r s2, tryMergeNeighbors c order fuel s1 b.parent (idx - 1) = (.ok r, s2) →
              balanceWithNeighbors c order (fuel + 1) s thisLoc = (.ok (), s2)) ∧
            (∀ e s2, tryMergeNeighbors c order fuel s1 b.parent (idx - 1) = (.error e, s2) →
              balanceWithNeighbors c order (fuel + 1) s thisLoc = (.error e, s2))) ∧
          (idx = 0 → balanceWithNeighbors c order (fuel + 1) s thisLoc = (.ok (), s1)))) ∧
      (¬ idx < p.keys.length →
        (idx > 0 →
          (∀ r s2, tryMergeNeighbors c order fuel s b.parent (idx - 1) = (.ok r, s2) →
            balanceWithNeighbors c order (fuel + 1) s thisLoc = (.ok (), s2)) ∧
          (∀ e s2, tryMergeNeighbors c order fuel s b.parent (idx - 1) = (.error e, s2) →
            balanceWithNeighbors c order (fuel + 1) s thisLoc = (.error e, s2))) ∧
        (idx = 0 → balanceWithNeighbors c order (fuel + 1) s thisLoc = (.ok (), s)))) := by
  constructor
  · intro hp
    unfold balanceWithNeighbors
    simp only [hb, hp, if_true]
  · intro p idx hp hpp hidx
    have hunf : balanceWithNeighbors c order (fuel + 1) s thisLoc =
        match (if idx < p.keys.length then tryMergeNeighbors c order fuel s b.parent idx
          else (.ok false, s)) with
        | (.error e, s) => (.error e, s)
        | (.ok true, s) => (.ok (), s)
        | (.ok false, s) =>
          if idx > 0 then
            match tryMergeNeighbors c order fuel s b.parent (idx - 1) with
            | (.error e, s) => (.error e, s)
            | (.ok _, s) => (.ok (), s)
          else (.ok (), s) := by
      generalize hT : tryMergeNeighbors c order fuel = T
      unfold balanceWithNeighbors
      simp only [hb, hp, Bool.false_eq_true, if_false, hpp, hidx, hT]
      try rfl
    constructor
    · intro hlt
      rw [if_pos hlt] at hunf
      refine ⟨fun s1 h1 => ?_, fun e s1 h1 => ?_, fun s1 h1 => ⟨fun hpos => ⟨fun r s2 h2 => ?_,
        fun e s2 h2 => ?_⟩, fun h0 => ?_⟩⟩
      · rw [hunf, h1]
      · rw [hunf, h1]
      · rw [hunf, h1]
        simp only [hpos, if_true, h2]
      · rw [hunf, h1]
        simp only [hpos, if_true, h2]
      · rw [hunf, h1]
        simp only [h0, gt_iff_lt, lt_irrefl, if_false]
    · intro hge
      rw [if_neg hge] at hunf
      refine ⟨fun hpos => ⟨fun r s2 h2 => ?_, fun e s2 h2 => ?_⟩, fun h0 => ?_⟩
      · rw [hunf]
        simp only [hpos, if_true, h2]
      · rw [hunf]
        simp only [hpos, if_true, h2]
      · rw [hunf]
        simp only [h0, gt_iff_lt, lt_irrefl, if_false]

theorem balanceWithNeighbors_attempts_witness :
    ∃ b, threeLeaves.pages ⟨0, 400⟩ = some b ∧
    (
(b.parent.isNull = true →
      balanceWithNeighbors smallLayout ascending (4 + 1) threeLeaves ⟨0, 400⟩ = (.ok (), threeLeaves)) ∧
    (∀ p idx, b.parent.isNull = false → threeLeaves.pages b.parent = some p →
      indexInParent threeLeaves b ⟨0, 400⟩ = .ok idx →
      (idx < p.keys.length →
        (∀ s1, tryMergeNeighbors smallLayout ascending 4 threeLeaves b.parent idx = (.ok true, s1) →
          balanceWithNeighbors smallLayout ascending (4 + 1) threeLeaves ⟨0, 400⟩ = (.ok (), s1)) ∧
        (∀ e s1, tryMergeNeighbors smallLayout ascending 4 threeLeaves b.parent idx = (.error e, s1) →
          balanceWithNeighbors smallLayout ascending (4 + 1) threeLeaves ⟨0, 400⟩ = (.error e, s1)) ∧
        (∀ s1, tryMergeNeighbors smallLayout ascending 4 threeLeaves b.parent idx = (.ok false, s1) →
          (idx > 0 →
            (∀ r s2, tryMergeNeighbors smallLayout ascending 4 s1 b.parent (idx - 1) = (.ok r, s2) →
              balanceWithNeighbors smallLayout ascending (4 + 1) threeLeaves ⟨0, 400⟩ = (.ok (), s2)) ∧
            (∀ e s2, tryMergeNeighbors smallLayout ascending 4 s1 b.parent (idx - 1) = (.error e, s2) →
              balanceWithNeighbors smallLayout ascending (4 + 1) threeLeaves ⟨0, 400⟩ = (.error e, s2))) ∧
          (idx = 0 → balanceWithNeighbors smallLayout ascending (4 + 1) threeLeaves ⟨0, 400⟩ = (.ok (), s1)))) ∧
      (¬ idx < p.keys.length →
        (idx > 0 →
          (∀ r s2, tryMergeNeighbors smallLayout ascending 4 threeLeaves b.parent (idx - 1) = (.ok r, s2) →
            balanceWithNeighbors smallLayout ascending (4 + 1) threeLeaves ⟨0, 400⟩ = (.ok (), s2)) ∧
          (∀ e s2, tryMergeNeighbors smallLayout ascending 4 threeLeaves b.parent (idx - 1) = (.error e, s2) →
            balanceWithNeighbors smallLayout ascending (4 + 1) threeLeaves ⟨0, 400⟩ = (.error e, s2))) ∧
        (idx = 0 → balanceWithNeighbors smallLayout ascending (4 + 1) threeLeaves ⟨0, 400⟩ = (.ok (), threeLeaves))))) :=
  ⟨_, rfl, balanceWithNeighbors_attempts smallLayout ascending 4 threeLeaves ⟨0, 400⟩ _ rfl⟩

/-- In the tree `threeLeaves` the leaf with the key 11 is the child 1 of the
root, which has 2 slots, so that the leaf has a right sibling. The attempt to
merge it with the right sibling returns false, the two leaves being too large
for one page; `balanceWithNeighbors` then attempts the merge with the left
sibling, which succeeds: the leaf is deallocated and its key is in the left
sibling, after the key 10 that separated them. -/
theorem balanceWithNeighbors_counterexample :
    indexInParent threeLeaves (leafOf ⟨0, 0⟩ [leafSlot 11 10 110]) ⟨0, 400⟩ = .ok 1 ∧
    (threeLeaves.pages ⟨0, 0⟩).map (fun p => p.keys.length) = some 2 ∧
    tryMergeNeighbors smallLayout ascending 4 threeLeaves ⟨0, 0⟩ 1 = (.ok false, threeLeaves) ∧
    (balanceWithNeighbors smallLayout ascending 5 threeLeaves ⟨0, 400⟩).1 = .ok () ∧
    (balanceWithNeighbors smallLayout ascending 5 threeLeaves ⟨0, 400⟩).2 =
      (tryMergeNeighbors smallLayout ascending 4 threeLeaves ⟨0, 0⟩ 0).2 ∧
    (tryMergeNeighbors smallLayout ascending 4 threeLeaves ⟨0, 0⟩ 0).1 = .ok true ∧
    (balanceWithNeighbors smallLayout ascending 5 threeLeaves ⟨0, 400⟩).2.pages ⟨0, 400⟩
      = none ∧
    ((balanceWithNeighbors smallLayout ascending 5 threeLeaves ⟨0, 400⟩).2.pages ⟨0, 200⟩).map
        (fun b => b.keys.map (fun k => k.key))
      = some [sampleKey 1 10, sampleKey 2 10, sampleKey 10 10, sampleKey 11 10] ∧
    ¬ (balanceWithNeighbors smallLayout ascending 5 threeLeaves ⟨0, 400⟩
      = (.ok (), threeLeaves)) := by
  refine ⟨rfl, rfl, rfl, rfl, rfl, rfl, rfl, rfl, ?_⟩
  intro h
  have h1 : (balanceWithNeighbors smallLayout ascending 5 threeLeaves ⟨0, 400⟩).2.pages ⟨0, 400⟩
      = none := rfl
  rw [h] at h1
  cases h1

end BtreeBucket
end mongo
namespace mongo
namespace BtreeBucket

/-! ## The room for a merge -/

theorem packedDataSizeLoop_eq (c : Layout) (r : Nat) (ks : List _KeyNode) :
    ∀ j, packedDataSizeLoop c r j ks =
      keyBytes (keepFrom r j ks) + ((keepFrom r j ks).length : Int) * c.slotSize := by
  induction ks with
  | nil =>
    intro j
    simp [packedDataSizeLoop, keepFrom, keyBytes]
  | cons k ks ih =>
    intro j
    unfold packedDataSizeLoop keepFrom
    by_cases hd : mayDropKey j k r = true
    · rw [if_pos hd, if_pos hd]
      exact ih (j + 1)
    · rw [if_neg hd, if_neg hd, ih (j + 1)]
      simp only [keyBytes, List.length_cons, Nat.cast_add, Nat.cast_one]
      ring

theorem pack_zero_refPos (c : Layout) (b b1 : BtreeBucket) (r1 : Nat)
    (h : pack c b 0 = .ok (b1, r1)) : r1 = 0 := by
  obtain ⟨h1, h2, _, _⟩ := pack_refPos_of_ok c b 0 b1 r1 (Nat.zero_le _) h
  cases hp : b.packed with
  | true => exact (h1 hp).2
  | false =>
    rw [h2 hp]
    rfl

/-- The value of `packedDataSize(0)` of a page is what the page holds once
`pack(0)` is through with it: `topSize` and the slot array. -/
theorem packedDataSize_after_pack (c : Layout) (hc : Layout.Sane c) (b : BtreeBucket)
    (hsz : PageSizes c b) :
    ∃ b1, pack c b 0 = .ok (b1, 0) ∧ PackedAt b b1 0 0 ∧ PageSizes c b1 ∧ b1.packed = true ∧
      packedDataSize c b 0 = b1.topSize + b1.n * c.slotSize ∧
      b1.topSize = keyBytes b1.keys ∧
      b1.emptySize = totalDataSize c - b1.topSize - b1.n * c.slotSize := by
  obtain ⟨b1, r1, hpk, hat, hsz1, hp1⟩ := pack_spec c hc b 0 hsz (Nat.zero_le _)
  have hr1 := pack_zero_refPos c b b1 r1 hpk
  subst hr1
  have hacc := hsz1.accounting
  unfold sizeAccounting at hacc
  refine ⟨b1, hpk, hat, hsz1, hp1, ?_, (hsz1.bytes_eq hp1).symm, ?_⟩
  · cases hp : b.packed with
    | true =>
      have hsame := ((pack_refPos_of_ok c b 0 b1 0 (Nat.zero_le _) hpk).1 hp).1
      subst hsame
      unfold packedDataSize
      rw [hp, if_pos rfl]
      omega
    | false =>
      obtain ⟨b2, r2, hpk2, _, _, _, hkeys⟩ :=
        pack_spec_fits c hc b 0 (fits_of_pageSizes c hc b hsz) hsz.key_pos hsz.key_le
          (Nat.zero_le _) hp
      rw [hpk] at hpk2
      cases hpk2
      unfold packedDataSize
      rw [hp, if_neg (by simp), packedDataSizeLoop_eq, ← hkeys, hsz1.bytes_eq hp1]
      rfl
  · unfold totalDataSize
    omega

/-- The merge of the slots of two pages that satisfy the size condition, with a
separator between them, when the size test of `tryMergeNeighbors` passes: both
pages are packed, and the separator and the slots of the right page are pushed
to the left page, which has room for them. -/
theorem merge_pages_spec (c : Layout) (hc : Layout.Sane c) (o : Ordering)
    (l r : BtreeBucket) (sep : _KeyNode) (hl : PageSizes c l) (hr : PageSizes c r)
    (hpos : 0 < sep.key.objsize) (hle : sep.key.objsize ≤ KeyMax c)
    (hord : SortedSlots o (l.keys ++ sep :: r.keys))
    (hpre : ¬ (c.headerSize + packedDataSize c l 0 + packedDataSize c r 0 + sep.key.objsize
      + c.slotSize > c.BucketSize)) :
    ∃ l1 r1 l2 l3,
      pack c l 0 = .ok (l1, 0) ∧ pack c r 0 = .ok (r1, 0) ∧
      packedDataSize c l 0 = l1.topSize + l1.n * c.slotSize ∧
      packedDataSize c r 0 = r1.topSize + r1.n * c.slotSize ∧
      sep.key.objsize + c.slotSize + (r1.topSize + r1.n * c.slotSize) ≤ l1.emptySize ∧
      pushBack c l1 sep.recordLoc sep.key o l1.nextChild = .ok l2 ∧
      pushBackAll c o r1.keys l2 = .ok l3 ∧
      l3.keys = l1.keys ++ ⟨l1.nextChild, sep.recordLoc, sep.key⟩ :: r1.keys ∧
      PageSizes c l3 ∧ PackedAt l l1 0 0 ∧ PackedAt r r1 0 0 ∧ l3.parent = l1.parent ∧
      PageSizes c l1 ∧ PageSizes c r1 := by
  obtain ⟨l1, hpl, hatl, hszl, hpkl, hdl, htl, hel⟩ := packedDataSize_after_pack c hc l hl
  obtain ⟨r1, hpr, hatr, hszr, hpkr, hdr, htr, her⟩ := packedDataSize_after_pack c hc r hr
  have hroom : sep.key.objsize + c.slotSize + (r1.topSize + r1.n * c.slotSize)
      ≤ l1.emptySize := by
    rw [hel, ← hdr]
    rw [hdl] at hpre
    unfold totalDataSize
    omega
  have hrn : 0 ≤ r1.topSize + r1.n * c.slotSize := by
    have h1 := hszr.empty_nonneg
    have h2 := hszr.bytes_le
    have h3 : 0 ≤ keyBytes r1.keys := by
      have := keyBytes_sublist (List.nil_sublist r1.keys) hszr.key_pos
      simpa [keyBytes] using this
    have h4 : 0 ≤ r1.n * c.slotSize :=
      mul_nonneg (by unfold n; exact Int.natCast_nonneg _) (le_of_lt hc.slot_pos)
    omega
  have hsub : (l1.keys ++ sep :: r1.keys).Sublist (l.keys ++ sep :: r.keys) :=
    List.Sublist.append hatl.sub (List.Sublist.cons₂ sep hatr.sub)
  have hsorted1 : SortedSlots o (l1.keys ++ sep :: r1.keys) := List.Pairwise.sublist hsub hord
  have hsorted2 : SortedSlots o (l1.keys ++ ⟨l1.nextChild, sep.recordLoc, sep.key⟩ :: r1.keys) := by
    rw [sortedSlots_iff_map] at hsorted1 ⊢
    simpa [_KeyNode.ekey] using hsorted1
  obtain ⟨l2, hpb, hk2, hpar2, _, hsz2, he2, _⟩ :=
    pushBack_spec c hc o l1 sep.recordLoc sep.key l1.nextChild hszl hpos hle (by omega) (by
      intro last hlast
      have hmem : last ∈ l1.keys := List.mem_of_mem_getLast? hlast
      unfold SortedSlots at hsorted1
      rw [List.pairwise_append] at hsorted1
      exact woCompare_le_of_ekey_lt o (hsorted1.2.2 last hmem sep (List.mem_cons_self _ _)))
  obtain ⟨l3, hpa, hk3, hpar3, _, hsz3, _⟩ :=
    pushBackAll_spec c hc o r1.keys l2 hsz2
      (fun k hk => ⟨hszr.key_pos k hk, hszr.key_le k hk⟩) (by
        rw [he2, ← htr]
        unfold n at hroom
        omega) (by
        rw [hk2, List.append_assoc]
        exact hsorted2)
  refine ⟨l1, r1, l2, l3, hpl, hpr, hdl, hdr, hroom, hpb, hpa, ?_, hsz3, hatl, hatr, ?_,
    hszl, hszr⟩
  · rw [hk3, hk2, List.append_assoc]
    rfl
  · rw [hpar3, hpar2]

end BtreeBucket
end mongo
namespace mongo
namespace BtreeBucket

/-! ## The index of a page in its parent -/

theorem findIdx?_some_get? {α : Type} (f : α → Bool) (ks : List α) (i : Nat)
    (h : ks.findIdx? f = some i) : ∃ k, ks.get? i = some k ∧ f k = true := by
  rw [List.findIdx?_eq_some_iff_getElem] at h
  obtain ⟨hlt, hf, _⟩ := h
  exact ⟨ks[i], by rw [List.get?_eq_getElem?, List.getElem?_eq_getElem hlt], hf⟩

theorem findIdx?_none_of_mem {α : Type} (f : α → Bool) (ks : List α) (k : α) (hk : k ∈ ks)
    (hf : f k = true) : ks.findIdx? f ≠ none := by
  intro h
  rw [List.findIdx?_eq_none_iff] at h
  have := h k hk
  rw [hf] at this
  cases this

/-- The value of `indexInParent` for a page that its parent links to: an index
at which the parent has the page as its child. -/
theorem indexInParent_of_child (s : State) (b : BtreeBucket) (thisLoc : DiskLoc)
    (p : BtreeBucket) (hpar : b.parent ≠ DiskLoc.Null) (hp : s.pages b.parent = some p)
    (hc : IsChild p thisLoc) :
    ∃ idx, indexInParent s b thisLoc = .ok idx ∧ p.childForPos idx = some thisLoc := by
  unfold indexInParent
  rw [isNull_of_ne hpar]
  simp only [Bool.false_eq_true, if_false, hp]
  by_cases hn : p.nextChild = thisLoc
  · rw [if_pos hn]
    exact ⟨_, rfl, by rw [childForPos_length, hn]⟩
  · rw [if_neg hn]
    rcases hc with hc | ⟨k, hk, hkc⟩
    · exact absurd hc hn
    · cases hfi : p.keys.findIdx? (fun k => k.prevChildBucket == thisLoc) with
      | none =>
        exact absurd hfi (findIdx?_none_of_mem _ p.keys k hk (by simp [hkc]))
      | some i =>
        obtain ⟨k1, hk1, hf1⟩ := findIdx?_some_get? _ p.keys i hfi
        refine ⟨i, rfl, ?_⟩
        rw [childForPos_of_get? hk1]
        simp only [beq_iff_eq] at hf1
        rw [hf1]

end BtreeBucket
end mongo
namespace mongo
namespace BtreeBucket

/-! ## The parent page in a merge -/

theorem setChildForPos_length (b : BtreeBucket) (l : DiskLoc) :
    b.setChildForPos b.keys.length l = some { b with nextChild := l } := by
  unfold setChildForPos
  rw [if_pos rfl]

theorem setChildForPos_of_get? (b : BtreeBucket) (l : DiskLoc) {p : Nat} {k : _KeyNode}
    (h : b.keys.get? p = some k) :
    b.setChildForPos p l = some { b with keys := b.keys.set p { k with prevChildBucket := l } } := by
  have hlt := (List.get?_eq_some.mp h).1
  unfold setChildForPos
  rw [if_neg (by omega), h]

theorem set_take_drop {α : Type} (ks : List α) (i : Nat) (x : α) (h : i < ks.length) :
    ks.set i x = ks.take i ++ x :: ks.drop (i + 1) := by
  induction ks generalizing i with
  | nil => simp at h
  | cons a as ih =>
    cases i with
    | zero => rfl
    | succ i =>
      simp only [List.set_cons_succ, List.take_succ_cons, List.drop_succ_cons, List.cons_append]
      rw [ih i (by simpa using h)]

theorem wireRight_keys_map (rchild : DiskLoc) (B : List _KeyNode) (o : Ordering) :
    (wireRight rchild B).map (fun k => k.ekey o) = B.map (fun k => k.ekey o) := by
  cases B with
  | nil => rfl
  | cons u rest => rfl

theorem take_set_ge {α : Type} (x : α) :
    ∀ (ks : List α) (i j : Nat), i ≤ j → (ks.set j x).take i = ks.take i
  | [], _, _, _ => by simp
  | _ :: _, 0, _, _ => by simp
  | a :: as, i + 1, 0, h => by omega
  | a :: as, i + 1, j + 1, h => by
    simp only [List.set_cons_succ, List.take_succ_cons]
    rw [take_set_ge x as i j (by omega)]

theorem drop_set_lt {α : Type} (x : α) :
    ∀ (ks : List α) (i j : Nat), j < i → (ks.set j x).drop i = ks.drop i
  | [], _, _, _ => by simp
  | _ :: _, 0, _, h => by omega
  | a :: as, i + 1, 0, _ => by simp
  | a :: as, i + 1, j + 1, h => by
    simp only [List.set_cons_succ, List.drop_succ_cons]
    exact drop_set_lt x as i j (by omega)

theorem drop_set_self {α : Type} (x : α) :
    ∀ (ks : List α) (i : Nat), i < ks.length → (ks.set i x).drop i = x :: ks.drop (i + 1)
  | [], _, h => by simp at h
  | a :: as, 0, _ => by simp
  | a :: as, i + 1, h => by
    simp only [List.set_cons_succ, List.drop_succ_cons]
    exact drop_set_self x as i (by simpa using h)

/-- The page of the parent after the merge of its children `li` and `li + 1`:
the link to the right child is cleared by `delBucket`, then set to the left
child, the link in front of the separator is cleared, and the separator is
deleted. -/
theorem parent_after_merge (c : Layout) (hc : Layout.Sane c) (p : BtreeBucket) (li : Nat)
    (sep : _KeyNode) (L : DiskLoc) (hsep : p.keys.get? li = some sep) (hsz : PageSizes c p) :
    ∃ p1 b2 b3 b4, p.setChildForPos (li + 1) DiskLoc.Null = some p1 ∧
      p1.setChildForPos (li + 1) L = some b2 ∧
      b2.setChildForPos li DiskLoc.Null = some b3 ∧
      _delKeyAtPos c b3 li true = .ok b4 ∧
      b4.keys = p.keys.take li ++ wireRight L (p.keys.drop (li + 1)) ∧
      b4.nextChild = (if p.keys.drop (li + 1) = [] then L else p.nextChild) ∧
      b4.parent = p.parent ∧ PageSizes c b4 := by
  have hlt := (List.get?_eq_some.mp hsep).1
  by_cases hlast : li + 1 = p.keys.length
  · -- the right child is the last child
    have hdrop : p.keys.drop (li + 1) = [] := List.drop_eq_nil_of_le (by omega)
    have h1 : p.setChildForPos (li + 1) DiskLoc.Null
        = some { p with nextChild := DiskLoc.Null } := by
      rw [hlast]
      exact setChildForPos_length p _
    have h2 : ({ p with nextChild := DiskLoc.Null } : BtreeBucket).setChildForPos (li + 1) L
        = some { p with nextChild := L } := by
      rw [hlast]
      exact setChildForPos_length _ _
    have h3 : ({ p with nextChild := L } : BtreeBucket).setChildForPos li DiskLoc.Null
        = some { p with nextChild := L,
                        keys := p.keys.set li { sep with prevChildBucket := DiskLoc.Null } } :=
      setChildForPos_of_get? _ _ hsep
    have hget3 : (p.keys.set li { sep with prevChildBucket := DiskLoc.Null }).get? li
        = some { sep with prevChildBucket := DiskLoc.Null } := by
      simp only [List.get?_eq_getElem?, List.getElem?_set_self hlt]
    have hsz3 : PageSizes c ({ p with
        nextChild := L
        keys := p.keys.set li { sep with prevChildBucket := DiskLoc.Null } } : BtreeBucket) :=
      hsz.of_map (map_set_same (fun k : _KeyNode => k.key) p.keys li sep
        { sep with prevChildBucket := DiskLoc.Null } hsep rfl) rfl rfl rfl
    refine ⟨_, _, _, _, h1, h2, h3,
      _delKeyAtPos_eq c _ li true _ hget3 rfl (Or.inl rfl), ?_, ?_, rfl,
      hsz3.eraseSlot li (by simpa using hlt) (le_of_lt hc.slot_pos)⟩
    · simp only [eraseSlot]
      rw [take_set_ge _ _ _ _ (le_refl _), drop_set_lt _ _ _ _ (Nat.lt_succ_self li), hdrop]
      rfl
    · simp only [eraseSlot, hdrop, if_true]
  · -- the right child is the left child of the next slot
    obtain ⟨nx, hnx⟩ := get?_some_of_lt p.keys (li + 1) (by omega)
    have hdrop : p.keys.drop (li + 1) = nx :: p.keys.drop (li + 2) := by
      have := eq_take_cons_drop (p.keys.drop (li + 1)) 0 nx (by
        rw [List.get?_drop]; simpa using hnx)
      rw [List.take_zero, List.nil_append, List.drop_drop] at this
      rw [this]
      try (congr 2; omega)
    have h1 := setChildForPos_of_get? p DiskLoc.Null hnx
    have hget1 : (p.keys.set (li + 1) { nx with prevChildBucket := DiskLoc.Null }).get? (li + 1)
        = some { nx with prevChildBucket := DiskLoc.Null } := by
      simp only [List.get?_eq_getElem?]
      exact List.getElem?_set_self (by omega)
    have h2 := setChildForPos_of_get?
      ({ p with keys := p.keys.set (li + 1) { nx with prevChildBucket := DiskLoc.Null } })
      L hget1
    simp only [List.set_set] at h2
    have hget2 : (p.keys.set (li + 1) { nx with prevChildBucket := L }).get? li = some sep := by
      simp only [List.get?_eq_getElem?] at hsep ⊢
      rw [List.getElem?_set_ne (by omega)]
      exact hsep
    have h3 := setChildForPos_of_get?
      ({ p with keys := p.keys.set (li + 1) { nx with prevChildBucket := L } })
      DiskLoc.Null hget2
    have hget3 : ((p.keys.set (li + 1) { nx with prevChildBucket := L }).set li
        { sep with prevChildBucket := DiskLoc.Null }).get? li
        = some { sep with prevChildBucket := DiskLoc.Null } := by
      simp only [List.get?_eq_getElem?]
      exact List.getElem?_set_self (by simpa using hlt)
    have hsz3 : PageSizes c ({ p with
        keys := (p.keys.set (li + 1) { nx with prevChildBucket := L }).set li
          { sep with prevChildBucket := DiskLoc.Null } } : BtreeBucket) :=
      hsz.of_map (by
        show List.map _ ((p.keys.set (li + 1) _).set li _) = _
        rw [map_set_same (fun k : _KeyNode => k.key) _ li sep { sep with prevChildBucket := DiskLoc.Null }
          hget2 rfl,
          map_set_same (fun k : _KeyNode => k.key) _ (li + 1) nx { nx with prevChildBucket := L } hnx rfl])
        rfl rfl rfl
    refine ⟨_, _, _, _, h1, h2, h3,
      _delKeyAtPos_eq c _ li true _ hget3 rfl (Or.inl rfl), ?_, ?_, rfl,
      hsz3.eraseSlot li (by simpa using hlt) (le_of_lt hc.slot_pos)⟩
    · simp only [eraseSlot]
      rw [take_set_ge _ _ _ _ (le_refl _), take_set_ge _ _ _ _ (Nat.le_succ li),
        drop_set_lt _ _ _ _ (Nat.lt_succ_self li), drop_set_self _ _ _ (by omega), hdrop]
      rfl
    · simp only [eraseSlot, hdrop]
      rw [if_neg (by simp)]

end BtreeBucket
end mongo
namespace mongo
namespace BtreeBucket

/-! ## Two neighbouring children of a page -/

theorem GInv.child_inj {c : Layout} {o : Ordering} {s : State} {g : Ghost} {fl : Set DiskLoc}
    (h : GInv c o s g fl) {l : DiskLoc} {b : BtreeBucket} (hl : s.pages l = some b)
    {i j : Nat} {ch : DiskLoc} (hi : b.childForPos i = some ch) (hj : b.childForPos j = some ch)
    (hn : ch ≠ DiskLoc.Null) : i = j := by
  have hpf := h.page l b hl
  have hne := h.child_has_key hl
  have h1 := hpf.child_lt hne hi hj hn
  have h2 := hpf.child_lt hne hj hi hn
  omega

theorem lowerAt_succ_of_get? (o : Ordering) (b : BtreeBucket) (lo : WithBot EKey) {p : Nat}
    {k : _KeyNode} (hk : b.keys.get? p = some k) :
    lowerAt o b lo (p + 1) = ((k.ekey o : EKey) : WithBot EKey) := by
  simp only [lowerAt, hk]

/-- The two children around the slot `li` of a page of a well-formed forest:
they are mapped pages below the page, distinct, with the separator between
their intervals; and their slots with the separator between them ascend. -/
theorem GInv.merge_children {c : Layout} {o : Ordering} {s : State} {g : Ghost}
    {fl : Set DiskLoc} (h : GInv c o s g fl) {P : DiskLoc} {p : BtreeBucket}
    (hP : s.pages P = some p) {li : Nat} {sep : _KeyNode} (hsep : p.keys.get? li = some sep)
    (hL : sep.prevChildBucket ≠ DiskLoc.Null) {R : DiskLoc}
    (hR : p.childForPos (li + 1) = some R) (hRn : R ≠ DiskLoc.Null) :
    ∃ l r, s.pages sep.prevChildBucket = some l ∧ s.pages R = some r ∧ l.parent = P ∧
      r.parent = P ∧ g.rank sep.prevChildBucket < g.rank P ∧ g.rank R < g.rank P ∧
      sep.prevChildBucket ≠ R ∧ sep.prevChildBucket ≠ P ∧ R ≠ P ∧
      g.lo P ≤ g.lo sep.prevChildBucket ∧
      g.hi sep.prevChildBucket ≤ ((sep.ekey o : EKey) : WithTop EKey) ∧
      ((sep.ekey o : EKey) : WithBot EKey) ≤ g.lo R ∧ g.hi R ≤ g.hi P ∧
      (∀ k ∈ l.keys, k.ekey o < sep.ekey o) ∧ (∀ k ∈ r.keys, sep.ekey o < k.ekey o) ∧
      SortedSlots o (l.keys ++ sep :: r.keys) := by
  have hpf := h.page P p hP
  have hcL : p.childForPos li = some sep.prevChildBucket := childForPos_of_get? hsep
  obtain ⟨l, hl, hlp, hlr, hllo, hlhi⟩ := hpf.child_at hcL hL
  obtain ⟨r, hr, hrp, hrr, hrlo, hrhi⟩ := hpf.child_at hR hRn
  rw [upperAt_of_get? o p (g.hi P) hsep] at hlhi
  rw [lowerAt_succ_of_get? o p (g.lo P) hsep] at hrlo
  obtain ⟨_, _, hloL, _⟩ := hpf.isChild ((isChild_iff p _).mpr ⟨li, hcL⟩) hL
  obtain ⟨_, _, _, hhiR⟩ := hpf.isChild ((isChild_iff p _).mpr ⟨li + 1, hR⟩) hRn
  have hne : sep.prevChildBucket ≠ R := by
    intro he
    have := h.child_inj hP hcL (he ▸ hR) hL
    omega
  have hLP : sep.prevChildBucket ≠ P := by
    intro he
    rw [he] at hlr
    exact lt_irrefl _ hlr
  have hRP : R ≠ P := by
    rintro rfl
    exact lt_irrefl _ hrr
  have hlk : ∀ k ∈ l.keys, k.ekey o < sep.ekey o := by
    intro k hk
    have h1 := (h.page _ l hl).lt_hi k hk
    exact WithTop.coe_lt_coe.mp (lt_of_lt_of_le h1 hlhi)
  have hrk : ∀ k ∈ r.keys, sep.ekey o < k.ekey o := by
    intro k hk
    have h1 := (h.page _ r hr).lo_lt k hk
    exact WithBot.coe_lt_coe.mp (lt_of_le_of_lt hrlo h1)
  refine ⟨l, r, hl, hr, hlp, hrp, hlr, hrr, hne, hLP, hRP, hloL, hlhi, hrlo, hhiR, hlk, hrk, ?_⟩
  unfold SortedSlots
  rw [List.pairwise_append]
  refine ⟨(h.page _ l hl).sorted, List.Pairwise.cons hrk (h.page _ r hr).sorted, ?_⟩
  intro a ha b hb
  rcases List.mem_cons.mp hb with rfl | hb
  · exact hlk a ha
  · exact lt_trans (hlk a ha) (hrk b hb)

end BtreeBucket
end mongo
namespace mongo
namespace BtreeBucket

/-! ## The run of `doMergeNeighbors` -/

theorem isChild_cons_iff (next : DiskLoc) (ks : List _KeyNode) (x : DiskLoc) :
    x ∈ next :: ks.map (fun k => k.prevChildBucket) ↔
      (next = x ∨ ∃ k ∈ ks, k.prevChildBucket = x) := by
  simp only [List.mem_cons, List.mem_map]
  constructor
  · rintro (h | ⟨k, hk, rfl⟩)
    · exact Or.inl h.symm
    · exact Or.inr ⟨k, hk, rfl⟩
  · rintro (h | ⟨k, hk, rfl⟩)
    · exact Or.inl h.symm
    · exact Or.inr ⟨k, hk, rfl⟩

/-- On a well-formed tree, when the children around the slot `li` of the page
`P` are not null and pass the size test, `doMergeNeighbors` gets as far as its
last step, and leaves there what `MergeOut` says. -/
theorem merge_run (c : Layout) (hc : Layout.Sane c) (o : Ordering) {s : State} {g : Ghost}
    (hinv : GInv c o s g ∅) {P : DiskLoc} {p : BtreeBucket} (hP : s.pages P = some p)
    {li : Nat} {sep : _KeyNode} (hsep : p.keys.get? li = some sep)
    (hL : sep.prevChildBucket ≠ DiskLoc.Null) {R : DiskLoc}
    (hR : p.childForPos (li + 1) = some R) (hRn : R ≠ DiskLoc.Null)
    {l r : BtreeBucket} (hl : s.pages sep.prevChildBucket = some l) (hr : s.pages R = some r)
    (hpre : ¬ (c.headerSize + packedDataSize c l 0 + packedDataSize c r 0 + sep.key.objsize
      + c.slotSize > c.BucketSize)) :
    ∃ l1 r1 M b4 sM, MergeOut c o s P li p sep sep.prevChildBucket R l r l1 r1 M b4 sM := by
  obtain ⟨l0, r0, hl0, hr0, hlp, hrp, hlr, hrr, hne, hLP, hRP, _, _, _, _, _, _, hsorted⟩ :=
    hinv.merge_children hP hsep hL hR hRn
  rw [hl] at hl0
  rw [hr] at hr0
  cases hl0
  cases hr0
  have hPn := hinv.ne_null hP
  have hcL : p.childForPos li = some sep.prevChildBucket := childForPos_of_get? hsep
  have hsepmem := List.get?_mem hsep
  obtain ⟨l1, r1, l2, l3, hpl, hpr, _, _, _, hpb, hpa, hk3, hsz3, hatl, hatr, hpar3, _, _⟩ :=
    merge_pages_spec c hc o l r sep (hinv.sizes _ l hl) (hinv.sizes _ r hr)
      ((hinv.sizes P p hP).key_pos sep hsepmem) ((hinv.sizes P p hP).key_le sep hsepmem)
      hsorted hpre
  -- the children of the two pages
  have hchl : ∀ x, IsChild l x → x ≠ DiskLoc.Null →
      (∃ cb, s.pages x = some cb ∧ cb.parent = sep.prevChildBucket) ∧
        g.rank x < g.rank sep.prevChildBucket := by
    intro x hx hxn
    obtain ⟨h1, h2, _⟩ := (hinv.page _ l hl).isChild hx hxn
    exact ⟨h1, h2⟩
  have hchr : ∀ x, IsChild r x → x ≠ DiskLoc.Null →
      (∃ cb, s.pages x = some cb ∧ cb.parent = R) ∧ g.rank x < g.rank R := by
    intro x hx hxn
    obtain ⟨h1, h2, _⟩ := (hinv.page _ r hr).isChild hx hxn
    exact ⟨h1, h2⟩
  have hch1 : ∀ x, IsChild r1 x → x ≠ DiskLoc.Null →
      (∃ cb, s.pages x = some cb ∧ cb.parent = R) ∧ x ≠ P ∧ x ≠ sep.prevChildBucket ∧ x ≠ R := by
    intro x hx hxn
    obtain ⟨⟨cb, hcb, hcp⟩, hrk⟩ := hchr x ((hatr.isChild_same hxn).mp hx) hxn
    refine ⟨⟨cb, hcb, hcp⟩, ?_, ?_, ?_⟩
    · rintro rfl
      omega
    · rintro rfl
      rw [hl] at hcb
      cases hcb
      rw [hlp] at hcp
      exact hRP hcp.symm
    · rintro rfl
      exact lt_irrefl _ hrk
  have hnl1 : l1.nextChild ≠ DiskLoc.Null →
      (∃ cb, s.pages l1.nextChild = some cb ∧ cb.parent = sep.prevChildBucket) ∧
        l1.nextChild ≠ P ∧ l1.nextChild ≠ sep.prevChildBucket ∧ l1.nextChild ≠ R := by
    intro hxn
    have hxn1 : l.nextChild ≠ DiskLoc.Null := by
      rw [← hatl.nextChild]
      exact hxn
    obtain ⟨⟨cb, hcb, hcp⟩, hrk⟩ := hchl l.nextChild (Or.inl rfl) hxn1
    rw [← hatl.nextChild] at hcb hrk
    refine ⟨⟨cb, hcb, hcp⟩, ?_, ?_, ?_⟩
    · intro he
      rw [he] at hrk
      omega
    · intro he
      rw [he] at hrk
      exact lt_irrefl _ hrk
    · intro he
      rw [he, hr] at hcb
      cases hcb
      rw [hrp] at hcp
      exact hLP hcp.symm
  -- the state after the pushes
  have hsB : ∀ x, x ≠ sep.prevChildBucket → x ≠ R →
      ((((s.put sep.prevChildBucket l1).put R r1).put sep.prevChildBucket
        { l3 with nextChild := r1.nextChild }).pages x) = s.pages x := by
    intro x h1 h2
    rw [State.put_pages_ne _ _ h1, State.put_pages_ne _ _ h2, State.put_pages_ne _ _ h1]
  have hdropM : l3.keys.drop l1.keys.length
      = ⟨l1.nextChild, sep.recordLoc, sep.key⟩ :: r1.keys := by
    rw [hk3, List.drop_left]
  have hmemchs : ∀ x, x ∈ r1.nextChild :: (l3.keys.drop l1.keys.length).map
      (fun k => k.prevChildBucket) ↔ (IsChild r1 x ∨ x = l1.nextChild) := by
    intro x
    rw [hdropM, isChild_cons_iff]
    simp only [List.mem_cons, exists_eq_or_imp]
    unfold IsChild
    constructor
    · rintro (h | h | h)
      · exact Or.inl (Or.inl h)
      · exact Or.inr h.symm
      · exact Or.inl (Or.inr h)
    · rintro ((h | h) | h)
      · exact Or.inl h
      · exact Or.inr (Or.inr h)
      · exact Or.inr (Or.inl h.symm)
  obtain ⟨sC, hfix, hheadC, hallocC, hchC, hothC⟩ := fixAll_spec sep.prevChildBucket
    (r1.nextChild :: (l3.keys.drop l1.keys.length).map (fun k => k.prevChildBucket))
    (((s.put sep.prevChildBucket l1).put R r1).put sep.prevChildBucket
      { l3 with nextChild := r1.nextChild }) (by
      intro x hx hxn
      rcases (hmemchs x).mp hx with hx | hx
      · obtain ⟨⟨cb, hcb, _⟩, _, h2, h3⟩ := hch1 x hx hxn
        exact ⟨cb, by rw [hsB x h2 h3]; exact hcb⟩
      · subst hx
        obtain ⟨⟨cb, hcb, _⟩, _, h2, h3⟩ := hnl1 hxn
        exact ⟨cb, by rw [hsB _ h2 h3]; exact hcb⟩)
  have hnotch : ∀ x, (x = P ∨ x = sep.prevChildBucket ∨ x = R) →
      ¬ (x ∈ r1.nextChild :: (l3.keys.drop l1.keys.length).map (fun k => k.prevChildBucket)
        ∧ x ≠ DiskLoc.Null) := by
    rintro x hx ⟨hmem, hxn⟩
    rcases (hmemchs x).mp hmem with h1 | h1
    · obtain ⟨_, h2, h3, h4⟩ := hch1 x h1 hxn
      rcases hx with hx | hx | hx
      · exact h2 hx
      · exact h3 hx
      · exact h4 hx
    · subst h1
      obtain ⟨_, h2, h3, h4⟩ := hnl1 hxn
      rcases hx with hx | hx | hx
      · exact h2 hx
      · exact h3 hx
      · exact h4 hx
  have hCP : sC.pages P = some p := by
    rw [hothC P (hnotch P (Or.inl rfl)), hsB P (Ne.symm hLP) (Ne.symm hRP), hP]
  have hCL : sC.pages sep.prevChildBucket = some { l3 with nextChild := r1.nextChild } := by
    rw [hothC _ (hnotch _ (Or.inr (Or.inl rfl))), State.put_pages_same]
  have hCR : sC.pages R = some r1 := by
    rw [hothC R (hnotch R (Or.inr (Or.inr rfl))), State.put_pages_ne _ _ (Ne.symm hne),
      State.put_pages_same]
  -- the index of the right child in the parent
  have hr1p : r1.parent = P := by rw [hatr.parent, hrp]
  obtain ⟨idx, hidx, hcidx⟩ := indexInParent_of_child sC r1 R p (by rw [hr1p]; exact hPn)
    (by rw [hr1p]; exact hCP) ((isChild_iff p R).mpr ⟨li + 1, hR⟩)
  have hidx1 : idx = li + 1 := hinv.child_inj hP hcidx hR hRn
  subst hidx1
  obtain ⟨p1, b2, b3, b4, hs1, hs2, hs3, hdel, hk4, hn4, hp4, hsz4⟩ :=
    parent_after_merge c hc p li sep sep.prevChildBucket hsep (hinv.sizes P p hP)
  refine ⟨l1, r1, { l3 with nextChild := r1.nextChild }, b4,
    ((sC.put P p1).free R).put P b4,
    { packed_l := hatl
      packed_r := hatr
      keys_M := hk3
      next_M := rfl
      parent_M := by
        show l3.parent = P
        rw [hpar3, hatl.parent, hlp]
      sizes_M := hsz3.congr rfl rfl rfl rfl
      keys_b4 := hk4
      next_b4 := hn4
      parent_b4 := hp4
      sizes_b4 := hsz4
      head := hheadC
      alloc := hallocC
      page_P := State.put_pages_same _ _ _
      page_L := ?_
      page_R := ?_
      page_ch := ?_
      page_o := ?_
      run := ?_ }⟩
  · rw [State.put_pages_ne _ _ hLP, State.free_pages, if_neg hne,
      State.put_pages_ne _ _ hLP, hCL]
  · rw [State.put_pages_ne _ _ hRP, State.free_pages, if_pos rfl]
  · intro x hx hxn bx hbx
    obtain ⟨_, h2, h3, h4⟩ := hch1 x hx hxn
    rw [State.put_pages_ne _ _ h2, State.free_pages, if_neg h4, State.put_pages_ne _ _ h2]
    exact hchC x ((hmemchs x).mpr (Or.inl hx)) hxn bx (by rw [hsB x h3 h4]; exact hbx)
  · intro x h2 h3 h4 hnc
    rw [State.put_pages_ne _ _ h2, State.free_pages, if_neg h4, State.put_pages_ne _ _ h2]
    by_cases hm : x ∈ r1.nextChild :: (l3.keys.drop l1.keys.length).map
        (fun k => k.prevChildBucket) ∧ x ≠ DiskLoc.Null
    · obtain ⟨hmem, hxn⟩ := hm
      rcases (hmemchs x).mp hmem with h1 | h1
      · exact absurd ⟨h1, hxn⟩ hnc
      · subst h1
        obtain ⟨⟨cb, hcb, hcp⟩, _⟩ := hnl1 hxn
        rw [hchC _ hmem hxn cb (by rw [hsB _ h3 h4]; exact hcb), hcb, ← hcp]
    · rw [hothC x hm, hsB x h3 h4]
  · intro fuel
    have hfp : fixParentPtrs (((s.put sep.prevChildBucket l1).put R r1).put sep.prevChildBucket
        { l3 with nextChild := r1.nextChild }) sep.prevChildBucket l1.keys.length = .ok sC := by
      unfold fixParentPtrs
      rw [State.put_pages_same]
      exact hfix
    have hdb : delBucket sC R = (.ok (), (sC.put P p1).free R) := by
      unfold delBucket
      simp only [hCR, hr1p, isNull_of_ne hPn, Bool.false_eq_true, if_false, hidx, hCP, hs1]
      rfl
    have hDP : ((sC.put P p1).free R).pages P = some p1 := by
      rw [State.free_pages, if_neg (Ne.symm hRP), State.put_pages_same]
    generalize hB : balanceWithNeighbors c o fuel = B
    unfold doMergeNeighbors
    simp only [hP, hsep, hcL, hR, hne, hLP, hRP, or_self, if_false, hl, hr, hpl, hpr, hpb, hpa,
      hfp, hdb, hDP, hs2, hs3, hdel, hB]

end BtreeBucket
end mongo
namespace mongo
namespace BtreeBucket

/-! ## The order condition of the merged page -/

theorem coe_le_of_lt_bot {a b : EKey} (h : a < b) :
    ((a : EKey) : WithBot EKey) ≤ ((b : EKey) : WithBot EKey) :=
  WithBot.coe_le_coe.mpr (le_of_lt h)

/-- The page that holds the slots of two neighbouring children and their
separator satisfies the order condition, for ghost data that give the page an
interval and a rank that cover those of the two children, and for a state in
which the children of the two pages point to the page. -/
theorem merged_pagePF {c : Layout} {o : Ordering} {s s1 : State} {g g1 : Ghost}
    (hinv : GInv c o s g ∅) {P : DiskLoc} {p : BtreeBucket} (hP : s.pages P = some p)
    {li : Nat} {sep : _KeyNode} (hsep : p.keys.get? li = some sep)
    (hL : sep.prevChildBucket ≠ DiskLoc.Null) {R : DiskLoc}
    (hR : p.childForPos (li + 1) = some R) (hRn : R ≠ DiskLoc.Null)
    {l r l1 r1 M : BtreeBucket} (hl : s.pages sep.prevChildBucket = some l)
    (hr : s.pages R = some r) (hatl : PackedAt l l1 0 0) (hatr : PackedAt r r1 0 0)
    (hkM : M.keys = l1.keys ++ ⟨l1.nextChild, sep.recordLoc, sep.key⟩ :: r1.keys)
    (hnM : M.nextChild = r1.nextChild)
    (hlo : g1.lo sep.prevChildBucket ≤ g.lo sep.prevChildBucket)
    (hhi : g.hi R ≤ g1.hi sep.prevChildBucket)
    (hsame : ∀ x, x ≠ sep.prevChildBucket →
      g1.rank x = g.rank x ∧ g1.lo x = g.lo x ∧ g1.hi x = g.hi x)
    (hrkL : g.rank sep.prevChildBucket ≤ g1.rank sep.prevChildBucket)
    (hrkR : g.rank R ≤ g1.rank sep.prevChildBucket)
    (hst : ∀ x, (IsChild l x ∨ IsChild r x) → x ≠ DiskLoc.Null →
      ∃ cb, s1.pages x = some cb ∧ cb.parent = sep.prevChildBucket) :
    PagePF o s1 g1 sep.prevChildBucket M := by
  obtain ⟨l0, r0, hl0, hr0, hlp, hrp, hlr, hrr, hne, hLP, hRP, hloL, hhiL, hloR, hhiR, hlk, hrk,
    hsorted⟩ := hinv.merge_children hP hsep hL hR hRn
  rw [hl] at hl0
  rw [hr] at hr0
  cases hl0
  cases hr0
  have hpl := hinv.page _ l hl
  have hpr := hinv.page _ r hr
  have hLh : sep.prevChildBucket ≠ s.head := hinv.ne_head_of_parent hl hlp hP
  have hRh : R ≠ s.head := hinv.ne_head_of_parent hr hrp hP
  obtain ⟨kl, hkl⟩ := List.exists_mem_of_ne_nil _ (hinv.nonempty _ l hl hLh)
  obtain ⟨kr, hkr⟩ := List.exists_mem_of_ne_nil _ (hinv.nonempty _ r hr hRh)
  have hsubl := hatl.sub.subset
  have hsubr := hatr.sub.subset
  -- the place of the separator
  have hsepe : (⟨l1.nextChild, sep.recordLoc, sep.key⟩ : _KeyNode).ekey o = sep.ekey o := rfl
  have hlosep : g.lo sep.prevChildBucket < ((sep.ekey o : EKey) : WithBot EKey) :=
    lt_trans (hpl.lo_lt kl hkl) (WithBot.coe_lt_coe.mpr (hlk kl hkl))
  have hsephi : ((sep.ekey o : EKey) : WithTop EKey) < g.hi R :=
    lt_trans (WithTop.coe_lt_coe.mpr (hrk kr hkr)) (hpr.lt_hi kr hkr)
  have hmem : ∀ k ∈ M.keys, k ∈ l.keys ∨ k.ekey o = sep.ekey o ∨ k ∈ r.keys := by
    intro k hk
    rw [hkM] at hk
    rcases List.mem_append.mp hk with hk | hk
    · exact Or.inl (hsubl hk)
    · rcases List.mem_cons.mp hk with rfl | hk
      · exact Or.inr (Or.inl rfl)
      · exact Or.inr (Or.inr (hsubr hk))
  -- a child keeps its ghost data
  have hchg : ∀ x, (IsChild l x ∨ IsChild r x) → x ≠ DiskLoc.Null →
      g1.rank x = g.rank x ∧ g1.lo x = g.lo x ∧ g1.hi x = g.hi x ∧
        g.rank x < g1.rank sep.prevChildBucket := by
    intro x hx hxn
    have hrk1 : g.rank x < g1.rank sep.prevChildBucket := by
      rcases hx with hx | hx
      · exact lt_of_lt_of_le (hpl.isChild hx hxn).2.1 hrkL
      · exact lt_of_lt_of_le (hpr.isChild hx hxn).2.1 hrkR
    have hxL : x ≠ sep.prevChildBucket := by
      rintro rfl
      rcases hx with hx | hx
      · exact lt_irrefl _ (hpl.isChild hx hxn).2.1
      · obtain ⟨⟨cb, hcb, hcp⟩, _⟩ := hpr.isChild hx hxn
        rw [hl] at hcb
        cases hcb
        rw [hlp] at hcp
        exact hRP hcp.symm
    obtain ⟨e1, e2, e3⟩ := hsame x hxL
    exact ⟨e1, e2, e3, hrk1⟩
  have hsortedM : SortedSlots o M.keys := by
    rw [hkM]
    have hsub : (l1.keys ++ sep :: r1.keys).Sublist (l.keys ++ sep :: r.keys) :=
      List.Sublist.append hatl.sub (List.Sublist.cons₂ sep hatr.sub)
    have h1 : SortedSlots o (l1.keys ++ sep :: r1.keys) := List.Pairwise.sublist hsub hsorted
    rw [sortedSlots_iff_map] at h1 ⊢
    simpa [_KeyNode.ekey] using h1
  -- every slot of the left page is below the separator, every slot of the right above
  have hbelow : ∀ k1 ∈ M.keys, ∀ k ∈ l.keys, k1.ekey o < k.ekey o → k1 ∈ l.keys := by
    intro k1 hk1 k hk hlt
    rcases hmem k1 hk1 with h1 | h1 | h1
    · exact h1
    · rw [h1] at hlt
      exact absurd (lt_trans hlt (hlk k hk)) (lt_irrefl _)
    · exact absurd (lt_trans (lt_trans (hrk k1 h1) hlt) (hlk k hk)) (lt_irrefl _)
  have hle_sep : ∀ k1 ∈ M.keys, (k1 ∈ l.keys ∨ k1.ekey o = sep.ekey o) →
      ((k1.ekey o : EKey) : WithBot EKey) ≤ g.lo R := by
    intro k1 _ h1
    rcases h1 with h1 | h1
    · exact le_trans (coe_le_of_lt_bot (hlk k1 h1)) hloR
    · rw [h1]
      exact hloR
  refine
    { sorted := hsortedM
      lo_lt := ?_
      lt_hi := ?_
      rl_valid := ?_
      slot_child := ?_
      next_child := ?_ }
  · intro k hk
    apply lt_of_le_of_lt hlo
    rcases hmem k hk with h1 | h1 | h1
    · exact hpl.lo_lt k h1
    · rw [h1]
      exact hlosep
    · exact lt_trans hlosep (WithBot.coe_lt_coe.mpr (hrk k h1))
  · intro k hk
    refine lt_of_lt_of_le ?_ hhi
    rcases hmem k hk with h1 | h1 | h1
    · exact lt_trans (WithTop.coe_lt_coe.mpr (hlk k h1)) hsephi
    · rw [h1]
      exact hsephi
    · exact hpr.lt_hi k h1
  · intro k hk
    rw [hkM] at hk
    rcases List.mem_append.mp hk with hk | hk
    · exact hpl.rl_valid k (hsubl hk)
    · rcases List.mem_cons.mp hk with rfl | hk
      · exact (hinv.page P p hP).rl_valid sep (List.get?_mem hsep)
      · exact hpr.rl_valid k (hsubr hk)
  · intro k hk hkn
    rw [hkM] at hk
    rcases List.mem_append.mp hk with hk | hk
    · -- a slot of the left page
      have hkl1 := hsubl hk
      obtain ⟨_, h2, h3, h4, h5⟩ := hpl.slot_child k hkl1 hkn
      have hic : IsChild l k.prevChildBucket := Or.inr ⟨k, hkl1, rfl⟩
      obtain ⟨e1, e2, e3, e4⟩ := hchg _ (Or.inl hic) hkn
      refine ⟨hst _ (Or.inl hic) hkn, by rw [e1]; exact e4, by rw [e2]; exact le_trans hlo h3,
        ?_, by rw [e3]; exact h5⟩
      intro k1 hk1 hlt
      rw [e2]
      exact h4 k1 (hbelow k1 hk1 k hkl1 hlt) hlt
    · rcases List.mem_cons.mp hk with rfl | hk
      · -- the separator, with the last child of the left page
        have hkn1 : l.nextChild ≠ DiskLoc.Null := by
          rw [← hatl.nextChild]
          exact hkn
        obtain ⟨_, h2, h3, h4, h5⟩ := hpl.next_child hkn1
        have hic : IsChild l l.nextChild := Or.inl rfl
        obtain ⟨e1, e2, e3, e4⟩ := hchg _ (Or.inl hic) hkn1
        show (∃ cb, s1.pages l1.nextChild = some cb ∧ cb.parent = sep.prevChildBucket) ∧ _
        rw [hatl.nextChild]
        refine ⟨hst _ (Or.inl hic) hkn1, by rw [e1]; exact e4,
          by rw [e2]; exact le_trans hlo h3, ?_, ?_⟩
        · intro k1 hk1 hlt
          rw [e2]
          rcases hmem k1 hk1 with h1 | h1 | h1
          · exact h4 k1 h1
          · rw [h1] at hlt
            exact absurd hlt (lt_irrefl _)
          · exact absurd (lt_trans hlt (hrk k1 h1)) (lt_irrefl _)
        · rw [e3]
          exact le_trans h5 hhiL
      · -- a slot of the right page
        have hkr1 := hsubr hk
        obtain ⟨_, h2, h3, h4, h5⟩ := hpr.slot_child k hkr1 hkn
        have hic : IsChild r k.prevChildBucket := Or.inr ⟨k, hkr1, rfl⟩
        obtain ⟨e1, e2, e3, e4⟩ := hchg _ (Or.inr hic) hkn
        refine ⟨hst _ (Or.inr hic) hkn, by rw [e1]; exact e4, ?_, ?_, by rw [e3]; exact h5⟩
        · rw [e2]
          exact le_trans hlo (le_trans (le_of_lt hlosep) (le_trans hloR h3))
        · intro k1 hk1 hlt
          rw [e2]
          rcases hmem k1 hk1 with h1 | h1 | h1
          · exact le_trans (hle_sep k1 hk1 (Or.inl h1)) h3
          · exact le_trans (hle_sep k1 hk1 (Or.inr h1)) h3
          · exact h4 k1 h1 hlt
  · intro hkn
    rw [hnM, hatr.nextChild] at hkn ⊢
    obtain ⟨_, h2, h3, h4, h5⟩ := hpr.next_child hkn
    have hic : IsChild r r.nextChild := Or.inl rfl
    obtain ⟨e1, e2, e3, e4⟩ := hchg _ (Or.inr hic) hkn
    refine ⟨hst _ (Or.inr hic) hkn, by rw [e1]; exact e4, ?_, ?_, ?_⟩
    · rw [e2]
      exact le_trans hlo (le_trans (le_of_lt hlosep) (le_trans hloR h3))
    · intro k1 hk1
      rw [e2]
      rcases hmem k1 hk1 with h1 | h1 | h1
      · exact le_trans (hle_sep k1 hk1 (Or.inl h1)) h3
      · exact le_trans (hle_sep k1 hk1 (Or.inr h1)) h3
      · exact h4 k1 h1
    · rw [e3]
      exact le_trans h5 hhi

end BtreeBucket
end mongo
namespace mongo
namespace BtreeBucket

/-! ## The order condition of the parent after a merge -/

theorem mergeGhost_rank_ne (g : Ghost) (L R : DiskLoc) {x : DiskLoc} (h : x ≠ L) :
    (mergeGhost g L R).rank x = g.rank x := by
  simp [mergeGhost, Function.update_noteq h]

theorem mergeGhost_rank_self (g : Ghost) (L R : DiskLoc) :
    (mergeGhost g L R).rank L = max (g.rank L) (g.rank R) := by
  simp [mergeGhost]

theorem mergeGhost_lo (g : Ghost) (L R x : DiskLoc) : (mergeGhost g L R).lo x = g.lo x := rfl

theorem mergeGhost_hi_ne (g : Ghost) (L R : DiskLoc) {x : DiskLoc} (h : x ≠ L) :
    (mergeGhost g L R).hi x = g.hi x := by
  simp [mergeGhost, Function.update_noteq h]

theorem mergeGhost_hi_self (g : Ghost) (L R : DiskLoc) : (mergeGhost g L R).hi L = g.hi R := by
  simp [mergeGhost]

theorem mem_wireRight {rchild : DiskLoc} {B : List _KeyNode} {k : _KeyNode}
    (h : k ∈ wireRight rchild B) :
    (∃ u rest, B = u :: rest ∧ k = { u with prevChildBucket := rchild }) ∨
      (∃ u rest, B = u :: rest ∧ k ∈ rest) := by
  cases B with
  | nil => simp [wireRight] at h
  | cons u rest =>
    simp only [wireRight, List.mem_cons] at h
    rcases h with h | h
    · exact Or.inl ⟨u, rest, rfl, h⟩
    · exact Or.inr ⟨u, rest, rfl, h⟩

/-- A slot of the parent after the merge is a slot of the parent before it,
other than the separator, with the same place in the order; it has the same
left child, unless it is the slot after the separator, whose left child is the
left page now. -/
theorem merged_parent_slot {o : Ordering} {p : BtreeBucket} {li : Nat} {sep : _KeyNode}
    (hs : SortedSlots o p.keys) (hsep : p.keys.get? li = some sep) (L : DiskLoc)
    {k : _KeyNode} (hk : k ∈ p.keys.take li ++ wireRight L (p.keys.drop (li + 1))) :
    ∃ k0 i, p.keys.get? i = some k0 ∧ i ≠ li ∧ k0.ekey o = k.ekey o ∧
      k0.recordLoc = k.recordLoc ∧ k0.key = k.key ∧
      ((i ≠ li + 1 ∧ k.prevChildBucket = k0.prevChildBucket) ∨
        (i = li + 1 ∧ k.prevChildBucket = L)) := by
  have hlt := (List.get?_eq_some.mp hsep).1
  rcases List.mem_append.mp hk with hk | hk
  · obtain ⟨i, hi, hki⟩ := mem_take_get? p.keys li k hk
    exact ⟨k, i, hki, by omega, rfl, rfl, rfl, Or.inl ⟨by omega, rfl⟩⟩
  · rcases mem_wireRight hk with ⟨u, rest, hB, rfl⟩ | ⟨u, rest, hB, hkr⟩
    · have hu : p.keys.get? (li + 1) = some u := by
        have := congrArg (fun x => x.get? 0) hB
        simpa [List.get?_drop] using this
      exact ⟨u, li + 1, hu, by omega, rfl, rfl, rfl, Or.inr ⟨rfl, rfl⟩⟩
    · have hmem : k ∈ p.keys.drop (li + 2) := by
        have : p.keys.drop (li + 2) = rest := by
          have h1 : p.keys.drop (li + 2) = (p.keys.drop (li + 1)).drop 1 := by
            rw [List.drop_drop]
          rw [h1, hB]
          rfl
        rw [this]
        exact hkr
      obtain ⟨i, hi, hki⟩ := mem_drop_get? p.keys (li + 2) k hmem
      exact ⟨k, i, hki, by omega, rfl, rfl, rfl, Or.inl ⟨by omega, rfl⟩⟩

end BtreeBucket
end mongo
namespace mongo
namespace BtreeBucket

/-- The page of the parent after the merge satisfies the order condition, with
the left page in the place of the right one. -/
theorem merged_parent_pagePF {c : Layout} {o : Ordering} {s : State} {g : Ghost}
    (hinv : GInv c o s g ∅) {P : DiskLoc} {p : BtreeBucket} (hP : s.pages P = some p)
    {li : Nat} {sep : _KeyNode} (hsep : p.keys.get? li = some sep)
    (hL : sep.prevChildBucket ≠ DiskLoc.Null) {R : DiskLoc}
    (hR : p.childForPos (li + 1) = some R) (hRn : R ≠ DiskLoc.Null)
    {l r l1 r1 M b4 : BtreeBucket} {sM : State}
    (hl : s.pages sep.prevChildBucket = some l) (hr : s.pages R = some r)
    (mo : MergeOut c o s P li p sep sep.prevChildBucket R l r l1 r1 M b4 sM) :
    PagePF o sM (mergeGhost g sep.prevChildBucket R) P b4 := by
  obtain ⟨l0, r0, hl0, hr0, hlp, hrp, hlr, hrr, hne, hLP, hRP, hloL, hhiL, hloR, hhiR, hlk, hrk,
    _⟩ := hinv.merge_children hP hsep hL hR hRn
  rw [hl] at hl0
  rw [hr] at hr0
  cases hl0
  cases hr0
  have hpf := hinv.page P p hP
  have hlt := (List.get?_eq_some.mp hsep).1
  have hcL : p.childForPos li = some sep.prevChildBucket := childForPos_of_get? hsep
  have hsepmem := List.get?_mem hsep
  obtain ⟨_, _, _, hsep4, _⟩ := hpf.slot_child sep hsepmem hL
  have hslot : ∀ k ∈ b4.keys, ∃ k0 i, p.keys.get? i = some k0 ∧ i ≠ li ∧
      k0.ekey o = k.ekey o ∧ k0.recordLoc = k.recordLoc ∧ k0.key = k.key ∧
      ((i ≠ li + 1 ∧ k.prevChildBucket = k0.prevChildBucket) ∨
        (i = li + 1 ∧ k.prevChildBucket = sep.prevChildBucket)) := by
    intro k hk
    rw [mo.keys_b4] at hk
    exact merged_parent_slot hpf.sorted hsep _ hk
  -- a slot before the separator is below the left page
  have hbefore : ∀ k0 i, p.keys.get? i = some k0 → i < li →
      ((k0.ekey o : EKey) : WithBot EKey) ≤ g.lo sep.prevChildBucket :=
    fun k0 i hk0 hi => hsep4 k0 (List.get?_mem hk0) (hpf.sorted.get?_lt hi hk0 hsep)
  -- a child of the parent other than the two pages is as it was
  have hother : ∀ ch i, p.childForPos i = some ch → ch ≠ DiskLoc.Null → i ≠ li → i ≠ li + 1 →
      ch ≠ sep.prevChildBucket ∧ sM.pages ch = s.pages ch := by
    intro ch i hci hchn h1 h2
    obtain ⟨cb, hcb, hcp, hrk1, _⟩ := hpf.child_at hci hchn
    have e1 : ch ≠ sep.prevChildBucket := by
      rintro rfl
      exact h1 (hinv.child_inj hP hci hcL hchn)
    have e2 : ch ≠ R := by
      rintro rfl
      exact h2 (hinv.child_inj hP hci hR hchn)
    have e3 : ch ≠ P := by
      rintro rfl
      exact lt_irrefl _ hrk1
    refine ⟨e1, mo.page_o ch e3 e1 e2 ?_⟩
    rintro ⟨hic, _⟩
    obtain ⟨⟨cb1, hcb1, hcp1⟩, _⟩ :=
      (hinv.page R r hr).isChild ((mo.packed_r.isChild_same hchn).mp hic) hchn
    rw [hcb] at hcb1
    cases hcb1
    rw [hcp] at hcp1
    exact hRP hcp1.symm
  have hgL : (mergeGhost g sep.prevChildBucket R).rank sep.prevChildBucket < g.rank P := by
    rw [mergeGhost_rank_self]
    exact max_lt hlr hrr
  have hgP : (mergeGhost g sep.prevChildBucket R).rank P = g.rank P :=
    mergeGhost_rank_ne g _ R (Ne.symm hLP)
  have hhP : (mergeGhost g sep.prevChildBucket R).hi P = g.hi P :=
    mergeGhost_hi_ne g _ R (Ne.symm hLP)
  refine
    { sorted := ?_
      lo_lt := ?_
      lt_hi := ?_
      rl_valid := ?_
      slot_child := ?_
      next_child := ?_ }
  · rw [sortedSlots_iff_map, mo.keys_b4, List.map_append, wireRight_keys_map, ← List.map_append]
    have h1 := (sortedSlots_iff_map o p.keys).mp hpf.sorted
    exact List.Pairwise.sublist ((take_drop_succ_sublist p.keys li).map _) h1
  · intro k hk
    obtain ⟨k0, i, hk0, _, he, _⟩ := hslot k hk
    rw [← he]
    exact hpf.lo_lt k0 (List.get?_mem hk0)
  · intro k hk
    obtain ⟨k0, i, hk0, _, he, _⟩ := hslot k hk
    rw [← he, hhP]
    exact hpf.lt_hi k0 (List.get?_mem hk0)
  · intro k hk
    obtain ⟨k0, i, hk0, _, _, hrl, _⟩ := hslot k hk
    rw [← hrl]
    exact hpf.rl_valid k0 (List.get?_mem hk0)
  · intro k hk hkn
    obtain ⟨k0, i, hk0, hi1, he, _, _, hcase⟩ := hslot k hk
    rcases hcase with ⟨hi2, hch⟩ | ⟨hi2, hch⟩
    · rw [hch] at hkn ⊢
      obtain ⟨⟨cb, hcb, hcp⟩, h2, h3, h4, h5⟩ := hpf.slot_child k0 (List.get?_mem hk0) hkn
      obtain ⟨e1, e2⟩ := hother _ i (childForPos_of_get? hk0) hkn hi1 hi2
      rw [mergeGhost_rank_ne g _ R e1, mergeGhost_hi_ne g _ R e1, hgP, ← he]
      refine ⟨⟨cb, by rw [e2]; exact hcb, hcp⟩, h2, h3, ?_, h5⟩
      intro k1 hk1 hlt1
      obtain ⟨k10, j, hk10, _, he1, _⟩ := hslot k1 hk1
      rw [← he1] at hlt1 ⊢
      exact h4 k10 (List.get?_mem hk10) hlt1
    · subst hi2
      rw [hch]
      have hcR : R = k0.prevChildBucket := by
        have := childForPos_of_get? hk0
        rw [hR] at this
        exact Option.some.inj this
      have hkn0 : k0.prevChildBucket ≠ DiskLoc.Null := hcR ▸ hRn
      obtain ⟨_, _, _, _, h5⟩ := hpf.slot_child k0 (List.get?_mem hk0) hkn0
      rw [hgP, mergeGhost_hi_self, ← he, hcR]
      refine ⟨⟨M, mo.page_L, mo.parent_M⟩, (by rw [← hcR]; exact hgL), hloL, ?_, h5⟩
      intro k1 hk1 hlt1
      obtain ⟨k10, j, hk10, hj1, he1, _⟩ := hslot k1 hk1
      rw [← he1] at hlt1 ⊢
      have hjl := hpf.sorted.index_lt hk10 hk0 hlt1
      exact hbefore k10 j hk10 (by omega)
  · intro hkn
    rw [mo.next_b4] at hkn ⊢
    by_cases hd : p.keys.drop (li + 1) = []
    · rw [if_pos hd] at hkn ⊢
      have hlen : li + 1 = p.keys.length := by
        have := List.drop_eq_nil_iff.mp hd
        omega
      have hcR : R = p.nextChild := by
        have := childForPos_length p
        rw [← hlen, hR] at this
        exact Option.some.inj this
      obtain ⟨_, _, _, _, h5⟩ := hpf.next_child (hcR ▸ hRn)
      rw [hgP, mergeGhost_hi_self, hhP, hcR]
      refine ⟨⟨M, mo.page_L, mo.parent_M⟩, (by rw [← hcR]; exact hgL), hloL, ?_, h5⟩
      intro k1 hk1
      obtain ⟨k10, j, hk10, hj1, he1, _⟩ := hslot k1 hk1
      rw [← he1]
      have hjl := (List.get?_eq_some.mp hk10).1
      exact hbefore k10 j hk10 (by omega)
    · rw [if_neg hd] at hkn ⊢
      have hlen : li + 1 < p.keys.length := by
        by_contra hx
        exact hd (List.drop_eq_nil_of_le (by omega))
      obtain ⟨⟨cb, hcb, hcp⟩, h2, h3, h4, h5⟩ := hpf.next_child hkn
      obtain ⟨e1, e2⟩ := hother _ p.keys.length (childForPos_length p) hkn (by omega) (by omega)
      rw [mergeGhost_rank_ne g _ R e1, mergeGhost_hi_ne g _ R e1, hgP, hhP]
      refine ⟨⟨cb, by rw [e2]; exact hcb, hcp⟩, h2, h3, ?_, h5⟩
      intro k1 hk1
      obtain ⟨k10, j, hk10, _, he1, _⟩ := hslot k1 hk1
      rw [← he1]
      exact h4 k10 (List.get?_mem hk10)

end BtreeBucket
end mongo
namespace mongo
namespace BtreeBucket

/-! ## The invariant after a merge that leaves the parent with slots -/

/-- The pages of the state that a merge leaves: the parent, the merged page, and
the pages that were there, the children of the right page with the merged page
as their parent. -/
theorem MergeOut.classify {c : Layout} {o : Ordering} {s : State} {g : Ghost}
    (hinv : GInv c o s g ∅) {P : DiskLoc} {p : BtreeBucket}
    {li : Nat} {sep : _KeyNode} {R : DiskLoc}
    {l r l1 r1 M b4 : BtreeBucket} {sM : State}
    (hr : s.pages R = some r)
    (mo : MergeOut c o s P li p sep sep.prevChildBucket R l r l1 r1 M b4 sM)
    {x : DiskLoc} {bx : BtreeBucket} (hx : sM.pages x = some bx) :
    (x = P ∧ bx = b4) ∨ (x = sep.prevChildBucket ∧ bx = M) ∨
      (x ≠ P ∧ x ≠ sep.prevChildBucket ∧ x ≠ R ∧ ∃ bx0, s.pages x = some bx0 ∧
        ((¬ (IsChild r1 x ∧ x ≠ DiskLoc.Null) ∧ bx = bx0) ∨
          (IsChild r1 x ∧ x ≠ DiskLoc.Null ∧ bx0.parent = R ∧
            bx = { bx0 with parent := sep.prevChildBucket }))) := by
  by_cases hxP : x = P
  · subst hxP
    rw [mo.page_P] at hx
    exact Or.inl ⟨rfl, (Option.some.inj hx).symm⟩
  by_cases hxL : x = sep.prevChildBucket
  · subst hxL
    rw [mo.page_L] at hx
    exact Or.inr (Or.inl ⟨rfl, (Option.some.inj hx).symm⟩)
  by_cases hxR : x = R
  · subst hxR
    rw [mo.page_R] at hx
    cases hx
  refine Or.inr (Or.inr ⟨hxP, hxL, hxR, ?_⟩)
  by_cases hc : IsChild r1 x ∧ x ≠ DiskLoc.Null
  · obtain ⟨⟨cb, hcb, hcp⟩, _⟩ :=
      (hinv.page R r hr).isChild ((mo.packed_r.isChild_same hc.2).mp hc.1) hc.2
    rw [mo.page_ch x hc.1 hc.2 cb hcb] at hx
    exact ⟨cb, hcb, Or.inr ⟨hc.1, hc.2, hcp, (Option.some.inj hx).symm⟩⟩
  · rw [mo.page_o x hxP hxL hxR hc] at hx
    exact ⟨bx, hx, Or.inl ⟨hc, rfl⟩⟩

theorem isChild_merged_left {l1 r1 M : BtreeBucket} {sep : _KeyNode}
    (hkM : M.keys = l1.keys ++ ⟨l1.nextChild, sep.recordLoc, sep.key⟩ :: r1.keys)
    {x : DiskLoc} (h : IsChild l1 x) : IsChild M x := by
  rcases h with h | ⟨k, hk, hkx⟩
  · exact Or.inr ⟨⟨l1.nextChild, sep.recordLoc, sep.key⟩, by rw [hkM]; simp, h⟩
  · exact Or.inr ⟨k, by rw [hkM]; simp [hk], hkx⟩

theorem isChild_merged_right {l1 r1 M : BtreeBucket} {sep : _KeyNode}
    (hkM : M.keys = l1.keys ++ ⟨l1.nextChild, sep.recordLoc, sep.key⟩ :: r1.keys)
    (hnM : M.nextChild = r1.nextChild) {x : DiskLoc} (h : IsChild r1 x) : IsChild M x := by
  rcases h with h | ⟨k, hk, hkx⟩
  · exact Or.inl (by rw [hnM]; exact h)
  · exact Or.inr ⟨k, by rw [hkM]; simp [hk], hkx⟩

/-- The parent after the merge links to the merged page, and to the children it
had besides the two pages. -/
theorem isChild_merged_parent {p b4 : BtreeBucket} {li : Nat} {sep : _KeyNode} {L R : DiskLoc}
    (hsep : p.keys.get? li = some sep) (hR : p.childForPos (li + 1) = some R)
    (hk4 : b4.keys = p.keys.take li ++ wireRight L (p.keys.drop (li + 1)))
    (hn4 : b4.nextChild = if p.keys.drop (li + 1) = [] then L else p.nextChild) :
    IsChild b4 L ∧
      ∀ x, IsChild p x → x ≠ sep.prevChildBucket → x ≠ R → IsChild b4 x := by
  have hlt := (List.get?_eq_some.mp hsep).1
  cases hd : p.keys.drop (li + 1) with
  | nil =>
    have hlen : li + 1 = p.keys.length := by
      have := List.drop_eq_nil_iff.mp hd
      omega
    have hcR : R = p.nextChild := by
      have := childForPos_length p
      rw [← hlen, hR] at this
      exact Option.some.inj this
    rw [hd] at hk4 hn4
    rw [if_pos rfl] at hn4
    refine ⟨Or.inl hn4, ?_⟩
    rintro x (hx | ⟨k, hk, hkx⟩) h1 h2
    · exact absurd (hcR ▸ hx.symm) h2
    · have hsplit := eq_take_cons_drop p.keys li sep hsep
      rw [hsplit, hd] at hk
      rcases List.mem_append.mp hk with hk | hk
      · exact Or.inr ⟨k, by rw [hk4]; simp [hk], hkx⟩
      · simp only [List.mem_singleton] at hk
        subst hk
        exact absurd hkx.symm h1
  | cons nx rest =>
    have hnx : p.keys.get? (li + 1) = some nx := by
      have := congrArg (fun x => x.get? 0) hd
      simpa [List.get?_drop] using this
    have hcR : R = nx.prevChildBucket := by
      have := childForPos_of_get? hnx
      rw [hR] at this
      exact Option.some.inj this
    rw [hd] at hk4 hn4
    rw [if_neg (by simp)] at hn4
    refine ⟨Or.inr ⟨{ nx with prevChildBucket := L }, by rw [hk4]; simp [wireRight], rfl⟩, ?_⟩
    rintro x (hx | ⟨k, hk, hkx⟩) h1 h2
    · exact Or.inl (by rw [hn4]; exact hx)
    · have hsplit := eq_take_cons_drop p.keys li sep hsep
      rw [hsplit, hd] at hk
      rcases List.mem_append.mp hk with hk | hk
      · exact Or.inr ⟨k, by rw [hk4]; simp [hk], hkx⟩
      · rcases List.mem_cons.mp hk with rfl | hk
        · exact absurd hkx.symm h1
        · rcases List.mem_cons.mp hk with rfl | hk
          · exact absurd (hcR ▸ hkx.symm) h2
          · exact Or.inr ⟨k, by rw [hk4]; simp [wireRight, hk], hkx⟩

end BtreeBucket
end mongo
namespace mongo
namespace BtreeBucket

/-- The state that a merge leaves satisfies the invariant when the parent still
has a slot. -/
theorem merge_keep {c : Layout} {o : Ordering} {s : State} {g : Ghost}
    (hinv : GInv c o s g ∅) {P : DiskLoc} {p : BtreeBucket} (hP : s.pages P = some p)
    {li : Nat} {sep : _KeyNode} (hsep : p.keys.get? li = some sep)
    (hL : sep.prevChildBucket ≠ DiskLoc.Null) {R : DiskLoc}
    (hR : p.childForPos (li + 1) = some R) (hRn : R ≠ DiskLoc.Null)
    {l r l1 r1 M b4 : BtreeBucket} {sM : State}
    (hl : s.pages sep.prevChildBucket = some l) (hr : s.pages R = some r)
    (mo : MergeOut c o s P li p sep sep.prevChildBucket R l r l1 r1 M b4 sM)
    (hne4 : b4.keys ≠ []) :
    GInv c o sM (mergeGhost g sep.prevChildBucket R) ∅ := by
  obtain ⟨l0, r0, hl0, hr0, hlp, hrp, hlr, hrr, hne, hLP, hRP, hloL, hhiL, hloR, hhiR, hlk, hrk,
    _⟩ := hinv.merge_children hP hsep hL hR hRn
  rw [hl] at hl0
  rw [hr] at hr0
  cases hl0
  cases hr0
  have hpf := hinv.page P p hP
  have hPn := hinv.ne_null hP
  have hLh : sep.prevChildBucket ≠ s.head := hinv.ne_head_of_parent hl hlp hP
  have hRh : R ≠ s.head := hinv.ne_head_of_parent hr hrp hP
  obtain ⟨hb, hhb, hhpar, hhemp⟩ := hinv.head
  -- a child of the right page is not the root, the parent, or a sibling
  have hchr : ∀ x, IsChild r1 x → x ≠ DiskLoc.Null →
      ∃ cb, s.pages x = some cb ∧ cb.parent = R ∧ g.rank x < g.rank R := by
    intro x hx hxn
    obtain ⟨⟨cb, hcb, hcp⟩, hrk1, _⟩ :=
      (hinv.page R r hr).isChild ((mo.packed_r.isChild_same hxn).mp hx) hxn
    exact ⟨cb, hcb, hcp, hrk1⟩
  have hnotch : ∀ x bx, s.pages x = some bx → bx.parent ≠ R →
      ¬ (IsChild r1 x ∧ x ≠ DiskLoc.Null) := by
    rintro x bx hbx hpar ⟨h1, h2⟩
    obtain ⟨cb, hcb, hcp, _⟩ := hchr x h1 h2
    rw [hbx] at hcb
    cases hcb
    exact hpar hcp
  have hMne : M.keys ≠ [] := by
    rw [mo.keys_M]
    simp
  have hic4 := isChild_merged_parent hsep hR mo.keys_b4 mo.next_b4
  -- the pages of the new state that are pages of the old one
  have hold : ∀ x bx, sM.pages x = some bx → ∃ bx0, s.pages x = some bx0 := by
    intro x bx hx
    rcases mo.classify hinv hr hx with ⟨rfl, _⟩ | ⟨rfl, _⟩ | ⟨_, _, _, bx0, hbx0, _⟩
    · exact ⟨p, hP⟩
    · exact ⟨l, hl⟩
    · exact ⟨bx0, hbx0⟩
  have hgne : ∀ x, x ≠ sep.prevChildBucket →
      (mergeGhost g sep.prevChildBucket R).rank x = g.rank x ∧
      (mergeGhost g sep.prevChildBucket R).lo x = g.lo x ∧
      (mergeGhost g sep.prevChildBucket R).hi x = g.hi x :=
    fun x hx => ⟨mergeGhost_rank_ne g _ R hx, rfl, mergeGhost_hi_ne g _ R hx⟩
  -- the state of the children of the two pages
  have hst : ∀ x, (IsChild l x ∨ IsChild r x) → x ≠ DiskLoc.Null →
      ∃ cb, sM.pages x = some cb ∧ cb.parent = sep.prevChildBucket := by
    intro x hx hxn
    rcases hx with hx | hx
    · obtain ⟨⟨cb, hcb, hcp⟩, hrk1, _⟩ := (hinv.page _ l hl).isChild hx hxn
      have e1 : x ≠ P := by
        rintro rfl
        omega
      have e2 : x ≠ sep.prevChildBucket := by
        rintro rfl
        exact lt_irrefl _ hrk1
      have e3 : x ≠ R := by
        rintro rfl
        rw [hr] at hcb
        cases hcb
        rw [hrp] at hcp
        exact hLP hcp.symm
      refine ⟨cb, ?_, hcp⟩
      rw [mo.page_o x e1 e2 e3 (hnotch x cb hcb (by rw [hcp]; exact hne))]
      exact hcb
    · obtain ⟨cb, hcb, hcp, _⟩ := hchr x ((mo.packed_r.isChild_same hxn).mpr hx) hxn
      exact ⟨_, mo.page_ch x ((mo.packed_r.isChild_same hxn).mpr hx) hxn cb hcb, rfl⟩
  refine
    { null_unmapped := ?_
      head := ?_
      page := ?_
      sizes := ?_
      nonempty := ?_
      link := ?_
      float := fun r hr => absurd hr (Set.not_mem_empty r)
      rank_le := ?_
      fresh := ?_ }
  · cases hx : sM.pages DiskLoc.Null with
    | none => rfl
    | some bx =>
      obtain ⟨bx0, hbx0⟩ := hold _ bx hx
      rw [hinv.null_unmapped] at hbx0
      cases hbx0
  · rw [mo.head]
    by_cases hhP : s.head = P
    · rw [hhP] at hhb ⊢
      rw [hP] at hhb
      cases hhb
      exact ⟨b4, mo.page_P, by rw [mo.parent_b4]; exact hhpar, fun h => absurd h hne4⟩
    · refine ⟨hb, ?_, hhpar, hhemp⟩
      rw [mo.page_o s.head hhP (Ne.symm hLh) (Ne.symm hRh)
        (hnotch s.head hb hhb (by rw [hhpar]; exact Ne.symm hRn))]
      exact hhb
  · intro x bx hx
    rcases mo.classify hinv hr hx with ⟨rfl, rfl⟩ | ⟨rfl, rfl⟩ | ⟨hxP, hxL, hxR, bx0, hbx0, hcase⟩
    · exact merged_parent_pagePF hinv hP hsep hL hR hRn hl hr mo
    · exact merged_pagePF hinv hP hsep hL hR hRn hl hr mo.packed_l mo.packed_r mo.keys_M
        mo.next_M (le_refl _) (by rw [mergeGhost_hi_self]) hgne
        (by rw [mergeGhost_rank_self]; exact le_max_left _ _)
        (by rw [mergeGhost_rank_self]; exact le_max_right _ _) hst
    · have hpf0 : PagePF o sM (mergeGhost g sep.prevChildBucket R) x bx0 := by
        obtain ⟨e1, e2, e3⟩ := hgne x hxL
        refine (hinv.page x bx0 hbx0).transfer e1 e2 e3 ?_
        intro ch hic hchn cb hcb hcp
        have hchL : ch ≠ sep.prevChildBucket := by
          rintro rfl
          rw [hl] at hcb
          cases hcb
          rw [hlp] at hcp
          exact hxP hcp.symm
        obtain ⟨f1, f2, f3⟩ := hgne ch hchL
        refine ⟨?_, le_of_eq f1, le_of_eq f2.symm, le_of_eq f3⟩
        by_cases hchP : ch = P
        · subst hchP
          rw [hP] at hcb
          cases hcb
          exact ⟨b4, mo.page_P, by rw [mo.parent_b4]; exact hcp⟩
        · have hchR : ch ≠ R := by
            rintro rfl
            rw [hr] at hcb
            cases hcb
            rw [hrp] at hcp
            exact hxP hcp.symm
          refine ⟨cb, ?_, hcp⟩
          rw [mo.page_o ch hchP hchL hchR (hnotch ch cb hcb (by rw [hcp]; exact hxR))]
          exact hcb
      rcases hcase with ⟨_, rfl⟩ | ⟨_, _, _, rfl⟩
      · exact hpf0
      · exact hpf0.congr_page rfl rfl
  · intro x bx hx
    rcases mo.classify hinv hr hx with ⟨rfl, rfl⟩ | ⟨rfl, rfl⟩ | ⟨_, _, _, bx0, hbx0, hcase⟩
    · exact mo.sizes_b4
    · exact mo.sizes_M
    · rcases hcase with ⟨_, rfl⟩ | ⟨_, _, _, rfl⟩
      · exact hinv.sizes x _ hbx0
      · exact (hinv.sizes x _ hbx0).congr rfl rfl rfl rfl
  · intro x bx hx hxh
    rw [mo.head] at hxh
    rcases mo.classify hinv hr hx with ⟨rfl, rfl⟩ | ⟨rfl, rfl⟩ | ⟨_, _, _, bx0, hbx0, hcase⟩
    · exact hne4
    · exact hMne
    · rcases hcase with ⟨_, rfl⟩ | ⟨_, _, _, rfl⟩
      · exact hinv.nonempty x _ hbx0 hxh
      · exact hinv.nonempty x bx0 hbx0 hxh
  · intro x bx hx hxh _
    rw [mo.head] at hxh
    rcases mo.classify hinv hr hx with ⟨rfl, rfl⟩ | ⟨rfl, rfl⟩ | ⟨hxP, hxL, hxR, bx0, hbx0, hcase⟩
    · -- the parent, below its own parent
      obtain ⟨pb, hpb, hic⟩ := hinv.link x p hP hxh (Set.not_mem_empty _)
      obtain ⟨_, hrk1, _⟩ := (hinv.page _ pb hpb).isChild hic hPn
      rw [mo.parent_b4]
      have e1 : p.parent ≠ x := by
        intro he
        rw [he] at hrk1
        exact lt_irrefl _ hrk1
      have e2 : p.parent ≠ sep.prevChildBucket := by
        intro he
        rw [he] at hrk1
        omega
      have e3 : p.parent ≠ R := by
        intro he
        rw [he] at hrk1
        omega
      refine ⟨pb, ?_, hic⟩
      rw [mo.page_o _ e1 e2 e3 ?_]
      · exact hpb
      · rintro ⟨h1, h2⟩
        obtain ⟨_, _, _, hrk2⟩ := hchr _ h1 h2
        omega
    · rw [mo.parent_M]
      exact ⟨b4, mo.page_P, hic4.1⟩
    · rcases hcase with ⟨hnc, rfl⟩ | ⟨hc1, hc2, _, rfl⟩
      · obtain ⟨pb, hpb, hic⟩ := hinv.link x bx hbx0 hxh (Set.not_mem_empty _)
        have hxn := hinv.ne_null hbx0
        by_cases hpP : bx.parent = P
        · rw [hpP] at hpb ⊢
          rw [hP] at hpb
          cases hpb
          exact ⟨b4, mo.page_P, hic4.2 x hic hxL hxR⟩
        by_cases hpL : bx.parent = sep.prevChildBucket
        · rw [hpL] at hpb ⊢
          rw [hl] at hpb
          cases hpb
          exact ⟨M, mo.page_L,
            isChild_merged_left mo.keys_M ((mo.packed_l.isChild_same hxn).mpr hic)⟩
        by_cases hpR : bx.parent = R
        · rw [hpR, hr] at hpb
          cases hpb
          exact absurd ⟨(mo.packed_r.isChild_same hxn).mpr hic, hxn⟩ hnc
        · cases hq : sM.pages bx.parent with
          | none =>
            by_cases hcq : IsChild r1 bx.parent ∧ bx.parent ≠ DiskLoc.Null
            · rw [mo.page_ch _ hcq.1 hcq.2 pb hpb] at hq
              cases hq
            · rw [mo.page_o _ hpP hpL hpR hcq, hpb] at hq
              cases hq
          | some qb =>
            rcases mo.classify hinv hr hq with ⟨h1, _⟩ | ⟨h1, _⟩ | ⟨_, _, _, qb0, hqb0, hqc⟩
            · exact absurd h1 hpP
            · exact absurd h1 hpL
            · rw [hpb] at hqb0
              cases hqb0
              rcases hqc with ⟨_, rfl⟩ | ⟨_, _, _, rfl⟩
              · exact ⟨_, rfl, hic⟩
              · exact ⟨_, rfl, hic.congr_keys rfl rfl⟩
      · exact ⟨M, mo.page_L, isChild_merged_right mo.keys_M mo.next_M hc1⟩
  · intro x bx hx
    rw [mo.head, mergeGhost_rank_ne g _ R (Ne.symm hLh)]
    by_cases hxL : x = sep.prevChildBucket
    · subst hxL
      rw [mergeGhost_rank_self]
      exact max_le (hinv.rank_le _ l hl) (hinv.rank_le _ r hr)
    · rw [mergeGhost_rank_ne g _ R hxL]
      obtain ⟨bx0, hbx0⟩ := hold x bx hx
      exact hinv.rank_le x bx0 hbx0
  · intro x bx hx
    rw [mo.alloc]
    obtain ⟨bx0, hbx0⟩ := hold x bx hx
    exact hinv.fresh x bx0 hbx0

end BtreeBucket
end mongo
namespace mongo
namespace BtreeBucket

/-- A slot of the list after `wireRight` for each slot of the list before, with
the same key and record. -/
theorem wireRight_covers {rchild : DiskLoc} {B : List _KeyNode} {k0 : _KeyNode} (h : k0 ∈ B) :
    ∃ k ∈ wireRight rchild B, k.key = k0.key ∧ k.recordLoc = k0.recordLoc := by
  cases B with
  | nil => cases h
  | cons u rest =>
    rcases List.mem_cons.mp h with rfl | h1
    · exact ⟨{ k0 with prevChildBucket := rchild }, List.mem_cons_self _ _, rfl, rfl⟩
    · exact ⟨k0, List.mem_cons_of_mem _ h1, rfl, rfl⟩

/-- The entry of a slot depends on its key and its record only. -/
theorem mem_usedEntry_congr (o : Ordering) {k k1 : _KeyNode} (hk : k1.key = k.key)
    (hr : k1.recordLoc = k.recordLoc) {e : EKey}
    (h : k.isUsed = true ∧ k.ekey o = e) : k1.isUsed = true ∧ k1.ekey o = e := by
  have h1 : e ∈ usedEntry o k := h
  rw [← usedEntry_congr o hk hr] at h1
  exact h1

/-- The entries of the index are the same after a merge. -/
theorem MergeOut.content {c : Layout} {o : Ordering} {s : State} {g : Ghost}
    (hinv : GInv c o s g ∅) {P : DiskLoc} {p : BtreeBucket} (hP : s.pages P = some p)
    {li : Nat} {sep : _KeyNode} (hsep : p.keys.get? li = some sep)
    {R : DiskLoc} {l r l1 r1 M b4 : BtreeBucket} {sM : State}
    (hl : s.pages sep.prevChildBucket = some l) (hr : s.pages R = some r)
    (mo : MergeOut c o s P li p sep sep.prevChildBucket R l r l1 r1 M b4 sM) :
    Content o sM = Content o s := by
  have hsorted := (hinv.page P p hP).sorted
  have hsepmem : sep ∈ p.keys := List.get?_mem hsep
  have hl1 := mo.packed_l.pageEntries_eq o
  have hr1 := mo.packed_r.pageEntries_eq o
  have hsplit : p.keys = p.keys.take li ++ sep :: p.keys.drop (li + 1) := by
    have hlt : li < p.keys.length := by
      rcases Nat.lt_or_ge li p.keys.length with h | h
      · exact h
      · rw [List.get?_eq_none.mpr h] at hsep
        cases hsep
    have := List.take_append_drop li p.keys
    rw [List.drop_eq_getElem_cons hlt] at this
    have hg : p.keys[li] = sep := by
      have := List.get?_eq_get hlt
      rw [hsep] at this
      exact (Option.some.inj this).symm
    rw [hg] at this
    exact this.symm
  ext e
  rw [mem_content, mem_content]
  constructor
  · rintro ⟨x, bx, hx, k, hk, hu⟩
    rcases mo.classify hinv hr hx with ⟨rfl, rfl⟩ | ⟨rfl, rfl⟩ | ⟨_, _, _, bx0, hbx0, hcase⟩
    · rw [mo.keys_b4] at hk
      obtain ⟨k0, i, hk0, _, _, hrl, hkey, _⟩ := merged_parent_slot hsorted hsep _ hk
      exact ⟨x, p, hP, k0, List.get?_mem hk0, mem_usedEntry_congr o hkey hrl hu⟩
    · rw [mo.keys_M] at hk
      rcases List.mem_append.mp hk with h1 | h1
      · refine ⟨_, l, hl, ?_⟩
        rw [← hl1]
        exact ⟨k, h1, hu⟩
      · rcases List.mem_cons.mp h1 with rfl | h2
        · exact ⟨P, p, hP, sep, hsepmem, mem_usedEntry_congr o rfl rfl hu⟩
        · refine ⟨R, r, hr, ?_⟩
          rw [← hr1]
          exact ⟨k, h2, hu⟩
    · rcases hcase with ⟨_, rfl⟩ | ⟨_, _, _, rfl⟩
      · exact ⟨x, _, hbx0, k, hk, hu⟩
      · exact ⟨x, _, hbx0, k, hk, hu⟩
  · rintro ⟨x, bx, hx, hmem⟩
    by_cases hxP : x = P
    · subst hxP
      rw [hP] at hx
      cases hx
      obtain ⟨k, hk, hu⟩ := hmem
      rw [hsplit] at hk
      rcases List.mem_append.mp hk with h1 | h1
      · refine ⟨x, b4, mo.page_P, k, ?_, hu⟩
        rw [mo.keys_b4]
        exact List.mem_append_left _ h1
      · rcases List.mem_cons.mp h1 with rfl | h2
        · refine ⟨_, M, mo.page_L, ⟨l1.nextChild, k.recordLoc, k.key⟩, ?_,
            mem_usedEntry_congr o rfl rfl hu⟩
          rw [mo.keys_M]
          exact List.mem_append_right _ (List.mem_cons_self _ _)
        · obtain ⟨k1, hk1, hkey, hrl⟩ := @wireRight_covers sep.prevChildBucket _ _ h2
          refine ⟨x, b4, mo.page_P, k1, ?_, mem_usedEntry_congr o hkey hrl hu⟩
          rw [mo.keys_b4]
          exact List.mem_append_right _ hk1
    by_cases hxL : x = sep.prevChildBucket
    · subst hxL
      rw [hl] at hx
      cases hx
      rw [← hl1] at hmem
      obtain ⟨k, hk, hu⟩ := hmem
      refine ⟨_, M, mo.page_L, k, ?_, hu⟩
      rw [mo.keys_M]
      exact List.mem_append_left _ hk
    by_cases hxR : x = R
    · subst hxR
      rw [hr] at hx
      cases hx
      rw [← hr1] at hmem
      obtain ⟨k, hk, hu⟩ := hmem
      refine ⟨_, M, mo.page_L, k, ?_, hu⟩
      rw [mo.keys_M]
      exact List.mem_append_right _ (List.mem_cons_of_mem _ hk)
    by_cases hch : IsChild r1 x ∧ x ≠ DiskLoc.Null
    · exact ⟨x, _, mo.page_ch x hch.1 hch.2 bx hx, hmem⟩
    · refine ⟨x, bx, ?_, hmem⟩
      rw [mo.page_o x hxP hxL hxR hch]
      exact hx

end BtreeBucket
end mongo
namespace mongo
namespace BtreeBucket

/-- The page condition carries over to a page whose slots each have the place
of a slot of the page and either the same left child, kept by the new state, or
the child `y` where the page had `x`, when `y` takes an interval and a rank
inside those of `x`. -/
theorem PagePF.rewire {o : Ordering} {s s1 : State} {g g1 : Ghost} {l : DiskLoc}
    {b b1 : BtreeBucket} (h : PagePF o s g l b) {x y : DiskLoc} (hx : x ≠ DiskLoc.Null)
    (Keep : DiskLoc → Prop)
    (hs : SortedSlots o b1.keys)
    (hk : ∀ k1 ∈ b1.keys, ∃ k0 ∈ b.keys, k0.key = k1.key ∧ k0.recordLoc = k1.recordLoc ∧
      ((k1.prevChildBucket = k0.prevChildBucket ∧ Keep k0.prevChildBucket) ∨
        (k1.prevChildBucket = y ∧ k0.prevChildBucket = x)))
    (hn : (b1.nextChild = b.nextChild ∧ Keep b.nextChild) ∨
      (b1.nextChild = y ∧ b.nextChild = x))
    (hrk : g.rank l ≤ g1.rank l) (hlo : g1.lo l ≤ g.lo l) (hhi : g.hi l ≤ g1.hi l)
    (hy : y ≠ DiskLoc.Null → (∃ cb, s1.pages y = some cb ∧ cb.parent = l) ∧
      g1.rank y ≤ g.rank x ∧ g.lo x ≤ g1.lo y ∧ g1.hi y ≤ g.hi x)
    (hch : ∀ ch, IsChild b ch → ch ≠ DiskLoc.Null → Keep ch →
      (∃ cb, s1.pages ch = some cb ∧ cb.parent = l) ∧ g1.rank ch ≤ g.rank ch ∧
        g.lo ch ≤ g1.lo ch ∧ g1.hi ch ≤ g.hi ch) :
    PagePF o s1 g1 l b1 := by
  have hek : ∀ {k0 k1 : _KeyNode}, k0.key = k1.key → k0.recordLoc = k1.recordLoc →
      k0.ekey o = k1.ekey o := by
    intro k0 k1 h1 h2
    unfold _KeyNode.ekey
    rw [h1, h2]
  refine
    { sorted := hs
      lo_lt := ?_
      lt_hi := ?_
      rl_valid := ?_
      slot_child := ?_
      next_child := ?_ }
  · intro k1 hk1
    obtain ⟨k0, hk0, e1, e2, _⟩ := hk k1 hk1
    rw [← hek e1 e2]
    exact lt_of_le_of_lt hlo (h.lo_lt k0 hk0)
  · intro k1 hk1
    obtain ⟨k0, hk0, e1, e2, _⟩ := hk k1 hk1
    rw [← hek e1 e2]
    exact lt_of_lt_of_le (h.lt_hi k0 hk0) hhi
  · intro k1 hk1
    obtain ⟨k0, hk0, _, e2, _⟩ := hk k1 hk1
    rw [← e2]
    exact h.rl_valid k0 hk0
  · intro k1 hk1 hne
    obtain ⟨k0, hk0, e1, e2, hc⟩ := hk k1 hk1
    have hbelow : ∀ k2 ∈ b1.keys, k2.ekey o < k1.ekey o →
        ∃ k3 ∈ b.keys, k3.ekey o = k2.ekey o ∧ k3.ekey o < k0.ekey o := by
      intro k2 hk2 hlt
      obtain ⟨k3, hk3, f1, f2, _⟩ := hk k2 hk2
      refine ⟨k3, hk3, hek f1 f2, ?_⟩
      rw [hek f1 f2, hek e1 e2]
      exact hlt
    rcases hc with ⟨hsame, hkeep⟩ | ⟨hisy, hwasx⟩
    · rw [hsame] at hne ⊢
      obtain ⟨_, h2, h3, h4, h5⟩ := h.slot_child k0 hk0 hne
      obtain ⟨hm, r1, r2, r3⟩ := hch _ (Or.inr ⟨k0, hk0, rfl⟩) hne hkeep
      refine ⟨hm, lt_of_le_of_lt r1 (lt_of_lt_of_le h2 hrk), le_trans hlo (le_trans h3 r2), ?_, ?_⟩
      · intro k2 hk2 hlt
        obtain ⟨k3, hk3, f1, f2⟩ := hbelow k2 hk2 hlt
        rw [← f1]
        exact le_trans (h4 k3 hk3 f2) r2
      · rw [← hek e1 e2]
        exact le_trans r3 h5
    · rw [hisy] at hne ⊢
      have hx0 : k0.prevChildBucket ≠ DiskLoc.Null := by
        rw [hwasx]
        exact hx
      obtain ⟨_, h2, h3, h4, h5⟩ := h.slot_child k0 hk0 hx0
      rw [hwasx] at h2 h3 h4 h5
      obtain ⟨hm, r1, r2, r3⟩ := hy hne
      refine ⟨hm, lt_of_le_of_lt r1 (lt_of_lt_of_le h2 hrk), le_trans hlo (le_trans h3 r2), ?_, ?_⟩
      · intro k2 hk2 hlt
        obtain ⟨k3, hk3, f1, f2⟩ := hbelow k2 hk2 hlt
        rw [← f1]
        exact le_trans (h4 k3 hk3 f2) r2
      · rw [← hek e1 e2]
        exact le_trans r3 h5
  · intro hne
    have hall : ∀ k2 ∈ b1.keys, ∃ k3 ∈ b.keys, k3.ekey o = k2.ekey o := by
      intro k2 hk2
      obtain ⟨k3, hk3, f1, f2, _⟩ := hk k2 hk2
      exact ⟨k3, hk3, hek f1 f2⟩
    rcases hn with ⟨hsame, hkeep⟩ | ⟨hisy, hwasx⟩
    · rw [hsame] at hne ⊢
      obtain ⟨_, h2, h3, h4, h5⟩ := h.next_child hne
      obtain ⟨hm, r1, r2, r3⟩ := hch _ (Or.inl rfl) hne hkeep
      refine ⟨hm, lt_of_le_of_lt r1 (lt_of_lt_of_le h2 hrk), le_trans hlo (le_trans h3 r2), ?_,
        le_trans r3 (le_trans h5 hhi)⟩
      intro k2 hk2
      obtain ⟨k3, hk3, f1⟩ := hall k2 hk2
      rw [← f1]
      exact le_trans (h4 k3 hk3) r2
    · rw [hisy] at hne ⊢
      have hx0 : b.nextChild ≠ DiskLoc.Null := by
        rw [hwasx]
        exact hx
      obtain ⟨_, h2, h3, h4, h5⟩ := h.next_child hx0
      rw [hwasx] at h2 h3 h4 h5
      obtain ⟨hm, r1, r2, r3⟩ := hy hne
      refine ⟨hm, lt_of_le_of_lt r1 (lt_of_lt_of_le h2 hrk), le_trans hlo (le_trans h3 r2), ?_,
        le_trans r3 (le_trans h5 hhi)⟩
      intro k2 hk2
      obtain ⟨k3, hk3, f1⟩ := hall k2 hk2
      rw [← f1]
      exact le_trans (h4 k3 hk3) r2

/-- What `setChildForPos` does to a page at the position of the child `x`, the
only position of `x`. -/
theorem setChildForPos_facts (o : Ordering) {b b1 : BtreeBucket} {i : Nat} {x y : DiskLoc}
    (hs : SortedSlots o b.keys) (hx : b.childForPos i = some x)
    (hinj : ∀ j, b.childForPos j = some x → j = i)
    (hset : b.setChildForPos i y = some b1) :
    b1.parent = b.parent ∧ b1.emptySize = b.emptySize ∧ b1.topSize = b.topSize ∧
      b1.packed = b.packed ∧
      b1.keys.map (fun k : _KeyNode => k.key) = b.keys.map (fun k : _KeyNode => k.key) ∧
      SortedSlots o b1.keys ∧
      (∀ k1 ∈ b1.keys, ∃ k0 ∈ b.keys, k0.key = k1.key ∧ k0.recordLoc = k1.recordLoc ∧
        ((k1.prevChildBucket = k0.prevChildBucket ∧ k0.prevChildBucket ≠ x) ∨
          (k1.prevChildBucket = y ∧ k0.prevChildBucket = x))) ∧
      ((b1.nextChild = b.nextChild ∧ b.nextChild ≠ x) ∨ (b1.nextChild = y ∧ b.nextChild = x)) ∧
      IsChild b1 y ∧ (∀ ch, IsChild b ch → ch ≠ x → IsChild b1 ch) ∧
      (∀ ch, IsChild b1 ch → ch = y ∨ (IsChild b ch ∧ ch ≠ x)) ∧
      (∀ k0 ∈ b.keys, ∃ k1 ∈ b1.keys, k1.key = k0.key ∧ k1.recordLoc = k0.recordLoc) := by
  by_cases hi : i = b.keys.length
  · subst hi
    rw [setChildForPos_length] at hset
    cases hset
    have hxn : b.nextChild = x := by
      unfold childForPos at hx
      rw [if_pos rfl] at hx
      exact Option.some.inj hx
    have hkne : ∀ k ∈ b.keys, k.prevChildBucket ≠ x := by
      intro k hk he
      obtain ⟨j, hj⟩ := List.get?_of_mem hk
      have hjlt : j < b.keys.length := by
        rcases Nat.lt_or_ge j b.keys.length with h | h
        · exact h
        · rw [List.get?_eq_none.mpr h] at hj
          cases hj
      have := hinj j (by
        unfold childForPos
        rw [if_neg (Nat.ne_of_lt hjlt), hj]
        simp only [Option.map_some']
        rw [he])
      omega
    refine ⟨rfl, rfl, rfl, rfl, rfl, hs, ?_, Or.inr ⟨rfl, hxn⟩, Or.inl rfl, ?_, ?_, ?_⟩
    · intro k1 hk1
      exact ⟨k1, hk1, rfl, rfl, Or.inl ⟨rfl, hkne k1 hk1⟩⟩
    · rintro ch (h1 | ⟨k, hk, hkc⟩) hne
      · exact absurd (h1.symm.trans hxn) hne
      · exact Or.inr ⟨k, hk, hkc⟩
    · rintro ch (h1 | ⟨k, hk, hkc⟩)
      · exact Or.inl h1.symm
      · refine Or.inr ⟨Or.inr ⟨k, hk, hkc⟩, ?_⟩
        rw [← hkc]
        exact hkne k hk
    · intro k0 hk0
      exact ⟨k0, hk0, rfl, rfl⟩
  · have hget : ∃ k, b.keys.get? i = some k ∧ k.prevChildBucket = x := by
      unfold childForPos at hx
      rw [if_neg hi] at hx
      cases hg : b.keys.get? i with
      | none =>
        rw [hg] at hx
        cases hx
      | some k =>
        rw [hg] at hx
        exact ⟨k, rfl, Option.some.inj hx⟩
    obtain ⟨k, hk, hkx⟩ := hget
    rw [setChildForPos_of_get? b y hk] at hset
    cases hset
    have hilt : i < b.keys.length := by
      rcases Nat.lt_or_ge i b.keys.length with h | h
      · exact h
      · rw [List.get?_eq_none.mpr h] at hk
        cases hk
    have hsplit : b.keys = b.keys.take i ++ k :: b.keys.drop (i + 1) := by
      have := List.take_append_drop i b.keys
      rw [List.drop_eq_getElem_cons hilt] at this
      have hg : b.keys[i] = k := by
        have := List.get?_eq_get hilt
        rw [hk] at this
        exact (Option.some.inj this).symm
      rw [hg] at this
      exact this.symm
    have hset1 : b.keys.set i { k with prevChildBucket := y } =
        b.keys.take i ++ { k with prevChildBucket := y } :: b.keys.drop (i + 1) :=
      set_take_drop b.keys i _ hilt
    have hother : ∀ k0 ∈ b.keys.take i ++ b.keys.drop (i + 1), k0 ∈ b.keys ∧
        k0.prevChildBucket ≠ x := by
      intro k0 hk0
      have hmem : k0 ∈ b.keys := (take_drop_succ_sublist b.keys i).subset hk0
      refine ⟨hmem, ?_⟩
      intro he
      -- the slot is at a position other than `i`
      obtain ⟨j, hj⟩ := List.get?_of_mem hmem
      have hjlt : j < b.keys.length := by
        rcases Nat.lt_or_ge j b.keys.length with h | h
        · exact h
        · rw [List.get?_eq_none.mpr h] at hj
          cases hj
      have hji := hinj j (by
        unfold childForPos
        rw [if_neg (Nat.ne_of_lt hjlt), hj]
        simp only [Option.map_some']
        rw [he])
      subst hji
      rw [hk] at hj
      cases hj
      -- then the slot occurs twice
      have hs2 : SortedSlots o (b.keys.take j ++ k :: b.keys.drop (j + 1)) := by
        rw [← hsplit]
        exact hs
      unfold SortedSlots at hs2
      rw [List.pairwise_append] at hs2
      obtain ⟨_, h2, h3⟩ := hs2
      rcases List.mem_append.mp hk0 with h4 | h4
      · exact lt_irrefl _ (h3 k h4 k (List.mem_cons_self _ _))
      · exact lt_irrefl _ ((List.pairwise_cons.mp h2).1 k h4)
    refine ⟨rfl, rfl, rfl, rfl, ?_, ?_, ?_, ?_, ?_, ?_, ?_, ?_⟩
    · exact map_set_same (fun k : _KeyNode => k.key) b.keys i k { k with prevChildBucket := y }
        hk rfl
    · unfold SortedSlots
      have := map_set_same (fun k : _KeyNode => k.ekey o) b.keys i k
        { k with prevChildBucket := y } hk rfl
      rw [← List.pairwise_map (f := fun k : _KeyNode => k.ekey o) (R := (· < ·))]
      show List.Pairwise _ (List.map _ (b.keys.set i _))
      rw [this, List.pairwise_map]
      exact hs
    · intro k1 hk1
      change k1 ∈ b.keys.set i _ at hk1
      rw [hset1] at hk1
      rcases List.mem_append.mp hk1 with h1 | h1
      · obtain ⟨hm, hne⟩ := hother k1 (List.mem_append_left _ h1)
        exact ⟨k1, hm, rfl, rfl, Or.inl ⟨rfl, hne⟩⟩
      · rcases List.mem_cons.mp h1 with rfl | h2
        · exact ⟨k, List.get?_mem hk, rfl, rfl, Or.inr ⟨rfl, hkx⟩⟩
        · obtain ⟨hm, hne⟩ := hother k1 (List.mem_append_right _ h2)
          exact ⟨k1, hm, rfl, rfl, Or.inl ⟨rfl, hne⟩⟩
    · refine Or.inl ⟨rfl, ?_⟩
      intro he
      have := hinj b.keys.length (by
        unfold childForPos
        rw [if_pos rfl, he])
      omega
    · refine Or.inr ⟨{ k with prevChildBucket := y }, ?_, rfl⟩
      change _ ∈ b.keys.set i _
      rw [hset1]
      exact List.mem_append_right _ (List.mem_cons_self _ _)
    · rintro ch (h1 | ⟨k0, hk0, hkc⟩) hne
      · exact Or.inl h1
      · refine Or.inr ⟨k0, ?_, hkc⟩
        change _ ∈ b.keys.set i _
        rw [hset1]
        rw [hsplit] at hk0
        rcases List.mem_append.mp hk0 with h1 | h1
        · exact List.mem_append_left _ h1
        · rcases List.mem_cons.mp h1 with rfl | h2
          · exact absurd (hkc.symm.trans hkx) hne
          · exact List.mem_append_right _ (List.mem_cons_of_mem _ h2)
    · rintro ch (h1 | ⟨k1, hk1, hkc⟩)
      · refine Or.inr ⟨Or.inl h1, ?_⟩
        intro he
        have h2 : b.nextChild = x := h1.trans he
        have := hinj b.keys.length (by
          unfold childForPos
          rw [if_pos rfl, h2])
        omega
      · change k1 ∈ b.keys.set i _ at hk1
        rw [hset1] at hk1
        rcases List.mem_append.mp hk1 with h1 | h1
        · obtain ⟨hm, hne⟩ := hother k1 (List.mem_append_left _ h1)
          exact Or.inr ⟨Or.inr ⟨k1, hm, hkc⟩, by rw [← hkc]; exact hne⟩
        · rcases List.mem_cons.mp h1 with rfl | h2
          · exact Or.inl hkc.symm
          · obtain ⟨hm, hne⟩ := hother k1 (List.mem_append_right _ h2)
            exact Or.inr ⟨Or.inr ⟨k1, hm, hkc⟩, by rw [← hkc]; exact hne⟩
    · intro k0 hk0
      rw [hsplit] at hk0
      rcases List.mem_append.mp hk0 with h1 | h1
      · refine ⟨k0, ?_, rfl, rfl⟩
        change _ ∈ b.keys.set i _
        rw [hset1]
        exact List.mem_append_left _ h1
      · rcases List.mem_cons.mp h1 with rfl | h2
        · refine ⟨{ k0 with prevChildBucket := y }, ?_, rfl, rfl⟩
          change _ ∈ b.keys.set i _
          rw [hset1]
          exact List.mem_append_right _ (List.mem_cons_self _ _)
        · refine ⟨k0, ?_, rfl, rfl⟩
          change _ ∈ b.keys.set i _
          rw [hset1]
          exact List.mem_append_right _ (List.mem_cons_of_mem _ h2)

end BtreeBucket
end mongo
namespace mongo
namespace BtreeBucket

/-- The children of the two merged pages after the merge: pages that point to
the left page. -/
theorem MergeOut.child_pages {c : Layout} {o : Ordering} {s : State} {g : Ghost}
    (hinv : GInv c o s g ∅) {P : DiskLoc} {p : BtreeBucket} (hP : s.pages P = some p)
    {li : Nat} {sep : _KeyNode} (hsep : p.keys.get? li = some sep)
    (hL : sep.prevChildBucket ≠ DiskLoc.Null) {R : DiskLoc}
    (hR : p.childForPos (li + 1) = some R) (hRn : R ≠ DiskLoc.Null)
    {l r l1 r1 M b4 : BtreeBucket} {sM : State}
    (hl : s.pages sep.prevChildBucket = some l) (hr : s.pages R = some r)
    (mo : MergeOut c o s P li p sep sep.prevChildBucket R l r l1 r1 M b4 sM)
    {x : DiskLoc} (hx : IsChild l x ∨ IsChild r x) (hxn : x ≠ DiskLoc.Null) :
    (∃ cb, sM.pages x = some cb ∧ cb.parent = sep.prevChildBucket) ∧ x ≠ P ∧
      x ≠ sep.prevChildBucket ∧ x ≠ R ∧ g.rank x < g.rank P ∧
      ∃ cb0, s.pages x = some cb0 ∧ (cb0.parent = sep.prevChildBucket ∨ cb0.parent = R) := by
  obtain ⟨l0, r0, hl0, hr0, hlp, hrp, hlr, hrr, hne, hLP, hRP, _⟩ :=
    hinv.merge_children hP hsep hL hR hRn
  rw [hl] at hl0
  rw [hr] at hr0
  cases hl0
  cases hr0
  rcases hx with hx | hx
  · obtain ⟨⟨cb, hcb, hcp⟩, hrk1, _⟩ := (hinv.page _ l hl).isChild hx hxn
    have e1 : x ≠ P := by
      rintro rfl
      omega
    have e2 : x ≠ sep.prevChildBucket := by
      rintro rfl
      exact lt_irrefl _ hrk1
    have e3 : x ≠ R := by
      rintro rfl
      rw [hr] at hcb
      cases hcb
      rw [hrp] at hcp
      exact hLP hcp.symm
    refine ⟨⟨cb, ?_, hcp⟩, e1, e2, e3, by omega, cb, hcb, Or.inl hcp⟩
    rw [mo.page_o x e1 e2 e3 ?_]
    · exact hcb
    · rintro ⟨h1, h2⟩
      obtain ⟨⟨cb1, hcb1, hcp1⟩, _⟩ :=
        (hinv.page R r hr).isChild ((mo.packed_r.isChild_same h2).mp h1) h2
      rw [hcb] at hcb1
      cases hcb1
      rw [hcp] at hcp1
      exact hne hcp1
  · obtain ⟨⟨cb, hcb, hcp⟩, hrk1, _⟩ := (hinv.page _ r hr).isChild hx hxn
    have e1 : x ≠ P := by
      rintro rfl
      omega
    have e2 : x ≠ R := by
      rintro rfl
      exact lt_irrefl _ hrk1
    have e3 : x ≠ sep.prevChildBucket := by
      rintro rfl
      rw [hl] at hcb
      cases hcb
      rw [hlp] at hcp
      exact hRP hcp.symm
    exact ⟨⟨_, mo.page_ch x ((mo.packed_r.isChild_same hxn).mpr hx) hxn cb hcb, rfl⟩, e1, e3, e2,
      by omega, cb, hcb, Or.inr hcp⟩

/-- A parent that the merge leaves without a slot had the separator as its only
slot and the right page as its last child. -/
theorem MergeOut.shape_empty {c : Layout} {o : Ordering} {s : State}
    {P : DiskLoc} {p : BtreeBucket} {li : Nat} {sep : _KeyNode} {L R : DiskLoc}
    (hsep : p.keys.get? li = some sep) (hR : p.childForPos (li + 1) = some R)
    {l r l1 r1 M b4 : BtreeBucket} {sM : State}
    (mo : MergeOut c o s P li p sep L R l r l1 r1 M b4 sM) (h4 : b4.keys = []) :
    p.keys = [sep] ∧ li = 0 ∧ p.nextChild = R ∧ b4.nextChild = L := by
  have hk := mo.keys_b4
  rw [h4] at hk
  have h1 := List.append_eq_nil.mp hk.symm
  have hlt : li < p.keys.length := by
    rcases Nat.lt_or_ge li p.keys.length with h | h
    · exact h
    · rw [List.get?_eq_none.mpr h] at hsep
      cases hsep
  have hli : li = 0 := by
    have := congrArg List.length h1.1
    simp only [List.length_take, List.length_nil] at this
    omega
  have hd : p.keys.drop (li + 1) = [] := by
    cases hdd : p.keys.drop (li + 1) with
    | nil => rfl
    | cons u rest =>
      rw [hdd] at h1
      exact absurd h1.2 (by simp [wireRight])
  subst hli
  have hlen : p.keys.length = 1 := by
    have := congrArg List.length hd
    simp only [List.length_drop, List.length_nil] at this
    omega
  have hkeys : p.keys = [sep] := by
    cases hpk : p.keys with
    | nil =>
      rw [hpk] at hlen
      simp at hlen
    | cons a rest =>
      rw [hpk] at hsep hlen
      simp only [List.get?_cons_zero, Option.some.injEq] at hsep
      cases rest with
      | nil => rw [hsep]
      | cons _ _ => simp at hlen
  refine ⟨hkeys, rfl, ?_, ?_⟩
  · unfold childForPos at hR
    rw [if_pos (by rw [hlen])] at hR
    exact Option.some.inj hR
  · rw [mo.next_b4, if_pos hd]

/-- The run of `replaceWithNextChild` on a parent that the merge has left
without a slot. -/
theorem collapse_run {c : Layout} {o : Ordering} {s : State} {g : Ghost}
    (hinv : GInv c o s g ∅) {P : DiskLoc} {p : BtreeBucket} (hP : s.pages P = some p)
    {li : Nat} {sep : _KeyNode} (hsep : p.keys.get? li = some sep)
    (hL : sep.prevChildBucket ≠ DiskLoc.Null) {R : DiskLoc}
    (hR : p.childForPos (li + 1) = some R) (hRn : R ≠ DiskLoc.Null)
    {l r l1 r1 M b4 : BtreeBucket} {sM : State}
    (hl : s.pages sep.prevChildBucket = some l) (hr : s.pages R = some r)
    (mo : MergeOut c o s P li p sep sep.prevChildBucket R l r l1 r1 M b4 sM)
    (h4 : b4.keys = []) :
    ∃ s1, replaceWithNextChild sM P = (.ok (), s1) ∧ s1.allocNext = s.allocNext ∧
      s1.pages P = none ∧ s1.pages sep.prevChildBucket = some { M with parent := p.parent } ∧
      ((p.parent = DiskLoc.Null ∧ s.head = P ∧ s1.head = sep.prevChildBucket ∧
          ∀ x, x ≠ P → x ≠ sep.prevChildBucket → s1.pages x = sM.pages x) ∨
        (p.parent ≠ DiskLoc.Null ∧ s.head ≠ P ∧ s1.head = s.head ∧
          ∃ pp pp1 i, s.pages p.parent = some pp ∧ pp.childForPos i = some P ∧
            pp.setChildForPos i sep.prevChildBucket = some pp1 ∧
            s1.pages p.parent = some pp1 ∧
            ∀ x, x ≠ P → x ≠ sep.prevChildBucket → x ≠ p.parent →
              s1.pages x = sM.pages x)) := by
  obtain ⟨l0, r0, hl0, hr0, hlp, hrp, hlr, hrr, hne, hLP, hRP, _⟩ :=
    hinv.merge_children hP hsep hL hR hRn
  obtain ⟨hkeys, hli, hnext, hn4⟩ := mo.shape_empty hsep hR h4
  have hLnull : sep.prevChildBucket.isNull = false := by
    unfold DiskLoc.isNull
    exact decide_eq_false hL
  by_cases hpar : p.parent = DiskLoc.Null
  · have hhead : P = s.head := hinv.to_inv.head_of_parent_null hP hpar
    refine ⟨deallocBucket ({ sM with head := sep.prevChildBucket }.put sep.prevChildBucket
      { M with parent := p.parent }) P, ?_, ?_, ?_, ?_, Or.inl ⟨hpar, hhead.symm, by rfl, ?_⟩⟩
    · unfold replaceWithNextChild
      simp only [mo.page_P, h4, List.length_nil, hn4, hLnull, mo.parent_b4, hpar, isNull_null,
        mo.head, ← hhead, State.setParent, mo.page_L]
      simp [mo.page_L]
    · exact mo.alloc
    · simp [deallocBucket, State.free_pages]
    · simp only [deallocBucket, State.free_pages, if_neg hLP, State.put_pages_same]
    · intro x hx1 hx2
      simp only [deallocBucket, State.free_pages, if_neg hx1, State.put_pages, if_neg hx2]
  · have hPh : P ≠ s.head := by
      intro he
      obtain ⟨hb, hhb, hhp, _⟩ := hinv.head
      rw [← he, hP] at hhb
      cases hhb
      exact hpar hhp
    obtain ⟨pp, hpp, hic⟩ := hinv.link P p hP hPh (Set.not_mem_empty _)
    have hPn := hinv.ne_null hP
    obtain ⟨_, hrkP, _⟩ := (hinv.page _ pp hpp).isChild hic hPn
    have e1 : p.parent ≠ P := by
      intro he
      rw [he] at hrkP
      exact lt_irrefl _ hrkP
    have e2 : p.parent ≠ sep.prevChildBucket := by
      intro he
      rw [he] at hrkP
      omega
    have e3 : p.parent ≠ R := by
      intro he
      rw [he] at hrkP
      omega
    have hppM : sM.pages p.parent = some pp := by
      rw [mo.page_o _ e1 e2 e3 ?_]
      · exact hpp
      · rintro ⟨h1, h2⟩
        obtain ⟨_, _, _, _, hrk2, _⟩ := mo.child_pages hinv hP hsep hL hR hRn hl hr
          (Or.inr ((mo.packed_r.isChild_same h2).mp h1)) h2
        omega
    have hb4 : IsChild pp P := hic
    obtain ⟨i, hidx, hci⟩ := indexInParent_of_child sM b4 P pp
      (by rw [mo.parent_b4]; exact hpar) (by rw [mo.parent_b4]; exact hppM) hic
    have hset : ∃ pp1, pp.setChildForPos i sep.prevChildBucket = some pp1 := by
      unfold childForPos at hci
      unfold setChildForPos
      by_cases hi : i = pp.keys.length
      · exact ⟨_, by rw [if_pos hi]⟩
      · rw [if_neg hi] at hci ⊢
        cases hg : pp.keys.get? i with
        | none =>
          rw [hg] at hci
          cases hci
        | some k => exact ⟨_, rfl⟩
    obtain ⟨pp1, hpp1⟩ := hset
    have hparnull : p.parent.isNull = false := by
      unfold DiskLoc.isNull
      exact decide_eq_false hpar
    refine ⟨deallocBucket (((sM.put p.parent pp1)).put sep.prevChildBucket
      { M with parent := p.parent }) P, ?_, ?_, ?_, ?_,
      Or.inr ⟨hpar, Ne.symm hPh, ?_, pp, pp1, i, hpp, hci, hpp1, ?_, ?_⟩⟩
    · unfold replaceWithNextChild
      simp only [mo.page_P, h4, List.length_nil, hn4, hLnull, mo.parent_b4, hparnull, hidx,
        hppM, hpp1, State.setParent, State.put_pages, if_neg (Ne.symm e2), mo.page_L]
      simp [State.put_pages, Ne.symm e2, mo.page_L]
    · exact mo.alloc
    · simp [deallocBucket, State.free_pages]
    · simp only [deallocBucket, State.free_pages, if_neg hLP, State.put_pages_same]
    · exact mo.head
    · simp only [deallocBucket, State.free_pages, if_neg e1, State.put_pages, if_neg e2,
        if_true]
    · intro x hx1 hx2 hx3
      simp only [deallocBucket, State.free_pages, if_neg hx1, State.put_pages, if_neg hx2,
        if_neg hx3]

end BtreeBucket
end mongo
namespace mongo
namespace BtreeBucket

theorem collapseGhost_ne (g : Ghost) (L P : DiskLoc) {x : DiskLoc} (h : x ≠ L) :
    (collapseGhost g L P).rank x = g.rank x ∧ (collapseGhost g L P).lo x = g.lo x ∧
      (collapseGhost g L P).hi x = g.hi x := by
  simp [collapseGhost, Function.update_noteq h]

theorem collapseGhost_self (g : Ghost) (L P : DiskLoc) :
    (collapseGhost g L P).rank L = g.rank P ∧ (collapseGhost g L P).lo L = g.lo P ∧
      (collapseGhost g L P).hi L = g.hi P := by
  simp [collapseGhost]

/-- The state after a merge that leaves the parent without a slot, and the
replacement of the parent by the merged page, satisfies the invariant. -/
theorem merge_collapse {c : Layout} {o : Ordering} {s : State} {g : Ghost}
    (hinv : GInv c o s g ∅) {P : DiskLoc} {p : BtreeBucket} (hP : s.pages P = some p)
    {li : Nat} {sep : _KeyNode} (hsep : p.keys.get? li = some sep)
    (hL : sep.prevChildBucket ≠ DiskLoc.Null) {R : DiskLoc}
    (hR : p.childForPos (li + 1) = some R) (hRn : R ≠ DiskLoc.Null)
    {l r l1 r1 M b4 : BtreeBucket} {sM : State}
    (hl : s.pages sep.prevChildBucket = some l) (hr : s.pages R = some r)
    (mo : MergeOut c o s P li p sep sep.prevChildBucket R l r l1 r1 M b4 sM)
    (h4 : b4.keys = []) :
    ∃ s1, replaceWithNextChild sM P = (.ok (), s1) ∧
      GInv c o s1 (collapseGhost g sep.prevChildBucket P) ∅ ∧ Content o s1 = Content o sM := by
  obtain ⟨s1, hrun, halloc, hs1P, hs1L, hcases⟩ :=
    collapse_run hinv hP hsep hL hR hRn hl hr mo h4
  refine ⟨s1, hrun, ?_, ?_⟩
  all_goals
    obtain ⟨l0, r0, hl0, hr0, hlp, hrp, hlr, hrr, hne, hLP, hRP, hloL, hhiL, hloR, hhiR, _⟩ :=
      hinv.merge_children hP hsep hL hR hRn
    rw [hl] at hl0
    rw [hr] at hr0
    cases hl0
    cases hr0
    obtain ⟨hkeys, hli, hnext, hn4⟩ := mo.shape_empty hsep hR h4
    have hPn := hinv.ne_null hP
    have hsMnull : sM.pages DiskLoc.Null = none := by
      cases hx : sM.pages DiskLoc.Null with
      | none => rfl
      | some bx =>
        rcases mo.classify hinv hr hx with ⟨h1, _⟩ | ⟨h1, _⟩ | ⟨_, _, _, bx0, hbx0, _⟩
        · exact absurd h1.symm hPn
        · exact absurd h1.symm hL
        · rw [hinv.null_unmapped] at hbx0
          cases hbx0
    have hnull : s1.pages DiskLoc.Null = none := by
      rcases hcases with ⟨_, _, _, ho⟩ | ⟨hpn, _, _, _, _, _, _, _, _, _, ho⟩
      · rw [ho _ (Ne.symm hPn) (Ne.symm hL)]
        exact hsMnull
      · rw [ho _ (Ne.symm hPn) (Ne.symm hL) (Ne.symm hpn)]
        exact hsMnull
    have hother : ∀ x, x ≠ P → x ≠ sep.prevChildBucket → x ≠ p.parent →
        s1.pages x = sM.pages x := by
      intro x h1 h2 h3
      rcases hcases with ⟨_, _, _, ho⟩ | ⟨_, _, _, _, _, _, _, _, _, _, ho⟩
      · exact ho x h1 h2
      · exact ho x h1 h2 h3
    have hPP : ∀ bx, s1.pages p.parent = some bx → p.parent ≠ DiskLoc.Null ∧ s.head ≠ P ∧
        s1.head = s.head ∧ ∃ pp i, s.pages p.parent = some pp ∧ pp.childForPos i = some P ∧
          pp.setChildForPos i sep.prevChildBucket = some bx := by
      intro bx hbx
      rcases hcases with ⟨hpn, _⟩ | ⟨hpn, hh, hh1, pp, pp1, i, h1, h2, h3, h5, _⟩
      · rw [hpn, hnull] at hbx
        cases hbx
      · rw [h5] at hbx
        cases hbx
        exact ⟨hpn, hh, hh1, pp, i, h1, h2, h3⟩
    -- the parent of the parent is above the pages of the merge
    have hppfacts : ∀ pp, s.pages p.parent = some pp →
        g.rank P < g.rank p.parent ∧ IsChild pp P ∧ pp.parent ≠ P ∧ p.parent ≠ R ∧
          p.parent ≠ sep.prevChildBucket ∧ p.parent ≠ P ∧
          sM.pages p.parent = some pp := by
      intro pp hpp
      have hPh : P ≠ s.head := hinv.ne_head_of_parent hP rfl hpp
      obtain ⟨pb, hpb, hic⟩ := hinv.link P p hP hPh (Set.not_mem_empty _)
      rw [hpp] at hpb
      cases hpb
      obtain ⟨_, hrkP, _⟩ := (hinv.page _ pp hpp).isChild hic hPn
      have e1 : p.parent ≠ P := by
        intro he
        rw [he] at hrkP
        exact lt_irrefl _ hrkP
      have e2 : p.parent ≠ sep.prevChildBucket := by
        intro he
        rw [he] at hrkP
        omega
      have e3 : p.parent ≠ R := by
        intro he
        rw [he] at hrkP
        omega
      refine ⟨hrkP, hic, ?_, e3, e2, e1, ?_⟩
      · intro he
        by_cases hh : p.parent = s.head
        · obtain ⟨hb, hhb, hhp, _⟩ := hinv.head
          rw [← hh, hpp] at hhb
          cases hhb
          rw [hhp] at he
          exact hPn he.symm
        · obtain ⟨gb, hgb, hgic⟩ := hinv.link _ pp hpp hh (Set.not_mem_empty _)
          obtain ⟨_, hrk2, _⟩ := (hinv.page _ gb hgb).isChild hgic (hinv.ne_null hpp)
          rw [he] at hrk2
          omega
      · rw [mo.page_o _ e1 e2 e3 ?_]
        · exact hpp
        · rintro ⟨h1, h2⟩
          obtain ⟨_, _, _, _, hrk2, _⟩ := mo.child_pages hinv hP hsep hL hR hRn hl hr
            (Or.inr ((mo.packed_r.isChild_same h2).mp h1)) h2
          omega
    -- the pages of the new state
    have hcls : ∀ x bx, s1.pages x = some bx →
        (x = sep.prevChildBucket ∧ bx = { M with parent := p.parent }) ∨
        (x = p.parent ∧ x ≠ sep.prevChildBucket) ∨
        (x ≠ P ∧ x ≠ sep.prevChildBucket ∧ x ≠ R ∧ x ≠ p.parent ∧ sM.pages x = some bx ∧
          ∃ bx0, s.pages x = some bx0 ∧
          ((¬ (IsChild r1 x ∧ x ≠ DiskLoc.Null) ∧ bx = bx0) ∨
            (IsChild r1 x ∧ x ≠ DiskLoc.Null ∧ bx0.parent = R ∧
              bx = { bx0 with parent := sep.prevChildBucket }))) := by
      intro x bx hx
      by_cases hxL : x = sep.prevChildBucket
      · subst hxL
        rw [hs1L] at hx
        cases hx
        exact Or.inl ⟨rfl, rfl⟩
      by_cases hxPP : x = p.parent
      · exact Or.inr (Or.inl ⟨hxPP, hxL⟩)
      by_cases hxP : x = P
      · rw [hxP, hs1P] at hx
        cases hx
      rw [hother x hxP hxL hxPP] at hx
      rcases mo.classify hinv hr hx with ⟨h1, _⟩ | ⟨h1, _⟩ | ⟨_, _, h3, h4⟩
      · exact absurd h1 hxP
      · exact absurd h1 hxL
      · exact Or.inr (Or.inr ⟨hxP, hxL, h3, hxPP, hx, h4⟩)
  · -- the invariant
    have hgne := fun x (hx : x ≠ sep.prevChildBucket) =>
      collapseGhost_ne g sep.prevChildBucket P hx
    obtain ⟨hgr, hgl, hgh⟩ := collapseGhost_self g sep.prevChildBucket P
    have hMne : M.keys ≠ [] := by
      rw [mo.keys_M]
      simp
    have hold : ∀ x bx, s1.pages x = some bx → ∃ bx0, s.pages x = some bx0 := by
      intro x bx hx
      rcases hcls x bx hx with ⟨rfl, _⟩ | ⟨rfl, _⟩ | ⟨_, _, _, _, _, bx0, hbx0, _⟩
      · exact ⟨l, hl⟩
      · obtain ⟨_, _, _, pp, _, hpp, _⟩ := hPP bx hx
        exact ⟨pp, hpp⟩
      · exact ⟨bx0, hbx0⟩
    have hchildP : ∀ x cb, s.pages x = some cb → cb.parent = P →
        x = sep.prevChildBucket ∨ x = R := by
      intro x cb hcb hcp
      have hxh := hinv.ne_head_of_parent hcb hcp hP
      obtain ⟨pb, hpb, hic⟩ := hinv.link x cb hcb hxh (Set.not_mem_empty _)
      rw [hcp, hP] at hpb
      cases hpb
      rcases hic with h1 | ⟨k, hk, hkc⟩
      · exact Or.inr (h1.symm.trans hnext)
      · rw [hkeys] at hk
        rw [List.mem_singleton.mp hk] at hkc
        exact Or.inl hkc.symm
    -- a page of the old state that is not touched, in the new state
    have hsame : ∀ x bx0, s.pages x = some bx0 → x ≠ P → x ≠ sep.prevChildBucket → x ≠ R →
        x ≠ p.parent → bx0.parent ≠ R → s1.pages x = some bx0 := by
      intro x bx0 hbx0 h1 h2 h3 h4 h5
      rw [hother x h1 h2 h4, mo.page_o x h1 h2 h3 ?_]
      · exact hbx0
      · rintro ⟨h6, h7⟩
        obtain ⟨_, _, _, _, _, cb0, hcb0, hcase⟩ := mo.child_pages hinv hP hsep hL hR hRn hl hr
          (Or.inr ((mo.packed_r.isChild_same h7).mp h6)) h7
        rw [hbx0] at hcb0
        cases hcb0
        rcases hcase with h8 | h8
        · -- a child of both pages
          obtain ⟨⟨cb1, hcb1, hcp1⟩, _⟩ :=
            (hinv.page R r hr).isChild ((mo.packed_r.isChild_same h7).mp h6) h7
          rw [hbx0] at hcb1
          cases hcb1
          exact h5 hcp1
        · exact h5 h8
    -- the children of a page other than the merged page and the parents
    have hkids : ∀ x bx0, s.pages x = some bx0 → x ≠ P → x ≠ sep.prevChildBucket → x ≠ R →
        ∀ ch, IsChild bx0 ch → ch ≠ DiskLoc.Null → ∀ cb, s.pages ch = some cb → cb.parent = x →
          ch ≠ P → (∃ cb1, s1.pages ch = some cb1 ∧ cb1.parent = x) ∧
            (collapseGhost g sep.prevChildBucket P).rank ch ≤ g.rank ch ∧
            g.lo ch ≤ (collapseGhost g sep.prevChildBucket P).lo ch ∧
            (collapseGhost g sep.prevChildBucket P).hi ch ≤ g.hi ch := by
      intro x bx0 hbx0 hxP hxL hxR ch hic hchn cb hcb hcp hchP
      have hchL : ch ≠ sep.prevChildBucket := by
        rintro rfl
        rw [hl] at hcb
        cases hcb
        rw [hlp] at hcp
        exact hxP hcp.symm
      have hchR : ch ≠ R := by
        rintro rfl
        rw [hr] at hcb
        cases hcb
        rw [hrp] at hcp
        exact hxP hcp.symm
      obtain ⟨f1, f2, f3⟩ := hgne ch hchL
      refine ⟨?_, le_of_eq f1, le_of_eq f2.symm, le_of_eq f3⟩
      by_cases hchPP : ch = p.parent
      · cases hq : s1.pages ch with
        | none =>
          rcases hcases with ⟨hpn, _⟩ | ⟨_, _, _, _, _, _, _, _, _, h5, _⟩
          · rw [hchPP, hpn] at hchn
            exact absurd rfl hchn
          · rw [hchPP, h5] at hq
            cases hq
        | some qb =>
          rw [hchPP] at hq
          obtain ⟨_, _, _, pp, i, hpp, hci, hset⟩ := hPP qb hq
          rw [hchPP, hpp] at hcb
          cases hcb
          refine ⟨qb, ?_, ?_⟩
          · first
              | rfl
              | exact hq
              | (rw [hchPP]; exact hq)
          · have hb := (setChildForPos_facts o (hinv.page _ cb hpp).sorted hci
              (fun j hj => hinv.child_inj hpp hj hci hPn) hset).1
            rw [hb]
            exact hcp
      · exact ⟨cb, hsame ch cb hcb hchP hchL hchR hchPP (by rw [hcp]; exact hxR), hcp⟩
    -- the children of the merged pages
    have hst : ∀ x, (IsChild l x ∨ IsChild r x) → x ≠ DiskLoc.Null →
        ∃ cb, s1.pages x = some cb ∧ cb.parent = sep.prevChildBucket := by
      intro x hx hxn
      obtain ⟨⟨cb, hcb, hcp⟩, e1, e2, e3, hrk, _⟩ :=
        mo.child_pages hinv hP hsep hL hR hRn hl hr hx hxn
      refine ⟨cb, ?_, hcp⟩
      rw [hother x e1 e2 ?_]
      · exact hcb
      · intro he
        cases hq : s.pages p.parent with
        | none =>
          rw [← he] at hq
          rcases mo.classify hinv hr hcb with ⟨h1, _⟩ | ⟨h1, _⟩ | ⟨_, _, _, bx0, hbx0, _⟩
          · exact e1 h1
          · exact e2 h1
          · rw [hq] at hbx0
            cases hbx0
        | some pp =>
          obtain ⟨hrk2, _⟩ := hppfacts pp hq
          rw [← he] at hrk2
          omega
    refine
      { null_unmapped := hnull
        head := ?_
        page := ?_
        sizes := ?_
        nonempty := ?_
        link := ?_
        float := fun r hr => absurd hr (Set.not_mem_empty r)
        rank_le := ?_
        fresh := ?_ }
    · rcases hcases with ⟨hpn, _, hh1, _⟩ | ⟨hpn, hh, hh1, pp, pp1, i, hpp, hci, hset, h5, _⟩
      · rw [hh1]
        exact ⟨_, hs1L, hpn, fun h => absurd h hMne⟩
      · rw [hh1]
        obtain ⟨hb, hhb, hhp, hhe⟩ := hinv.head
        by_cases hhPP : s.head = p.parent
        · rw [hhPP] at hhb ⊢
          rw [hpp] at hhb
          cases hhb
          obtain ⟨f1, _, _, _, f5, _⟩ := setChildForPos_facts o (hinv.page _ pp hpp).sorted hci
            (fun j hj => hinv.child_inj hpp hj hci hPn) hset
          refine ⟨pp1, h5, by rw [f1]; exact hhp, ?_⟩
          intro he
          exfalso
          have hk0 : pp.keys = [] := by
            have := congrArg List.length f5
            simp only [List.length_map, he, List.length_nil] at this
            exact List.length_eq_zero.mp this.symm
          have hn0 := hhe hk0
          obtain ⟨_, hicP, _⟩ := hppfacts pp hpp
          rcases hicP with h6 | ⟨k, hk, _⟩
          · rw [hn0] at h6
            exact hPn h6.symm
          · rw [hk0] at hk
            cases hk
        · refine ⟨hb, ?_, hhp, hhe⟩
          refine hsame s.head hb hhb hh ?_ ?_ hhPP (by rw [hhp]; exact Ne.symm hRn)
          · exact Ne.symm (hinv.ne_head_of_parent hl hlp hP)
          · exact Ne.symm (hinv.ne_head_of_parent hr hrp hP)
    · intro x bx hx
      rcases hcls x bx hx with ⟨rfl, rfl⟩ | ⟨rfl, hxL⟩ |
        ⟨hxP, hxL, hxR, hxPP, _, bx0, hbx0, hcase⟩
      · refine (merged_pagePF hinv hP hsep hL hR hRn hl hr mo.packed_l mo.packed_r mo.keys_M
          mo.next_M (by rw [hgl]; exact hloL) (by rw [hgh]; exact hhiR) hgne
          (by rw [hgr]; exact le_of_lt hlr) (by rw [hgr]; exact le_of_lt hrr) hst).congr_page
          rfl rfl
      · obtain ⟨hpn, _, _, pp, i, hpp, hci, hset⟩ := hPP bx hx
        obtain ⟨hrkPP, _, hppP, e3, e2, e1, _⟩ := hppfacts pp hpp
        obtain ⟨f1, _, _, _, _, f6, f7, f8, _⟩ := setChildForPos_facts o
          (hinv.page _ pp hpp).sorted hci (fun j hj => hinv.child_inj hpp hj hci hPn) hset
        obtain ⟨g1, g2, g3⟩ := hgne _ hxL
        refine (hinv.page _ pp hpp).rewire hPn (fun ch => ch ≠ P) f6 f7 f8 (le_of_eq g1.symm)
          (le_of_eq g2) (le_of_eq g3.symm) ?_ ?_
        · intro _
          exact ⟨⟨_, hs1L, rfl⟩, le_of_eq hgr, le_of_eq hgl.symm, le_of_eq hgh⟩
        · intro ch hic hchn hchP
          obtain ⟨⟨cb, hcb, hcp⟩, _⟩ := (hinv.page _ pp hpp).isChild hic hchn
          exact hkids _ pp hpp e1 e2 e3 ch hic hchn cb hcb hcp hchP
      · have hpf0 : PagePF o s1 (collapseGhost g sep.prevChildBucket P) x bx0 := by
          obtain ⟨e1, e2, e3⟩ := hgne x hxL
          refine (hinv.page x bx0 hbx0).transfer e1 e2 e3 ?_
          intro ch hic hchn cb hcb hcp
          refine hkids x bx0 hbx0 hxP hxL hxR ch hic hchn cb hcb hcp ?_
          rintro rfl
          rw [hP] at hcb
          cases hcb
          exact hxPP hcp.symm
        rcases hcase with ⟨_, rfl⟩ | ⟨_, _, _, rfl⟩
        · exact hpf0
        · exact hpf0.congr_page rfl rfl
    · intro x bx hx
      rcases hcls x bx hx with ⟨rfl, rfl⟩ | ⟨rfl, hxL⟩ | ⟨_, _, _, _, _, bx0, hbx0, hcase⟩
      · exact mo.sizes_M.congr rfl rfl rfl rfl
      · obtain ⟨_, _, _, pp, i, hpp, hci, hset⟩ := hPP bx hx
        obtain ⟨_, f2, f3, f4, f5, _⟩ := setChildForPos_facts o
          (hinv.page _ pp hpp).sorted hci (fun j hj => hinv.child_inj hpp hj hci hPn) hset
        exact (hinv.sizes _ pp hpp).of_map f5 f2 f3 f4
      · rcases hcase with ⟨_, rfl⟩ | ⟨_, _, _, rfl⟩
        · exact hinv.sizes x _ hbx0
        · exact (hinv.sizes x _ hbx0).congr rfl rfl rfl rfl
    · intro x bx hx hxh
      rcases hcls x bx hx with ⟨rfl, rfl⟩ | ⟨rfl, hxL⟩ | ⟨hxP, _, _, _, _, bx0, hbx0, hcase⟩
      · exact hMne
      · obtain ⟨_, _, hh1, pp, i, hpp, hci, hset⟩ := hPP bx hx
        obtain ⟨_, _, _, _, f5, _⟩ := setChildForPos_facts o
          (hinv.page _ pp hpp).sorted hci (fun j hj => hinv.child_inj hpp hj hci hPn) hset
        rw [hh1] at hxh
        have := hinv.nonempty _ pp hpp hxh
        intro he
        apply this
        have h6 := congrArg List.length f5
        simp only [List.length_map, he, List.length_nil] at h6
        exact List.length_eq_zero.mp h6.symm
      · have hxh0 : x ≠ s.head := by
          rcases hcases with ⟨_, hh, _⟩ | ⟨_, _, hh1, _⟩
          · rw [hh]
            exact hxP
          · rw [← hh1]
            exact hxh
        rcases hcase with ⟨_, rfl⟩ | ⟨_, _, _, rfl⟩
        · exact hinv.nonempty x _ hbx0 hxh0
        · exact hinv.nonempty x bx0 hbx0 hxh0
    · intro x bx hx hxh _
      rcases hcls x bx hx with ⟨rfl, rfl⟩ | ⟨rfl, hxL⟩ |
        ⟨hxP, hxL, hxR, hxPP, _, bx0, hbx0, hcase⟩
      · rcases hcases with ⟨_, _, hh1, _⟩ | ⟨hpn, hh, hh1, pp, pp1, i, hpp, hci, hset, h5, _⟩
        · exact absurd hh1.symm hxh
        · obtain ⟨_, _, _, _, _, _, _, _, f9, _⟩ := setChildForPos_facts o
            (hinv.page _ pp hpp).sorted hci (fun j hj => hinv.child_inj hpp hj hci hPn) hset
          exact ⟨pp1, h5, f9⟩
      · obtain ⟨_, _, hh1, pp, i, hpp, hci, hset⟩ := hPP bx hx
        obtain ⟨f1, _⟩ := setChildForPos_facts o
          (hinv.page _ pp hpp).sorted hci (fun j hj => hinv.child_inj hpp hj hci hPn) hset
        obtain ⟨hrkPP, _, hppP, e3, e2, e1, _⟩ := hppfacts pp hpp
        rw [hh1] at hxh
        obtain ⟨gb, hgb, hgic⟩ := hinv.link _ pp hpp hxh (Set.not_mem_empty _)
        obtain ⟨_, hrk2, _⟩ := (hinv.page _ gb hgb).isChild hgic (hinv.ne_null hpp)
        rw [f1]
        refine ⟨gb, hsame _ gb hgb hppP ?_ ?_ ?_ ?_, hgic⟩
        · intro he
          rw [he] at hrk2
          omega
        · intro he
          rw [he] at hrk2
          omega
        · intro he
          rw [he] at hrk2
          exact lt_irrefl _ hrk2
        · intro he
          by_cases hgh0 : pp.parent = s.head
          · obtain ⟨hb, hhb, hhp, _⟩ := hinv.head
            rw [← hgh0, hgb] at hhb
            cases hhb
            rw [hhp] at he
            exact hRn he.symm
          · obtain ⟨ggb, hggb, hggic⟩ := hinv.link _ gb hgb hgh0 (Set.not_mem_empty _)
            rw [he] at hggb
            rw [hr] at hggb
            cases hggb
            obtain ⟨_, hrk3, _⟩ := (hinv.page _ r hr).isChild hggic (hinv.ne_null hgb)
            omega
      · have hxh0 : x ≠ s.head := by
          rcases hcases with ⟨_, hh, _⟩ | ⟨_, _, hh1, _⟩
          · rw [hh]
            exact hxP
          · rw [← hh1]
            exact hxh
        have hxn := hinv.ne_null hbx0
        rcases hcase with ⟨hnc, rfl⟩ | ⟨hc1, _, _, rfl⟩
        · obtain ⟨pb, hpb, hic⟩ := hinv.link x bx hbx0 hxh0 (Set.not_mem_empty _)
          by_cases hpP : bx.parent = P
          · rcases hchildP x bx hbx0 hpP with h1 | h1
            · exact absurd h1 hxL
            · exact absurd h1 hxR
          by_cases hpL : bx.parent = sep.prevChildBucket
          · rw [hpL] at hpb ⊢
            rw [hl] at hpb
            cases hpb
            exact ⟨_, hs1L,
              isChild_merged_left mo.keys_M ((mo.packed_l.isChild_same hxn).mpr hic)⟩
          by_cases hpR : bx.parent = R
          · rw [hpR, hr] at hpb
            cases hpb
            exact absurd ⟨(mo.packed_r.isChild_same hxn).mpr hic, hxn⟩ hnc
          by_cases hpPP : bx.parent = p.parent
          · cases hq : s1.pages p.parent with
            | none =>
              rcases hcases with ⟨hpn, _⟩ | ⟨_, _, _, _, _, _, _, _, _, h5, _⟩
              · rw [hpPP, hpn, hinv.null_unmapped] at hpb
                cases hpb
              · rw [h5] at hq
                cases hq
            | some qb =>
              obtain ⟨_, _, _, pp, i, hpp, hci, hset⟩ := hPP qb hq
              rw [hpPP, hpp] at hpb
              cases hpb
              obtain ⟨_, _, _, _, _, _, _, _, _, f10, _⟩ := setChildForPos_facts o
                (hinv.page _ pb hpp).sorted hci (fun j hj => hinv.child_inj hpp hj hci hPn) hset
              rw [hpPP]
              exact ⟨qb, hq, f10 x hic hxP⟩
          · cases hq : s1.pages bx.parent with
            | none =>
              rw [hother _ hpP hpL hpPP] at hq
              by_cases hcq : IsChild r1 bx.parent ∧ bx.parent ≠ DiskLoc.Null
              · rw [mo.page_ch _ hcq.1 hcq.2 pb hpb] at hq
                cases hq
              · rw [mo.page_o _ hpP hpL hpR hcq, hpb] at hq
                cases hq
            | some qb =>
              rcases hcls _ qb hq with ⟨h1, _⟩ | ⟨h1, _⟩ | ⟨_, _, _, _, _, qb0, hqb0, hqc⟩
              · exact absurd h1 hpL
              · exact absurd h1 hpPP
              · rw [hpb] at hqb0
                cases hqb0
                rcases hqc with ⟨_, rfl⟩ | ⟨_, _, _, rfl⟩
                · exact ⟨_, rfl, hic⟩
                · exact ⟨_, rfl, hic.congr_keys rfl rfl⟩
        · exact ⟨_, hs1L, isChild_merged_right mo.keys_M mo.next_M hc1⟩
    · intro x bx hx
      have hhrk : (collapseGhost g sep.prevChildBucket P).rank s1.head = g.rank s.head := by
        rcases hcases with ⟨_, hh, hh1, _⟩ | ⟨_, _, hh1, _⟩
        · rw [hh1, hgr, hh]
        · rw [hh1]
          exact (hgne _ (Ne.symm (hinv.ne_head_of_parent hl hlp hP))).1
      rw [hhrk]
      by_cases hxL : x = sep.prevChildBucket
      · rw [hxL, hgr]
        exact hinv.rank_le P p hP
      · rw [(hgne x hxL).1]
        obtain ⟨bx0, hbx0⟩ := hold x bx hx
        exact hinv.rank_le x bx0 hbx0
    · intro x bx hx
      rw [halloc]
      obtain ⟨bx0, hbx0⟩ := hold x bx hx
      exact hinv.fresh x bx0 hbx0
  · -- the entries
    ext e
    rw [mem_content, mem_content]
    constructor
    · rintro ⟨x, bx, hx, k, hk, hu⟩
      rcases hcls x bx hx with ⟨rfl, rfl⟩ | ⟨rfl, hxL⟩ | ⟨_, _, _, _, hxM, _⟩
      · exact ⟨_, M, mo.page_L, k, hk, hu⟩
      · obtain ⟨_, _, _, pp, i, hpp, hci, hset⟩ := hPP bx hx
        obtain ⟨_, _, _, _, _, _, f7, _⟩ := setChildForPos_facts o
          (hinv.page _ pp hpp).sorted hci (fun j hj => hinv.child_inj hpp hj hci hPn) hset
        obtain ⟨k0, hk0, e1, e2, _⟩ := f7 k hk
        exact ⟨_, pp, (hppfacts pp hpp).2.2.2.2.2.2, k0, hk0, mem_usedEntry_congr o e1 e2 hu⟩
      · exact ⟨x, bx, hxM, k, hk, hu⟩
    · rintro ⟨x, bx, hx, k, hk, hu⟩
      by_cases hxP : x = P
      · rw [hxP, mo.page_P] at hx
        cases hx
        rw [h4] at hk
        cases hk
      by_cases hxL : x = sep.prevChildBucket
      · rw [hxL, mo.page_L] at hx
        cases hx
        exact ⟨_, _, hs1L, k, hk, hu⟩
      by_cases hxPP : x = p.parent
      · rcases hcases with ⟨hpn, _⟩ | ⟨_, _, _, pp, pp1, i, hpp, hci, hset, h5, _⟩
        · rw [hxPP, hpn, hsMnull] at hx
          cases hx
        · rw [hxPP, (hppfacts pp hpp).2.2.2.2.2.2] at hx
          cases hx
          obtain ⟨_, _, _, _, _, _, _, _, _, _, _, f12⟩ := setChildForPos_facts o
            (hinv.page _ bx hpp).sorted hci (fun j hj => hinv.child_inj hpp hj hci hPn) hset
          obtain ⟨k1, hk1, e1, e2⟩ := f12 k hk
          exact ⟨_, pp1, h5, k1, hk1, mem_usedEntry_congr o e1 e2 hu⟩
      · refine ⟨x, bx, ?_, k, hk, hu⟩
        rw [hother x hxP hxL hxPP]
        exact hx

end BtreeBucket
end mongo
namespace mongo
namespace BtreeBucket

/-- The three ways of `tryMergeNeighbors` on a slot of a page. -/
theorem tryMergeNeighbors_cases (c : Layout) (o : Ordering) (fuel : Nat) (s : State)
    (P : DiskLoc) (li : Nat) {p : BtreeBucket} (hP : s.pages P = some p) {sep : _KeyNode}
    (hsep : p.keys.get? li = some sep) {R : DiskLoc} (hR : p.childForPos (li + 1) = some R) :
    ((sep.prevChildBucket = DiskLoc.Null ∨ R = DiskLoc.Null) →
      tryMergeNeighbors c o (fuel + 1) s P li = (.ok false, s)) ∧
    (∀ l r, sep.prevChildBucket ≠ DiskLoc.Null → R ≠ DiskLoc.Null →
      s.pages sep.prevChildBucket = some l → s.pages R = some r →
      (c.headerSize + packedDataSize c l 0 + packedDataSize c r 0 + sep.key.objsize
          + c.slotSize > c.BucketSize →
        tryMergeNeighbors c o (fuel + 1) s P li = (.ok false, s)) ∧
      (¬ (c.headerSize + packedDataSize c l 0 + packedDataSize c r 0 + sep.key.objsize
          + c.slotSize > c.BucketSize) →
        ∀ s1, doMergeNeighbors c o fuel s P li = (.ok (), s1) →
          tryMergeNeighbors c o (fuel + 1) s P li = (.ok true, s1))) := by
  have hcL : p.childForPos li = some sep.prevChildBucket := childForPos_of_get? hsep
  constructor
  · intro hnull
    generalize hD : doMergeNeighbors c o fuel = D
    unfold tryMergeNeighbors
    simp only [hP, hsep, hcL, hR]
    have : (sep.prevChildBucket.isNull = true ∨ R.isNull = true) := by
      rcases hnull with h | h
      · exact Or.inl (by rw [h]; rfl)
      · exact Or.inr (by rw [h]; rfl)
    rw [if_pos this]
  · intro l r hL hRn hl hr
    have hn : ¬ (sep.prevChildBucket.isNull = true ∨ R.isNull = true) := by
      unfold DiskLoc.isNull
      simp only [decide_eq_true_eq, not_or]
      exact ⟨hL, hRn⟩
    constructor
    · intro hbig
      generalize hD : doMergeNeighbors c o fuel = D
      unfold tryMergeNeighbors
      simp only [hP, hsep, hcL, hR]
      rw [if_neg hn]
      simp only [hl, hr]
      rw [if_pos hbig]
    · intro hfit s1 hrun
      generalize hD : doMergeNeighbors c o fuel = D at hrun
      unfold tryMergeNeighbors
      simp only [hP, hsep, hcL, hR]
      rw [if_neg hn]
      simp only [hl, hr]
      rw [if_neg hfit]
      simp only [hD, hrun]

end BtreeBucket
end mongo
namespace mongo
namespace BtreeBucket

/-- On a well-formed tree `tryMergeNeighbors` returns, given that
`balanceWithNeighbors` does on the page itself; it leaves a well-formed tree
with the same entries, and the same tree when it returns false. -/
theorem tryMergeNeighbors_spec (c : Layout) (hc : Layout.Sane c) (o : Ordering) (d : Nat)
    (ih : BalanceSpec c o d) {s : State} {g : Ghost} (hinv : GInv c o s g ∅) {P : DiskLoc}
    {p : BtreeBucket} (hP : s.pages P = some p) {li : Nat} (hli : li < p.keys.length)
    (hd : g.rank s.head - g.rank P ≤ d) :
    ∃ res s1 g1, (∀ fuel, 3 * d + 3 ≤ fuel →
        tryMergeNeighbors c o fuel s P li = (.ok res, s1)) ∧
      GInv c o s1 g1 ∅ ∧ Content o s1 = Content o s ∧ (res = false → s1 = s) := by
  obtain ⟨sep, hsep⟩ : ∃ sep, p.keys.get? li = some sep :=
    ⟨p.keys.get ⟨li, hli⟩, List.get?_eq_get hli⟩
  obtain ⟨R, hR⟩ : ∃ R, p.childForPos (li + 1) = some R := by
    unfold childForPos
    by_cases h : li + 1 = p.keys.length
    · exact ⟨_, by rw [if_pos h]⟩
    · rw [if_neg h]
      have h2 : li + 1 < p.keys.length := by omega
      exact ⟨_, by rw [List.get?_eq_get h2]; rfl⟩
  by_cases hnull : sep.prevChildBucket = DiskLoc.Null ∨ R = DiskLoc.Null
  · refine ⟨false, s, g, ?_, hinv, rfl, fun _ => rfl⟩
    intro fuel hf
    obtain ⟨f, rfl⟩ : ∃ f, fuel = f + 1 := ⟨fuel - 1, by omega⟩
    exact (tryMergeNeighbors_cases c o f s P li hP hsep hR).1 hnull
  · rw [not_or] at hnull
    obtain ⟨hL, hRn⟩ := hnull
    obtain ⟨l, r, hl, hr, hlp, hrp, hlr, hrr, hne, hLP, hRP, _⟩ :=
      hinv.merge_children hP hsep hL hR hRn
    by_cases hbig : c.headerSize + packedDataSize c l 0 + packedDataSize c r 0
        + sep.key.objsize + c.slotSize > c.BucketSize
    · refine ⟨false, s, g, ?_, hinv, rfl, fun _ => rfl⟩
      intro fuel hf
      obtain ⟨f, rfl⟩ : ∃ f, fuel = f + 1 := ⟨fuel - 1, by omega⟩
      exact ((tryMergeNeighbors_cases c o f s P li hP hsep hR).2 l r hL hRn hl hr).1 hbig
    · obtain ⟨l1, r1, M, b4, sM, mo⟩ := merge_run c hc o hinv hP hsep hL hR hRn hl hr hbig
      have hcont := mo.content hinv hP hsep hl hr
      by_cases h4 : b4.keys = []
      · obtain ⟨s1, hrun, hinv1, hc1⟩ := merge_collapse hinv hP hsep hL hR hRn hl hr mo h4
        refine ⟨true, s1, _, ?_, hinv1, hc1.trans hcont, fun h => absurd h (by simp)⟩
        intro fuel hf
        obtain ⟨f, rfl⟩ : ∃ f, fuel = f + 1 + 1 := ⟨fuel - 2, by omega⟩
        refine ((tryMergeNeighbors_cases c o (f + 1) s P li hP hsep hR).2 l r hL hRn hl hr).2
          hbig s1 ?_
        rw [mo.run f, if_pos (by rw [h4]; rfl)]
        exact hrun
      · have hinvM := merge_keep hinv hP hsep hL hR hRn hl hr mo h4
        have hLh : sep.prevChildBucket ≠ s.head := hinv.ne_head_of_parent hl hlp hP
        have hdM : (mergeGhost g sep.prevChildBucket R).rank sM.head -
            (mergeGhost g sep.prevChildBucket R).rank P ≤ d := by
          rw [mo.head, mergeGhost_rank_ne g _ R (Ne.symm hLh),
            mergeGhost_rank_ne g _ R (Ne.symm hLP)]
          exact hd
        obtain ⟨s1, g1, hrun, hinv1, hc1⟩ := ih sM _ P b4 hinvM mo.page_P hdM
        refine ⟨true, s1, g1, ?_, hinv1, hc1.trans hcont, fun h => absurd h (by simp)⟩
        intro fuel hf
        obtain ⟨f, rfl⟩ : ∃ f, fuel = f + 1 + 1 := ⟨fuel - 2, by omega⟩
        refine ((tryMergeNeighbors_cases c o (f + 1) s P li hP hsep hR).2 l r hL hRn hl hr).2
          hbig s1 ?_
        rw [mo.run f, if_neg (by
          intro h
          exact h4 (List.length_eq_zero.mp h))]
        exact hrun f (by omega)

/-- The steps of `balanceWithNeighbors` on a page with a parent. -/
theorem balanceWithNeighbors_unfold (c : Layout) (o : Ordering) (fuel : Nat) (s : State)
    (thisLoc : DiskLoc) (b p : BtreeBucket) (idx : Nat) (hb : s.pages thisLoc = some b)
    (hp : b.parent.isNull = false) (hpp : s.pages b.parent = some p)
    (hidx : indexInParent s b thisLoc = .ok idx) :
    balanceWithNeighbors c o (fuel + 1) s thisLoc =
      match (if idx < p.keys.length then tryMergeNeighbors c o fuel s b.parent idx
        else (.ok false, s)) with
      | (.error e, s) => (.error e, s)
      | (.ok true, s) => (.ok (), s)
      | (.ok false, s) =>
        if idx > 0 then
          match tryMergeNeighbors c o fuel s b.parent (idx - 1) with
          | (.error e, s) => (.error e, s)
          | (.ok _, s) => (.ok (), s)
        else (.ok (), s) := by
  generalize hT : tryMergeNeighbors c o fuel = T
  unfold balanceWithNeighbors
  simp only [hb, hp, Bool.false_eq_true, if_false, hpp, hidx, hT]
  try rfl

/-- On a well-formed tree `balanceWithNeighbors` returns and leaves a
well-formed tree with the same entries. -/
theorem balanceWithNeighbors_spec (c : Layout) (hc : Layout.Sane c) (o : Ordering) :
    ∀ d, BalanceSpec c o d := by
  intro d
  induction d with
  | zero =>
    intro s g x b hinv hx hd
    have hxh : x = s.head := by
      by_contra hne
      obtain ⟨pb, hpb, hic⟩ := hinv.link x b hx hne (Set.not_mem_empty _)
      obtain ⟨_, hrk, _⟩ := (hinv.page _ pb hpb).isChild hic (hinv.ne_null hx)
      have := hinv.rank_le _ pb hpb
      omega
    obtain ⟨hb, hhb, hhp, _⟩ := hinv.head
    rw [← hxh, hx] at hhb
    cases hhb
    refine ⟨s, g, ?_, hinv, rfl⟩
    intro fuel hf
    obtain ⟨f, rfl⟩ : ∃ f, fuel = f + 1 := ⟨fuel - 1, by omega⟩
    unfold balanceWithNeighbors
    simp only [hx, hhp, isNull_null, if_true]
  | succ d ih =>
    intro s g x b hinv hx hd
    by_cases hxh : x = s.head
    · obtain ⟨hb, hhb, hhp, _⟩ := hinv.head
      rw [← hxh, hx] at hhb
      cases hhb
      refine ⟨s, g, ?_, hinv, rfl⟩
      intro fuel hf
      obtain ⟨f, rfl⟩ : ∃ f, fuel = f + 1 := ⟨fuel - 1, by omega⟩
      unfold balanceWithNeighbors
      simp only [hx, hhp, isNull_null, if_true]
    · obtain ⟨p, hpp, hic⟩ := hinv.link x b hx hxh (Set.not_mem_empty _)
      obtain ⟨_, hrk, _⟩ := (hinv.page _ p hpp).isChild hic (hinv.ne_null hx)
      have hparn : b.parent ≠ DiskLoc.Null := hinv.ne_null hpp
      have hparnull : b.parent.isNull = false := by
        unfold DiskLoc.isNull
        exact decide_eq_false hparn
      obtain ⟨idx, hidx, hci⟩ := indexInParent_of_child s b x p hparn hpp hic
      have hdP : g.rank s.head - g.rank b.parent ≤ d := by omega
      have hle := childForPos_eq_some_le hci
      -- the attempt with the left sibling
      have hsecond : ∃ s2 g2, (∀ fuel, 3 * d + 3 ≤ fuel →
          (if idx > 0 then
            match tryMergeNeighbors c o fuel s b.parent (idx - 1) with
            | (.error e, s) => (.error e, s)
            | (.ok _, s) => (.ok (), s)
          else ((.ok (), s) : Res Unit)) = (.ok (), s2)) ∧
          GInv c o s2 g2 ∅ ∧ Content o s2 = Content o s := by
        by_cases hpos : idx > 0
        · obtain ⟨res, s2, g2, hrun, hinv2, hc2, _⟩ := tryMergeNeighbors_spec c hc o d ih hinv
            hpp (show idx - 1 < p.keys.length by omega) hdP
          refine ⟨s2, g2, ?_, hinv2, hc2⟩
          intro fuel hf
          rw [if_pos hpos, hrun fuel hf]
        · exact ⟨s, g, fun fuel _ => by rw [if_neg hpos], hinv, rfl⟩
      obtain ⟨s2, g2, hrun2, hinv2, hc2⟩ := hsecond
      by_cases hlt : idx < p.keys.length
      · obtain ⟨res, s1, g1, hrun, hinv1, hc1, hfalse⟩ := tryMergeNeighbors_spec c hc o d ih hinv
          hpp hlt hdP
        cases res with
        | true =>
          refine ⟨s1, g1, ?_, hinv1, hc1⟩
          intro fuel hf
          obtain ⟨f, rfl⟩ : ∃ f, fuel = f + 1 := ⟨fuel - 1, by omega⟩
          rw [balanceWithNeighbors_unfold c o f s x b p idx hx hparnull hpp hidx, if_pos hlt,
            hrun f (by omega)]
        | false =>
          have hs1 := hfalse rfl
          subst hs1
          refine ⟨s2, g2, ?_, hinv2, hc2⟩
          intro fuel hf
          obtain ⟨f, rfl⟩ : ∃ f, fuel = f + 1 := ⟨fuel - 1, by omega⟩
          rw [balanceWithNeighbors_unfold c o f s1 x b p idx hx hparnull hpp hidx, if_pos hlt,
            hrun f (by omega)]
          exact hrun2 f (by omega)
      · refine ⟨s2, g2, ?_, hinv2, hc2⟩
        intro fuel hf
        obtain ⟨f, rfl⟩ : ∃ f, fuel = f + 1 := ⟨fuel - 1, by omega⟩
        rw [balanceWithNeighbors_unfold c o f s x b p idx hx hparnull hpp hidx, if_neg hlt]
        exact hrun2 f (by omega)

end BtreeBucket
end mongo
namespace mongo
namespace BtreeBucket

/-- The entries of a page whose slot at `p` gave way to slots that are not
used. -/
theorem pageEntries_without (o : Ordering) {b b1 : BtreeBucket} {p : Nat} {k : _KeyNode}
    (hs : SortedSlots o b.keys) (hk : b.keys.get? p = some k) (u : List _KeyNode)
    (hu : ∀ x ∈ u, x.isUsed = false)
    (hb1 : b1.keys = b.keys.take p ++ u ++ b.keys.drop (p + 1)) :
    pageEntries o b1 = pageEntries o b \ {k.ekey o} := by
  have hdec := eq_take_cons_drop b.keys p k hk
  have hs2 : SortedSlots o (b.keys.take p ++ k :: b.keys.drop (p + 1)) := by
    rw [← hdec]
    exact hs
  unfold SortedSlots at hs2
  rw [List.pairwise_append] at hs2
  obtain ⟨_, h2, h3⟩ := hs2
  have hA : ∀ x ∈ b.keys.take p, x.ekey o ≠ k.ekey o :=
    fun x hx => ne_of_lt (h3 x hx k (List.mem_cons_self _ _))
  have hC : ∀ x ∈ b.keys.drop (p + 1), x.ekey o ≠ k.ekey o :=
    fun x hx => (ne_of_lt ((List.pairwise_cons.mp h2).1 x hx)).symm
  ext e
  simp only [pageEntries, Set.mem_setOf_eq, Set.mem_diff, Set.mem_singleton_iff]
  constructor
  · rintro ⟨x, hx, hxu, rfl⟩
    rw [hb1, List.mem_append, List.mem_append] at hx
    rcases hx with (h1 | h1) | h1
    · exact ⟨⟨x, List.mem_of_mem_take h1, hxu, rfl⟩, hA x h1⟩
    · rw [hu x h1] at hxu
      cases hxu
    · exact ⟨⟨x, List.mem_of_mem_drop h1, hxu, rfl⟩, hC x h1⟩
  · rintro ⟨⟨x, hx, hxu, rfl⟩, hne⟩
    rw [hdec, List.mem_append, List.mem_cons] at hx
    refine ⟨x, ?_, hxu, rfl⟩
    rw [hb1, List.mem_append, List.mem_append]
    rcases hx with h1 | h1 | h1
    · exact Or.inl (Or.inl h1)
    · rw [h1] at hne
      exact absurd rfl hne
    · exact Or.inr h1

/-- No page other than the page of a slot holds a slot at the place of that
slot. -/
theorem not_mem_contentExcept {c : Layout} {o : Ordering} {s : State} {g : Ghost}
    (h : Inv c o s g) {x : DiskLoc} {b : BtreeBucket} {p : Nat} {k : _KeyNode}
    (hx : s.pages x = some b) (hk : b.keys.get? p = some k) :
    k.ekey o ∉ ContentExcept o s x := by
  rintro ⟨y, yb, hyx, hy, k1, hk1, _, he⟩
  obtain ⟨j, hj⟩ := List.get?_of_mem hk1
  have h1 : slotAt s (y, j) = some k1 := by
    unfold slotAt
    simp only [hy]
    exact hj
  have h2 : slotAt s (x, p) = some k := by
    unfold slotAt
    simp only [hx]
    exact hk
  have := pos_unique h h1 h2 he
  exact hyx (congrArg Prod.fst this)

/-- The entries of the tree after the slot at `p` of one page gave way to slots
that are not used, the other pages keeping their entries. -/
theorem content_remove {c : Layout} {o : Ordering} {s s1 : State} {g : Ghost}
    (h : Inv c o s g) {x : DiskLoc} {b b1 : BtreeBucket} {p : Nat} {k : _KeyNode}
    (hx : s.pages x = some b) (hk : b.keys.get? p = some k) (hx1 : s1.pages x = some b1)
    (u : List _KeyNode) (hu : ∀ y ∈ u, y.isUsed = false)
    (hb1 : b1.keys = b.keys.take p ++ u ++ b.keys.drop (p + 1))
    (hoth : ∀ y, y ≠ x → s1.pages y = s.pages y) :
    Content o s1 = Content o s \ {k.ekey o} := by
  have hce : ContentExcept o s1 x = ContentExcept o s x :=
    contentExcept_congr o s s1 x (fun y hy => by rw [hoth y hy])
  have hsorted : SortedSlots o b.keys := ((GInv.of_inv h).page x b hx).sorted
  rw [content_mapped o s1 hx1, content_mapped o s hx, hce,
    pageEntries_without o hsorted hk u hu hb1]
  have hnot := not_mem_contentExcept h hx hk
  ext e
  simp only [Set.mem_union, Set.mem_diff, Set.mem_singleton_iff]
  constructor
  · rintro (⟨h1, h2⟩ | h1)
    · exact ⟨Or.inl h1, h2⟩
    · refine ⟨Or.inr h1, ?_⟩
      rintro rfl
      exact hnot h1
  · rintro ⟨h1 | h1, h2⟩
    · exact Or.inl ⟨h1, h2⟩
    · exact Or.inr h1

end BtreeBucket
end mongo
namespace mongo
namespace BtreeBucket

theorem set_eq_take_cons_drop {α : Type} (ks : List α) (p : Nat) (k y : α)
    (hk : ks.get? p = some k) : ks.set p y = ks.take p ++ y :: ks.drop (p + 1) :=
  set_take_drop ks p y (List.get?_eq_some.mp hk).1

/-- The tree after a slot was marked unused satisfies the invariant. -/
theorem GInv.mark_unused {c : Layout} {o : Ordering} {s : State} {g : Ghost}
    (h : GInv c o s g ∅) {x : DiskLoc} {b : BtreeBucket} {p : Nat} {k : _KeyNode}
    (hx : s.pages x = some b) (hk : b.keys.get? p = some k) :
    GInv c o (s.put x { b with keys := b.keys.set p k.setUnused }) g ∅ := by
  have hdec := eq_take_cons_drop b.keys p k hk
  have hset := set_eq_take_cons_drop b.keys p k k.setUnused hk
  have hpf0 := h.page x b hx
  have hkm : k ∈ b.keys := List.get?_mem hk
  have hmem : ∀ k1 ∈ b.keys.set p k.setUnused, k1 = k.setUnused ∨ k1 ∈ b.keys := by
    intro k1 hk1
    rw [hset, List.mem_append, List.mem_cons] at hk1
    rcases hk1 with h1 | h1 | h1
    · exact Or.inr (List.mem_of_mem_take h1)
    · exact Or.inl h1
    · exact Or.inr (List.mem_of_mem_drop h1)
  have hlen : (b.keys.set p k.setUnused).length = b.keys.length := List.length_set _ _ _
  refine h.put hx (fun _ => rfl) ?_ ?_ ?_ ?_ ?_ (by simp)
  · refine hpf0.of_mirror rfl ?_ ?_ ?_
    · show SortedSlots o (b.keys.set p k.setUnused)
      rw [hset]
      apply SortedSlots.replace _ (setUnused_ekey o k)
      rw [← hdec]
      exact hpf0.sorted
    · intro k1 hk1
      rcases hmem k1 hk1 with h1 | h1
      · exact ⟨k, hkm, by rw [h1, setUnused_ekey], by rw [h1]; rfl⟩
      · exact ⟨k1, h1, rfl, rfl⟩
    · intro k1 hk1
      rcases hmem k1 hk1 with h1 | h1
      · have := hpf0.rl_valid k hkm
        rw [h1]
        simp only [_KeyNode.setUnused, DiskLoc.setLow]
        constructor
        · exact this.1
        · have h2 := this.2
          omega
      · exact hpf0.rl_valid k1 h1
  · refine (h.sizes x b hx).of_map ?_ rfl rfl rfl
    exact map_set_same (fun k : _KeyNode => k.key) b.keys p k k.setUnused hk rfl
  · intro hne he
    have : (b.keys.set p k.setUnused).length = 0 := by
      change (b.keys.set p k.setUnused) = [] at he
      rw [he]
      rfl
    rw [hlen] at this
    exact h.nonempty x b hx hne (List.length_eq_zero.mp this)
  · intro _ he
    exfalso
    have : (b.keys.set p k.setUnused).length = 0 := by
      change (b.keys.set p k.setUnused) = [] at he
      rw [he]
      rfl
    rw [hlen] at this
    have := (List.get?_eq_some.mp hk).1
    omega
  · rintro ch hchn (h1 | ⟨k0, hk0, hkc⟩)
    · exact Or.inl h1
    · refine Or.inr ?_
      show ∃ k1 ∈ b.keys.set p k.setUnused, k1.prevChildBucket = ch
      rw [hset]
      rw [hdec, List.mem_append, List.mem_cons] at hk0
      rcases hk0 with h1 | h1 | h1
      · exact ⟨k0, List.mem_append_left _ h1, hkc⟩
      · exact ⟨k.setUnused, List.mem_append_right _ (List.mem_cons_self _ _), by
          rw [← hkc, h1]
          rfl⟩
      · exact ⟨k0, List.mem_append_right _ (List.mem_cons_of_mem _ h1), hkc⟩

/-- The tree after a slot without left child was removed from a page that has
other slots, or from a root without children, satisfies the invariant. -/
theorem GInv.erase_slot {c : Layout} (hc : Layout.Sane c) {o : Ordering} {s : State} {g : Ghost}
    (h : GInv c o s g ∅) {x : DiskLoc} {b : BtreeBucket} {p : Nat} {k : _KeyNode}
    (hx : s.pages x = some b) (hk : b.keys.get? p = some k)
    (hnull : k.prevChildBucket = DiskLoc.Null)
    (hcond : 1 < b.keys.length ∨ (x = s.head ∧ b.nextChild = DiskLoc.Null)) :
    GInv c o (s.put x (eraseSlot c b p)) g ∅ := by
  have hdec := eq_take_cons_drop b.keys p k hk
  have hpf0 := h.page x b hx
  have hplt := (List.get?_eq_some.mp hk).1
  have hsub := take_drop_succ_sublist b.keys p
  have hlen := length_take_drop_succ b.keys p hplt
  refine h.put hx (fun _ => rfl) ?_ ?_ ?_ ?_ ?_ (by simp)
  · refine hpf0.of_mirror rfl ?_ ?_ ?_
    · exact List.Pairwise.sublist hsub hpf0.sorted
    · intro k1 hk1
      exact ⟨k1, hsub.subset hk1, rfl, rfl⟩
    · intro k1 hk1
      exact hpf0.rl_valid k1 (hsub.subset hk1)
  · exact (h.sizes x b hx).eraseSlot p hplt (le_of_lt hc.slot_pos)
  · intro hne he
    rcases hcond with h1 | ⟨h1, _⟩
    · have : (b.keys.take p ++ b.keys.drop (p + 1)).length = 0 := by
        change b.keys.take p ++ b.keys.drop (p + 1) = [] at he
        rw [he]
        rfl
      omega
    · exact hne h1
  · intro _ _
    rcases hcond with h1 | ⟨_, h1⟩
    · exfalso
      rename_i he
      have : (b.keys.take p ++ b.keys.drop (p + 1)).length = 0 := by
        change b.keys.take p ++ b.keys.drop (p + 1) = [] at he
        rw [he]
        rfl
      omega
    · exact h1
  · rintro ch hchn (h1 | ⟨k0, hk0, hkc⟩)
    · exact Or.inl h1
    · refine Or.inr ?_
      show ∃ k1 ∈ b.keys.take p ++ b.keys.drop (p + 1), k1.prevChildBucket = ch
      rw [hdec, List.mem_append, List.mem_cons] at hk0
      rcases hk0 with h1 | h1 | h1
      · exact ⟨k0, List.mem_append_left _ h1, hkc⟩
      · rw [h1, hnull] at hkc
        exact absurd hkc.symm hchn
      · exact ⟨k0, List.mem_append_right _ h1, hkc⟩

end BtreeBucket
end mongo
namespace mongo
namespace BtreeBucket

/-- On a well-formed tree `delBucket` on a leaf with one slot, not the root,
returns; it leaves a well-formed tree without the entry of that slot. -/
theorem delBucket_leaf {c : Layout} {o : Ordering} {s : State} {g : Ghost}
    (h : GInv c o s g ∅) {x : DiskLoc} {b : BtreeBucket} {k : _KeyNode}
    (hx : s.pages x = some b) (hkeys : b.keys = [k])
    (hnull : k.prevChildBucket = DiskLoc.Null) (hnext : b.nextChild = DiskLoc.Null)
    (hpar : b.parent ≠ DiskLoc.Null) :
    ∃ s1, delBucket s x = (.ok (), s1) ∧ GInv c o s1 g ∅ ∧
      Content o s1 = Content o s \ {k.ekey o} := by
  have hxn := h.ne_null hx
  have hxh : x ≠ s.head := by
    intro he
    obtain ⟨hb, hhb, hhp, _⟩ := h.head
    rw [← he, hx] at hhb
    cases hhb
    exact hpar hhp
  obtain ⟨pp, hpp, hic⟩ := h.link x b hx hxh (Set.not_mem_empty _)
  obtain ⟨_, hrk, _⟩ := (h.page _ pp hpp).isChild hic hxn
  have hPPx : b.parent ≠ x := by
    intro he
    rw [he] at hrk
    exact lt_irrefl _ hrk
  obtain ⟨idx, hidx, hci⟩ := indexInParent_of_child s b x pp hpar hpp hic
  have hset : ∃ pp1, pp.setChildForPos idx DiskLoc.Null = some pp1 := by
    unfold childForPos at hci
    unfold setChildForPos
    by_cases hi : idx = pp.keys.length
    · exact ⟨_, by rw [if_pos hi]⟩
    · rw [if_neg hi] at hci ⊢
      cases hg : pp.keys.get? idx with
      | none =>
        rw [hg] at hci
        cases hci
      | some k => exact ⟨_, rfl⟩
  obtain ⟨pp1, hpp1⟩ := hset
  obtain ⟨f1, f2, f3, f4, f5, f6, f7, f8, f9, f10, f11, f12⟩ := setChildForPos_facts o
    (h.page _ pp hpp).sorted hci (fun j hj => h.child_inj hpp hj hci hxn) hpp1
  have hparnull : b.parent.isNull = false := by
    unfold DiskLoc.isNull
    exact decide_eq_false hpar
  have hlenpp : pp1.keys.length = pp.keys.length := by
    have := congrArg List.length f5
    simpa using this
  -- the leaf has no child
  have hnochild : ∀ z, IsChild b z → z = DiskLoc.Null := by
    rintro z (h1 | ⟨k0, hk0, hkc⟩)
    · exact h1.symm.trans hnext
    · rw [hkeys, List.mem_singleton] at hk0
      rw [← hkc, hk0]
      exact hnull
  have hnokid : ∀ z bz, s.pages z = some bz → bz.parent ≠ x := by
    intro z bz hz he
    have hzh := h.ne_head_of_parent hz he hx
    obtain ⟨pb, hpb, hicz⟩ := h.link z bz hz hzh (Set.not_mem_empty _)
    rw [he, hx] at hpb
    cases hpb
    exact h.ne_null hz (hnochild z hicz)
  refine ⟨deallocBucket (s.put b.parent pp1) x, ?_, ?_, ?_⟩
  · unfold delBucket
    simp only [hx, hparnull, hidx, hpp, hpp1]
    simp
  -- the pages of the new state
  all_goals
    have hs1x : (deallocBucket (s.put b.parent pp1) x).pages x = none := by
      simp [deallocBucket, State.free_pages]
    have hs1pp : (deallocBucket (s.put b.parent pp1) x).pages b.parent = some pp1 := by
      simp only [deallocBucket, State.free_pages, if_neg hPPx, State.put_pages_same]
    have hs1o : ∀ z, z ≠ x → z ≠ b.parent →
        (deallocBucket (s.put b.parent pp1) x).pages z = s.pages z := by
      intro z h1 h2
      simp only [deallocBucket, State.free_pages, if_neg h1, State.put_pages, if_neg h2]
    have hcls : ∀ z bz, (deallocBucket (s.put b.parent pp1) x).pages z = some bz →
        (z = b.parent ∧ bz = pp1) ∨ (z ≠ x ∧ z ≠ b.parent ∧ s.pages z = some bz) := by
      intro z bz hz
      by_cases hzx : z = x
      · rw [hzx, hs1x] at hz
        cases hz
      by_cases hzp : z = b.parent
      · rw [hzp, hs1pp] at hz
        cases hz
        exact Or.inl ⟨hzp, rfl⟩
      · rw [hs1o z hzx hzp] at hz
        exact Or.inr ⟨hzx, hzp, hz⟩
  · have hold : ∀ z bz, (deallocBucket (s.put b.parent pp1) x).pages z = some bz →
        ∃ bz0, s.pages z = some bz0 := by
      intro z bz hz
      rcases hcls z bz hz with ⟨rfl, _⟩ | ⟨_, _, h3⟩
      · exact ⟨pp, hpp⟩
      · exact ⟨bz, h3⟩
    have hkids : ∀ z bz0, s.pages z = some bz0 → z ≠ x →
        ∀ ch, IsChild bz0 ch → ch ≠ DiskLoc.Null → ch ≠ x →
          (∃ cb, (deallocBucket (s.put b.parent pp1) x).pages ch = some cb ∧ cb.parent = z) ∧
            g.rank ch ≤ g.rank ch ∧ g.lo ch ≤ g.lo ch ∧ g.hi ch ≤ g.hi ch := by
      intro z bz0 hz hzx ch hicz hchn hchx
      obtain ⟨⟨cb, hcb, hcp⟩, _⟩ := (h.page z bz0 hz).isChild hicz hchn
      refine ⟨?_, le_refl _, le_refl _, le_refl _⟩
      by_cases hchp : ch = b.parent
      · rw [hchp, hpp] at hcb
        cases hcb
        exact ⟨pp1, by rw [hchp]; exact hs1pp, by rw [f1]; exact hcp⟩
      · exact ⟨cb, by rw [hs1o ch hchx hchp]; exact hcb, hcp⟩
    refine
      { null_unmapped := ?_
        head := ?_
        page := ?_
        sizes := ?_
        nonempty := ?_
        link := ?_
        float := fun r hr => absurd hr (Set.not_mem_empty r)
        rank_le := ?_
        fresh := ?_ }
    · rw [hs1o _ (Ne.symm hxn) (Ne.symm hpar)]
      exact h.null_unmapped
    · obtain ⟨hb, hhb, hhp, hhe⟩ := h.head
      show ∃ hb, (deallocBucket (s.put b.parent pp1) x).pages s.head = some hb ∧ _
      by_cases hhPP : s.head = b.parent
      · rw [hhPP] at hhb ⊢
        rw [hpp] at hhb
        cases hhb
        refine ⟨pp1, hs1pp, by rw [f1]; exact hhp, ?_⟩
        intro he
        exfalso
        have hk0 : pp.keys = [] := by
          apply List.length_eq_zero.mp
          rw [← hlenpp, he]
          rfl
        have hn0 := hhe hk0
        rcases hic with h6 | ⟨k0, hk0m, _⟩
        · rw [hn0] at h6
          exact hxn h6.symm
        · rw [hk0] at hk0m
          cases hk0m
      · exact ⟨hb, by rw [hs1o _ (Ne.symm hxh) hhPP]; exact hhb, hhp, hhe⟩
    · intro z bz hz
      rcases hcls z bz hz with ⟨rfl, rfl⟩ | ⟨hzx, hzp, hz0⟩
      · refine (h.page _ pp hpp).rewire hxn (fun ch => ch ≠ x) f6 f7 f8 (le_refl _) (le_refl _)
          (le_refl _) (fun hn => absurd rfl hn) ?_
        intro ch hicp hchn hchx
        exact hkids _ pp hpp (Ne.symm hPPx).symm ch hicp hchn hchx
      · refine (h.page z bz hz0).transfer rfl rfl rfl ?_
        intro ch hicz hchn cb hcb hcp
        refine hkids z bz hz0 hzx ch hicz hchn ?_
        rintro rfl
        rw [hx] at hcb
        cases hcb
        exact hzp hcp.symm
    · intro z bz hz
      rcases hcls z bz hz with ⟨rfl, rfl⟩ | ⟨_, _, hz0⟩
      · exact (h.sizes _ pp hpp).of_map f5 f2 f3 f4
      · exact h.sizes z bz hz0
    · intro z bz hz hzh
      change z ≠ s.head at hzh
      rcases hcls z bz hz with ⟨rfl, rfl⟩ | ⟨_, _, hz0⟩
      · intro he
        apply h.nonempty _ pp hpp hzh
        apply List.length_eq_zero.mp
        rw [← hlenpp, he]
        rfl
      · exact h.nonempty z bz hz0 hzh
    · intro z bz hz hzh _
      change z ≠ s.head at hzh
      rcases hcls z bz hz with ⟨rfl, rfl⟩ | ⟨hzx, hzp, hz0⟩
      · obtain ⟨gb, hgb, hgic⟩ := h.link _ pp hpp hzh (Set.not_mem_empty _)
        obtain ⟨_, hrk2, _⟩ := (h.page _ gb hgb).isChild hgic hpar
        rw [f1]
        refine ⟨gb, ?_, hgic⟩
        rw [hs1o _ ?_ ?_]
        · exact hgb
        · intro he
          rw [he, hx] at hgb
          cases hgb
          exact hpar (hnochild _ hgic)
        · intro he
          rw [he] at hrk2
          exact lt_irrefl _ hrk2
      · obtain ⟨pb, hpb, hicz⟩ := h.link z bz hz0 hzh (Set.not_mem_empty _)
        by_cases hqp : bz.parent = b.parent
        · rw [hqp] at hpb ⊢
          rw [hpp] at hpb
          cases hpb
          exact ⟨pp1, hs1pp, f10 z hicz hzx⟩
        · refine ⟨pb, ?_, hicz⟩
          rw [hs1o _ (hnokid z bz hz0) hqp]
          exact hpb
    · intro z bz hz
      obtain ⟨bz0, hz0⟩ := hold z bz hz
      exact h.rank_le z bz0 hz0
    · intro z bz hz
      obtain ⟨bz0, hz0⟩ := hold z bz hz
      exact h.fresh z bz0 hz0
  · have hget : b.keys.get? 0 = some k := by
      rw [hkeys]
      rfl
    have hnot := not_mem_contentExcept h.to_inv hx hget
    ext e
    rw [Set.mem_diff, mem_content, mem_content, Set.mem_singleton_iff]
    constructor
    · rintro ⟨z, bz, hz, k1, hk1, hu, he⟩
      rcases hcls z bz hz with ⟨rfl, rfl⟩ | ⟨hzx, _, hz0⟩
      · obtain ⟨k0, hk0, e1, e2, _⟩ := f7 k1 hk1
        have hu0 := mem_usedEntry_congr o e1 e2 ⟨hu, he⟩
        refine ⟨⟨_, pp, hpp, k0, hk0, hu0⟩, ?_⟩
        rintro rfl
        exact hnot ⟨_, pp, hPPx, hpp, k0, hk0, hu0⟩
      · refine ⟨⟨z, bz, hz0, k1, hk1, hu, he⟩, ?_⟩
        rintro rfl
        exact hnot ⟨z, bz, hzx, hz0, k1, hk1, hu, he⟩
    · rintro ⟨⟨z, bz, hz, k1, hk1, hu, he⟩, hne⟩
      by_cases hzx : z = x
      · rw [hzx, hx] at hz
        cases hz
        rw [hkeys, List.mem_singleton] at hk1
        rw [hk1] at he
        exact absurd he.symm hne
      by_cases hzp : z = b.parent
      · rw [hzp, hpp] at hz
        cases hz
        obtain ⟨k2, hk2, e1, e2⟩ := f12 k1 hk1
        exact ⟨_, pp1, hs1pp, k2, hk2, mem_usedEntry_congr o e1 e2 ⟨hu, he⟩⟩
      · exact ⟨z, bz, by rw [hs1o z hzx hzp]; exact hz, k1, hk1, hu, he⟩

end BtreeBucket
end mongo
namespace mongo
namespace BtreeBucket

/-- The ways of `delKeyAtPos` on a slot without left child. -/
theorem delKeyAtPos_erase_eq (c : Layout) (o : Ordering) (fuel : Nat) (s : State)
    (x : DiskLoc) (p : Nat) (b : BtreeBucket) (k : _KeyNode)
    (hx : s.pages x = some b) (hk : b.keys.get? p = some k)
    (hnull : k.prevChildBucket = DiskLoc.Null) :
    (b.keys.length = 1 → b.nextChild = DiskLoc.Null → b.parent = DiskLoc.Null →
      delKeyAtPos c o fuel s x p = (.ok (), s.put x (eraseSlot c b p))) ∧
    (b.keys.length = 1 → b.nextChild = DiskLoc.Null → b.parent ≠ DiskLoc.Null →
      delKeyAtPos c o fuel s x p = delBucket s x) ∧
    (1 < b.keys.length →
      delKeyAtPos c o fuel s x p = balanceWithNeighbors c o fuel (s.put x (eraseSlot c b p)) x) := by
  have hlt := (List.get?_eq_some.mp hk).1
  have hn : b.n > 0 := by
    unfold n
    omega
  have hknull : k.prevChildBucket.isNull = true := by
    rw [hnull]
    rfl
  refine ⟨?_, ?_, ?_⟩
  · intro h1 h2 h3
    unfold delKeyAtPos
    simp only [hx, hn, not_true_eq_false, if_false, childForPos_of_get? hk, h1, if_true,
      hknull, h2, h3, isNull_null, and_self,
      _delKeyAtPos_eq c b p false k hk hnull (Or.inr (Or.inr h2))]
  · intro h1 h2 h3
    have h3n : b.parent.isNull = false := (DiskLoc.isNull_false_iff _).mpr h3
    unfold delKeyAtPos
    simp only [hx, hn, not_true_eq_false, if_false, childForPos_of_get? hk, h1, if_true,
      hknull, h2, h3n, isNull_null, and_self, Bool.false_eq_true]
  · intro h1
    have hne : ¬ b.keys.length = 1 := by omega
    unfold delKeyAtPos
    simp only [hx, hn, not_true_eq_false, if_false, childForPos_of_get? hk, hne,
      hknull, if_true, _delKeyAtPos_eq c b p false k hk hnull (Or.inr (Or.inl h1))]

/-- On a well-formed tree `delKeyAtPos` on a slot returns, with enough fuel,
and leaves a well-formed tree that has the entries of the tree without the
entry of that slot. -/
theorem delKeyAtPos_spec (c : Layout) (hc : Layout.Sane c) (o : Ordering) {s : State}
    {g : Ghost} (h : GInv c o s g ∅) {x : DiskLoc} {b : BtreeBucket} {p : Nat} {k : _KeyNode}
    (hx : s.pages x = some b) (hk : b.keys.get? p = some k) :
    ∃ s1 g1, (∀ fuel, 3 * g.rank s.head + 1 ≤ fuel →
        delKeyAtPos c o fuel s x p = (.ok (), s1)) ∧
      GInv c o s1 g1 ∅ ∧ Content o s1 = Content o s \ {k.ekey o} := by
  have hlt := (List.get?_eq_some.mp hk).1
  by_cases hmark : k.prevChildBucket ≠ DiskLoc.Null ∨
      (b.keys.length = 1 ∧ b.nextChild ≠ DiskLoc.Null)
  · refine ⟨s.put x { b with keys := b.keys.set p k.setUnused }, g, ?_, h.mark_unused hx hk, ?_⟩
    · intro fuel _
      apply delKeyAtPos_mark_eq c o fuel s x p b k hx hk
      rcases hmark with h1 | ⟨h1, h2⟩
      · exact Or.inl ((DiskLoc.isNull_false_iff _).mpr h1)
      · exact Or.inr ⟨h1, (DiskLoc.isNull_false_iff _).mpr h2⟩
    · refine content_remove h.to_inv hx hk (State.put_pages_same _ _ _) [k.setUnused] ?_ ?_ ?_
      · intro y hy
        rw [List.mem_singleton.mp hy]
        have := setUnused_isUnused k
        simp only [_KeyNode.isUsed, this, Bool.not_true]
      · show b.keys.set p k.setUnused = _
        rw [set_eq_take_cons_drop b.keys p k k.setUnused hk]
        simp
      · intro y hy
        exact State.put_pages_ne _ _ hy
  · rw [not_or, not_and_or] at hmark
    obtain ⟨hnull, hrest⟩ := hmark
    rw [not_not] at hnull
    obtain ⟨e1, e2, e3⟩ := delKeyAtPos_erase_eq c o 0 s x p b k hx hk hnull
    have hcont : ∀ s1 : State, s1 = s.put x (eraseSlot c b p) →
        Content o s1 = Content o s \ {k.ekey o} := by
      intro s1 hs1
      subst hs1
      refine content_remove h.to_inv hx hk (State.put_pages_same _ _ _) [] ?_ ?_ ?_
      · intro y hy
        cases hy
      · show b.keys.take p ++ b.keys.drop (p + 1) = _
        simp
      · intro y hy
        exact State.put_pages_ne _ _ hy
    by_cases hone : b.keys.length = 1
    · have hnext : b.nextChild = DiskLoc.Null := by
        rcases hrest with h1 | h1
        · exact absurd hone h1
        · exact not_not.mp h1
      by_cases hpar : b.parent = DiskLoc.Null
      · have hxh : x = s.head := h.to_inv.head_of_parent_null hx hpar
        refine ⟨s.put x (eraseSlot c b p), g,
          fun fuel _ => (delKeyAtPos_erase_eq c o fuel s x p b k hx hk hnull).1 hone hnext hpar,
          h.erase_slot hc hx hk hnull (Or.inr ⟨hxh, hnext⟩), hcont _ rfl⟩
      · have hkeys : b.keys = [k] := by
          cases hbk : b.keys with
          | nil =>
            rw [hbk] at hone
            cases hone
          | cons a rest =>
            cases rest with
            | nil =>
              rw [hbk] at hk
              cases p with
              | zero =>
                simp only [List.get?_cons_zero, Option.some.injEq] at hk
                rw [hk]
              | succ q =>
                rw [hbk] at hlt
                simp at hlt
            | cons _ _ =>
              rw [hbk] at hone
              simp at hone
        obtain ⟨s1, hrun, hinv1, hc1⟩ := delBucket_leaf h hx hkeys hnull hnext hpar
        refine ⟨s1, g, ?_, hinv1, hc1⟩
        intro fuel _
        rw [(delKeyAtPos_erase_eq c o fuel s x p b k hx hk hnull).2.1 hone hnext hpar]
        exact hrun
    · have hmany : 1 < b.keys.length := by omega
      have hinv1 := h.erase_slot hc hx hk hnull (Or.inl hmany)
      obtain ⟨s1, g1, hrun, hinv2, hc2⟩ := balanceWithNeighbors_spec c hc o (g.rank s.head)
        (s.put x (eraseSlot c b p)) g x (eraseSlot c b p) hinv1 (State.put_pages_same _ _ _)
        (Nat.sub_le _ _)
      refine ⟨s1, g1, ?_, hinv2, hc2.trans (hcont _ rfl)⟩
      intro fuel hf
      rw [(delKeyAtPos_erase_eq c o fuel s x p b k hx hk hnull).2.2 hmany]
      exact hrun fuel hf

end BtreeBucket
end mongo
namespace mongo
namespace BtreeBucket

/-- On a well-formed tree `locate` from the root, going forward, returns the
same result for every fuel above the rank of the root: with `found`, the
position of the slot at the target; without, the tree has no slot at the
target. -/
theorem locate_found {c : Layout} {o : Ordering} {s : State} {g : Ghost} (h : Inv c o s g)
    (key : BSONObj) (recordLoc : DiskLoc) :
    ∃ res, (∀ fuel, g.rank s.head < fuel → locate s key o recordLoc 1 fuel s.head = .ok res) ∧
      (res.2.2 = true → ∃ b k, ∃ i : Nat, s.pages res.1 = some b ∧ res.2.1 = (i : Int) ∧
        b.keys.get? i = some k ∧ k.ekey o = entryKey o key recordLoc) ∧
      (res.2.2 = false →
        ∀ x k, slotAt s x = some k → k.ekey o ≠ entryKey o key recordLoc) := by
  obtain ⟨hb, hhb, _⟩ := h.head
  obtain ⟨res, hres, A, B, hsplit, hA, hB, hmatch⟩ := locate_spec h key recordLoc 1 (by decide)
    (g.rank s.head) s.head hb hhb (le_refl _) (g.rank s.head + 1) (g.rank s.head + 1)
    (by omega) (by omega)
  obtain ⟨_, hsorted, hall, _⟩ := tree_walk (o := o) h (g.rank s.head + 1) (by omega)
  refine ⟨res, ?_, ?_, ?_⟩
  · intro fuel hf
    exact locate_fuel_le s key o recordLoc 1 _ fuel (by omega) s.head res hres
  · intro hfound
    cases B with
    | nil =>
      simp only at hmatch
      rw [hmatch.2] at hfound
      cases hfound
    | cons z rest =>
      simp only at hmatch
      obtain ⟨h1, h2, k, hk, hiff⟩ := hmatch
      obtain ⟨b, hb1, _, hget⟩ := slotAt_mem hk
      exact ⟨b, k, z.2, by rw [h1]; exact hb1, h2, hget, hiff.mp hfound⟩
  · intro hfound x k hk he
    obtain ⟨b, hbx, _, hget⟩ := slotAt_mem hk
    have hmem : x ∈ inorder s (g.rank s.head + 1) s.head :=
      hall x.1 b x.2 hbx (List.get?_eq_some.mp hget).1
    rw [hsplit] at hmem hsorted
    rcases List.mem_append.mp hmem with hxa | hxb
    · exact absurd (he ▸ hA x hxa k hk) (lt_irrefl _)
    · cases B with
      | nil => cases hxb
      | cons z rest =>
        simp only at hmatch
        obtain ⟨_, _, kz, hkz, hiff⟩ := hmatch
        have hzne : kz.ekey o ≠ entryKey o key recordLoc := by
          intro hz
          rw [hiff.mpr hz] at hfound
          cases hfound
        have hzlt : entryKey o key recordLoc < kz.ekey o :=
          lt_of_le_of_ne (hB z (List.mem_cons_self _ _) kz hkz) (Ne.symm hzne)
        rcases List.mem_cons.mp hxb with rfl | hxr
        · rw [hk] at hkz
          cases hkz
          exact hzne he
        · have hpw := (List.pairwise_append.mp hsorted).2.1
          have := (List.pairwise_cons.mp hpw).1 x hxr kz k hkz hk
          rw [he] at this
          exact absurd (lt_trans hzlt this) (lt_irrefl _)

/-- On a well-formed tree `unindex` returns, with enough fuel: true when the
key is within `KeyMax` and the tree has a slot at `(key, recordLoc)`, leaving a
well-formed tree whose entries are those of the tree without that one; and
false otherwise, leaving the tree as it is. -/
theorem unindex_spec (c : Layout) (hc : Layout.Sane c) (o : Ordering) (s : State)
    (hwf : WellFormed c o s) (key : BSONObj) (recordLoc : DiskLoc) :
    ∃ F0 res s1, (∀ fuel, F0 ≤ fuel →
        unindex c o fuel s s.head key recordLoc = (.ok res, s1)) ∧
      WellFormed c o s1 ∧
      (res = true ↔ key.objsize ≤ KeyMax c ∧
        ∃ x k, slotAt s x = some k ∧ k.ekey o = entryKey o key recordLoc) ∧
      (res = true → Content o s1 = Content o s \ {entryKey o key recordLoc}) ∧
      (res = false → s1 = s) ∧
      (key.objsize ≤ KeyMax c → entryKey o key recordLoc ∉ Content o s1) := by
  obtain ⟨g, h⟩ := hwf
  by_cases hbig : key.objsize > KeyMax c
  · refine ⟨0, false, s, ?_, ⟨g, h⟩, ?_, ?_, fun _ => rfl, fun hle => absurd hbig (not_lt.mpr hle)⟩
    · intro fuel _
      unfold unindex
      rw [if_pos hbig]
    · constructor
      · intro hf
        cases hf
      · rintro ⟨hle, _⟩
        exact absurd hbig (not_lt.mpr hle)
    · intro hf
      cases hf
  · obtain ⟨res, hloc, hyes, hno⟩ := locate_found h key recordLoc
    obtain ⟨loc, pos, found⟩ := res
    cases found with
    | false =>
      have hnone := hno rfl
      refine ⟨g.rank s.head + 1, false, s, ?_, ⟨g, h⟩, ?_, ?_, fun _ => rfl, ?_⟩
      · intro fuel hf
        unfold unindex
        rw [if_neg hbig, hloc fuel (by omega)]
        simp
      · constructor
        · intro hf
          cases hf
        · rintro ⟨_, x, k, hk, he⟩
          exact absurd he (hnone x k hk)
      · intro hf
        cases hf
      · rintro _ ⟨l, b, k, hl, hk, _, he⟩
        obtain ⟨i, hi⟩ := List.get?_of_mem hk
        refine hnone (l, i) k ?_ he
        unfold slotAt
        simp only [hl]
        exact hi
    | true =>
      obtain ⟨b, k, i, hb, hpos, hget, he⟩ := hyes rfl
      simp only at hb hpos
      subst hpos
      obtain ⟨s1, g1, hrun, hinv1, hc1⟩ := delKeyAtPos_spec c hc o (GInv.of_inv h) hb hget
      rw [he] at hc1
      refine ⟨3 * g.rank s.head + 1, true, s1, ?_, ⟨g1, hinv1.to_inv⟩, ?_, fun _ => hc1,
        ?_, ?_⟩
      · intro fuel hf
        unfold unindex
        rw [if_neg hbig, hloc fuel (by omega)]
        simp only [if_true]
        rw [if_neg (by omega), Int.toNat_ofNat, hrun fuel hf]
      · constructor
        · intro _
          refine ⟨not_lt.mp hbig, (loc, i), k, ?_, he⟩
          unfold slotAt
          simp only [hb]
          exact hget
        · intro _
          rfl
      · intro hf
        cases hf
      · intro _
        rw [hc1]
        simp

end BtreeBucket
end mongo
namespace mongo
namespace BtreeBucket

/-- The index right after its creation is a well-formed tree without
entries. -/
theorem emptyTree_spec (c : Layout) (hc : Layout.Sane c) (o : Ordering) :
    WellFormed c o (emptyTree c) ∧ Content o (emptyTree c) = ∅ := by
  have heq : emptyTree c = singlePage c (init c) := by
    have hp : ∀ l, (emptyTree c).pages l = (singlePage c (init c)).pages l := by
      intro l
      simp only [emptyTree, addBucket_eq, singlePage, State.put, Function.update_apply]
    have hh : (emptyTree c).head = (singlePage c (init c)).head := rfl
    have ha : (emptyTree c).allocNext = (singlePage c (init c)).allocNext := by
      simp [emptyTree, addBucket_eq, singlePage, State.put]
    exact state_ext hp hh ha
  constructor
  · rw [heq]
    refine wellFormed_singlePage c o (init c) ?_ hc.bucket_pos
    have h1 := sizeAccounting_init c
    have h2 := totalDataSize_pos c hc
    simp only [leafCheck, init, decide_True, Bool.and_self, List.all_nil, ascendingSlots,
      Bool.true_and, Bool.not_true, Bool.false_or, Bool.and_eq_true, decide_eq_true_eq]
    refine ⟨⟨⟨?_, le_of_lt h2⟩, ?_⟩, ?_⟩
    · exact h1
    · exact le_refl _
    · rfl
  · ext e
    rw [mem_content, heq]
    constructor
    · rintro ⟨l, b, hl, k, hk, _⟩
      simp only [singlePage] at hl
      by_cases h0 : l = ⟨0, 0⟩
      · rw [if_pos h0] at hl
        cases hl
        cases hk
      · rw [if_neg h0] at hl
        cases hl
    · intro he
      cases he

/-- A call on a well-formed tree whose entries are those of the record leaves,
with enough fuel, a well-formed tree whose entries are those of the record. -/
theorem stepOp_spec (c : Layout) (hc : Layout.Sane c) (o : Ordering) (s : State)
    (M : List EKey) (hwf : WellFormed c o s) (hM : Content o s = {e | e ∈ M}) (op : Op)
    (hv : op.Valid) :
    ∃ F0 s1 M1, (∀ fuel, F0 ≤ fuel → stepOp c o fuel (s, M) op = (s1, M1)) ∧
      WellFormed c o s1 ∧ Content o s1 = {e | e ∈ M1} := by
  cases op with
  | insert key recordLoc dups =>
    obtain ⟨h1, h2, h3⟩ := hv
    obtain ⟨F0, res, s1, hrun, hwf1, hout, _⟩ :=
      bt_insert_total c hc o s hwf key recordLoc dups ⟨h1, h2⟩ h3
    rcases hout with ⟨hres, _, hcont⟩ | ⟨hres, hs1⟩
    · refine ⟨F0, s1, entryKey o key recordLoc :: M, ?_, hwf1, ?_⟩
      · intro fuel hf
        simp only [stepOp, hrun fuel hf, hres, if_true]
      · rw [hcont, hM]
        ext e
        simp only [Set.mem_union, Set.mem_setOf_eq, Set.mem_singleton_iff, List.mem_cons]
        tauto
    · refine ⟨F0, s1, M, ?_, hwf1, ?_⟩
      · intro fuel hf
        simp only [stepOp, hrun fuel hf]
        cases res with
        | error e => rfl
        | ok v =>
          have hv0 : v ≠ 0 := by
            intro h0
            apply hres
            rw [h0]
          simp only [hv0, if_false]
      · rw [hs1]
        exact hM
  | remove key recordLoc =>
    obtain ⟨F0, res, s1, hrun, hwf1, _, hyes, hno, _⟩ :=
      unindex_spec c hc o s hwf key recordLoc
    cases res with
    | true =>
      refine ⟨F0, s1, M.filter (fun e => decide (e ≠ entryKey o key recordLoc)), ?_, hwf1, ?_⟩
      · intro fuel hf
        simp only [stepOp, hrun fuel hf, if_true]
      · rw [hyes rfl, hM]
        ext e
        simp only [Set.mem_diff, Set.mem_setOf_eq, Set.mem_singleton_iff, List.mem_filter,
          decide_eq_true_eq]
    | false =>
      refine ⟨F0, s1, M, ?_, hwf1, ?_⟩
      · intro fuel hf
        simp only [stepOp, hrun fuel hf]
        rfl
      · rw [hno rfl]
        exact hM

/-- A run of calls from a well-formed tree leaves, with enough fuel, a
well-formed tree whose entries are those of the record. -/
theorem foldl_stepOp_spec (c : Layout) (hc : Layout.Sane c) (o : Ordering) :
    ∀ (ops : List Op) (s : State) (M : List EKey), WellFormed c o s →
      Content o s = {e | e ∈ M} → (∀ op ∈ ops, op.Valid) →
      ∃ F0 s1 M1, (∀ fuel, F0 ≤ fuel → ops.foldl (stepOp c o fuel) (s, M) = (s1, M1)) ∧
        WellFormed c o s1 ∧ Content o s1 = {e | e ∈ M1} := by
  intro ops
  induction ops with
  | nil =>
    intro s M hwf hM _
    exact ⟨0, s, M, fun _ _ => rfl, hwf, hM⟩
  | cons op rest ih =>
    intro s M hwf hM hv
    obtain ⟨F1, s1, M1, hrun1, hwf1, hM1⟩ :=
      stepOp_spec c hc o s M hwf hM op (hv op (List.mem_cons_self _ _))
    obtain ⟨F2, s2, M2, hrun2, hwf2, hM2⟩ :=
      ih s1 M1 hwf1 hM1 (fun x hx => hv x (List.mem_cons_of_mem _ hx))
    refine ⟨max F1 F2, s2, M2, ?_, hwf2, hM2⟩
    intro fuel hf
    rw [List.foldl_cons, hrun1 fuel (le_trans (le_max_left _ _) hf)]
    exact hrun2 fuel (le_trans (le_max_right _ _) hf)

/-- A run of calls from the index right after its creation leaves, with enough
fuel, a well-formed tree whose entries are those of the record. -/
theorem runOps_spec (c : Layout) (hc : Layout.Sane c) (o : Ordering) (ops : List Op)
    (hv : ∀ op ∈ ops, op.Valid) :
    ∃ F0 s1 M1, (∀ fuel, F0 ≤ fuel → runOps c o fuel ops = (s1, M1)) ∧
      WellFormed c o s1 ∧ Content o s1 = {e | e ∈ M1} := by
  obtain ⟨hwf, hcont⟩ := emptyTree_spec c hc o
  exact foldl_stepOp_spec c hc o ops (emptyTree c) [] hwf
    (by rw [hcont]; ext e; simp) hv

end BtreeBucket
end mongo
namespace mongo
namespace BtreeBucket

theorem sampleOps_valid : ∀ op ∈ sampleOps, op.Valid := by
  intro op hop
  simp only [sampleOps, List.mem_cons, List.mem_singleton, List.not_mem_nil, or_false] at hop
  rcases hop with rfl | rfl | rfl | rfl | rfl | rfl <;> simp [Op.Valid]

theorem dupOps_valid : ∀ op ∈ dupOps, op.Valid := by
  intro op hop
  simp only [dupOps, List.mem_cons, List.mem_singleton, List.not_mem_nil, or_false] at hop
  rcases hop with rfl | rfl | rfl <;> simp [Op.Valid]

/-- The subtree of a locator that is not mapped is the locator alone. -/
theorem Below.of_unmapped {s : State} {l q : DiskLoc} (h : Below s l q)
    (hl : s.pages l = none) : q = l := by
  cases h with
  | refl => rfl
  | step _ ch _ b p hb _ _ _ =>
    rw [hl] at hb
    cases hb

/-- In a well-formed tree the slots of the subtree of a child lie inside the
interval of the child. -/
theorem Inv.subtree_within {c : Layout} {o : Ordering} {s : State} {g : Ghost}
    (h : Inv c o s g) {ch q : DiskLoc} (hb : Below s ch q) {bq : BtreeBucket}
    (hq : s.pages q = some bq) {kq : _KeyNode} (hkq : kq ∈ bq.keys) :
    g.lo ch < ((kq.ekey o : EKey) : WithBot EKey) ∧
      ((kq.ekey o : EKey) : WithTop EKey) < g.hi ch := by
  obtain ⟨_, h2, h3, _⟩ := hb.bounds h
  exact ⟨lt_of_le_of_lt h2 ((h.page q bq hq).lo_lt kq hkq),
    lt_of_lt_of_le ((h.page q bq hq).lt_hi kq hkq) h3⟩

/-- In a well-formed tree the slots of the subtree on the left of a slot are
below the slot, and the slots of the subtree of the last child are above every
slot of the page. -/
theorem Inv.subtree_sep {c : Layout} {o : Ordering} {s : State} {g : Ghost}
    (h : Inv c o s g) {l : DiskLoc} {b : BtreeBucket} (hl : s.pages l = some b)
    {k : _KeyNode} (hk : k ∈ b.keys) {q : DiskLoc} {bq : BtreeBucket}
    (hq : s.pages q = some bq) {kq : _KeyNode} (hkq : kq ∈ bq.keys) :
    (Below s k.prevChildBucket q → kq.ekey o < k.ekey o) ∧
      (Below s b.nextChild q → k.ekey o < kq.ekey o) := by
  have hpf := (GInv.of_inv h).page l b hl
  constructor
  · intro hb
    by_cases hn : k.prevChildBucket = DiskLoc.Null
    · have := hb.of_unmapped (by rw [hn]; exact h.null_unmapped)
      rw [this, hn, h.null_unmapped] at hq
      cases hq
    · obtain ⟨_, _, _, _, h5⟩ := hpf.slot_child k hk hn
      have := lt_of_lt_of_le (h.subtree_within hb hq hkq).2 h5
      exact WithTop.coe_lt_coe.mp this
  · intro hb
    by_cases hn : b.nextChild = DiskLoc.Null
    · have := hb.of_unmapped (by rw [hn]; exact h.null_unmapped)
      rw [this, hn, h.null_unmapped] at hq
      cases hq
    · obtain ⟨_, _, _, h4, _⟩ := hpf.next_child hn
      have := lt_of_le_of_lt (h4 k hk) (h.subtree_within hb hq hkq).1
      exact WithBot.coe_lt_coe.mp this

/-- C3: after every run of `bt_insert` and `unindex` calls on an index, from
its creation on (splits, promotions, merges and `replaceWithNextChild`
included), the subtrees are separated: for every slot of every page, the slots
of the subtree of its left child `prevChildBucket` are strictly below the slot
in the order of (key, recordLoc), and the slots of the subtree of `nextChild`
are strictly above every slot of the page, the last one included. The run is
given enough fuel, and the record locators it inserts are locators of
records. -/
theorem subtrees_separated (c : Layout) (hc : Layout.Sane c) (o : Ordering) (ops : List Op)
    (hv : ∀ op ∈ ops, op.Valid) :
    ∃ F0, ∀ fuel, F0 ≤ fuel →
      ∀ l b k, (runOps c o fuel ops).1.pages l = some b → k ∈ b.keys →
        ∀ q bq kq, (runOps c o fuel ops).1.pages q = some bq → kq ∈ bq.keys →
          (Below (runOps c o fuel ops).1 k.prevChildBucket q → kq.ekey o < k.ekey o) ∧
          (Below (runOps c o fuel ops).1 b.nextChild q → k.ekey o < kq.ekey o) := by
  obtain ⟨F0, s1, M1, hrun, ⟨g, hinv⟩, _⟩ := runOps_spec c hc o ops hv
  refine ⟨F0, fun fuel hf => ?_⟩
  rw [hrun fuel hf]
  intro l b k hl hk q bq kq hq hkq
  exact hinv.subtree_sep hl hk hq hkq

theorem subtrees_separated_witness :
    (∀ op ∈ sampleOps, op.Valid) ∧
    ∃ F0, ∀ fuel, F0 ≤ fuel →
      ∀ l b k, (runOps smallLayout ascending fuel sampleOps).1.pages l = some b → k ∈ b.keys →
        ∀ q bq kq, (runOps smallLayout ascending fuel sampleOps).1.pages q = some bq →
          kq ∈ bq.keys →
          (Below (runOps smallLayout ascending fuel sampleOps).1 k.prevChildBucket q →
            kq.ekey ascending < k.ekey ascending) ∧
          (Below (runOps smallLayout ascending fuel sampleOps).1 b.nextChild q →
            k.ekey ascending < kq.ekey ascending) :=
  ⟨sampleOps_valid,
    subtrees_separated smallLayout smallLayout_sane ascending sampleOps sampleOps_valid⟩

/-- C5: after every run of `bt_insert` and `unindex` calls on an index, from
its creation on (splits that move children to a new sibling or make a new root,
and merges, included), for every page `l` other than the root,
`indexInParent` returns an index `idx` between 0 and the number of slots of the
parent, and the child of the parent at `idx` is `l`, the index `n` standing for
`nextChild`. The run is given enough fuel, and the record locators it inserts
are locators of records. -/
theorem parent_back_pointer (c : Layout) (hc : Layout.Sane c) (o : Ordering) (ops : List Op)
    (hv : ∀ op ∈ ops, op.Valid) :
    ∃ F0, ∀ fuel, F0 ≤ fuel →
      ∀ l b, Below (runOps c o fuel ops).1 (runOps c o fuel ops).1.head l →
        (runOps c o fuel ops).1.pages l = some b → l ≠ (runOps c o fuel ops).1.head →
        ∃ pb idx, (runOps c o fuel ops).1.pages b.parent = some pb ∧
          indexInParent (runOps c o fuel ops).1 b l = .ok idx ∧ idx ≤ pb.keys.length ∧
          pb.childForPos idx = some l := by
  obtain ⟨F0, s1, M1, hrun, ⟨g, hinv⟩, _⟩ := runOps_spec c hc o ops hv
  refine ⟨F0, fun fuel hf => ?_⟩
  rw [hrun fuel hf]
  intro l b _ hl hne
  have hg := GInv.of_inv hinv
  obtain ⟨pb, hpb, hic⟩ := hg.link l b hl hne (Set.not_mem_empty _)
  obtain ⟨idx, hidx, hci⟩ := indexInParent_of_child s1 b l pb (hg.ne_null hpb) hpb hic
  exact ⟨pb, idx, hpb, hidx, childForPos_eq_some_le hci, hci⟩

theorem parent_back_pointer_witness :
    (∀ op ∈ sampleOps, op.Valid) ∧
    ∃ F0, ∀ fuel, F0 ≤ fuel →
      ∀ l b, Below (runOps smallLayout ascending fuel sampleOps).1
          (runOps smallLayout ascending fuel sampleOps).1.head l →
        (runOps smallLayout ascending fuel sampleOps).1.pages l = some b →
        l ≠ (runOps smallLayout ascending fuel sampleOps).1.head →
        ∃ pb idx, (runOps smallLayout ascending fuel sampleOps).1.pages b.parent = some pb ∧
          indexInParent (runOps smallLayout ascending fuel sampleOps).1 b l = .ok idx ∧
          idx ≤ pb.keys.length ∧ pb.childForPos idx = some l :=
  ⟨sampleOps_valid,
    parent_back_pointer smallLayout smallLayout_sane ascending sampleOps sampleOps_valid⟩

/-- C6: after every run of `bt_insert` and `unindex` calls on an index, from
its creation on (root splits and `replaceWithNextChild` on an emptied root
included), `idx.head` is a page with a null parent, and it is the only one:
every page is in the subtree of the head, and a page of that subtree has a null
parent exactly when it is the head. The run is given enough fuel, and the record
locators it inserts are locators of records. -/
theorem root_unique (c : Layout) (hc : Layout.Sane c) (o : Ordering) (ops : List Op)
    (hv : ∀ op ∈ ops, op.Valid) :
    ∃ F0, ∀ fuel, F0 ≤ fuel →
      (∃ hb, (runOps c o fuel ops).1.pages (runOps c o fuel ops).1.head = some hb ∧
        hb.parent = DiskLoc.Null) ∧
      (∀ l b, (runOps c o fuel ops).1.pages l = some b →
        Below (runOps c o fuel ops).1 (runOps c o fuel ops).1.head l) ∧
      ∀ l b, Below (runOps c o fuel ops).1 (runOps c o fuel ops).1.head l →
        (runOps c o fuel ops).1.pages l = some b →
        (b.parent = DiskLoc.Null ↔ l = (runOps c o fuel ops).1.head) := by
  obtain ⟨F0, s1, M1, hrun, ⟨g, hinv⟩, _⟩ := runOps_spec c hc o ops hv
  refine ⟨F0, fun fuel hf => ?_⟩
  rw [hrun fuel hf]
  obtain ⟨hb, hhb, hhp, _⟩ := hinv.head
  refine ⟨⟨hb, hhb, hhp⟩, fun l b hl => hinv.reachable hl, ?_⟩
  intro l b _ hl
  constructor
  · intro hp
    exact hinv.head_of_parent_null hl hp
  · intro he
    rw [he, hhb] at hl
    cases hl
    exact hhp

theorem root_unique_witness :
    (∀ op ∈ sampleOps, op.Valid) ∧
    ∃ F0, ∀ fuel, F0 ≤ fuel →
      (∃ hb, (runOps smallLayout ascending fuel sampleOps).1.pages
          (runOps smallLayout ascending fuel sampleOps).1.head = some hb ∧
        hb.parent = DiskLoc.Null) ∧
      (∀ l b, (runOps smallLayout ascending fuel sampleOps).1.pages l = some b →
        Below (runOps smallLayout ascending fuel sampleOps).1
          (runOps smallLayout ascending fuel sampleOps).1.head l) ∧
      ∀ l b, Below (runOps smallLayout ascending fuel sampleOps).1
          (runOps smallLayout ascending fuel sampleOps).1.head l →
        (runOps smallLayout ascending fuel sampleOps).1.pages l = some b →
        (b.parent = DiskLoc.Null ↔ l = (runOps smallLayout ascending fuel sampleOps).1.head) :=
  ⟨sampleOps_valid, root_unique smallLayout smallLayout_sane ascending sampleOps sampleOps_valid⟩

end BtreeBucket
end mongo
namespace mongo
namespace BtreeBucket

theorem usedAt_append (s : State) (A B : List (DiskLoc × Nat)) :
    usedAt s (A ++ B) = usedAt s A ++ usedAt s B := by
  induction A with
  | nil => rfl
  | cons y ys ih =>
    simp only [List.cons_append, usedAt]
    cases slotAt s y with
    | none => exact ih
    | some k =>
      by_cases hu : k.isUsed = true
      · simp only [hu, if_true, List.cons_append]
        exact congrArg _ ih
      · simp only [hu, if_false, Bool.false_eq_true]
        exact ih

theorem usedAt_reverse (s : State) (L : List (DiskLoc × Nat)) :
    usedAt s L.reverse = (usedAt s L).reverse := by
  induction L with
  | nil => rfl
  | cons y ys ih =>
    rw [List.reverse_cons, usedAt_append, ih]
    simp only [usedAt]
    cases slotAt s y with
    | none => simp
    | some k =>
      by_cases hu : k.isUsed = true
      · simp [hu]
      · simp [hu]

/-- The walk of a cursor along a chain of `advance` steps in one direction
yields the used slots of the chain. -/
theorem walk_chain {s : State} {N : Nat} (direction : Int) :
    ∀ (B : List (DiskLoc × Nat)) (z : DiskLoc × Nat),
      Chain (fun x r => ∀ F, N < F →
        advance F s x.1 (x.2 : Int) direction = .ok (exitResult (x.2 : Int) r)) z B none →
      (∀ y ∈ z :: B, ∃ k, slotAt s y = some k) → z.1 ≠ DiskLoc.Null →
      (∀ y ∈ B, y.1 ≠ DiskLoc.Null) →
      ∀ fuel, N + B.length + 1 < fuel →
        walk s direction fuel z.1 (z.2 : Int) = .ok (usedAt s (z :: B)) := by
  intro B
  induction B with
  | nil =>
    intro z hc hv hz _ fuel hf
    obtain ⟨k, hk⟩ := hv z (List.mem_cons_self _ _)
    cases fuel with
    | zero => omega
    | succ fuel =>
      have hzn : z.1.isNull = false := (DiskLoc.isNull_false_iff _).mpr hz
      rw [walk, hzn]
      simp only [Bool.false_eq_true, if_false]
      have hk1 := hk
      unfold slotAt at hk
      cases hp : s.pages z.1 with
      | none => rw [hp] at hk; cases hk
      | some b =>
        rw [hp] at hk
        simp only at hk
        simp only
        rw [if_neg (by omega)]
        simp only [Int.toNat_ofNat, hk]
        have := hc fuel (by omega)
        rw [this]
        simp only [exitResult]
        cases fuel with
        | zero => omega
        | succ fuel =>
          simp only [walk, isNull_null, if_true, usedAt, hk1]
  | cons y B ih =>
    intro z hc hv hz hB fuel hf
    obtain ⟨k, hk⟩ := hv z (List.mem_cons_self _ _)
    cases fuel with
    | zero => omega
    | succ fuel =>
      have hzn : z.1.isNull = false := (DiskLoc.isNull_false_iff _).mpr hz
      rw [walk, hzn]
      simp only [Bool.false_eq_true, if_false]
      have hk1 := hk
      unfold slotAt at hk
      cases hp : s.pages z.1 with
      | none => rw [hp] at hk; cases hk
      | some b =>
        rw [hp] at hk
        simp only at hk
        simp only
        rw [if_neg (by omega)]
        simp only [Int.toNat_ofNat, hk]
        obtain ⟨hstep, hrest⟩ := hc
        have := hstep fuel (by simp only [List.length_cons] at hf; omega)
        rw [this]
        simp only [exitResult]
        rw [ih y hrest (fun w hw => hv w (List.mem_cons_of_mem _ hw))
          (hB y (List.mem_cons_self _ _)) (fun w hw => hB w (List.mem_cons_of_mem _ hw)) fuel
          (by simp only [List.length_cons] at hf; omega)]
        simp only [usedAt, hk1]

/-- The in-order list of a root without slots is empty. -/
theorem inorder_empty_root {c : Layout} {o : Ordering} {s : State} {g : Ghost}
    (h : Inv c o s g) {hb : BtreeBucket} (hhb : s.pages s.head = some hb) (hk : hb.keys = [])
    (F : Nat) : inorder s F s.head = [] := by
  obtain ⟨hb1, hhb1, _, hemp⟩ := h.head
  rw [hhb] at hhb1
  cases hhb1
  cases F with
  | zero => rfl
  | succ F =>
    rw [inorder_succ_mapped s F s.head hb (h.ne_null_of_mapped hhb) hhb, hk, hemp hk,
      inorder_null]
    rfl

/-- On a well-formed tree the full walk forward yields the used slots of the
in-order list of the tree, and the full walk backward yields them in the
reverse order. -/
theorem traverse_spec {c : Layout} {o : Ordering} {s : State} {g : Ghost} (h : Inv c o s g) :
    ∃ N L, (∀ F, g.rank s.head < F → inorder s F s.head = L) ∧
      (∀ fuel, N ≤ fuel → traverse s 1 fuel = .ok (usedAt s L)) ∧
      (∀ fuel, N ≤ fuel → traverse s (-1) fuel = .ok (usedAt s L).reverse) := by
  obtain ⟨hb, hhb, hpar, hemp⟩ := h.head
  have hfuel := inorder_fuel h (g.rank s.head) s.head hb hhb (le_refl _)
  obtain ⟨hall, _, _, _⟩ := tree_walk (o := o) h (g.rank s.head + 1) (by omega)
  have hne : ∀ y ∈ inorder s (g.rank s.head + 1) s.head, y.1 ≠ DiskLoc.Null := by
    intro y hy
    obtain ⟨k, hk⟩ := hall y hy
    exact slotAt_page_ne_null h hk
  refine ⟨g.rank s.head + (inorder s (g.rank s.head + 1) s.head).length + 2,
    inorder s (g.rank s.head + 1) s.head, fun F hF => hfuel F _ hF (by omega), ?_, ?_⟩
  · intro fuel hf
    by_cases hk : hb.keys = []
    · rw [inorder_empty_root h hhb hk]
      unfold traverse
      simp only [hhb, hk, List.length_nil, if_true, usedAt]
    · obtain ⟨x, rest, hL, hdown, hchain⟩ := walk_fwd h (g.rank s.head) s.head hb hhb (le_refl _)
        hk (g.rank s.head + 1) (by omega)
      have hc := hchain none (ExitFwd.root s.head hb hhb hpar)
      rw [hL] at hall hne hf ⊢
      have hlen : hb.keys.length ≠ 0 := fun h0 => hk (List.length_eq_zero.mp h0)
      unfold traverse
      simp only [hhb, hlen, if_false]
      rw [if_neg (by decide), hdown fuel (by omega)]
      simp only
      exact walk_chain 1 rest x hc hall (hne x (List.mem_cons_self _ _))
        (fun y hy => hne y (List.mem_cons_of_mem _ hy)) fuel
        (by simp only [List.length_cons] at hf; omega)
  · intro fuel hf
    by_cases hk : hb.keys = []
    · rw [inorder_empty_root h hhb hk]
      unfold traverse
      simp only [hhb, hk, List.length_nil, if_true, usedAt, List.reverse_nil]
    · obtain ⟨x, rest, hL, hdown, hchain⟩ := walk_bwd h (g.rank s.head) s.head hb hhb (le_refl _)
        hk (g.rank s.head + 1) (by omega)
      have hc := hchain none (ExitBwd.root s.head hb hhb hpar)
      have hlen : hb.keys.length ≠ 0 := fun h0 => hk (List.length_eq_zero.mp h0)
      have hlen2 : rest.length + 1 = (inorder s (g.rank s.head + 1) s.head).length := by
        have := congrArg List.length hL
        simpa using this.symm
      have hmem : ∀ y ∈ x :: rest, y ∈ inorder s (g.rank s.head + 1) s.head := by
        intro y hy
        rw [← hL] at hy
        exact List.mem_reverse.mp hy
      unfold traverse
      simp only [hhb, hlen, if_false]
      rw [if_pos (by decide), hdown fuel (by omega)]
      simp only
      rw [← usedAt_reverse, hL]
      exact walk_chain (-1) rest x hc (fun y hy => hall y (hmem y hy))
        (hne x (hmem x (List.mem_cons_self _ _)))
        (fun y hy => hne y (hmem y (List.mem_cons_of_mem _ hy))) fuel (by omega)

end BtreeBucket
end mongo
namespace mongo
namespace BtreeBucket

theorem usedAt_mem (s : State) (L : List (DiskLoc × Nat)) (kr : BSONObj × DiskLoc) :
    kr ∈ usedAt s L ↔ ∃ y ∈ L, ∃ k, slotAt s y = some k ∧ k.isUsed = true ∧
      (k.key, k.recordLoc) = kr := by
  induction L with
  | nil => simp [usedAt]
  | cons y ys ih =>
    simp only [usedAt, List.mem_cons, exists_eq_or_imp]
    cases hy : slotAt s y with
    | none =>
      simp only [ih]
      constructor
      · intro h
        exact Or.inr h
      · rintro (⟨k, hk, _⟩ | h)
        · cases hk
        · exact h
    | some k =>
      by_cases hu : k.isUsed = true
      · simp only [hu, if_true, List.mem_cons, ih, Option.some.injEq]
        constructor
        · rintro (h | h)
          · exact Or.inl ⟨k, rfl, hu, h.symm⟩
          · exact Or.inr h
        · rintro (⟨k1, hk1, _, h⟩ | h)
          · rw [hk1]
            exact Or.inl h.symm
          · exact Or.inr h
      · simp only [hu, if_false, ih, Option.some.injEq, Bool.false_eq_true]
        constructor
        · intro h
          exact Or.inr h
        · rintro (⟨k1, hk1, hu1, _⟩ | h)
          · rw [← hk1] at hu1
            exact absurd hu1 hu
          · exact h

/-- The entry of a used slot is the position of the slot in the index order. -/
theorem entryKey_of_used (o : Ordering) {k : _KeyNode} (h : k.isUsed = true) :
    entryKey o k.key k.recordLoc = k.ekey o := by
  have heven : k.recordLoc.ofs % 2 = 0 := by
    simp only [_KeyNode.isUsed, _KeyNode.isUnused, Bool.not_eq_true', decide_eq_false_iff_not]
      at h
    omega
  unfold _KeyNode.ekey
  rw [clearLow_of_even heven]

/-- The entries of the used slots along a list of ascending positions ascend
strictly. -/
theorem usedAt_sorted (o : Ordering) (s : State) :
    ∀ L : List (DiskLoc × Nat), L.Pairwise (PosLt o s) →
      ((usedAt s L).map (fun kr => entryKey o kr.1 kr.2)).Pairwise (· < ·) := by
  intro L
  induction L with
  | nil =>
    intro _
    exact List.Pairwise.nil
  | cons y ys ih =>
    intro hp
    obtain ⟨hy, hys⟩ := List.pairwise_cons.mp hp
    simp only [usedAt]
    cases hsl : slotAt s y with
    | none => exact ih hys
    | some k =>
      by_cases hu : k.isUsed = true
      · simp only [hu, if_true, List.map_cons]
        refine List.Pairwise.cons ?_ (ih hys)
        intro e he
        obtain ⟨kr, hkr, rfl⟩ := List.mem_map.mp he
        obtain ⟨z, hz, k1, hk1, hu1, rfl⟩ := (usedAt_mem s ys kr).mp hkr
        simp only
        rw [entryKey_of_used o hu, entryKey_of_used o hu1]
        exact hy z hz k k1 hsl hk1
      · simp only [hu, if_false, Bool.false_eq_true]
        exact ih hys

/-- On a well-formed tree the entries of the used slots along the in-order list
are the entries of the tree. -/
theorem usedAt_content {c : Layout} {o : Ordering} {s : State} {g : Ghost} (h : Inv c o s g)
    {L : List (DiskLoc × Nat)} (hL : ∀ F, g.rank s.head < F → inorder s F s.head = L)
    (e : EKey) :
    e ∈ (usedAt s L).map (fun kr => entryKey o kr.1 kr.2) ↔ e ∈ Content o s := by
  obtain ⟨_, _, hall, _⟩ := tree_walk (o := o) h (g.rank s.head + 1) (by omega)
  rw [hL _ (by omega)] at hall
  constructor
  · intro he
    obtain ⟨kr, hkr, rfl⟩ := List.mem_map.mp he
    obtain ⟨z, _, k, hk, hu, rfl⟩ := (usedAt_mem s L kr).mp hkr
    obtain ⟨b, hb, hkm, _⟩ := slotAt_mem hk
    simp only
    rw [entryKey_of_used o hu]
    exact mem_content_of_used hb hkm hu
  · rintro ⟨l, b, k, hl, hk, hu, rfl⟩
    obtain ⟨i, hi⟩ := List.get?_of_mem hk
    refine List.mem_map.mpr ⟨(k.key, k.recordLoc), ?_, entryKey_of_used o hu⟩
    refine (usedAt_mem s L _).mpr ⟨(l, i), hall l b i hl (List.get?_eq_some.mp hi).1, k, ?_, hu,
      rfl⟩
    unfold slotAt
    simp only [hl]
    exact hi

/-- The full walks of a well-formed tree: forward, the entries of the tree in
strictly ascending order; backward, the same in the reverse order. -/
theorem traverse_content (c : Layout) (o : Ordering) (s : State) (hwf : WellFormed c o s) :
    ∃ N W, (∀ fuel, N ≤ fuel → traverse s 1 fuel = .ok W) ∧
      (∀ fuel, N ≤ fuel → traverse s (-1) fuel = .ok W.reverse) ∧
      (W.map (fun kr => entryKey o kr.1 kr.2)).Pairwise (· < ·) ∧
      ∀ e, e ∈ W.map (fun kr => entryKey o kr.1 kr.2) ↔ e ∈ Content o s := by
  obtain ⟨g, h⟩ := hwf
  obtain ⟨N, L, hL, hfwd, hbwd⟩ := traverse_spec h
  obtain ⟨_, hsorted, _, _⟩ := tree_walk (o := o) h (g.rank s.head + 1) (by omega)
  rw [hL _ (by omega)] at hsorted
  exact ⟨N, usedAt s L, hfwd, hbwd, usedAt_sorted o s L hsorted, usedAt_content h hL⟩

end BtreeBucket
end mongo
namespace mongo
namespace BtreeBucket

/-- Neighbouring slots in the order of the index, in terms of the comparisons
of the code: the keys compare `<= 0`, and when they compare equal the record
locator of the first is below that of the second. -/
theorem adjacent_of_ekey_lt (o : Ordering) {k k1 : _KeyNode} (h : k.ekey o < k1.ekey o) :
    k.key.woCompare k1.key o ≤ 0 ∧
      (k.key.woCompare k1.key o = 0 → k.recordLoc.compare k1.recordLoc < 0) := by
  refine ⟨woCompare_le_of_ekey_lt o h, ?_⟩
  intro h0
  rw [EKey.lt_iff] at h
  have hf := (woCompare_eq_iff o k.key k1.key).mp h0
  rw [(DiskLoc.compare_sign _ _).1]
  rcases h with h | ⟨_, h⟩
  · simp only [_KeyNode.ekey, entryKey] at h
    rw [hf] at h
    exact absurd h (lt_irrefl _)
  · simp only [_KeyNode.ekey, entryKey, DiskLoc.clearLow] at h
    omega

/-- C2: after every run of `bt_insert` and `unindex` calls on an index, from
its creation on, every page has its slots strictly ascending by (key,
recordLoc) under the ordering: neighbouring slots have keys that compare
`<= 0`, and when the keys compare equal the record locator of slot `i` is below
that of slot `i + 1`. So the key `{a: 1}` stored at the records `(1,10)`,
`(1,30)`, `(1,20)`, in that order and with duplicates allowed, is walked as
`(1,10)`, `(1,20)`, `(1,30)`. The run is given enough fuel, and the record
locators inserted are locators of records. -/
theorem page_order_preserved (c : Layout) (hc : Layout.Sane c) (o : Ordering) (ops : List Op)
    (hv : ∀ op ∈ ops, op.Valid) :
    (∃ F0, ∀ fuel, F0 ≤ fuel →
      ∀ l b, (runOps c o fuel ops).1.pages l = some b →
        SortedSlots o b.keys ∧
        ∀ i k k1, b.keys.get? i = some k → b.keys.get? (i + 1) = some k1 →
          k.key.woCompare k1.key o ≤ 0 ∧
          (k.key.woCompare k1.key o = 0 → k.recordLoc.compare k1.recordLoc < 0)) ∧
    traverse (runOps smallLayout ascending 20 dupOps).1 1 20 =
      .ok [(sampleKey 1 10, ⟨1, 10⟩), (sampleKey 1 10, ⟨1, 20⟩), (sampleKey 1 10, ⟨1, 30⟩)] := by
  constructor
  · obtain ⟨F0, s1, M1, hrun, ⟨g, hinv⟩, _⟩ := runOps_spec c hc o ops hv
    refine ⟨F0, fun fuel hf => ?_⟩
    rw [hrun fuel hf]
    intro l b hl
    have hs := (hinv.page l b hl).sorted
    refine ⟨hs, ?_⟩
    intro i k k1 hk hk1
    exact adjacent_of_ekey_lt o (hs.get?_lt (Nat.lt_succ_self i) hk hk1)
  · rfl

theorem page_order_preserved_witness :
    (∀ op ∈ sampleOps, op.Valid) ∧
    ((∃ F0, ∀ fuel, F0 ≤ fuel →
      ∀ l b, (runOps smallLayout ascending fuel sampleOps).1.pages l = some b →
        SortedSlots ascending b.keys ∧
        ∀ i k k1, b.keys.get? i = some k → b.keys.get? (i + 1) = some k1 →
          k.key.woCompare k1.key ascending ≤ 0 ∧
          (k.key.woCompare k1.key ascending = 0 → k.recordLoc.compare k1.recordLoc < 0)) ∧
    traverse (runOps smallLayout ascending 20 dupOps).1 1 20 =
      .ok [(sampleKey 1 10, ⟨1, 10⟩), (sampleKey 1 10, ⟨1, 20⟩), (sampleKey 1 10, ⟨1, 30⟩)]) :=
  ⟨sampleOps_valid,
    page_order_preserved smallLayout smallLayout_sane ascending sampleOps sampleOps_valid⟩

end BtreeBucket
end mongo
namespace mongo
namespace BtreeBucket

/-- C11: on a well-formed tree `unindex(key, recordLoc)`, given enough fuel,
returns true exactly when the key is within `KeyMax` and `locate` finds (key,
recordLoc), which it does exactly when the tree has a slot at (key, recordLoc);
it then is `delKeyAtPos` on the page and position that `locate` found, it
leaves a well-formed tree, and the pair is not among the used entries of the
full walk of that tree, which has the other entries as before. Otherwise (not
found, or a key larger than `KeyMax`) it returns false and leaves the state as
it is. -/
theorem unindex_removes (c : Layout) (hc : Layout.Sane c) (o : Ordering) (s : State)
    (hwf : WellFormed c o s) (key : BSONObj) (recordLoc : DiskLoc) :
    ∃ F0 res s1 loc pos found W,
      (∀ fuel, F0 ≤ fuel → locate s key o recordLoc 1 fuel s.head = .ok (loc, pos, found)) ∧
      (found = true ↔ ∃ x k, slotAt s x = some k ∧ k.ekey o = entryKey o key recordLoc) ∧
      (∀ fuel, F0 ≤ fuel → unindex c o fuel s s.head key recordLoc = (.ok res, s1)) ∧
      (res = true ↔ found = true ∧ key.objsize ≤ KeyMax c) ∧
      (res = true →
        (∀ fuel, F0 ≤ fuel → delKeyAtPos c o fuel s loc pos.toNat = (.ok (), s1)) ∧
        (∃ k, slotAt s (loc, pos.toNat) = some k ∧ k.ekey o = entryKey o key recordLoc) ∧
        WellFormed c o s1 ∧
        (∀ fuel, F0 ≤ fuel → traverse s1 1 fuel = .ok W) ∧
        (∀ kr ∈ W, entryKey o kr.1 kr.2 ≠ entryKey o key recordLoc) ∧
        (∀ e, e ≠ entryKey o key recordLoc →
          (e ∈ W.map (fun kr => entryKey o kr.1 kr.2) ↔ e ∈ Content o s))) ∧
      (res = false → s1 = s) := by
  obtain ⟨g, h⟩ := hwf
  obtain ⟨res, hloc, hyes, hno⟩ := locate_found h key recordLoc
  obtain ⟨loc, pos, found⟩ := res
  have hfound : found = true ↔
      ∃ x k, slotAt s x = some k ∧ k.ekey o = entryKey o key recordLoc := by
    constructor
    · intro hf
      obtain ⟨b, k, i, hb, hpos, hget, he⟩ := hyes hf
      simp only at hb hpos
      refine ⟨(loc, i), k, ?_, he⟩
      unfold slotAt
      simp only [hb]
      exact hget
    · rintro ⟨x, k, hk, he⟩
      cases found with
      | true => rfl
      | false => exact absurd he (hno rfl x k hk)
  by_cases hgo : found = true ∧ key.objsize ≤ KeyMax c
  · obtain ⟨hf, hsz⟩ := hgo
    subst hf
    obtain ⟨b, k, i, hb, hpos, hget, he⟩ := hyes rfl
    simp only at hb hpos
    subst hpos
    obtain ⟨s1, g1, hrun, hinv1, hc1⟩ := delKeyAtPos_spec c hc o (GInv.of_inv h) hb hget
    rw [he] at hc1
    obtain ⟨N, W, hfwd, _, _, hmem⟩ := traverse_content c o s1 ⟨g1, hinv1.to_inv⟩
    refine ⟨max (3 * g.rank s.head + 1) N, true, s1, loc, (i : Int), true, W, ?_, hfound, ?_,
      ?_, ?_, ?_⟩
    · intro fuel hfu
      exact hloc fuel (by have := le_trans (le_max_left _ _) hfu; omega)
    · intro fuel hfu
      have hfu1 := le_trans (le_max_left _ _) hfu
      unfold unindex
      rw [if_neg (not_lt.mpr hsz), hloc fuel (by omega)]
      simp only [if_true]
      rw [if_neg (by omega), Int.toNat_ofNat, hrun fuel hfu1]
    · exact ⟨fun _ => ⟨rfl, hsz⟩, fun _ => rfl⟩
    · intro _
      refine ⟨?_, ?_, ⟨g1, hinv1.to_inv⟩,
        fun fuel hfu => hfwd fuel (le_trans (le_max_right _ _) hfu), ?_, ?_⟩
      · intro fuel hfu
        rw [Int.toNat_ofNat]
        exact hrun fuel (le_trans (le_max_left _ _) hfu)
      · refine ⟨k, ?_, he⟩
        rw [Int.toNat_ofNat]
        unfold slotAt
        simp only [hb]
        exact hget
      · intro kr hkr heq
        have : entryKey o key recordLoc ∈ W.map (fun kr => entryKey o kr.1 kr.2) :=
          List.mem_map.mpr ⟨kr, hkr, heq⟩
        rw [hmem, hc1] at this
        exact this.2 rfl
      · intro e hne
        rw [hmem, hc1]
        simp only [Set.mem_diff, Set.mem_singleton_iff, hne, not_false_eq_true, and_true]
    · intro hf
      cases hf
  · refine ⟨g.rank s.head + 1, false, s, loc, pos, found, [], ?_, hfound, ?_, ?_, ?_,
      fun _ => rfl⟩
    · intro fuel hfu
      exact hloc fuel (by omega)
    · intro fuel hfu
      unfold unindex
      by_cases hbig : key.objsize > KeyMax c
      · rw [if_pos hbig]
      · rw [if_neg hbig, hloc fuel (by omega)]
        have hnf : found = false := by
          cases found with
          | false => rfl
          | true => exact absurd ⟨rfl, not_lt.mp hbig⟩ hgo
        subst hnf
        simp
    · constructor
      · intro hf
        cases hf
      · intro hf
        exact absurd hf hgo
    · intro hf
      cases hf

theorem unindex_removes_witness :
    WellFormed smallLayout ascending (singlePage smallLayout aTestPage) ∧
    ∃ F0 res s1 loc pos found W,
      (∀ fuel, F0 ≤ fuel →
        locate (singlePage smallLayout aTestPage) (sampleKey 9 10) ascending ⟨1, 20⟩ 1 fuel (singlePage smallLayout aTestPage).head
          = .ok (loc, pos, found)) ∧
      (found = true ↔ ∃ x k, slotAt (singlePage smallLayout aTestPage) x = some k ∧
        k.ekey ascending = entryKey ascending (sampleKey 9 10) ⟨1, 20⟩) ∧
      (∀ fuel, F0 ≤ fuel →
        unindex smallLayout ascending fuel (singlePage smallLayout aTestPage) (singlePage smallLayout aTestPage).head (sampleKey 9 10) ⟨1, 20⟩
          = (.ok res, s1)) ∧
      (res = true ↔ found = true ∧ (sampleKey 9 10).objsize ≤ KeyMax smallLayout) ∧
      (res = true →
        (∀ fuel, F0 ≤ fuel →
          delKeyAtPos smallLayout ascending fuel (singlePage smallLayout aTestPage) loc pos.toNat = (.ok (), s1)) ∧
        (∃ k, slotAt (singlePage smallLayout aTestPage) (loc, pos.toNat) = some k ∧
          k.ekey ascending = entryKey ascending (sampleKey 9 10) ⟨1, 20⟩) ∧
        WellFormed smallLayout ascending s1 ∧
        (∀ fuel, F0 ≤ fuel → traverse s1 1 fuel = .ok W) ∧
        (∀ kr ∈ W, entryKey ascending kr.1 kr.2 ≠
          entryKey ascending (sampleKey 9 10) ⟨1, 20⟩) ∧
        (∀ e, e ≠ entryKey ascending (sampleKey 9 10) ⟨1, 20⟩ →
          (e ∈ W.map (fun kr => entryKey ascending kr.1 kr.2) ↔
            e ∈ Content ascending (singlePage smallLayout aTestPage)))) ∧
      (res = false → s1 = (singlePage smallLayout aTestPage)) :=
  ⟨wellFormed_singlePage _ _ _ (by decide) (by decide),
    unindex_removes smallLayout smallLayout_sane ascending (singlePage smallLayout aTestPage)
      (wellFormed_singlePage _ _ _ (by decide) (by decide))
    (sampleKey 9 10) ⟨1, 20⟩⟩

end BtreeBucket
end mongo
namespace mongo
namespace BtreeBucket

/-- The pages of `twoLevel`. -/
theorem twoLevel_pages {l : DiskLoc} {b : BtreeBucket} (h : twoLevel.pages l = some b) :
    (l = ⟨0, 0⟩ ∧ b = twoLevelRoot) ∨
      (l = ⟨0, 200⟩ ∧ b = leafOf ⟨0, 0⟩ [leafSlot 1 10 10, leafSlot 2 10 20]) ∨
      (l = ⟨0, 400⟩ ∧ b = leafOf ⟨0, 0⟩ [leafSlot 8 10 80, leafSlot 9 10 90]) := by
  simp only [twoLevel, treeOf, List.find?] at h
  by_cases h0 : (⟨0, 0⟩ : DiskLoc) = l
  · simp only [h0, decide_True, Option.map_some', Option.some.injEq] at h
    exact Or.inl ⟨h0.symm, h.symm⟩
  · simp only [h0, decide_False] at h
    by_cases h1 : (⟨0, 200⟩ : DiskLoc) = l
    · simp only [h1, decide_True, Option.map_some', Option.some.injEq] at h
      exact Or.inr (Or.inl ⟨h1.symm, h.symm⟩)
    · simp only [h1, decide_False] at h
      by_cases h2 : (⟨0, 400⟩ : DiskLoc) = l
      · simp only [h2, decide_True, Option.map_some', Option.some.injEq] at h
        exact Or.inr (Or.inr ⟨h2.symm, h.symm⟩)
      · simp only [h2, decide_False, Option.map_none'] at h
        cases h

/-- A leaf has no child. -/
theorem leafOf_child {parent : DiskLoc} {keys : List _KeyNode}
    (hk : ∀ k ∈ keys, k.prevChildBucket = DiskLoc.Null) {p : Nat} {ch : DiskLoc}
    (h : (leafOf parent keys).childForPos p = some ch) : ch = DiskLoc.Null := by
  rcases childForPos_cases h with ⟨_, rfl⟩ | ⟨k, hk1, rfl⟩
  · rfl
  · exact hk k (List.get?_mem hk1)

/-- The tree `twoLevel` is well formed. -/
theorem twoLevel_wf : WellFormed smallLayout ascending twoLevel := by
  have hk5 : ∀ v rl : Int, v < 5 →
      (leafSlot v 10 rl).ekey ascending < rootSlot.ekey
        ascending := by
    intro v rl hv
    rw [EKey.lt_iff]
    left
    simp only [_KeyNode.ekey, entryKey, leafSlot, sampleKey, normElems, ascending,
      Ordering.descending, rootSlot]
    simp
    rw [intList_cons_lt_cons]
    exact Or.inl hv
  have h5k : ∀ v rl : Int, 5 < v →
      rootSlot.ekey ascending <
        (leafSlot v 10 rl).ekey ascending := by
    intro v rl hv
    rw [EKey.lt_iff]
    left
    simp only [_KeyNode.ekey, entryKey, leafSlot, sampleKey, normElems, ascending,
      Ordering.descending, rootSlot]
    simp
    rw [intList_cons_lt_cons]
    exact Or.inl hv
  have hleafnull : ∀ v rl : Int, (leafSlot v 10 rl).prevChildBucket = DiskLoc.Null :=
    fun _ _ => rfl
  refine ⟨⟨fun l => if l = ⟨0, 0⟩ then 1 else 0,
    fun l => if l = ⟨0, 400⟩ then
      ((rootSlot.ekey ascending : EKey) : WithBot EKey)
      else ⊥,
    fun l => if l = ⟨0, 200⟩ then
      ((rootSlot.ekey ascending : EKey) : WithTop EKey)
      else ⊤⟩, ?_⟩
  have hroot : twoLevel.pages ⟨0, 0⟩ = some twoLevelRoot := rfl
  have hleft : twoLevel.pages ⟨0, 200⟩ =
      some (leafOf ⟨0, 0⟩ [leafSlot 1 10 10, leafSlot 2 10 20]) := rfl
  have hright : twoLevel.pages ⟨0, 400⟩ =
      some (leafOf ⟨0, 0⟩ [leafSlot 8 10 80, leafSlot 9 10 90]) := rfl
  refine
    { null_unmapped := rfl
      head := ⟨_, hroot, rfl, fun h => by cases h⟩
      page := ?_
      sizes := ?_
      link := ?_
      rank_le := ?_
      fresh := ?_ }
  · intro l b hl
    rcases twoLevel_pages hl with ⟨rfl, rfl⟩ | ⟨rfl, rfl⟩ | ⟨rfl, rfl⟩
    · refine
        { sorted := List.pairwise_singleton _ _
          lo_lt := ?_
          lt_hi := ?_
          child := ?_
          child_inj := ?_
          rl_valid := ?_ }
      · intro k _
        simp only [show ((⟨0, 0⟩ : DiskLoc) = ⟨0, 400⟩) = False by simp, if_false]
        exact WithBot.bot_lt_coe _
      · intro k _
        simp only [show ((⟨0, 0⟩ : DiskLoc) = ⟨0, 200⟩) = False by simp, if_false]
        exact WithTop.coe_lt_top _
      · intro p ch hp hn
        rcases childForPos_cases hp with ⟨hp1, rfl⟩ | ⟨k, hk1, rfl⟩
        · have hp2 : p = 1 := hp1
          subst hp2
          refine ⟨_, hright, rfl, by decide, ?_, ?_⟩
          · simp [lowerAt, twoLevelRoot]
          · simp [upperAt, twoLevelRoot]
        · cases p with
          | zero =>
            have hk2 : some rootSlot = some k := hk1
            cases hk2
            refine ⟨_, hleft, rfl, by decide, ?_, ?_⟩
            · simp [lowerAt]
            · simp [upperAt, twoLevelRoot, rootSlot]
          | succ q => simp [twoLevelRoot] at hk1
      · intro p q ch hp hq hn
        have key : ∀ {j : Nat}, twoLevelRoot.childForPos j = some ch →
            (j = 0 ∧ ch = ⟨0, 200⟩) ∨ (j = 1 ∧ ch = ⟨0, 400⟩) := by
          intro j hj
          rcases childForPos_cases hj with ⟨hj1, rfl⟩ | ⟨k, hk1, rfl⟩
          · exact Or.inr ⟨hj1, rfl⟩
          · cases j with
            | zero =>
              have hk2 : some rootSlot = some k := hk1
              cases hk2
              exact Or.inl ⟨rfl, rfl⟩
            | succ j => simp [twoLevelRoot] at hk1
        rcases key hp with ⟨rfl, h1⟩ | ⟨rfl, h1⟩ <;> rcases key hq with ⟨rfl, h2⟩ | ⟨rfl, h2⟩
        · rfl
        · rw [h1] at h2
          simp at h2
        · rw [h1] at h2
          simp at h2
        · rfl
      · intro k hk
        rw [List.mem_singleton.mp hk]
        decide
    · have hkeys : ∀ k ∈ (leafOf ⟨0, 0⟩ [leafSlot 1 10 10, leafSlot 2 10 20]).keys,
          k = leafSlot 1 10 10 ∨ k = leafSlot 2 10 20 := by
        intro k hk
        simpa [leafOf] using hk
      refine
        { sorted := ascendingSlots_sorted ascending _ (by decide)
          lo_lt := ?_
          lt_hi := ?_
          child := ?_
          child_inj := ?_
          rl_valid := ?_ }
      · intro k _
        simp only [show ((⟨0, 200⟩ : DiskLoc) = ⟨0, 400⟩) = False by simp, if_false]
        exact WithBot.bot_lt_coe _
      · intro k hk
        simp only [if_true]
        rcases hkeys k hk with rfl | rfl
        · exact WithTop.coe_lt_coe.mpr (hk5 1 10 (by norm_num))
        · exact WithTop.coe_lt_coe.mpr (hk5 2 20 (by norm_num))
      · intro p ch hp hn
        exact absurd (leafOf_child (by
          intro k hk
          rcases hkeys k hk with rfl | rfl <;> rfl) hp) hn
      · intro p q ch hp _ hn
        exact absurd (leafOf_child (by
          intro k hk
          rcases hkeys k hk with rfl | rfl <;> rfl) hp) hn
      · intro k hk
        rcases hkeys k hk with rfl | rfl <;> decide
    · have hkeys : ∀ k ∈ (leafOf ⟨0, 0⟩ [leafSlot 8 10 80, leafSlot 9 10 90]).keys,
          k = leafSlot 8 10 80 ∨ k = leafSlot 9 10 90 := by
        intro k hk
        simpa [leafOf] using hk
      refine
        { sorted := ascendingSlots_sorted ascending _ (by decide)
          lo_lt := ?_
          lt_hi := ?_
          child := ?_
          child_inj := ?_
          rl_valid := ?_ }
      · intro k hk
        simp only [if_true]
        rcases hkeys k hk with rfl | rfl
        · exact WithBot.coe_lt_coe.mpr (h5k 8 80 (by norm_num))
        · exact WithBot.coe_lt_coe.mpr (h5k 9 90 (by norm_num))
      · intro k _
        simp only [show ((⟨0, 400⟩ : DiskLoc) = ⟨0, 200⟩) = False by simp, if_false]
        exact WithTop.coe_lt_top _
      · intro p ch hp hn
        exact absurd (leafOf_child (by
          intro k hk
          rcases hkeys k hk with rfl | rfl <;> rfl) hp) hn
      · intro p q ch hp _ hn
        exact absurd (leafOf_child (by
          intro k hk
          rcases hkeys k hk with rfl | rfl <;> rfl) hp) hn
      · intro k hk
        rcases hkeys k hk with rfl | rfl <;> decide
  · intro l b hl
    rcases twoLevel_pages hl with ⟨rfl, rfl⟩ | ⟨rfl, rfl⟩ | ⟨rfl, rfl⟩
    · refine
        { accounting := by decide
          empty_nonneg := by decide
          bytes_le := by decide
          bytes_eq := fun _ => by decide
          key_pos := ?_
          key_le := ?_ }
      all_goals
        intro k hk
        rw [List.mem_singleton.mp hk]
        decide
    all_goals
      refine
        { accounting := by decide
          empty_nonneg := by decide
          bytes_le := by decide
          bytes_eq := fun _ => by decide
          key_pos := ?_
          key_le := ?_ }
      all_goals
        intro k hk
        simp only [leafOf, List.mem_cons, List.mem_singleton, List.not_mem_nil, or_false] at hk
        rcases hk with rfl | rfl <;> decide
  · intro l b hl hne
    rcases twoLevel_pages hl with ⟨rfl, rfl⟩ | ⟨rfl, rfl⟩ | ⟨rfl, rfl⟩
    · exact absurd rfl hne
    · exact ⟨by simp [leafOf], _, 0, hroot, rfl⟩
    · exact ⟨by simp [leafOf], _, 1, hroot, rfl⟩
  · intro l b hl
    rcases twoLevel_pages hl with ⟨rfl, rfl⟩ | ⟨rfl, rfl⟩ | ⟨rfl, rfl⟩ <;> simp [twoLevel, treeOf]
  · intro l b hl
    rcases twoLevel_pages hl with ⟨rfl, rfl⟩ | ⟨rfl, rfl⟩ | ⟨rfl, rfl⟩ <;>
      simp [twoLevel, treeOf]

end BtreeBucket
end mongo
namespace mongo
namespace BtreeBucket

/-- C33 (amended): on a well-formed tree, `tryMergeNeighbors(P, li)` returns
false and changes nothing when either child is null or `headerSize +
packedDataSize(left) + packedDataSize(right) + separator key size + slot size`
exceeds `BucketSize`. Otherwise it returns true, given enough fuel, and its
merge step leaves a state `sM` in which the left page holds its own surviving
slots (`l1`, the page after `pack`), then the separator with `prevChild` = the
left page's old `nextChild`, then the surviving slots of the right page, with
`nextChild` = the right page's old `nextChild`; the right page is deallocated;
and the parent has lost the slot `li`, the down-pointer that led to the right
page leading to the left page. From `sM` the routine goes on: a parent left
without slots is replaced by the left page (`replaceWithNextChild`), and
otherwise `balanceWithNeighbors` runs on the parent; the state `s1` that this
leaves is the state that `tryMergeNeighbors` leaves, a well-formed tree with the
same entries. -/
theorem tryMergeNeighbors_merges (c : Layout) (hc : Layout.Sane c) (o : Ordering) (s : State)
    (hwf : WellFormed c o s) (P : DiskLoc) (p : BtreeBucket) (li : Nat) (sep : _KeyNode)
    (R : DiskLoc) (hP : s.pages P = some p) (hsep : p.keys.get? li = some sep)
    (hR : p.childForPos (li + 1) = some R) :
    ((sep.prevChildBucket = DiskLoc.Null ∨ R = DiskLoc.Null) →
      ∀ fuel, tryMergeNeighbors c o (fuel + 1) s P li = (.ok false, s)) ∧
    (sep.prevChildBucket ≠ DiskLoc.Null → R ≠ DiskLoc.Null →
      ∃ l r, s.pages sep.prevChildBucket = some l ∧ s.pages R = some r ∧
        (c.headerSize + packedDataSize c l 0 + packedDataSize c r 0 + sep.key.objsize
            + c.slotSize > c.BucketSize →
          ∀ fuel, tryMergeNeighbors c o (fuel + 1) s P li = (.ok false, s)) ∧
        (¬ (c.headerSize + packedDataSize c l 0 + packedDataSize c r 0 + sep.key.objsize
            + c.slotSize > c.BucketSize) →
          ∃ l1 r1 M b4 sM s1 F0,
            PackedAt l l1 0 0 ∧ PackedAt r r1 0 0 ∧
            sM.pages sep.prevChildBucket = some M ∧
            M.keys = l1.keys ++ ⟨l.nextChild, sep.recordLoc, sep.key⟩ :: r1.keys ∧
            M.nextChild = r.nextChild ∧
            sM.pages R = none ∧
            sM.pages P = some b4 ∧
            b4.keys = p.keys.take li ++ wireRight sep.prevChildBucket (p.keys.drop (li + 1)) ∧
            b4.nextChild =
              (if p.keys.drop (li + 1) = [] then sep.prevChildBucket else p.nextChild) ∧
            b4.childForPos li = some sep.prevChildBucket ∧
            (∀ fuel, F0 ≤ fuel →
              (if b4.keys.length = 0 then replaceWithNextChild sM P
                else balanceWithNeighbors c o fuel sM P) = (.ok (), s1) ∧
              tryMergeNeighbors c o (fuel + 2) s P li = (.ok true, s1)) ∧
            WellFormed c o s1 ∧ Content o s1 = Content o s)) := by
  obtain ⟨g, hinv0⟩ := hwf
  have hinv := GInv.of_inv hinv0
  refine ⟨fun hnull fuel => (tryMergeNeighbors_cases c o fuel s P li hP hsep hR).1 hnull, ?_⟩
  intro hL hRn
  obtain ⟨l, r, hl, hr, hlp, hrp, hlr, hrr, hne, hLP, hRP, _⟩ :=
    hinv.merge_children hP hsep hL hR hRn
  refine ⟨l, r, hl, hr, fun hbig fuel =>
    ((tryMergeNeighbors_cases c o fuel s P li hP hsep hR).2 l r hL hRn hl hr).1 hbig, ?_⟩
  intro hfit
  obtain ⟨l1, r1, M, b4, sM, mo⟩ := merge_run c hc o hinv hP hsep hL hR hRn hl hr hfit
  have hcont := mo.content hinv hP hsep hl hr
  have hlen : li < p.keys.length := (List.get?_eq_some.mp hsep).1
  have hchild : b4.childForPos li = some sep.prevChildBucket := by
    unfold childForPos
    have hk4 := mo.keys_b4
    have hn4 := mo.next_b4
    have htl : (p.keys.take li).length = li := by
      rw [List.length_take]
      omega
    cases hd : p.keys.drop (li + 1) with
    | nil =>
      rw [hd] at hk4 hn4
      simp only [wireRight, List.append_nil] at hk4
      rw [if_pos rfl] at hn4
      rw [hk4, htl, if_pos rfl, hn4]
    | cons u rest =>
      rw [hd] at hk4
      simp only [wireRight] at hk4
      rw [hk4, List.length_append, htl, if_neg (by simp)]
      have := get?_append_length (p.keys.take li)
        ({ u with prevChildBucket := sep.prevChildBucket } :: rest)
      rw [htl] at this
      simp only [List.get?_eq_getElem?] at this ⊢
      rw [List.getElem?_append_right (by omega), htl]
      simp
  have hfacts : PackedAt l l1 0 0 ∧ PackedAt r r1 0 0 ∧
      sM.pages sep.prevChildBucket = some M ∧
      M.keys = l1.keys ++ ⟨l.nextChild, sep.recordLoc, sep.key⟩ :: r1.keys ∧
      M.nextChild = r.nextChild ∧ sM.pages R = none ∧ sM.pages P = some b4 ∧
      b4.keys = p.keys.take li ++ wireRight sep.prevChildBucket (p.keys.drop (li + 1)) ∧
      b4.nextChild =
        (if p.keys.drop (li + 1) = [] then sep.prevChildBucket else p.nextChild) ∧
      b4.childForPos li = some sep.prevChildBucket :=
    ⟨mo.packed_l, mo.packed_r, mo.page_L, by rw [mo.keys_M, mo.packed_l.nextChild],
      by rw [mo.next_M, mo.packed_r.nextChild], mo.page_R, mo.page_P, mo.keys_b4, mo.next_b4,
      hchild⟩
  obtain ⟨f1, f2, f3, f4, f5, f6, f7, f8, f9, f10⟩ := hfacts
  by_cases h4 : b4.keys = []
  · obtain ⟨s1, hrun, hinv1, hc1⟩ := merge_collapse hinv hP hsep hL hR hRn hl hr mo h4
    refine ⟨l1, r1, M, b4, sM, s1, 0, f1, f2, f3, f4, f5, f6, f7, f8, f9, f10, ?_,
      ⟨_, hinv1.to_inv⟩, hc1.trans hcont⟩
    intro fuel _
    have htail : (if b4.keys.length = 0 then replaceWithNextChild sM P
        else balanceWithNeighbors c o fuel sM P) = (.ok (), s1) := by
      rw [if_pos (by rw [h4]; rfl)]
      exact hrun
    refine ⟨htail, ?_⟩
    refine ((tryMergeNeighbors_cases c o (fuel + 1) s P li hP hsep hR).2 l r hL hRn hl hr).2
      hfit s1 ?_
    rw [mo.run fuel]
    exact htail
  · have hinvM := merge_keep hinv hP hsep hL hR hRn hl hr mo h4
    obtain ⟨s1, g1, hrun, hinv1, hc1⟩ := balanceWithNeighbors_spec c hc o
      ((mergeGhost g sep.prevChildBucket R).rank sM.head) sM _ P b4 hinvM mo.page_P
      (Nat.sub_le _ _)
    refine ⟨l1, r1, M, b4, sM, s1, 3 * (mergeGhost g sep.prevChildBucket R).rank sM.head + 1,
      f1, f2, f3, f4, f5, f6, f7, f8, f9, f10, ?_, ⟨_, hinv1.to_inv⟩, hc1.trans hcont⟩
    intro fuel hf
    have htail : (if b4.keys.length = 0 then replaceWithNextChild sM P
        else balanceWithNeighbors c o fuel sM P) = (.ok (), s1) := by
      rw [if_neg (fun h => h4 (List.length_eq_zero.mp h))]
      exact hrun fuel hf
    refine ⟨htail, ?_⟩
    refine ((tryMergeNeighbors_cases c o (fuel + 1) s P li hP hsep hR).2 l r hL hRn hl hr).2
      hfit s1 ?_
    rw [mo.run fuel]
    exact htail

theorem tryMergeNeighbors_merges_witness :
    WellFormed smallLayout ascending twoLevel ∧ twoLevel.pages ⟨0, 0⟩ = some twoLevelRoot ∧
    twoLevelRoot.keys.get? 0 = some rootSlot ∧
    twoLevelRoot.childForPos (0 + 1) = some ⟨0, 400⟩ ∧
    ((rootSlot.prevChildBucket = DiskLoc.Null ∨ (⟨0, 400⟩ : DiskLoc) = DiskLoc.Null) →
      ∀ fuel, tryMergeNeighbors smallLayout ascending (fuel + 1) twoLevel ⟨0, 0⟩ 0
        = (.ok false, twoLevel)) ∧
    (rootSlot.prevChildBucket ≠ DiskLoc.Null → (⟨0, 400⟩ : DiskLoc) ≠ DiskLoc.Null →
      ∃ l r, twoLevel.pages rootSlot.prevChildBucket = some l ∧
        twoLevel.pages ⟨0, 400⟩ = some r ∧
        (smallLayout.headerSize + packedDataSize smallLayout l 0 + packedDataSize smallLayout r 0
            + rootSlot.key.objsize + smallLayout.slotSize > smallLayout.BucketSize →
          ∀ fuel, tryMergeNeighbors smallLayout ascending (fuel + 1) twoLevel ⟨0, 0⟩ 0
            = (.ok false, twoLevel)) ∧
        (¬ (smallLayout.headerSize + packedDataSize smallLayout l 0
            + packedDataSize smallLayout r 0 + rootSlot.key.objsize + smallLayout.slotSize
              > smallLayout.BucketSize) →
          ∃ l1 r1 M b4 sM s1 F0,
            PackedAt l l1 0 0 ∧ PackedAt r r1 0 0 ∧
            sM.pages rootSlot.prevChildBucket = some M ∧
            M.keys = l1.keys ++ ⟨l.nextChild, rootSlot.recordLoc, rootSlot.key⟩ :: r1.keys ∧
            M.nextChild = r.nextChild ∧
            sM.pages ⟨0, 400⟩ = none ∧
            sM.pages ⟨0, 0⟩ = some b4 ∧
            b4.keys = twoLevelRoot.keys.take 0 ++
              wireRight rootSlot.prevChildBucket (twoLevelRoot.keys.drop (0 + 1)) ∧
            b4.nextChild = (if twoLevelRoot.keys.drop (0 + 1) = [] then rootSlot.prevChildBucket
              else twoLevelRoot.nextChild) ∧
            b4.childForPos 0 = some rootSlot.prevChildBucket ∧
            (∀ fuel, F0 ≤ fuel →
              (if b4.keys.length = 0 then replaceWithNextChild sM ⟨0, 0⟩
                else balanceWithNeighbors smallLayout ascending fuel sM ⟨0, 0⟩) = (.ok (), s1) ∧
              tryMergeNeighbors smallLayout ascending (fuel + 2) twoLevel ⟨0, 0⟩ 0
                = (.ok true, s1)) ∧
            WellFormed smallLayout ascending s1 ∧
            Content ascending s1 = Content ascending twoLevel)) :=
  ⟨twoLevel_wf, rfl, rfl, rfl,
    tryMergeNeighbors_merges smallLayout smallLayout_sane ascending twoLevel twoLevel_wf ⟨0, 0⟩
      twoLevelRoot 0 rootSlot ⟨0, 400⟩ rfl rfl rfl⟩

/-- C33 counterexample: in the tree `twoLevel` the two leaves fit in one page;
`tryMergeNeighbors` on the root returns true, and afterwards the root, the
parent of the merged pages, is no page any more: the left page is the root of
the tree. -/
theorem tryMergeNeighbors_counterexample :
    (tryMergeNeighbors smallLayout ascending 5 twoLevel ⟨0, 0⟩ 0).1 = .ok true ∧
    (tryMergeNeighbors smallLayout ascending 5 twoLevel ⟨0, 0⟩ 0).2.pages ⟨0, 0⟩ = none ∧
    (tryMergeNeighbors smallLayout ascending 5 twoLevel ⟨0, 0⟩ 0).2.head = ⟨0, 200⟩ :=
  ⟨rfl, rfl, rfl⟩

end BtreeBucket
end mongo
namespace mongo
namespace BtreeBuilder
open BtreeBucket

/-- One iteration of the chain loop, given the outcome of each of its parts. -/
theorem buildChain_iter (c : Layout) (o : Ordering) (f : Nat) {s s2 s3 : State}
    {upLoc xloc u1 nl r : DiskLoc} {k : BSONObj} {x x1 : BtreeBucket}
    (hx : xloc.isNull = false) (hp : s.pages xloc = some x)
    (hpop : popBack c x = .ok ((r, k), x1))
    (hpush : pushUp c o (s.put xloc x1) upLoc r k
      (if decide (x1.keys.length ≠ 0) = true then xloc else x1.nextChild) = .ok (u1, s2))
    (hre : relink s2 xloc u1 (decide (x1.keys.length ≠ 0)) = .ok (nl, s3)) :
    buildChain c o (f + 1) s upLoc xloc = buildChain c o f s3 u1 nl := by
  rw [buildChain]
  simp only [hx, Bool.false_eq_true, if_false, hp, hpop, hpush, hre]

/-- The chain loop stops at the null locator. -/
theorem buildChain_null (c : Layout) (o : Ordering) (f : Nat) (s : State) (upLoc : DiskLoc) :
    buildChain c o (f + 1) s upLoc DiskLoc.Null = (.ok (), s) := by
  rw [buildChain]
  simp [DiskLoc.isNull]

/-- The push onto the upper level when the current upper page has room. -/
theorem pushUp_fit (c : Layout) (o : Ordering) {s : State} {upLoc r keepLoc : DiskLoc}
    {k : BSONObj} {up up1 : BtreeBucket} (hu : s.pages upLoc = some up)
    (hpb : _pushBack c up r k o keepLoc = .ok (true, up1)) :
    pushUp c o s upLoc r k keepLoc = .ok (upLoc, s.put upLoc up1) := by
  simp only [pushUp, hu, hpb]

/-- The push onto the upper level when the current upper page has no room: a
fresh page is linked after it and receives the slot. -/
theorem pushUp_full (c : Layout) (o : Ordering) {s : State} {upLoc r keepLoc : DiskLoc}
    {k : BSONObj} {up up0 nb1 : BtreeBucket} (hu : s.pages upLoc = some up)
    (hpb : _pushBack c up r k o keepLoc = .ok (false, up0))
    (hnb : pushBack c (init c) r k o keepLoc = .ok nb1)
    (hne : upLoc ≠ ⟨0, s.allocNext⟩) :
    pushUp c o s upLoc r k keepLoc = .ok (⟨0, s.allocNext⟩,
      (((addBucket c s).2.put upLoc (setTempNext up ⟨0, s.allocNext⟩)).put
        ⟨0, s.allocNext⟩ nb1)) := by
  have h1 : (((addBucket c s).2.put upLoc (setTempNext up ⟨0, s.allocNext⟩)).pages
      ⟨0, s.allocNext⟩) = some (init c) := by
    rw [State.put_pages_ne _ _ (Ne.symm hne)]
    simp only [addBucket, State.put_pages_same]
  simp only [pushUp, hu, hpb]
  have h2 : addBucket c s = (⟨0, s.allocNext⟩, (addBucket c s).2) := rfl
  rw [h2]
  simp only [h1, hnb]

/-- The end of an iteration for a page that keeps slots. -/
theorem relink_keep {s : State} {xloc upLoc : DiskLoc} {x : BtreeBucket}
    (hx : s.pages xloc = some x) :
    relink s xloc upLoc true = .ok (tempNext x, s.put xloc { x with parent := upLoc }) := by
  simp only [relink, hx, if_true]

/-- The end of an iteration for a page left without slots and without a child. -/
theorem relink_drop {s : State} {xloc upLoc : DiskLoc} {x : BtreeBucket}
    (hx : s.pages xloc = some x) (hn : x.nextChild = DiskLoc.Null) :
    relink s xloc upLoc false = .ok (tempNext x, deallocBucket s xloc) := by
  simp [relink, hx, hn, DiskLoc.isNull]

/-- The end of an iteration for a page left without slots whose last child
remains. -/
theorem relink_drop_child {s : State} {xloc upLoc : DiskLoc} {x cb : BtreeBucket}
    (hx : s.pages xloc = some x) (hn : x.nextChild ≠ DiskLoc.Null)
    (hc : s.pages x.nextChild = some cb) :
    relink s xloc upLoc false = .ok (tempNext x,
      deallocBucket (s.put x.nextChild { cb with parent := upLoc }) xloc) := by
  simp [relink, hx, hn, DiskLoc.isNull, State.setParent, hc]

end BtreeBuilder
end mongo
namespace mongo
namespace BtreeBuilder
open BtreeBucket

theorem popBack_hugeFirst (nb : DiskLoc) :
    popBack smallLayout (hugeFirst nb) =
      .ok ((⟨1, 10⟩, sampleKey 1 130), ⟨nb, DiskLoc.Null, true, 160, 0, []⟩) := rfl

theorem popBack_hugeSecond :
    popBack smallLayout hugeSecond =
      .ok ((⟨1, 30⟩, sampleKey 3 100), ⟨DiskLoc.Null, ⟨0, 200⟩, true, 160, 0, []⟩) := rfl

theorem pushBack_hugeFirst :
    _pushBack smallLayout (init smallLayout) ⟨1, 10⟩ (sampleKey 1 130) ascending DiskLoc.Null =
      .ok (true, hugeFirst DiskLoc.Null) := rfl

theorem pushBack_full :
    _pushBack smallLayout (hugeFirst DiskLoc.Null) ⟨1, 30⟩ (sampleKey 3 100) ascending ⟨0, 200⟩ =
      .ok (false, hugeFirst DiskLoc.Null) := rfl

theorem pushBack_hugeSecond :
    pushBack smallLayout (init smallLayout) ⟨1, 30⟩ (sampleKey 3 100) ascending ⟨0, 200⟩ =
      .ok hugeSecond := rfl

theorem diskLoc_ne_ofs {x y : Int} (h : x ≠ y) : (⟨0, x⟩ : DiskLoc) ≠ ⟨0, y⟩ := by
  intro e
  cases e
  exact h rfl

/-- One level of the build of `hugeKeys`: the chain loop, given fuel for its three
iterations, returns and leaves a level of the same shape two pages further on;
with less fuel it does not return. -/
theorem buildChain_stuck (a b : Int) (s : State) (h : Stuck a b s) :
    ∃ s2, Stuck s.allocNext (s.allocNext + 200) s2 ∧
      (∀ f, buildChain smallLayout ascending (f + 3) (addBucket smallLayout s).2
        ⟨0, s.allocNext⟩ ⟨0, a⟩ = (.ok (), s2)) ∧
      (∀ f, f < 3 → (buildChain smallLayout ascending f (addBucket smallLayout s).2
        ⟨0, s.allocNext⟩ ⟨0, a⟩).1 = .error .outOfFuel) := by
  obtain ⟨P, hP⟩ := h.leaf
  have hab := h.ne
  have ha2 := h.ne_a
  have hb2 := h.ne_b
  have hla := h.lt_a
  have hlb := h.lt_b
  have hll := h.lt_leaf
  have hA := h.first
  have hB := h.second
  have hs1 : (addBucket smallLayout s).2 =
      { (s.put ⟨0, s.allocNext⟩ (init smallLayout)) with allocNext := s.allocNext + 200 } := rfl
  generalize (addBucket smallLayout s).2 = s1 at hs1
  generalize hu : s.allocNext = u at *
  have eua : (⟨0, u⟩ : DiskLoc) ≠ ⟨0, a⟩ := diskLoc_ne_ofs (by omega)
  have eub : (⟨0, u⟩ : DiskLoc) ≠ ⟨0, b⟩ := diskLoc_ne_ofs (by omega)
  have eul : (⟨0, u⟩ : DiskLoc) ≠ ⟨0, 200⟩ := diskLoc_ne_ofs (by omega)
  have eva : (⟨0, u + 200⟩ : DiskLoc) ≠ ⟨0, a⟩ := diskLoc_ne_ofs (by omega)
  have evb : (⟨0, u + 200⟩ : DiskLoc) ≠ ⟨0, b⟩ := diskLoc_ne_ofs (by omega)
  have evl : (⟨0, u + 200⟩ : DiskLoc) ≠ ⟨0, 200⟩ := diskLoc_ne_ofs (by omega)
  have evu : (⟨0, u + 200⟩ : DiskLoc) ≠ ⟨0, u⟩ := diskLoc_ne_ofs (by omega)
  have eab : (⟨0, a⟩ : DiskLoc) ≠ ⟨0, b⟩ := diskLoc_ne_ofs hab
  have eal : (⟨0, a⟩ : DiskLoc) ≠ ⟨0, 200⟩ := diskLoc_ne_ofs ha2
  have ebl : (⟨0, b⟩ : DiskLoc) ≠ ⟨0, 200⟩ := diskLoc_ne_ofs hb2
  have na : (⟨0, a⟩ : DiskLoc).isNull = false := by simp [DiskLoc.isNull, DiskLoc.Null]
  have nb : (⟨0, b⟩ : DiskLoc).isNull = false := by simp [DiskLoc.isNull, DiskLoc.Null]
  have nl : (⟨0, 200⟩ : DiskLoc) ≠ DiskLoc.Null := by simp [DiskLoc.Null]
  -- the first page of the level
  have p1 : s1.pages ⟨0, a⟩ = some (hugeFirst ⟨0, b⟩) := by
    rw [hs1]
    show (s.put ⟨0, u⟩ (init smallLayout)).pages ⟨0, a⟩ = _
    rw [State.put_pages_ne _ _ eua.symm, hA]
  have q1 : pushUp smallLayout ascending
      (s1.put ⟨0, a⟩ ⟨⟨0, b⟩, DiskLoc.Null, true, 160, 0, []⟩) ⟨0, u⟩ ⟨1, 10⟩
      (sampleKey 1 130) DiskLoc.Null = .ok (⟨0, u⟩,
        (s1.put ⟨0, a⟩ ⟨⟨0, b⟩, DiskLoc.Null, true, 160, 0, []⟩).put ⟨0, u⟩
          (hugeFirst DiskLoc.Null)) := by
    apply pushUp_fit _ _ _ pushBack_hugeFirst
    rw [State.put_pages_ne _ _ eua, hs1]
    exact State.put_pages_same _ _ _
  have r1 := @relink_drop ((s1.put ⟨0, a⟩ ⟨⟨0, b⟩, DiskLoc.Null, true, 160, 0, []⟩).put ⟨0, u⟩
      (hugeFirst DiskLoc.Null)) ⟨0, a⟩ ⟨0, u⟩ ⟨⟨0, b⟩, DiskLoc.Null, true, 160, 0, []⟩
    (by rw [State.put_pages_ne _ _ eua.symm]; exact State.put_pages_same _ _ _) rfl
  have i1 := fun f => buildChain_iter smallLayout ascending f na p1 (popBack_hugeFirst _) q1 r1
  -- the second page of the level
  generalize hs3 : deallocBucket ((s1.put ⟨0, a⟩ ⟨⟨0, b⟩, DiskLoc.Null, true, 160, 0, []⟩).put
    ⟨0, u⟩ (hugeFirst DiskLoc.Null)) ⟨0, a⟩ = s3 at i1
  have s3u : s3.pages ⟨0, u⟩ = some (hugeFirst DiskLoc.Null) := by
    rw [← hs3]
    simp only [deallocBucket, State.free_pages, eua, if_false, State.put_pages_same]
  have s3b : s3.pages ⟨0, b⟩ = some hugeSecond := by
    rw [← hs3]
    simp only [deallocBucket, State.free_pages, eab.symm, if_false]
    rw [State.put_pages_ne _ _ eub.symm, State.put_pages_ne _ _ eab.symm, hs1]
    show (s.put ⟨0, u⟩ (init smallLayout)).pages ⟨0, b⟩ = _
    rw [State.put_pages_ne _ _ eub.symm, hB]
  have s3l : s3.pages ⟨0, 200⟩ = some P := by
    rw [← hs3]
    simp only [deallocBucket, State.free_pages, eal.symm, if_false]
    rw [State.put_pages_ne _ _ eul.symm, State.put_pages_ne _ _ eal.symm, hs1]
    show (s.put ⟨0, u⟩ (init smallLayout)).pages ⟨0, 200⟩ = _
    rw [State.put_pages_ne _ _ eul.symm, hP]
  have s3n : s3.allocNext = u + 200 := by
    rw [← hs3, hs1]
    rfl
  have q2 := @pushUp_full smallLayout ascending
    (s3.put ⟨0, b⟩ ⟨DiskLoc.Null, ⟨0, 200⟩, true, 160, 0, []⟩) ⟨0, u⟩ ⟨1, 30⟩ ⟨0, 200⟩
    (sampleKey 3 100) (hugeFirst DiskLoc.Null) (hugeFirst DiskLoc.Null) hugeSecond
    (by rw [State.put_pages_ne _ _ eub]; exact s3u) pushBack_full pushBack_hugeSecond
    (by rw [State.put_allocNext, s3n]; exact evu.symm)
  rw [State.put_allocNext, s3n] at q2
  generalize hs4 : ((addBucket smallLayout
    (s3.put ⟨0, b⟩ ⟨DiskLoc.Null, ⟨0, 200⟩, true, 160, 0, []⟩)).2.put ⟨0, u⟩
      (setTempNext (hugeFirst DiskLoc.Null) ⟨0, u + 200⟩)).put ⟨0, u + 200⟩ hugeSecond = s4 at q2
  have hadd : ∀ l, l ≠ (⟨0, u + 200⟩ : DiskLoc) → (addBucket smallLayout
      (s3.put ⟨0, b⟩ ⟨DiskLoc.Null, ⟨0, 200⟩, true, 160, 0, []⟩)).2.pages l =
      (s3.put ⟨0, b⟩ ⟨DiskLoc.Null, ⟨0, 200⟩, true, 160, 0, []⟩).pages l := by
    intro l hl
    show ((s3.put ⟨0, b⟩ ⟨DiskLoc.Null, ⟨0, 200⟩, true, 160, 0, []⟩).put _ _).pages l = _
    rw [State.put_allocNext, s3n]
    exact State.put_pages_ne _ _ hl
  have s4b : s4.pages ⟨0, b⟩ = some ⟨DiskLoc.Null, ⟨0, 200⟩, true, 160, 0, []⟩ := by
    rw [← hs4, State.put_pages_ne _ _ evb.symm, State.put_pages_ne _ _ eub.symm,
      hadd _ evb.symm]
    exact State.put_pages_same _ _ _
  have s4l : s4.pages ⟨0, 200⟩ = some P := by
    rw [← hs4, State.put_pages_ne _ _ evl.symm, State.put_pages_ne _ _ eul.symm,
      hadd _ evl.symm, State.put_pages_ne _ _ ebl.symm]
    exact s3l
  have s4u : s4.pages ⟨0, u⟩ = some (hugeFirst ⟨0, u + 200⟩) := by
    rw [← hs4, State.put_pages_ne _ _ evu.symm]
    exact State.put_pages_same _ _ _
  have s4v : s4.pages ⟨0, u + 200⟩ = some hugeSecond := by
    rw [← hs4]
    exact State.put_pages_same _ _ _
  have s4n : s4.allocNext = u + 400 := by
    rw [← hs4]
    show (s3.put ⟨0, b⟩ ⟨DiskLoc.Null, ⟨0, 200⟩, true, 160, 0, []⟩).allocNext + 200 = _
    rw [State.put_allocNext, s3n]
    omega
  have r2 := @relink_drop_child s4 ⟨0, b⟩ ⟨0, u + 200⟩
    ⟨DiskLoc.Null, ⟨0, 200⟩, true, 160, 0, []⟩ P s4b nl s4l
  have i2 : ∀ f, buildChain smallLayout ascending (f + 1) s3 ⟨0, u⟩ ⟨0, b⟩ = _ :=
    fun f => buildChain_iter smallLayout ascending f nb s3b popBack_hugeSecond q2 r2
  refine ⟨_, ?_, fun f => (i1 (f + 2)).trans ((i2 (f + 1)).trans (buildChain_null _ _ _ _ _)),
    ?_⟩
  swap
  · intro f hf
    match f, hf with
    | 0, _ => rfl
    | 1, _ => exact (congrArg Prod.fst (i1 0)).trans rfl
    | 2, _ => exact (congrArg Prod.fst ((i1 1).trans (i2 0))).trans rfl
  constructor
  · simp only [deallocBucket, State.free_pages, eub, if_false]
    rw [State.put_pages_ne _ _ eul]
    exact s4u
  · simp only [deallocBucket, State.free_pages, evb, if_false]
    rw [State.put_pages_ne _ _ evl]
    exact s4v
  · refine ⟨{ P with parent := ⟨0, u + 200⟩ }, ?_⟩
    simp only [deallocBucket, State.free_pages, ebl.symm, if_false]
    exact State.put_pages_same _ _ _
  · omega
  · omega
  · omega
  · show u < s4.allocNext
    omega
  · show u + 200 < s4.allocNext
    omega
  · show 200 < s4.allocNext
    omega

/-- From a level of the shape `Stuck` on, `buildNextLevel` does not return,
whatever the fuel. -/
theorem buildNextLevel_stuck : ∀ (f : Nat) (a b : Int) (s : State), Stuck a b s →
    (buildNextLevel smallLayout ascending f s ⟨0, a⟩).1 = .error .outOfFuel
  | 0, _, _, _, _ => rfl
  | f + 1, a, b, s, h => by
    obtain ⟨s2, hs2, hrun, hlow⟩ := buildChain_stuck a b s h
    rw [buildNextLevel]
    have hb : ((tempNext (hugeFirst ⟨0, b⟩)).isNull) = false := by
      simp [tempNext, hugeFirst, DiskLoc.isNull, DiskLoc.Null]
    simp only [h.first, hb, Bool.false_eq_true, if_false]
    have h2 : addBucket smallLayout s = (⟨0, s.allocNext⟩, (addBucket smallLayout s).2) := rfl
    rw [h2]
    simp only
    rcases Nat.lt_or_ge f 3 with hf | hf
    · have := hlow f hf
      generalize buildChain smallLayout ascending f (addBucket smallLayout s).2
        ⟨0, s.allocNext⟩ ⟨0, a⟩ = X at this
      obtain ⟨x1, x2⟩ := X
      simp only at this
      subst this
      rfl
    · obtain ⟨k, rfl⟩ := Nat.exists_eq_add_of_le hf
      rw [Nat.add_comm 3 k, hrun k]
      exact buildNextLevel_stuck (k + 3) _ _ s2 hs2

end BtreeBuilder
end mongo
namespace mongo
namespace BtreeBuilder
open BtreeBucket

/-- The data file after the calls of `addKey` for `hugeKeys`, and one level
built above the two leaves: the level has the shape `Stuck`. -/
theorem hugeKeys_first_level :
    Stuck 400 600 (buildChain smallLayout ascending 3
      (addBucket smallLayout (addKeys smallLayout ascending (create smallLayout true noPages).1
        (create smallLayout true noPages).2 hugeKeys).2).2 ⟨0, 400⟩ ⟨0, 0⟩).2 :=
  ⟨rfl, rfl, ⟨_, rfl⟩, by decide, by decide, by decide, by decide, by decide, by decide⟩

/-- C39: the build of `hugeKeys` on `smallLayout`, three pairs in ascending
order whose first and last keys exceed `KeyMax` and still fit in a page: the
three calls of `addKey` return and leave two leaves, and `commit` does not
return, whatever the bound on the iterations: every level that
`buildNextLevel` builds has two pages again, each holding one of the two large
keys. -/
theorem commit_never_returns :
    (∃ bb s, addKeys smallLayout ascending (create smallLayout true noPages).1
        (create smallLayout true noPages).2 hugeKeys = (.ok bb, s) ∧ bb.n = 3) ∧
      ∀ fuel, (build smallLayout ascending fuel true hugeKeys).1 = .error .outOfFuel := by
  refine ⟨⟨_, _, rfl, rfl⟩, ?_⟩
  intro fuel
  match fuel with
  | 0 => rfl
  | 1 => rfl
  | 2 => rfl
  | 3 => rfl
  | f + 4 =>
    have h := buildNextLevel_stuck (f + 3) 400 600 _ hugeKeys_first_level
    have e : build smallLayout ascending (f + 4) true hugeKeys =
        (match buildNextLevel smallLayout ascending (f + 3)
          (buildChain smallLayout ascending 3
            (addBucket smallLayout (addKeys smallLayout ascending
              (create smallLayout true noPages).1
              (create smallLayout true noPages).2 hugeKeys).2).2 ⟨0, 400⟩ ⟨0, 0⟩).2 ⟨0, 400⟩ with
          | (.error e, s1) => (.error e, s1)
          | (.ok (), s1) => (.ok ⟨true, 3, ⟨0, []⟩, ⟨0, 0⟩, ⟨0, 200⟩, true⟩, s1)) := rfl
    rw [e]
    generalize buildNextLevel smallLayout ascending (f + 3)
          (buildChain smallLayout ascending 3
            (addBucket smallLayout (addKeys smallLayout ascending
              (create smallLayout true noPages).1
              (create smallLayout true noPages).2 hugeKeys).2).2 ⟨0, 400⟩ ⟨0, 0⟩).2 ⟨0, 400⟩ = X
      at h ⊢
    obtain ⟨x1, x2⟩ := X
    simp only at h
    subst h
    rfl

end BtreeBuilder
end mongo
namespace mongo
namespace BtreeBucket

/-- A page that passes `leafCheck` is a well-formed tree by itself, with the ghost
data `flatGhost`. -/
theorem inv_singlePage (c : Layout) (o : Ordering) (b : BtreeBucket)
    (hc : leafCheck c o b = true) (hsz : 0 < c.BucketSize) :
    Inv c o (singlePage c b) flatGhost := by
  simp only [leafCheck, Bool.and_eq_true, decide_eq_true_eq, List.all_eq_true, Bool.or_eq_true,
    Bool.not_eq_true', leafSlotCheck] at hc
  obtain ⟨⟨⟨⟨⟨⟨⟨hpar, hnc⟩, hslots⟩, hasc⟩, hacc⟩, hemp⟩, hbytes⟩, hpk⟩ := hc
  have hpage : ∀ l b', (singlePage c b).pages l = some b' → l = ⟨0, 0⟩ ∧ b' = b := by
    intro l b' hl
    simp only [singlePage] at hl
    by_cases h0 : l = ⟨0, 0⟩
    · rw [if_pos h0] at hl
      exact ⟨h0, (Option.some.inj hl).symm⟩
    · rw [if_neg h0] at hl
      cases hl
  have hchild : ∀ p ch, b.childForPos p = some ch → ch = DiskLoc.Null := by
    intro p ch hp
    rcases childForPos_cases hp with ⟨_, rfl⟩ | ⟨k, hk, rfl⟩
    · exact hnc
    · exact (hslots k (List.get?_mem hk)).1.1.1.1
  refine
    { null_unmapped := by simp [singlePage, DiskLoc.Null]
      head := ⟨b, by simp [singlePage], hpar, fun _ => hnc⟩
      page := ?_
      sizes := ?_
      link := ?_
      rank_le := fun _ _ _ => le_refl _
      fresh := ?_ }
  · intro l b' hl
    obtain ⟨rfl, rfl⟩ := hpage l b' hl
    refine
      { sorted := ascendingSlots_sorted o _ hasc
        lo_lt := fun k _ => WithBot.bot_lt_coe _
        lt_hi := fun k _ => WithTop.coe_lt_top _
        child := fun p ch hp hne => absurd (hchild p ch hp) hne
        child_inj := fun p _ ch hp _ hne => absurd (hchild p ch hp) hne
        rl_valid := fun k hk => ⟨(hslots k hk).1.1.1.2, (hslots k hk).1.1.2⟩ }
  · intro l b' hl
    obtain ⟨rfl, rfl⟩ := hpage l b' hl
    refine
      { accounting := hacc
        empty_nonneg := hemp
        bytes_le := hbytes
        bytes_eq := ?_
        key_pos := fun k hk => (hslots k hk).1.2
        key_le := fun k hk => (hslots k hk).2 }
    intro hp
    rcases hpk with h | h
    · rw [hp] at h; cases h
    · exact h
  · intro l b' hl hne
    exact absurd (hpage l b' hl).1 hne
  · intro l b' hl
    obtain ⟨rfl, rfl⟩ := hpage l b' hl
    exact ⟨rfl, le_refl _, hsz⟩

/-- The place of the key 6 at the end of `crowdedPage`. -/
theorem crowdedPage_pre :
    InsPre ascending flatGhost ∅ ⟨0, 0⟩ crowdedPage 5
      (entryKey ascending (sampleKey 6 10) (⟨1, 60⟩ : DiskLoc).clearLow)
      DiskLoc.Null DiskLoc.Null :=
  { pos_le := by decide
    before := by
      intro k hk
      have hv : ∃ v rl, k = leafSlot v 10 rl ∧ v < 6 := by
        simp only [crowdedPage, leafPage, List.take, List.mem_cons, List.mem_nil_iff,
          or_false] at hk
        rcases hk with rfl | rfl | rfl | rfl | rfl
        · exact ⟨1, _, rfl, by decide⟩
        · exact ⟨2, _, rfl, by decide⟩
        · exact ⟨3, _, rfl, by decide⟩
        · exact ⟨4, _, rfl, by decide⟩
        · exact ⟨5, _, rfl, by decide⟩
      obtain ⟨v, rl, rfl, hv⟩ := hv
      rw [EKey.lt_iff]
      left
      show ([v] : List Int) < [6]
      rw [intList_cons_lt_cons]
      exact Or.inl hv
    after := by
      intro k hk
      simp [crowdedPage, leafPage] at hk
    lo_lt := WithBot.bot_lt_coe _
    lt_hi := WithTop.coe_lt_top _
    lchild_eq := rfl
    rnull := fun _ => rfl
    rfloat := fun h => absurd rfl h }

/-- C34 (as amended): `insertHere` at `kp` on a page `b` at `l` of a well-formed
tree, called with null children at a place where the new entry belongs, when
`basicInsert` fails and leaves the page `b1` and the position `kp1`, and
`sp = splitPos(kp1)` with `sk` the slot of `b1` at `sp`. The right sibling at
the fresh locator `R` holds the slots of `b1` after `sp`, in order and with
their children, and the old `nextChild` of the page. If the page was the root,
`sk` is the only slot of a new root, with left child `l` and `nextChild = R`,
and the head is rewritten; otherwise `sk` is inserted by `insertHere` on the
parent at the position that `find` gives, with left child `l` and right child
`R`. The page at `l` is then the outcome `t` of `truncateTo`: it keeps the
slots of `b1` before `sp` that `pack` does not drop (the unused slots without a
left child other than slot 0 and the slot at `kp1` go), and its `nextChild` is
the former left child of `sk`. In the state `sQ` reached so far the entries are
the entries of the start. The call then goes on as `insertHere` on `l` at the
position `np` that `pack` reports when `kp1 ≤ sp`, and on `R` at
`kp1 - sp - 1` otherwise; it returns, the tree is well formed, and the entries
are those of the start and the new one. -/
theorem insertHere_splits (c : Layout) (hc : Layout.Sane c) (o : Ordering) (s : State)
    (g : Ghost) (l : DiskLoc) (b b1 : BtreeBucket) (kp kp1 : Nat) (recordLoc : DiskLoc)
    (key : BSONObj) (hinv : Inv c o s g) (hL : s.pages l = some b)
    (pre : InsPre o g ∅ l b kp (entryKey o key recordLoc.clearLow) DiskLoc.Null DiskLoc.Null)
    (hrl : 0 ≤ recordLoc.a ∧ 2 ≤ recordLoc.ofs) (hpos : 0 < key.objsize)
    (hle : key.objsize ≤ KeyMax c)
    (hbi : basicInsert c b kp recordLoc key = .ok (false, b1, kp1)) :
    ∃ (sp : Nat) (sk : _KeyNode) (r t : BtreeBucket) (np : Nat) (sQ s1 : State) (F0 : Nat),
      splitPos b1 kp1 = .ok sp ∧ b1.keys.get? sp = some sk ∧
      s.pages ⟨0, s.allocNext⟩ = none ∧
      r.keys = b1.keys.drop (sp + 1) ∧ r.nextChild = b1.nextChild ∧
      (∃ pp, sQ.pages ⟨0, s.allocNext⟩ = some { r with parent := pp }) ∧
      truncateTo c { b1 with nextChild := sk.prevChildBucket } sp kp1 = .ok (t, np) ∧
      t.keys = keepFrom kp1 0 (b1.keys.take sp) ∧ t.nextChild = sk.prevChildBucket ∧
      (∃ pp, sQ.pages l = some { t with parent := pp }) ∧
      (b1.parent = DiskLoc.Null →
        s.pages ⟨0, s.allocNext + c.BucketSize⟩ = none ∧
        sQ.head = ⟨0, s.allocNext + c.BucketSize⟩ ∧
        (∃ p, sQ.pages ⟨0, s.allocNext + c.BucketSize⟩ = some p ∧
          p.keys = [⟨l, sk.recordLoc, sk.key⟩] ∧ p.nextChild = ⟨0, s.allocNext⟩ ∧
          p.parent = DiskLoc.Null) ∧
        sQ.pages l = some { t with parent := ⟨0, s.allocNext + c.BucketSize⟩ } ∧
        sQ.pages ⟨0, s.allocNext⟩ = some { r with parent := ⟨0, s.allocNext + c.BucketSize⟩ }) ∧
      (b1.parent ≠ DiskLoc.Null → ∃ pos pb1 sF sP pp,
        sF.pages l = some { b1 with nextChild := sk.prevChildBucket } ∧
        sF.pages ⟨0, s.allocNext⟩ = some { r with parent := b1.parent } ∧
        sF.pages b1.parent = some pb1 ∧
        (∀ probe, findWith pb1 sk.key sk.recordLoc o false probe = .ok (false, pos)) ∧
        pb1.childForPos pos = some l ∧
        (∀ fuel, F0 ≤ fuel → insertHere c o fuel sF b1.parent pos sk.recordLoc sk.key l
          ⟨0, s.allocNext⟩ = (.ok (), sP)) ∧
        sP.pages l = some { b1 with nextChild := sk.prevChildBucket, parent := pp } ∧
        sQ = sP.put l { t with parent := pp }) ∧
      Content o sQ = Content o s ∧
      (∀ fuel, F0 ≤ fuel →
        insertHere c o (fuel + 1) s l kp recordLoc key DiskLoc.Null DiskLoc.Null =
          insertHere c o fuel sQ (if kp1 ≤ sp then l else ⟨0, s.allocNext⟩)
            (if kp1 ≤ sp then np else kp1 - sp - 1) recordLoc key DiskLoc.Null DiskLoc.Null ∧
        insertHere c o (fuel + 1) s l kp recordLoc key DiskLoc.Null DiskLoc.Null
          = (.ok (), s1)) ∧
      WellFormed c o s1 ∧
      Content o s1 = Content o s ∪ usedEntry o ⟨DiskLoc.Null, recordLoc, key⟩ := by
  have hg0 : GInv c o (s.view (fun _ => none)) g ∅ := by
    rw [view_none]
    exact GInv.of_inv hinv
  have hov : ∀ x t, (fun _ => none : DiskLoc → Option BtreeBucket) x = some t →
      g.rank x < g.rank l := fun x t hx => by cases hx
  have hovm : ∀ x t, (fun _ => none : DiskLoc → Option BtreeBucket) x = some t →
      ∃ bx, s.pages x = some bx := fun x t hx => by cases hx
  have hfr : ∀ r ∈ (∅ : Set DiskLoc), g.rank r < g.rank l :=
    fun r hr => absurd hr (Set.not_mem_empty r)
  have vL : (s.view (fun _ => none)).pages l = some b := by rw [view_none]; exact hL
  obtain ⟨b1', kp1', hpa, hsz1, hcase⟩ := basicInsert_spec c hc b kp recordLoc key
    (hg0.sizes l b vL) pre.pos_le hpos hle
  have hbi' : basicInsert c b kp recordLoc key = .ok (false, b1', kp1') ∧
      b1'.emptySize < key.objsize + c.slotSize ∧ b1'.packed = true := by
    rcases hcase with ⟨b2, h2, _⟩ | h
    · rw [h2] at hbi
      cases hbi
    · exact h
  obtain ⟨hbi2, hno, hpk⟩ := hbi'
  have hb1 : b1' = b1 ∧ kp1' = kp1 := by
    rw [hbi2] at hbi
    cases hbi
    exact ⟨rfl, rfl⟩
  obtain ⟨rfl, rfl⟩ := hb1
  have hlen := length_gt_two_of_no_room c hc b1' hsz1 hpk key hpos hle hno
  obtain ⟨sp, sk, r, sD, t, np, so⟩ := split_stage c hc o hg0 hov hovm hL hpa hsz1 hlen
  have hge := hg0.slack_ge
  obtain ⟨m, hm⟩ : ∃ m : Nat, slack (s.view (fun _ => none)) + 2 ≤ (m : Int) :=
    ⟨(slack (s.view (fun _ => none)) + 2).toNat, by omega⟩
  obtain ⟨s1, g1, hrun, post⟩ := insertHere_spec c hc o m s (fun _ => none) g ∅ l b kp
    recordLoc key DiskLoc.Null DiskLoc.Null hg0 hov hovm hfr hL pre hrl hpos hle hm
  have hinv1 : Inv c o s1 g1 := by
    have := post.inv
    rw [view_none, Set.empty_diff] at this
    exact this.to_inv
  have hcont1 : Content o s1 = Content o s ∪ usedEntry o ⟨DiskLoc.Null, recordLoc, key⟩ := by
    have := post.content
    rw [view_none, view_none] at this
    exact this
  obtain ⟨t', np', htr, _, htn, _, htk, _⟩ := truncateTo_spec c hc
    { b1' with nextChild := sk.prevChildBucket } sp kp1'
    (hsz1.congr rfl rfl rfl rfl) (by
      show sp ≤ b1'.keys.length
      have := so.sp_le
      omega)
  have htt : t' = t ∧ np' = np := by
    rw [so.trunc] at htr
    cases htr
    exact ⟨rfl, rfl⟩
  obtain ⟨rfl, rfl⟩ := htt
  by_cases hpar : b1'.parent = DiskLoc.Null
  · have hhd : s.head = l := by
      by_contra hne
      have hlf : l ∉ (∅ : Set DiskLoc) := Set.not_mem_empty l
      obtain ⟨pb, hpb, _⟩ := hg0.link l b vL (fun h => hne h.symm) hlf
      rw [← hpa.parent, hpar, hg0.null_unmapped] at hpb
      cases hpb
    obtain ⟨sQ, g2, hrunQ, po, hQh, hQN, hQl, hQR, hNf⟩ := promote_root_run c hc o recordLoc key
      DiskLoc.Null DiskLoc.Null hg0 hov hovm hL hbi2 so hhd hpar
    rw [so.alloc] at hQh hQN hQl hQR hNf
    refine ⟨sp, sk, { r with nextChild := b1'.nextChild }, t', np', sQ, s1, m, so.split_eq,
      so.get_sk, so.fresh_r, so.r_keys, rfl, ⟨_, hQR⟩, so.trunc, htk, htn, ⟨_, hQl⟩,
      fun _ => ⟨hNf, hQh, hQN, hQl, hQR⟩, fun h => absurd hpar h, ?_, ?_, ⟨g1, hinv1⟩, hcont1⟩
    · have := po.content
      rw [view_none, view_none] at this
      exact this
    · intro fuel hf
      have h1 := hrunQ fuel
      exact ⟨h1, hrun (fuel + 1) (by omega)⟩
  · obtain ⟨sQ, g2, hrunQ, po, pos, pb1, sP, pp, hFP, hfind, hch, hrunP, hPl, hQ⟩ :=
      promote_parent_run c hc o (insertHere_spec c hc o (m - 2)) recordLoc key
        DiskLoc.Null DiskLoc.Null hg0 hov hovm hfr hL hpa hsz1 hbi2 so hpar hm
    obtain ⟨ppR, hQR⟩ := po.page_r
    refine ⟨sp, sk, { r with nextChild := b1'.nextChild }, t', np', sQ, s1, m, so.split_eq,
      so.get_sk, so.fresh_r, so.r_keys, rfl, ⟨_, hQR⟩, so.trunc, htk, htn, po.page_l,
      fun h => absurd h hpar,
      fun _ => ⟨pos, pb1, _, sP, pp, ?_, State.put_pages_same _ _ _, hFP, hfind, hch,
        fun fuel hf => hrunP fuel (by omega), hPl, hQ⟩, ?_, ?_, ⟨g1, hinv1⟩, hcont1⟩
    · rw [State.put_pages_ne _ _ so.ne_r]
      exact State.put_pages_same _ _ _
    · have := po.content
      rw [view_none, view_none] at this
      exact this
    · intro fuel hf
      have h1 := hrunQ fuel (by omega)
      exact ⟨h1, hrun (fuel + 1) (by omega)⟩

theorem insertHere_splits_witness :
    Inv smallLayout ascending (singlePage smallLayout crowdedPage) flatGhost ∧
    basicInsert smallLayout crowdedPage 5 ⟨1, 60⟩ (sampleKey 6 10)
      = .ok (false, crowdedPage, 5) ∧
    (∃ (sp : Nat) (sk : _KeyNode) (r t : BtreeBucket) (np : Nat) (sQ s1 : State) (F0 : Nat),
      splitPos crowdedPage 5 = .ok sp ∧ crowdedPage.keys.get? sp = some sk ∧
      (singlePage smallLayout crowdedPage).pages ⟨0, 200⟩ = none ∧
      r.keys = crowdedPage.keys.drop (sp + 1) ∧ r.nextChild = crowdedPage.nextChild ∧
      (∃ pp, sQ.pages ⟨0, 200⟩ = some { r with parent := pp }) ∧
      truncateTo smallLayout { crowdedPage with nextChild := sk.prevChildBucket } sp 5 = .ok (t,
          np) ∧
      t.keys = keepFrom 5 0 (crowdedPage.keys.take sp) ∧ t.nextChild = sk.prevChildBucket ∧
      (∃ pp, sQ.pages ⟨0, 0⟩ = some { t with parent := pp }) ∧
      (crowdedPage.parent = DiskLoc.Null →
        (singlePage smallLayout crowdedPage).pages ⟨0, 400⟩ = none ∧
        sQ.head = ⟨0, 400⟩ ∧
        (∃ p, sQ.pages ⟨0, 400⟩ = some p ∧
          p.keys = [⟨⟨0, 0⟩, sk.recordLoc, sk.key⟩] ∧ p.nextChild = ⟨0, 200⟩ ∧
          p.parent = DiskLoc.Null) ∧
        sQ.pages ⟨0, 0⟩ = some { t with parent := ⟨0, 400⟩ } ∧
        sQ.pages ⟨0, 200⟩ = some { r with parent := ⟨0, 400⟩ }) ∧
      (crowdedPage.parent ≠ DiskLoc.Null → ∃ pos pb1 sF sP pp,
        sF.pages ⟨0, 0⟩ = some { crowdedPage with nextChild := sk.prevChildBucket } ∧
        sF.pages ⟨0, 200⟩ = some { r with parent := crowdedPage.parent } ∧
        sF.pages crowdedPage.parent = some pb1 ∧
        (∀ probe, findWith pb1 sk.key sk.recordLoc ascending false probe = .ok (false, pos)) ∧
        pb1.childForPos pos = some ⟨0, 0⟩ ∧
        (∀ fuel, F0 ≤ fuel → insertHere smallLayout ascending fuel sF crowdedPage.parent pos
            sk.recordLoc sk.key ⟨0, 0⟩
          ⟨0, 200⟩ = (.ok (), sP)) ∧
        sP.pages ⟨0, 0⟩ = some { crowdedPage with nextChild := sk.prevChildBucket, parent := pp } ∧
        sQ = sP.put ⟨0, 0⟩ { t with parent := pp }) ∧
      Content ascending sQ = Content ascending (singlePage smallLayout crowdedPage) ∧
      (∀ fuel, F0 ≤ fuel →
        insertHere smallLayout ascending (fuel + 1) (singlePage smallLayout crowdedPage) ⟨0, 0⟩ 5
            ⟨1, 60⟩ (sampleKey 6 10)
          DiskLoc.Null DiskLoc.Null =
          insertHere smallLayout ascending fuel sQ (if 5 ≤ sp then ⟨0, 0⟩ else ⟨0, 200⟩)
            (if 5 ≤ sp then np else 5 - sp - 1) ⟨1, 60⟩ (sampleKey 6 10) DiskLoc.Null DiskLoc.Null ∧
        insertHere smallLayout ascending (fuel + 1) (singlePage smallLayout crowdedPage) ⟨0, 0⟩ 5
            ⟨1, 60⟩ (sampleKey 6 10)
          DiskLoc.Null DiskLoc.Null
          = (.ok (), s1)) ∧
      WellFormed smallLayout ascending s1 ∧
      Content ascending s1 = Content ascending (singlePage smallLayout crowdedPage) ∪ usedEntry
          ascending ⟨DiskLoc.Null, ⟨1, 60⟩, sampleKey 6 10⟩) :=
  ⟨inv_singlePage smallLayout ascending crowdedPage (by decide) (by decide), rfl,
    insertHere_splits smallLayout smallLayout_sane ascending (singlePage smallLayout crowdedPage)
      flatGhost ⟨0, 0⟩ crowdedPage crowdedPage 5 5 ⟨1, 60⟩ (sampleKey 6 10)
      (inv_singlePage smallLayout ascending crowdedPage (by decide) (by decide)) rfl
      crowdedPage_pre (by decide) (by decide) (by decide) rfl⟩

/-- C34 counterexample: `insertHere` at position 5 of the root leaf
`crowdedPage`, whose slot 1 is unused and has no left child. `basicInsert`
fails and leaves the page as it is, since its `Packed` flag is set, and
`splitPos` gives 3. The call returns; afterwards the original page holds the
slots originally at 0 and 2 only, and the slot originally at 1 is in no page. -/
theorem insertHere_counterexample :
    basicInsert smallLayout crowdedPage 5 ⟨1, 60⟩ (sampleKey 6 10)
      = .ok (false, crowdedPage, 5) ∧
    splitPos crowdedPage 5 = .ok 3 ∧
    (insertHere smallLayout ascending 3 (singlePage smallLayout crowdedPage) ⟨0, 0⟩ 5 ⟨1, 60⟩
      (sampleKey 6 10) DiskLoc.Null DiskLoc.Null).1 = .ok () ∧
    ((insertHere smallLayout ascending 3 (singlePage smallLayout crowdedPage) ⟨0, 0⟩ 5 ⟨1, 60⟩
      (sampleKey 6 10) DiskLoc.Null DiskLoc.Null).2.pages ⟨0, 0⟩).map (fun b => b.keys)
        = some [leafSlot 1 10 10, leafSlot 3 10 30] ∧
    crowdedPage.keys.take 3 = [leafSlot 1 10 10, leafSlot 2 10 21, leafSlot 3 10 30] ∧
    ((insertHere smallLayout ascending 3 (singlePage smallLayout crowdedPage) ⟨0, 0⟩ 5 ⟨1, 60⟩
      (sampleKey 6 10) DiskLoc.Null DiskLoc.Null).2.pages ⟨0, 200⟩).map (fun b => b.keys)
        = some [leafSlot 5 10 50, leafSlot 6 10 60] ∧
    ((insertHere smallLayout ascending 3 (singlePage smallLayout crowdedPage) ⟨0, 0⟩ 5 ⟨1, 60⟩
      (sampleKey 6 10) DiskLoc.Null DiskLoc.Null).2.pages ⟨0, 400⟩).map (fun b => b.keys)
        = some [⟨⟨0, 0⟩, ⟨1, 40⟩, sampleKey 4 10⟩] :=
  ⟨rfl, rfl, rfl, rfl, rfl, rfl, rfl⟩

end BtreeBucket
end mongo
namespace mongo
namespace BtreeBuilder
open BtreeBucket

theorem BInv.same {c : Layout} {o : Ordering} {s s1 : State} {g : Ghost} {fl fl1 : Set DiskLoc}
    {P : Set (BSONObj × DiskLoc)} (h : BInv c o s g fl P)
    (hp : ∀ l, s1.pages l = s.pages l) (ha : s1.allocNext = s.allocNext) (hfl : fl1 = fl) :
    BInv c o s1 g fl1 P := by
  subst hfl
  have hps : s1.pages = s.pages := funext hp
  cases s with
  | mk p hd a =>
    cases s1 with
    | mk p1 hd1 a1 =>
      simp only at hps ha
      subst hps
      subst ha
      exact
        { null_unmapped := h.null_unmapped
          page := fun l b hl =>
            { sorted := (h.page l b hl).sorted
              lo_lt := (h.page l b hl).lo_lt
              lt_hi := (h.page l b hl).lt_hi
              rl_valid := (h.page l b hl).rl_valid
              slot_child := (h.page l b hl).slot_child
              next_child := (h.page l b hl).next_child }
          sizes := h.sizes
          packed := h.packed
          slots := h.slots
          link := h.link
          float := h.float
          fresh := h.fresh
          alloc_nonneg := h.alloc_nonneg }

theorem BInv.mono_pairs {c : Layout} {o : Ordering} {s : State} {g : Ghost} {fl : Set DiskLoc}
    {P P1 : Set (BSONObj × DiskLoc)} (h : BInv c o s g fl P) (hP : P ⊆ P1) :
    BInv c o s g fl P1 :=
  { h with slots := fun l b hl k hk => ⟨(h.slots l b hl k hk).1, hP (h.slots l b hl k hk).2⟩ }

theorem BInv.mapped_ne_null {c : Layout} {o : Ordering} {s : State} {g : Ghost} {fl : Set DiskLoc}
    {P : Set (BSONObj × DiskLoc)} (h : BInv c o s g fl P) {l : DiskLoc} {b : BtreeBucket}
    (hl : s.pages l = some b) : l ≠ DiskLoc.Null := by
  rintro rfl
  rw [h.null_unmapped] at hl
  cases hl

/-- The order condition of a page carries over to a state and ghost data in
which the page's children and its own ghost data are as they were. -/
theorem pagePF_keep {o : Ordering} {s s1 : State} {g g1 : Ghost} {l : DiskLoc}
    {b : BtreeBucket} (h : PagePF o s g l b)
    (hr : g1.rank l = g.rank l) (hlo : g1.lo l = g.lo l) (hhi : g1.hi l = g.hi l)
    (hch : ∀ ch, IsChild b ch → ch ≠ DiskLoc.Null →
      s1.pages ch = s.pages ch ∧ g1.rank ch = g.rank ch ∧ g1.lo ch = g.lo ch ∧
        g1.hi ch = g.hi ch) :
    PagePF o s1 g1 l b :=
  h.transfer hr hlo hhi (fun ch hc hn cb hcb hp => by
    obtain ⟨h1, h2, h3, h4⟩ := hch ch hc hn
    exact ⟨⟨cb, by rw [h1]; exact hcb, hp⟩, le_of_eq h2, le_of_eq h3.symm, le_of_eq h4⟩)

/-- A child of a mapped page is a mapped page of a smaller rank whose `parent`
names the page. -/
theorem BInv.child_of {c : Layout} {o : Ordering} {s : State} {g : Ghost} {fl : Set DiskLoc}
    {P : Set (BSONObj × DiskLoc)} (h : BInv c o s g fl P) {l ch : DiskLoc} {b : BtreeBucket}
    (hl : s.pages l = some b) (hc : IsChild b ch) (hn : ch ≠ DiskLoc.Null) :
    (∃ cb, s.pages ch = some cb ∧ cb.parent = l) ∧ g.rank ch < g.rank l := by
  obtain ⟨h1, h2, _⟩ := (h.page l b hl).isChild hc hn
  exact ⟨h1, h2⟩

/-- A root is not a child of any page, and is not the null locator. -/
theorem BInv.root_not_child {c : Layout} {o : Ordering} {s : State} {g : Ghost}
    {fl : Set DiskLoc} {P : Set (BSONObj × DiskLoc)} (h : BInv c o s g fl P) {r : DiskLoc}
    (hr : r ∈ fl) : r ≠ DiskLoc.Null ∧ ∀ l b, s.pages l = some b → ¬ IsChild b r := by
  obtain ⟨⟨rb, hrb⟩, h2⟩ := h.float r hr
  exact ⟨h.mapped_ne_null hrb, h2⟩

end BtreeBuilder
end mongo
namespace mongo
namespace BtreeBuilder
open BtreeBucket

theorem rootGhostAt_ne (g : Ghost) (n : DiskLoc) (R : Nat) (v : WithBot EKey) {l : DiskLoc}
    (h : l ≠ n) : (rootGhostAt g n R v).rank l = g.rank l ∧ (rootGhostAt g n R v).lo l = g.lo l ∧
      (rootGhostAt g n R v).hi l = g.hi l :=
  ⟨Function.update_noteq h _ _, Function.update_noteq h _ _, Function.update_noteq h _ _⟩

theorem rootGhostAt_self (g : Ghost) (n : DiskLoc) (R : Nat) (v : WithBot EKey) :
    (rootGhostAt g n R v).rank n = R ∧ (rootGhostAt g n R v).lo n = v ∧
      (rootGhostAt g n R v).hi n = ⊤ :=
  ⟨Function.update_same _ _ _, Function.update_same _ _ _, Function.update_same _ _ _⟩

/-- The next locator of the allocator is not mapped. -/
theorem BInv.next_unmapped {c : Layout} {o : Ordering} {s : State} {g : Ghost}
    {fl : Set DiskLoc} {P : Set (BSONObj × DiskLoc)} (h : BInv c o s g fl P) :
    s.pages ⟨0, s.allocNext⟩ = none := by
  cases hn : s.pages ⟨0, s.allocNext⟩ with
  | none => rfl
  | some b =>
    have := (h.fresh _ b hn).2.2
    exact absurd this (lt_irrefl _)

theorem addBucket_pages (c : Layout) (s : State) (l : DiskLoc) :
    (addBucket c s).2.pages l = if l = ⟨0, s.allocNext⟩ then some (init c) else s.pages l := by
  rw [addBucket_eq]
  exact State.put_pages _ _ _ _

theorem isChild_init (c : Layout) {r : DiskLoc} (h : IsChild (init c) r) : r = DiskLoc.Null := by
  rcases h with h | ⟨k, hk, _⟩
  · exact h.symm
  · cases hk

/-- A fresh page is a new root of the forest. -/
theorem BInv.alloc {c : Layout} (hc : Layout.Sane c) {o : Ordering} {s : State} {g : Ghost}
    {fl : Set DiskLoc} {P : Set (BSONObj × DiskLoc)} (h : BInv c o s g fl P) (R : Nat)
    (v : WithBot EKey) :
    BInv c o (addBucket c s).2 (rootGhostAt g ⟨0, s.allocNext⟩ R v)
      (fl ∪ {⟨0, s.allocNext⟩}) P := by
  have hnew := h.next_unmapped
  have hne : ∀ l b, s.pages l = some b → l ≠ ⟨0, s.allocNext⟩ := by
    rintro l b hl rfl
    rw [hnew] at hl
    cases hl
  have hnn : (⟨0, s.allocNext⟩ : DiskLoc) ≠ DiskLoc.Null := by
    intro e
    have := congrArg DiskLoc.a e
    simp [DiskLoc.Null] at this
  have hold : ∀ l b, (addBucket c s).2.pages l = some b → l ≠ ⟨0, s.allocNext⟩ →
      s.pages l = some b := by
    intro l b hl hn
    rw [addBucket_pages, if_neg hn] at hl
    exact hl
  have hcases : ∀ l b, (addBucket c s).2.pages l = some b →
      (l = ⟨0, s.allocNext⟩ ∧ b = init c) ∨ (l ≠ ⟨0, s.allocNext⟩ ∧ s.pages l = some b) := by
    intro l b hl
    by_cases hn : l = ⟨0, s.allocNext⟩
    · rw [addBucket_pages, if_pos hn] at hl
      exact Or.inl ⟨hn, (Option.some.inj hl).symm⟩
    · exact Or.inr ⟨hn, hold l b hl hn⟩
  have hchild : ∀ l b, s.pages l = some b → ∀ ch, IsChild b ch → ch ≠ DiskLoc.Null →
      ch ≠ ⟨0, s.allocNext⟩ := by
    intro l b hl ch hch hn
    obtain ⟨⟨cb, hcb, _⟩, _⟩ := h.child_of hl hch hn
    exact hne ch cb hcb
  refine
    { null_unmapped := by
        rw [addBucket_pages, if_neg (Ne.symm hnn)]
        exact h.null_unmapped
      page := ?_
      sizes := ?_
      packed := ?_
      slots := ?_
      link := ?_
      float := ?_
      fresh := ?_
      alloc_nonneg := by
        show 0 ≤ s.allocNext + c.BucketSize
        have := h.alloc_nonneg
        have := hc.bucket_pos
        omega }
  · intro l b hl
    rcases hcases l b hl with ⟨rfl, rfl⟩ | ⟨hn, hl0⟩
    · exact
        { sorted := List.Pairwise.nil
          lo_lt := fun k hk => by cases hk
          lt_hi := fun k hk => by cases hk
          rl_valid := fun k hk => by cases hk
          slot_child := fun k hk => by cases hk
          next_child := fun hx => absurd rfl hx }
    · obtain ⟨h1, h2, h3⟩ := rootGhostAt_ne g ⟨0, s.allocNext⟩ R v hn
      refine pagePF_keep (h.page l b hl0) h1 h2 h3 ?_
      intro ch hch hnull
      have hcn := hchild l b hl0 ch hch hnull
      obtain ⟨h4, h5, h6⟩ := rootGhostAt_ne g ⟨0, s.allocNext⟩ R v hcn
      exact ⟨by rw [addBucket_pages, if_neg hcn], h4, h5, h6⟩
  · intro l b hl
    rcases hcases l b hl with ⟨rfl, rfl⟩ | ⟨hn, hl0⟩
    · exact pageSizes_init c hc
    · exact h.sizes l b hl0
  · intro l b hl
    rcases hcases l b hl with ⟨rfl, rfl⟩ | ⟨hn, hl0⟩
    · rfl
    · exact h.packed l b hl0
  · intro l b hl k hk
    rcases hcases l b hl with ⟨rfl, rfl⟩ | ⟨hn, hl0⟩
    · cases hk
    · exact h.slots l b hl0 k hk
  · intro l b hl hfl
    rcases hcases l b hl with ⟨rfl, rfl⟩ | ⟨hn, hl0⟩
    · exact absurd (Or.inr rfl) hfl
    · obtain ⟨h1, pb, hpb, hch⟩ := h.link l b hl0 (fun hx => hfl (Or.inl hx))
      refine ⟨h1, pb, ?_, hch⟩
      rw [addBucket_pages, if_neg (hne _ pb hpb)]
      exact hpb
  · intro r hr
    have hrn : r ≠ DiskLoc.Null := by
      rcases hr with hr | hr
      · exact (h.root_not_child hr).1
      · rw [Set.mem_singleton_iff.mp hr]
        exact hnn
    constructor
    · rcases hr with hr | hr
      · obtain ⟨⟨rb, hrb⟩, _⟩ := h.float r hr
        exact ⟨rb, by rw [addBucket_pages, if_neg (hne r rb hrb)]; exact hrb⟩
      · rw [Set.mem_singleton_iff.mp hr]
        exact ⟨init c, by rw [addBucket_pages, if_pos rfl]⟩
    · intro l b hl hch
      rcases hcases l b hl with ⟨rfl, rfl⟩ | ⟨hn, hl0⟩
      · exact hrn (isChild_init c hch)
      · rcases hr with hr | hr
        · exact (h.float r hr).2 l b hl0 hch
        · rw [Set.mem_singleton_iff.mp hr] at hch
          exact hchild l b hl0 _ hch hnn rfl
  · intro l b hl
    have hbp := hc.bucket_pos
    rcases hcases l b hl with ⟨rfl, rfl⟩ | ⟨hn, hl0⟩
    · refine ⟨rfl, h.alloc_nonneg, ?_⟩
      show s.allocNext < s.allocNext + c.BucketSize
      omega
    · obtain ⟨h1, h2, h3⟩ := h.fresh l b hl0
      refine ⟨h1, h2, ?_⟩
      show l.ofs < s.allocNext + c.BucketSize
      omega

/-- The `parent` field of a root is free. -/
theorem BInv.set_root_parent {c : Layout} {o : Ordering} {s : State} {g : Ghost}
    {fl : Set DiskLoc} {P : Set (BSONObj × DiskLoc)} (h : BInv c o s g fl P) {r : DiskLoc}
    {rb : BtreeBucket} (hr : r ∈ fl) (hrb : s.pages r = some rb) (p : DiskLoc) :
    BInv c o (s.put r { rb with parent := p }) g fl P := by
  obtain ⟨hrn, hnc⟩ := h.root_not_child hr
  have hcases : ∀ l b, (s.put r { rb with parent := p }).pages l = some b →
      (l = r ∧ b = { rb with parent := p }) ∨ (l ≠ r ∧ s.pages l = some b) := by
    intro l b hl
    rw [State.put_pages] at hl
    by_cases hn : l = r
    · rw [if_pos hn] at hl
      exact Or.inl ⟨hn, (Option.some.inj hl).symm⟩
    · rw [if_neg hn] at hl
      exact Or.inr ⟨hn, hl⟩
  have hchild : ∀ l b, s.pages l = some b → ∀ ch, IsChild b ch → ch ≠ DiskLoc.Null →
      (s.put r { rb with parent := p }).pages ch = s.pages ch := by
    intro l b hl ch hch _
    have : ch ≠ r := by
      rintro rfl
      exact hnc l b hl hch
    exact State.put_pages_ne _ _ this
  refine
    { null_unmapped := by
        rw [State.put_pages_ne _ _ (Ne.symm hrn)]
        exact h.null_unmapped
      page := ?_
      sizes := ?_
      packed := ?_
      slots := ?_
      link := ?_
      float := ?_
      fresh := ?_
      alloc_nonneg := h.alloc_nonneg }
  · intro l b hl
    rcases hcases l b hl with ⟨rfl, rfl⟩ | ⟨hn, hl0⟩
    · refine (pagePF_keep (h.page l rb hrb) rfl rfl rfl ?_).congr_page rfl rfl
      intro ch hch hnull
      exact ⟨hchild l rb hrb ch hch hnull, rfl, rfl, rfl⟩
    · refine pagePF_keep (h.page l b hl0) rfl rfl rfl ?_
      intro ch hch hnull
      exact ⟨hchild l b hl0 ch hch hnull, rfl, rfl, rfl⟩
  · intro l b hl
    rcases hcases l b hl with ⟨rfl, rfl⟩ | ⟨hn, hl0⟩
    · exact (h.sizes l rb hrb).congr rfl rfl rfl rfl
    · exact h.sizes l b hl0
  · intro l b hl
    rcases hcases l b hl with ⟨rfl, rfl⟩ | ⟨hn, hl0⟩
    · exact h.packed l rb hrb
    · exact h.packed l b hl0
  · intro l b hl k hk
    rcases hcases l b hl with ⟨rfl, rfl⟩ | ⟨hn, hl0⟩
    · exact h.slots l rb hrb k hk
    · exact h.slots l b hl0 k hk
  · intro l b hl hfl
    rcases hcases l b hl with ⟨rfl, rfl⟩ | ⟨hn, hl0⟩
    · exact absurd hr hfl
    · obtain ⟨h1, pb, hpb, hch⟩ := h.link l b hl0 hfl
      refine ⟨h1, ?_⟩
      by_cases hpr : b.parent = r
      · rw [hpr] at hpb ⊢
        rw [hrb] at hpb
        cases hpb
        exact ⟨_, State.put_pages_same _ _ _, hch⟩
      · exact ⟨pb, by rw [State.put_pages_ne _ _ hpr]; exact hpb, hch⟩
  · intro r1 hr1
    obtain ⟨⟨rb1, hrb1⟩, h2⟩ := h.float r1 hr1
    constructor
    · by_cases hn : r1 = r
      · exact ⟨_, by rw [hn]; exact State.put_pages_same _ _ _⟩
      · exact ⟨rb1, by rw [State.put_pages_ne _ _ hn]; exact hrb1⟩
    · intro l b hl hch
      rcases hcases l b hl with ⟨rfl, rfl⟩ | ⟨hn, hl0⟩
      · exact h2 l rb hrb hch
      · exact h2 l b hl0 hch
  · intro l b hl
    rcases hcases l b hl with ⟨rfl, rfl⟩ | ⟨hn, hl0⟩
    · exact h.fresh l rb hrb
    · exact h.fresh l b hl0

end BtreeBuilder
end mongo
namespace mongo
namespace BtreeBuilder
open BtreeBucket

/-- The page that `popBack` leaves of the page `b` whose last slot is `kn`,
after the slots `ks`. -/
theorem pageSizes_pop {c : Layout} (hc : Layout.Sane c) {b : BtreeBucket} {ks : List _KeyNode}
    {kn : _KeyNode} (hsz : PageSizes c b) (hp : b.packed = true) (hk : b.keys = ks ++ [kn]) :
    PageSizes c (popped c b ks kn) := by
  have hacc : b.emptySize + b.topSize + (((ks.length : Nat) : Int) + 1) * c.slotSize
      + c.headerSize = c.BucketSize := by
    have := hsz.accounting
    unfold sizeAccounting BtreeBucket.n at this
    rw [hk, List.length_append, List.length_singleton] at this
    push_cast at this
    exact this
  have hbe := hsz.bytes_eq hp
  rw [hk, keyBytes_append, keyBytes_singleton] at hbe
  have hkp := hsz.key_pos kn (by rw [hk]; simp)
  have hsl := hc.slot_pos
  have hen := hsz.empty_nonneg
  exact
    { accounting := by
        show (b.emptySize + c.slotSize + kn.key.objsize) + (b.topSize - kn.key.objsize)
          + ((ks.length : Nat) : Int) * c.slotSize + c.headerSize = c.BucketSize
        linarith
      empty_nonneg := by
        show 0 ≤ b.emptySize + c.slotSize + kn.key.objsize
        omega
      bytes_le := by
        show keyBytes ks ≤ b.topSize - kn.key.objsize
        omega
      bytes_eq := fun _ => by
        show keyBytes ks = b.topSize - kn.key.objsize
        omega
      key_pos := fun k hk1 => hsz.key_pos k (by rw [hk]; exact List.mem_append_left _ hk1)
      key_le := fun k hk1 => hsz.key_le k (by rw [hk]; exact List.mem_append_left _ hk1) }

theorem popGhost_ne (g : Ghost) (x : DiskLoc) (e : EKey) {l : DiskLoc} (h : l ≠ x) :
    (popGhost g x e).hi l = g.hi l := Function.update_noteq h _ _

theorem popGhost_self (g : Ghost) (x : DiskLoc) (e : EKey) :
    (popGhost g x e).hi x = ((e : EKey) : WithTop EKey) := Function.update_same _ _ _

/-- The last slot of a root without a last child is taken off: the left child
of the slot becomes the last child, and the interval of the root ends at the
slot. -/
theorem BInv.pop {c : Layout} (hc : Layout.Sane c) {o : Ordering} {s : State} {g : Ghost}
    {fl : Set DiskLoc} {P : Set (BSONObj × DiskLoc)} (h : BInv c o s g fl P) {x : DiskLoc}
    {bx : BtreeBucket} {ks : List _KeyNode} {kn : _KeyNode} (hx : x ∈ fl)
    (hbx : s.pages x = some bx) (hk : bx.keys = ks ++ [kn]) (hnc : bx.nextChild = DiskLoc.Null) :
    BInv c o (s.put x (popped c bx ks kn)) (popGhost g x (kn.ekey o)) fl P := by
  obtain ⟨hxn, hxc⟩ := h.root_not_child hx
  have hpf := h.page x bx hbx
  have hmem : ∀ k ∈ ks, k ∈ bx.keys := fun k hk1 => by
    rw [hk]; exact List.mem_append_left _ hk1
  have hknm : kn ∈ bx.keys := by rw [hk]; simp
  have hsorted : SortedSlots o (ks ++ [kn]) := by rw [← hk]; exact hpf.sorted
  have hlt : ∀ k ∈ ks, k.ekey o < kn.ekey o := by
    intro k hk1
    exact (List.pairwise_append.mp hsorted).2.2 k hk1 kn (List.mem_singleton_self _)
  set x1 : BtreeBucket := popped c bx ks kn with hx1
  have hx1k : x1.keys = ks := rfl
  have hx1n : x1.nextChild = kn.prevChildBucket := rfl
  have hcases : ∀ l b, (s.put x x1).pages l = some b →
      (l = x ∧ b = x1) ∨ (l ≠ x ∧ s.pages l = some b) := by
    intro l b hl
    rw [State.put_pages] at hl
    by_cases hn : l = x
    · rw [if_pos hn] at hl
      exact Or.inl ⟨hn, (Option.some.inj hl).symm⟩
    · rw [if_neg hn] at hl
      exact Or.inr ⟨hn, hl⟩
  have hchild : ∀ l b, s.pages l = some b → ∀ ch, IsChild b ch → ch ≠ DiskLoc.Null →
      ch ≠ x := by
    rintro l b hl ch hch _ rfl
    exact hxc l b hl hch
  have hkeep : ∀ l b, s.pages l = some b → ∀ ch, IsChild b ch → ch ≠ DiskLoc.Null →
      (s.put x x1).pages ch = s.pages ch ∧ (popGhost g x (kn.ekey o)).rank ch = g.rank ch ∧
        (popGhost g x (kn.ekey o)).lo ch = g.lo ch ∧
        (popGhost g x (kn.ekey o)).hi ch = g.hi ch := by
    intro l b hl ch hch hn
    have := hchild l b hl ch hch hn
    exact ⟨State.put_pages_ne _ _ this, rfl, rfl, popGhost_ne g x _ this⟩
  have hxch : ∀ ch, IsChild x1 ch → ch ≠ DiskLoc.Null → IsChild bx ch := by
    intro ch hch _
    rcases hch with hch | ⟨k, hk1, hk2⟩
    · exact Or.inr ⟨kn, hknm, hch⟩
    · exact Or.inr ⟨k, hmem k hk1, hk2⟩
  refine
    { null_unmapped := by
        rw [State.put_pages_ne _ _ (Ne.symm hxn)]
        exact h.null_unmapped
      page := ?_
      sizes := ?_
      packed := ?_
      slots := ?_
      link := ?_
      float := ?_
      fresh := ?_
      alloc_nonneg := h.alloc_nonneg }
  · intro l b hl
    rcases hcases l b hl with ⟨rfl, rfl⟩ | ⟨hn, hl0⟩
    · exact
        { sorted := (List.pairwise_append.mp hsorted).1
          lo_lt := fun k hk1 => hpf.lo_lt k (hmem k hk1)
          lt_hi := fun k hk1 => by
            rw [popGhost_self]
            exact WithTop.coe_lt_coe.mpr (hlt k hk1)
          rl_valid := fun k hk1 => hpf.rl_valid k (hmem k hk1)
          slot_child := fun k hk1 hn => by
            obtain ⟨⟨cb, hcb, hcp⟩, h2, h3, h4, h5⟩ := hpf.slot_child k (hmem k hk1) hn
            obtain ⟨e1, _, _, e4⟩ := hkeep l bx hbx _ (Or.inr ⟨k, hmem k hk1, rfl⟩) hn
            refine ⟨⟨cb, e1.trans hcb, hcp⟩, h2, h3,
              fun k1 hk2 hlt1 => h4 k1 (hmem k1 hk2) hlt1, ?_⟩
            rw [e4]
            exact h5
          next_child := fun hn => by
            obtain ⟨⟨cb, hcb, hcp⟩, h2, h3, h4, h5⟩ := hpf.slot_child kn hknm hn
            obtain ⟨e1, _, _, e4⟩ := hkeep l bx hbx _ (Or.inr ⟨kn, hknm, rfl⟩) hn
            refine ⟨⟨cb, e1.trans hcb, hcp⟩, h2, h3,
              fun k1 hk2 => h4 k1 (hmem k1 hk2) (hlt k1 hk2), ?_⟩
            show (popGhost g l (kn.ekey o)).hi kn.prevChildBucket ≤ (popGhost g l (kn.ekey o)).hi l
            rw [e4, popGhost_self]
            exact h5 }
    · exact pagePF_keep (h.page l b hl0) rfl rfl (popGhost_ne g x _ hn) (hkeep l b hl0)
  · intro l b hl
    rcases hcases l b hl with ⟨rfl, rfl⟩ | ⟨hn, hl0⟩
    · exact pageSizes_pop hc (h.sizes l bx hbx) (h.packed l bx hbx) hk
    · exact h.sizes l b hl0
  · intro l b hl
    rcases hcases l b hl with ⟨rfl, rfl⟩ | ⟨hn, hl0⟩
    · exact h.packed l bx hbx
    · exact h.packed l b hl0
  · intro l b hl k hk1
    rcases hcases l b hl with ⟨rfl, rfl⟩ | ⟨hn, hl0⟩
    · exact h.slots l bx hbx k (hmem k hk1)
    · exact h.slots l b hl0 k hk1
  · intro l b hl hfl
    rcases hcases l b hl with ⟨rfl, rfl⟩ | ⟨hn, hl0⟩
    · exact absurd hx hfl
    · obtain ⟨h1, pb, hpb, hch⟩ := h.link l b hl0 hfl
      have hln : l ≠ DiskLoc.Null := h.mapped_ne_null hl0
      refine ⟨h1, ?_⟩
      by_cases hpr : b.parent = x
      · rw [hpr] at hpb ⊢
        rw [hbx] at hpb
        cases hpb
        refine ⟨x1, State.put_pages_same _ _ _, ?_⟩
        rcases hch with hch | ⟨k, hk1, hk2⟩
        · rw [hnc] at hch
          exact absurd hch.symm hln
        · rw [hk, List.mem_append, List.mem_singleton] at hk1
          rcases hk1 with hk1 | rfl
          · exact Or.inr ⟨k, hk1, hk2⟩
          · exact Or.inl hk2
      · exact ⟨pb, by rw [State.put_pages_ne _ _ hpr]; exact hpb, hch⟩
  · intro r hr
    obtain ⟨⟨rb, hrb⟩, h2⟩ := h.float r hr
    have hrn := (h.root_not_child hr).1
    constructor
    · by_cases hn : r = x
      · exact ⟨_, by rw [hn]; exact State.put_pages_same _ _ _⟩
      · exact ⟨rb, by rw [State.put_pages_ne _ _ hn]; exact hrb⟩
    · intro l b hl hch
      rcases hcases l b hl with ⟨rfl, rfl⟩ | ⟨hn, hl0⟩
      · exact h2 l bx hbx (hxch r hch hrn)
      · exact h2 l b hl0 hch
  · intro l b hl
    rcases hcases l b hl with ⟨rfl, rfl⟩ | ⟨hn, hl0⟩
    · exact h.fresh l bx hbx
    · exact h.fresh l b hl0

end BtreeBuilder
end mongo
namespace mongo
namespace BtreeBuilder
open BtreeBucket

/-- A root without slots is dropped; its last child, if it has one, is a root
in its place. -/
theorem BInv.drop_root {c : Layout} {o : Ordering} {s : State} {g : Ghost}
    {fl : Set DiskLoc} {P : Set (BSONObj × DiskLoc)} (h : BInv c o s g fl P) {x : DiskLoc}
    {bx : BtreeBucket} (hx : x ∈ fl) (hbx : s.pages x = some bx) (hk : bx.keys = []) :
    BInv c o (s.free x) g {l | (l ∈ fl ∧ l ≠ x) ∨ (l = bx.nextChild ∧ l ≠ DiskLoc.Null)} P := by
  obtain ⟨hxn, hxc⟩ := h.root_not_child hx
  have hcases : ∀ l b, (s.free x).pages l = some b → l ≠ x ∧ s.pages l = some b := by
    intro l b hl
    rw [State.free_pages] at hl
    by_cases hn : l = x
    · rw [if_pos hn] at hl
      cases hl
    · rw [if_neg hn] at hl
      exact ⟨hn, hl⟩
  have hkeep : ∀ l b, s.pages l = some b → ∀ ch, IsChild b ch → ch ≠ DiskLoc.Null →
      (s.free x).pages ch = s.pages ch := by
    intro l b hl ch hch _
    have : ch ≠ x := by
      rintro rfl
      exact hxc l b hl hch
    rw [State.free_pages, if_neg this]
  have hxchild : ∀ ch, IsChild bx ch → ch = bx.nextChild := by
    intro ch hch
    rcases hch with hch | ⟨k, hk1, _⟩
    · exact hch.symm
    · rw [hk] at hk1
      cases hk1
  refine
    { null_unmapped := by
        rw [State.free_pages, if_neg (Ne.symm hxn)]
        exact h.null_unmapped
      page := ?_
      sizes := fun l b hl => h.sizes l b (hcases l b hl).2
      packed := fun l b hl => h.packed l b (hcases l b hl).2
      slots := fun l b hl => h.slots l b (hcases l b hl).2
      link := ?_
      float := ?_
      fresh := fun l b hl => h.fresh l b (hcases l b hl).2
      alloc_nonneg := h.alloc_nonneg }
  · intro l b hl
    obtain ⟨hn, hl0⟩ := hcases l b hl
    refine pagePF_keep (h.page l b hl0) rfl rfl rfl ?_
    intro ch hch hnull
    exact ⟨hkeep l b hl0 ch hch hnull, rfl, rfl, rfl⟩
  · intro l b hl hfl
    obtain ⟨hn, hl0⟩ := hcases l b hl
    have hln := h.mapped_ne_null hl0
    have hfl0 : l ∉ fl := fun hx1 => hfl (Or.inl ⟨hx1, hn⟩)
    obtain ⟨h1, pb, hpb, hch⟩ := h.link l b hl0 hfl0
    refine ⟨h1, pb, ?_, hch⟩
    have hpx : b.parent ≠ x := by
      intro hpx
      rw [hpx, hbx] at hpb
      cases hpb
      exact hfl (Or.inr ⟨hxchild l hch, hln⟩)
    rw [State.free_pages, if_neg hpx]
    exact hpb
  · intro r hr
    rcases hr with ⟨hr, hrx⟩ | ⟨hr, hrn⟩
    · obtain ⟨⟨rb, hrb⟩, h2⟩ := h.float r hr
      refine ⟨⟨rb, by rw [State.free_pages, if_neg hrx]; exact hrb⟩, ?_⟩
      intro l b hl hch
      exact h2 l b (hcases l b hl).2 hch
    · obtain ⟨⟨cb, hcb, hcp⟩, hrk⟩ := h.child_of hbx (Or.inl hr.symm) hrn
      have hrx : r ≠ x := by
        rintro rfl
        exact lt_irrefl _ hrk
      refine ⟨⟨cb, by rw [State.free_pages, if_neg hrx]; exact hcb⟩, ?_⟩
      intro l b hl hch
      obtain ⟨hn, hl0⟩ := hcases l b hl
      obtain ⟨⟨cb1, hcb1, hcp1⟩, _⟩ := h.child_of hl0 hch hrn
      rw [hcb] at hcb1
      cases hcb1
      exact hn (hcp1.symm.trans hcp)

theorem reparent_null {c : Layout} {o : Ordering} {s : State} {g : Ghost}
    {fl : Set DiskLoc} {P : Set (BSONObj × DiskLoc)} (h : BInv c o s g fl P) (u : DiskLoc) :
    reparent s DiskLoc.Null u = s := by
  unfold reparent
  rw [h.null_unmapped]

theorem reparent_mapped {s : State} {K : DiskLoc} {Kp : BtreeBucket} (hK : s.pages K = some Kp)
    (u : DiskLoc) : reparent s K u = s.put K { Kp with parent := u } := by
  unfold reparent
  rw [hK]

/-- A slot is appended to a root `u` without a last child whose interval is
open above, with the root `K` (or no page) as its left child: `K` is a child of
`u` from then on. -/
theorem BInv.attach {c : Layout} {o : Ordering} {s : State} {g : Ghost}
    {fl : Set DiskLoc} {P : Set (BSONObj × DiskLoc)} (h : BInv c o s g fl P) {u K : DiskLoc}
    {up up1 : BtreeBucket} {r : DiskLoc} {key : BSONObj}
    (hu : u ∈ fl) (hup : s.pages u = some up) (hhi : g.hi u = ⊤)
    (hk1 : up1.keys = up.keys ++ [⟨K, r, key⟩]) (hn1 : up1.nextChild = DiskLoc.Null)
    (hun : up.nextChild = DiskLoc.Null)
    (hsz1 : PageSizes c up1) (hp1 : up1.packed = true) (hKu : K ≠ u)
    (hK : K ≠ DiskLoc.Null → K ∈ fl ∧ (∀ Kp, s.pages K = some Kp → Kp.keys ≠ []) ∧
      g.rank K < g.rank u ∧ g.lo u ≤ g.lo K ∧
      (∀ k1 ∈ up.keys, ((k1.ekey o : EKey) : WithBot EKey) ≤ g.lo K) ∧
      g.hi K ≤ ((entryKey o key r.clearLow : EKey) : WithTop EKey))
    (hlt : ∀ k1 ∈ up.keys, k1.ekey o < entryKey o key r.clearLow)
    (hlo : g.lo u < ((entryKey o key r.clearLow : EKey) : WithBot EKey))
    (hrl : 0 ≤ r.a ∧ 2 ≤ r.ofs) (hused : r.ofs % 2 = 0) (hP : (key, r) ∈ P) :
    BInv c o (reparent (s.put u up1) K u) g (fl \ {K}) P := by
  obtain ⟨hun0, huc⟩ := h.root_not_child hu
  have hnewk : (⟨K, r, key⟩ : _KeyNode) ∈ up1.keys := by rw [hk1]; simp
  have holdk : ∀ k ∈ up.keys, k ∈ up1.keys := fun k hk => by
    rw [hk1]; exact List.mem_append_left _ hk
  have hmemk : ∀ k ∈ up1.keys, k ∈ up.keys ∨ k = ⟨K, r, key⟩ := by
    intro k hk
    rw [hk1, List.mem_append, List.mem_singleton] at hk
    exact hk
  -- the pages of the new state
  have hpages : ∀ l, (reparent (s.put u up1) K u).pages l =
      if l = u then some up1
      else if l = K then (s.pages K).map (fun Kp => { Kp with parent := u })
      else s.pages l := by
    intro l
    cases hKp : s.pages K with
    | none =>
      have : (s.put u up1).pages K = none := by
        rw [State.put_pages_ne _ _ hKu]; exact hKp
      unfold reparent
      rw [this]
      simp only [Option.map_none']
      rw [State.put_pages]
      by_cases hlu : l = u
      · rw [if_pos hlu, if_pos hlu]
      · rw [if_neg hlu, if_neg hlu]
        by_cases hlK : l = K
        · rw [if_pos hlK, hlK, hKp]
        · rw [if_neg hlK]
    | some Kp =>
      have : (s.put u up1).pages K = some Kp := by
        rw [State.put_pages_ne _ _ hKu]; exact hKp
      rw [reparent_mapped this, State.put_pages]
      simp only [Option.map_some']
      by_cases hlK : l = K
      · rw [if_pos hlK, if_neg (by rw [hlK]; exact hKu), if_pos hlK]
      · rw [if_neg hlK, State.put_pages]
        by_cases hlu : l = u
        · rw [if_pos hlu, if_pos hlu]
        · rw [if_neg hlu, if_neg hlu, if_neg hlK]
  have hcases : ∀ l b, (reparent (s.put u up1) K u).pages l = some b →
      (l = u ∧ b = up1) ∨
      (l ≠ u ∧ l = K ∧ ∃ Kp, s.pages K = some Kp ∧ b = { Kp with parent := u }) ∨
      (l ≠ u ∧ l ≠ K ∧ s.pages l = some b) := by
    intro l b hl
    rw [hpages] at hl
    by_cases hlu : l = u
    · rw [if_pos hlu] at hl
      exact Or.inl ⟨hlu, (Option.some.inj hl).symm⟩
    · rw [if_neg hlu] at hl
      by_cases hlK : l = K
      · rw [if_pos hlK] at hl
        cases hKp : s.pages K with
        | none => rw [hKp] at hl; cases hl
        | some Kp =>
          rw [hKp] at hl
          exact Or.inr (Or.inl ⟨hlu, hlK, Kp, rfl, (Option.some.inj hl).symm⟩)
      · rw [if_neg hlK] at hl
        exact Or.inr (Or.inr ⟨hlu, hlK, hl⟩)
  have hKnc : K ≠ DiskLoc.Null → ∀ l b, s.pages l = some b → ¬ IsChild b K := fun hKn =>
    (h.root_not_child (hK hKn).1).2
  -- a child of a page of the old state is the same page in the new one
  have hkeep : ∀ l b, s.pages l = some b → ∀ ch, IsChild b ch → ch ≠ DiskLoc.Null →
      (reparent (s.put u up1) K u).pages ch = s.pages ch := by
    intro l b hl ch hch hn
    have h1 : ch ≠ u := by
      rintro rfl
      exact huc l b hl hch
    have h2 : ch ≠ K := by
      rintro rfl
      exact hKnc hn l b hl hch
    rw [hpages, if_neg h1, if_neg h2]
  have hupch : ∀ ch, IsChild up1 ch → ch ≠ DiskLoc.Null → IsChild up ch ∨ ch = K := by
    intro ch hch hn
    rcases hch with hch | ⟨k, hk, hk2⟩
    · rw [hn1] at hch
      exact absurd hch.symm hn
    · rcases hmemk k hk with hk | rfl
      · exact Or.inl (Or.inr ⟨k, hk, hk2⟩)
      · exact Or.inr hk2.symm
  have hnull : (reparent (s.put u up1) K u).pages DiskLoc.Null = none := by
    rw [hpages, if_neg (Ne.symm hun0)]
    by_cases hKn : DiskLoc.Null = K
    · rw [if_pos hKn, ← hKn, h.null_unmapped]
      rfl
    · rw [if_neg hKn]
      exact h.null_unmapped
  have halloc : (reparent (s.put u up1) K u).allocNext = s.allocNext := by
    unfold reparent
    cases (s.put u up1).pages K <;> rfl
  have hpfu := h.page u up hup
  refine
    { null_unmapped := hnull
      page := ?_
      sizes := ?_
      packed := ?_
      slots := ?_
      link := ?_
      float := ?_
      fresh := ?_
      alloc_nonneg := by rw [halloc]; exact h.alloc_nonneg }
  · intro l b hl
    rcases hcases l b hl with ⟨rfl, rfl⟩ | ⟨hlu, rfl, Kp, hKp, rfl⟩ | ⟨hlu, hlK, hl0⟩
    · refine
        { sorted := by
            rw [hk1]
            refine List.pairwise_append.mpr ⟨hpfu.sorted, List.pairwise_singleton _ _, ?_⟩
            intro a ha b1 hb1
            rw [List.mem_singleton.mp hb1]
            exact hlt a ha
          lo_lt := fun k hk => by
            rcases hmemk k hk with hk | rfl
            · exact hpfu.lo_lt k hk
            · exact hlo
          lt_hi := fun k _ => by
            rw [hhi]
            exact WithTop.coe_lt_top _
          rl_valid := fun k hk => by
            rcases hmemk k hk with hk | rfl
            · exact hpfu.rl_valid k hk
            · exact hrl
          slot_child := ?_
          next_child := fun hx => absurd hn1 hx }
      intro k hk hn
      rcases hmemk k hk with hk0 | rfl
      · obtain ⟨⟨cb, hcb, hcp⟩, h2, h3, h4, h5⟩ := hpfu.slot_child k hk0 hn
        refine ⟨⟨cb, ?_, hcp⟩, h2, h3, ?_, h5⟩
        · rw [hkeep l up hup _ (Or.inr ⟨k, hk0, rfl⟩) hn]
          exact hcb
        · intro k1 hk1m hlt1
          rcases hmemk k1 hk1m with hk1m | rfl
          · exact h4 k1 hk1m hlt1
          · exact absurd (lt_trans hlt1 (hlt k hk0)) (lt_irrefl _)
      · have hKn : K ≠ DiskLoc.Null := hn
        obtain ⟨hKfl, hKne, hKr, hKlo, hKle, hKhi⟩ := hK hKn
        obtain ⟨⟨Kp, hKp⟩, _⟩ := h.float K hKfl
        refine ⟨⟨{ Kp with parent := l }, ?_, rfl⟩, hKr, hKlo, ?_, hKhi⟩
        · show (reparent (s.put l b) K l).pages K = _
          rw [hpages, if_neg hKu, if_pos rfl, hKp]
          rfl
        · intro k1 hk1m hlt1
          rcases hmemk k1 hk1m with hk1m | rfl
          · exact hKle k1 hk1m
          · exact absurd hlt1 (lt_irrefl _)
    · have hKfl : l ∈ fl := (hK (h.mapped_ne_null hKp)).1
      refine (pagePF_keep (h.page l Kp hKp) rfl rfl rfl ?_).congr_page rfl rfl
      intro ch hch hnull
      exact ⟨hkeep l Kp hKp ch hch hnull, rfl, rfl, rfl⟩
    · refine pagePF_keep (h.page l b hl0) rfl rfl rfl ?_
      intro ch hch hnull
      exact ⟨hkeep l b hl0 ch hch hnull, rfl, rfl, rfl⟩
  · intro l b hl
    rcases hcases l b hl with ⟨rfl, rfl⟩ | ⟨hlu, rfl, Kp, hKp, rfl⟩ | ⟨hlu, hlK, hl0⟩
    · exact hsz1
    · exact (h.sizes l Kp hKp).congr rfl rfl rfl rfl
    · exact h.sizes l b hl0
  · intro l b hl
    rcases hcases l b hl with ⟨rfl, rfl⟩ | ⟨hlu, rfl, Kp, hKp, rfl⟩ | ⟨hlu, hlK, hl0⟩
    · exact hp1
    · exact h.packed l Kp hKp
    · exact h.packed l b hl0
  · intro l b hl k hk
    rcases hcases l b hl with ⟨rfl, rfl⟩ | ⟨hlu, rfl, Kp, hKp, rfl⟩ | ⟨hlu, hlK, hl0⟩
    · rcases hmemk k hk with hk | rfl
      · exact h.slots l up hup k hk
      · exact ⟨isUsed_of_even hused, hP⟩
    · exact h.slots l Kp hKp k hk
    · exact h.slots l b hl0 k hk
  · intro l b hl hfl
    rcases hcases l b hl with ⟨rfl, rfl⟩ | ⟨hlu, rfl, Kp, hKp, rfl⟩ | ⟨hlu, hlK, hl0⟩
    · exact absurd ⟨hu, fun hx => hKu (Set.mem_singleton_iff.mp hx).symm⟩ hfl
    · have hKn := h.mapped_ne_null hKp
      refine ⟨(hK hKn).2.1 Kp hKp, up1, ?_, Or.inr ⟨_, hnewk, rfl⟩⟩
      show (reparent (s.put u up1) l u).pages u = some up1
      rw [hpages, if_pos rfl]
    · have hfl0 : l ∉ fl := fun hx => hfl ⟨hx, fun hx1 => hlK (Set.mem_singleton_iff.mp hx1)⟩
      obtain ⟨h1, pb, hpb, hch⟩ := h.link l b hl0 hfl0
      refine ⟨h1, ?_⟩
      by_cases hpu : b.parent = u
      · rw [hpu] at hpb ⊢
        rw [hup] at hpb
        cases hpb
        refine ⟨up1, by rw [hpages, if_pos rfl], ?_⟩
        rcases hch with hch | ⟨k, hk, hk2⟩
        · rw [hun] at hch
          exact absurd hch.symm (h.mapped_ne_null hl0)
        · exact Or.inr ⟨k, holdk k hk, hk2⟩
      · by_cases hpK : b.parent = K
        · rw [hpK] at hpb ⊢
          refine ⟨{ pb with parent := u }, ?_, hch⟩
          rw [hpages, if_neg hKu, if_pos rfl, hpb]
          rfl
        · exact ⟨pb, by rw [hpages, if_neg hpu, if_neg hpK]; exact hpb, hch⟩
  · intro r1 hr1
    obtain ⟨hr1fl, hr1K⟩ := hr1
    have hr1K : r1 ≠ K := fun hx => hr1K (Set.mem_singleton_iff.mpr hx)
    obtain ⟨⟨rb, hrb⟩, h2⟩ := h.float r1 hr1fl
    have hr1n := h.mapped_ne_null hrb
    constructor
    · by_cases hru : r1 = u
      · exact ⟨up1, by rw [hpages, if_pos hru]⟩
      · exact ⟨rb, by rw [hpages, if_neg hru, if_neg hr1K]; exact hrb⟩
    · intro l b hl hch
      rcases hcases l b hl with ⟨rfl, rfl⟩ | ⟨hlu, rfl, Kp, hKp, rfl⟩ | ⟨hlu, hlK, hl0⟩
      · rcases hupch r1 hch hr1n with hx | hx
        · exact h2 l up hup hx
        · exact hr1K hx
      · exact h2 l Kp hKp hch
      · exact h2 l b hl0 hch
  · intro l b hl
    rw [halloc]
    rcases hcases l b hl with ⟨rfl, rfl⟩ | ⟨hlu, rfl, Kp, hKp, rfl⟩ | ⟨hlu, hlK, hl0⟩
    · exact h.fresh l up hup
    · exact h.fresh l Kp hKp
    · exact h.fresh l b hl0

end BtreeBuilder
end mongo
namespace mongo
namespace BtreeBuilder
open BtreeBucket

/-- The run of `popBack` on a page without a last child whose last slot is
used. -/
theorem popBack_ok (c : Layout) {b : BtreeBucket} {ks : List _KeyNode} {kn : _KeyNode}
    (hk : b.keys = ks ++ [kn]) (hu : kn.isUsed = true) (hn : b.nextChild = DiskLoc.Null) :
    popBack c b = .ok ((kn.recordLoc, kn.key), popped c b ks kn) := by
  have hgl : b.keys.getLast? = some kn := by rw [hk]; simp
  have hdl : b.keys.dropLast = ks := by rw [hk]; simp
  unfold popBack
  simp only [hgl, hu, not_true_eq_false, if_false, hn, isNull_null, hdl, _unalloc]
  rfl

/-- What the chain of a level says of its first page. -/
theorem LevelChain.head {o : Ordering} {s : State} {g : Ghost} {R : Nat} {x y : DiskLoc}
    {ys : List DiskLoc} (h : LevelChain o s g R x (y :: ys)) :
    x = y ∧ ∃ b, s.pages y = some b ∧ b.nextChild = DiskLoc.Null ∧ g.hi y = ⊤ ∧ g.rank y = R ∧
      (∀ z ∈ ys.head?, g.lo y ≤ g.lo z ∧
        ∀ k ∈ b.keys, ((k.ekey o : EKey) : WithBot EKey) ≤ g.lo z) ∧
      LevelChain o s g R (tempNext b) ys := h

/-- Every page of the chain of a level is mapped, has no last child, has the
rank of the level and an interval that is open above. -/
theorem LevelChain.mem {o : Ordering} {s : State} {g : Ghost} {R : Nat} :
    ∀ {L : List DiskLoc} {x : DiskLoc}, LevelChain o s g R x L → ∀ y ∈ L,
      ∃ b, s.pages y = some b ∧ b.nextChild = DiskLoc.Null ∧ g.hi y = ⊤ ∧ g.rank y = R
  | [], _, _, y, hy => by cases hy
  | z :: zs, x, h, y, hy => by
    obtain ⟨_, b, hb, hn, hh, hr, _, hrest⟩ := h.head
    rcases List.mem_cons.mp hy with rfl | hy
    · exact ⟨b, hb, hn, hh, hr⟩
    · exact LevelChain.mem hrest y hy

/-- The last page of the chain of a level has a null `tempNext`. -/
theorem LevelChain.last {o : Ordering} {s : State} {g : Ghost} {R : Nat} :
    ∀ {L : List DiskLoc} {x u : DiskLoc}, LevelChain o s g R x L → L.getLast? = some u →
      ∃ b, s.pages u = some b ∧ tempNext b = DiskLoc.Null
  | [], _, _, _, hu => by cases hu
  | [z], x, u, h, hu => by
    obtain ⟨_, b, hb, _, _, _, _, hrest⟩ := h.head
    simp only [List.getLast?_singleton, Option.some.injEq] at hu
    subst hu
    exact ⟨b, hb, hrest⟩
  | z :: z1 :: zs, x, u, h, hu => by
    obtain ⟨_, b, hb, _, _, _, _, hrest⟩ := h.head
    rw [List.getLast?_cons_cons] at hu
    exact LevelChain.last hrest hu

/-- The chain of a level carries over to a state and ghost data in which its
pages keep their last child, their `tempNext` and their ghost data, and all but
the last keep their slots. -/
theorem LevelChain.carry {o : Ordering} {s s1 : State} {g g1 : Ghost} {R : Nat} :
    ∀ {L : List DiskLoc} {x : DiskLoc}, LevelChain o s g R x L →
      (∀ y ∈ L, ∀ b, s.pages y = some b → ∃ b1, s1.pages y = some b1 ∧
        b1.nextChild = b.nextChild ∧ tempNext b1 = tempNext b ∧
        (y ∈ L.dropLast → b1.keys = b.keys)) →
      (∀ y ∈ L, g1.hi y = g.hi y ∧ g1.rank y = g.rank y ∧ g1.lo y = g.lo y) →
      LevelChain o s1 g1 R x L
  | [], _, h, _, _ => h
  | [z], x, h, hp, hg => by
    obtain ⟨hx, b, hb, hn, hh, hr, _, hrest⟩ := h.head
    obtain ⟨b1, hb1, hn1, ht1, _⟩ := hp z (List.mem_singleton_self _) b hb
    obtain ⟨g1h, g1r, _⟩ := hg z (List.mem_singleton_self _)
    refine ⟨hx, b1, hb1, hn1.trans hn, g1h.trans hh, g1r.trans hr, ?_, ?_⟩
    · intro w hw
      exact nomatch hw
    · show tempNext b1 = DiskLoc.Null
      rw [ht1]
      exact hrest
  | z :: z1 :: zs, x, h, hp, hg => by
    obtain ⟨hx, b, hb, hn, hh, hr, hsep, hrest⟩ := h.head
    obtain ⟨b1, hb1, hn1, ht1, hk1⟩ := hp z (List.mem_cons_self _ _) b hb
    obtain ⟨g1h, g1r, g1l⟩ := hg z (List.mem_cons_self _ _)
    have hk1' : b1.keys = b.keys := hk1 (by
      rw [List.dropLast_cons₂]
      exact List.mem_cons_self _ _)
    refine ⟨hx, b1, hb1, hn1.trans hn, g1h.trans hh, g1r.trans hr, ?_, ?_⟩
    · intro w hw
      simp only [List.head?_cons, Option.mem_def, Option.some.injEq] at hw
      subst hw
      obtain ⟨h1, h2⟩ := hsep z1 rfl
      obtain ⟨_, _, g1l1⟩ := hg z1 (List.mem_cons_of_mem _ (List.mem_cons_self _ _))
      rw [g1l, g1l1, hk1']
      exact ⟨h1, h2⟩
    · rw [ht1]
      refine LevelChain.carry hrest ?_ ?_
      · intro y hy b0 hb0
        obtain ⟨b2, hb2, hn2, ht2, hk2⟩ := hp y (List.mem_cons_of_mem _ hy) b0 hb0
        refine ⟨b2, hb2, hn2, ht2, fun hd => hk2 ?_⟩
        rw [List.dropLast_cons₂]
        exact List.mem_cons_of_mem _ hd
      · intro y hy
        exact hg y (List.mem_cons_of_mem _ hy)

/-- A page is linked at the end of the chain of a level. -/
theorem LevelChain.snoc {o : Ordering} {s s1 : State} {g g1 : Ghost} {R : Nat} {u n : DiskLoc}
    {up nb : BtreeBucket} :
    ∀ {L : List DiskLoc} {x : DiskLoc}, LevelChain o s g R x L → L.getLast? = some u →
      L.Nodup → n ∉ L →
      s.pages u = some up → s1.pages u = some (setTempNext up n) →
      s1.pages n = some nb → nb.nextChild = DiskLoc.Null → tempNext nb = DiskLoc.Null →
      g1.hi n = ⊤ → g1.rank n = R →
      g.lo u ≤ g1.lo n → (∀ k ∈ up.keys, ((k.ekey o : EKey) : WithBot EKey) ≤ g1.lo n) →
      (∀ y ∈ L, y ≠ u → s1.pages y = s.pages y) →
      (∀ y ∈ L, g1.hi y = g.hi y ∧ g1.rank y = g.rank y ∧ g1.lo y = g.lo y) →
      LevelChain o s1 g1 R x (L ++ [n])
  | [], _, _, hu, _, _, _, _, _, _, _, _, _, _, _, _, _ => by cases hu
  | [z], x, h, hu, _, _, hup, hup1, hnb, hnn, hnt, hh1, hr1, hlo, hks, _, hg => by
    obtain ⟨hx, b, hb, hn, hh, hr, _, hrest⟩ := h.head
    simp only [List.getLast?_singleton, Option.some.injEq] at hu
    subst hu
    rw [hup] at hb
    cases hb
    obtain ⟨g1h, g1r, g1l⟩ := hg z (List.mem_singleton_self _)
    show LevelChain o s1 g1 R x [z, n]
    refine ⟨hx, setTempNext up n, hup1, hn, g1h.trans hh, g1r.trans hr, ?_, ?_⟩
    · intro w hw
      simp only [List.head?_cons, Option.mem_def, Option.some.injEq] at hw
      subst hw
      rw [g1l]
      exact ⟨hlo, hks⟩
    · show LevelChain o s1 g1 R n [n]
      exact ⟨rfl, nb, hnb, hnn, hh1, hr1, (fun _ hw => nomatch hw), hnt⟩
  | z :: z1 :: zs, x, h, hu, hnd, hnL, hup, hup1, hnb, hnn, hnt, hh1, hr1, hlo, hks, hp, hg => by
    obtain ⟨hx, b, hb, hn, hh, hr, hsep, hrest⟩ := h.head
    rw [List.getLast?_cons_cons] at hu
    have hzu : z ≠ u := by
      rintro rfl
      have : z ∈ z1 :: zs := List.mem_of_mem_getLast? hu
      exact (List.nodup_cons.mp hnd).1 this
    obtain ⟨g1h, g1r, g1l⟩ := hg z (List.mem_cons_self _ _)
    have hb1 : s1.pages z = some b := by
      rw [hp z (List.mem_cons_self _ _) hzu]
      exact hb
    show LevelChain o s1 g1 R x (z :: z1 :: (zs ++ [n]))
    refine ⟨hx, b, hb1, hn, g1h.trans hh, g1r.trans hr, ?_, ?_⟩
    · intro w hw
      simp only [List.head?_cons, Option.mem_def, Option.some.injEq] at hw
      subst hw
      obtain ⟨h1, h2⟩ := hsep z1 rfl
      obtain ⟨_, _, g1l1⟩ := hg z1 (List.mem_cons_of_mem _ (List.mem_cons_self _ _))
      rw [g1l, g1l1]
      exact ⟨h1, h2⟩
    · exact LevelChain.snoc hrest hu (List.nodup_cons.mp hnd).2
        (fun hx1 => hnL (List.mem_cons_of_mem _ hx1)) hup hup1 hnb hnn hnt hh1 hr1 hlo hks
        (fun y hy => hp y (List.mem_cons_of_mem _ hy))
        (fun y hy => hg y (List.mem_cons_of_mem _ hy))

end BtreeBuilder
end mongo
namespace mongo
namespace BtreeBuilder
open BtreeBucket

/-- A page without slots adds no entries. -/
theorem content_of_pages (o : Ordering) (s s1 : State)
    (h1 : ∀ l b, s1.pages l = some b → b.keys ≠ [] →
      ∃ b0, s.pages l = some b0 ∧ b0.keys = b.keys)
    (h2 : ∀ l b, s.pages l = some b → b.keys ≠ [] →
      ∃ b1, s1.pages l = some b1 ∧ b1.keys = b.keys) :
    Content o s1 = Content o s := by
  ext e
  constructor
  · rintro ⟨l, b, k, hl, hk, hu, he⟩
    obtain ⟨b0, hb0, hk0⟩ := h1 l b hl (List.ne_nil_of_mem hk)
    exact ⟨l, b0, k, hb0, by rw [hk0]; exact hk, hu, he⟩
  · rintro ⟨l, b, k, hl, hk, hu, he⟩
    obtain ⟨b1, hb1, hk1⟩ := h2 l b hl (List.ne_nil_of_mem hk)
    exact ⟨l, b1, k, hb1, by rw [hk1]; exact hk, hu, he⟩

/-- The entries after a slot moved from the end of the page at `x` to the end of
the page at `u`, when the other pages keep their slots. -/
theorem content_move (o : Ordering) (s s1 : State) {x u : DiskLoc} {bx up : BtreeBucket}
    {ks : List _KeyNode} {kn kn1 : _KeyNode} (hxu : x ≠ u)
    (hbx : s.pages x = some bx) (hk : bx.keys = ks ++ [kn])
    (hup : s.pages u = some up)
    (hx1 : ∀ b, s1.pages x = some b → b.keys = ks)
    (hx2 : ks ≠ [] → ∃ b, s1.pages x = some b)
    (hu1 : ∃ b, s1.pages u = some b ∧ b.keys = up.keys ++ [kn1])
    (hkey : kn1.key = kn.key) (hrl : kn1.recordLoc = kn.recordLoc)
    (ho : ∀ l, l ≠ x → l ≠ u →
      (s1.pages l).map (fun b => b.keys) = (s.pages l).map (fun b => b.keys)) :
    Content o s1 = Content o s := by
  have hek : kn1.ekey o = kn.ekey o := by
    unfold _KeyNode.ekey
    rw [hkey, hrl]
  have hus : kn1.isUsed = kn.isUsed := by
    unfold _KeyNode.isUsed _KeyNode.isUnused
    rw [hrl]
  obtain ⟨up1, hup1, hup1k⟩ := hu1
  ext e
  constructor
  · rintro ⟨l, b, k, hl, hkm, hu, he⟩
    by_cases hlx : l = x
    · subst hlx
      have := hx1 b hl
      rw [this] at hkm
      exact ⟨l, bx, k, hbx, by rw [hk]; exact List.mem_append_left _ hkm, hu, he⟩
    by_cases hlu : l = u
    · subst hlu
      rw [hup1] at hl
      cases hl
      rw [hup1k, List.mem_append, List.mem_singleton] at hkm
      rcases hkm with hkm | rfl
      · exact ⟨l, up, k, hup, hkm, hu, he⟩
      · exact ⟨x, bx, kn, hbx, by rw [hk]; simp, by rw [← hus]; exact hu, by rw [← hek]; exact he⟩
    · have := ho l hlx hlu
      rw [hl] at this
      obtain ⟨b0, hb0, hb0k⟩ := keys_eq_of_map this rfl
      exact ⟨l, b0, k, hb0, by rw [hb0k]; exact hkm, hu, he⟩
  · rintro ⟨l, b, k, hl, hkm, hu, he⟩
    by_cases hlx : l = x
    · subst hlx
      rw [hbx] at hl
      cases hl
      rw [hk, List.mem_append, List.mem_singleton] at hkm
      rcases hkm with hkm | rfl
      · obtain ⟨b1, hb1⟩ := hx2 (List.ne_nil_of_mem hkm)
        exact ⟨l, b1, k, hb1, by rw [hx1 b1 hb1]; exact hkm, hu, he⟩
      · exact ⟨u, up1, kn1, hup1, by rw [hup1k]; simp, by rw [hus]; exact hu,
          by rw [hek]; exact he⟩
    by_cases hlu : l = u
    · subst hlu
      rw [hup] at hl
      cases hl
      exact ⟨l, up1, k, hup1, by rw [hup1k]; exact List.mem_append_left _ hkm, hu, he⟩
    · have := ho l hlx hlu
      rw [hl] at this
      cases h1 : s1.pages l with
      | none =>
        rw [h1] at this
        cases this
      | some b1 =>
        rw [h1] at this
        simp only [Option.map_some', Option.some.injEq] at this
        exact ⟨l, b1, k, h1, by rw [this]; exact hkm, hu, he⟩

/-- The entries after a slot was appended to the page at `u`, when the other
pages keep their slots. -/
theorem content_append (o : Ordering) (s s1 : State) {u : DiskLoc} {up : BtreeBucket}
    {kn : _KeyNode} (hup : s.pages u = some up) (hused : kn.isUsed = true)
    (hu1 : ∃ b, s1.pages u = some b ∧ b.keys = up.keys ++ [kn])
    (ho : ∀ l, l ≠ u →
      (s1.pages l).map (fun b => b.keys) = (s.pages l).map (fun b => b.keys)) :
    Content o s1 = Content o s ∪ {kn.ekey o} := by
  obtain ⟨up1, hup1, hup1k⟩ := hu1
  have hpe : pageEntries o up1 = pageEntries o up ∪ {kn.ekey o} := by
    ext e
    simp only [pageEntries, Set.mem_setOf_eq, Set.mem_union, Set.mem_singleton_iff, hup1k,
      List.mem_append, List.mem_singleton]
    constructor
    · rintro ⟨k, hk | rfl, hu, he⟩
      · exact Or.inl ⟨k, hk, hu, he⟩
      · exact Or.inr he.symm
    · rintro (⟨k, hk, hu, he⟩ | he)
      · exact ⟨k, Or.inl hk, hu, he⟩
      · exact ⟨kn, Or.inr rfl, hused, he.symm⟩
  exact content_change_one o s s1 hup hup1 ho _ hpe

end BtreeBuilder
end mongo
namespace mongo
namespace BtreeBuilder
open BtreeBucket

theorem even_of_isUsed {k : _KeyNode} (h : k.isUsed = true) : k.recordLoc.ofs % 2 = 0 := by
  unfold _KeyNode.isUsed _KeyNode.isUnused at h
  simp only [Bool.not_eq_true', decide_eq_false_iff_not] at h
  omega

/-- The size condition of the page that `_pushBack` makes when there is room. -/
theorem pageSizes_pushed {c : Layout} (hc : Layout.Sane c) {b : BtreeBucket} (K : DiskLoc)
    {kn : _KeyNode} (hsz : PageSizes c b) (hp : b.packed = true)
    (hpos : 0 < kn.key.objsize) (hle : kn.key.objsize ≤ KeyMax c)
    (hroom : kn.key.objsize + c.slotSize ≤ b.emptySize) :
    PageSizes c (pushed c b K kn) := by
  have hacc : b.emptySize + b.topSize + ((b.keys.length : Nat) : Int) * c.slotSize
      + c.headerSize = c.BucketSize := hsz.accounting
  have hbe := hsz.bytes_eq hp
  have hsl := hc.slot_pos
  have hmem : ∀ k ∈ (pushed c b K kn).keys, k ∈ b.keys ∨ k.key = kn.key := by
    intro k hk
    have : k ∈ b.keys ++ [⟨K, kn.recordLoc, kn.key⟩] := hk
    rw [List.mem_append, List.mem_singleton] at this
    rcases this with h | rfl
    · exact Or.inl h
    · exact Or.inr rfl
  have hkb : keyBytes (pushed c b K kn).keys = b.topSize + kn.key.objsize := by
    show keyBytes (b.keys ++ [⟨K, kn.recordLoc, kn.key⟩]) = _
    rw [keyBytes_append, keyBytes_singleton, hbe]
  exact
    { accounting := by
        show (b.emptySize - c.slotSize - kn.key.objsize) + (b.topSize + kn.key.objsize)
          + (((b.keys ++ [(⟨K, kn.recordLoc, kn.key⟩ : _KeyNode)]).length : Nat) : Int)
            * c.slotSize + c.headerSize = c.BucketSize
        rw [List.length_append, List.length_singleton]
        push_cast
        linarith
      empty_nonneg := by
        show 0 ≤ b.emptySize - c.slotSize - kn.key.objsize
        omega
      bytes_le := le_of_eq hkb
      bytes_eq := fun _ => hkb
      key_pos := fun k hk => by
        rcases hmem k hk with h | h
        · exact hsz.key_pos k h
        · rw [h]; exact hpos
      key_le := fun k hk => by
        rcases hmem k hk with h | h
        · exact hsz.key_le k h
        · rw [h]; exact hle }

/-- The last page of a list without repetition is not among the others. -/
theorem not_mem_dropLast {α : Type} : ∀ {L : List α} {u : α}, L.Nodup → L.getLast? = some u →
    u ∉ L.dropLast
  | [], _, _, h => by cases h
  | [z], u, _, _ => by simp
  | z :: z1 :: zs, u, hnd, h => by
    rw [List.getLast?_cons_cons] at h
    rw [List.dropLast_cons₂, List.mem_cons]
    rintro (rfl | hm)
    · exact (List.nodup_cons.mp hnd).1 (List.mem_of_mem_getLast? h)
    · exact not_mem_dropLast (List.nodup_cons.mp hnd).2 h hm

/-- The state inside the loop after the last slot of the first page of the chain
went to the upper page, given the invariant of the forest and what the new
state keeps of the old one. -/
theorem mid_of_step {c : Layout} {o : Ordering} {s s3 : State} {g : Ghost}
    {P : Set (BSONObj × DiskLoc)} {R : Nat} {upStart u xloc x : DiskLoc} {U X : List DiskLoc}
    {k : Nat} {up up1 bx : BtreeBucket} {ks : List _KeyNode} {kn kn1 : _KeyNode}
    (hinv3 : BInv c o s3 (popGhost g x (kn.ekey o)) {l | l ∈ U ∨ l ∈ X} P)
    (hU : LevelChain o s g (R + 1) upStart U) (hUl : U.getLast? = some u)
    (hX : LevelChain o s g R xloc (x :: X)) (hnd : (U ++ x :: X).Nodup)
    (hup : s.pages u = some up) (hbx : s.pages x = some bx)
    (hbound : g.lo u ≤ g.lo x ∧ ∀ k ∈ up.keys, ((k.ekey o : EKey) : WithBot EKey) ≤ g.lo x)
    (hxne : ∀ y ∈ X, ∀ b, s.pages y = some b → b.keys ≠ [])
    (hune : ∀ y ∈ U, y ≠ u → ∀ b, s.pages y = some b → 3 ≤ b.keys.length)
    (hpot : 3 * (U.length - 1) + up.keys.length + (X.length + 1) ≤ k)
    (hrank : ∀ l b, s.pages l = some b → l ∉ U → g.rank l ≤ R)
    (hk : bx.keys = ks ++ [kn])
    (D1 : s3.pages u = some up1) (hk1 : up1.keys = up.keys ++ [kn1])
    (hek : kn1.ekey o = kn.ekey o) (hn1 : up1.nextChild = DiskLoc.Null)
    (hp1 : up1.parent = up.parent)
    (D2 : ∀ l, (l ∈ U ∨ l ∈ X) → l ≠ u → s3.pages l = s.pages l)
    (D4 : ∀ l b, s3.pages l = some b → l ≠ u → ∃ b0, s.pages l = some b0) :
    Mid c o s3 (popGhost g x (kn.ekey o)) P R upStart u (tempNext bx) U X k := by
  have hndU : U.Nodup := (List.nodup_append.mp hnd).1
  have hndX : (x :: X).Nodup := (List.nodup_append.mp hnd).2.1
  have hdis : ∀ y, y ∈ U → y ∈ x :: X → False := fun y h1 h2 =>
    (List.nodup_append.mp hnd).2.2 h1 h2
  have huU : u ∈ U := List.mem_of_mem_getLast? hUl
  have hUx : ∀ y ∈ U, y ≠ x := by
    rintro y hy rfl
    exact hdis y hy (List.mem_cons_self _ _)
  have hXx : ∀ y ∈ X, y ≠ x := by
    rintro y hy rfl
    exact (List.nodup_cons.mp hndX).1 hy
  have hXu : ∀ y ∈ X, y ≠ u := by
    rintro y hy rfl
    exact hdis y huU (List.mem_cons_of_mem _ hy)
  obtain ⟨_, bx0, hbx0, _, _, _, hsep, hrest⟩ := hX.head
  rw [hbx] at hbx0
  cases hbx0
  obtain ⟨up0, hup0, hunc, _, _⟩ := hU.mem u huU
  rw [hup] at hup0
  cases hup0
  have hghost : ∀ y, y ≠ x → (popGhost g x (kn.ekey o)).hi y = g.hi y ∧
      (popGhost g x (kn.ekey o)).rank y = g.rank y ∧ (popGhost g x (kn.ekey o)).lo y = g.lo y :=
    fun y hy => ⟨popGhost_ne g x _ hy, rfl, rfl⟩
  refine
    { inv := hinv3
      up_chain := ?_
      up_last := hUl
      x_chain := ?_
      nodup := ?_
      bound := ?_
      x_ne := ?_
      u_ne := ?_
      pot := ?_
      started := ?_
      rank_le := ?_ }
  · refine hU.carry ?_ (fun y hy => hghost y (hUx y hy))
    intro y hy b hb
    by_cases hyu : y = u
    · subst hyu
      rw [hup] at hb
      cases hb
      exact ⟨up1, D1, hn1.trans hunc.symm, hp1,
        fun hd => absurd hd (not_mem_dropLast hndU hUl)⟩
    · exact ⟨b, by rw [D2 y (Or.inl hy) hyu]; exact hb, rfl, rfl, fun _ => rfl⟩
  · refine hrest.carry ?_ (fun y hy => hghost y (hXx y hy))
    intro y hy b hb
    exact ⟨b, by rw [D2 y (Or.inr hy) (hXu y hy)]; exact hb, rfl, rfl, fun _ => rfl⟩
  · have := List.nodup_append.mp hnd
    refine List.nodup_append.mpr ⟨hndU, (List.nodup_cons.mp hndX).2, ?_⟩
    intro y h1 h2
    exact hdis y h1 (List.mem_cons_of_mem _ h2)
  · intro up' hup' z hz
    rw [D1] at hup'
    cases hup'
    obtain ⟨h1, h2⟩ := hsep z hz
    show g.lo u ≤ g.lo z ∧ ∀ k ∈ up1.keys, ((k.ekey o : EKey) : WithBot EKey) ≤ g.lo z
    refine ⟨le_trans hbound.1 h1, ?_⟩
    intro k0 hk0
    rw [hk1, List.mem_append, List.mem_singleton] at hk0
    rcases hk0 with hk0 | rfl
    · exact le_trans (hbound.2 k0 hk0) h1
    · rw [hek]
      exact h2 kn (by rw [hk]; simp)
  · intro y hy b hb
    rw [D2 y (Or.inr hy) (hXu y hy)] at hb
    exact hxne y hy b hb
  · intro y hy hyu b hb
    rw [D2 y (Or.inl hy) hyu] at hb
    exact hune y hy hyu b hb
  · intro up' hup'
    rw [D1] at hup'
    cases hup'
    rw [hk1, List.length_append, List.length_singleton]
    omega
  · intro _ up' hup'
    rw [D1] at hup'
    cases hup'
    rw [hk1]
    simp
  · intro l b hl hlU
    have hlu : l ≠ u := by
      rintro rfl
      exact hlU huU
    obtain ⟨b0, hb0⟩ := D4 l b hl hlu
    exact hrank l b0 hb0 hlU

end BtreeBuilder
end mongo
namespace mongo
namespace BtreeBuilder
open BtreeBucket

/-- What a state that is ready for a step says of the two pages involved. -/
theorem Ready.facts {c : Layout} {o : Ordering} {s : State} {g : Ghost}
    {P : Set (BSONObj × DiskLoc)} {R : Nat} {upStart u xloc x : DiskLoc} {U X : List DiskLoc}
    {k : Nat} {up bx : BtreeBucket} {ks : List _KeyNode} {kn : _KeyNode}
    (h : Ready c o s g P R upStart u xloc U x X k up bx ks kn) :
    u ∈ U ∧ x ≠ u ∧ xloc = x ∧ bx.nextChild = DiskLoc.Null ∧ up.nextChild = DiskLoc.Null ∧
      g.hi u = ⊤ ∧ g.rank u = R + 1 ∧ g.rank x = R ∧ kn ∈ bx.keys ∧ kn.isUsed = true ∧
      (kn.key, kn.recordLoc) ∈ P ∧ (0 ≤ kn.recordLoc.a ∧ 2 ≤ kn.recordLoc.ofs) ∧
      g.lo x < ((kn.ekey o : EKey) : WithBot EKey) ∧ 0 < kn.key.objsize ∧
      kn.key.objsize ≤ KeyMax c ∧ x ≠ DiskLoc.Null ∧ u ≠ DiskLoc.Null := by
  have huU : u ∈ U := List.mem_of_mem_getLast? h.up_last
  have hxu : x ≠ u := by
    rintro rfl
    exact (List.nodup_append.mp h.nodup).2.2 huU (List.mem_cons_self _ _) 
  obtain ⟨hxl, bx0, hbx0, hxn, _, hxr, _, _⟩ := h.x_chain.head
  rw [h.x_page] at hbx0
  cases hbx0
  obtain ⟨up0, hup0, hun, hhi, hur⟩ := h.up_chain.mem u huU
  rw [h.up_page] at hup0
  cases hup0
  have hkn : kn ∈ bx.keys := by rw [h.keys]; simp
  obtain ⟨hused, hP⟩ := h.inv.slots x bx h.x_page kn hkn
  have hpf := h.inv.page x bx h.x_page
  have hsz := h.inv.sizes x bx h.x_page
  exact ⟨huU, hxu, hxl, hxn, hun, hhi, hur, hxr, hkn, hused, hP, hpf.rl_valid kn hkn,
    hpf.lo_lt kn hkn, hsz.key_pos kn hkn, hsz.key_le kn hkn, h.inv.mapped_ne_null h.x_page,
    h.inv.mapped_ne_null h.up_page⟩

/-- A step for a page that keeps slots: the page becomes a child of the upper
page, under the slot it gave. -/
theorem step_keep {c : Layout} (hc : Layout.Sane c) {o : Ordering} {s : State} {g : Ghost}
    {P : Set (BSONObj × DiskLoc)} {R : Nat} {upStart u xloc x : DiskLoc} {U X : List DiskLoc}
    {k : Nat} {up bx : BtreeBucket} {ks : List _KeyNode} {kn : _KeyNode}
    (h : Ready c o s g P R upStart u xloc U x X k up bx ks kn) (hks : ks ≠ []) :
    Mid c o (((s.put x (popped c bx ks kn)).put u (pushed c up x kn)).put x
        { (popped c bx ks kn) with parent := u })
      (popGhost g x (kn.ekey o)) P R upStart u (tempNext bx) U X k ∧
    Content o (((s.put x (popped c bx ks kn)).put u (pushed c up x kn)).put x
        { (popped c bx ks kn) with parent := u }) = Content o s := by
  obtain ⟨huU, hxu, hxl, hxn, hun, hhi, hur, hxr, hkn, hused, hP, hrl, hlo, hpos, hle, hx0, hu0⟩ :=
    h.facts
  have hxfl : x ∈ {l | l ∈ U ∨ l ∈ x :: X} := Or.inr (List.mem_cons_self _ _)
  have hufl : u ∈ {l | l ∈ U ∨ l ∈ x :: X} := Or.inl huU
  have hA := h.inv.pop hc hxfl h.x_page h.keys hxn
  have hAu : (s.put x (popped c bx ks kn)).pages u = some up := by
    rw [State.put_pages_ne _ _ (Ne.symm hxu)]
    exact h.up_page
  have hAx : (s.put x (popped c bx ks kn)).pages x = some (popped c bx ks kn) :=
    State.put_pages_same _ _ _
  have hlt : ∀ k1 ∈ up.keys, k1.ekey o < entryKey o kn.key kn.recordLoc.clearLow := by
    intro k1 hk1
    have := lt_of_le_of_lt (h.bound.2 k1 hk1) hlo
    exact WithBot.coe_lt_coe.mp this
  have hB := @BInv.attach c o _ _ _ P hA u x up (pushed c up x kn) kn.recordLoc kn.key hufl hAu
    (by rw [popGhost_ne g x _ (Ne.symm hxu)]; exact hhi) rfl hun hun
    (pageSizes_pushed hc x (h.inv.sizes u up h.up_page) (h.inv.packed u up h.up_page) hpos hle
      h.room)
    (h.inv.packed u up h.up_page) hxu
    (fun _ => ⟨hxfl, fun Kp hKp => by
        rw [hAx] at hKp
        cases hKp
        exact hks,
      by show g.rank x < g.rank u; rw [hxr, hur]; exact Nat.lt_succ_self _,
      h.bound.1, h.bound.2, by
        rw [popGhost_self]
        exact le_refl _⟩)
    hlt (lt_of_le_of_lt h.bound.1 hlo) hrl (even_of_isUsed hused) hP
  have hBx : ((s.put x (popped c bx ks kn)).put u (pushed c up x kn)).pages x
      = some (popped c bx ks kn) := by
    rw [State.put_pages_ne _ _ hxu]
    exact hAx
  rw [reparent_mapped hBx] at hB
  have hfl : ({l | l ∈ U ∨ l ∈ x :: X} \ {x} : Set DiskLoc) = {l | l ∈ U ∨ l ∈ X} := by
    ext l
    simp only [Set.mem_diff, Set.mem_setOf_eq, Set.mem_singleton_iff, List.mem_cons]
    constructor
    · rintro ⟨h1 | h1 | h1, h2⟩
      · exact Or.inl h1
      · exact absurd h1 h2
      · exact Or.inr h1
    · rintro (h1 | h1)
      · refine ⟨Or.inl h1, ?_⟩
        rintro rfl
        exact (List.nodup_append.mp h.nodup).2.2 h1 (List.mem_cons_self _ _)
      · refine ⟨Or.inr (Or.inr h1), ?_⟩
        rintro rfl
        exact (List.nodup_cons.mp (List.nodup_append.mp h.nodup).2.1).1 h1
  rw [hfl] at hB
  have hpg : ∀ l, l ≠ u → l ≠ x →
      (((s.put x (popped c bx ks kn)).put u (pushed c up x kn)).put x
        { (popped c bx ks kn) with parent := u }).pages l = s.pages l := by
    intro l h1 h2
    rw [State.put_pages_ne _ _ h2, State.put_pages_ne _ _ h1, State.put_pages_ne _ _ h2]
  have hpu : (((s.put x (popped c bx ks kn)).put u (pushed c up x kn)).put x
        { (popped c bx ks kn) with parent := u }).pages u = some (pushed c up x kn) := by
    rw [State.put_pages_ne _ _ (Ne.symm hxu)]
    exact State.put_pages_same _ _ _
  constructor
  · refine mid_of_step hB h.up_chain h.up_last h.x_chain h.nodup h.up_page h.x_page h.bound
      h.x_ne h.u_ne h.pot h.rank_le h.keys hpu rfl rfl hun rfl ?_ ?_
    · intro l hl hlu
      refine hpg l hlu ?_
      rintro rfl
      rcases hl with hl | hl
      · exact (List.nodup_append.mp h.nodup).2.2 hl (List.mem_cons_self _ _)
      · exact (List.nodup_cons.mp (List.nodup_append.mp h.nodup).2.1).1 hl
    · intro l b hl hlu
      by_cases hlx : l = x
      · exact ⟨bx, by rw [hlx]; exact h.x_page⟩
      · exact ⟨b, by rw [← hpg l hlu hlx]; exact hl⟩
  · refine content_move o s _ hxu h.x_page h.keys h.up_page ?_ ?_ ⟨_, hpu, rfl⟩ rfl rfl ?_
    · intro b hb
      rw [State.put_pages_same] at hb
      cases hb
      rfl
    · intro _
      exact ⟨_, State.put_pages_same _ _ _⟩
    · intro l hlx hlu
      rw [hpg l hlu hlx]

theorem reparent_pages (s : State) (K u l : DiskLoc) :
    (reparent s K u).pages l =
      if l = K then (s.pages K).map (fun b => { b with parent := u }) else s.pages l := by
  unfold reparent
  cases hK : s.pages K with
  | none =>
    by_cases hl : l = K
    · rw [if_pos hl, hl, hK]
      rfl
    · rw [if_neg hl]
  | some b =>
    show (s.put K _).pages l = _
    rw [State.put_pages]
    by_cases hl : l = K
    · rw [if_pos hl, if_pos hl]
      rfl
    · rw [if_neg hl, if_neg hl]

theorem free_put_same (s : State) (x : DiskLoc) (b : BtreeBucket) :
    (s.put x b).free x = s.free x := by
  apply state_ext
  · intro l
    rw [State.free_pages, State.free_pages]
    by_cases hl : l = x
    · rw [if_pos hl, if_pos hl]
    · rw [if_neg hl, if_neg hl, State.put_pages_ne _ _ hl]
  · rfl
  · rfl

/-- A step for a page that keeps no slot: the page is dropped, and its last
child, if it has one, becomes a child of the upper page, under the slot the
page gave. -/
theorem step_drop {c : Layout} (hc : Layout.Sane c) {o : Ordering} {s : State} {g : Ghost}
    {P : Set (BSONObj × DiskLoc)} {R : Nat} {upStart u xloc x : DiskLoc} {U X : List DiskLoc}
    {k : Nat} {up bx : BtreeBucket} {kn : _KeyNode}
    (h : Ready c o s g P R upStart u xloc U x X k up bx [] kn) :
    Mid c o (reparent ((s.free x).put u (pushed c up kn.prevChildBucket kn))
        kn.prevChildBucket u)
      (popGhost g x (kn.ekey o)) P R upStart u (tempNext bx) U X k ∧
    Content o (reparent ((s.free x).put u (pushed c up kn.prevChildBucket kn))
        kn.prevChildBucket u) = Content o s := by
  obtain ⟨huU, hxu, hxl, hxn, hun, hhi, hur, hxr, hkn, hused, hP, hrl, hlo, hpos, hle, hx0, hu0⟩ :=
    h.facts
  have hxfl : x ∈ {l | l ∈ U ∨ l ∈ x :: X} := Or.inr (List.mem_cons_self _ _)
  have hufl : u ∈ {l | l ∈ U ∨ l ∈ x :: X} := Or.inl huU
  have hpfx := h.inv.page x bx h.x_page
  -- the child that the page leaves
  have hch : kn.prevChildBucket ≠ DiskLoc.Null →
      (∃ cb, s.pages kn.prevChildBucket = some cb ∧ cb.parent = x ∧ cb.keys ≠ []) ∧
      g.rank kn.prevChildBucket < g.rank x ∧ g.lo x ≤ g.lo kn.prevChildBucket ∧
      g.hi kn.prevChildBucket ≤ ((kn.ekey o : EKey) : WithTop EKey) ∧
      kn.prevChildBucket ∉ {l | l ∈ U ∨ l ∈ x :: X} ∧ kn.prevChildBucket ≠ x ∧
      kn.prevChildBucket ≠ u := by
    intro hn
    obtain ⟨⟨cb, hcb, hcp⟩, h2, h3, _, h5⟩ := hpfx.slot_child kn hkn hn
    have hnfl : kn.prevChildBucket ∉ {l | l ∈ U ∨ l ∈ x :: X} := by
      intro hfl
      exact (h.inv.float _ hfl).2 x bx h.x_page (Or.inr ⟨kn, hkn, rfl⟩)
    have hcx : kn.prevChildBucket ≠ x := by
      intro e
      rw [e] at h2
      exact lt_irrefl _ h2
    have hcu : kn.prevChildBucket ≠ u := fun e => hnfl (by rw [e]; exact hufl)
    exact ⟨⟨cb, hcb, hcp, (h.inv.link _ cb hcb hnfl).1⟩, h2, h3, h5, hnfl, hcx, hcu⟩
  have hKu : kn.prevChildBucket ≠ u := by
    by_cases hn : kn.prevChildBucket = DiskLoc.Null
    · rw [hn]
      exact Ne.symm hu0
    · exact (hch hn).2.2.2.2.2.2
  have hKx : kn.prevChildBucket ≠ x := by
    by_cases hn : kn.prevChildBucket = DiskLoc.Null
    · rw [hn]
      exact Ne.symm hx0
    · exact (hch hn).2.2.2.2.2.1
  have hA := h.inv.pop hc hxfl h.x_page h.keys hxn
  have hAx : (s.put x (popped c bx [] kn)).pages x = some (popped c bx [] kn) :=
    State.put_pages_same _ _ _
  have hD := hA.drop_root hxfl hAx rfl
  rw [free_put_same] at hD
  have hDu : (s.free x).pages u = some up := by
    rw [State.free_pages, if_neg (Ne.symm hxu)]
    exact h.up_page
  have hDo : ∀ l, l ≠ x → (s.free x).pages l = s.pages l := by
    intro l hl
    rw [State.free_pages, if_neg hl]
  have hlt : ∀ k1 ∈ up.keys, k1.ekey o < entryKey o kn.key kn.recordLoc.clearLow := by
    intro k1 hk1
    have := lt_of_le_of_lt (h.bound.2 k1 hk1) hlo
    exact WithBot.coe_lt_coe.mp this
  have hB := @BInv.attach c o _ _ _ P hD u kn.prevChildBucket up
    (pushed c up kn.prevChildBucket kn) kn.recordLoc kn.key
    (Or.inl ⟨hufl, Ne.symm hxu⟩) hDu
    (by rw [popGhost_ne g x _ (Ne.symm hxu)]; exact hhi) rfl hun hun
    (pageSizes_pushed hc _ (h.inv.sizes u up h.up_page) (h.inv.packed u up h.up_page) hpos hle
      h.room)
    (h.inv.packed u up h.up_page) hKu
    (fun hn => by
      obtain ⟨⟨cb, hcb, hcp, hcne⟩, h2, h3, h5, hnfl, hcx, hcu⟩ := hch hn
      refine ⟨Or.inr ⟨rfl, hn⟩, ?_, ?_, le_trans h.bound.1 h3,
        fun k1 hk1 => le_trans (h.bound.2 k1 hk1) h3, ?_⟩
      · intro Kp hKp
        rw [hDo _ hcx, hcb] at hKp
        cases hKp
        exact hcne
      · show g.rank kn.prevChildBucket < g.rank u
        rw [hur]
        rw [hxr] at h2
        exact lt_trans h2 (Nat.lt_succ_self _)
      · rw [popGhost_ne g x _ hcx]
        exact h5)
    hlt (lt_of_le_of_lt h.bound.1 hlo) hrl (even_of_isUsed hused) hP
  have hfl : ({l | (l ∈ {l | l ∈ U ∨ l ∈ x :: X} ∧ l ≠ x) ∨
      (l = (popped c bx [] kn).nextChild ∧ l ≠ DiskLoc.Null)} \ {kn.prevChildBucket}
        : Set DiskLoc) = {l | l ∈ U ∨ l ∈ X} := by
    ext l
    simp only [Set.mem_diff, Set.mem_setOf_eq, Set.mem_singleton_iff, List.mem_cons]
    constructor
    · rintro ⟨⟨h1 | h1 | h1, h3⟩ | ⟨h1, _⟩, h2⟩
      · exact Or.inl h1
      · exact absurd h1 h3
      · exact Or.inr h1
      · exact absurd h1 h2
    · intro h1
      have hlx : l ≠ x := by
        rintro rfl
        rcases h1 with h1 | h1
        · exact (List.nodup_append.mp h.nodup).2.2 h1 (List.mem_cons_self _ _)
        · exact (List.nodup_cons.mp (List.nodup_append.mp h.nodup).2.1).1 h1
      have hlfl : l ∈ {l | l ∈ U ∨ l ∈ x :: X} := by
        rcases h1 with h1 | h1
        · exact Or.inl h1
        · exact Or.inr (List.mem_cons_of_mem _ h1)
      refine ⟨Or.inl ⟨?_, hlx⟩, ?_⟩
      · rcases h1 with h1 | h1
        · exact Or.inl h1
        · exact Or.inr (Or.inr h1)
      · rintro rfl
        have hn : kn.prevChildBucket ≠ DiskLoc.Null := (h.inv.root_not_child hlfl).1
        exact (hch hn).2.2.2.2.1 hlfl
  rw [hfl] at hB
  -- the pages of the new state
  have hpu : (reparent ((s.free x).put u (pushed c up kn.prevChildBucket kn))
      kn.prevChildBucket u).pages u = some (pushed c up kn.prevChildBucket kn) := by
    rw [reparent_pages, if_neg (Ne.symm hKu)]
    exact State.put_pages_same _ _ _
  have hpx : (reparent ((s.free x).put u (pushed c up kn.prevChildBucket kn))
      kn.prevChildBucket u).pages x = none := by
    rw [reparent_pages, if_neg (Ne.symm hKx), State.put_pages_ne _ _ hxu, State.free_pages,
      if_pos rfl]
  have hpg : ∀ l, l ≠ u → l ≠ x → l ≠ kn.prevChildBucket →
      (reparent ((s.free x).put u (pushed c up kn.prevChildBucket kn))
        kn.prevChildBucket u).pages l = s.pages l := by
    intro l h1 h2 h3
    rw [reparent_pages, if_neg h3, State.put_pages_ne _ _ h1, hDo l h2]
  have hpk : ∀ l, l ≠ u → l ≠ x →
      ((reparent ((s.free x).put u (pushed c up kn.prevChildBucket kn))
        kn.prevChildBucket u).pages l).map (fun b => b.keys)
        = (s.pages l).map (fun b => b.keys) := by
    intro l h1 h2
    by_cases h3 : l = kn.prevChildBucket
    · rw [reparent_pages, if_pos h3, ← h3, State.put_pages_ne _ _ h1, hDo l h2]
      cases s.pages l <;> rfl
    · rw [hpg l h1 h2 h3]
  constructor
  · refine mid_of_step hB h.up_chain h.up_last h.x_chain h.nodup h.up_page h.x_page h.bound
      h.x_ne h.u_ne h.pot h.rank_le h.keys hpu rfl rfl hun rfl ?_ ?_
    · intro l hl hlu
      have hlfl : l ∈ {l | l ∈ U ∨ l ∈ x :: X} := by
        rcases hl with hl | hl
        · exact Or.inl hl
        · exact Or.inr (List.mem_cons_of_mem _ hl)
      refine hpg l hlu ?_ ?_
      · rintro rfl
        rcases hl with hl | hl
        · exact (List.nodup_append.mp h.nodup).2.2 hl (List.mem_cons_self _ _)
        · exact (List.nodup_cons.mp (List.nodup_append.mp h.nodup).2.1).1 hl
      · rintro rfl
        have hn : kn.prevChildBucket ≠ DiskLoc.Null := (h.inv.root_not_child hlfl).1
        exact (hch hn).2.2.2.2.1 hlfl
    · intro l b hl hlu
      have hlx : l ≠ x := by
        rintro rfl
        rw [hpx] at hl
        cases hl
      have := hpk l hlu hlx
      rw [hl] at this
      obtain ⟨b0, hb0, _⟩ := keys_eq_of_map this rfl
      exact ⟨b0, hb0⟩
  · refine content_move o s _ hxu h.x_page h.keys h.up_page ?_ ?_ ⟨_, hpu, rfl⟩ rfl rfl ?_
    · intro b hb
      rw [hpx] at hb
      cases hb
    · intro hne
      exact absurd rfl hne
    · intro l hlx hlu
      exact hpk l hlu hlx

end BtreeBuilder
end mongo
namespace mongo
namespace BtreeBuilder
open BtreeBucket

/-- What the state inside the loop says of the first page of what remains of the
chain and of the last page of the level above. -/
theorem Mid.pages {c : Layout} {o : Ordering} {s : State} {g : Ghost}
    {P : Set (BSONObj × DiskLoc)} {R : Nat} {upStart upLoc xloc x : DiskLoc}
    {U X : List DiskLoc} {k : Nat}
    (h : Mid c o s g P R upStart upLoc xloc U (x :: X) k) :
    ∃ up bx ks kn, s.pages upLoc = some up ∧ s.pages x = some bx ∧ bx.keys = ks ++ [kn] := by
  have huU : upLoc ∈ U := List.mem_of_mem_getLast? h.up_last
  obtain ⟨up, hup, _⟩ := h.up_chain.mem upLoc huU
  obtain ⟨_, bx, hbx, _⟩ := h.x_chain.head
  have hne := h.x_ne x (List.mem_cons_self _ _) bx hbx
  refine ⟨up, bx, bx.keys.dropLast, bx.keys.getLast hne, hup, hbx, ?_⟩
  exact (List.dropLast_append_getLast hne).symm

/-- The step is ready when the last page of the level above has room. -/
theorem Mid.ready_fit {c : Layout} {o : Ordering} {s : State} {g : Ghost}
    {P : Set (BSONObj × DiskLoc)} {R : Nat} {upStart upLoc xloc x : DiskLoc}
    {U X : List DiskLoc} {k : Nat} {up bx : BtreeBucket} {ks : List _KeyNode} {kn : _KeyNode}
    (h : Mid c o s g P R upStart upLoc xloc U (x :: X) k)
    (hup : s.pages upLoc = some up) (hbx : s.pages x = some bx) (hk : bx.keys = ks ++ [kn])
    (hroom : kn.key.objsize + c.slotSize ≤ up.emptySize) :
    Ready c o s g P R upStart upLoc xloc U x X k up bx ks kn :=
  { inv := h.inv
    up_chain := h.up_chain
    up_last := h.up_last
    x_chain := h.x_chain
    nodup := h.nodup
    up_page := hup
    x_page := hbx
    bound := h.bound up hup x rfl
    x_ne := fun y hy => h.x_ne y (List.mem_cons_of_mem _ hy)
    u_ne := h.u_ne
    pot := h.pot up hup
    rank_le := h.rank_le
    keys := hk
    room := hroom }

/-- The step is ready, with a fresh page linked at the end of the level above,
when the last page of that level has no room. -/
theorem Mid.ready_full {c : Layout} (hc : Layout.Sane c) {o : Ordering} {s : State}
    {g : Ghost} {P : Set (BSONObj × DiskLoc)} {R : Nat} {upStart upLoc xloc x : DiskLoc}
    {U X : List DiskLoc} {k : Nat} {up bx : BtreeBucket} {ks : List _KeyNode} {kn : _KeyNode}
    (h : Mid c o s g P R upStart upLoc xloc U (x :: X) k)
    (hup : s.pages upLoc = some up) (hbx : s.pages x = some bx) (hk : bx.keys = ks ++ [kn])
    (hroom : ¬ kn.key.objsize + c.slotSize ≤ up.emptySize) :
    Ready c o ((addBucket c s).2.put upLoc (setTempNext up ⟨0, s.allocNext⟩))
      (rootGhostAt g ⟨0, s.allocNext⟩ (R + 1) (g.lo x)) P R upStart ⟨0, s.allocNext⟩ xloc
      (U ++ [⟨0, s.allocNext⟩]) x X k (init c) bx ks kn ∧
    Content o ((addBucket c s).2.put upLoc (setTempNext up ⟨0, s.allocNext⟩)) = Content o s := by
  have huU : upLoc ∈ U := List.mem_of_mem_getLast? h.up_last
  have hnew := h.inv.next_unmapped
  have hne : ∀ l b, s.pages l = some b → l ≠ ⟨0, s.allocNext⟩ := by
    rintro l b hl rfl
    rw [hnew] at hl
    cases hl
  have hun := hne upLoc up hup
  have hxn := hne x bx hbx
  have hkn : kn ∈ bx.keys := by rw [hk]; simp
  have hszx := h.inv.sizes x bx hbx
  have hpos := hszx.key_pos kn hkn
  have hle := hszx.key_le kn hkn
  have hndU : U.Nodup := (List.nodup_append.mp h.nodup).1
  have hmemU : ∀ y ∈ U, ∃ b, s.pages y = some b := fun y hy => by
    obtain ⟨b, hb, _⟩ := h.up_chain.mem y hy
    exact ⟨b, hb⟩
  have hmemX : ∀ y ∈ x :: X, ∃ b, s.pages y = some b := fun y hy => by
    obtain ⟨b, hb, _⟩ := h.x_chain.mem y hy
    exact ⟨b, hb⟩
  have hnU : (⟨0, s.allocNext⟩ : DiskLoc) ∉ U := fun hm => by
    obtain ⟨b, hb⟩ := hmemU _ hm
    exact hne _ b hb rfl
  have hnX : (⟨0, s.allocNext⟩ : DiskLoc) ∉ x :: X := fun hm => by
    obtain ⟨b, hb⟩ := hmemX _ hm
    exact hne _ b hb rfl
  have hxu : x ≠ upLoc := by
    rintro rfl
    exact (List.nodup_append.mp h.nodup).2.2 huU (List.mem_cons_self _ _)
  have hufl : upLoc ∈ ({l | l ∈ U ∨ l ∈ x :: X} ∪ {⟨0, s.allocNext⟩} : Set DiskLoc) :=
    Or.inl (Or.inl huU)
  have hA := h.inv.alloc hc (R + 1) (g.lo x)
  have hAu : (addBucket c s).2.pages upLoc = some up := by
    rw [addBucket_pages, if_neg hun]
    exact hup
  have hB := hA.set_root_parent hufl hAu ⟨0, s.allocNext⟩
  have hfl : ({l | l ∈ U ∨ l ∈ x :: X} ∪ {⟨0, s.allocNext⟩} : Set DiskLoc)
      = {l | l ∈ U ++ [⟨0, s.allocNext⟩] ∨ l ∈ x :: X} := by
    ext l
    simp only [Set.mem_union, Set.mem_setOf_eq, Set.mem_singleton_iff, List.mem_append,
      List.mem_singleton]
    tauto
  rw [hfl] at hB
  have hpg : ∀ l, l ≠ upLoc → l ≠ ⟨0, s.allocNext⟩ →
      ((addBucket c s).2.put upLoc (setTempNext up ⟨0, s.allocNext⟩)).pages l = s.pages l := by
    intro l h1 h2
    rw [State.put_pages_ne _ _ h1, addBucket_pages, if_neg h2]
  have hpu : ((addBucket c s).2.put upLoc (setTempNext up ⟨0, s.allocNext⟩)).pages upLoc
      = some (setTempNext up ⟨0, s.allocNext⟩) := State.put_pages_same _ _ _
  have hpn : ((addBucket c s).2.put upLoc (setTempNext up ⟨0, s.allocNext⟩)).pages
      ⟨0, s.allocNext⟩ = some (init c) := by
    rw [State.put_pages_ne _ _ (Ne.symm hun), addBucket_pages, if_pos rfl]
  have hgh : ∀ y, y ≠ ⟨0, s.allocNext⟩ →
      (rootGhostAt g ⟨0, s.allocNext⟩ (R + 1) (g.lo x)).hi y = g.hi y ∧
      (rootGhostAt g ⟨0, s.allocNext⟩ (R + 1) (g.lo x)).rank y = g.rank y ∧
      (rootGhostAt g ⟨0, s.allocNext⟩ (R + 1) (g.lo x)).lo y = g.lo y := fun y hy => by
    obtain ⟨h1, h2, h3⟩ := rootGhostAt_ne g ⟨0, s.allocNext⟩ (R + 1) (g.lo x) hy
    exact ⟨h3, h1, h2⟩
  obtain ⟨gr, gl, gh⟩ := rootGhostAt_self g ⟨0, s.allocNext⟩ (R + 1) (g.lo x)
  have hb := h.bound up hup x rfl
  have hlen3 : 3 ≤ up.keys.length :=
    length_gt_two_of_no_room c hc up (h.inv.sizes upLoc up hup) (h.inv.packed upLoc up hup)
      kn.key hpos hle (by omega)
  have hUlen : 1 ≤ U.length := List.length_pos_of_mem huU
  constructor
  · refine
      { inv := hB
        up_chain := ?_
        up_last := by simp
        x_chain := ?_
        nodup := ?_
        up_page := hpn
        x_page := by rw [hpg x hxu hxn]; exact hbx
        bound := ?_
        x_ne := ?_
        u_ne := ?_
        pot := ?_
        rank_le := ?_
        keys := hk
        room := ?_ }
    · refine h.up_chain.snoc h.up_last hndU hnU hup hpu hpn rfl rfl gh gr ?_ ?_ ?_ ?_
      · rw [gl]
        exact hb.1
      · rw [gl]
        exact hb.2
      · intro y hy hyu
        obtain ⟨b, hb0⟩ := hmemU y hy
        exact hpg y hyu (hne y b hb0)
      · intro y hy
        obtain ⟨b, hb0⟩ := hmemU y hy
        exact hgh y (hne y b hb0)
    · refine h.x_chain.carry ?_ ?_
      · intro y hy b hb0
        have hyu : y ≠ upLoc := by
          rintro rfl
          exact (List.nodup_append.mp h.nodup).2.2 huU hy
        exact ⟨b, by rw [hpg y hyu (hne y b hb0)]; exact hb0, rfl, rfl, fun _ => rfl⟩
      · intro y hy
        obtain ⟨b, hb0⟩ := hmemX y hy
        exact hgh y (hne y b hb0)
    · have h0 := List.nodup_append.mp h.nodup
      rw [List.append_assoc]
      refine List.nodup_append.mpr ⟨h0.1, ?_, ?_⟩
      · exact List.nodup_cons.mpr ⟨hnX, h0.2.1⟩
      · intro y h1 h2
        rcases List.mem_cons.mp h2 with rfl | h2
        · exact hnU h1
        · exact h0.2.2 h1 h2
    · rw [gl, (hgh x hxn).2.2]
      exact ⟨le_refl _, fun k0 hk0 => by cases hk0⟩
    · intro y hy b hb0
      have hyX : y ∈ x :: X := List.mem_cons_of_mem _ hy
      have hyu : y ≠ upLoc := by
        rintro rfl
        exact (List.nodup_append.mp h.nodup).2.2 huU hyX
      obtain ⟨b1, hb1⟩ := hmemX y hyX
      rw [hpg y hyu (hne y b1 hb1)] at hb0
      exact h.x_ne y hyX b hb0
    · intro y hy hyn b hb0
      rcases List.mem_append.mp hy with hy | hy
      · by_cases hyu : y = upLoc
        · rw [hyu, hpu] at hb0
          cases hb0
          exact hlen3
        · obtain ⟨b1, hb1⟩ := hmemU y hy
          rw [hpg y hyu (hne y b1 hb1)] at hb0
          exact h.u_ne y hy hyu b hb0
      · exact absurd (List.mem_singleton.mp hy) hyn
    · have := h.pot up hup
      rw [List.length_append, List.length_singleton]
      show 3 * (U.length + 1 - 1) + 0 + (X.length + 1) ≤ k
      simp only [List.length_cons] at this
      omega
    · intro l b hl hlU
      have hln : l ≠ ⟨0, s.allocNext⟩ := fun e => hlU (by rw [e]; simp)
      have hlu : l ≠ upLoc := fun e => hlU (by rw [e]; exact List.mem_append_left _ huU)
      rw [hpg l hlu hln] at hl
      rw [(hgh l hln).2.1]
      exact h.rank_le l b hl (fun hm => hlU (List.mem_append_left _ hm))
    · show kn.key.objsize + c.slotSize ≤ totalDataSize c
      have h1 := hc.room
      have h3 := keyMax_nonneg c hc
      have h4 := hc.slot_pos
      unfold totalDataSize
      omega
  · refine content_of_pages o s _ ?_ ?_
    · intro l b hl hbne
      by_cases hlu : l = upLoc
      · rw [hlu, hpu] at hl
        cases hl
        exact ⟨up, by rw [hlu]; exact hup, rfl⟩
      · by_cases hln : l = ⟨0, s.allocNext⟩
        · rw [hln, hpn] at hl
          cases hl
          exact absurd rfl hbne
        · rw [hpg l hlu hln] at hl
          exact ⟨b, hl, rfl⟩
    · intro l b hl _
      by_cases hlu : l = upLoc
      · rw [hlu, hup] at hl
        cases hl
        exact ⟨setTempNext up ⟨0, s.allocNext⟩, by rw [hlu]; exact hpu, rfl⟩
      · exact ⟨b, by rw [hpg l hlu (hne l b hl)]; exact hl, rfl⟩

end BtreeBuilder
end mongo
namespace mongo
namespace BtreeBuilder
open BtreeBucket

theorem reparent_allocNext (s : State) (K u : DiskLoc) :
    (reparent s K u).allocNext = s.allocNext := by
  unfold reparent
  cases s.pages K <;> rfl

theorem reparent_head (s : State) (K u : DiskLoc) : (reparent s K u).head = s.head := by
  unfold reparent
  cases s.pages K <;> rfl

theorem free_put_comm (s : State) {x u : DiskLoc} (b : BtreeBucket) (h : x ≠ u) :
    (s.put u b).free x = (s.free x).put u b := by
  apply state_ext
  · intro l
    rw [State.free_pages, State.put_pages, State.put_pages, State.free_pages]
    by_cases hx : l = x
    · rw [if_pos hx, if_neg (by rw [hx]; exact h), if_pos hx]
    · rw [if_neg hx, if_neg hx]
  · rfl
  · rfl

theorem reparent_free_comm (s : State) {x K : DiskLoc} (u : DiskLoc) (h : K ≠ x) :
    (reparent s K u).free x = reparent (s.free x) K u := by
  apply state_ext
  · intro l
    rw [State.free_pages, reparent_pages, reparent_pages, State.free_pages, State.free_pages,
      if_neg h]
    by_cases hx : l = x
    · rw [if_pos hx, if_pos hx, if_neg (by rw [hx]; exact Ne.symm h)]
    · rw [if_neg hx, if_neg hx]
  · show (reparent s K u).head = (reparent (s.free x) K u).head
    rw [reparent_head, reparent_head]
    rfl
  · show (reparent s K u).allocNext = (reparent (s.free x) K u).allocNext
    rw [reparent_allocNext, reparent_allocNext]
    rfl

theorem addBucket_put (c : Layout) (s : State) {x : DiskLoc} (b : BtreeBucket)
    (h : x ≠ ⟨0, s.allocNext⟩) : (addBucket c (s.put x b)).2 = (addBucket c s).2.put x b := by
  apply state_ext
  · intro l
    rw [addBucket_pages, State.put_pages, State.put_pages, addBucket_pages]
    show (if l = (⟨0, s.allocNext⟩ : DiskLoc) then _ else _) = _
    by_cases hx : l = x
    · rw [if_pos hx, if_pos hx, if_neg (by rw [hx]; exact h)]
    · rw [if_neg hx, if_neg hx]
  · rfl
  · rfl

/-- The end of an iteration for a page left without slots. -/
theorem relink_drop_eq {s : State} {xloc upLoc : DiskLoc} {x : BtreeBucket}
    (hx : s.pages xloc = some x) (hnull : s.pages DiskLoc.Null = none)
    (hc : x.nextChild ≠ DiskLoc.Null → ∃ cb, s.pages x.nextChild = some cb) :
    relink s xloc upLoc false = .ok (tempNext x, (reparent s x.nextChild upLoc).free xloc) := by
  by_cases hn : x.nextChild = DiskLoc.Null
  · rw [relink_drop hx hn, hn]
    unfold reparent
    rw [hnull]
    rfl
  · obtain ⟨cb, hcb⟩ := hc hn
    rw [relink_drop_child hx hn hcb, reparent_mapped hcb]
    rfl

/-- The run of `_pushBack` on a page with room whose slots are below the new
one. -/
theorem pushBack_pushed {c : Layout} (hc : Layout.Sane c) {o : Ordering} {up : BtreeBucket}
    (K : DiskLoc) {kn : _KeyNode} (hsz : PageSizes c up)
    (hroom : kn.key.objsize + c.slotSize ≤ up.emptySize)
    (hlt : ∀ k1 ∈ up.keys, k1.ekey o < kn.ekey o) :
    _pushBack c up kn.recordLoc kn.key o K = .ok (true, pushed c up K kn) := by
  refine _pushBack_ok c up kn.recordLoc kn.key o K hsz.accounting hc.slot_pos (by omega) ?_
  intro last hlast
  exact woCompare_le_of_ekey_lt o (hlt last (List.mem_of_mem_getLast? hlast))

theorem pushBack_init {c : Layout} (hc : Layout.Sane c) (o : Ordering) (K : DiskLoc)
    {kn : _KeyNode} (hpos : 0 < kn.key.objsize) (hle : kn.key.objsize ≤ KeyMax c) :
    pushBack c (init c) kn.recordLoc kn.key o K = .ok (pushed c (init c) K kn) := by
  have hroom : kn.key.objsize + c.slotSize ≤ (init c).emptySize := by
    show kn.key.objsize + c.slotSize ≤ totalDataSize c
    have h1 := hc.room
    have h3 := keyMax_nonneg c hc
    have h4 := hc.slot_pos
    unfold totalDataSize
    omega
  have := @pushBack_pushed c hc o (init c) K kn (pageSizes_init c hc) hroom
    (fun k1 hk1 => by cases hk1)
  unfold pushBack
  rw [this]

end BtreeBuilder
end mongo
namespace mongo
namespace BtreeBuilder
open BtreeBucket

theorem decide_keep_true {ks : List _KeyNode} (h : ks ≠ []) :
    decide (ks.length ≠ 0) = true :=
  decide_eq_true (fun e => h (List.length_eq_zero.mp e))

/-- One iteration of the loop over the chain of a level: the run, and the state
inside the loop that it leaves. -/
theorem Mid.iter {c : Layout} (hc : Layout.Sane c) {o : Ordering} {s : State} {g : Ghost}
    {P : Set (BSONObj × DiskLoc)} {R : Nat} {upStart upLoc xloc x : DiskLoc}
    {U X : List DiskLoc} {k : Nat}
    (h : Mid c o s g P R upStart upLoc xloc U (x :: X) k) :
    ∃ s3 g3 u3 U3 next,
      (∀ f, buildChain c o (f + 1) s upLoc xloc = buildChain c o f s3 u3 next) ∧
      Mid c o s3 g3 P R upStart u3 next U3 X k ∧ Content o s3 = Content o s := by
  obtain ⟨up, bx, ks, kn, hup, hbx, hk⟩ := h.pages
  have hxl : xloc = x := h.x_chain.head.1
  subst hxl
  have huU : upLoc ∈ U := List.mem_of_mem_getLast? h.up_last
  have hxu : xloc ≠ upLoc := by
    rintro rfl
    exact (List.nodup_append.mp h.nodup).2.2 huU (List.mem_cons_self _ _)
  have hx0 : xloc ≠ DiskLoc.Null := h.inv.mapped_ne_null hbx
  have hu0 : upLoc ≠ DiskLoc.Null := h.inv.mapped_ne_null hup
  have hxnull : xloc.isNull = false := (DiskLoc.isNull_false_iff xloc).mpr hx0
  obtain ⟨_, bx0, hbx0, hxn, _, hxr, _, _⟩ := h.x_chain.head
  rw [hbx] at hbx0
  cases hbx0
  have hkn : kn ∈ bx.keys := by rw [hk]; simp
  obtain ⟨hused, _⟩ := h.inv.slots xloc bx hbx kn hkn
  have hpfx := h.inv.page xloc bx hbx
  have hszx := h.inv.sizes xloc bx hbx
  have hpos := hszx.key_pos kn hkn
  have hle := hszx.key_le kn hkn
  have hlo := hpfx.lo_lt kn hkn
  have hb := h.bound up hup xloc rfl
  have hlt : ∀ k1 ∈ up.keys, k1.ekey o < kn.ekey o := by
    intro k1 hk1
    exact WithBot.coe_lt_coe.mp (lt_of_le_of_lt (hb.2 k1 hk1) hlo)
  have hpop := popBack_ok c hk hused hxn
  have hxfl : xloc ∈ {l | l ∈ U ∨ l ∈ xloc :: X} := Or.inr (List.mem_cons_self _ _)
  have hufl : upLoc ∈ {l | l ∈ U ∨ l ∈ xloc :: X} := Or.inl huU
  have hnew := h.inv.next_unmapped
  have hne : ∀ l b, s.pages l = some b → l ≠ ⟨0, s.allocNext⟩ := by
    rintro l b hl rfl
    rw [hnew] at hl
    cases hl
  -- the child that the page leaves when it keeps no slot
  have hch : kn.prevChildBucket ≠ DiskLoc.Null →
      (∃ cb, s.pages kn.prevChildBucket = some cb) ∧ kn.prevChildBucket ≠ xloc ∧
        kn.prevChildBucket ≠ upLoc := by
    intro hn
    obtain ⟨⟨cb, hcb, _⟩, h2, _⟩ := hpfx.slot_child kn hkn hn
    have hnfl : kn.prevChildBucket ∉ {l | l ∈ U ∨ l ∈ xloc :: X} := by
      intro hfl
      exact (h.inv.float _ hfl).2 xloc bx hbx (Or.inr ⟨kn, hkn, rfl⟩)
    refine ⟨⟨cb, hcb⟩, ?_, fun e => hnfl (by rw [e]; exact hufl)⟩
    intro e
    rw [e] at h2
    exact lt_irrefl _ h2
  have hKx : kn.prevChildBucket ≠ xloc := by
    by_cases hn : kn.prevChildBucket = DiskLoc.Null
    · rw [hn]
      exact Ne.symm hx0
    · exact (hch hn).2.1
  -- the page that keeps the chain after the pop
  have hApx : ∀ (S : State), (S.put xloc (popped c bx ks kn)).pages xloc
      = some (popped c bx ks kn) := fun S => State.put_pages_same _ _ _
  by_cases hroom : kn.key.objsize + c.slotSize ≤ up.emptySize
  · have hr := h.ready_fit hup hbx hk hroom
    have hpush : ∀ K, pushUp c o (s.put xloc (popped c bx ks kn)) upLoc kn.recordLoc kn.key K
        = .ok (upLoc, (s.put xloc (popped c bx ks kn)).put upLoc (pushed c up K kn)) :=
      fun K => pushUp_fit c o (by rw [State.put_pages_ne _ _ (Ne.symm hxu)]; exact hup)
        (pushBack_pushed hc K (h.inv.sizes upLoc up hup) hroom hlt)
    have hs2x : ∀ K, ((s.put xloc (popped c bx ks kn)).put upLoc (pushed c up K kn)).pages xloc
        = some (popped c bx ks kn) := fun K => by
      rw [State.put_pages_ne _ _ hxu]
      exact hApx s
    by_cases hks : ks = []
    · subst hks
      obtain ⟨hm, hcont⟩ := step_drop hc hr
      refine ⟨_, _, upLoc, U, tempNext bx, ?_, hm, hcont⟩
      intro f
      have hre := @relink_drop_eq
        ((s.put xloc (popped c bx [] kn)).put upLoc (pushed c up kn.prevChildBucket kn))
        xloc upLoc (popped c bx [] kn) (hs2x _)
        (by
          rw [State.put_pages_ne _ _ (Ne.symm hu0), State.put_pages_ne _ _ (Ne.symm hx0)]
          exact h.inv.null_unmapped)
        (fun hn => by
          obtain ⟨⟨cb, hcb⟩, h1, h2⟩ := hch hn
          exact ⟨cb, by
            show (((s.put xloc _).put upLoc _)).pages kn.prevChildBucket = _
            rw [State.put_pages_ne _ _ h2, State.put_pages_ne _ _ h1]
            exact hcb⟩)
      have hit := buildChain_iter c o f hxnull hbx hpop (hpush kn.prevChildBucket) hre
      rw [hit]
      have hst : (reparent ((s.put xloc (popped c bx [] kn)).put upLoc
          (pushed c up kn.prevChildBucket kn)) (popped c bx [] kn).nextChild upLoc).free xloc
          = reparent ((s.free xloc).put upLoc (pushed c up kn.prevChildBucket kn))
            kn.prevChildBucket upLoc := by
        show (reparent _ kn.prevChildBucket upLoc).free xloc = _
        rw [reparent_free_comm _ _ hKx, free_put_comm _ _ hxu, free_put_same]
      rw [hst]
      rfl
    · obtain ⟨hm, hcont⟩ := step_keep hc hr hks
      refine ⟨_, _, upLoc, U, tempNext bx, ?_, hm, hcont⟩
      intro f
      have hd := decide_keep_true hks
      have hpush' : pushUp c o (s.put xloc (popped c bx ks kn)) upLoc kn.recordLoc kn.key
          (if decide ((popped c bx ks kn).keys.length ≠ 0) = true then xloc
            else (popped c bx ks kn).nextChild)
          = .ok (upLoc, (s.put xloc (popped c bx ks kn)).put upLoc (pushed c up xloc kn)) := by
        have : decide ((popped c bx ks kn).keys.length ≠ 0) = true := hd
        rw [this, if_pos rfl]
        exact hpush xloc
      have hre : relink ((s.put xloc (popped c bx ks kn)).put upLoc (pushed c up xloc kn))
          xloc upLoc (decide ((popped c bx ks kn).keys.length ≠ 0))
          = .ok (tempNext (popped c bx ks kn),
            ((s.put xloc (popped c bx ks kn)).put upLoc (pushed c up xloc kn)).put xloc
              { (popped c bx ks kn) with parent := upLoc }) := by
        have : decide ((popped c bx ks kn).keys.length ≠ 0) = true := hd
        rw [this]
        exact relink_keep (hs2x xloc)
      exact buildChain_iter c o f hxnull hbx hpop hpush' hre
  · obtain ⟨hr, hcontA⟩ := h.ready_full hc hup hbx hk hroom
    have hun := hne upLoc up hup
    have hxn' := hne xloc bx hbx
    have hnx : (⟨0, s.allocNext⟩ : DiskLoc) ≠ xloc := Ne.symm hxn'
    have hpush : ∀ K, pushUp c o (s.put xloc (popped c bx ks kn)) upLoc kn.recordLoc kn.key K
        = .ok (⟨0, s.allocNext⟩,
          ((((addBucket c s).2.put upLoc (setTempNext up ⟨0, s.allocNext⟩)).put xloc
            (popped c bx ks kn)).put ⟨0, s.allocNext⟩ (pushed c (init c) K kn))) := by
      intro K
      have h1 := @pushUp_full c o (s.put xloc (popped c bx ks kn)) upLoc kn.recordLoc K kn.key
        up up (pushed c (init c) K kn)
        (by rw [State.put_pages_ne _ _ (Ne.symm hxu)]; exact hup)
        (_pushBack_no_room c up kn.recordLoc kn.key o K (by omega))
        (pushBack_init hc o K hpos hle) hun
      rw [h1]
      have h2 : (addBucket c (s.put xloc (popped c bx ks kn))).2
          = (addBucket c s).2.put xloc (popped c bx ks kn) := addBucket_put c s _ hxn'
      have h3 : (s.put xloc (popped c bx ks kn)).allocNext = s.allocNext := rfl
      rw [h2, h3, State.put_comm _ _ _ hxu]
    have hs2x : ∀ K, ((((addBucket c s).2.put upLoc (setTempNext up ⟨0, s.allocNext⟩)).put xloc
        (popped c bx ks kn)).put ⟨0, s.allocNext⟩ (pushed c (init c) K kn)).pages xloc
        = some (popped c bx ks kn) := fun K => by
      rw [State.put_pages_ne _ _ hxn']
      exact State.put_pages_same _ _ _
    by_cases hks : ks = []
    · subst hks
      obtain ⟨hm, hcont⟩ := step_drop hc hr
      refine ⟨_, _, ⟨0, s.allocNext⟩, U ++ [⟨0, s.allocNext⟩], tempNext bx, ?_, hm,
        hcont.trans hcontA⟩
      intro f
      have hre := @relink_drop_eq
        ((((addBucket c s).2.put upLoc (setTempNext up ⟨0, s.allocNext⟩)).put xloc
          (popped c bx [] kn)).put ⟨0, s.allocNext⟩ (pushed c (init c) kn.prevChildBucket kn))
        xloc ⟨0, s.allocNext⟩ (popped c bx [] kn) (hs2x _)
        (by
          have hn0 : (DiskLoc.Null : DiskLoc) ≠ ⟨0, s.allocNext⟩ := by
            intro e
            have := congrArg DiskLoc.a e
            simp [DiskLoc.Null] at this
          rw [State.put_pages_ne _ _ hn0, State.put_pages_ne _ _ (Ne.symm hx0),
            State.put_pages_ne _ _ (Ne.symm hu0), addBucket_pages, if_neg hn0]
          exact h.inv.null_unmapped)
        (fun hn => by
          obtain ⟨⟨cb, hcb⟩, h1, h2⟩ := hch hn
          exact ⟨cb, by
            show ((((addBucket c s).2.put upLoc _).put xloc _).put ⟨0, s.allocNext⟩ _).pages
              kn.prevChildBucket = _
            rw [State.put_pages_ne _ _ (hne _ cb hcb), State.put_pages_ne _ _ h1,
              State.put_pages_ne _ _ h2, addBucket_pages, if_neg (hne _ cb hcb)]
            exact hcb⟩)
      have hit := buildChain_iter c o f hxnull hbx hpop (hpush kn.prevChildBucket) hre
      rw [hit]
      have hst : (reparent ((((addBucket c s).2.put upLoc (setTempNext up ⟨0, s.allocNext⟩)).put
          xloc (popped c bx [] kn)).put ⟨0, s.allocNext⟩
            (pushed c (init c) kn.prevChildBucket kn))
          (popped c bx [] kn).nextChild ⟨0, s.allocNext⟩).free xloc
          = reparent ((((addBucket c s).2.put upLoc (setTempNext up ⟨0, s.allocNext⟩)).free
              xloc).put ⟨0, s.allocNext⟩ (pushed c (init c) kn.prevChildBucket kn))
            kn.prevChildBucket ⟨0, s.allocNext⟩ := by
        show (reparent _ kn.prevChildBucket _).free xloc = _
        rw [reparent_free_comm _ _ hKx, free_put_comm _ _ hxn', free_put_same]
      rw [hst]
      rfl
    · obtain ⟨hm, hcont⟩ := step_keep hc hr hks
      refine ⟨_, _, ⟨0, s.allocNext⟩, U ++ [⟨0, s.allocNext⟩], tempNext bx, ?_, hm,
        hcont.trans hcontA⟩
      intro f
      have hd := decide_keep_true hks
      have hpush' : pushUp c o (s.put xloc (popped c bx ks kn)) upLoc kn.recordLoc kn.key
          (if decide ((popped c bx ks kn).keys.length ≠ 0) = true then xloc
            else (popped c bx ks kn).nextChild)
          = .ok (⟨0, s.allocNext⟩,
            ((((addBucket c s).2.put upLoc (setTempNext up ⟨0, s.allocNext⟩)).put xloc
              (popped c bx ks kn)).put ⟨0, s.allocNext⟩ (pushed c (init c) xloc kn))) := by
        have : decide ((popped c bx ks kn).keys.length ≠ 0) = true := hd
        rw [this, if_pos rfl]
        exact hpush xloc
      have hre : relink ((((addBucket c s).2.put upLoc (setTempNext up ⟨0, s.allocNext⟩)).put
            xloc (popped c bx ks kn)).put ⟨0, s.allocNext⟩ (pushed c (init c) xloc kn))
          xloc ⟨0, s.allocNext⟩ (decide ((popped c bx ks kn).keys.length ≠ 0))
          = .ok (tempNext (popped c bx ks kn),
            ((((addBucket c s).2.put upLoc (setTempNext up ⟨0, s.allocNext⟩)).put xloc
              (popped c bx ks kn)).put ⟨0, s.allocNext⟩ (pushed c (init c) xloc kn)).put xloc
              { (popped c bx ks kn) with parent := ⟨0, s.allocNext⟩ }) := by
        have : decide ((popped c bx ks kn).keys.length ≠ 0) = true := hd
        rw [this]
        exact relink_keep (hs2x xloc)
      exact buildChain_iter c o f hxnull hbx hpop hpush' hre

end BtreeBuilder
end mongo
namespace mongo
namespace BtreeBuilder
open BtreeBucket

/-- The loop over the chain of a level runs to its end. -/
theorem Mid.run {c : Layout} (hc : Layout.Sane c) {o : Ordering}
    {P : Set (BSONObj × DiskLoc)} {R : Nat} {upStart : DiskLoc} {k : Nat} :
    ∀ (X : List DiskLoc) {s : State} {g : Ghost} {upLoc xloc : DiskLoc} {U : List DiskLoc},
      Mid c o s g P R upStart upLoc xloc U X k →
      ∃ s3 g3 u3 U3,
        (∀ f, X.length + 1 ≤ f → buildChain c o f s upLoc xloc = (.ok (), s3)) ∧
        Mid c o s3 g3 P R upStart u3 DiskLoc.Null U3 [] k ∧ Content o s3 = Content o s
  | [], s, g, upLoc, xloc, U, h => by
    have hx : xloc = DiskLoc.Null := h.x_chain
    subst hx
    refine ⟨s, g, upLoc, U, ?_, h, rfl⟩
    intro f hf
    obtain ⟨f1, rfl⟩ := Nat.exists_eq_add_of_le hf
    rw [Nat.add_comm]
    exact buildChain_null c o _ s upLoc
  | x :: X, s, g, upLoc, xloc, U, h => by
    obtain ⟨s1, g1, u1, U1, next, hrun, hm, hcont⟩ := Mid.iter hc h
    obtain ⟨s3, g3, u3, U3, hrun3, hm3, hcont3⟩ := Mid.run hc X hm
    refine ⟨s3, g3, u3, U3, ?_, hm3, hcont3.trans hcont⟩
    intro f hf
    obtain ⟨f1, rfl⟩ := Nat.exists_eq_add_of_le hf
    have e : (x :: X).length + 1 + f1 = (X.length + 1 + f1) + 1 := by
      simp only [List.length_cons]
      omega
    rw [e, hrun]
    exact hrun3 _ (by omega)

/-- At the end of the loop over the chain of a level, the level above is
complete, and it has fewer pages. -/
theorem Mid.to_level {c : Layout} {o : Ordering} {s : State} {g : Ghost}
    {P : Set (BSONObj × DiskLoc)} {R : Nat} {upStart upLoc xloc : DiskLoc}
    {U : List DiskLoc} {k : Nat} (hk : 2 ≤ k)
    (h : Mid c o s g P R upStart upLoc xloc U [] k) :
    Level c o s g P (R + 1) upStart U ∧ U.length < k := by
  have hne : U ≠ [] := by
    intro e
    have := h.up_last
    rw [e] at this
    cases this
  have huU : upLoc ∈ U := List.mem_of_mem_getLast? h.up_last
  obtain ⟨up, hup, _⟩ := h.up_chain.mem upLoc huU
  have hst : up.keys ≠ [] := h.started (by simp only [List.length_nil]; omega) up hup
  have hlen : 0 < up.keys.length := List.length_pos.mpr hst
  have hUl : 0 < U.length := List.length_pos.mpr hne
  have hpot := h.pot up hup
  simp only [List.length_nil] at hpot
  refine ⟨⟨?_, h.up_chain, ?_, hne, ?_, ?_⟩, by omega⟩
  · refine h.inv.same (fun _ => rfl) rfl ?_
    ext l
    simp
  · have := h.nodup
    simpa using this
  · intro _ x hx b hb
    by_cases e : x = upLoc
    · subst e
      rw [hup] at hb
      cases hb
      exact hst
    · have := h.u_ne x hx e b hb
      intro e0
      rw [e0] at this
      simp at this
  · intro l b hl
    by_cases hlU : l ∈ U
    · obtain ⟨_, _, _, _, hr⟩ := h.up_chain.mem l hlU
      exact le_of_eq hr
    · exact Nat.le_succ_of_le (h.rank_le l b hl hlU)

/-- The loop over the chain of a level of more than one page starts with a
fresh page for the level above. -/
theorem Level.start {c : Layout} (hc : Layout.Sane c) {o : Ordering} {s : State} {g : Ghost}
    {P : Set (BSONObj × DiskLoc)} {R : Nat} {loc : DiskLoc} {X : List DiskLoc}
    (h : Level c o s g P R loc X) (h2 : 2 ≤ X.length) :
    ∃ g1, Mid c o (addBucket c s).2 g1 P R ⟨0, s.allocNext⟩ ⟨0, s.allocNext⟩ loc
      [⟨0, s.allocNext⟩] X X.length ∧ Content o (addBucket c s).2 = Content o s := by
  obtain ⟨x, X1, rfl⟩ : ∃ x X1, X = x :: X1 := by
    cases X with
    | nil => simp at h2
    | cons x X1 => exact ⟨x, X1, rfl⟩
  have hnew := h.inv.next_unmapped
  have hne : ∀ l b, s.pages l = some b → l ≠ ⟨0, s.allocNext⟩ := by
    rintro l b hl rfl
    rw [hnew] at hl
    cases hl
  have hnX : ∀ y ∈ x :: X1, y ≠ (⟨0, s.allocNext⟩ : DiskLoc) := by
    intro y hy
    obtain ⟨b, hb, _⟩ := h.chain.mem y hy
    exact hne y b hb
  have hpg : ∀ l, l ≠ (⟨0, s.allocNext⟩ : DiskLoc) → (addBucket c s).2.pages l = s.pages l := by
    intro l hl
    rw [addBucket_pages, if_neg hl]
  have hpn : (addBucket c s).2.pages ⟨0, s.allocNext⟩ = some (init c) := by
    rw [addBucket_pages, if_pos rfl]
  refine ⟨rootGhostAt g ⟨0, s.allocNext⟩ (R + 1) (g.lo x), ?_, ?_⟩
  · have hself := rootGhostAt_self g ⟨0, s.allocNext⟩ (R + 1) (g.lo x)
    refine ⟨?_, ?_, rfl, ?_, ?_, ?_, ?_, ?_, ?_, ?_, ?_⟩
    · refine (h.inv.alloc hc (R + 1) (g.lo x)).same (fun _ => rfl) rfl ?_
      ext l
      simp only [Set.mem_setOf_eq, List.mem_singleton, Set.mem_union, Set.mem_singleton_iff]
      tauto
    · exact ⟨rfl, init c, hpn, rfl, hself.2.2, hself.1, (fun _ hw => nomatch hw), rfl⟩
    · refine h.chain.carry ?_ ?_
      · intro y hy b hb
        exact ⟨b, (hpg y (hnX y hy)).trans hb, rfl, rfl, fun _ => rfl⟩
      · intro y hy
        obtain ⟨h1, h2, h3⟩ := rootGhostAt_ne g ⟨0, s.allocNext⟩ (R + 1) (g.lo x) (hnX y hy)
        exact ⟨h3, h1, h2⟩
    · show ((⟨0, s.allocNext⟩ : DiskLoc) :: x :: X1).Nodup
      exact List.nodup_cons.mpr ⟨fun hm => hnX _ hm rfl, h.nodup⟩
    · intro up hup z hz
      rw [hpn] at hup
      cases hup
      simp only [List.head?_cons, Option.mem_def, Option.some.injEq] at hz
      subst hz
      rw [hself.2.1, (rootGhostAt_ne g ⟨0, s.allocNext⟩ (R + 1) (g.lo x)
        (hnX x (List.mem_cons_self _ _))).2.1]
      exact ⟨le_refl _, fun k hk => nomatch hk⟩
    · intro y hy b hb
      rw [hpg y (hnX y hy)] at hb
      exact h.x_ne h2 y hy b hb
    · intro u hu hne1
      exact absurd (List.mem_singleton.mp hu) hne1
    · intro up hup
      rw [hpn] at hup
      cases hup
      show 3 * (1 - 1) + 0 + (x :: X1).length ≤ (x :: X1).length
      omega
    · intro hlt
      exact absurd hlt (lt_irrefl _)
    · intro l b hl hlU
      have hln : l ≠ ⟨0, s.allocNext⟩ := fun e => hlU (List.mem_singleton.mpr e)
      rw [hpg l hln] at hl
      rw [(rootGhostAt_ne g ⟨0, s.allocNext⟩ (R + 1) (g.lo x) hln).1]
      exact h.rank_le l b hl
  · refine content_of_pages o s (addBucket c s).2 ?_ ?_
    · intro l b hl hk
      by_cases e : l = ⟨0, s.allocNext⟩
      · subst e
        rw [hpn] at hl
        cases hl
        exact absurd rfl hk
      · rw [hpg l e] at hl
        exact ⟨b, hl, rfl⟩
    · intro l b hl _
      exact ⟨b, (hpg l (hne l b hl)).trans hl, rfl⟩

end BtreeBuilder
end mongo
namespace mongo
namespace BtreeBuilder
open BtreeBucket

/-- A level of a single page is a well-formed tree once the index holds the page
as its root. -/
theorem Level.single {c : Layout} {o : Ordering} {s : State} {g : Ghost}
    {P : Set (BSONObj × DiskLoc)} {R : Nat} {loc x : DiskLoc}
    (h : Level c o s g P R loc [x]) :
    ∃ b, s.pages loc = some b ∧ tempNext b = DiskLoc.Null ∧
      Inv c o { s with head := loc } g ∧
      ∀ l bl, s.pages l = some bl → ∀ k ∈ bl.keys, k.isUsed = true ∧ (k.key, k.recordLoc) ∈ P := by
  obtain ⟨hx, b, hb, hn, _, hr, _, hrest⟩ := h.chain.head
  subst hx
  have htn : tempNext b = DiskLoc.Null := hrest
  refine ⟨b, hb, htn, GInv.to_inv ?_, h.inv.slots⟩
  exact
    { null_unmapped := h.inv.null_unmapped
      head := ⟨b, hb, htn, fun _ => hn⟩
      page := fun l bl hl => pagePF_keep (h.inv.page l bl hl) rfl rfl rfl
        (fun _ _ _ => ⟨rfl, rfl, rfl, rfl⟩)
      sizes := h.inv.sizes
      nonempty := fun l bl hl hne =>
        (h.inv.link l bl hl (fun e => hne (List.mem_singleton.mp e))).1
      link := fun l bl hl hne _ =>
        (h.inv.link l bl hl (fun e => hne (List.mem_singleton.mp e))).2
      float := fun r hr => absurd hr (Set.not_mem_empty r)
      rank_le := fun l bl hl => (h.rank_le l bl hl).trans (le_of_eq hr.symm)
      fresh := h.inv.fresh }

/-- The routine `buildNextLevel` returns on a level of the builder; it leaves a
well-formed tree with the entries it found. -/
theorem Level.build {c : Layout} (hc : Layout.Sane c) {o : Ordering}
    {P : Set (BSONObj × DiskLoc)} :
    ∀ (n : Nat) {X : List DiskLoc} {s : State} {g : Ghost} {R : Nat} {loc : DiskLoc},
      X.length ≤ n → Level c o s g P R loc X →
      ∃ s3 g3, (∀ f, n + 2 ≤ f → buildNextLevel c o f s loc = (.ok (), s3)) ∧
        Inv c o s3 g3 ∧ Content o s3 = Content o s ∧
        ∀ l b, s3.pages l = some b → ∀ k ∈ b.keys, k.isUsed = true ∧ (k.key, k.recordLoc) ∈ P
  | 0, X, s, g, R, loc, hn, h => by
    exact absurd (List.length_eq_zero.mp (Nat.le_zero.mp hn)) h.ne_nil
  | n + 1, [], s, g, R, loc, _, h => absurd rfl h.ne_nil
  | n + 1, [x], s, g, R, loc, _, h => by
    obtain ⟨b, hb, htn, hinv, hsl⟩ := h.single
    refine ⟨_, g, ?_, hinv, rfl, hsl⟩
    intro f hf
    obtain ⟨f1, rfl⟩ : ∃ f1, f = f1 + 1 := ⟨f - 1, by omega⟩
    rw [buildNextLevel]
    have hnull : (tempNext b).isNull = true := (DiskLoc.isNull_iff _).mpr htn
    simp only [hb, hnull, if_true]
  | n + 1, x :: y :: rest, s, g, R, loc, hn, h => by
    obtain ⟨hx, b, hb, _, _, _, _, hrest⟩ := h.chain.head
    subst hx
    obtain ⟨hty, by1, hby, _⟩ := hrest.head
    have hynull : (tempNext b).isNull = false := by
      rw [hty]
      exact (DiskLoc.isNull_false_iff _).mpr (h.inv.mapped_ne_null hby)
    have h2 : 2 ≤ (loc :: y :: rest).length := by
      simp only [List.length_cons]
      omega
    obtain ⟨g1, hm, hcont1⟩ := h.start hc h2
    obtain ⟨s2, g2, u2, U2, hrun, hm2, hcont2⟩ := Mid.run hc _ hm
    obtain ⟨hlev, hlt⟩ := Mid.to_level h2 hm2
    obtain ⟨s3, g3, hrun3, hinv, hcont3, hsl⟩ := Level.build hc n (by omega) hlev
    refine ⟨s3, g3, ?_, hinv, hcont3.trans (hcont2.trans hcont1), hsl⟩
    intro f hf
    obtain ⟨f1, rfl⟩ : ∃ f1, f = f1 + 1 := ⟨f - 1, by omega⟩
    rw [buildNextLevel]
    simp only [hb, hynull, Bool.false_eq_true, if_false]
    have ha : addBucket c s = (⟨0, s.allocNext⟩, (addBucket c s).2) := rfl
    rw [ha]
    simp only
    rw [hrun f1 (by omega)]
    exact hrun3 f1 (by omega)

end BtreeBuilder
end mongo
namespace mongo
namespace BtreeBuilder
open BtreeBucket

theorem checkOrder_ok (o : Ordering) (bb : BtreeBuilder) (key : BSONObj)
    (h : bb.dupsAllowed = false → 0 < bb.n → bb.keyLast.woCompare key o < 0) :
    ∃ bb1, checkOrder o bb key = .ok bb1 ∧ bb1.dupsAllowed = bb.dupsAllowed ∧ bb1.n = bb.n ∧
      bb1.first = bb.first ∧ bb1.cur = bb.cur ∧ (bb.dupsAllowed = false → bb1.keyLast = key) := by
  by_cases hd : bb.dupsAllowed = true
  · refine ⟨bb, ?_, rfl, rfl, rfl, rfl, fun e => by rw [hd] at e; cases e⟩
    unfold checkOrder
    simp only [hd, not_true_eq_false, if_false]
  · refine ⟨{ bb with keyLast := key }, ?_, rfl, rfl, rfl, rfl, fun _ => rfl⟩
    have hd0 : bb.dupsAllowed = false := by simpa using hd
    unfold checkOrder
    simp only [hd, not_false_eq_true, if_true]
    by_cases hn : bb.n > 0
    · have := h hd0 hn
      have h1 : bb.keyLast.woCompare key o ≤ 0 := le_of_lt this
      have h2 : ¬ bb.keyLast.woCompare key o = 0 := ne_of_lt this
      simp only [hn, if_true, h1, not_true_eq_false, if_false, h2, Bool.false_eq_true,
        not_false_eq_true]
    · simp only [hn, if_false, Bool.false_eq_true, not_false_eq_true, if_true]

theorem reparent_none {s : State} {K : DiskLoc} (h : s.pages K = none) (u : DiskLoc) :
    reparent s K u = s := by
  unfold reparent
  rw [h]

/-- A call of `addKey` with a key within `KeyMax` that comes after the entries
added so far: the key goes to the current leaf, or to a fresh leaf linked after
it when the current leaf has no room. -/
theorem Leaves.add {c : Layout} (hc : Layout.Sane c) {o : Ordering} {s : State} {g : Ghost}
    {P : Set (BSONObj × DiskLoc)} {first cur : DiskLoc} {X : List DiskLoc} {B : WithBot EKey}
    (h : Leaves c o s g P first cur X B) {key : BSONObj} {loc : DiskLoc}
    (hB : B < ((entryKey o key loc : EKey) : WithBot EKey))
    (hpos : 0 < key.objsize) (hle : key.objsize ≤ KeyMax c)
    (hrl : 0 ≤ loc.a ∧ 2 ≤ loc.ofs) (heven : loc.ofs % 2 = 0) (hP : (key, loc) ∈ P)
    (bb : BtreeBuilder) (hcur : bb.cur = cur)
    (hord : bb.dupsAllowed = false → 0 < bb.n → bb.keyLast.woCompare key o < 0) :
    ∃ bb2 s1 g1 X1, addKey c o bb s key loc = (.ok bb2, s1) ∧
      Leaves c o s1 g1 P first bb2.cur X1 ((entryKey o key loc : EKey) : WithBot EKey) ∧
      Content o s1 = Content o s ∪ {entryKey o key loc} ∧
      bb2.first = bb.first ∧ bb2.n = bb.n + 1 ∧ bb2.dupsAllowed = bb.dupsAllowed ∧
      (bb.dupsAllowed = false → bb2.keyLast = key) := by
  obtain ⟨bb1, hco, hd1, hn1, hf1, hc1, hk1⟩ := checkOrder_ok o bb key hord
  have hcX : cur ∈ X := List.mem_of_mem_getLast? h.last
  obtain ⟨up, hup, hunc, hhi, hrk⟩ := h.chain.mem cur hcX
  have hcl : loc.clearLow = loc := clearLow_of_even heven
  have hek : (⟨DiskLoc.Null, loc, key⟩ : _KeyNode).ekey o = entryKey o key loc := by
    show entryKey o key loc.clearLow = _
    rw [hcl]
  have hused : (⟨DiskLoc.Null, loc, key⟩ : _KeyNode).isUsed = true := isUsed_of_even heven
  obtain ⟨hb1, hb2⟩ := h.bound up hup
  have hlt : ∀ k1 ∈ up.keys, k1.ekey o < (⟨DiskLoc.Null, loc, key⟩ : _KeyNode).ekey o := by
    intro k1 hk
    rw [hek]
    exact WithBot.coe_lt_coe.mp (lt_of_le_of_lt (hb2 k1 hk) hB)
  have hszu := h.inv.sizes cur up hup
  have hpk := h.inv.packed cur up hup
  have hc0 : cur ≠ DiskLoc.Null := h.inv.mapped_ne_null hup
  have hcfl : cur ∈ {l | l ∈ X} := hcX
  have hmemX : ∀ y ∈ X, ∃ b, s.pages y = some b := fun y hy => by
    obtain ⟨b, hb, _⟩ := h.chain.mem y hy
    exact ⟨b, hb⟩
  have hBe : B ≤ ((entryKey o key loc : EKey) : WithBot EKey) := le_of_lt hB
  by_cases hroom : key.objsize + c.slotSize ≤ up.emptySize
  · -- the current leaf has room
    have hpush : _pushBack c up loc key o DiskLoc.Null
        = .ok (true, pushed c up DiskLoc.Null ⟨DiskLoc.Null, loc, key⟩) :=
      @pushBack_pushed c hc o up DiskLoc.Null ⟨DiskLoc.Null, loc, key⟩ hszu hroom hlt
    have hrun : addKey c o bb s key loc = (.ok { bb1 with n := bb1.n + 1 },
        s.put cur (pushed c up DiskLoc.Null ⟨DiskLoc.Null, loc, key⟩)) := by
      unfold addKey
      simp only [hco]
      rw [hc1, hcur]
      simp only [hup, hpush]
    have hsz1 := @pageSizes_pushed c hc up DiskLoc.Null ⟨DiskLoc.Null, loc, key⟩ hszu hpk
      hpos hle hroom
    have hA := @BInv.attach c o s g {l | l ∈ X} P h.inv cur DiskLoc.Null up
      (pushed c up DiskLoc.Null ⟨DiskLoc.Null, loc, key⟩) loc key hcfl hup hhi rfl hunc hunc
      hsz1 hpk (Ne.symm hc0) (fun hn => absurd rfl hn)
      (by rw [hcl]; intro k1 hk; rw [← hek]; exact hlt k1 hk)
      (by rw [hcl]; exact lt_of_le_of_lt hb1 hB) hrl heven hP
    have hnull1 : (s.put cur (pushed c up DiskLoc.Null ⟨DiskLoc.Null, loc, key⟩)).pages
        DiskLoc.Null = none := by
      rw [State.put_pages_ne _ _ (Ne.symm hc0)]
      exact h.inv.null_unmapped
    rw [reparent_none hnull1] at hA
    have hfl : ({l | l ∈ X} : Set DiskLoc) = {l | l ∈ X} \ {DiskLoc.Null} := by
      ext l
      simp only [Set.mem_setOf_eq, Set.mem_diff, Set.mem_singleton_iff]
      constructor
      · intro hl
        refine ⟨hl, ?_⟩
        rintro rfl
        obtain ⟨b, hb⟩ := hmemX _ hl
        rw [h.inv.null_unmapped] at hb
        cases hb
      · exact fun hl => hl.1
    rw [← hfl] at hA
    have hpg : ∀ l, l ≠ cur →
        (s.put cur (pushed c up DiskLoc.Null ⟨DiskLoc.Null, loc, key⟩)).pages l = s.pages l :=
      fun l hl => State.put_pages_ne _ _ hl
    have hpc : (s.put cur (pushed c up DiskLoc.Null ⟨DiskLoc.Null, loc, key⟩)).pages cur
        = some (pushed c up DiskLoc.Null ⟨DiskLoc.Null, loc, key⟩) := State.put_pages_same _ _ _
    refine ⟨_, _, g, X, hrun, ?_, ?_, hf1, by rw [← hn1], hd1, hk1⟩
    · show Leaves c o _ g P first bb1.cur X _
      rw [hc1, hcur]
      refine
        { inv := hA
          chain := ?_
          last := h.last
          nodup := h.nodup
          x_ne := ?_
          cur_ne := ?_
          bound := ?_
          rank_le := ?_ }
      · refine h.chain.carry ?_ (fun _ _ => ⟨rfl, rfl, rfl⟩)
        intro y hy b hb
        by_cases hyc : y = cur
        · subst hyc
          rw [hup] at hb
          cases hb
          exact ⟨_, hpc, rfl, rfl, fun hd => absurd hd (not_mem_dropLast h.nodup h.last)⟩
        · exact ⟨b, (hpg y hyc).trans hb, rfl, rfl, fun _ => rfl⟩
      · intro y hy hyc b hb
        rw [hpg y hyc] at hb
        exact h.x_ne y hy hyc b hb
      · intro _ b hb
        rw [hpc] at hb
        cases hb
        show up.keys ++ [_] ≠ []
        simp
      · intro b hb
        rw [hpc] at hb
        cases hb
        refine ⟨hb1.trans hBe, ?_⟩
        intro k hk
        have : k ∈ up.keys ++ [⟨DiskLoc.Null, loc, key⟩] := hk
        rcases List.mem_append.mp this with hk | hk
        · exact (hb2 k hk).trans hBe
        · rw [List.mem_singleton.mp hk, hek]
      · intro l b hl
        by_cases hlc : l = cur
        · rw [hlc]
          exact le_of_eq hrk
        · rw [hpg l hlc] at hl
          exact h.rank_le l b hl
    · have := content_append o s (s.put cur (pushed c up DiskLoc.Null ⟨DiskLoc.Null, loc, key⟩))
        hup hused ⟨_, hpc, rfl⟩ (fun l hl => by rw [hpg l hl])
      rw [hek] at this
      exact this
  · -- the current leaf is full
    have hnew := h.inv.next_unmapped
    have hne : ∀ l b, s.pages l = some b → l ≠ ⟨0, s.allocNext⟩ := by
      rintro l b hl rfl
      rw [hnew] at hl
      cases hl
    have hun := hne cur up hup
    have hnX : (⟨0, s.allocNext⟩ : DiskLoc) ∉ X := fun hm => by
      obtain ⟨b, hb⟩ := hmemX _ hm
      exact hne _ b hb rfl
    have hn0 : (⟨0, s.allocNext⟩ : DiskLoc) ≠ DiskLoc.Null := by
      intro e
      have := congrArg DiskLoc.a e
      simp [DiskLoc.Null] at this
    have hAu : (addBucket c s).2.pages cur = some up := by
      rw [addBucket_pages, if_neg hun]
      exact hup
    have hpn : ((addBucket c s).2.put cur (setTempNext up ⟨0, s.allocNext⟩)).pages
        ⟨0, s.allocNext⟩ = some (init c) := by
      rw [State.put_pages_ne _ _ (Ne.symm hun), addBucket_pages, if_pos rfl]
    have hpushN : pushBack c (init c) loc key o DiskLoc.Null
        = .ok (pushed c (init c) DiskLoc.Null ⟨DiskLoc.Null, loc, key⟩) :=
      @pushBack_init c hc o DiskLoc.Null ⟨DiskLoc.Null, loc, key⟩ hpos hle
    have hrun : addKey c o bb s key loc = (.ok { bb1 with cur := ⟨0, s.allocNext⟩, n := bb1.n + 1 },
        ((addBucket c s).2.put cur (setTempNext up ⟨0, s.allocNext⟩)).put ⟨0, s.allocNext⟩
          (pushed c (init c) DiskLoc.Null ⟨DiskLoc.Null, loc, key⟩)) := by
      unfold addKey
      simp only [hco]
      rw [hc1, hcur]
      have hnb : newBucket c bb1 s = .ok ({ bb1 with cur := ⟨0, s.allocNext⟩ },
          (addBucket c s).2.put cur (setTempNext up ⟨0, s.allocNext⟩)) := by
        unfold newBucket
        have ha : addBucket c s = (⟨0, s.allocNext⟩, (addBucket c s).2) := rfl
        rw [ha]
        simp only
        rw [hc1, hcur, hAu]
      simp only [hup, _pushBack_no_room c up loc key o DiskLoc.Null (by omega),
        gt_iff_lt, not_lt.mpr hle, if_false, hnb, hpn, hpushN]
    have hlen3 : 3 ≤ up.keys.length :=
      length_gt_two_of_no_room c hc up hszu hpk key hpos hle (by omega)
    have hA := h.inv.alloc hc 0 B
    have hB1 : BInv c o ((addBucket c s).2.put cur (setTempNext up ⟨0, s.allocNext⟩))
        (rootGhostAt g ⟨0, s.allocNext⟩ 0 B) ({l | l ∈ X} ∪ {⟨0, s.allocNext⟩}) P :=
      hA.set_root_parent (Or.inl hcfl) hAu ⟨0, s.allocNext⟩
    obtain ⟨gr, gl, gh⟩ := rootGhostAt_self g ⟨0, s.allocNext⟩ 0 B
    have hgh : ∀ y, y ≠ ⟨0, s.allocNext⟩ →
        (rootGhostAt g ⟨0, s.allocNext⟩ 0 B).hi y = g.hi y ∧
        (rootGhostAt g ⟨0, s.allocNext⟩ 0 B).rank y = g.rank y ∧
        (rootGhostAt g ⟨0, s.allocNext⟩ 0 B).lo y = g.lo y := fun y hy => by
      obtain ⟨h1, h2, h3⟩ := rootGhostAt_ne g ⟨0, s.allocNext⟩ 0 B hy
      exact ⟨h3, h1, h2⟩
    have hsz1 := @pageSizes_pushed c hc (init c) DiskLoc.Null ⟨DiskLoc.Null, loc, key⟩
      (pageSizes_init c hc) rfl hpos hle (by
        show key.objsize + c.slotSize ≤ totalDataSize c
        have h1 := hc.room
        have h3 := keyMax_nonneg c hc
        have h4 := hc.slot_pos
        unfold totalDataSize
        omega)
    have hC := @BInv.attach c o _ _ _ P hB1 ⟨0, s.allocNext⟩ DiskLoc.Null (init c)
      (pushed c (init c) DiskLoc.Null ⟨DiskLoc.Null, loc, key⟩) loc key (Or.inr rfl) hpn gh
      rfl rfl rfl hsz1 rfl (Ne.symm hn0) (fun hn => absurd rfl hn)
      (fun k1 hk => nomatch hk)
      (by rw [hcl, gl]; exact hB) hrl heven hP
    have hnullA : ((addBucket c s).2.put cur (setTempNext up ⟨0, s.allocNext⟩)).pages
        DiskLoc.Null = none := by
      rw [State.put_pages_ne _ _ (Ne.symm hc0), addBucket_pages, if_neg (Ne.symm hn0)]
      exact h.inv.null_unmapped
    have hnull1 : (((addBucket c s).2.put cur (setTempNext up ⟨0, s.allocNext⟩)).put
        ⟨0, s.allocNext⟩ (pushed c (init c) DiskLoc.Null ⟨DiskLoc.Null, loc, key⟩)).pages
        DiskLoc.Null = none := by
      rw [State.put_pages_ne _ _ (Ne.symm hn0)]
      exact hnullA
    rw [reparent_none hnull1] at hC
    have hfl : (({l | l ∈ X} ∪ {⟨0, s.allocNext⟩}) \ {DiskLoc.Null} : Set DiskLoc)
        = {l | l ∈ X ++ [⟨0, s.allocNext⟩]} := by
      ext l
      simp only [Set.mem_setOf_eq, Set.mem_diff, Set.mem_singleton_iff, Set.mem_union,
        List.mem_append, List.mem_singleton]
      constructor
      · exact fun hl => hl.1
      · intro hl
        refine ⟨hl, ?_⟩
        rintro rfl
        rcases hl with hl | hl
        · obtain ⟨b, hb⟩ := hmemX _ hl
          rw [h.inv.null_unmapped] at hb
          cases hb
        · exact hn0 hl.symm
    rw [hfl] at hC
    have hpg : ∀ l, l ≠ cur → l ≠ ⟨0, s.allocNext⟩ →
        (((addBucket c s).2.put cur (setTempNext up ⟨0, s.allocNext⟩)).put ⟨0, s.allocNext⟩
          (pushed c (init c) DiskLoc.Null ⟨DiskLoc.Null, loc, key⟩)).pages l = s.pages l := by
      intro l h1 h2
      rw [State.put_pages_ne _ _ h2, State.put_pages_ne _ _ h1, addBucket_pages, if_neg h2]
    have hpc : (((addBucket c s).2.put cur (setTempNext up ⟨0, s.allocNext⟩)).put
        ⟨0, s.allocNext⟩ (pushed c (init c) DiskLoc.Null ⟨DiskLoc.Null, loc, key⟩)).pages cur
        = some (setTempNext up ⟨0, s.allocNext⟩) := by
      rw [State.put_pages_ne _ _ hun]
      exact State.put_pages_same _ _ _
    have hpnn : (((addBucket c s).2.put cur (setTempNext up ⟨0, s.allocNext⟩)).put
        ⟨0, s.allocNext⟩ (pushed c (init c) DiskLoc.Null ⟨DiskLoc.Null, loc, key⟩)).pages
        ⟨0, s.allocNext⟩ = some (pushed c (init c) DiskLoc.Null ⟨DiskLoc.Null, loc, key⟩) :=
      State.put_pages_same _ _ _
    refine ⟨_, _, rootGhostAt g ⟨0, s.allocNext⟩ 0 B, X ++ [⟨0, s.allocNext⟩], hrun, ?_, ?_,
      hf1, by rw [← hn1], hd1, hk1⟩
    · show Leaves c o _ _ P first ⟨0, s.allocNext⟩ _ _
      refine
        { inv := hC
          chain := ?_
          last := by simp
          nodup := ?_
          x_ne := ?_
          cur_ne := ?_
          bound := ?_
          rank_le := ?_ }
      · refine h.chain.snoc h.last h.nodup hnX hup hpc hpnn rfl rfl gh gr ?_ ?_ ?_ ?_
        · rw [gl]
          exact hb1
        · rw [gl]
          exact hb2
        · intro y hy hyu
          obtain ⟨b, hb0⟩ := hmemX y hy
          exact hpg y hyu (hne y b hb0)
        · intro y hy
          obtain ⟨b, hb0⟩ := hmemX y hy
          exact hgh y (hne y b hb0)
      · refine List.nodup_append.mpr ⟨h.nodup, List.nodup_singleton _, ?_⟩
        intro y h1 h2
        rw [List.mem_singleton.mp h2] at h1
        exact hnX h1
      · intro y hy hyn b hb
        rcases List.mem_append.mp hy with hy | hy
        · by_cases hyc : y = cur
          · rw [hyc, hpc] at hb
            cases hb
            intro e
            have : up.keys = [] := e
            rw [this] at hlen3
            simp at hlen3
          · obtain ⟨b0, hb0⟩ := hmemX y hy
            rw [hpg y hyc (hne y b0 hb0)] at hb
            exact h.x_ne y hy hyc b hb
        · exact absurd (List.mem_singleton.mp hy) hyn
      · intro _ b hb
        rw [hpnn] at hb
        cases hb
        show (init c).keys ++ [_] ≠ []
        simp
      · intro b hb
        rw [hpnn] at hb
        cases hb
        rw [gl]
        refine ⟨hBe, ?_⟩
        intro k hk
        have : k ∈ (init c).keys ++ [⟨DiskLoc.Null, loc, key⟩] := hk
        rcases List.mem_append.mp this with hk | hk
        · exact nomatch hk
        · rw [List.mem_singleton.mp hk, hek]
      · intro l b hl
        by_cases hln : l = ⟨0, s.allocNext⟩
        · rw [hln, gr]
        · rw [(hgh l hln).2.1]
          by_cases hlc : l = cur
          · rw [hlc]
            exact le_of_eq hrk
          · rw [hpg l hlc hln] at hl
            exact h.rank_le l b hl
    · have e1 : Content o ((addBucket c s).2.put cur (setTempNext up ⟨0, s.allocNext⟩))
          = Content o s := by
        refine content_of_pages o s _ ?_ ?_
        · intro l b hl hk
          by_cases hlc : l = cur
          · rw [hlc, State.put_pages_same] at hl
            cases hl
            exact ⟨up, by rw [hlc]; exact hup, rfl⟩
          · rw [State.put_pages_ne _ _ hlc, addBucket_pages] at hl
            by_cases hln : l = ⟨0, s.allocNext⟩
            · rw [if_pos hln] at hl
              cases hl
              exact absurd rfl hk
            · rw [if_neg hln] at hl
              exact ⟨b, hl, rfl⟩
        · intro l b hl _
          by_cases hlc : l = cur
          · rw [hlc] at hl ⊢
            rw [hup] at hl
            cases hl
            exact ⟨_, State.put_pages_same _ _ _, rfl⟩
          · refine ⟨b, ?_, rfl⟩
            rw [State.put_pages_ne _ _ hlc, addBucket_pages, if_neg (hne l b hl)]
            exact hl
      have := content_append o ((addBucket c s).2.put cur (setTempNext up ⟨0, s.allocNext⟩))
        (((addBucket c s).2.put cur (setTempNext up ⟨0, s.allocNext⟩)).put ⟨0, s.allocNext⟩
          (pushed c (init c) DiskLoc.Null ⟨DiskLoc.Null, loc, key⟩))
        hpn hused ⟨_, hpnn, rfl⟩ (fun l hl => by rw [State.put_pages_ne _ _ hl])
      rw [hek, e1] at this
      exact this

end BtreeBuilder
end mongo
namespace mongo
namespace BtreeBuilder
open BtreeBucket

/-- The leaves that the calls of `addKey` leave form a level of the builder. -/
theorem Leaves.as_level {c : Layout} {o : Ordering} {s : State} {g : Ghost}
    {P : Set (BSONObj × DiskLoc)} {first cur : DiskLoc} {X : List DiskLoc} {B : WithBot EKey}
    (h : Leaves c o s g P first cur X B) : Level c o s g P 0 first X :=
  { inv := h.inv
    chain := h.chain
    nodup := h.nodup
    ne_nil := fun e => by
      have := h.last
      rw [e] at this
      cases this
    x_ne := fun h2 x hx b hb => by
      by_cases e : x = cur
      · rw [e] at hb
        exact h.cur_ne h2 b hb
      · exact h.x_ne x hx e b hb
    rank_le := h.rank_le }

/-- The builder right after its construction on a data file without pages: one
leaf without slots. -/
theorem Leaves.at_create {c : Layout} (hc : Layout.Sane c) (o : Ordering)
    (P : Set (BSONObj × DiskLoc)) (d : Bool) :
    ∃ g, Leaves c o (create c d noPages).2 g P (create c d noPages).1.first
        (create c d noPages).1.cur [⟨0, 0⟩] ⊥ ∧
      Content o (create c d noPages).2 = ∅ ∧ (create c d noPages).1.n = 0 ∧
      (create c d noPages).1.dupsAllowed = d := by
  have h0 : BInv c o noPages ⟨fun _ => 0, fun _ => ⊥, fun _ => ⊤⟩ ∅ P :=
    { null_unmapped := rfl
      page := fun l b hl => nomatch hl
      sizes := fun l b hl => nomatch hl
      packed := fun l b hl => nomatch hl
      slots := fun l b hl => nomatch hl
      link := fun l b hl => nomatch hl
      float := fun r hr => absurd hr (Set.not_mem_empty r)
      fresh := fun l b hl => nomatch hl
      alloc_nonneg := le_refl _ }
  have hA := h0.alloc hc 0 ⊥
  have hpg : ∀ l, (addBucket c noPages).2.pages l
      = if l = ⟨0, 0⟩ then some (init c) else none := fun l => addBucket_pages c noPages l
  have hp0 : (addBucket c noPages).2.pages ⟨0, 0⟩ = some (init c) := by
    rw [hpg, if_pos rfl]
  obtain ⟨gr, gl, gh⟩ := rootGhostAt_self ⟨fun _ => 0, fun _ => ⊥, fun _ => ⊤⟩ ⟨0, 0⟩ 0 ⊥
  refine ⟨rootGhostAt ⟨fun _ => 0, fun _ => ⊥, fun _ => ⊤⟩ ⟨0, 0⟩ 0 ⊥, ?_, ?_, rfl, rfl⟩
  · show Leaves c o (addBucket c noPages).2 _ P ⟨0, 0⟩ ⟨0, 0⟩ [⟨0, 0⟩] ⊥
    refine
      { inv := ?_
        chain := ⟨rfl, init c, hp0, rfl, gh, gr, (fun _ hw => nomatch hw), rfl⟩
        last := rfl
        nodup := List.nodup_singleton _
        x_ne := fun x hx hne => absurd (List.mem_singleton.mp hx) hne
        cur_ne := fun h2 => by simp at h2
        bound := ?_
        rank_le := ?_ }
    · refine hA.same (fun _ => rfl) rfl ?_
      ext l
      simp only [Set.mem_setOf_eq, List.mem_singleton, Set.mem_union, Set.mem_empty_iff_false,
        false_or, Set.mem_singleton_iff]
      exact Iff.rfl
    · intro b hb
      rw [hp0] at hb
      cases hb
      exact ⟨le_of_eq gl, fun k hk => nomatch hk⟩
    · intro l b hl
      rw [hpg] at hl
      by_cases e : l = ⟨0, 0⟩
      · rw [e]
        exact le_of_eq gr
      · rw [if_neg e] at hl
        cases hl
  · ext e
    simp only [Set.mem_empty_iff_false, iff_false]
    rintro ⟨l, b, k, hl, hk, _⟩
    have hl1 : (addBucket c noPages).2.pages l = some b := hl
    rw [hpg] at hl1
    by_cases e0 : l = ⟨0, 0⟩
    · rw [if_pos e0] at hl1
      cases hl1
      exact nomatch hk
    · rw [if_neg e0] at hl1
      cases hl1

/-- The calls of `addKey` for a strictly ascending list of pairs with keys
within `KeyMax`: each returns, and the leaves hold the pairs of the list besides
what they held. -/
theorem Leaves.add_all {c : Layout} (hc : Layout.Sane c) {o : Ordering}
    {P : Set (BSONObj × DiskLoc)} {first : DiskLoc} (d : Bool) :
    ∀ (S : List (BSONObj × DiskLoc)) (bb : BtreeBuilder) (s : State) (g : Ghost)
      (cur : DiskLoc) (X : List DiskLoc) (B : WithBot EKey),
      Leaves c o s g P first cur X B → bb.cur = cur → bb.dupsAllowed = d →
      (∀ p ∈ S, B < ((entryKey o p.1 p.2 : EKey) : WithBot EKey)) →
      S.Pairwise (fun x y => entryKey o x.1 x.2 < entryKey o y.1 y.2) →
      (∀ p ∈ S, 0 < p.1.objsize ∧ p.1.objsize ≤ KeyMax c ∧ 0 ≤ p.2.a ∧ 2 ≤ p.2.ofs ∧
        p.2.ofs % 2 = 0) →
      (∀ p ∈ S, p ∈ P) →
      (d = false → 0 < bb.n → ∀ p ∈ S, bb.keyLast.woCompare p.1 o < 0) →
      (d = false → S.Pairwise (fun x y => x.1.woCompare y.1 o < 0)) →
      ∃ bb1 s1 g1 cur1 X1 B1, addKeys c o bb s S = (.ok bb1, s1) ∧
        Leaves c o s1 g1 P first cur1 X1 B1 ∧
        Content o s1 = Content o s ∪ {e | ∃ p ∈ S, entryKey o p.1 p.2 = e} ∧
        bb1.first = bb.first
  | [], bb, s, g, cur, X, B, h, _, _, _, _, _, _, _, _ => by
    refine ⟨bb, s, g, cur, X, B, rfl, h, ?_, rfl⟩
    ext e
    simp
  | (key, loc) :: rest, bb, s, g, cur, X, B, h, hcur, hd, hB, hS, hv, hP, hk, hkk => by
    obtain ⟨hpos, hle, ha, hofs, hev⟩ := hv (key, loc) (List.mem_cons_self _ _)
    obtain ⟨hS1, hS2⟩ := List.pairwise_cons.mp hS
    obtain ⟨bb2, s1, g1, X1, hrun, hL, hcont, hf2, hn2, hd2, hk2⟩ :=
      h.add hc (hB (key, loc) (List.mem_cons_self _ _)) hpos hle ⟨ha, hofs⟩ hev
        (hP (key, loc) (List.mem_cons_self _ _)) bb hcur
        (fun h1 h2 => hk (hd.symm.trans h1) h2 (key, loc) (List.mem_cons_self _ _))
    obtain ⟨bb3, s3, g3, cur3, X3, B3, hrun3, hL3, hcont3, hf3⟩ :=
      Leaves.add_all hc d rest bb2 s1 g1 bb2.cur X1 _ hL rfl (hd2.trans hd)
        (fun p hp => WithBot.coe_lt_coe.mpr (hS1 p hp)) hS2
        (fun p hp => hv p (List.mem_cons_of_mem _ hp))
        (fun p hp => hP p (List.mem_cons_of_mem _ hp))
        (fun h1 _ p hp => by
          rw [hk2 (hd.trans h1)]
          exact (List.pairwise_cons.mp (hkk h1)).1 p hp)
        (fun h1 => (List.pairwise_cons.mp (hkk h1)).2)
    refine ⟨bb3, s3, g3, cur3, X3, B3, ?_, hL3, ?_, hf3.trans hf2⟩
    · rw [addKeys, hrun]
      exact hrun3
    · rw [hcont3, hcont]
      ext e
      simp only [Set.mem_union, Set.mem_singleton_iff, Set.mem_setOf_eq, List.mem_cons,
        exists_eq_or_imp]
      constructor
      · rintro ((h1 | h1) | h1)
        · exact Or.inl h1
        · exact Or.inr (Or.inl h1.symm)
        · exact Or.inr (Or.inr h1)
      · rintro (h1 | h1 | h1)
        · exact Or.inl (Or.inl h1)
        · exact Or.inl (Or.inr h1.symm)
        · exact Or.inr h1

/-- A bulk build from a strictly ascending list of pairs with keys within
`KeyMax` returns; it leaves a well-formed tree whose slots are used and hold the
pairs of the list. -/
theorem build_spec {c : Layout} (hc : Layout.Sane c) (o : Ordering) (d : Bool)
    (S : List (BSONObj × DiskLoc))
    (hS : S.Pairwise (fun x y => entryKey o x.1 x.2 < entryKey o y.1 y.2))
    (hv : ∀ p ∈ S, 0 < p.1.objsize ∧ p.1.objsize ≤ KeyMax c ∧ 0 ≤ p.2.a ∧ 2 ≤ p.2.ofs ∧
      p.2.ofs % 2 = 0)
    (hkk : d = false → S.Pairwise (fun x y => x.1.woCompare y.1 o < 0)) :
    ∃ F0 bb sB, (∀ fuel, F0 ≤ fuel → build c o fuel d S = (.ok bb, sB)) ∧
      bb.committed = true ∧ WellFormed c o sB ∧
      Content o sB = {e | ∃ p ∈ S, entryKey o p.1 p.2 = e} ∧
      ∀ l b, sB.pages l = some b → ∀ k ∈ b.keys, k.isUsed = true ∧ (k.key, k.recordLoc) ∈ S := by
  obtain ⟨g, hL, hcont0, hn0, hd0⟩ := Leaves.at_create hc o {p | p ∈ S} d
  obtain ⟨bb1, s1, g1, cur1, X1, B1, hrun1, hL1, hcont1, hf1⟩ :=
    Leaves.add_all hc d S (create c d noPages).1 (create c d noPages).2 g _ _ ⊥ hL rfl hd0
      (fun p _ => WithBot.bot_lt_coe _) hS hv (fun p hp => hp)
      (fun _ h2 => by rw [hn0] at h2; exact absurd h2 (lt_irrefl _)) hkk
  obtain ⟨s3, g3, hrun3, hinv, hcont3, hsl⟩ := Level.build hc X1.length (le_refl _) hL1.as_level
  refine ⟨X1.length + 2, { bb1 with committed := true }, s3, ?_, rfl, ⟨g3, hinv⟩, ?_, hsl⟩
  · intro fuel hf
    have hb : build c o fuel d S
        = match addKeys c o (create c d noPages).1 (create c d noPages).2 S with
          | (Except.error e, s1) => (Except.error e, s1)
          | (Except.ok bb1, s1) => commit c o fuel bb1 s1 := rfl
    rw [hb, hrun1]
    show commit c o fuel bb1 s1 = _
    unfold commit
    rw [hf1]
    rw [hrun3 fuel hf]
  · rw [hcont3, hcont1, hcont0]
    simp

end BtreeBuilder
end mongo
namespace mongo
namespace BtreeBucket

/-! ## Where the slots of a tree come from -/

theorem SlotsIn.put_page {P : Set (BSONObj × DiskLoc)} {s : State} (h : SlotsIn P s) (l : DiskLoc)
    (b : BtreeBucket) (hb : ∀ k ∈ b.keys, (k.key, k.recordLoc.clearLow) ∈ P) :
    SlotsIn P (s.put l b) := by
  intro x bx k hx hk
  by_cases e : x = l
  · subst e
    rw [State.put_pages_same] at hx
    cases hx
    exact hb k hk
  · rw [State.put_pages_ne _ _ e] at hx
    exact h x bx k hx hk

theorem SlotsIn.set_parent {P : Set (BSONObj × DiskLoc)} {s s1 : State} (h : SlotsIn P s)
    {l p : DiskLoc} (hs : s.setParent l p = some s1) : SlotsIn P s1 := by
  unfold State.setParent at hs
  cases hb : s.pages l with
  | none =>
    rw [hb] at hs
    cases hs
  | some b =>
    rw [hb] at hs
    simp only [Option.some.injEq] at hs
    subst hs
    exact h.put_page l _ (fun k hk => h l b k hb hk)

theorem SlotsIn.fix_ok {P : Set (BSONObj × DiskLoc)} {s s1 : State} (h : SlotsIn P s)
    {t ch : DiskLoc} (hf : fix s t ch = .ok s1) : SlotsIn P s1 := by
  unfold fix at hf
  by_cases hn : ch.isNull = true
  · simp only [hn, if_true, Except.ok.injEq] at hf
    subst hf
    exact h
  · simp only [hn, Bool.false_eq_true, if_false] at hf
    cases hs : s.setParent ch t with
    | none =>
      rw [hs] at hf
      cases hf
    | some s2 =>
      rw [hs] at hf
      simp only [Except.ok.injEq] at hf
      subst hf
      exact h.set_parent hs

theorem SlotsIn.fix_all {P : Set (BSONObj × DiskLoc)} (t : DiskLoc) :
    ∀ (chs : List DiskLoc) (s s1 : State), SlotsIn P s → fixAll t chs s = .ok s1 →
      SlotsIn P s1
  | [], s, s1, h, hf => by
    simp only [fixAll, Except.ok.injEq] at hf
    subst hf
    exact h
  | ch :: rest, s, s1, h, hf => by
    rw [fixAll] at hf
    cases hs : fix s t ch with
    | error e =>
      rw [hs] at hf
      cases hf
    | ok s2 =>
      rw [hs] at hf
      exact SlotsIn.fix_all t rest s2 s1 (h.fix_ok hs) hf

theorem SlotsIn.fix_parent_ptrs {P : Set (BSONObj × DiskLoc)} {s s1 : State} (h : SlotsIn P s)
    {t : DiskLoc} {i : Nat} (hf : fixParentPtrs s t i = .ok s1) : SlotsIn P s1 := by
  unfold fixParentPtrs at hf
  cases hb : s.pages t with
  | none =>
    rw [hb] at hf
    cases hf
  | some b =>
    rw [hb] at hf
    exact SlotsIn.fix_all t _ s s1 h hf

theorem SlotsIn.add_bucket {P : Set (BSONObj × DiskLoc)} {s : State} (h : SlotsIn P s)
    (c : Layout) : SlotsIn P (addBucket c s).2 :=
  h.put_page ⟨0, s.allocNext⟩ (init c) (fun k hk => nomatch hk)

theorem pack_mem {c : Layout} {b b1 : BtreeBucket} {r r1 : Nat}
    (h : pack c b r = .ok (b1, r1)) : ∀ k ∈ b1.keys, k ∈ b.keys := by
  by_cases hp : b.packed = true
  · unfold pack at h
    simp only [hp, if_true, Except.ok.injEq, Prod.mk.injEq] at h
    rw [← h.1]
    exact fun k hk => hk
  · have hp0 : b.packed = false := by simpa using hp
    rw [pack_eq_of_not_packed c b r hp0] at h
    simp only at h
    split at h
    · cases h
    · simp only [Except.ok.injEq, Prod.mk.injEq] at h
      rw [← h.1]
      intro k hk
      exact (keepFrom_sublist r b.keys 0).subset hk

theorem truncateTo_mem {c : Layout} {b b1 : BtreeBucket} {N r r1 : Nat}
    (h : truncateTo c b N r = .ok (b1, r1)) : ∀ k ∈ b1.keys, k ∈ b.keys := by
  intro k hk
  exact List.mem_of_mem_take (pack_mem h k hk)

theorem basicInsert_mem {c : Layout} {b b1 : BtreeBucket} {kp kp1 : Nat} {rl : DiskLoc}
    {key : BSONObj} {f : Bool} (h : basicInsert c b kp rl key = .ok (f, b1, kp1)) :
    ∀ k ∈ b1.keys, k ∈ b.keys ∨ k = ⟨DiskLoc.Null, rl, key⟩ := by
  unfold basicInsert at h
  split at h
  · cases h
  · simp only at h
    split at h
    · cases h
    · rename_i b2 kp2 hpk
      have hsub : ∀ k ∈ b2.keys, k ∈ b.keys := by
        split at hpk
        · exact pack_mem hpk
        · simp only [Except.ok.injEq, Prod.mk.injEq] at hpk
          rw [← hpk.1]
          exact fun k hk => hk
      split at h
      · simp only [Except.ok.injEq, Prod.mk.injEq] at h
        rw [← h.2.1]
        exact fun k hk => Or.inl (hsub k hk)
      · split at h
        · cases h
        · simp only [Except.ok.injEq, Prod.mk.injEq] at h
          rw [← h.2.1]
          intro k hk
          have hk1 : k ∈ b2.keys.take kp2 ++ ⟨DiskLoc.Null, rl, key⟩ :: b2.keys.drop kp2 := hk
          rcases List.mem_append.mp hk1 with hk2 | hk2
          · exact Or.inl (hsub k (List.mem_of_mem_take hk2))
          · rcases List.mem_cons.mp hk2 with hk3 | hk3
            · exact Or.inr hk3
            · exact Or.inl (hsub k (List.mem_of_mem_drop hk3))

theorem pushBack_keys {c : Layout} {b b1 : BtreeBucket} {rl prev : DiskLoc} {key : BSONObj}
    {o : Ordering} (h : pushBack c b rl key o prev = .ok b1) :
    b1.keys = b.keys ++ [⟨prev, rl, key⟩] := by
  unfold pushBack at h
  split at h
  · cases h
  · rename_i b2 hp
    simp only [Except.ok.injEq] at h
    subst h
    unfold _pushBack at hp
    simp only at hp
    split at hp
    · cases hp
    · split at hp
      · cases hp
      · split at hp
        · cases hp
        · simp only [Except.ok.injEq, Prod.mk.injEq, true_and] at hp
          rw [← hp]
  · cases h

theorem pushBackAll_mem {c : Layout} {o : Ordering} :
    ∀ (L : List _KeyNode) (r r1 : BtreeBucket), pushBackAll c o L r = .ok r1 →
      ∀ k ∈ r1.keys, k ∈ r.keys ∨ k ∈ L
  | [], r, r1, h, k, hk => by
    simp only [pushBackAll, Except.ok.injEq] at h
    subst h
    exact Or.inl hk
  | kn :: rest, r, r1, h, k, hk => by
    rw [pushBackAll] at h
    cases hp : pushBack c r kn.recordLoc kn.key o kn.prevChildBucket with
    | error e =>
      rw [hp] at h
      cases h
    | ok r2 =>
      rw [hp] at h
      rcases pushBackAll_mem rest r2 r1 h k hk with h1 | h1
      · rw [pushBack_keys hp] at h1
        rcases List.mem_append.mp h1 with h2 | h2
        · exact Or.inl h2
        · rw [List.mem_singleton.mp h2]
          exact Or.inr (List.mem_cons_self _ _)
      · exact Or.inr (List.mem_cons_of_mem _ h1)

theorem mem_set_child {ks : List _KeyNode} {i : Nat} {kn k : _KeyNode} {ch : DiskLoc}
    (hi : ks.get? i = some kn) (hk : k ∈ ks.set i { kn with prevChildBucket := ch }) :
    ∃ k0 ∈ ks, k.key = k0.key ∧ k.recordLoc = k0.recordLoc := by
  rcases List.mem_or_eq_of_mem_set hk with h1 | h1
  · exact ⟨k, h1, rfl, rfl⟩
  · exact ⟨kn, List.get?_mem hi, by rw [h1], by rw [h1]⟩

end BtreeBucket
end mongo
namespace mongo
namespace BtreeBucket

theorem SlotsIn.wire {P : Set (BSONObj × DiskLoc)} {s s1 : State} (h : SlotsIn P s)
    {b : BtreeBucket} {thisLoc lc rc : DiskLoc} {kp : Nat}
    (hb : ∀ k ∈ b.keys, (k.key, k.recordLoc.clearLow) ∈ P)
    (hw : wireInserted s b thisLoc kp lc rc = (.ok (), s1)) : SlotsIn P s1 := by
  have hset : ∀ (ks : List _KeyNode) (i : Nat) (kn : _KeyNode) (ch : DiskLoc),
      (∀ k ∈ ks, (k.key, k.recordLoc.clearLow) ∈ P) → ks.get? i = some kn →
      ∀ k ∈ ks.set i { kn with prevChildBucket := ch }, (k.key, k.recordLoc.clearLow) ∈ P := by
    intro ks i kn ch hks hi k hk
    obtain ⟨k0, hk0, e1, e2⟩ := mem_set_child hi hk
    rw [e1, e2]
    exact hks k0 hk0
  unfold wireInserted at hw
  split at hw
  · split at hw
    · cases hw
    · split at hw
      · cases hw
      · rename_i kn hkn
        simp only at hw
        split at hw
        · cases hw
        · rename_i s2 hfx
          simp only [Prod.mk.injEq, true_and] at hw
          subst hw
          exact (h.put_page thisLoc _ (hset b.keys kp kn _ hb hkn)).fix_ok hfx
  · split at hw
    · rename_i kn kn1 hkn hkn1
      simp only at hw
      split at hw
      · cases hw
      · split at hw
        · cases hw
        · rename_i s2 hfx
          simp only [Prod.mk.injEq, true_and] at hw
          subst hw
          refine (h.put_page thisLoc _ ?_).fix_ok hfx
          have h1 := hset b.keys kp kn lc hb hkn
          intro k hk
          rcases List.mem_or_eq_of_mem_set hk with h2 | h2
          · exact h1 k h2
          · rw [h2]
            exact hb kn1 (List.get?_mem hkn1)
    · cases hw

end BtreeBucket
end mongo

namespace mongo
namespace BtreeBucket

theorem setUsed_pair (k : _KeyNode) :
    k.setUsed.key = k.key ∧ k.setUsed.recordLoc.clearLow = k.recordLoc.clearLow :=
  ⟨rfl, clearLow_clearLow _⟩

/-- One call of `insertHere`, given what the calls it makes leave. -/
theorem insertHere_slots_step (c : Layout) (o : Ordering) (P : Set (BSONObj × DiskLoc))
    (fuel : Nat)
    (ihA : ∀ s thisLoc kp rl key lc rc s1,
      insertHere c o fuel s thisLoc kp rl key lc rc = (.ok (), s1) → SlotsIn P s →
      (key, rl.clearLow) ∈ P → SlotsIn P s1)
    (ihB : ∀ s thisLoc rl key d lC rC v s1,
      _insert c o fuel s thisLoc rl key d lC rC = (.ok v, s1) → SlotsIn P s →
      (key, rl.clearLow) ∈ P → SlotsIn P s1) :
    ∀ s thisLoc kp rl key lc rc s1,
      insertHere c o (fuel + 1) s thisLoc kp rl key lc rc = (.ok (), s1) → SlotsIn P s →
      (key, rl.clearLow) ∈ P → SlotsIn P s1 := by
  intro s thisLoc kp rl key lc rc s1 h hs hP
  rw [insertHere] at h
  split at h
  · cases h
  · rename_i b hb
    split at h
    · cases h
    · rename_i b1 kp1 hbi
      have hb1 : ∀ k ∈ b1.keys, (k.key, k.recordLoc.clearLow) ∈ P := by
        intro k hk
        rcases basicInsert_mem hbi k hk with h1 | h1
        · exact hs thisLoc b k hb h1
        · rw [h1]
          exact hP
      exact hs.wire hb1 h
    · rename_i b1 kp1 hbi
      have hb1 : ∀ k ∈ b1.keys, (k.key, k.recordLoc.clearLow) ∈ P := by
        intro k hk
        rcases basicInsert_mem hbi k hk with h1 | h1
        · exact hs thisLoc b k hb h1
        · rw [h1]
          exact hP
      simp only at h
      split at h
      · cases h
      · rename_i sp hsp
        have hsA : SlotsIn P (addBucket c (s.put thisLoc b1)).2 :=
          (hs.put_page thisLoc b1 hb1).add_bucket c
        split at h
        · cases h
        · rename_i r hr
          have hr1 : ∀ k ∈ r.keys, (k.key, k.recordLoc.clearLow) ∈ P := by
            intro k hk
            rcases pushBackAll_mem _ _ _ hr k hk with h1 | h1
            · exact nomatch h1
            · exact hb1 k (List.mem_of_mem_drop h1)
          split at h
          · cases h
          · rename_i sD hfix
            have hsD : SlotsIn P sD :=
              (hsA.put_page _ { r with nextChild := b1.nextChild } hr1).fix_parent_ptrs hfix
            split at h
            · rename_i b2 splitkey hb2 hsk
              have hb2k : ∀ k ∈ b2.keys, (k.key, k.recordLoc.clearLow) ∈ P :=
                fun k hk => hsD thisLoc b2 k hb2 hk
              have hskP : (splitkey.key, splitkey.recordLoc.clearLow) ∈ P :=
                hb1 _ (List.get?_mem hsk)
              have hs3 : SlotsIn P (sD.put thisLoc { b2 with nextChild := splitkey.prevChildBucket }) :=
                hsD.put_page _ _ hb2k
              split at h
              · cases h
              · rename_i x sQ hpro
                have hsQ : SlotsIn P sQ := by
                  split at hpro
                  · split at hpro
                    · cases hpro
                    · rename_i p hp
                      have hpk : ∀ k ∈ p.keys, (k.key, k.recordLoc.clearLow) ∈ P := by
                        intro k hk
                        rw [pushBack_keys hp] at hk
                        rcases List.mem_append.mp hk with h1 | h1
                        · exact nomatch h1
                        · rw [List.mem_singleton.mp h1]
                          exact hskP
                      split at hpro
                      · cases hpro
                      · rename_i sR hsR
                        simp only [Prod.mk.injEq] at hpro
                        rw [← hpro.2]
                        refine SlotsIn.set_parent ?_ hsR
                        have h0 := ((hs3.add_bucket c).put_page
                          (addBucket c (sD.put thisLoc
                            { b2 with nextChild := splitkey.prevChildBucket })).1
                          { p with nextChild := (addBucket c (s.put thisLoc b1)).1 } hpk).put_page
                          thisLoc { b2 with
                            parent := (addBucket c (sD.put thisLoc
                              { b2 with nextChild := splitkey.prevChildBucket })).1
                            nextChild := splitkey.prevChildBucket } hb2k
                        exact fun l bl k hl hk => h0 l bl k hl hk
                  · split at hpro
                    · cases hpro
                    · rename_i sR hsR
                      split at hpro
                      · cases hpro
                      · rename_i v sT hins
                        simp only [Prod.mk.injEq] at hpro
                        rw [← hpro.2]
                        refine ihB _ _ _ _ _ _ _ _ _ hins (hs3.set_parent hsR) hskP
                split at h
                · cases h
                · rename_i b4 hb4
                  split at h
                  · cases h
                  · rename_i b5 np htr
                    have hs5 : SlotsIn P (sQ.put thisLoc b5) :=
                      hsQ.put_page _ _ (fun k hk => hsQ thisLoc b4 k hb4 (truncateTo_mem htr k hk))
                    split at h
                    · exact ihA _ _ _ _ _ _ _ _ h hs5 hP
                    · exact ihA _ _ _ _ _ _ _ _ h hs5 hP
            · cases h

/-- Every slot that a successful insertion leaves holds a pair of `P`, when the
slots before it did and the new pair is one of `P`. -/
theorem insert_slots (c : Layout) (o : Ordering) (P : Set (BSONObj × DiskLoc)) :
    ∀ fuel : Nat,
      (∀ s thisLoc kp rl key lc rc s1,
        insertHere c o fuel s thisLoc kp rl key lc rc = (.ok (), s1) → SlotsIn P s →
        (key, rl.clearLow) ∈ P → SlotsIn P s1) ∧
      (∀ s thisLoc rl key d lC rC v s1,
        _insert c o fuel s thisLoc rl key d lC rC = (.ok v, s1) → SlotsIn P s →
        (key, rl.clearLow) ∈ P → SlotsIn P s1) ∧
      (∀ s thisLoc rl key d tl v s1,
        bt_insert c o fuel s thisLoc rl key d tl = (.ok v, s1) → SlotsIn P s →
        (key, rl.clearLow) ∈ P → SlotsIn P s1) := by
  intro fuel
  induction fuel with
  | zero =>
    refine ⟨?_, ?_, ?_⟩
    · intro s thisLoc kp rl key lc rc s1 h _ _
      rw [insertHere] at h
      cases h
    · intro s thisLoc rl key d lC rC v s1 h hs _
      rw [_insert] at h
      split at h
      · simp only [Prod.mk.injEq] at h
        rw [← h.2]
        exact hs
      · split at h
        · cases h
        · cases h
    · intro s thisLoc rl key d tl v s1 h hs _
      rw [bt_insert] at h
      split at h
      · simp only [Prod.mk.injEq] at h
        rw [← h.2]
        exact hs
      · cases h
  | succ fuel ih =>
    obtain ⟨ihA, ihB, ihC⟩ := ih
    refine ⟨?_, ?_, ?_⟩
    · exact insertHere_slots_step c o P fuel ihA ihB
    · intro s thisLoc rl key d lC rC v s1 h hs hP
      rw [_insert] at h
      split at h
      · simp only [Prod.mk.injEq] at h
        rw [← h.2]
        exact hs
      · split at h
        · cases h
        · split at h
          · cases h
          · rename_i b hb
            split at h
            · cases h
            · rename_i found pos hfind
              split at h
              · split at h
                · cases h
                · rename_i kn hkn
                  split at h
                  · split at h
                    · cases h
                    · split at h
                      · cases h
                      · simp only [Prod.mk.injEq] at h
                        rw [← h.2]
                        refine hs.put_page thisLoc _ ?_
                        intro k hk
                        rcases List.mem_or_eq_of_mem_set hk with h1 | h1
                        · exact hs thisLoc b k hb h1
                        · rw [h1, (setUsed_pair kn).1, (setUsed_pair kn).2]
                          exact hs thisLoc b kn hb (List.get?_mem hkn)
                  · cases h
              · split at h
                · cases h
                · split at h
                  · split at h
                    · cases h
                    · rename_i s2 hih
                      simp only [Prod.mk.injEq] at h
                      rw [← h.2]
                      exact ihA _ _ _ _ _ _ _ _ hih hs hP
                  · exact ihC _ _ _ _ _ _ _ _ h hs hP
    · intro s thisLoc rl key d tl v s1 h hs hP
      rw [bt_insert] at h
      split at h
      · simp only [Prod.mk.injEq] at h
        rw [← h.2]
        exact hs
      · exact ihB _ _ _ _ _ _ _ _ _ h hs hP

end BtreeBucket
end mongo
namespace mongo
namespace BtreeBucket

theorem SlotsIn.free {P : Set (BSONObj × DiskLoc)} {s : State} (h : SlotsIn P s) (l : DiskLoc) :
    SlotsIn P (s.free l) := by
  intro x bx k hx hk
  rw [State.free_pages] at hx
  by_cases e : x = l
  · rw [if_pos e] at hx
    cases hx
  · rw [if_neg e] at hx
    exact h x bx k hx hk

theorem setLow_clearLow (l : DiskLoc) : l.setLow.clearLow = l.clearLow := by
  simp only [DiskLoc.clearLow, DiskLoc.setLow]
  congr 1
  omega

theorem setChildForPos_mem {b b1 : BtreeBucket} {p : Nat} {l : DiskLoc}
    (h : b.setChildForPos p l = some b1) :
    ∀ k ∈ b1.keys, ∃ k0 ∈ b.keys, k.key = k0.key ∧ k.recordLoc = k0.recordLoc := by
  unfold setChildForPos at h
  split at h
  · simp only [Option.some.injEq] at h
    rw [← h]
    exact fun k hk => ⟨k, hk, rfl, rfl⟩
  · split at h
    · cases h
    · rename_i kn hkn
      simp only [Option.some.injEq] at h
      rw [← h]
      exact fun k hk => mem_set_child hkn hk

theorem delKeyAtPos_mem {c : Layout} {b b1 : BtreeBucket} {p : Nat} {m : Bool}
    (h : _delKeyAtPos c b p m = .ok b1) : ∀ k ∈ b1.keys, k ∈ b.keys := by
  unfold _delKeyAtPos at h
  have key : ∀ (b2 : BtreeBucket), b2.keys = b.keys.take (min p (b.keys.length - 1))
      ++ b.keys.drop (p + 1) → ∀ k ∈ b2.keys, k ∈ b.keys := by
    intro b2 e k hk
    rw [e] at hk
    rcases List.mem_append.mp hk with h1 | h1
    · exact List.mem_of_mem_take h1
    · exact List.mem_of_mem_drop h1
  repeat' split at h
  all_goals first
    | (simp only [Except.ok.injEq] at h
       rw [← h]
       exact key _ rfl)
    | cases h

theorem markUnused_mem {b b1 : BtreeBucket} {p : Nat} (h : markUnused b p = .ok b1) :
    ∀ k ∈ b1.keys, ∃ k0 ∈ b.keys, k.key = k0.key ∧ k.recordLoc.clearLow = k0.recordLoc.clearLow := by
  unfold markUnused at h
  split at h
  · cases h
  · rename_i kn hkn
    simp only [Except.ok.injEq] at h
    rw [← h]
    intro k hk
    rcases List.mem_or_eq_of_mem_set hk with h1 | h1
    · exact ⟨k, h1, rfl, rfl⟩
    · refine ⟨kn, List.get?_mem hkn, by rw [h1]; rfl, ?_⟩
      rw [h1]
      exact setLow_clearLow _

theorem SlotsIn.of_same {P : Set (BSONObj × DiskLoc)} {s : State} (h : SlotsIn P s)
    {l : DiskLoc} {b b1 : BtreeBucket} (hl : s.pages l = some b)
    (hk : ∀ k ∈ b1.keys, ∃ k0 ∈ b.keys, k.key = k0.key ∧ k.recordLoc = k0.recordLoc) :
    ∀ k ∈ b1.keys, (k.key, k.recordLoc.clearLow) ∈ P := by
  intro k hk1
  obtain ⟨k0, hk0, e1, e2⟩ := hk k hk1
  rw [e1, e2]
  exact h l b k0 hl hk0

theorem SlotsIn.del_bucket {P : Set (BSONObj × DiskLoc)} {s s1 : State} (h : SlotsIn P s)
    {l : DiskLoc} (hd : delBucket s l = (.ok (), s1)) : SlotsIn P s1 := by
  unfold delBucket at hd
  split at hd
  · cases hd
  · rename_i b hb
    split at hd
    · cases hd
    · split at hd
      · cases hd
      · split at hd
        · cases hd
        · rename_i p hp
          split at hd
          · cases hd
          · rename_i p1 hp1
            simp only [Prod.mk.injEq, true_and] at hd
            rw [← hd]
            exact (h.put_page _ _ (h.of_same hp (setChildForPos_mem hp1))).free l

theorem SlotsIn.replace_with_next {P : Set (BSONObj × DiskLoc)} {s s1 : State}
    (h : SlotsIn P s) {l : DiskLoc} (hd : replaceWithNextChild s l = (.ok (), s1)) :
    SlotsIn P s1 := by
  unfold replaceWithNextChild at hd
  split at hd
  · cases hd
  · rename_i b hb
    split at hd
    · cases hd
    · simp only at hd
      split at hd
      · cases hd
      · rename_i x sR hrel
        have hsR : SlotsIn P sR := by
          split at hrel
          · split at hrel
            · cases hrel
            · simp only [Prod.mk.injEq] at hrel
              rw [← hrel.2]
              exact fun l0 b0 k hl hk => h l0 b0 k hl hk
          · split at hrel
            · cases hrel
            · split at hrel
              · cases hrel
              · rename_i p hp
                split at hrel
                · cases hrel
                · rename_i p1 hp1
                  simp only [Prod.mk.injEq] at hrel
                  rw [← hrel.2]
                  exact h.put_page _ _ (h.of_same hp (setChildForPos_mem hp1))
        split at hd
        · cases hd
        · rename_i sT hsT
          simp only [Prod.mk.injEq, true_and] at hd
          rw [← hd]
          exact (hsR.set_parent hsT).free l

end BtreeBucket
end mongo
namespace mongo
namespace BtreeBucket

/-- One call of `doMergeNeighbors`, given what the call of `balanceWithNeighbors`
it makes leaves. -/
theorem doMerge_slots_step (c : Layout) (o : Ordering) (P : Set (BSONObj × DiskLoc))
    (fuel : Nat)
    (ihC : ∀ s l s1, balanceWithNeighbors c o fuel s l = (.ok (), s1) → SlotsIn P s →
      SlotsIn P s1) :
    ∀ s l i s1, doMergeNeighbors c o (fuel + 1) s l i = (.ok (), s1) → SlotsIn P s →
      SlotsIn P s1 := by
  intro s thisLoc i s1 h hs
  rw [doMergeNeighbors] at h
  split at h
  · cases h
  · rename_i b hb
    split at h
    · rename_i kn leftLoc rightLoc hkn hlc hrc
      split at h
      · cases h
      · split at h
        · rename_i l r hl hr
          split at h
          · cases h
          · rename_i l1 pos hpl
            split at h
            · cases h
            · rename_i r1 pos1 hpr
              have hl1 : ∀ k ∈ l1.keys, (k.key, k.recordLoc.clearLow) ∈ P :=
                fun k hk => hs leftLoc l k hl (pack_mem hpl k hk)
              have hr1 : ∀ k ∈ r1.keys, (k.key, k.recordLoc.clearLow) ∈ P :=
                fun k hk => hs rightLoc r k hr (pack_mem hpr k hk)
              have hknP : (kn.key, kn.recordLoc.clearLow) ∈ P :=
                hs thisLoc b kn hb (List.get?_mem hkn)
              have hsA : SlotsIn P ((s.put leftLoc l1).put rightLoc r1) :=
                (hs.put_page _ _ hl1).put_page _ _ hr1
              simp only at h
              split at h
              · cases h
              · rename_i l2 hl2
                split at h
                · cases h
                · rename_i l3 hl3
                  have hl3k : ∀ k ∈ l3.keys, (k.key, k.recordLoc.clearLow) ∈ P := by
                    intro k hk
                    rcases pushBackAll_mem _ _ _ hl3 k hk with h1 | h1
                    · rw [pushBack_keys hl2] at h1
                      rcases List.mem_append.mp h1 with h2 | h2
                      · exact hl1 k h2
                      · rw [List.mem_singleton.mp h2]
                        exact hknP
                    · exact hr1 k h1
                  split at h
                  · cases h
                  · rename_i sF hfix
                    have hsF : SlotsIn P sF :=
                      (hsA.put_page leftLoc { l3 with nextChild := r1.nextChild } hl3k).fix_parent_ptrs
                        hfix
                    split at h
                    · cases h
                    · rename_i x sD hdel
                      have hsD : SlotsIn P sD := hsF.del_bucket hdel
                      split at h
                      · cases h
                      · rename_i b1 hb1
                        split at h
                        · cases h
                        · rename_i b2 hb2
                          split at h
                          · cases h
                          · rename_i b3 hb3
                            split at h
                            · cases h
                            · rename_i b4 hb4
                              have hb2k := hsD.of_same hb1 (setChildForPos_mem hb2)
                              have hb3k : ∀ k ∈ b3.keys, (k.key, k.recordLoc.clearLow) ∈ P := by
                                intro k hk
                                obtain ⟨k0, hk0, e1, e2⟩ := setChildForPos_mem hb3 k hk
                                rw [e1, e2]
                                exact hb2k k0 hk0
                              have hs4 : SlotsIn P (sD.put thisLoc b4) :=
                                hsD.put_page _ _ (fun k hk => hb3k k (delKeyAtPos_mem hb4 k hk))
                              split at h
                              · exact hs4.replace_with_next h
                              · exact ihC _ _ _ h hs4
        · cases h
    · cases h

/-- Every slot that a successful merge or rebalancing leaves holds a pair of
`P`, when the slots before it did. -/
theorem merge_slots (c : Layout) (o : Ordering) (P : Set (BSONObj × DiskLoc)) :
    ∀ fuel : Nat,
      (∀ s l i r s1, tryMergeNeighbors c o fuel s l i = (.ok r, s1) → SlotsIn P s →
        SlotsIn P s1) ∧
      (∀ s l i s1, doMergeNeighbors c o fuel s l i = (.ok (), s1) → SlotsIn P s →
        SlotsIn P s1) ∧
      (∀ s l s1, balanceWithNeighbors c o fuel s l = (.ok (), s1) → SlotsIn P s →
        SlotsIn P s1) := by
  intro fuel
  induction fuel with
  | zero =>
    refine ⟨?_, ?_, ?_⟩
    · intro s l i r s1 h _
      rw [tryMergeNeighbors] at h
      cases h
    · intro s l i s1 h _
      rw [doMergeNeighbors] at h
      cases h
    · intro s l s1 h _
      rw [balanceWithNeighbors] at h
      cases h
  | succ fuel ih =>
    obtain ⟨ihA, ihB, ihC⟩ := ih
    refine ⟨?_, doMerge_slots_step c o P fuel ihC, ?_⟩
    · intro s l i r s1 h hs
      rw [tryMergeNeighbors] at h
      split at h
      · cases h
      · split at h
        · split at h
          · simp only [Prod.mk.injEq] at h
            rw [← h.2]
            exact hs
          · split at h
            · split at h
              · simp only [Prod.mk.injEq] at h
                rw [← h.2]
                exact hs
              · split at h
                · cases h
                · rename_i x sM hm
                  simp only [Prod.mk.injEq] at h
                  rw [← h.2]
                  exact ihB _ _ _ _ hm hs
            · cases h
        · cases h
        · cases h
    · intro s l s1 h hs
      rw [balanceWithNeighbors] at h
      split at h
      · cases h
      · split at h
        · simp only [Prod.mk.injEq, true_and] at h
          rw [← h]
          exact hs
        · split at h
          · simp only at h
            split at h
            · cases h
            · rename_i sT hfirst
              simp only [Prod.mk.injEq, true_and] at h
              rw [← h]
              split at hfirst
              · exact ihA _ _ _ _ _ hfirst hs
              · cases hfirst
            · rename_i sT hfirst
              have hsT : SlotsIn P sT := by
                split at hfirst
                · exact ihA _ _ _ _ _ hfirst hs
                · simp only [Prod.mk.injEq] at hfirst
                  rw [← hfirst.2]
                  exact hs
              split at h
              · split at h
                · cases h
                · rename_i x sU hsec
                  simp only [Prod.mk.injEq, true_and] at h
                  rw [← h]
                  exact ihA _ _ _ _ _ hsec hsT
              · simp only [Prod.mk.injEq, true_and] at h
                rw [← h]
                exact hsT
          · cases h
          · cases h

/-- Every slot that a successful `delKeyAtPos` leaves holds a pair of `P`, when
the slots before it did. -/
theorem delKeyAtPos_slots (c : Layout) (o : Ordering) (P : Set (BSONObj × DiskLoc))
    (fuel : Nat) (s : State) (l : DiskLoc) (p : Nat) (s1 : State)
    (h : delKeyAtPos c o fuel s l p = (.ok (), s1)) (hs : SlotsIn P s) : SlotsIn P s1 := by
  have hmark : ∀ b b1, s.pages l = some b → markUnused b p = .ok b1 →
      SlotsIn P (s.put l b1) := by
    intro b b1 hb hm
    refine hs.put_page _ _ ?_
    intro k hk
    obtain ⟨k0, hk0, e1, e2⟩ := markUnused_mem hm k hk
    rw [e1, e2]
    exact hs l b k0 hb hk0
  have hdel : ∀ b b1 m, s.pages l = some b → _delKeyAtPos c b p m = .ok b1 →
      SlotsIn P (s.put l b1) := by
    intro b b1 m hb hm
    exact hs.put_page _ _ (fun k hk => hs l b k hb (delKeyAtPos_mem hm k hk))
  unfold delKeyAtPos at h
  split at h
  · cases h
  · rename_i b hb
    split at h
    · cases h
    · split at h
      · cases h
      · split at h
        · split at h
          · split at h
            · split at h
              · cases h
              · rename_i b1 hb1
                simp only [Prod.mk.injEq, true_and] at h
                rw [← h]
                exact hdel b b1 _ hb hb1
            · exact hs.del_bucket h
          · split at h
            · cases h
            · rename_i b1 hb1
              simp only [Prod.mk.injEq, true_and] at h
              rw [← h]
              exact hmark b b1 hb hb1
        · split at h
          · split at h
            · cases h
            · rename_i b1 hb1
              exact (merge_slots c o P fuel).2.2 _ _ _ h (hdel b b1 _ hb hb1)
          · split at h
            · cases h
            · rename_i b1 hb1
              simp only [Prod.mk.injEq, true_and] at h
              rw [← h]
              exact hmark b b1 hb hb1

/-- Every slot that a call of `unindex` leaves holds a pair of `P`, when the
slots before it did. -/
theorem unindex_slots (c : Layout) (o : Ordering) (P : Set (BSONObj × DiskLoc))
    (fuel : Nat) (s : State) (l : DiskLoc) (key : BSONObj) (rl : DiskLoc) (r : Bool)
    (s1 : State) (h : unindex c o fuel s l key rl = (.ok r, s1)) (hs : SlotsIn P s) :
    SlotsIn P s1 := by
  unfold unindex at h
  split at h
  · simp only [Prod.mk.injEq] at h
    rw [← h.2]
    exact hs
  · split at h
    · cases h
    · split at h
      · split at h
        · cases h
        · split at h
          · cases h
          · rename_i x sD hd
            simp only [Prod.mk.injEq] at h
            rw [← h.2]
            exact delKeyAtPos_slots c o P fuel s _ _ sD hd hs
      · simp only [Prod.mk.injEq] at h
        rw [← h.2]
        exact hs

end BtreeBucket
end mongo
namespace mongo
namespace BtreeBucket

/-! ## A run of calls leaves the entries that the calls ask for -/

theorem entryKey_eq_iff (o : Ordering) (k1 k2 : BSONObj) (r1 r2 : DiskLoc) :
    entryKey o k1 r1 = entryKey o k2 r2 ↔ k1.woCompare k2 o = 0 ∧ r1 = r2 := by
  rw [woCompare_eq_iff]
  constructor
  · intro h
    have h1 := congrArg EKey.fields h
    have h2 := congrArg EKey.file h
    have h3 := congrArg EKey.ofs h
    refine ⟨h1, ?_⟩
    cases r1
    cases r2
    simp only [entryKey] at h2 h3
    rw [h2, h3]
  · rintro ⟨h1, rfl⟩
    simp only [entryKey, h1]

/-- A call of `bt_insert` that returns 0 was given a key of a size between 1
and `KeyMax`. -/
theorem bt_insert_ok_size {c : Layout} {o : Ordering} {fuel : Nat} {s s1 : State}
    {l rl : DiskLoc} {key : BSONObj} {d tl : Bool}
    (h : bt_insert c o fuel s l rl key d tl = (.ok 0, s1)) :
    0 < key.objsize ∧ key.objsize ≤ KeyMax c := by
  have hB : ∀ f, _insert c o f s l rl key d DiskLoc.Null DiskLoc.Null = (.ok 0, s1) →
      0 < key.objsize ∧ key.objsize ≤ KeyMax c := by
    intro f h
    cases f with
    | zero =>
      rw [_insert] at h
      split at h
      · simp only [Prod.mk.injEq, Except.ok.injEq] at h
        exact absurd h.1 (by decide)
      · split at h
        · cases h
        · cases h
    | succ f =>
      rw [_insert] at h
      split at h
      · simp only [Prod.mk.injEq, Except.ok.injEq] at h
        exact absurd h.1 (by decide)
      · rename_i hbig
        split at h
        · cases h
        · rename_i hpos
          exact ⟨by simpa using hpos, not_lt.mp hbig⟩
  cases fuel with
  | zero =>
    rw [bt_insert] at h
    split at h
    · simp only [Prod.mk.injEq, Except.ok.injEq] at h
      exact absurd h.1 (by decide)
    · cases h
  | succ f =>
    rw [bt_insert] at h
    split at h
    · simp only [Prod.mk.injEq, Except.ok.injEq] at h
      exact absurd h.1 (by decide)
    · exact hB f h

/-- With duplicates not allowed, `bt_insert` of a key that a used slot of the
tree holds raises and leaves the state as it was. -/
theorem bt_insert_refused {c : Layout} {o : Ordering} {s : State} {g : Ghost}
    (h : Inv c o s g) (key : BSONObj) (rl : DiskLoc) (hu : HasUsedKey o s key)
    (hk1 : 0 < key.objsize) (hk2 : key.objsize ≤ KeyMax c) :
    ∃ F0, ∀ fuel, F0 ≤ fuel → ∃ e, bt_insert c o fuel s s.head rl key false true = (.error e, s) := by
  obtain ⟨hb, hhead, _, _⟩ := h.head
  obtain ⟨F0, _, hyes⟩ := dupProbe_spec h key (o := o)
  obtain ⟨l2, b2, u2, hl2, hu2, _, hkey2, hprobe⟩ := hyes hu
  refine ⟨F0 + 2 * g.rank s.head + 2, fun fuel hf => ?_⟩
  obtain ⟨e, he, _⟩ := bt_insert_dup h hl2 hu2 key rl hkey2 hk1 hk2 (fun _ => True) F0 _
    (fun fuel hf => hprobe fuel hf rl) trivial (fun _ _ _ _ _ _ _ => trivial)
    (g.rank s.head) s.head hb hhead (le_refl _) (h.reachable hl2) fuel hf true
  exact ⟨e, he⟩

/-- The tree holds a used slot with a key equal to `key` exactly when one of
the pairs it holds has such a key. -/
theorem hasUsedKey_iff {o : Ordering} {s : State} {Ms : List (BSONObj × DiskLoc)}
    (hC : Content o s = {e | ∃ p ∈ Ms, entryKey o p.1 p.2 = e}) (key : BSONObj) :
    HasUsedKey o s key ↔ ∃ p ∈ Ms, p.1.woCompare key o = 0 := by
  constructor
  · rintro ⟨l, b, kn, hl, hk, hused, hkey⟩
    have hm : kn.ekey o ∈ Content o s := ⟨l, b, kn, hl, hk, hused, rfl⟩
    rw [hC] at hm
    obtain ⟨p, hp, he⟩ := hm
    refine ⟨p, hp, ?_⟩
    have h1 : normElems o 1 p.1.elems = normElems o 1 kn.key.elems := congrArg EKey.fields he
    rw [woCompare_eq_iff] at hkey ⊢
    rw [h1, hkey]
  · rintro ⟨p, hp, hkey⟩
    have hm : entryKey o p.1 p.2 ∈ Content o s := by
      rw [hC]
      exact ⟨p, hp, rfl⟩
    obtain ⟨l, b, kn, hl, hk, hused, he⟩ := hm
    refine ⟨l, b, kn, hl, hk, hused, ?_⟩
    have h1 : normElems o 1 kn.key.elems = normElems o 1 p.1.elems := congrArg EKey.fields he
    rw [woCompare_eq_iff] at hkey ⊢
    rw [h1, hkey]

theorem expectAccepts_iff (c : Layout) (o : Ordering) (M : List (BSONObj × DiskLoc))
    (key : BSONObj) (rl : DiskLoc) (d : Bool) :
    expectAccepts c o M key rl d = true ↔
      0 < key.objsize ∧ key.objsize ≤ KeyMax c ∧
      (∀ p ∈ M, entryKey o p.1 p.2 ≠ entryKey o key rl) ∧
      (d = true ∨ ∀ p ∈ M, p.1.woCompare key o ≠ 0) := by
  simp only [expectAccepts, Bool.and_eq_true, decide_eq_true_eq, List.all_eq_true,
    Bool.or_eq_true, ne_eq, entryKey_eq_iff]
  tauto

theorem stepOp_state_insert (c : Layout) (o : Ordering) (fuel : Nat) (s : State) (M : List EKey)
    (key : BSONObj) (rl : DiskLoc) (d : Bool) :
    (stepOp c o fuel (s, M) (.insert key rl d)).1
      = (bt_insert c o fuel s s.head rl key d true).2 := by
  simp only [stepOp]
  generalize bt_insert c o fuel s s.head rl key d true = R
  obtain ⟨res, s1⟩ := R
  cases res with
  | error e => rfl
  | ok v =>
    by_cases hv : v = 0
    · simp only [hv, if_true]
    · simp only [hv, if_false]

theorem stepOp_state_remove (c : Layout) (o : Ordering) (fuel : Nat) (s : State) (M : List EKey)
    (key : BSONObj) (rl : DiskLoc) :
    (stepOp c o fuel (s, M) (.remove key rl)).1 = (unindex c o fuel s s.head key rl).2 := by
  simp only [stepOp]
  generalize unindex c o fuel s s.head key rl = R
  obtain ⟨res, s1⟩ := R
  cases res with
  | error e => rfl
  | ok v =>
    cases v with
    | true => rfl
    | false => rfl

/-- One call on a well-formed tree that holds the pairs `Ms`: with enough fuel
it leaves a well-formed tree that holds the pairs that the call asks for, and
whose slots hold pairs of `P` when they did before and the call inserts
one. -/
theorem stepOp_expected (c : Layout) (hc : Layout.Sane c) (o : Ordering)
    (P : Set (BSONObj × DiskLoc)) (s : State) (Ms : List (BSONObj × DiskLoc))
    (hwf : WellFormed c o s) (hC : Content o s = {e | ∃ p ∈ Ms, entryKey o p.1 p.2 = e})
    (hsl : SlotsIn P s) (op : Op) (hv : op.Valid)
    (hP : ∀ key rl d, op = .insert key rl d → (key, rl) ∈ P) :
    ∃ F0 s1, (∀ fuel, F0 ≤ fuel → ∀ M, (stepOp c o fuel (s, M) op).1 = s1) ∧
      WellFormed c o s1 ∧
      Content o s1 = {e | ∃ p ∈ expectStep c o Ms op, entryKey o p.1 p.2 = e} ∧
      SlotsIn P s1 := by
  cases op with
  | insert key rl d =>
    obtain ⟨h1, h2, h3⟩ := hv
    obtain ⟨F0, res, s1, hrun, hwf1, hout, hsucc⟩ :=
      bt_insert_total c hc o s hwf key rl d ⟨h1, h2⟩ h3
    have hPk : (key, rl.clearLow) ∈ P := by
      rw [clearLow_of_even h3]
      exact hP key rl d rfl
    have hstate : ∀ fuel, F0 ≤ fuel → ∀ M, (stepOp c o fuel (s, M) (.insert key rl d)).1 = s1 := by
      intro fuel hf M
      rw [stepOp_state_insert, hrun fuel hf]
    have hmemC : ∀ e, e ∈ Content o s ↔ ∃ p ∈ Ms, entryKey o p.1 p.2 = e := by
      intro e
      rw [hC]
      rfl
    by_cases hacc : expectAccepts c o Ms key rl d = true
    · -- the index takes the pair
      obtain ⟨a1, a2, a3, a4⟩ := (expectAccepts_iff c o Ms key rl d).mp hacc
      have hnot : entryKey o key rl ∉ Content o s := by
        rw [hmemC]
        rintro ⟨p, hp, he⟩
        exact a3 p hp he
      have hdup : d = true ∨ ¬ HasUsedKey o s key := by
        rcases a4 with h4 | h4
        · exact Or.inl h4
        · refine Or.inr ?_
          rw [hasUsedKey_iff hC]
          rintro ⟨p, hp, he⟩
          exact h4 p hp he
      have hres := hsucc a1 a2 hnot hdup
      rcases hout with ⟨_, _, hcont⟩ | ⟨hne, _⟩
      · refine ⟨F0, s1, hstate, hwf1, ?_, ?_⟩
        · rw [hcont, hC]
          simp only [expectStep, hacc, if_true]
          ext e
          simp only [Set.mem_union, Set.mem_setOf_eq, Set.mem_singleton_iff, List.mem_cons,
            exists_eq_or_imp]
          constructor
          · rintro (h5 | h5)
            · exact Or.inr h5
            · exact Or.inl h5.symm
          · rintro (h5 | h5)
            · exact Or.inr h5.symm
            · exact Or.inl h5
        · have := hrun F0 (le_refl _)
          rw [hres] at this
          exact (insert_slots c o P F0).2.2 _ _ _ _ _ _ _ _ this hsl hPk
      · exact absurd hres hne
    · -- the index refuses the pair
      have hstep : expectStep c o Ms (.insert key rl d) = Ms := by
        simp only [expectStep, hacc, Bool.false_eq_true, if_false]
      rw [hstep]
      rcases hout with ⟨hres, _, hcont⟩ | ⟨_, hs1⟩
      · have hrun0 := hrun F0 (le_refl _)
        rw [hres] at hrun0
        obtain ⟨a1, a2⟩ := bt_insert_ok_size hrun0
        have hsl1 : SlotsIn P s1 := (insert_slots c o P F0).2.2 _ _ _ _ _ _ _ _ hrun0 hsl hPk
        refine ⟨F0, s1, hstate, hwf1, ?_, hsl1⟩
        rw [hcont, ← hC]
        have hin : entryKey o key rl ∈ Content o s := by
          by_contra hnot
          have hrej : ¬ (d = true ∨ ∀ p ∈ Ms, p.1.woCompare key o ≠ 0) := by
            intro a4
            apply hacc
            rw [expectAccepts_iff]
            refine ⟨a1, a2, ?_, a4⟩
            intro p hp he
            exact hnot ((hmemC _).mpr ⟨p, hp, he⟩)
          push_neg at hrej
          obtain ⟨hd, p, hp, hpk⟩ := hrej
          have hd0 : d = false := by simpa using hd
          obtain ⟨g, hinv⟩ := hwf
          obtain ⟨F1, hF1⟩ := bt_insert_refused hinv key rl
            ((hasUsedKey_iff hC key).mpr ⟨p, hp, hpk⟩) a1 a2
          obtain ⟨e, he⟩ := hF1 (max F0 F1) (le_max_right _ _)
          have h6 := hrun (max F0 F1) (le_max_left _ _)
          rw [hd0, he, hres] at h6
          cases h6
        ext e
        simp only [Set.mem_union, Set.mem_singleton_iff]
        constructor
        · rintro (h5 | h5)
          · exact h5
          · rw [h5]
            exact hin
        · exact fun h5 => Or.inl h5
      · refine ⟨F0, s1, hstate, hwf1, ?_, ?_⟩
        · rw [hs1]
          exact hC
        · rw [hs1]
          exact hsl
  | remove key rl =>
    obtain ⟨F0, res, s1, hrun, hwf1, hiff, hyes, hno, hgone⟩ :=
      unindex_spec c hc o s hwf key rl
    have hstate : ∀ fuel, F0 ≤ fuel → ∀ M, (stepOp c o fuel (s, M) (.remove key rl)).1 = s1 := by
      intro fuel hf M
      rw [stepOp_state_remove, hrun fuel hf]
    have hsl1 : SlotsIn P s1 :=
      unindex_slots c o P F0 s s.head key rl res s1 (hrun F0 (le_refl _)) hsl
    refine ⟨F0, s1, hstate, hwf1, ?_, hsl1⟩
    by_cases hbig : key.objsize > KeyMax c
    · have hres : res = false := by
        cases res with
        | false => rfl
        | true => exact absurd (hiff.mp rfl).1 (not_le.mpr hbig)
      rw [hno hres, hC]
      simp only [expectStep, hbig, if_true]
    · have hle : key.objsize ≤ KeyMax c := not_lt.mp hbig
      simp only [expectStep, hbig, if_false]
      have hrem : Content o s1 = Content o s \ {entryKey o key rl} := by
        cases res with
        | true => exact hyes rfl
        | false =>
          have hs := hno rfl
          have hg := hgone hle
          rw [hs] at hg ⊢
          ext e
          simp only [Set.mem_diff, Set.mem_singleton_iff]
          constructor
          · intro h5
            refine ⟨h5, ?_⟩
            rintro rfl
            exact hg h5
          · exact fun h5 => h5.1
      rw [hrem, hC]
      ext e
      simp only [Set.mem_diff, Set.mem_setOf_eq, Set.mem_singleton_iff, List.mem_filter,
        decide_eq_true_eq, ← entryKey_eq_iff]
      constructor
      · rintro ⟨⟨p, hp, he⟩, hne⟩
        exact ⟨p, ⟨hp, by rw [he]; exact hne⟩, he⟩
      · rintro ⟨p, ⟨hp, hne⟩, he⟩
        exact ⟨⟨p, hp, he⟩, by rw [← he]; exact hne⟩

end BtreeBucket
end mongo
namespace mongo
namespace BtreeBucket

/-- The full walks of a well-formed tree, forward and backward: they return the
same pairs, ascending in the index order; the pairs are those of the used slots,
and their positions in the index order are the entries of the tree. -/
theorem traverse_pairs (c : Layout) (o : Ordering) (s : State) (hwf : WellFormed c o s) :
    ∃ N W, (∀ fuel, N ≤ fuel → traverse s 1 fuel = .ok W) ∧
      (∀ fuel, N ≤ fuel → traverse s (-1) fuel = .ok W.reverse) ∧
      (W.map (fun kr => entryKey o kr.1 kr.2)).Pairwise (· < ·) ∧
      (∀ e, e ∈ W.map (fun kr => entryKey o kr.1 kr.2) ↔ e ∈ Content o s) ∧
      ∀ p ∈ W, ∃ l b k, s.pages l = some b ∧ k ∈ b.keys ∧ k.isUsed = true ∧
        (k.key, k.recordLoc) = p := by
  obtain ⟨N, W, hfwd, hbwd, hsorted, hmem⟩ := traverse_content c o s hwf
  obtain ⟨g, hinv⟩ := hwf
  obtain ⟨N1, L, _, hfwd1, _⟩ := traverse_spec hinv
  have hW : W = usedAt s L := by
    have h1 := hfwd (max N N1) (le_max_left _ _)
    rw [hfwd1 (max N N1) (le_max_right _ _)] at h1
    simp only [Except.ok.injEq] at h1
    exact h1.symm
  refine ⟨N, W, hfwd, hbwd, hsorted, hmem, ?_⟩
  intro p hp
  rw [hW] at hp
  obtain ⟨y, _, k, hk, hused, hkp⟩ := (usedAt_mem s L p).mp hp
  obtain ⟨b, hb, hkb, _⟩ := slotAt_mem hk
  exact ⟨y.1, b, k, hb, hkb, hused, hkp⟩

/-- Pairs in the order of the index, in terms of the comparisons of the code:
the keys compare `<= 0`, and when they compare equal the record locator of the
first is below that of the second. -/
theorem pair_order_of_lt (o : Ordering) {x y : BSONObj × DiskLoc}
    (h : entryKey o x.1 x.2 < entryKey o y.1 y.2) :
    x.1.woCompare y.1 o ≤ 0 ∧ (x.1.woCompare y.1 o = 0 → x.2.compare y.2 < 0) := by
  rw [EKey.lt_iff] at h
  constructor
  · rcases h with h | ⟨h, _⟩
    · exact le_of_lt ((woCompare_lt_iff o x.1 y.1).mpr h)
    · exact le_of_eq ((woCompare_eq_iff o x.1 y.1).mpr h)
  · intro h0
    have hf := (woCompare_eq_iff o x.1 y.1).mp h0
    rw [(DiskLoc.compare_sign _ _).1]
    rcases h with h | ⟨_, h⟩
    · simp only [entryKey] at h
      rw [hf] at h
      exact absurd h (lt_irrefl _)
    · simpa only [entryKey] using h

theorem slotsIn_emptyTree (c : Layout) (P : Set (BSONObj × DiskLoc)) :
    SlotsIn P (emptyTree c) := by
  intro l b k hl hk
  have hl1 : (emptyTree c).pages l = some b := hl
  simp only [emptyTree, addBucket_eq, State.put, Function.update_apply] at hl1
  split at hl1
  · simp only [Option.some.injEq] at hl1
    rw [← hl1] at hk
    exact nomatch hk
  · cases hl1

/-- A run of calls from a well-formed tree that holds the pairs `Ms`: with
enough fuel it leaves a well-formed tree that holds the pairs that the calls ask
for. -/
theorem foldl_stepOp_expected (c : Layout) (hc : Layout.Sane c) (o : Ordering)
    (P : Set (BSONObj × DiskLoc)) :
    ∀ (ops : List Op) (s : State) (Ms : List (BSONObj × DiskLoc)), WellFormed c o s →
      Content o s = {e | ∃ p ∈ Ms, entryKey o p.1 p.2 = e} → SlotsIn P s →
      (∀ op ∈ ops, op.Valid) → (∀ key rl d, Op.insert key rl d ∈ ops → (key, rl) ∈ P) →
      ∃ F0 s1, (∀ fuel, F0 ≤ fuel → ∀ M, (ops.foldl (stepOp c o fuel) (s, M)).1 = s1) ∧
        WellFormed c o s1 ∧
        Content o s1 = {e | ∃ p ∈ ops.foldl (expectStep c o) Ms, entryKey o p.1 p.2 = e} ∧
        SlotsIn P s1 := by
  intro ops
  induction ops with
  | nil =>
    intro s Ms hwf hC hsl _ _
    exact ⟨0, s, fun _ _ _ => rfl, hwf, hC, hsl⟩
  | cons op rest ih =>
    intro s Ms hwf hC hsl hv hP
    obtain ⟨F1, s1, hrun1, hwf1, hC1, hsl1⟩ :=
      stepOp_expected c hc o P s Ms hwf hC hsl op (hv op (List.mem_cons_self _ _))
        (fun key rl d e => hP key rl d (by rw [e]; exact List.mem_cons_self _ _))
    obtain ⟨F2, s2, hrun2, hwf2, hC2, hsl2⟩ :=
      ih s1 (expectStep c o Ms op) hwf1 hC1 hsl1
        (fun x hx => hv x (List.mem_cons_of_mem _ hx))
        (fun key rl d hm => hP key rl d (List.mem_cons_of_mem _ hm))
    refine ⟨max F1 F2, s2, ?_, hwf2, hC2, hsl2⟩
    intro fuel hf M
    rw [List.foldl_cons]
    have h1 := hrun1 fuel (le_trans (le_max_left _ _) hf) M
    have h2 : stepOp c o fuel (s, M) op = (s1, (stepOp c o fuel (s, M) op).2) := by
      rw [← h1]
    rw [h2]
    exact hrun2 fuel (le_trans (le_max_right _ _) hf) _

/-- Every pair that the calls of a run ask for was given to a call of
`bt_insert` of the run. -/
theorem expected_mem (c : Layout) (o : Ordering) :
    ∀ (ops : List Op) (Ms : List (BSONObj × DiskLoc)) (p : BSONObj × DiskLoc),
      p ∈ ops.foldl (expectStep c o) Ms → p ∈ Ms ∨ ∃ d, Op.insert p.1 p.2 d ∈ ops := by
  intro ops
  induction ops with
  | nil => exact fun Ms p hp => Or.inl hp
  | cons op rest ih =>
    intro Ms p hp
    rw [List.foldl_cons] at hp
    rcases ih _ p hp with h1 | ⟨d, h1⟩
    · cases op with
      | insert key rl d =>
        simp only [expectStep] at h1
        split at h1
        · rcases List.mem_cons.mp h1 with h2 | h2
          · exact Or.inr ⟨d, by rw [h2]; exact List.mem_cons_self _ _⟩
          · exact Or.inl h2
        · exact Or.inl h1
      | remove key rl =>
        simp only [expectStep] at h1
        split at h1
        · exact Or.inl h1
        · exact Or.inl (List.mem_of_mem_filter h1)
    · exact Or.inr ⟨d, List.mem_cons_of_mem _ h1⟩

/-- C1: for every run of `bt_insert` and `unindex` calls on an index, from its
creation (an empty single-page tree) on, the full walk forward (from the
leftmost slot, by `advance` with direction +1 until the null locator, unused
slots being skipped) and the full walk backward (from the rightmost slot,
direction -1) return, and the backward walk yields the pairs of the forward
walk in the reverse order. The pairs of the forward walk ascend strictly in the
order of (key, recordLoc). They are the pairs inserted and not later unindexed,
`expectedEntries`, which is read from the calls alone: a pair with a given
record locator and a key equal to a given key is walked exactly when one is
expected; every pair walked was given to a call of `bt_insert` of the run; and
when keys of the run that the comparator finds equal are the same document, the
pairs walked are exactly the expected pairs. The run and the walks are given
enough fuel, and the record locators inserted are locators of records. -/
theorem traversal_yields_entries (c : Layout) (hc : Layout.Sane c) (o : Ordering)
    (ops : List Op) (hv : ∀ op ∈ ops, op.Valid) :
    ∃ F0 W, (∀ fuel, F0 ≤ fuel →
        traverse (runOps c o fuel ops).1 1 fuel = .ok W ∧
        traverse (runOps c o fuel ops).1 (-1) fuel = .ok W.reverse) ∧
      (W.map (fun kr => entryKey o kr.1 kr.2)).Pairwise (· < ·) ∧
      W.Pairwise (fun x y => x.1.woCompare y.1 o ≤ 0 ∧
        (x.1.woCompare y.1 o = 0 → x.2.compare y.2 < 0)) ∧
      (∀ key rl, (∃ p ∈ W, p.1.woCompare key o = 0 ∧ p.2 = rl) ↔
        (∃ q ∈ expectedEntries c o ops, q.1.woCompare key o = 0 ∧ q.2 = rl)) ∧
      (∀ p ∈ W, ∃ d, Op.insert p.1 p.2 d ∈ ops) ∧
      ((∀ k1 r1 d1 k2 r2 d2, Op.insert k1 r1 d1 ∈ ops → Op.insert k2 r2 d2 ∈ ops →
          k1.woCompare k2 o = 0 → k1 = k2) →
        ∀ p, p ∈ W ↔ p ∈ expectedEntries c o ops) := by
  obtain ⟨hwf0, hcont0⟩ := emptyTree_spec c hc o
  obtain ⟨F0, s1, hrun, hwf, hC, hsl⟩ :=
    foldl_stepOp_expected c hc o {p | ∃ d, Op.insert p.1 p.2 d ∈ ops} ops (emptyTree c) []
      hwf0 (by rw [hcont0]; ext e; simp) (slotsIn_emptyTree c _) hv
      (fun key rl d hm => ⟨d, hm⟩)
  obtain ⟨N, W, hfwd, hbwd, hsorted, hmem, hslots⟩ := traverse_pairs c o s1 hwf
  have hWP : ∀ p ∈ W, ∃ d, Op.insert p.1 p.2 d ∈ ops := by
    intro p hp
    obtain ⟨l, b, k, hl, hk, hused, hkp⟩ := hslots p hp
    have h1 := hsl l b k hl hk
    rw [clearLow_of_even (BtreeBuilder.even_of_isUsed hused), hkp] at h1
    exact h1
  have hEP : ∀ q ∈ expectedEntries c o ops, ∃ d, Op.insert q.1 q.2 d ∈ ops := by
    intro q hq
    rcases expected_mem c o ops [] q hq with h1 | h1
    · exact nomatch h1
    · exact h1
  have hiff : ∀ key rl, (∃ p ∈ W, p.1.woCompare key o = 0 ∧ p.2 = rl) ↔
      (∃ q ∈ expectedEntries c o ops, q.1.woCompare key o = 0 ∧ q.2 = rl) := by
    intro key rl
    have h1 := hmem (entryKey o key rl)
    rw [hC] at h1
    simp only [List.mem_map, Set.mem_setOf_eq, entryKey_eq_iff] at h1
    exact h1
  refine ⟨max F0 N, W, ?_, hsorted, ?_, hiff, hWP, ?_⟩
  · intro fuel hf
    have hs : (runOps c o fuel ops).1 = s1 := hrun fuel (le_trans (le_max_left _ _) hf) []
    rw [hs]
    exact ⟨hfwd fuel (le_trans (le_max_right _ _) hf), hbwd fuel (le_trans (le_max_right _ _) hf)⟩
  · have h1 := List.pairwise_map.mp hsorted
    exact h1.imp (fun h => pair_order_of_lt o h)
  · intro hcan p
    constructor
    · intro hp
      obtain ⟨q, hq, hk, hr⟩ := (hiff p.1 p.2).mp ⟨p, hp, (woCompare_eq_iff o p.1 p.1).mpr rfl, rfl⟩
      obtain ⟨d1, hd1⟩ := hWP p hp
      obtain ⟨d2, hd2⟩ := hEP q hq
      have hkk := hcan _ _ _ _ _ _ hd2 hd1 hk
      have : q = p := Prod.ext hkk hr
      rw [← this]
      exact hq
    · intro hp
      obtain ⟨q, hq, hk, hr⟩ := (hiff p.1 p.2).mpr ⟨p, hp, (woCompare_eq_iff o p.1 p.1).mpr rfl, rfl⟩
      obtain ⟨d1, hd1⟩ := hEP p hp
      obtain ⟨d2, hd2⟩ := hWP q hq
      have hkk := hcan _ _ _ _ _ _ hd2 hd1 hk
      have : q = p := Prod.ext hkk hr
      rw [← this]
      exact hq

theorem mixedOps_valid : ∀ op ∈ mixedOps, op.Valid := by
  intro op hop
  simp only [mixedOps, List.mem_cons, List.mem_singleton, List.not_mem_nil, or_false] at hop
  rcases hop with rfl | rfl | rfl | rfl | rfl | rfl | rfl | rfl | rfl | rfl | rfl <;>
    simp [Op.Valid]

theorem sorted_eq_of_mem {α β : Type} [LinearOrder β] (f : α → β) {l1 l2 : List α}
    (h1 : (l1.map f).Pairwise (· < ·)) (h2 : (l2.map f).Pairwise (· < ·))
    (hm : ∀ x, x ∈ l1 ↔ x ∈ l2) : l1 = l2 := by
  have s1 : l1.Pairwise (fun x y => f x < f y) := List.pairwise_map.mp h1
  have s2 : l2.Pairwise (fun x y => f x < f y) := List.pairwise_map.mp h2
  have n1 : l1.Nodup := s1.imp (fun h e => by rw [e] at h; exact lt_irrefl _ h)
  have n2 : l2.Nodup := s2.imp (fun h e => by rw [e] at h; exact lt_irrefl _ h)
  have hp : l1.Perm l2 := (List.perm_ext_iff_of_nodup n1 n2).mpr hm
  have : IsAntisymm α (fun x y => f x < f y) :=
    ⟨fun a b hab hba => absurd hab (not_lt_of_lt hba)⟩
  exact List.eq_of_perm_of_sorted hp s1 s2

theorem mixedOps_expected :
    expectedEntries smallLayout ascending mixedOps =
      [(sampleKey 6 10, ⟨1, 60⟩), (sampleKey 5 10, ⟨1, 50⟩), (sampleKey 4 10, ⟨1, 40⟩),
        (sampleKey 2 10, ⟨1, 20⟩), (sampleKey 1 10, ⟨1, 10⟩)] := by
  decide

theorem mixedOps_keys : ∀ k1 r1 d1 k2 r2 d2, Op.insert k1 r1 d1 ∈ mixedOps →
    Op.insert k2 r2 d2 ∈ mixedOps → k1.woCompare k2 ascending = 0 → k1 = k2 := by
  intro k1 r1 d1 k2 r2 d2 h1 h2 h
  simp only [mixedOps, List.mem_cons, List.mem_singleton, Op.insert.injEq, List.not_mem_nil,
    or_false, reduceCtorEq, false_or] at h1 h2
  rcases h1 with ⟨rfl, _, _⟩ | ⟨rfl, _, _⟩ | ⟨rfl, _, _⟩ | ⟨rfl, _, _⟩ | ⟨rfl, _, _⟩ |
    ⟨rfl, _, _⟩ | ⟨rfl, _, _⟩ | ⟨rfl, _, _⟩ | ⟨rfl, _, _⟩ <;>
  rcases h2 with ⟨rfl, _, _⟩ | ⟨rfl, _, _⟩ | ⟨rfl, _, _⟩ | ⟨rfl, _, _⟩ | ⟨rfl, _, _⟩ |
    ⟨rfl, _, _⟩ | ⟨rfl, _, _⟩ | ⟨rfl, _, _⟩ | ⟨rfl, _, _⟩ <;>
  first
    | rfl
    | exact absurd h (by decide)

/-- A run of C1 on `mixedOps`, whose record locators are locators of records:
six inserts that split the root, a removal that merges the leaves again, three
inserts that the index refuses and a removal of a pair that is not there. The
expected pairs are the keys 1, 2, 4, 5 and 6, and with enough fuel the walk
forward yields them in this order. -/
theorem traversal_yields_entries_witness :
    (∀ op ∈ mixedOps, op.Valid) ∧
    (∃ F0 W, (∀ fuel, F0 ≤ fuel →
        traverse (runOps smallLayout ascending fuel mixedOps).1 1 fuel = .ok W ∧
        traverse (runOps smallLayout ascending fuel mixedOps).1 (-1) fuel = .ok W.reverse) ∧
      (W.map (fun kr => entryKey ascending kr.1 kr.2)).Pairwise (· < ·) ∧
      W.Pairwise (fun x y => x.1.woCompare y.1 ascending ≤ 0 ∧
        (x.1.woCompare y.1 ascending = 0 → x.2.compare y.2 < 0)) ∧
      (∀ key rl, (∃ p ∈ W, p.1.woCompare key ascending = 0 ∧ p.2 = rl) ↔
        (∃ q ∈ expectedEntries smallLayout ascending mixedOps,
          q.1.woCompare key ascending = 0 ∧ q.2 = rl)) ∧
      (∀ p ∈ W, ∃ d, Op.insert p.1 p.2 d ∈ mixedOps) ∧
      ((∀ k1 r1 d1 k2 r2 d2, Op.insert k1 r1 d1 ∈ mixedOps → Op.insert k2 r2 d2 ∈ mixedOps →
          k1.woCompare k2 ascending = 0 → k1 = k2) →
        ∀ p, p ∈ W ↔ p ∈ expectedEntries smallLayout ascending mixedOps)) ∧
    expectedEntries smallLayout ascending mixedOps =
      [(sampleKey 6 10, ⟨1, 60⟩), (sampleKey 5 10, ⟨1, 50⟩), (sampleKey 4 10, ⟨1, 40⟩),
        (sampleKey 2 10, ⟨1, 20⟩), (sampleKey 1 10, ⟨1, 10⟩)] ∧
    ∃ F0, ∀ fuel, F0 ≤ fuel →
      traverse (runOps smallLayout ascending fuel mixedOps).1 1 fuel =
        .ok [(sampleKey 1 10, ⟨1, 10⟩), (sampleKey 2 10, ⟨1, 20⟩), (sampleKey 4 10, ⟨1, 40⟩),
          (sampleKey 5 10, ⟨1, 50⟩), (sampleKey 6 10, ⟨1, 60⟩)] := by
  refine ⟨mixedOps_valid,
    traversal_yields_entries smallLayout smallLayout_sane ascending mixedOps mixedOps_valid,
    mixedOps_expected, ?_⟩
  obtain ⟨F0, W, hrun, hsorted, _, _, _, hexact⟩ :=
    traversal_yields_entries smallLayout smallLayout_sane ascending mixedOps mixedOps_valid
  have hmem := hexact mixedOps_keys
  rw [mixedOps_expected] at hmem
  have hW : W = [(sampleKey 1 10, ⟨1, 10⟩), (sampleKey 2 10, ⟨1, 20⟩),
      (sampleKey 4 10, ⟨1, 40⟩), (sampleKey 5 10, ⟨1, 50⟩), (sampleKey 6 10, ⟨1, 60⟩)] := by
    refine sorted_eq_of_mem (fun kr => entryKey ascending kr.1 kr.2) hsorted (by decide) ?_
    intro x
    rw [hmem x]
    simp only [List.mem_cons, List.mem_singleton, List.not_mem_nil, or_false]
    tauto
  rw [← hW]
  exact ⟨F0, fun fuel hf => (hrun fuel hf).1⟩

end BtreeBucket
end mongo
namespace mongo
namespace BtreeBucket

/-- The invariant of a well-formed tree gives the five invariants in the terms
of the pages. -/
theorem Inv.tree_invariants {c : Layout} {o : Ordering} {s : State} {g : Ghost}
    (h : Inv c o s g) : TreeInvariants c o s := by
  obtain ⟨hb, hhb, hhp, _⟩ := h.head
  refine
    { order := fun l b hl => (h.page l b hl).sorted
      separation := fun l b k hl hk q bq kq hq hkq => h.subtree_sep hl hk hq hkq
      sizes := fun l b hl => (h.sizes l b hl).accounting
      back_pointer := ?_
      root := ⟨⟨hb, hhb, hhp⟩, fun l b hl => ⟨h.reachable hl, ?_⟩⟩ }
  · intro l b hl hne
    have hg := GInv.of_inv h
    obtain ⟨pb, hpb, hic⟩ := hg.link l b hl hne (Set.not_mem_empty _)
    obtain ⟨idx, hidx, hci⟩ := indexInParent_of_child s b l pb (hg.ne_null hpb) hpb hic
    exact ⟨pb, idx, hpb, hidx, childForPos_eq_some_le hci, hci⟩
  · constructor
    · intro hp
      exact h.head_of_parent_null hl hp
    · intro he
      rw [he, hhb] at hl
      cases hl
      exact hhp

/-- The full walk forward of a well-formed tree whose used slots hold pairs of
a strictly ascending list, and whose entries are those of the list, yields the
list. -/
theorem traverse_eq_list (c : Layout) (o : Ordering) (s : State) (hwf : WellFormed c o s)
    (S : List (BSONObj × DiskLoc))
    (hS : S.Pairwise (fun x y => entryKey o x.1 x.2 < entryKey o y.1 y.2))
    (hC : Content o s = {e | ∃ p ∈ S, entryKey o p.1 p.2 = e})
    (hsl : ∀ l b k, s.pages l = some b → k ∈ b.keys → k.isUsed = true →
      (k.key, k.recordLoc) ∈ S) :
    ∃ N, ∀ fuel, N ≤ fuel → traverse s 1 fuel = .ok S ∧ traverse s (-1) fuel = .ok S.reverse := by
  obtain ⟨N, W, hfwd, hbwd, hsorted, hmem, hslots⟩ := traverse_pairs c o s hwf
  have hWS : ∀ p ∈ W, p ∈ S := by
    intro p hp
    obtain ⟨l, b, k, hl, hk, hused, hkp⟩ := hslots p hp
    rw [← hkp]
    exact hsl l b k hl hk hused
  have hinj : ∀ x ∈ S, ∀ y ∈ S, entryKey o x.1 x.2 = entryKey o y.1 y.2 → x = y := by
    intro x hx y hy he
    by_contra hne
    rcases List.Pairwise.forall_of_forall_of_flip (R := fun x y => x = y ∨
        entryKey o x.1 x.2 ≠ entryKey o y.1 y.2) (fun _ _ => Or.inl rfl)
        (hS.imp (fun h => Or.inr (ne_of_lt h)))
        (hS.imp (fun h => Or.inr (ne_of_gt h))) hx hy with h1 | h1
    · exact hne h1
    · exact h1 he
  have hW : W = S := by
    refine sorted_eq_of_mem (fun kr => entryKey o kr.1 kr.2) hsorted
      (List.pairwise_map.mpr hS) ?_
    intro x
    constructor
    · exact hWS x
    · intro hx
      have h1 : entryKey o x.1 x.2 ∈ Content o s := by
        rw [hC]
        exact ⟨x, hx, rfl⟩
      obtain ⟨w, hw, he⟩ := List.mem_map.mp ((hmem _).mpr h1)
      have := hinj w (hWS w hw) x hx he
      rw [← this]
      exact hw
  rw [hW] at hfwd hbwd
  exact ⟨N, fun fuel hf => ⟨hfwd fuel hf, hbwd fuel hf⟩⟩

end BtreeBucket

namespace BtreeBuilder
open BtreeBucket

/-- What the calls of `bt_insert` for a strictly ascending list of pairs ask
for: every pair is taken. -/
theorem expected_inserts (c : Layout) (o : Ordering) (d : Bool) :
    ∀ (S Ms : List (BSONObj × DiskLoc)),
      (Ms.reverse ++ S).Pairwise (fun x y => entryKey o x.1 x.2 < entryKey o y.1 y.2) →
      (∀ p ∈ S, 0 < p.1.objsize ∧ p.1.objsize ≤ KeyMax c) →
      (d = false → (Ms.reverse ++ S).Pairwise (fun x y => x.1.woCompare y.1 o ≠ 0)) →
      (insertsOf d S).foldl (expectStep c o) Ms = S.reverse ++ Ms
  | [], Ms, _, _, _ => rfl
  | p :: rest, Ms, hS, hv, hd => by
    have hacc : expectAccepts c o Ms p.1 p.2 d = true := by
      rw [expectAccepts_iff]
      obtain ⟨h1, h2⟩ := hv p (List.mem_cons_self _ _)
      refine ⟨h1, h2, ?_, ?_⟩
      · intro q hq
        have := (List.pairwise_append.mp hS).2.2 q (List.mem_reverse.mpr hq) p
          (List.mem_cons_self _ _)
        exact ne_of_lt this
      · by_cases hd0 : d = true
        · exact Or.inl hd0
        · refine Or.inr ?_
          intro q hq
          exact (List.pairwise_append.mp (hd (by simpa using hd0))).2.2 q
            (List.mem_reverse.mpr hq) p (List.mem_cons_self _ _)
    have hre : (p :: Ms).reverse ++ rest = Ms.reverse ++ p :: rest := by simp
    show (insertsOf d rest).foldl (expectStep c o) (expectStep c o Ms (.insert p.1 p.2 d)) = _
    have hstep : expectStep c o Ms (.insert p.1 p.2 d) = p :: Ms := by
      simp only [expectStep, hacc, if_true]
    rw [hstep, expected_inserts c o d rest (p :: Ms) (by rw [hre]; exact hS)
      (fun q hq => hv q (List.mem_cons_of_mem _ hq)) (fun h => by rw [hre]; exact hd h)]
    simp

/-- The calls of `bt_insert` for a strictly ascending list of pairs within
`KeyMax`, on an empty tree: with enough fuel they leave a well-formed tree whose
full walk yields the list. -/
theorem inserts_walk (c : Layout) (hc : Layout.Sane c) (o : Ordering) (d : Bool)
    (S : List (BSONObj × DiskLoc))
    (hS : S.Pairwise (fun x y => entryKey o x.1 x.2 < entryKey o y.1 y.2))
    (hv : ∀ p ∈ S, 0 < p.1.objsize ∧ p.1.objsize ≤ KeyMax c ∧ 0 ≤ p.2.a ∧ 2 ≤ p.2.ofs ∧
      p.2.ofs % 2 = 0)
    (hd : d = false → S.Pairwise (fun x y => x.1.woCompare y.1 o ≠ 0)) :
    ∃ F0 sI, (∀ fuel, F0 ≤ fuel → (runOps c o fuel (insertsOf d S)).1 = sI) ∧
      WellFormed c o sI ∧ Content o sI = {e | ∃ p ∈ S, entryKey o p.1 p.2 = e} ∧
      ∀ fuel, F0 ≤ fuel → traverse sI 1 fuel = .ok S ∧ traverse sI (-1) fuel = .ok S.reverse := by
  obtain ⟨hwf0, hcont0⟩ := emptyTree_spec c hc o
  have hvalid : ∀ op ∈ insertsOf d S, op.Valid := by
    intro op hop
    obtain ⟨p, hp, rfl⟩ := List.mem_map.mp hop
    obtain ⟨_, _, h3, h4, h5⟩ := hv p hp
    exact ⟨h3, h4, h5⟩
  obtain ⟨F0, sI, hrun, hwf, hC, hsl⟩ :=
    foldl_stepOp_expected c hc o {p | p ∈ S} (insertsOf d S) (emptyTree c) []
      hwf0 (by rw [hcont0]; ext e; simp) (slotsIn_emptyTree c _) hvalid
      (by
        intro key rl d1 hm
        obtain ⟨p, hp, he⟩ := List.mem_map.mp hm
        simp only [Op.insert.injEq] at he
        have : p = (key, rl) := Prod.ext he.1 he.2.1
        rw [← this]
        exact hp)
  rw [expected_inserts c o d S [] (by simpa using hS)
    (fun p hp => ⟨(hv p hp).1, (hv p hp).2.1⟩) (fun h => by simpa using hd h)] at hC
  have hC1 : Content o sI = {e | ∃ p ∈ S, entryKey o p.1 p.2 = e} := by
    rw [hC]
    ext e
    simp
  obtain ⟨N, hN⟩ := traverse_eq_list c o sI hwf S hS hC1 (by
    intro l b k hl hk hused
    have h1 := hsl l b k hl hk
    rw [clearLow_of_even (even_of_isUsed hused)] at h1
    exact h1)
  exact ⟨max F0 N, sI, fun fuel hf => hrun fuel (le_trans (le_max_left _ _) hf) [], hwf, hC1,
    fun fuel hf => hN fuel (le_trans (le_max_right _ _) hf)⟩

/-- C18 (amended): for every stream `S` of (key, recordLoc) pairs that ascends
strictly in the order of the index (so no pair comes twice), with keys of a size
between 1 and `KeyMax` and record locators that are locators of records, and
with keys that pairwise do not compare equal when duplicates are not allowed:
the calls of `addKey` over `S` on a fresh builder followed by `commit` return
and leave a committed builder and a tree whose full walk forward yields `S`,
and so does the tree that the calls of `bt_insert` for the pairs of `S` leave,
starting from an empty tree; the backward walks yield `S` reversed; and the tree
of the builder is well formed and satisfies the order, subtree-separation,
size-accounting, parent-back-pointer and root-uniqueness invariants. The runs
and the walks are given enough fuel. -/
theorem builder_matches_inserts (c : Layout) (hc : Layout.Sane c) (o : Ordering) (d : Bool)
    (S : List (BSONObj × DiskLoc))
    (hS : S.Pairwise (fun x y => entryKey o x.1 x.2 < entryKey o y.1 y.2))
    (hv : ∀ p ∈ S, 0 < p.1.objsize ∧ p.1.objsize ≤ KeyMax c ∧ 0 ≤ p.2.a ∧ 2 ≤ p.2.ofs ∧
      p.2.ofs % 2 = 0)
    (hd : d = false → S.Pairwise (fun x y => x.1.woCompare y.1 o ≠ 0)) :
    ∃ F0 bb sB, (∀ fuel, F0 ≤ fuel → build c o fuel d S = (.ok bb, sB)) ∧
      bb.committed = true ∧ WellFormed c o sB ∧ TreeInvariants c o sB ∧
      ∀ fuel, F0 ≤ fuel →
        traverse sB 1 fuel = .ok S ∧
        traverse (runOps c o fuel (insertsOf d S)).1 1 fuel = .ok S ∧
        traverse sB (-1) fuel = .ok S.reverse ∧
        traverse (runOps c o fuel (insertsOf d S)).1 (-1) fuel = .ok S.reverse := by
  have hkk : d = false → S.Pairwise (fun x y => x.1.woCompare y.1 o < 0) := by
    intro h
    have h1 := hd h
    have h2 : S.Pairwise (fun x y => entryKey o x.1 x.2 < entryKey o y.1 y.2 ∧
        x.1.woCompare y.1 o ≠ 0) := hS.and h1
    exact h2.imp (fun h3 => lt_of_le_of_ne (pair_order_of_lt o h3.1).1 h3.2)
  obtain ⟨F1, bb, sB, hrunB, hcom, hwfB, hCB, hslB⟩ := build_spec hc o d S hS hv hkk
  obtain ⟨N1, hN1⟩ := traverse_eq_list c o sB hwfB S hS hCB
    (fun l b k hl hk _ => (hslB l b hl k hk).2)
  obtain ⟨F2, sI, hrunI, _, _, hN2⟩ := inserts_walk c hc o d S hS hv hd
  obtain ⟨g, hinv⟩ := hwfB
  refine ⟨max F1 (max N1 F2), bb, sB, fun fuel hf => hrunB fuel (le_trans (le_max_left _ _) hf),
    hcom, ⟨g, hinv⟩, hinv.tree_invariants, ?_⟩
  intro fuel hf
  have h1 : N1 ≤ fuel := le_trans (le_trans (le_max_left _ _) (le_max_right _ _)) hf
  have h2 : F2 ≤ fuel := le_trans (le_trans (le_max_right _ _) (le_max_right _ _)) hf
  rw [hrunI fuel h2]
  exact ⟨(hN1 fuel h1).1, (hN2 fuel h2).1, (hN1 fuel h1).2, (hN2 fuel h2).2⟩

end BtreeBuilder
end mongo
namespace mongo
namespace BtreeBuilder
open BtreeBucket

/-- A run of C18 (amended) on `sevenKeys`, with duplicates not allowed: the
pairs ascend strictly, the keys have 10 bytes (`KeyMax` is 20), the record
locators are locators of records and no two keys compare equal. -/
theorem builder_matches_inserts_witness :
    sevenKeys.Pairwise (fun x y => entryKey ascending x.1 x.2 < entryKey ascending y.1 y.2) ∧
    (∀ p ∈ sevenKeys, 0 < p.1.objsize ∧ p.1.objsize ≤ KeyMax smallLayout ∧ 0 ≤ p.2.a ∧
      2 ≤ p.2.ofs ∧ p.2.ofs % 2 = 0) ∧
    sevenKeys.Pairwise (fun x y => x.1.woCompare y.1 ascending ≠ 0) ∧
    ∃ F0 bb sB, (∀ fuel, F0 ≤ fuel → build smallLayout ascending fuel false sevenKeys
        = (.ok bb, sB)) ∧
      bb.committed = true ∧ WellFormed smallLayout ascending sB ∧
      TreeInvariants smallLayout ascending sB ∧
      ∀ fuel, F0 ≤ fuel →
        traverse sB 1 fuel = .ok sevenKeys ∧
        traverse (runOps smallLayout ascending fuel (insertsOf false sevenKeys)).1 1 fuel
          = .ok sevenKeys ∧
        traverse sB (-1) fuel = .ok sevenKeys.reverse ∧
        traverse (runOps smallLayout ascending fuel (insertsOf false sevenKeys)).1 (-1) fuel
          = .ok sevenKeys.reverse :=
  ⟨by decide, by decide, by decide,
    builder_matches_inserts smallLayout smallLayout_sane ascending false sevenKeys
      (by decide) (by decide) (fun _ => by decide)⟩

/-- C18 (the claim fails): the stream `repeatedPair` is in ascending order, its
keys are within `KeyMax`, and with duplicates allowed the builder takes both
pairs and commits; the walk of its tree yields the pair twice, whereas the
second `bt_insert` of the pair raises `AlreadyInIndex` and the walk of the tree
of the inserts yields the pair once. -/
theorem builder_counterexample :
    repeatedPair.Pairwise
      (fun x y => entryKey ascending x.1 x.2 ≤ entryKey ascending y.1 y.2) ∧
    (∀ p ∈ repeatedPair, 0 < p.1.objsize ∧ p.1.objsize ≤ KeyMax smallLayout) ∧
    (build smallLayout ascending 10 true repeatedPair).1
      = .ok ⟨true, 2, ⟨0, []⟩, ⟨0, 0⟩, ⟨0, 0⟩, true⟩ ∧
    traverse (build smallLayout ascending 10 true repeatedPair).2 1 10
      = .ok [(sampleKey 1 10, ⟨1, 10⟩), (sampleKey 1 10, ⟨1, 10⟩)] ∧
    (bt_insert smallLayout ascending 10
      (runOps smallLayout ascending 10 [Op.insert (sampleKey 1 10) ⟨1, 10⟩ true]).1 ⟨0, 0⟩
      ⟨1, 10⟩ (sampleKey 1 10) true true).1 = .error .alreadyInIndex ∧
    traverse (runOps smallLayout ascending 10 (insertsOf true repeatedPair)).1 1 10
      = .ok [(sampleKey 1 10, ⟨1, 10⟩)] :=
  ⟨by decide, by decide, by rfl, by rfl, by rfl, by rfl⟩

end BtreeBuilder
end mongo
